import Mathlib

/-!
# Balanced-tree indexing engine (Brant-Skywalker/RQRS)

A shallow embedding of the three tree variants of the repository and theorems about them:
the in-memory classic B-tree (src/BTree.cpp), the disk-resident B-tree (src/extra/BTree.cpp)
and the B+ tree (src/BPlusTree.cpp). Keys and values are integers. Arrays keep their fixed
capacity; an access outside the capacity, the use of a null pointer and the exhaustion of the
recursion budget are results of type `Err`.

The definitions come first; the lemmas and the theorems on the claims follow.
-/

set_option linter.all false

/-! Common machinery: undefined behaviour of the C++ source is made explicit. -/

/-- Ways in which a run of the C++ code leaves defined behaviour (or never returns). -/
inductive Err where
  /-- an array is indexed outside `[0, capacity)` -/
  | oob
  /-- a null pointer is dereferenced -/
  | null
  /-- the recursion budget given to the model ran out -/
  | fuel
  deriving DecidableEq, Repr

deriving instance DecidableEq for Except

/-- Read `a[i]` of a fixed-capacity array (`std::array`), failing outside the bounds. -/
def rd {α : Type} (a : List α) (i : Int) : Except Err α :=
  if i < 0 then .error .oob
  else match a.get? i.toNat with
    | some x => .ok x
    | none => .error .oob

/-- Write `a[i] = x` on a fixed-capacity array, failing outside the bounds. -/
def wr {α : Type} (a : List α) (i : Int) (x : α) : Except Err (List α) :=
  if i < 0 ∨ (a.length : Int) ≤ i then .error .oob
  else .ok (a.set i.toNat x)

/-- Indices visited by `for (j = lo; j < hi; ++j)`. -/
def upTo (lo hi : Int) : List Int :=
  (List.range (hi - lo).toNat).map (fun (d : Nat) => lo + (d : Int))

/-- Indices visited by `for (j = hi; j >= lo; --j)`. -/
def downTo (hi lo : Int) : List Int :=
  (List.range (hi + 1 - lo).toNat).map (fun (d : Nat) => hi - (d : Int))

/-- The loop `for (j = hi; j >= lo; --j) a[j + 1] = a[j];`. -/
def shiftUp {α : Type} (a : List α) (hi lo : Int) : Except Err (List α) :=
  (downTo hi lo).foldlM (fun a j => do wr a (j + 1) (← rd a j)) a

/-- The loop `for (j = lo; j < hi; ++j) a[j] = a[j + 1];`. -/
def shiftDown {α : Type} (a : List α) (lo hi : Int) : Except Err (List α) :=
  (upTo lo hi).foldlM (fun a j => do wr a j (← rd a (j + 1))) a

/-- The loop `for (j = 0; j < cnt; ++j) dst[j + dOff] = src[j + sOff];`. -/
def copyRange {α : Type} (dst src : List α) (cnt dOff sOff : Int) : Except Err (List α) :=
  (upTo 0 cnt).foldlM (fun a j => do wr a (j + dOff) (← rd src (j + sOff))) dst

/-- Dereference of a possibly null pointer. -/
def deref {α : Type} (p : Option α) : Except Err α :=
  match p with
  | some x => .ok x
  | none => .error .null

/-- The loop `while (i < n && key[i] < k) ++i;` of the `_find_key` methods, also the scan behind
`std::lower_bound` on a sorted range. -/
def scanUp (key : List Int) (n k : Int) : Nat → Int → Except Err Int
  | 0, _ => .error .fuel
  | f + 1, i =>
    if i < n then do
      let ki ← rd key i
      if ki < k then scanUp key n k f (i + 1) else pure i
    else pure i

/-- The loop `while (i >= 0 && k < key[i]) --i;`. -/
def scanDown (key : List Int) (k : Int) : Nat → Int → Except Err Int
  | 0, _ => .error .fuel
  | f + 1, i =>
    if 0 ≤ i then do
      let ki ← rd key i
      if k < ki then scanDown key k f (i - 1) else pure i
    else pure i

/-- The loop `while (i >= 0 && k < key[i]) { key[i+1] = key[i]; val[i+1] = val[i]; --i; }`. -/
def shiftWhile (k : Int) : Nat → List Int → List Int → Int → Except Err (List Int × List Int × Int)
  | 0, _, _, _ => .error .fuel
  | f + 1, key, val, i =>
    if 0 ≤ i then do
      let ki ← rd key i
      if k < ki then do
        let key ← wr key (i + 1) ki
        let val ← wr val (i + 1) (← rd val i)
        shiftWhile k f key val (i - 1)
      else pure (key, val, i)
    else pure (key, val, i)

/-- A call of the public interface that changes the tree. -/
inductive Call where
  | ins (k v : Int)
  | rem (k : Int)
  deriving DecidableEq, Repr

/-- The effect of a call on the finite map the tree stands for, kept as an association list. -/
def Call.apply (L : List (Int × Int)) : Call → List (Int × Int)
  | .ins k v => (k, v) :: L
  | .rem k => L.filter (fun p => decide (p.1 ≠ k))

/-- The finite map reached from `L` by a history of calls. -/
def contents (L : List (Int × Int)) (ops : List Call) : List (Int × Int) :=
  ops.foldl Call.apply L

/-- A history in which every insert is of a key not currently present and every remove is issued
while at least one key is held. -/
def Legal : List (Int × Int) → List Call → Prop
  | _, [] => True
  | L, .ins k v :: ops => k ∉ L.map Prod.fst ∧ Legal ((k, v) :: L) ops
  | L, .rem k :: ops => L ≠ [] ∧ Legal (L.filter (fun p => decide (p.1 ≠ k))) ops

/-! Views of arrays and in-order readings of multiway nodes. -/

/-- The first `n` slots of an array: the part in use when `n` is the element count. -/
def view {α : Type} (a : List α) (n : Int) : List α := a.take n.toNat

/-- The keys `ks` and the lists `cs` read in the order `k0, c0, k1, c1, ...`. -/
def rest {α : Type} : List (List α) → List α → List α
  | c :: cs, k :: ks => k :: (c ++ rest cs ks)
  | [], k :: _ => [k]
  | _, [] => []

/-- The lists `cs` and the keys `ks` read in the order `c0, k0, c1, k1, ..., cn`. -/
def inter {α : Type} : List (List α) → List α → List α
  | [], _ => []
  | c :: cs, ks => c ++ rest cs ks

/-- The lists `cs` and the keys `ks` read in the order `c0, k0, c1, k1, ..., k(n-1)`. -/
def pre {α : Type} : List (List α) → List α → List α
  | c :: cs, k :: ks => c ++ k :: pre cs ks
  | _, _ => []

/-- Pairs in non-decreasing key order. -/
def SortedKV (l : List (Int × Int)) : Prop := l.Pairwise (fun p q => p.1 ≤ q.1)

/-- Effect of a removal on the in-order reading: `res = false` leaves the reading alone and no
pair has key `k`; `res = true` gives a sorted reading drawn from the old pairs whose keys are the
old keys less one copy of `k`. -/
def RemSpec (L L' : List (Int × Int)) (k : Int) (res : Bool) : Prop :=
  (res = false ∧ L' = L ∧ ∀ p ∈ L, p.1 ≠ k) ∨
  (res = true ∧ SortedKV L' ∧ (∀ p ∈ L', p ∈ L) ∧ (L.map Prod.fst).Perm (k :: L'.map Prod.fst))

/-! In-memory classic B-tree (src/BTree.h, src/BTree.cpp). -/
namespace BTree

/-- The minimum degree `t` of src/BTree.h. -/
def t : Int := 16

/-- Source `BTree::Node`: fixed-capacity arrays `key_`, `val_` (2t-1 slots) and `c_` (2t slots, owning
child pointers, null when `none`), the flag `leaf_` and the key count `n_`. -/
inductive Node where
  | mk (key : List Int) (leaf : Bool) (n : Int) (val : List Int) (c : List (Option Node))

namespace Node
def key : Node → List Int | mk k _ _ _ _ => k
def leaf : Node → Bool | mk _ l _ _ _ => l
def n : Node → Int | mk _ _ n _ _ => n
def val : Node → List Int | mk _ _ _ v _ => v
def c : Node → List (Option Node) | mk _ _ _ _ c => c
def setKey : Node → List Int → Node | mk _ l n v c, k => mk k l n v c
def setLeaf : Node → Bool → Node | mk k _ n v c, l => mk k l n v c
def setN : Node → Int → Node | mk k l _ v c, n => mk k l n v c
def setVal : Node → List Int → Node | mk k l n _ c, v => mk k l n v c
def setC : Node → List (Option Node) → Node | mk k l n v _, c => mk k l n v c
end Node

/-- Source `BTree::_allocate_node` (`Node::Node()`): zeroed arrays, `leaf_ = false`, `n_ = 0`. -/
def _allocate_node (t : Int) : Node :=
  .mk (List.replicate (2 * t - 1).toNat 0) false 0 (List.replicate (2 * t - 1).toNat 0)
    (List.replicate (2 * t).toNat none)

/-- Source `BTree::_find_key`: `while (i < x->n_ && x->key_[i] < k) ++i;`, a loop of at most `n_`
rounds. -/
def _find_key (x : Node) (k : Int) : Except Err Int :=
  scanUp x.key x.n k (x.n.toNat + 1) 0

/-- The test `i < x->n_ && k == x->key_[i]` (short-circuit). -/
def hit (x : Node) (i k : Int) : Except Err Bool :=
  if i < x.n then do
    let ki ← rd x.key i
    pure (decide (k = ki))
  else pure false

/-- Source `BTree::_search`. -/
def _search : Nat → Option Node → Int → Except Err (Option Int)
  | 0, _, _ => .error .fuel
  | _ + 1, none, _ => pure none
  | f + 1, some x, k => do
    let i ← _find_key x k
    if (← hit x i k) then
      return some (← rd x.val i)
    if x.leaf then return none
    _search f (← rd x.c i) k

/-- Source `BTree::_split_child`. `y` is the object `x->c_[i]`, so its change is stored back in that
slot; the key and value arrays are shifted by the same loop in the source. -/
def _split_child (t : Int) (x : Node) (i : Int) : Except Err Node := do
  let y ← deref (← rd x.c i)
  let z := (_allocate_node t).setLeaf y.leaf
  let z := z.setKey (← copyRange z.key y.key (t - 1) 0 t)
  let z := z.setVal (← copyRange z.val y.val (t - 1) 0 t)
  let z ← if !y.leaf then do pure (z.setC (← copyRange z.c y.c t 0 t)) else pure z
  let y := y.setN (t - 1)
  let z := z.setN (t - 1)
  let x := x.setC (← wr x.c i (some y))
  let x := x.setC (← shiftUp x.c x.n (i + 1))
  let x := x.setC (← wr x.c (i + 1) (some z))
  let x := x.setKey (← shiftUp x.key (x.n - 1) i)
  let x := x.setVal (← shiftUp x.val (x.n - 1) i)
  let x := x.setKey (← wr x.key i (← rd y.key (t - 1)))
  let x := x.setVal (← wr x.val i (← rd y.val (t - 1)))
  pure (x.setN (x.n + 1))

/-- Source `BTree::_insert_non_full`. The child is the object `x->c_[i]`; the result of the recursive call
is stored back in that slot. -/
def _insert_non_full (t : Int) : Nat → Node → Int → Int → Except Err Node
  | 0, _, _, _ => .error .fuel
  | f + 1, x, k, v => do
    let i := x.n - 1
    if x.leaf then
      let (key, val, i) ← shiftWhile k (x.n.toNat + 1) x.key x.val i
      let key ← wr key (i + 1) k
      let val ← wr val (i + 1) v
      return ((x.setKey key).setVal val).setN (x.n + 1)
    let i ← scanDown x.key k (x.n.toNat + 1) i
    let i := i + 1
    let child ← deref (← rd x.c i)
    if child.n = 2 * t - 1 then
      let x ← _split_child t x i
      let i := if k > (← rd x.key i) then i + 1 else i
      let child ← deref (← rd x.c i)
      let child ← _insert_non_full t f child k v
      return x.setC (← wr x.c i (some child))
    let child ← _insert_non_full t f child k v
    return x.setC (← wr x.c i (some child))

/-- Source `BTree::_get_pred`: the last pair of the rightmost leaf under `p->c_[i]`. -/
def _get_pred_loop : Nat → Node → Except Err (Int × Int)
  | 0, _ => .error .fuel
  | f + 1, curr =>
    if !curr.leaf then do
      _get_pred_loop f (← deref (← rd curr.c curr.n))
    else do
      pure (← rd curr.key (curr.n - 1), ← rd curr.val (curr.n - 1))

def _get_pred (fuel : Nat) (p : Node) (i : Int) : Except Err (Int × Int) := do
  _get_pred_loop fuel (← deref (← rd p.c i))

/-- Source `BTree::_get_succ`: the first pair of the leftmost leaf under `x->c_[i + 1]`. -/
def _get_succ_loop : Nat → Node → Except Err (Int × Int)
  | 0, _ => .error .fuel
  | f + 1, curr =>
    if !curr.leaf then do
      _get_succ_loop f (← deref (← rd curr.c 0))
    else do
      pure (← rd curr.key 0, ← rd curr.val 0)

def _get_succ (fuel : Nat) (x : Node) (i : Int) : Except Err (Int × Int) := do
  _get_succ_loop fuel (← deref (← rd x.c (i + 1)))

/-- Source `BTree::_borrow_from_prev`. The loops `for (j = n; j > 0; --j) a[j] = a[j-1]` are `shiftUp`
with `j - 1` as the index. -/
def _borrow_from_prev (p : Node) (i : Int) : Except Err Node := do
  let c ← deref (← rd p.c i)
  let l ← deref (← rd p.c (i - 1))
  let c := c.setKey (← shiftUp c.key (c.n - 1) 0)
  let c := c.setVal (← shiftUp c.val (c.n - 1) 0)
  let c ← if !c.leaf then do pure (c.setC (← shiftUp c.c c.n 0)) else pure c
  let c := c.setKey (← wr c.key 0 (← rd p.key (i - 1)))
  let c := c.setVal (← wr c.val 0 (← rd p.val (i - 1)))
  let c ← if !c.leaf then do pure (c.setC (← wr c.c 0 (← rd l.c l.n))) else pure c
  let p := p.setKey (← wr p.key (i - 1) (← rd l.key (l.n - 1)))
  let p := p.setVal (← wr p.val (i - 1) (← rd l.val (l.n - 1)))
  let c := c.setN (c.n + 1)
  let l := l.setN (l.n - 1)
  let p := p.setC (← wr p.c i (some c))
  pure (p.setC (← wr p.c (i - 1) (some l)))

/-- Source `BTree::_borrow_from_next`. -/
def _borrow_from_next (x : Node) (i : Int) : Except Err Node := do
  let c ← deref (← rd x.c i)
  let r ← deref (← rd x.c (i + 1))
  let c := c.setVal (← wr c.val c.n (← rd x.val i))
  let c := c.setKey (← wr c.key c.n (← rd x.key i))
  let x := x.setVal (← wr x.val i (← rd r.val 0))
  let x := x.setKey (← wr x.key i (← rd r.key 0))
  let c ← if !c.leaf then do pure (c.setC (← wr c.c (c.n + 1) (← rd r.c 0))) else pure c
  let r := r.setKey (← shiftDown r.key 0 (r.n - 1))
  let r := r.setVal (← shiftDown r.val 0 (r.n - 1))
  let r ← if !r.leaf then do pure (r.setC (← shiftDown r.c 0 r.n)) else pure r
  let r := r.setN (r.n - 1)
  let c := c.setN (c.n + 1)
  let x := x.setC (← wr x.c i (some c))
  pure (x.setC (← wr x.c (i + 1) (some r)))

/-- Source `BTree::_merge`. The absorbed node `r` stays referenced from `p->c_[i + 1]` until the
child pointers are shifted. -/
def _merge (p : Node) (i : Int) : Except Err Node := do
  let l ← deref (← rd p.c i)
  let r ← deref (← rd p.c (i + 1))
  let l := l.setVal (← wr l.val l.n (← rd p.val i))
  let l := l.setKey (← wr l.key l.n (← rd p.key i))
  let l := l.setN (l.n + 1)
  let l := l.setKey (← copyRange l.key r.key r.n l.n 0)
  let l := l.setVal (← copyRange l.val r.val r.n l.n 0)
  let l ← if !l.leaf then do pure (l.setC (← copyRange l.c r.c (r.n + 1) l.n 0)) else pure l
  let l := l.setN (l.n + r.n)
  let r := r.setN 0
  let p := p.setC (← wr p.c i (some l))
  let p := p.setC (← wr p.c (i + 1) (some r))
  let p := p.setKey (← shiftDown p.key i (p.n - 1))
  let p := p.setVal (← shiftDown p.val i (p.n - 1))
  let p ← if !p.leaf then do pure (p.setC (← shiftDown p.c (i + 1) p.n)) else pure p
  pure (p.setN (p.n - 1))

/-- Source `BTree::_fill`. -/
def _fill (t : Int) (p : Node) (i : Int) : Except Err Node := do
  let prevRich ← if 0 < i then do pure (decide ((← deref (← rd p.c (i - 1))).n > t - 1)) else pure false
  if prevRich then _borrow_from_prev p i
  else
    let nextRich ← if i < p.n then do pure (decide ((← deref (← rd p.c (i + 1))).n > t - 1)) else pure false
    if nextRich then _borrow_from_next p i
    else if i < p.n then _merge p i
    else _merge p (i - 1)

/-- Source `BTree::_remove_from_leaf`. -/
def _remove_from_leaf (x : Node) (i : Int) : Except Err (Node × Bool) := do
  let x := x.setKey (← shiftDown x.key i (x.n - 1))
  let x := x.setVal (← shiftDown x.val i (x.n - 1))
  pure (x.setN (x.n - 1), true)

mutual
/-- Source `BTree::_remove_node`. The argument `r` is the pointer held by the slot the C++ reference
designates (`root_` or a `c_[i]`); the first result is the pointer that slot holds on return. -/
def _remove_node (t : Int) : Nat → Option Node → Int → Except Err (Option Node × Bool)
  | 0, _, _ => .error .fuel
  | f + 1, r, k => do
    let r0 ← deref r
    let r ← if r0.n = 0 then rd r0.c 0 else pure r
    let x ← deref r
    let i ← _find_key x k
    if (← hit x i k) then
      if x.leaf then
        let (x, res) ← _remove_from_leaf x i
        return (some x, res)
      else
        return (← _remove_from_non_leaf t f x i)
    if x.leaf then return (some x, false)
    let temp := decide (i = x.n)
    let ci ← deref (← rd x.c i)
    let x ← if ci.n < t then _fill t x i else pure x
    if temp && decide (i > x.n) then
      let (s, res) ← _remove_node t f (← rd x.c (i - 1)) k
      return (some (x.setC (← wr x.c (i - 1) s)), res)
    else
      let (s, res) ← _remove_node t f (← rd x.c i) k
      return (some (x.setC (← wr x.c i s)), res)
/-- Source `BTree::_remove_from_non_leaf`, on the node its reference `x` designates; the first result is
the pointer the referenced slot holds on return. The recursive calls on the local copies `l`, `r`
act on the objects `x->c_[i]`, `x->c_[i + 1]`: they hold more than `t - 1` keys, so the callee
does not reseat its reference and the slot of `x` receives the updated child. -/
def _remove_from_non_leaf (t : Int) : Nat → Node → Int → Except Err (Option Node × Bool)
  | 0, _, _ => .error .fuel
  | f + 1, x, i => do
    let k ← rd x.key i
    let l ← deref (← rd x.c i)
    let r ← deref (← rd x.c (i + 1))
    if l.n > t - 1 then
      let p ← _get_pred f x i
      let x := x.setKey (← wr x.key i p.1)
      let x := x.setVal (← wr x.val i p.2)
      let (l, res) ← _remove_node t f (some l) p.1
      return (some (x.setC (← wr x.c i l)), res)
    if r.n > t - 1 then
      let s ← _get_succ f x i
      let x := x.setKey (← wr x.key i s.1)
      let x := x.setVal (← wr x.val i s.2)
      let (r, res) ← _remove_node t f (some r) s.1
      return (some (x.setC (← wr x.c (i + 1) r)), res)
    let x ← _merge x i
    let xs ← if x.n = 0 then rd x.c 0 else pure (some x)
    _remove_node t f xs k
end

end BTree

/-- Source `BTree<K, V>` of src/BTree.h: the tree is its root pointer. -/
structure BTree where
  root_ : Option BTree.Node

namespace BTree

/-- Source `BTree::BTree()`: the root is a fresh empty leaf. -/
def new (t : Int) : BTree := ⟨some ((_allocate_node t).setLeaf true)⟩

/-- Source `BTree::search`. -/
def search (fuel : Nat) (tr : BTree) (k : Int) : Except Err (Option Int) :=
  _search fuel tr.root_ k

/-- Source `BTree::contains`. -/
def contains (fuel : Nat) (tr : BTree) (k : Int) : Except Err Bool := do
  pure (← search fuel tr k).isSome

/-- Source `BTree::insert`. -/
def insert (t : Int) (fuel : Nat) (tr : BTree) (k v : Int) : Except Err BTree := do
  let root := match tr.root_ with
    | none => (_allocate_node t).setLeaf true
    | some r => r
  if root.n = 2 * t - 1 then
    let s := _allocate_node t
    let s := s.setC (← wr s.c 0 (some root))
    let s := s.setLeaf false
    let s ← _split_child t s 0
    return ⟨some (← _insert_non_full t fuel s k v)⟩
  return ⟨some (← _insert_non_full t fuel root k v)⟩

/-- Source `BTree::remove`. -/
def remove (t : Int) (fuel : Nat) (tr : BTree) (k : Int) : Except Err (BTree × Bool) := do
  let (r, res) ← _remove_node t fuel tr.root_ k
  pure (⟨r⟩, res)

/-- One call of `insert` or `remove`; the flag returned by `remove` is dropped. -/
def applyCall (t : Int) (fuel : Nat) (tr : BTree) : Call → Except Err BTree
  | .ins k v => insert t fuel tr k v
  | .rem k => do
    let (tr, _) ← remove t fuel tr k
    pure tr

/-- A history of calls applied in order. -/
def runCalls (t : Int) (fuel : Nat) (tr : BTree) (ops : List Call) : Except Err BTree :=
  ops.foldlM (applyCall t fuel) tr

/-- A run of `insert` calls, one per pair of the list, in list order. -/
def insertAll (t : Int) (fuel : Nat) (tr : BTree) (kvs : List (Int × Int)) : Except Err BTree :=
  kvs.foldlM (fun tr p => insert t fuel tr p.1 p.2) tr

end BTree

/-! Disk-resident B-tree (src/extra/BTree.h, src/extra/BTree.cpp). -/

/-- Source `BTree::Node` of src/extra/BTree.h, which is also the record stored in the file: `c_` holds
positions of the children, `pos_` the position of the node itself. -/
structure DNode where
  key : List Int
  leaf : Bool
  pos : Int
  n : Int
  val : List Int
  c : List Int

/-- The disk-resident `BTree<K, V>`: `root_`, `next_pos_` and the backing file, a map from
position to the record written there. -/
structure DiskBTree where
  root_ : Int
  next_pos_ : Int
  file : Int → Option DNode

namespace DiskBTree

/-- The minimum degree `t` of src/extra/BTree.h. -/
def t : Int := 16

/-- Source `BTree::_allocate_node(pos, isLeaf)` (`Node::Node(int, bool)`): a zeroed handle. -/
def _allocate_node (t : Int) (pos : Int) (isLeaf : Bool) : DNode :=
  { key := List.replicate (2 * t - 1).toNat 0, leaf := isLeaf, pos := pos, n := 0,
    val := List.replicate (2 * t - 1).toNat 0, c := List.replicate (2 * t).toNat 0 }

/-- Source `BTree::BTree()`: an empty file. -/
def new : DiskBTree := { root_ := -1, next_pos_ := 0, file := fun _ => none }

/-- Source `BTree::_disk_read`: the record at `x->pos_` replaces the whole handle; where the file holds
no record (a read past its end, or a failed seek on the empty file) `fread` transfers nothing and
the handle is left as it was. -/
def _disk_read (s : DiskBTree) (x : DNode) : DNode :=
  match s.file x.pos with
  | some r => r
  | none => x

/-- Source `BTree::_disk_write`: the handle is stored at `x->pos_`, or at a newly allocated position
when `pos_` is -1. -/
def _disk_write (s : DiskBTree) (x : DNode) : DiskBTree :=
  if x.pos = -1 then
    { s with next_pos_ := s.next_pos_ + 1,
             file := fun p => if p = s.next_pos_ then some x else s.file p }
  else
    { s with file := fun p => if p = x.pos then some x else s.file p }

/-- Source `BTree::_find_key`: `while (i < x->n_ && x->key_[i] < k) ++i;`, a loop of at most `n_`
rounds. -/
def _find_key (x : DNode) (k : Int) : Except Err Int :=
  scanUp x.key x.n k (x.n.toNat + 1) 0

/-- The test `i < x->n_ && k == x->key_[i]` (short-circuit). -/
def hit (x : DNode) (i k : Int) : Except Err Bool :=
  if i < x.n then do
    let ki ← rd x.key i
    pure (decide (k = ki))
  else pure false

/-- Source `BTree::_search`; its scan loop is the loop of `_find_key`. -/
def _search (t : Int) (s : DiskBTree) : Nat → DNode → Int → Except Err (Option Int)
  | 0, _, _ => .error .fuel
  | f + 1, x, k => do
    let i ← _find_key x k
    if (← hit x i k) then
      return some (← rd x.val i)
    if x.leaf then return none
    let child := _allocate_node t (← rd x.c i) false
    let child := _disk_read s child
    _search t s f child k

/-- Source `BTree::search`. -/
def search (t : Int) (fuel : Nat) (s : DiskBTree) (k : Int) : Except Err (Option Int) :=
  _search t s fuel (_disk_read s (_allocate_node t s.root_ false)) k

/-- Source `BTree::contains`. -/
def contains (t : Int) (fuel : Nat) (s : DiskBTree) (k : Int) : Except Err Bool := do
  pure (← search t fuel s k).isSome

/-- Source `BTree::_split_child(x, i, y)`; returns the file state and the handles `x`, `y`. -/
def _split_child (t : Int) (s : DiskBTree) (x : DNode) (i : Int) (y : DNode) :
    Except Err (DiskBTree × DNode × DNode) := do
  let z := _allocate_node t s.next_pos_ y.leaf
  let s := { s with next_pos_ := s.next_pos_ + 1 }
  let z := { z with n := t - 1 }
  let z := { z with key := ← copyRange z.key y.key (t - 1) 0 t }
  let z := { z with val := ← copyRange z.val y.val (t - 1) 0 t }
  let z ← if !y.leaf then do pure { z with c := ← copyRange z.c y.c t 0 t } else pure z
  let y := { y with n := t - 1 }
  let x := { x with c := ← shiftUp x.c x.n (i + 1) }
  let x := { x with c := ← wr x.c (i + 1) z.pos }
  let x := { x with key := ← shiftUp x.key (x.n - 1) i }
  let x := { x with val := ← shiftUp x.val (x.n - 1) i }
  let x := { x with key := ← wr x.key i (← rd y.key (t - 1)) }
  let x := { x with val := ← wr x.val i (← rd y.val (t - 1)) }
  let x := { x with n := x.n + 1 }
  let s := _disk_write s y
  let s := _disk_write s z
  let s := _disk_write s x
  pure (s, x, y)

/-- Source `BTree::_insert_non_full`; returns the file state. -/
def _insert_non_full (t : Int) : Nat → DiskBTree → DNode → Int → Int → Except Err DiskBTree
  | 0, _, _, _, _ => .error .fuel
  | f + 1, s, x, k, v => do
    let i := x.n - 1
    if x.leaf then
      let (key, val, i) ← shiftWhile k (x.n.toNat + 1) x.key x.val i
      let key ← wr key (i + 1) k
      let val ← wr val (i + 1) v
      let x := { x with key := key, val := val, n := x.n + 1 }
      return _disk_write s x
    else
      let i ← scanDown x.key k (x.n.toNat + 1) i
      let child := _allocate_node t (← rd x.c (i + 1)) false
      let child := _disk_read s child
      let (s, x, child, i) ← if child.n = 2 * t - 1 then do
          let (s, x, child) ← _split_child t s x (i + 1) child
          let i := if k > (← rd x.key (i + 1)) then i + 1 else i
          pure (s, x, child, i)
        else pure (s, x, child, i)
      let child := { child with pos := ← rd x.c (i + 1) }
      let child := _disk_read s child
      _insert_non_full t f s child k v

/-- Source `BTree::insert`. -/
def insert (t : Int) (fuel : Nat) (s : DiskBTree) (k v : Int) : Except Err DiskBTree := do
  if s.next_pos_ = 0 then
    let s := { s with root_ := 0 }
    let root := _allocate_node t s.next_pos_ true
    let s := { s with next_pos_ := s.next_pos_ + 1 }
    let root := { root with key := ← wr root.key 0 k }
    let root := { root with val := ← wr root.val 0 v }
    let root := { root with n := root.n + 1 }
    return _disk_write s root
  let r := _disk_read s (_allocate_node t s.root_ false)
  if r.n ≠ 2 * t - 1 then
    return (← _insert_non_full t fuel s r k v)
  let s0 := _allocate_node t s.next_pos_ false
  let s := { s with next_pos_ := s.next_pos_ + 1 }
  let s0 := { s0 with c := ← wr s0.c 0 s.root_ }
  let s := { s with root_ := s0.pos }
  let (s, s0, _) ← _split_child t s s0 0 r
  let i : Int := if (← rd s0.key 0) < k then 1 else 0
  let ch := _disk_read s (_allocate_node t (← rd s0.c i) false)
  _insert_non_full t fuel s ch k v

/-- Source `BTree::_get_pred`: the handle of the rightmost leaf under `x->c_[i]`. -/
def _get_pred_loop (s : DiskBTree) : Nat → DNode → Except Err DNode
  | 0, _ => .error .fuel
  | f + 1, curr =>
    if !curr.leaf then do
      let curr := { curr with pos := ← rd curr.c curr.n }
      _get_pred_loop s f (_disk_read s curr)
    else pure curr

def _get_pred (t : Int) (fuel : Nat) (s : DiskBTree) (x : DNode) (i : Int) : Except Err DNode := do
  _get_pred_loop s fuel (_disk_read s (_allocate_node t (← rd x.c i) false))

/-- Source `BTree::_get_succ`: the handle of the leftmost leaf under `x->c_[i + 1]`. -/
def _get_succ_loop (s : DiskBTree) : Nat → DNode → Except Err DNode
  | 0, _ => .error .fuel
  | f + 1, curr =>
    if !curr.leaf then do
      let curr := { curr with pos := ← rd curr.c 0 }
      _get_succ_loop s f (_disk_read s curr)
    else pure curr

def _get_succ (t : Int) (fuel : Nat) (s : DiskBTree) (x : DNode) (i : Int) : Except Err DNode := do
  _get_succ_loop s fuel (_disk_read s (_allocate_node t (← rd x.c (i + 1)) false))

/-- Source `BTree::_borrow_from_prev`; returns the file state and the handle `x`. The loops
`for (j = n; j > 0; --j) a[j] = a[j-1]` are `shiftUp` with `j - 1` as the index. -/
def _borrow_from_prev (t : Int) (s : DiskBTree) (x : DNode) (i : Int) : Except Err (DiskBTree × DNode) := do
  let c := _allocate_node t (← rd x.c i) false
  let l := _allocate_node t (← rd x.c (i - 1)) false
  let c := _disk_read s c
  let l := _disk_read s l
  let c := { c with key := ← shiftUp c.key (c.n - 1) 0 }
  let c := { c with val := ← shiftUp c.val (c.n - 1) 0 }
  let c ← if !c.leaf then do pure { c with c := ← shiftUp c.c c.n 0 } else pure c
  let c := { c with key := ← wr c.key 0 (← rd x.key (i - 1)) }
  let c := { c with val := ← wr c.val 0 (← rd x.val (i - 1)) }
  let c ← if !c.leaf then do pure { c with c := ← wr c.c 0 (← rd l.c l.n) } else pure c
  let x := { x with key := ← wr x.key (i - 1) (← rd l.key (l.n - 1)) }
  let x := { x with val := ← wr x.val (i - 1) (← rd l.val (l.n - 1)) }
  let c := { c with n := c.n + 1 }
  let l := { l with n := l.n - 1 }
  let s := _disk_write s c
  let s := _disk_write s l
  let s := _disk_write s x
  pure (s, x)

/-- Source `BTree::_borrow_from_next`; returns the file state and the handle `x`. -/
def _borrow_from_next (t : Int) (s : DiskBTree) (x : DNode) (i : Int) : Except Err (DiskBTree × DNode) := do
  let c := _allocate_node t (← rd x.c i) false
  let r := _allocate_node t (← rd x.c (i + 1)) false
  let c := _disk_read s c
  let r := _disk_read s r
  let c := { c with val := ← wr c.val c.n (← rd x.val i) }
  let c := { c with key := ← wr c.key c.n (← rd x.key i) }
  let x := { x with val := ← wr x.val i (← rd r.val 0) }
  let x := { x with key := ← wr x.key i (← rd r.key 0) }
  let c ← if !c.leaf then do pure { c with c := ← wr c.c (c.n + 1) (← rd r.c 0) } else pure c
  let r := { r with key := ← shiftDown r.key 0 (r.n - 1) }
  let r := { r with val := ← shiftDown r.val 0 (r.n - 1) }
  let r ← if !r.leaf then do pure { r with c := ← shiftDown r.c 0 r.n } else pure r
  let r := { r with n := r.n - 1 }
  let c := { c with n := c.n + 1 }
  let s := _disk_write s c
  let s := _disk_write s r
  let s := _disk_write s x
  pure (s, x)

/-- Source `BTree::_merge`; returns the file state and the handle `x`. -/
def _merge (t : Int) (s : DiskBTree) (x : DNode) (i : Int) : Except Err (DiskBTree × DNode) := do
  let l := _allocate_node t (← rd x.c i) false
  let r := _allocate_node t (← rd x.c (i + 1)) false
  let l := _disk_read s l
  let r := _disk_read s r
  let l := { l with val := ← wr l.val l.n (← rd x.val i) }
  let l := { l with key := ← wr l.key l.n (← rd x.key i) }
  let l := { l with n := l.n + 1 }
  let l := { l with key := ← copyRange l.key r.key r.n l.n 0 }
  let l := { l with val := ← copyRange l.val r.val r.n l.n 0 }
  let l ← if !l.leaf then do pure { l with c := ← copyRange l.c r.c (r.n + 1) l.n 0 } else pure l
  let l := { l with n := l.n + r.n }
  let r := { r with n := 0 }
  let x := { x with key := ← shiftDown x.key i (x.n - 1) }
  let x := { x with val := ← shiftDown x.val i (x.n - 1) }
  let x ← if !x.leaf then do pure { x with c := ← shiftDown x.c (i + 1) x.n } else pure x
  let x := { x with n := x.n - 1 }
  let s := _disk_write s l
  let s := _disk_write s r
  let s := _disk_write s x
  pure (s, x)

/-- Source `BTree::_fill`; returns the file state and the handle `x`. -/
def _fill (t : Int) (s : DiskBTree) (x : DNode) (i : Int) : Except Err (DiskBTree × DNode) := do
  let prevRich ← if 0 < i then do
      pure (decide ((_disk_read s (_allocate_node t (← rd x.c (i - 1)) false)).n > t - 1))
    else pure false
  if prevRich then _borrow_from_prev t s x i
  else
    let nextRich ← if i < x.n then do
        pure (decide ((_disk_read s (_allocate_node t (← rd x.c (i + 1)) false)).n > t - 1))
      else pure false
    if nextRich then _borrow_from_next t s x i
    else if i < x.n then _merge t s x i
    else _merge t s x (i - 1)

/-- Source `BTree::_remove_from_leaf`. -/
def _remove_from_leaf (x : DNode) (i : Int) : Except Err (DNode × Bool) := do
  let x := { x with key := ← shiftDown x.key i (x.n - 1) }
  let x := { x with val := ← shiftDown x.val i (x.n - 1) }
  pure ({ x with n := x.n - 1 }, true)

mutual
/-- Source `BTree::_remove_node(x, k)`. The handle is passed by value as a shared pointer: the callee
works on the caller's object until it swaps its own pointer to a fresh handle. The result is the
file state, the final state of the caller's object, and the returned flag. -/
def _remove_node (t : Int) : Nat → DiskBTree → DNode → Int → Except Err (DiskBTree × DNode × Bool)
  | 0, _, _, _ => .error .fuel
  | f + 1, s, x0, k => do
    let (s, x, swapped) ← if x0.n = 0 then do
        let c0 ← rd x0.c 0
        let s := if x0.pos = s.root_ then { s with root_ := c0 } else s
        pure (s, _disk_read s (_allocate_node t c0 false), true)
      else pure (s, x0, false)
    let i ← _find_key x k
    if (← hit x i k) then
      let (s, x, res) ← if x.leaf then do
          let (x, res) ← _remove_from_leaf x i
          pure (s, x, res)
        else _remove_from_non_leaf t f s x i
      let s := _disk_write s x
      return (s, if swapped then x0 else x, res)
    if x.leaf then return (s, if swapped then x0 else x, false)
    let temp := decide (i = x.n)
    let c := _disk_read s (_allocate_node t (← rd x.c i) false)
    let (s, x) ← if c.n < t then _fill t s x i else pure (s, x)
    if temp && decide (i > x.n) then
      let s1 := _disk_read s (_allocate_node t (← rd x.c (i - 1)) false)
      let (s, s1, res) ← _remove_node t f s s1 k
      let s := _disk_write s s1
      return (s, if swapped then x0 else x, res)
    else
      let l := _disk_read s (_allocate_node t (← rd x.c i) false)
      let (s, l, res) ← _remove_node t f s l k
      let s := _disk_write s l
      return (s, if swapped then x0 else x, res)
/-- Source `BTree::_remove_from_non_leaf(x, i)`; same conventions as `_remove_node`. -/
def _remove_from_non_leaf (t : Int) : Nat → DiskBTree → DNode → Int → Except Err (DiskBTree × DNode × Bool)
  | 0, _, _, _ => .error .fuel
  | f + 1, s, x, i => do
    let k ← rd x.key i
    let l := _disk_read s (_allocate_node t (← rd x.c i) false)
    let r := _disk_read s (_allocate_node t (← rd x.c (i + 1)) false)
    if l.n > t - 1 then
      let p ← _get_pred t f s x i
      let p := _disk_read s p
      let x := { x with key := ← wr x.key i (← rd p.key (p.n - 1)) }
      let x := { x with val := ← wr x.val i (← rd p.val (p.n - 1)) }
      let (s, _, res) ← _remove_node t f s l (← rd x.key i)
      return (s, x, res)
    else if r.n > t - 1 then
      let sc ← _get_succ t f s x i
      let x := { x with key := ← wr x.key i (← rd sc.key 0) }
      let x := { x with val := ← wr x.val i (← rd sc.val 0) }
      let (s, _, res) ← _remove_node t f s r (← rd x.key i)
      return (s, x, res)
    else
      let (s, x) ← _merge t s x i
      if x.n = 0 then
        let c0 ← rd x.c 0
        let s := if x.pos = s.root_ then { s with root_ := c0 } else s
        let xn := _disk_read s (_allocate_node t c0 false)
        let (s, _, res) ← _remove_node t f s xn k
        return (s, x, res)
      else
        _remove_node t f s x k
end

/-- Source `BTree::remove`. -/
def remove (t : Int) (fuel : Nat) (s : DiskBTree) (k : Int) : Except Err (DiskBTree × Bool) := do
  let r := _disk_read s (_allocate_node t s.root_ false)
  let (s, _, res) ← _remove_node t fuel s r k
  pure (s, res)

end DiskBTree

/-! B+ tree (src/BPlusTree.h, src/BPlusTree.cpp). -/

/-- Source `LeafNode` of src/BPlusTree.h with the fields it inherits from `NodeBase` (`n_`, `key_`): the
main page `key_`, `val_` and the overflow block. The sibling pointers `l_`, `r_` are not
represented: `search`, `insert` and `remove` only relink them and never follow them. -/
structure LeafNode where
  n : Int
  key : List Int
  val : List Int
  overflow_n : Int
  overflow_key : List Int
  overflow_val : List Int

/-- A node behind a `std::shared_ptr<NodeBase>`: a `LeafNode`, or an `InternalNode` with the
inherited `n_`, `key_` and its child pointers `c_` (null when `none`). -/
inductive BPNode where
  | leaf (x : LeafNode)
  | internal (n : Int) (key : List Int) (c : List (Option BPNode))

/-- Source `InternalNode` of src/BPlusTree.h with the fields it inherits from `NodeBase`. -/
structure InternalNode where
  n : Int
  key : List Int
  c : List (Option BPNode)

/-- Source `BPlusTree<K, V>`: the tree is its root pointer. -/
structure BPlusTree where
  root_ : Option BPNode

namespace BPlusTree

/-- The minimum degree `d` of src/BPlusTree.h. -/
def d : Int := 32

end BPlusTree

def InternalNode.toNode (x : InternalNode) : BPNode := .internal x.n x.key x.c
def LeafNode.toNode (x : LeafNode) : BPNode := .leaf x

namespace BPNode

def n : BPNode → Int
  | leaf x => x.n
  | internal n _ _ => n

def key : BPNode → List Int
  | leaf x => x.key
  | internal _ k _ => k

/-- The field `leaf_`. -/
def leaf_ : BPNode → Bool
  | leaf _ => true
  | internal .. => false

def setKey : BPNode → List Int → BPNode
  | leaf x, k => leaf { x with key := k }
  | internal n _ c, k => internal n k c

/-- Use of the result of `std::dynamic_pointer_cast<InternalNode>(p)`: null for a leaf. -/
def asInternal : BPNode → Except Err InternalNode
  | internal n k c => .ok ⟨n, k, c⟩
  | leaf _ => .error .null

/-- Use of the result of `std::dynamic_pointer_cast<LeafNode>(p)`: null for an internal node. -/
def asLeaf : BPNode → Except Err LeafNode
  | leaf x => .ok x
  | internal .. => .error .null

end BPNode

/-- Source `NodeBase::_get_key_index`. The call `std::lower_bound(key_.begin(), key_.begin() + n_, k)`
is the scan for the first index whose key is not less than `k` (or `n_`), its result on a range
partitioned by `< k`, as a sorted one is. -/
def BPNode._get_key_index (x : BPNode) (k : Int) : Except Err Int := do
  let it ← scanUp x.key x.n k (x.n.toNat + 1) 0
  pure (if it ≤ x.n - 1 then it else x.n - 1)

namespace InternalNode

/-- Source `InternalNode::InternalNode()`. -/
def new (d : Int) : InternalNode :=
  { n := 0, key := List.replicate (2 * d - 1).toNat 0, c := List.replicate (2 * d).toNat none }

/-- Source `InternalNode::_insert(k, ki, c, ci)`. -/
def _insert (x : InternalNode) (k : Int) (ki : Int) (c : Option BPNode) (ci : Int) :
    Except Err InternalNode := do
  let key ← shiftUp x.key (x.n - 1) ki
  let key ← wr key ki k
  let cs ← shiftUp x.c x.n ci
  let cs ← wr cs ci c
  pure { n := x.n + 1, key := key, c := cs }

/-- Source `InternalNode::_remove(ki, ci)`; the loops `for (j = a + 1; j < b; ++j) x[j - 1] = x[j]` are
`shiftDown` with `j - 1` as the index. -/
def _remove (x : InternalNode) (ki ci : Int) : Except Err InternalNode := do
  let key ← shiftDown x.key ki (x.n - 1)
  let cs ← shiftDown x.c ci x.n
  pure { n := x.n - 1, key := key, c := cs }

/-- Source `InternalNode::_get_child_index`. -/
def _get_child_index (x : InternalNode) (k : Int) (i : Int) : Except Err Int := do
  pure (if k < (← rd x.key i) then i else i + 1)

/-- Source `InternalNode::_split(p, i)`; returns this node and the parent. -/
def _split (d : Int) (self : InternalNode) (p : BPNode) (i : Int) :
    Except Err (InternalNode × BPNode) := do
  let r := InternalNode.new d
  let self := { self with n := d - 1 }
  let r := { r with n := d - 1 }
  let r := { r with key := ← copyRange r.key self.key (d - 1) 0 d }
  let r := { r with c := ← copyRange r.c self.c d 0 d }
  let tp ← p.asInternal
  let tp ← tp._insert (← rd self.key (d - 1)) i (some r.toNode) (i + 1)
  pure (self, tp.toNode)

/-- The loop of `InternalNode::_merge`:
`for (j = 1; j <= tr->n_; ++j) _insert(tr->key_[j - 1], d + j - 1, tr->c_[j], d + j);`. -/
def _merge_loop (d : Int) (tr : InternalNode) (self : InternalNode) (js : List Int) :
    Except Err InternalNode :=
  js.foldlM (fun self j => do
    self._insert (← rd tr.key (j - 1)) (d + j - 1) (← rd tr.c j) (d + j)) self

/-- Source `InternalNode::_merge(p, i, r)`; returns this node and the parent. -/
def _merge (d : Int) (self : InternalNode) (p : BPNode) (i : Int) (r : BPNode) :
    Except Err (InternalNode × BPNode) := do
  let tp ← p.asInternal
  let tr ← r.asInternal
  let self ← self._insert (← rd p.key i) (d - 1) (← rd tr.c 0) d
  let self ← _merge_loop d tr self (upTo 1 (tr.n + 1))
  let tp ← tp._remove i (i + 1)
  pure (self, tp.toNode)

end InternalNode

namespace LeafNode

/-- Source `LeafNode::LeafNode()`. -/
def new (d : Int) : LeafNode :=
  { n := 0, key := List.replicate (2 * d - 1).toNat 0, val := List.replicate (2 * d - 1).toNat 0,
    overflow_n := 0, overflow_key := List.replicate (d / 2).toNat 0,
    overflow_val := List.replicate (d / 2).toNat 0 }

/-- Source `LeafNode::_insert_main`:
`for (; j >= 0 && k < key_[j]; --j) { key_[j+1] = key_[j]; val_[j+1] = val_[j]; }`, then the pair is
stored at `j + 1`. -/
def _insert_main (x : LeafNode) (k v : Int) : Except Err LeafNode := do
  let (key, val, j) ← shiftWhile k (x.n.toNat + 1) x.key x.val (x.n - 1)
  let key ← wr key (j + 1) k
  let val ← wr val (j + 1) v
  pure { x with key := key, val := val, n := x.n + 1 }

/-- Reading the first `m` slots of two parallel arrays as pairs. -/
def readPairs (ks vs : List Int) (m : Int) : Except Err (List (Int × Int)) :=
  (upTo 0 m).mapM (fun j => do pure (← rd ks j, ← rd vs j))

/-- Writing pairs back to the first slots of two parallel arrays. -/
def writePairs (ks vs : List Int) (ps : List (Int × Int)) : Except Err (List Int × List Int) :=
  (ps.enum).foldlM (fun (acc : List Int × List Int) jp => do
    pure (← wr acc.1 (jp.1 : Int) jp.2.1, ← wr acc.2 (jp.1 : Int) jp.2.2)) (ks, vs)

/-- Source `LeafNode::_sort_overflow`: the first `overflow_n_` pairs of the overflow block are sorted by
key (`std::sort`; the order it gives to equal keys is not specified, here they keep their order). -/
def _sort_overflow (x : LeafNode) : Except Err LeafNode := do
  let pairs ← readPairs x.overflow_key x.overflow_val x.overflow_n
  let pairs := pairs.insertionSort (fun a b => a.1 ≤ b.1)
  let (ks, vs) ← writePairs x.overflow_key x.overflow_val pairs
  pure { x with overflow_key := ks, overflow_val := vs }

/-- Source `LeafNode::_load_overflow`. -/
def _load_overflow (x : LeafNode) : Except Err LeafNode := do
  if x.overflow_n = 0 then return x
  let x ← x._sort_overflow
  let x ← (upTo 0 x.overflow_n).foldlM (fun (x : LeafNode) j => do
    x._insert_main (← rd x.overflow_key j) (← rd x.overflow_val j)) x
  pure { x with overflow_n := 0 }

/-- Source `LeafNode::_insert`. -/
def _insert (d : Int) (x : LeafNode) (k v : Int) : Except Err LeafNode := do
  if 2 * d - 1 - d / 2 < x.n then
    return (← x._insert_main k v)
  let x ← if d / 2 = x.overflow_n then x._load_overflow else pure x
  let ok ← wr x.overflow_key x.overflow_n k
  let ov ← wr x.overflow_val x.overflow_n v
  pure { x with overflow_key := ok, overflow_val := ov, overflow_n := x.overflow_n + 1 }

/-- Source `LeafNode::_remove(i)`; the loop `for (j = i + 1; j < n_; ++j) a[j - 1] = a[j]` is `shiftDown`
with `j - 1` as the index. -/
def _remove (x : LeafNode) (i : Int) : Except Err LeafNode := do
  let x ← x._load_overflow
  let key ← shiftDown x.key i (x.n - 1)
  let val ← shiftDown x.val i (x.n - 1)
  pure { x with key := key, val := val, n := x.n - 1 }

/-- Source `LeafNode::_split(p, i)`; returns this node and the parent. -/
def _split (d : Int) (self : LeafNode) (p : BPNode) (i : Int) : Except Err (LeafNode × BPNode) := do
  let self ← self._load_overflow
  let r := LeafNode.new d
  let self := { self with n := d - 1 }
  let r := { r with n := d }
  let r := { r with key := ← copyRange r.key self.key d 0 (d - 1) }
  let r := { r with val := ← copyRange r.val self.val d 0 (d - 1) }
  let tp ← p.asInternal
  let tp ← tp._insert (← rd self.key (d - 1)) i (some r.toNode) (i + 1)
  pure (self, tp.toNode)

/-- Source `LeafNode::_merge(p, i, r)`; returns this node and the parent. -/
def _merge (d : Int) (self : LeafNode) (p : BPNode) (i : Int) (r : BPNode) :
    Except Err (LeafNode × BPNode) := do
  let tp ← p.asInternal
  let tr ← r.asLeaf
  let self ← self._load_overflow
  let tr ← tr._load_overflow
  let self ← (upTo 0 tr.n).foldlM (fun (self : LeafNode) j => do
    self._insert d (← rd tr.key j) (← rd tr.val j)) self
  let self ← self._load_overflow
  let tp ← tp._remove i (i + 1)
  pure (self, tp.toNode)

/-- Source `LeafNode::_borrow_from_left(p, i, l)`; returns this node, the parent and the left sibling. -/
def _borrow_from_left (self : LeafNode) (p : BPNode) (i : Int) (l : BPNode) :
    Except Err (LeafNode × BPNode × BPNode) := do
  let tl ← l.asLeaf
  let tl ← tl._load_overflow
  let self ← self._load_overflow
  let self ← self._insert_main (← rd tl.key (tl.n - 1)) (← rd tl.val (tl.n - 1))
  let tl ← tl._remove (tl.n - 1)
  let p := p.setKey (← wr p.key i (← rd self.key 0))
  pure (self, p, tl.toNode)

/-- Source `LeafNode::_borrow_from_right(p, i, r)`; returns this node, the parent and the right sibling. -/
def _borrow_from_right (self : LeafNode) (p : BPNode) (i : Int) (r : BPNode) :
    Except Err (LeafNode × BPNode × BPNode) := do
  let tr ← r.asLeaf
  let tr ← tr._load_overflow
  let self ← self._load_overflow
  let self ← self._insert_main (← rd tr.key 0) (← rd tr.val 0)
  let tr ← tr._remove 0
  let p := p.setKey (← wr p.key i (← rd tr.key 0))
  pure (self, p, tr.toNode)

end LeafNode

/-- The statement `if (x->leaf_) { cast<LeafNode>(x)->_load_overflow(); }`. -/
def BPNode.loadIfLeaf (x : BPNode) : Except Err BPNode :=
  match x with
  | .leaf y => do pure (← y._load_overflow).toNode
  | .internal .. => pure x

namespace InternalNode

/-- Source `InternalNode::_borrow_from_left(p, i, l)`; returns this node, the parent and the left
sibling. The child that changes hands is flushed, when it is a leaf, before it is moved. -/
def _borrow_from_left (self : InternalNode) (p : BPNode) (i : Int) (l : BPNode) :
    Except Err (InternalNode × BPNode × BPNode) := do
  let tl ← l.asInternal
  let last ← deref (← rd tl.c tl.n)
  let last ← last.loadIfLeaf
  let tl := { tl with c := ← wr tl.c tl.n (some last) }
  let self ← self._insert (← rd p.key i) 0 (← rd tl.c tl.n) 0
  let p := p.setKey (← wr p.key i (← rd tl.key (tl.n - 1)))
  let tl ← tl._remove (tl.n - 1) tl.n
  pure (self, p, tl.toNode)

/-- Source `InternalNode::_borrow_from_right(p, i, r)`; returns this node, the parent and the right
sibling. -/
def _borrow_from_right (self : InternalNode) (p : BPNode) (i : Int) (r : BPNode) :
    Except Err (InternalNode × BPNode × BPNode) := do
  let tr ← r.asInternal
  let first ← deref (← rd tr.c 0)
  let first ← first.loadIfLeaf
  let tr := { tr with c := ← wr tr.c 0 (some first) }
  let self ← self._insert (← rd p.key i) self.n (← rd tr.c 0) (self.n + 1)
  let p := p.setKey (← wr p.key i (← rd tr.key 0))
  let tr ← tr._remove 0 0
  pure (self, p, tr.toNode)

end InternalNode

namespace BPNode

/-- Virtual call `self->_split(p, i)`. -/
def _split (d : Int) (self : BPNode) (p : BPNode) (i : Int) : Except Err (BPNode × BPNode) :=
  match self with
  | .leaf y => do
    let (s, p) ← y._split d p i
    pure (s.toNode, p)
  | .internal n k c => do
    let (s, p) ← InternalNode._split d ⟨n, k, c⟩ p i
    pure (s.toNode, p)

/-- Virtual call `self->_merge(p, i, r)`. -/
def _merge (d : Int) (self : BPNode) (p : BPNode) (i : Int) (r : BPNode) : Except Err (BPNode × BPNode) :=
  match self with
  | .leaf y => do
    let (s, p) ← y._merge d p i r
    pure (s.toNode, p)
  | .internal n k c => do
    let (s, p) ← InternalNode._merge d ⟨n, k, c⟩ p i r
    pure (s.toNode, p)

/-- Virtual call `self->_borrow_from_left(p, i, l)`. -/
def _borrow_from_left (self : BPNode) (p : BPNode) (i : Int) (l : BPNode) :
    Except Err (BPNode × BPNode × BPNode) :=
  match self with
  | .leaf y => do
    let (s, p, l) ← y._borrow_from_left p i l
    pure (s.toNode, p, l)
  | .internal n k c => do
    let (s, p, l) ← InternalNode._borrow_from_left ⟨n, k, c⟩ p i l
    pure (s.toNode, p, l)

/-- Virtual call `self->_borrow_from_right(p, i, r)`. -/
def _borrow_from_right (self : BPNode) (p : BPNode) (i : Int) (r : BPNode) :
    Except Err (BPNode × BPNode × BPNode) :=
  match self with
  | .leaf y => do
    let (s, p, r) ← y._borrow_from_right p i r
    pure (s.toNode, p, r)
  | .internal n k c => do
    let (s, p, r) ← InternalNode._borrow_from_right ⟨n, k, c⟩ p i r
    pure (s.toNode, p, r)

/-- Storing a child object back in the slot of its parent that points to it. -/
def putChild (p : BPNode) (i : Int) (ch : BPNode) : Except Err BPNode := do
  let tp ← p.asInternal
  pure ({ tp with c := ← wr tp.c i (some ch) } : InternalNode).toNode

end BPNode

namespace BPlusTree

/-- Source `BPlusTree::_insert(p, k, v)`; returns the node `p`. The child that receives the pair is the
object in slot `ci` (or `ci + 1` after a split) of `p`. -/
def _insert (d : Int) : Nat → BPNode → Int → Int → Except Err BPNode
  | 0, _, _, _ => .error .fuel
  | f + 1, p, k, v => do
    if p.leaf_ then
      let tp ← p.asLeaf
      return (← tp._insert d k v).toNode
    let tp ← p.asInternal
    let ki ← p._get_key_index k
    let ci ← tp._get_child_index k ki
    let c ← deref (← rd tp.c ci)
    let c ← c.loadIfLeaf
    let p ← p.putChild ci c
    if c.n ≥ 2 * d - 1 then
      let (c, p) ← c._split d p ci
      let p ← p.putChild ci c
      if (← rd p.key ci) ≤ k then
        let tp ← p.asInternal
        let c ← deref (← rd tp.c (ci + 1))
        let c ← _insert d f c k v
        return (← p.putChild (ci + 1) c)
      let c ← _insert d f c k v
      return (← p.putChild ci c)
    let c ← _insert d f c k v
    p.putChild ci c

/-- Source `BPlusTree::insert`. -/
def insert (d : Int) (fuel : Nat) (tr : BPlusTree) (k v : Int) : Except Err BPlusTree := do
  let root := match tr.root_ with
    | none => (LeafNode.new d).toNode
    | some r => r
  let root ← root.loadIfLeaf
  if root.n = 2 * d - 1 then
    let r := InternalNode.new d
    let r := { r with c := ← wr r.c 0 (some root) }
    let (root, r) ← root._split d r.toNode 0
    let r ← r.putChild 0 root
    return ⟨some (← _insert d fuel r k v)⟩
  return ⟨some (← _insert d fuel root k v)⟩

/-- Source `BPlusTree::_search(p, k)`; the leaf reached is flushed, so the node is returned as well. -/
def _search : Nat → Option BPNode → Int → Except Err (Option BPNode × Option Int)
  | 0, _, _ => .error .fuel
  | _ + 1, none, _ => pure (none, none)
  | f + 1, some p, k => do
    if p.leaf_ then
      let tp ← p.asLeaf
      let tp ← tp._load_overflow
      let i ← tp.toNode._get_key_index k
      if i < tp.n then
        if k = (← rd tp.key i) then
          return (some tp.toNode, some (← rd tp.val i))
      return (some tp.toNode, none)
    let tp ← p.asInternal
    let i ← p._get_key_index k
    let ci ← tp._get_child_index k i
    let c ← rd tp.c ci
    let (c, res) ← _search f c k
    pure (some ({ tp with c := ← wr tp.c ci c } : InternalNode).toNode, res)

/-- Source `BPlusTree::search`. -/
def search (fuel : Nat) (tr : BPlusTree) (k : Int) : Except Err (BPlusTree × Option Int) := do
  let (r, res) ← _search fuel tr.root_ k
  pure (⟨r⟩, res)

/-- Source `BPlusTree::contains`. -/
def contains (fuel : Nat) (tr : BPlusTree) (k : Int) : Except Err (BPlusTree × Bool) := do
  let (tr, res) ← search fuel tr k
  pure (tr, res.isSome)

/-- The statement `if (x && x->leaf_) { cast<LeafNode>(x)->_load_overflow(); }` on a sibling. -/
def loadSibling (x : Option BPNode) : Except Err (Option BPNode) :=
  match x with
  | none => pure none
  | some y => do pure (some (← y.loadIfLeaf))

/-- Source `BPlusTree::_remove(p, k)`; returns the node `p`. -/
def _remove (d : Int) : Nat → BPNode → Int → Except Err BPNode
  | 0, _, _ => .error .fuel
  | f + 1, p, k => do
    if p.leaf_ then
      let tp ← p.asLeaf
      let tp ← tp._load_overflow
      let i ← tp.toNode._get_key_index k
      return (← tp._remove i).toNode
    let tp ← p.asInternal
    let i ← p._get_key_index k
    let ci ← tp._get_child_index k i
    let c ← deref (← rd tp.c ci)
    let c ← c.loadIfLeaf
    let p ← p.putChild ci c
    if d - 1 = c.n then
      let l ← if ci > 0 then rd tp.c (ci - 1) else pure none
      let r ← if ci < tp.n then rd tp.c (ci + 1) else pure none
      let l ← loadSibling l
      let r ← loadSibling r
      let p ← match l with
        | some l => p.putChild (ci - 1) l
        | none => pure p
      let p ← match r with
        | some r => p.putChild (ci + 1) r
        | none => pure p
      match l, r with
      | some l, r =>
        if l.n > d - 1 then
          let (c, p, l) ← c._borrow_from_left p (ci - 1) l
          let p ← p.putChild (ci - 1) l
          let c ← _remove d f c k
          p.putChild ci c
        else if (match r with | some r => decide (r.n > d - 1) | none => false) then
          let r ← deref r
          let (c, p, r) ← c._borrow_from_right p ci r
          let p ← p.putChild (ci + 1) r
          let c ← _remove d f c k
          p.putChild ci c
        else
          let (l, p) ← l._merge d p (ci - 1) c
          let l ← _remove d f l k
          p.putChild (ci - 1) l
      | none, some r =>
        if r.n > d - 1 then
          let (c, p, r) ← c._borrow_from_right p ci r
          let p ← p.putChild (ci + 1) r
          let c ← _remove d f c k
          p.putChild ci c
        else
          let (c, p) ← c._merge d p ci r
          let c ← _remove d f c k
          p.putChild ci c
      | none, none =>
        -- `c->_merge(tp, ci, r)` with `r` null
        .error .null
    else
      let c ← _remove d f c k
      p.putChild ci c

/-- Source `BPlusTree::remove`. -/
def remove (d : Int) (fuel : Nat) (tr : BPlusTree) (k : Int) : Except Err (BPlusTree × Bool) := do
  let (tr, found) ← search fuel tr k
  if found.isNone then return (tr, false)
  let root ← deref tr.root_
  let root ← if root.n = 1 ∧ !root.leaf_ then do
      let trn ← root.asInternal
      let l ← deref (← rd trn.c 0)
      let r ← deref (← rd trn.c 1)
      if d - 1 = l.n ∧ d - 1 = r.n then
        let (l, _) ← l._merge d root 0 r
        pure l
      else pure root
    else pure root
  pure (⟨some (← _remove d fuel root k)⟩, true)

end BPlusTree

/-! The Fibonacci heap of src/fibonacciHeap.cpp. Nodes live in a store; a pointer is the address
of a node in the store or null. Keys are integers and the comparator `comp_` is a parameter. -/

/-- Source `FibonacciHeap::FibonacciNode`. -/
structure FibonacciNode where
  key : Int
  mark : Bool
  p : Option Nat
  left : Option Nat
  right : Option Nat
  child : Option Nat
  degree : Int
  deriving DecidableEq, Repr

/-- Source `FibonacciHeap`: the fields `n` and `min`, and the objects made by `new`; an object
that was deleted leaves an empty slot. -/
structure FibonacciHeap where
  n : Int
  min : Option Nat
  store : List (Option FibonacciNode)
  deriving DecidableEq, Repr

/-- A call of the public interface of the heap. -/
inductive HeapCall where
  | push (k : Int)
  | pop
  deriving DecidableEq, Repr

namespace FibonacciHeap

/-- The object a pointer designates; a null pointer and a pointer to a deleted object have none. -/
def load (st : List (Option FibonacciNode)) (q : Option Nat) : Except Err FibonacciNode :=
  match q with
  | none => .error .null
  | some a =>
    match st.get? a with
    | some (some x) => .ok x
    | _ => .error .oob

/-- Assignment to the object a pointer designates. -/
def save (st : List (Option FibonacciNode)) (q : Option Nat) (x : FibonacciNode) :
    Except Err (List (Option FibonacciNode)) := do
  let _ ← load st q
  match q with
  | none => .error .null
  | some a => pure (st.set a (some x))

/-- The assignment `q->left = v`. -/
def setLeft (st : List (Option FibonacciNode)) (q v : Option Nat) :
    Except Err (List (Option FibonacciNode)) := do
  save st q { (← load st q) with left := v }

/-- The assignment `q->right = v`. -/
def setRight (st : List (Option FibonacciNode)) (q v : Option Nat) :
    Except Err (List (Option FibonacciNode)) := do
  save st q { (← load st q) with right := v }

/-- The assignment `q->p = v`. -/
def setP (st : List (Option FibonacciNode)) (q v : Option Nat) :
    Except Err (List (Option FibonacciNode)) := do
  save st q { (← load st q) with p := v }

/-- The assignment `q->child = v`. -/
def setChild (st : List (Option FibonacciNode)) (q v : Option Nat) :
    Except Err (List (Option FibonacciNode)) := do
  save st q { (← load st q) with child := v }

/-- The assignment `q->degree = v`. -/
def setDegree (st : List (Option FibonacciNode)) (q : Option Nat) (v : Int) :
    Except Err (List (Option FibonacciNode)) := do
  save st q { (← load st q) with degree := v }

/-- The assignment `q->mark = v`. -/
def setMark (st : List (Option FibonacciNode)) (q : Option Nat) (v : Bool) :
    Except Err (List (Option FibonacciNode)) := do
  save st q { (← load st q) with mark := v }

/-- The assignment `q->key = v`. -/
def setKey (st : List (Option FibonacciNode)) (q : Option Nat) (v : Int) :
    Except Err (List (Option FibonacciNode)) := do
  save st q { (← load st q) with key := v }

/-- Source `FibonacciHeap::FibonacciHeap(Comp)`. -/
def new : FibonacciHeap := { n := 0, min := none, store := [] }

/-- Source `FibonacciHeap::empty`. -/
def empty (h : FibonacciHeap) : Bool := decide (h.n = 0)

/-- Source `FibonacciHeap::size`. -/
def size (h : FibonacciHeap) : Int := h.n

/-- Source `FibonacciHeap::topNode`. -/
def topNode (h : FibonacciHeap) : Option Nat := h.min

/-- Source `FibonacciHeap::top`: `return min->key`. -/
def top (h : FibonacciHeap) : Except Err Int := do
  pure (← load h.store h.min).key

/-- Source `FibonacciHeap::concatLists(list1, list2)`. -/
def concatLists (st : List (Option FibonacciNode)) (list1 list2 : Option Nat) :
    Except Err (List (Option FibonacciNode)) := do
  if list1.isNone ∨ list2.isNone then return st
  -- list2->left->right = list1->right;
  let st ← setRight st (← load st list2).left (← load st list1).right
  -- list1->right->left = list2->left;
  let st ← setLeft st (← load st list1).right (← load st list2).left
  -- list2->left = list1;
  let st ← setLeft st list2 list1
  -- list1->right = list2;
  setRight st list1 list2

/-- Source `FibonacciHeap::insertListNode(node, list)`; `list` is passed by reference and the
value it has at the end is returned. -/
def insertListNode (st : List (Option FibonacciNode)) (node list : Option Nat) :
    Except Err (List (Option FibonacciNode) × Option Nat) := do
  if node.isNone then return (st, list)
  if list.isNone then return (st, node)
  -- list->right->left = node;
  let st ← setLeft st (← load st list).right node
  -- node->right = list->right;
  let st ← setRight st node (← load st list).right
  -- list->right = node;
  let st ← setRight st list node
  -- node->left = list;
  let st ← setLeft st node list
  pure (st, list)

/-- Source `FibonacciHeap::removeListNode(node)`. -/
def removeListNode (st : List (Option FibonacciNode)) (node : Option Nat) :
    Except Err (List (Option FibonacciNode)) := do
  if (← load st node).right = node then return st
  -- node->left->right = node->right;
  let st ← setRight st (← load st node).left (← load st node).right
  -- node->right->left = node->left;
  setLeft st (← load st node).right (← load st node).left

/-- The loop `do { iter->p = nullptr; iter = iter->right; } while (iter != node);`. -/
def clearParentLoop (node : Option Nat) :
    Nat → List (Option FibonacciNode) → Option Nat → Except Err (List (Option FibonacciNode))
  | 0, _, _ => .error .fuel
  | f + 1, st, iter => do
    let st ← setP st iter none
    let iter := (← load st iter).right
    if iter ≠ node then clearParentLoop node f st iter else pure st

/-- Source `FibonacciHeap::clearParentListNode(node)`. -/
def clearParentListNode (fuel : Nat) (st : List (Option FibonacciNode)) (node : Option Nat) :
    Except Err (List (Option FibonacciNode)) := do
  if node.isNone then return st
  clearParentLoop node fuel st node

/-- Source `FibonacciHeap::FibHeapInsert(x)`. -/
def FibHeapInsert (comp : Int → Int → Bool) (h : FibonacciHeap) (x : Option Nat) :
    Except Err FibonacciHeap := do
  let st ← setDegree h.store x 0
  let st ← setP st x none
  let st ← setChild st x none
  let st ← setMark st x false
  if h.min.isNone then
    -- x->left = x->right = x; min = x;
    let st ← setRight st x x
    let st ← setLeft st x x
    return { n := h.n + 1, min := x, store := st }
  let (st, min) ← insertListNode st x h.min
  let min := if comp (← load st x).key (← load st min).key then x else min
  pure { n := h.n + 1, min := min, store := st }

/-- Source `FibonacciHeap::push(k)`: `new FibonacciNode(k)` makes an object whose `left` and
`right` point to itself, with `degree` -1; returns the heap and the pointer to the new node. -/
def push (comp : Int → Int → Bool) (h : FibonacciHeap) (k : Int) :
    Except Err (FibonacciHeap × Option Nat) := do
  let x : Option Nat := some h.store.length
  let node : FibonacciNode :=
    { key := k, mark := false, p := none, left := x, right := x, child := none, degree := -1 }
  let h ← FibHeapInsert comp { h with store := h.store ++ [some node] } x
  pure (h, x)

/-- Source `FibonacciHeap::FibHeapLink(y, x)`. -/
def FibHeapLink (st : List (Option FibonacciNode)) (y x : Option Nat) :
    Except Err (List (Option FibonacciNode)) := do
  let st ← removeListNode st y
  let st ← if (← load st x).child.isSome then do
      let (st, child) ← insertListNode st y (← load st x).child
      setChild st x child
    else do
      -- x->child = y->left = y->right = y;
      let st ← setRight st y y
      let st ← setLeft st y y
      setChild st x y
  let st ← setP st y x
  let st ← setDegree st x ((← load st x).degree + 1)
  setMark st y false

/-- The pair `(F m, L m)` of the Fibonacci and the Lucas number of index `m`:
`((1 + √5) / 2) ^ m = (L m + F m * √5) / 2`. -/
def fibLucas : Nat → Nat × Nat
  | 0 => (0, 2)
  | m + 1 => (((fibLucas m).1 + (fibLucas m).2) / 2, (5 * (fibLucas m).1 + (fibLucas m).2) / 2)

/-- Whether `((1 + √5) / 2) ^ m ≤ n`, in integers: `F m * √5 ≤ 2 n - L m`. -/
def phiPowLe (m n : Nat) : Bool :=
  decide ((fibLucas m).2 ≤ 2 * n ∧
    5 * (fibLucas m).1 * (fibLucas m).1 ≤ (2 * n - (fibLucas m).2) * (2 * n - (fibLucas m).2))

/-- The value `static_cast<int>(log(n) / log((1 + sqrt(5)) / 2))` of `MAX_DEGREE` for `n ≥ 1`, taken
over the reals: the number of `m ≥ 1` with `((1 + √5) / 2) ^ m ≤ n`. For `n ≤ 0` the conversion
to `int` is not defined. -/
def maxDegree (n : Int) : Except Err Int :=
  if n ≤ 0 then .error .oob
  else pure (((List.range (n.toNat + 1)).filter (fun m => decide (1 ≤ m) && phiPowLe m n.toNat)).length)

/-- The loop `while (A[d]) { ... }` of `Consolidate`; the flag tells whether `goto EXIT` was
taken. -/
def consolidateInner (comp : Int → Int → Bool) :
    Nat → List (Option FibonacciNode) → List (Option Nat) → Option Nat → Int →
    Except Err (List (Option FibonacciNode) × List (Option Nat) × Option Nat × Int × Bool)
  | 0, _, _, _, _ => .error .fuel
  | f + 1, st, A, x, d => do
    let y ← rd A d
    if y.isNone then return (st, A, x, d, false)
    if x = y then return (st, A, x, d, true)
    -- if (comp_(y->key, x->key)) { std::swap(x, y); }
    let sw := comp (← load st y).key (← load st x).key
    let (x, y) := if sw then (y, x) else (x, y)
    let st ← FibHeapLink st y x
    let A ← wr A d none
    consolidateInner comp f st A x (d + 1)

/-- The loop `while (true) { ... }` of `Consolidate`, left through `goto EXIT`. -/
def consolidateLoop (comp : Int → Int → Bool) (fuel : Nat) :
    Nat → List (Option FibonacciNode) → List (Option Nat) → Option Nat →
    Except Err (List (Option FibonacciNode) × List (Option Nat) × Option Nat)
  | 0, _, _, _ => .error .fuel
  | f + 1, st, A, x => do
    let d := (← load st x).degree
    let (st, A, x, d, exit) ← consolidateInner comp fuel st A x d
    if exit then return (st, A, x)
    let A ← wr A d x
    consolidateLoop comp fuel f st A (← load st x).right

/-- Source `FibonacciHeap::Consolidate`. -/
def Consolidate (comp : Int → Int → Bool) (fuel : Nat) (h : FibonacciHeap) :
    Except Err FibonacciHeap := do
  let x := h.min
  let MAX_DEGREE ← maxDegree h.n
  let A : List (Option Nat) := List.replicate (MAX_DEGREE + 1).toNat none
  let (st, A, x) ← consolidateLoop comp fuel fuel h.store A x
  let min := x
  let min ← A.foldlM (fun (min : Option Nat) (root : Option Nat) => do
    if root.isSome then
      if comp (← load st root).key (← load st min).key then return root
    pure min) min
  pure { h with min := min, store := st }

/-- Source `FibonacciHeap::FibHeapExtractMin`; returns the heap and `z`. -/
def FibHeapExtractMin (comp : Int → Int → Bool) (fuel : Nat) (h : FibonacciHeap) :
    Except Err (FibonacciHeap × Option Nat) := do
  let z := h.min
  if z.isNone then return (h, z)
  let st ← clearParentListNode fuel h.store (← load h.store z).child
  let st ← concatLists st z (← load st z).child
  let st ← removeListNode st z
  let h ← if z = (← load st z).right then
      pure { h with min := none, store := st }
    else
      Consolidate comp fuel { h with min := (← load st z).right, store := st }
  pure ({ h with n := h.n - 1 }, z)

/-- Source `FibonacciHeap::pop`; `delete` empties the slot of the node. -/
def pop (comp : Int → Int → Bool) (fuel : Nat) (h : FibonacciHeap) : Except Err FibonacciHeap := do
  if h.empty then return h
  let (h, z) ← FibHeapExtractMin comp fuel h
  match z with
  | none => pure h
  | some a =>
    let _ ← load h.store z
    pure { h with store := h.store.set a none }

/-- Source `FibonacciHeap::Cut(x, y)`; `min` is passed by reference to `insertListNode`. -/
def Cut (h : FibonacciHeap) (x y : Option Nat) : Except Err FibonacciHeap := do
  let st := h.store
  let st ← if (← load st x).right = x then
      setChild st y none
    else do
      let st ← removeListNode st x
      if (← load st y).child = x then setChild st y (← load st x).right else pure st
  let st ← setDegree st y ((← load st y).degree - 1)
  let (st, min) ← insertListNode st x h.min
  let st ← setP st x none
  let st ← setMark st x false
  pure { h with min := min, store := st }

/-- Source `FibonacciHeap::CascadingCut(y)`. -/
def CascadingCut : Nat → FibonacciHeap → Option Nat → Except Err FibonacciHeap
  | 0, _, _ => .error .fuel
  | f + 1, h, y => do
    let z := (← load h.store y).p
    if z.isSome then
      if !(← load h.store y).mark then
        return { h with store := ← setMark h.store y true }
      else
        let h ← Cut h y z
        return (← CascadingCut f h z)
    pure h

/-- Source `FibonacciHeap::FibHeapDecreaseKey(x, k)`; the message on `std::cerr` is not part of
the state. -/
def FibHeapDecreaseKey (comp : Int → Int → Bool) (fuel : Nat) (h : FibonacciHeap)
    (x : Option Nat) (k : Int) : Except Err FibonacciHeap := do
  if comp (← load h.store x).key k then return h
  let h := { h with store := ← setKey h.store x k }
  let y := (← load h.store x).p
  let h ← if y.isSome then do
      if comp (← load h.store x).key (← load h.store y).key then
        let h ← Cut h x y
        CascadingCut fuel h y
      else pure h
    else pure h
  if comp (← load h.store x).key (← load h.store h.min).key then
    return { h with min := x }
  pure h

/-- The keys of the elements in the heap: those of the nodes made by `push` and not yet deleted
by `pop`, in the order of their creation. -/
def keys (h : FibonacciHeap) : List Int :=
  h.store.filterMap (fun o => o.map (fun x => x.key))

/-- One call of `push` or `pop`. -/
def applyCall (comp : Int → Int → Bool) (fuel : Nat) (h : FibonacciHeap) :
    HeapCall → Except Err FibonacciHeap
  | .push k => do pure (← push comp h k).1
  | .pop => pop comp fuel h

/-- A history of calls on a new heap. -/
def runCalls (comp : Int → Int → Bool) (fuel : Nat) (ops : List HeapCall) :
    Except Err FibonacciHeap :=
  ops.foldlM (applyCall comp fuel) new

end FibonacciHeap

namespace BTree

/-- The key/value pairs held by a node, in slot order. -/
def Node.kvs (x : Node) : List (Int × Int) := (view x.key x.n).zip (view x.val x.n)

/-- The child pointers in use: slots `0 .. n_`. -/
def Node.kids (x : Node) : List (Option Node) := view x.c (x.n + 1)

/-- The arrays of a node have the capacities of src/BTree.h and the count is within them. -/
def Shape (t : Int) (x : Node) : Prop :=
  (x.key.length : Int) = 2 * t - 1 ∧ (x.val.length : Int) = 2 * t - 1 ∧
  (x.c.length : Int) = 2 * t ∧ 0 ≤ x.n ∧ x.n ≤ 2 * t - 1

/-- In-order reading of the subtree of height `h` under a pointer. -/
def inorder : Nat → Option Node → List (Int × Int)
  | _, none => []
  | 0, some x => x.kvs
  | h + 1, some x => inter (x.kids.map (inorder h)) x.kvs

/-- The in-order readings of the children of a node of height `h` (empty lists for a leaf). -/
def subs : Nat → Node → List (List (Int × Int))
  | 0, x => List.replicate (x.kvs.length + 1) []
  | h + 1, x => x.kids.map (inorder h)

/-- A well-formed subtree of height `h`: all leaves at depth `h`, every node shaped, every node
below the top holding at least `t - 1` keys. -/
def WF (t : Int) : Nat → Node → Prop
  | 0, x => Shape t x ∧ x.leaf = true
  | h + 1, x => Shape t x ∧ x.leaf = false ∧
      ∀ o ∈ x.kids, ∃ ch, o = some ch ∧ WF t h ch ∧ t - 1 ≤ ch.n

/-- Correctness of `_remove_node` on every subtree of height `h` that holds a key. -/
def RemOK (t : Int) (h : Nat) : Prop :=
  ∀ (fuel : Nat) (x : Node) (k : Int), WF t h x → 1 ≤ x.n → SortedKV (inorder h (some x)) →
    4 * h + 1 ≤ fuel →
    ∃ x' h' res, _remove_node t fuel (some x) k = .ok (some x', res) ∧ WF t h' x' ∧ h' ≤ h ∧
      (t ≤ x.n → h' = h ∧ t - 1 ≤ x'.n) ∧
      RemSpec (inorder h (some x)) (inorder h' (some x')) k res

end BTree

namespace DiskBTree

/-- The handle `dn` of the disk-resident tree and the node `M` of the in-memory tree hold the
same keys, values, count and leaf flag. -/
def Flat (dn : DNode) (M : BTree.Node) : Prop :=
  dn.key = M.key ∧ dn.val = M.val ∧ dn.n = M.n ∧ dn.leaf = M.leaf ∧ dn.c.length = M.c.length

/-- Position `p` of the file holds a record, stored under its own position, that is related by `R`
to the in-memory child `o`. -/
def KidRel (file : Int → Option DNode) (R : DNode → BTree.Node → Prop) (p : Int)
    (o : Option BTree.Node) : Prop :=
  ∃ Mi dni, o = some Mi ∧ file p = some dni ∧ dni.pos = p ∧ R dni Mi

/-- The handle `dn`, with the subtrees its child positions designate in the file, stands for the
in-memory subtree `M` of height `h`. -/
def NodeRel (file : Int → Option DNode) : Nat → DNode → BTree.Node → Prop
  | 0, dn, M => Flat dn M
  | h + 1, dn, M => Flat dn M ∧
      List.Forall₂ (KidRel file (NodeRel file h)) (view dn.c (dn.n + 1)) M.kids

/-- The positions of the proper descendants of a handle of height `h`. -/
def fpKids (file : Int → Option DNode) : Nat → DNode → List Int
  | 0, _ => []
  | h + 1, dn => (view dn.c (dn.n + 1)).flatMap (fun p =>
      p :: (match file p with
        | some d => fpKids file h d
        | none => []))

/-- The positions of the subtree of height `h` stored at position `p`. -/
def fpAt (file : Int → Option DNode) (h : Nat) (p : Int) : List Int :=
  p :: (match file p with
    | some d => fpKids file h d
    | none => [])

/-- The subtree under a handle is a tree (no position occurs twice) made of allocated
positions. -/
def TreeOK (file : Int → Option DNode) (np : Int) (h : Nat) (dn : DNode) : Prop :=
  (dn.pos :: fpKids file h dn).Nodup ∧ ∀ p ∈ dn.pos :: fpKids file h dn, 0 ≤ p ∧ p < np

/-- The statement of the simulation of `_insert_non_full` at height `h`. -/
def InsSim (t : Int) (h : Nat) : Prop :=
  ∀ (fuel : Nat) (s : DiskBTree) (x : DNode) (M M' : BTree.Node) (k v : Int),
    NodeRel s.file h x M → BTree.WF t h M → M.n < 2 * t - 1 →
    TreeOK s.file s.next_pos_ h x → s.file x.pos = some x →
    BTree._insert_non_full t fuel M k v = .ok M' →
    ∃ s' x', _insert_non_full t fuel s x k v = .ok s' ∧ s'.file x.pos = some x' ∧
      x'.pos = x.pos ∧ NodeRel s'.file h x' M' ∧ TreeOK s'.file s'.next_pos_ h x' ∧
      s.next_pos_ ≤ s'.next_pos_ ∧ s'.root_ = s.root_ ∧
      (∀ q, q ∉ x.pos :: fpKids s.file h x → q < s.next_pos_ → s'.file q = s.file q) ∧
      (∀ q ∈ fpKids s'.file h x', q ∈ fpKids s.file h x ∨ s.next_pos_ ≤ q)

/-- The file holds, under `root_`, a tree that stands for the in-memory tree `M` of height
`h`. -/
def Rep (s : DiskBTree) (h : Nat) (M : BTree.Node) : Prop :=
  ∃ r, s.file s.root_ = some r ∧ r.pos = s.root_ ∧ NodeRel s.file h r M ∧
    TreeOK s.file s.next_pos_ h r

/-- The state of a disk-resident tree that holds the pairs `L`: no node was allocated yet and
`L` is empty, or the file stands for a well-formed in-memory tree whose sorted reading is a
rearrangement of `L`. -/
def Holds (t : Int) (s : DiskBTree) (L : List (Int × Int)) : Prop :=
  (s.next_pos_ = 0 ∧ L = []) ∨
  ∃ h M, Rep s h M ∧ BTree.WF t h M ∧ SortedKV (BTree.inorder h (some M)) ∧
    (BTree.inorder h (some M)).Perm L ∧ h ≤ L.length

/-- What an operation on the children of the node under the handle `x` (a merge or a borrow)
leaves: the handle `x'` is stored at the position of `x` and stands for the in-memory node
`Mx'`; the subtree under it is a tree made of positions of the old one; nothing else changed. -/
def OpOut (s s' : DiskBTree) (h : Nat) (x x' : DNode) (Mx' : BTree.Node) : Prop :=
  x'.pos = x.pos ∧ s'.file x.pos = some x' ∧ NodeRel s'.file (h + 1) x' Mx' ∧
  TreeOK s'.file s'.next_pos_ (h + 1) x' ∧ s'.next_pos_ = s.next_pos_ ∧ s'.root_ = s.root_ ∧
  (∀ q ∈ fpKids s'.file (h + 1) x', q ∈ fpKids s.file (h + 1) x) ∧
  (∀ q, q ∉ x.pos :: fpKids s.file (h + 1) x → s'.file q = s.file q)

/-- What a removal in the subtree of height `h` under the handle `x` leaves: the record `d'` is
stored at its own position and stands for the in-memory subtree `M'` of height `h'`; the subtree
under it is a tree made of positions of the old one; nothing outside the old subtree changed. -/
def RemOut (s s' : DiskBTree) (h : Nat) (x : DNode) (h' : Nat) (d' : DNode) (M' : BTree.Node) :
    Prop :=
  s'.file d'.pos = some d' ∧ NodeRel s'.file h' d' M' ∧ TreeOK s'.file s'.next_pos_ h' d' ∧
  s'.next_pos_ = s.next_pos_ ∧
  (∀ q ∈ d'.pos :: fpKids s'.file h' d', q ∈ x.pos :: fpKids s.file h x) ∧
  (∀ q, q ∉ x.pos :: fpKids s.file h x → s'.file q = s.file q)

/-- Correctness of the disk-resident `_remove_node` on every stored subtree of height `h` that
holds a key: it returns the flag the in-memory `_remove_node` returns on the subtree the file
stands for, and leaves in the file the subtree the in-memory call returns. A node with at least
`t` keys stays where it is; the root pointer follows a root that is given up. -/
def DRemOK (t : Int) (h : Nat) : Prop :=
  ∀ (fuel : Nat) (s : DiskBTree) (x : DNode) (M : BTree.Node) (k : Int),
    NodeRel s.file h x M → BTree.WF t h M → 1 ≤ M.n → SortedKV (BTree.inorder h (some M)) →
    TreeOK s.file s.next_pos_ h x → s.file x.pos = some x → 4 * h + 1 ≤ fuel →
    ∃ M' h' res s' xr d',
      BTree._remove_node t fuel (some M) k = .ok (some M', res) ∧ BTree.WF t h' M' ∧ h' ≤ h ∧
      (t ≤ M.n → h' = h ∧ t - 1 ≤ M'.n) ∧
      RemSpec (BTree.inorder h (some M)) (BTree.inorder h' (some M')) k res ∧
      _remove_node t fuel s x k = .ok (s', xr, res) ∧ RemOut s s' h x h' d' M' ∧
      (t ≤ M.n → d'.pos = x.pos ∧ xr = d' ∧ s'.root_ = s.root_) ∧
      (x.pos = s.root_ → s'.root_ = d'.pos)

/-- A run of `insert` calls, one per pair of the list, in list order. -/
def insertAll (t : Int) (fuel : Nat) (s : DiskBTree) (kvs : List (Int × Int)) :
    Except Err DiskBTree :=
  kvs.foldlM (fun s p => insert t fuel s p.1 p.2) s

/-- A run of `remove` calls, one per key of the list, in list order, with the flags returned. -/
def removeAll (t : Int) (fuel : Nat) : DiskBTree → List Int → Except Err (DiskBTree × List Bool)
  | s, [] => pure (s, [])
  | s, k :: ks => do
    let (s, b) ← remove t fuel s k
    let (s, bs) ← removeAll t fuel s ks
    pure (s, b :: bs)

end DiskBTree

/-- Pairs in strictly ascending key order. -/
def StrictKV (l : List (Int × Int)) : Prop := l.Pairwise (fun p q => p.1 < q.1)

/-- The key `k` lies in the interval with optional inclusive lower bound `lo` and optional
exclusive upper bound `hi`. -/
def InB (lo hi : Option Int) (k : Int) : Prop :=
  (∀ a, lo = some a → a ≤ k) ∧ (∀ b, hi = some b → k < b)

/-- The key `k` lies strictly inside the interval with optional bounds `lo` and `hi`. -/
def InO (lo hi : Option Int) (k : Int) : Prop :=
  (∀ a, lo = some a → a < k) ∧ (∀ b, hi = some b → k < b)

namespace LeafNode

/-- The pairs of the main page, in slot order. -/
def kvs (x : LeafNode) : List (Int × Int) := (view x.key x.n).zip (view x.val x.n)

/-- The pairs of the overflow block, in slot order. -/
def okvs (x : LeafNode) : List (Int × Int) :=
  (view x.overflow_key x.overflow_n).zip (view x.overflow_val x.overflow_n)

/-- The pairs a leaf holds: main page, then overflow block. -/
def pairs (x : LeafNode) : List (Int × Int) := x.kvs ++ x.okvs

/-- The arrays of a leaf have the capacities of src/BPlusTree.h, the counts are within them and
the pairs of the overflow block fit in the free part of the main page. -/
def Shape (d : Int) (x : LeafNode) : Prop :=
  (x.key.length : Int) = 2 * d - 1 ∧ (x.val.length : Int) = 2 * d - 1 ∧
  (x.overflow_key.length : Int) = d / 2 ∧ (x.overflow_val.length : Int) = d / 2 ∧
  0 ≤ x.n ∧ 0 ≤ x.overflow_n ∧ x.overflow_n ≤ d / 2 ∧ x.n + x.overflow_n ≤ 2 * d - 1

/-- A leaf between two calls of the public interface: shaped, at most one pair waiting in the
overflow block, the main page strictly ascending, no key held twice, every key within the
interval its position in the tree gives it. -/
def Inv (d : Int) (lo hi : Option Int) (x : LeafNode) : Prop :=
  Shape d x ∧ x.overflow_n ≤ 1 ∧ StrictKV x.kvs ∧ (x.pairs.map Prod.fst).Nodup ∧
  ∀ p ∈ x.pairs, InB lo hi p.1

/-- The overflow block of a leaf has the capacity of src/BPlusTree.h and its count is within
the capacity. -/
def OvOK (d : Int) (x : LeafNode) : Prop :=
  (x.overflow_key.length : Int) = d / 2 ∧ (x.overflow_val.length : Int) = d / 2 ∧
  0 ≤ x.overflow_n ∧ x.overflow_n ≤ d / 2

end LeafNode

/-- Children `S` and separators `K` of an Internal node, read as `c0 k0 c1 k1 ... cn`: every
child satisfies `P` with the separators next to it as bounds (`lo` before the first child, `hi`
after the last). -/
def KI (P : Option Int → Option Int → Option BPNode → Prop) :
    Option Int → Option Int → List (Option BPNode) → List Int → Prop
  | lo, hi, [o], [] => P lo hi o
  | lo, hi, o :: S, k :: K => P lo (some k) o ∧ KI P (some k) hi S K
  | _, _, _, _ => False

/-- A run `c0 k0 c1 k1 ... c(m-1) k(m-1)` of children, each followed by a separator. -/
def KPre (P : Option Int → Option Int → Option BPNode → Prop) :
    Option Int → List (Option BPNode) → List Int → Prop
  | _, [], [] => True
  | lo, o :: S, k :: K => P lo (some k) o ∧ KPre P (some k) S K
  | _, _, _ => False

/-- The last separator of a run, or the bound before it. -/
def lastOr (lo : Option Int) (K : List Int) : Option Int :=
  match K.getLast? with
  | some a => some a
  | none => lo

/-- The first separator of a run, or the bound after it. -/
def headOr (hi : Option Int) (K : List Int) : Option Int :=
  match K with
  | [] => hi
  | k :: _ => some k

/-- What follows a child in `c0 k0 c1 k1 ... cn`: nothing, or a separator and the children and
separators after it. -/
def KPost (P : Option Int → Option Int → Option BPNode → Prop) (hi : Option Int)
    (S : List (Option BPNode)) (K : List Int) : Prop :=
  match K with
  | [] => S = []
  | k :: K => KI P (some k) hi S K

namespace BPlusTree

/-- The pairs held in the subtree of height `h` under a pointer, leaf by leaf from left to
right. -/
def contents : Nat → Option BPNode → List (Int × Int)
  | _, none => []
  | 0, some (.leaf x) => x.pairs
  | 0, some (.internal ..) => []
  | _ + 1, some (.leaf _) => []
  | h + 1, some (.internal n _ c) => (view c (n + 1)).flatMap (contents h)

/-- The subtree of height `h` under a node is a B+ tree whose keys lie in `[lo, hi)`: all leaves
at depth `h`, every leaf as `LeafNode.Inv` says, every Internal node with capacities of
src/BPlusTree.h, at least one key, strictly ascending keys, and children that hold at least
`d - 1` keys and whose keys lie between the separators next to them. -/
def BInv (d : Int) : Nat → Option Int → Option Int → BPNode → Prop
  | 0, lo, hi, .leaf x => x.Inv d lo hi
  | 0, _, _, .internal .. => False
  | _ + 1, _, _, .leaf _ => False
  | h + 1, lo, hi, .internal n key c =>
      (key.length : Int) = 2 * d - 1 ∧ (c.length : Int) = 2 * d ∧ 1 ≤ n ∧ n ≤ 2 * d - 1 ∧
      KI (fun l u o => ∃ ch, o = some ch ∧ BInv d h l u ch ∧ d - 1 ≤ ch.n) lo hi
        (view c (n + 1)) (view key n)

/-- What the chain of an Internal node at height `h + 1` asks of a child slot: a child that is a
B+ tree of height `h` within the bounds and holds at least `d - 1` keys. -/
def Kid (d : Int) (h : Nat) (l u : Option Int) (o : Option BPNode) : Prop :=
  ∃ ch, o = some ch ∧ BInv d h l u ch ∧ d - 1 ≤ ch.n

/-- Every leaf that can be reached from a node through child pointers, those in slots past the
key count included, has a well formed overflow block. -/
inductive LeavesOK (d : Int) : BPNode → Prop
  | leaf (x : LeafNode) : x.OvOK d → LeavesOK d (.leaf x)
  | internal (n : Int) (key : List Int) (c : List (Option BPNode)) :
      (∀ ch, some ch ∈ c → LeavesOK d ch) → LeavesOK d (.internal n key c)

/-- Every leaf reachable from a child array has a well formed overflow block. -/
def KidsOK (d : Int) (c : List (Option BPNode)) : Prop := ∀ ch, some ch ∈ c → LeavesOK d ch

/-- The leaf that `_search` reaches for the key `k` from a node at height `h` holds nothing in
its overflow block. -/
def PathFlushed (k : Int) : Nat → BPNode → Prop
  | 0, .leaf x => x.overflow_n = 0
  | 0, .internal .. => True
  | _ + 1, .leaf _ => True
  | h + 1, .internal n key c => ∀ ki ci ch, (BPNode.internal n key c)._get_key_index k = .ok ki →
      (⟨n, key, c⟩ : InternalNode)._get_child_index k ki = .ok ci → rd c ci = .ok (some ch) →
      PathFlushed k h ch

/-- What `_remove` does with fuel `f` for a key held under a node of height `h` that has at least
`d` keys: it returns a B+ tree within the same bounds that holds the other pairs and has at
least `d - 1` keys. -/
def RemStep (d : Int) (k : Int) (h f : Nat) : Prop :=
  ∀ (lo hi : Option Int) (p : BPNode), BInv d h lo hi p →
    k ∈ (contents h (some p)).map Prod.fst → d ≤ p.n →
    ∃ p' v, _remove d f p k = .ok p' ∧ BInv d h lo hi p' ∧
      (contents h (some p)).Perm ((k, v) :: contents h (some p')) ∧ d - 1 ≤ p'.n

/-- The tree stands for the association list `M`: it is empty and never used, or its root is a
B+ tree of height `h` without bounds that holds the pairs of `M`. -/
def Good (d : Int) (tr : BPlusTree) (h : Nat) (M : List (Int × Int)) : Prop :=
  match tr.root_ with
  | none => M = [] ∧ h = 0
  | some r => BInv d h none none r ∧ (contents h (some r)).Perm M

/-- One call of `insert` or `remove`; the flag returned by `remove` is dropped. -/
def applyCall (d : Int) (fuel : Nat) (tr : BPlusTree) : Call → Except Err BPlusTree
  | .ins k v => insert d fuel tr k v
  | .rem k => do
    let (tr, _) ← remove d fuel tr k
    pure tr

/-- A history of calls applied in order. -/
def runCalls (d : Int) (fuel : Nat) (tr : BPlusTree) (ops : List Call) : Except Err BPlusTree :=
  ops.foldlM (applyCall d fuel) tr

/-- A run of `insert` calls, one per pair of the list, in list order. -/
def insertAll (d : Int) (fuel : Nat) (tr : BPlusTree) (kvs : List (Int × Int)) :
    Except Err BPlusTree :=
  kvs.foldlM (fun tr p => insert d fuel tr p.1 p.2) tr

end BPlusTree

/-- A history in which every insert is of a key not currently present. -/
def Fresh : List (Int × Int) → List Call → Prop
  | _, [] => True
  | L, .ins k v :: ops => k ∉ L.map Prod.fst ∧ Fresh ((k, v) :: L) ops
  | L, .rem k :: ops => Fresh (L.filter (fun p => decide (p.1 ≠ k))) ops

namespace BTree

/-- What a test sees of the top of a tree: the root's `leaf_` flag and key count `n_`, and, for a
root that is not a leaf, the key counts of the children in slots `0 .. n_` (`none` for a null
slot). -/
def rootShape (tr : BTree) : Option (Bool × Int × List (Option Int)) :=
  tr.root_.map (fun r =>
    (r.leaf, r.n, if r.leaf then [] else (view r.c (r.n + 1)).map (fun o => o.map Node.n)))

/-- The nodes reachable from a node: `Below x y` when `y` is reached from `x` by following, once
or several times, a child pointer in the slots `0 .. n_` of a node that is not a leaf. -/
inductive Below : Node → Node → Prop
  | kid (x c : Node) : x.leaf = false → some c ∈ x.kids → Below x c
  | deeper (x c y : Node) : x.leaf = false → some c ∈ x.kids → Below c y → Below x y

end BTree

namespace DiskBTree

/-- One call of `insert` or `remove` on the disk-resident tree; the flag returned by `remove` is
dropped. -/
def applyCall (t : Int) (fuel : Nat) (s : DiskBTree) : Call → Except Err DiskBTree
  | .ins k v => insert t fuel s k v
  | .rem k => do
    let (s, _) ← remove t fuel s k
    pure s

/-- A history of calls applied in order to the disk-resident tree. -/
def runCalls (t : Int) (fuel : Nat) (s : DiskBTree) (ops : List Call) : Except Err DiskBTree :=
  ops.foldlM (applyCall t fuel) s

/-- What a test sees of the top of the disk-resident tree: the `leaf_` flag and key count of the
record stored at `root_`, and, for a root that is not a leaf, the key counts of the records at
the child positions in slots `0 .. n_`. -/
def rootShape (s : DiskBTree) : Option (Bool × Int × List (Option Int)) :=
  (s.file s.root_).map (fun r =>
    (r.leaf, r.n, if r.leaf then [] else
      (view r.c (r.n + 1)).map (fun p => (s.file p).map DNode.n)))

end DiskBTree

namespace BPlusTree

/-- The nodes of a B+ tree under a node: `Under x y` when `y` is reached from `x` by following,
once or several times, a child pointer in the slots `0 .. n_` of an Internal node. -/
inductive Under : BPNode → BPNode → Prop
  | kid (n : Int) (key : List Int) (c : List (Option BPNode)) (x : BPNode) :
      some x ∈ view c (n + 1) → Under (.internal n key c) x
  | deeper (n : Int) (key : List Int) (c : List (Option BPNode)) (y x : BPNode) :
      some y ∈ view c (n + 1) → Under y x → Under (.internal n key c) x

/-- The key count and the overflow count of the root when it is a leaf. -/
def rootCounts (tr : BPlusTree) : Option (Int × Int) :=
  match tr.root_ with
  | some (.leaf x) => some (x.n, x.overflow_n)
  | _ => none

/-- The change `_search(p, k)` makes to the subtree it walks: `Flushed k p q` when `q` is `p`
with the leaf at the end of the search path of `k` replaced by the result of `_load_overflow` on
it. At an Internal node the path goes through the child slot `ci` that `_get_key_index(k)` and
`_get_child_index(k, i)` choose; the node keeps its key count and keys, and only slot `ci` of its
child array is written, with the changed child. A path whose slot `ci` is null changes
nothing. -/
inductive Flushed (k : Int) : BPNode → BPNode → Prop
  | leaf (x y : LeafNode) : x._load_overflow = .ok y → Flushed k (.leaf x) (.leaf y)
  | child (n : Int) (key : List Int) (c c' : List (Option BPNode)) (i ci : Int) (q q' : BPNode) :
      (BPNode.internal n key c)._get_key_index k = .ok i →
      InternalNode._get_child_index ⟨n, key, c⟩ k i = .ok ci →
      rd c ci = .ok (some q) → Flushed k q q' → wr c ci (some q') = .ok c' →
      Flushed k (.internal n key c) (.internal n key c')
  | nullChild (n : Int) (key : List Int) (c : List (Option BPNode)) (i ci : Int) :
      (BPNode.internal n key c)._get_key_index k = .ok i →
      InternalNode._get_child_index ⟨n, key, c⟩ k i = .ok ci →
      rd c ci = .ok none → Flushed k (.internal n key c) (.internal n key c)

/-- A root Internal node with the key 10 over two leaves, each with one pair waiting in its
overflow block: `(5, 50)` on the left, `(15, 150)` on the right. -/
def twoPending (d : Int) : BPlusTree :=
  ⟨some (.internal 1 ((InternalNode.new d).key.set 0 10)
    (((InternalNode.new d).c.set 0 (some (.leaf { LeafNode.new d with
        overflow_n := 1,
        overflow_key := (LeafNode.new d).overflow_key.set 0 5,
        overflow_val := (LeafNode.new d).overflow_val.set 0 50 }))).set 1
      (some (.leaf { LeafNode.new d with
        overflow_n := 1,
        overflow_key := (LeafNode.new d).overflow_key.set 0 15,
        overflow_val := (LeafNode.new d).overflow_val.set 0 150 }))))⟩

/-- The tree `twoPending` after the flush of its right leaf only: the pair `(15, 150)` is in
slot 0 of the main page of the right leaf, the left leaf still has its pair waiting. -/
def rightFlushed (d : Int) : BPlusTree :=
  ⟨some (.internal 1 ((InternalNode.new d).key.set 0 10)
    (((InternalNode.new d).c.set 0 (some (.leaf { LeafNode.new d with
        overflow_n := 1,
        overflow_key := (LeafNode.new d).overflow_key.set 0 5,
        overflow_val := (LeafNode.new d).overflow_val.set 0 50 }))).set 1
      (some (.leaf { LeafNode.new d with
        n := 1,
        key := (LeafNode.new d).key.set 0 15,
        val := (LeafNode.new d).val.set 0 150,
        overflow_key := (LeafNode.new d).overflow_key.set 0 15,
        overflow_val := (LeafNode.new d).overflow_val.set 0 150 }))))⟩

end BPlusTree

namespace LeafNode

/-- A run of `LeafNode::_insert` calls on one leaf, one per pair of the list, in list order. -/
def insertAll (d : Int) (x : LeafNode) (kvs : List (Int × Int)) : Except Err LeafNode :=
  kvs.foldlM (fun x p => x._insert d p.1 p.2) x

/-- A leaf whose main page is full: the keys `0 .. 2d - 2` with the values 0 and an empty
overflow block. -/
def fullLeaf (d : Int) : LeafNode :=
  { n := 2 * d - 1, key := (List.range (2 * d - 1).toNat).map (fun (j : Nat) => (j : Int)),
    val := List.replicate (2 * d - 1).toNat 0, overflow_n := 0,
    overflow_key := List.replicate (d / 2).toNat 0,
    overflow_val := List.replicate (d / 2).toNat 0 }

end LeafNode

namespace LeafNode

/-- A leaf with the pair `(4, 40)` in its main page and the pairs `(9, 90)`, `(2, 20)` in its
overflow block, with the capacities of `d = 32`. -/
def pendingTwo : LeafNode :=
  ⟨1, 4 :: List.replicate 62 0, 40 :: List.replicate 62 0, 2, 9 :: 2 :: List.replicate 14 0,
    90 :: 20 :: List.replicate 14 0⟩

end LeafNode

/-- The sibling pointers `l_` and `r_` of a leaf object. The leaf objects are named by their
addresses in a store; the array fields of a leaf are those of `LeafNode`. -/
structure LeafLinks where
  l_ : Option Nat
  r_ : Option Nat
  deriving DecidableEq, Repr

namespace LeafLinks

/-- The sibling pointers of the leaf at an address. -/
def load (st : List LeafLinks) (a : Nat) : Except Err LeafLinks :=
  match st.get? a with
  | some x => .ok x
  | none => .error .oob

/-- Assignment to the sibling pointers of the leaf at an address. -/
def save (st : List LeafLinks) (a : Nat) (x : LeafLinks) : Except Err (List LeafLinks) :=
  if a < st.length then .ok (st.set a x) else .error .oob

/-- The statements of `LeafNode::_split` on the sibling pointers, for the leaf at the address
`self`; `make_shared` puts the new leaf `r` at the next free address. Returns the store and the
address of `r`. -/
def _split (st : List LeafLinks) (self : Nat) : Except Err (List LeafLinks × Nat) := do
  -- auto r = std::make_shared<LeafNode>();
  let r := st.length
  let st := st ++ [⟨none, none⟩]
  -- if (r_) { auto tr = cast(r_); tr->l_ = r; r->r_ = tr; }
  let st ← match (← load st self).r_ with
    | some tr => do
      let st ← save st tr { (← load st tr) with l_ := some r }
      save st r { (← load st r) with r_ := some tr }
    | none => pure st
  -- r_ = r;
  let st ← save st self { (← load st self) with r_ := some r }
  -- r->l_ = this->shared_from_this();
  let st ← save st r { (← load st r) with l_ := some self }
  pure (st, r)

end LeafLinks

/-- The key/value pairs held by a handle of the disk-resident tree, in slot order. -/
def DNode.kvs (x : DNode) : List (Int × Int) := (view x.key x.n).zip (view x.val x.n)

namespace BTree

/-- A full leaf of the in-memory tree: the keys `0 .. 2t - 2` with the values 0. -/
def fullLeafNode (t : Int) : Node :=
  .mk ((List.range (2 * t - 1).toNat).map (fun (j : Nat) => (j : Int))) true (2 * t - 1)
    (List.replicate (2 * t - 1).toNat 0) (List.replicate (2 * t).toNat none)

/-- A new Internal node whose child slot 0 designates the node `y`. -/
def parentOf (t : Int) (y : Node) : Node :=
  .mk (List.replicate (2 * t - 1).toNat 0) false 0 (List.replicate (2 * t - 1).toNat 0)
    (some y :: List.replicate (2 * t - 1).toNat none)

end BTree

/-- What an insert does to a node on its way down, with the key count of the node concerned at
that moment: `split n` when a node is split and the parent that receives the promoted key holds
`n` keys; `leaf n` when the pair is put into a leaf that holds `n` pairs. -/
inductive InsertEvent where
  | split (n : Int)
  | leaf (n : Int)
  deriving DecidableEq, Repr

/-- The key count recorded by an event. -/
def InsertEvent.count : InsertEvent → Int
  | .split n => n
  | .leaf n => n

namespace BPlusTree

/-- Source `BPlusTree::_insert` with a record of the events: the same statements, and the list of
the splits and of the final leaf insert in the order in which they happen. -/
def _insert_log (d : Int) : Nat → BPNode → Int → Int → Except Err (BPNode × List InsertEvent)
  | 0, _, _, _ => .error .fuel
  | f + 1, p, k, v => do
    if p.leaf_ then
      let tp ← p.asLeaf
      return ((← tp._insert d k v).toNode, [.leaf (tp.n + tp.overflow_n)])
    let tp ← p.asInternal
    let ki ← p._get_key_index k
    let ci ← tp._get_child_index k ki
    let c ← deref (← rd tp.c ci)
    let c ← c.loadIfLeaf
    let p ← p.putChild ci c
    if c.n ≥ 2 * d - 1 then
      let ev := InsertEvent.split p.n
      let (c, p) ← c._split d p ci
      let p ← p.putChild ci c
      if (← rd p.key ci) ≤ k then
        let tp ← p.asInternal
        let c ← deref (← rd tp.c (ci + 1))
        let (c, log) ← _insert_log d f c k v
        return (← p.putChild (ci + 1) c, ev :: log)
      let (c, log) ← _insert_log d f c k v
      return (← p.putChild ci c, ev :: log)
    let (c, log) ← _insert_log d f c k v
    pure (← p.putChild ci c, log)

/-- Source `BPlusTree::insert` with a record of the events. -/
def insert_log (d : Int) (fuel : Nat) (tr : BPlusTree) (k v : Int) :
    Except Err (BPlusTree × List InsertEvent) := do
  let root := match tr.root_ with
    | none => (LeafNode.new d).toNode
    | some r => r
  let root ← root.loadIfLeaf
  if root.n = 2 * d - 1 then
    let r := InternalNode.new d
    let r := { r with c := ← wr r.c 0 (some root) }
    let ev := InsertEvent.split r.n
    let (root, r) ← root._split d r.toNode 0
    let r ← r.putChild 0 root
    let (r, log) ← _insert_log d fuel r k v
    return (⟨some r⟩, ev :: log)
  let (r, log) ← _insert_log d fuel root k v
  return (⟨some r⟩, log)

end BPlusTree

namespace BTree

/-- Source `BTree::_insert_non_full` with a record of the events. -/
def _insert_non_full_log (t : Int) : Nat → Node → Int → Int →
    Except Err (Node × List InsertEvent)
  | 0, _, _, _ => .error .fuel
  | f + 1, x, k, v => do
    let i := x.n - 1
    if x.leaf then
      let (key, val, i) ← shiftWhile k (x.n.toNat + 1) x.key x.val i
      let key ← wr key (i + 1) k
      let val ← wr val (i + 1) v
      return (((x.setKey key).setVal val).setN (x.n + 1), [.leaf x.n])
    let i ← scanDown x.key k (x.n.toNat + 1) i
    let i := i + 1
    let child ← deref (← rd x.c i)
    if child.n = 2 * t - 1 then
      let ev := InsertEvent.split x.n
      let x ← _split_child t x i
      let i := if k > (← rd x.key i) then i + 1 else i
      let child ← deref (← rd x.c i)
      let (child, log) ← _insert_non_full_log t f child k v
      return (x.setC (← wr x.c i (some child)), ev :: log)
    let (child, log) ← _insert_non_full_log t f child k v
    return (x.setC (← wr x.c i (some child)), log)

/-- Source `BTree::insert` with a record of the events. -/
def insert_log (t : Int) (fuel : Nat) (tr : BTree) (k v : Int) :
    Except Err (BTree × List InsertEvent) := do
  let root := match tr.root_ with
    | none => (_allocate_node t).setLeaf true
    | some r => r
  if root.n = 2 * t - 1 then
    let s := _allocate_node t
    let s := s.setC (← wr s.c 0 (some root))
    let s := s.setLeaf false
    let ev := InsertEvent.split s.n
    let s ← _split_child t s 0
    let (r, log) ← _insert_non_full_log t fuel s k v
    return (⟨some r⟩, ev :: log)
  let (r, log) ← _insert_non_full_log t fuel root k v
  return (⟨some r⟩, log)

end BTree

namespace LeafNode

/-- A flushed leaf of degree `d` whose main page holds the given keys in its first slots, each
with the value `0`, the remaining slots being `0` as after construction. -/
def ofKeys (d : Int) (ks : List Int) : LeafNode :=
  ⟨(ks.length : Int), ks ++ List.replicate ((2 * d - 1).toNat - ks.length) 0,
    List.replicate (2 * d - 1).toNat 0, 0, List.replicate (d / 2).toNat 0,
    List.replicate (d / 2).toNat 0⟩

end LeafNode

namespace InternalNode

/-- An Internal node of degree `d` with the given keys in its first slots and no children. -/
def ofKeys (d : Int) (ks : List Int) : InternalNode :=
  ⟨(ks.length : Int), ks ++ List.replicate ((2 * d - 1).toNat - ks.length) 0,
    List.replicate (2 * d).toNat none⟩

/-- An Internal node of degree `d` with one key `s` and the two children `l` and `r`. -/
def ofTwo (d : Int) (l r : BPNode) (s : Int) : InternalNode :=
  ⟨1, s :: List.replicate ((2 * d - 1).toNat - 1) 0,
    some l :: some r :: List.replicate ((2 * d).toNat - 2) none⟩

end InternalNode

namespace BTree

/-- A leaf of the in-memory tree with the given keys in its first slots, each with value `0`. -/
def leafOf (t : Int) (ks : List Int) : Node :=
  .mk (ks ++ List.replicate ((2 * t - 1).toNat - ks.length) 0) true (ks.length : Int)
    (List.replicate (2 * t - 1).toNat 0) (List.replicate (2 * t).toNat none)

/-- A node of the in-memory tree that is not a leaf, with the given keys in its first slots, each
with value `0`, and the given children in its first child slots. -/
def nodeOf (t : Int) (ks : List Int) (cs : List Node) : Node :=
  .mk (ks ++ List.replicate ((2 * t - 1).toNat - ks.length) 0) false (ks.length : Int)
    (List.replicate (2 * t - 1).toNat 0)
    (cs.map some ++ List.replicate ((2 * t).toNat - cs.length) none)

/-- The keys `lo, lo + 1, ..., lo + cnt - 1`. -/
def keysFrom (lo : Int) (cnt : Nat) : List Int := (List.range cnt).map (fun j => lo + (j : Int))

/-- A history of public calls: the keys 1 .. 48 are inserted in ascending order, then 48 is
removed. It leaves a root with the keys 16 and 32 over three leaves of 15 keys each. -/
def fillHistory : List Call :=
  ((List.range 48).map (fun j => Call.ins ((j : Int) + 1) 0)) ++ [Call.rem 48]

end BTree

namespace BTree

/-- A node with the key 16 over two leaves that hold the keys 1 .. 15 and 17 .. 31. -/
def twoLeafNode : Node :=
  nodeOf t [16] [leafOf t (keysFrom 1 15), leafOf t (keysFrom 17 15)]

end BTree

namespace BPlusTree

/-- The key `k` is stored in the subtree under the node `y`: some leaf of the subtree, `y` itself
or a leaf reached from `y` through child pointers in use, holds a pair with the key `k` in its
main page or in its overflow block. -/
def Stored (y : BPNode) (k : Int) : Prop :=
  ∃ z, (y = .leaf z ∨ Under y (.leaf z)) ∧ k ∈ z.pairs.map Prod.fst

end BPlusTree

namespace BPlusTree

/-- The pairs inserted, in this order, by the history with a twice-inserted key: the keys
1 .. 31 with value 0, the key 31 a second time with value 1, then the keys 32 .. 63 with
value 0. -/
def dupHistory : List (Int × Int) :=
  ((List.range 31).map (fun j => ((j : Int) + 1, (0 : Int)))) ++ [(31, 1)] ++
    ((List.range 32).map (fun j => ((j : Int) + 32, (0 : Int))))

/-- The keys a leaf behind a pointer holds, main page then overflow block (nothing for a null
pointer or an Internal node). -/
def leafKeys : Option BPNode → List Int
  | some (.leaf x) => view x.key x.n ++ view x.overflow_key x.overflow_n
  | _ => []

/-- What a test sees of a tree whose root is an Internal node over leaves: the keys of the root
and, for each child in use, how many keys the leaf holds and whether `k` is one of them. -/
def leafReport (k : Int) (tr : BPlusTree) : Option (List Int × List (Nat × Bool)) :=
  match tr.root_ with
  | some (.internal n key c) =>
    some (view key n, (view c (n + 1)).map (fun o => ((leafKeys o).length, decide (k ∈ leafKeys o))))
  | _ => none

end BPlusTree

namespace LeafNode

/-- The arrays of a leaf have the capacities of src/BPlusTree.h, the overflow count is within the
overflow block and the main-page count does not exceed the main page. -/
def Fit (d : Int) (x : LeafNode) : Prop :=
  (x.key.length : Int) = 2 * d - 1 ∧ (x.val.length : Int) = 2 * d - 1 ∧
  (x.overflow_key.length : Int) = d / 2 ∧ (x.overflow_val.length : Int) = d / 2 ∧
  0 ≤ x.overflow_n ∧ x.overflow_n ≤ d / 2 ∧ x.n ≤ 2 * d - 1

/-- The leaf fits and the pairs of the overflow block fit in the free part of the main page:
main-page count plus overflow count is at most `2d - 1`. -/
def Cap (d : Int) (x : LeafNode) : Prop :=
  x.Fit d ∧ x.n + x.overflow_n ≤ 2 * d - 1

end LeafNode

namespace BPlusTree

/-- A node at height `h` over leaves within capacity: a leaf (`h = 0`) satisfies `LeafNode.Cap`;
every pointer held by an Internal node at height `h + 1`, those in slots past the key count
included, is null or leads to such a node at height `h`. -/
inductive Lev (d : Int) : Nat → BPNode → Prop
  | leaf (x : LeafNode) : x.Cap d → Lev d 0 (.leaf x)
  | internal (h : Nat) (n : Int) (key : List Int) (c : List (Option BPNode)) :
      (∀ ch, some ch ∈ c → Lev d h ch) → Lev d (h + 1) (.internal n key c)

/-- Every pointer of a child array is null or leads to a node at height `h` over leaves within
capacity. -/
def KidsLev (d : Int) (h : Nat) (c : List (Option BPNode)) : Prop :=
  ∀ ch, some ch ∈ c → Lev d h ch

/-- The tree is empty or its root is a node at height `h` over leaves within capacity. -/
def TreeLev (d : Int) (h : Nat) (tr : BPlusTree) : Prop :=
  ∀ r, tr.root_ = some r → Lev d h r

/-- The node `x` is reached from `r` in exactly `j ≥ 1` steps, each step following a child
pointer in the slots `0 .. n_` of an Internal node. -/
inductive UnderAt : BPNode → Nat → BPNode → Prop
  | kid (n : Int) (key : List Int) (c : List (Option BPNode)) (x : BPNode) :
      some x ∈ view c (n + 1) → UnderAt (.internal n key c) 1 x
  | deeper (n : Int) (key : List Int) (c : List (Option BPNode)) (y : BPNode) (j : Nat)
      (x : BPNode) :
      some y ∈ view c (n + 1) → UnderAt y j x → UnderAt (.internal n key c) (j + 1) x

end BPlusTree

namespace BTree

/-- The node `y` is reached from `x` in exactly `j ≥ 1` steps, each step following a child
pointer in the slots `0 .. n_` of a node that is not a leaf. -/
inductive BelowAt : Node → Nat → Node → Prop
  | kid (x c : Node) : x.leaf = false → some c ∈ x.kids → BelowAt x 1 c
  | deeper (x c : Node) (j : Nat) (y : Node) :
      x.leaf = false → some c ∈ x.kids → BelowAt c j y → BelowAt x (j + 1) y

end BTree

/-- The node is not a leaf with pairs waiting in its overflow block. -/
def BPNode.Flushed (x : BPNode) : Prop := ∀ y, x = .leaf y → y.overflow_n = 0

/-- A history of calls in which no `remove` is issued on an empty tree: the list holds the keys
stored so far, one entry per stored pair; an insert adds its key whether or not it is already
there and a remove takes one copy of its key away when there is one. -/
def Held : List Int → List Call → Prop
  | _, [] => True
  | L, .ins k _ :: ops => Held (k :: L) ops
  | L, .rem k :: ops => L ≠ [] ∧ Held (L.erase k) ops

/-! Evaluation lemmas for the array primitives. -/

@[simp] theorem Except.ok_bind {ε α β : Type} (a : α) (f : α → Except ε β) :
    (Except.ok a >>= f) = f a := rfl

@[simp] theorem Except.error_bind {ε α β : Type} (e : ε) (f : α → Except ε β) :
    (Except.error e >>= f) = .error e := rfl

@[simp] theorem Except.pure_eq_ok {ε α : Type} (a : α) : (pure a : Except ε α) = .ok a := rfl

theorem view_length {α : Type} (a : List α) (n : Int) (h0 : 0 ≤ n) (h : n ≤ a.length) :
    (view a n).length = n.toNat := by
  unfold view; rw [List.length_take]; omega

theorem rd_ok {α : Type} {a : List α} {i : Int} {v : α}
    (h0 : 0 ≤ i) (h : a[i.toNat]? = some v) : rd a i = .ok v := by
  unfold rd
  rw [if_neg (by omega), List.get?_eq_getElem?, h]

theorem rd_ok_iff {α : Type} {a : List α} {i : Int} {v : α} :
    rd a i = .ok v ↔ 0 ≤ i ∧ a[i.toNat]? = some v := by
  constructor
  · intro h
    unfold rd at h
    by_cases hi : i < 0
    · rw [if_pos hi] at h; cases h
    · rw [if_neg hi, List.get?_eq_getElem?] at h
      refine ⟨by omega, ?_⟩
      cases hg : a[i.toNat]? with
      | none => rw [hg] at h; cases h
      | some w => rw [hg] at h; cases h; rfl
  · rintro ⟨h0, h⟩
    exact rd_ok h0 h

theorem rd_app {α : Type} (A : List α) (x : α) (R : List α) :
    rd (A ++ x :: R) (A.length : Int) = .ok x := by
  apply rd_ok (by omega)
  simp only [Int.toNat_ofNat]
  rw [List.getElem?_append_right (le_refl _)]
  simp

theorem wr_ok {α : Type} {a : List α} {i : Int} (x : α)
    (h0 : 0 ≤ i) (h1 : i < a.length) : wr a i x = .ok (a.set i.toNat x) := by
  unfold wr
  rw [if_neg (by omega)]

theorem wr_app {α : Type} (A : List α) (x y : α) (R : List α) :
    wr (A ++ x :: R) (A.length : Int) y = .ok (A ++ y :: R) := by
  rw [wr_ok _ (by omega) (by simp)]
  simp

theorem upTo_succ (lo hi : Int) (h : lo < hi) : upTo lo hi = lo :: upTo (lo + 1) hi := by
  unfold upTo
  have : (hi - lo).toNat = (hi - (lo + 1)).toNat + 1 := by omega
  rw [this, List.range_succ_eq_map]
  simp only [List.map_cons, List.map_map, Nat.cast_zero, add_zero, List.cons.injEq, true_and]
  apply List.map_congr_left
  intro d _
  simp only [Function.comp, Nat.succ_eq_add_one, Nat.cast_add, Nat.cast_one]
  omega

theorem upTo_nil (lo hi : Int) (h : hi ≤ lo) : upTo lo hi = [] := by
  unfold upTo
  have : (hi - lo).toNat = 0 := by omega
  rw [this]; rfl

theorem downTo_succ (hi lo : Int) (h : lo ≤ hi) : downTo hi lo = hi :: downTo (hi - 1) lo := by
  unfold downTo
  have : (hi + 1 - lo).toNat = (hi - 1 + 1 - lo).toNat + 1 := by omega
  rw [this, List.range_succ_eq_map]
  simp only [List.map_cons, List.map_map, Nat.cast_zero, sub_zero, List.cons.injEq, true_and]
  apply List.map_congr_left
  intro d _
  simp only [Function.comp, Nat.succ_eq_add_one, Nat.cast_add, Nat.cast_one]
  omega

theorem downTo_nil (hi lo : Int) (h : hi < lo) : downTo hi lo = [] := by
  unfold downTo
  have : (hi + 1 - lo).toNat = 0 := by omega
  rw [this]; rfl

/-- The loop `shiftUp` on an array cut into the untouched prefix `A`, the moved block `B`, the slot
`x` the block moves into, and the rest. -/
theorem shiftUp_app {α : Type} (B : List α) : ∀ (A : List α) (x : α) (R : List α) (hi : Int),
    hi + 1 = A.length + B.length →
    ∃ h, shiftUp (A ++ B ++ x :: R) hi A.length = .ok (A ++ h :: B ++ R) := by
  induction B using List.reverseRecOn with
  | nil =>
    intro A x R hi hhi
    refine ⟨x, ?_⟩
    unfold shiftUp
    rw [downTo_nil _ _ (by simp at hhi; omega)]
    simp [List.foldlM]
  | append_singleton B b ih =>
    intro A x R hi hhi
    simp only [List.length_append, List.length_singleton, Nat.cast_add, Nat.cast_one] at hhi
    obtain ⟨h, hh⟩ := ih A b (b :: R) (hi - 1) (by omega)
    refine ⟨h, ?_⟩
    unfold shiftUp at hh ⊢
    rw [downTo_succ _ _ (by omega), List.foldlM_cons]
    have e1 : hi = ((A ++ B).length : Int) := by simp; omega
    have e2 : A ++ (B ++ [b]) ++ x :: R = (A ++ B) ++ b :: (x :: R) := by simp
    have e3 : hi + 1 = ((A ++ B ++ [b]).length : Int) := by simp; omega
    have e4 : (A ++ B) ++ b :: (x :: R) = (A ++ B ++ [b]) ++ x :: R := by simp
    rw [e2]
    conv => lhs; arg 1; arg 1; rw [e1, rd_app]
    rw [Except.ok_bind, e4, e3, wr_app, Except.ok_bind]
    have e5 : A ++ B ++ [b] ++ b :: R = A ++ B ++ b :: b :: R := by simp
    rw [e5, hh]
    simp

theorem shiftUp_spec {α : Type} (a : List α) (hi lo n : Int) (hn : n = hi + 1)
    (h0 : 0 ≤ lo) (h1 : lo ≤ n) (h2 : n < a.length) :
    ∃ a', shiftUp a hi lo = .ok a' ∧ a'.length = a.length ∧
      ∀ y, view (a'.set lo.toNat y) (n + 1) =
        (view a n).take lo.toNat ++ y :: (view a n).drop lo.toNat := by
  obtain ⟨l, rfl⟩ : ∃ l : Nat, lo = l := ⟨lo.toNat, by omega⟩
  obtain ⟨m, rfl⟩ : ∃ m : Nat, n = m := ⟨n.toNat, by omega⟩
  have hlm : l ≤ m := by omega
  have hma : m < a.length := by omega
  have hdrop : a.drop m ≠ [] := by
    intro h; have := congrArg List.length h; simp at this; omega
  obtain ⟨x, R, hxR⟩ := List.exists_cons_of_ne_nil hdrop
  have ha : a = a.take l ++ (a.drop l).take (m - l) ++ x :: R := by
    rw [← hxR]
    have : a.drop m = (a.drop l).drop (m - l) := by
      rw [List.drop_drop]; congr 1; omega
    rw [this, List.append_assoc, List.take_append_drop, List.take_append_drop]
  have hlenA : (a.take l).length = l := by rw [List.length_take]; omega
  have hlenB : ((a.drop l).take (m - l)).length = m - l := by
    rw [List.length_take, List.length_drop]; omega
  obtain ⟨h, hh⟩ := shiftUp_app ((a.drop l).take (m - l)) (a.take l) x R hi
    (by rw [hlenA, hlenB]; omega)
  rw [← ha, hlenA] at hh
  refine ⟨_, hh, ?_, ?_⟩
  · conv => rhs; rw [ha]
    simp
    omega
  · intro y
    have hview : view a (m : Int) = a.take l ++ (a.drop l).take (m - l) := by
      unfold view
      simp only [Int.toNat_ofNat]
      conv => lhs; rw [ha]
      rw [List.take_append_of_le_length (by simp [hlenA, hlenB]; omega)]
      rw [List.take_of_length_le (by simp [hlenA, hlenB]; omega)]
    rw [hview]
    unfold view
    have e1 : ((m : Int) + 1).toNat = m + 1 := by omega
    simp only [Int.toNat_ofNat, e1]
    rw [List.take_left' hlenA, List.drop_left' hlenA]
    have e2 : (a.take l ++ h :: (a.drop l).take (m - l) ++ R).set l y
        = a.take l ++ y :: (a.drop l).take (m - l) ++ R := by
      rw [List.append_assoc, List.set_append_right _ _ (by omega)]
      simp [hlenA]
    rw [e2]
    have e3 : a.take l ++ y :: (a.drop l).take (m - l) ++ R
        = (a.take l ++ y :: (a.drop l).take (m - l)) ++ R := by simp
    rw [e3, List.take_left' (by simp [hlenA, hlenB]; omega)]

/-- The loop `shiftDown` on an array cut into the untouched prefix `A`, the overwritten slot `x`,
the moved block `B` and the rest. -/
theorem shiftDown_app {α : Type} (B : List α) : ∀ (A : List α) (x : α) (R : List α) (hi : Int),
    hi = A.length + B.length →
    ∃ l, shiftDown (A ++ x :: B ++ R) A.length hi = .ok (A ++ B ++ l :: R) := by
  induction B with
  | nil =>
    intro A x R hi hhi
    refine ⟨x, ?_⟩
    unfold shiftDown
    rw [upTo_nil _ _ (by simp at hhi; omega)]
    simp [List.foldlM]
  | cons b B ih =>
    intro A x R hi hhi
    simp only [List.length_cons, Nat.cast_add, Nat.cast_one] at hhi
    obtain ⟨l, hl⟩ := ih (A ++ [b]) b R hi (by simp; omega)
    refine ⟨l, ?_⟩
    unfold shiftDown at hl ⊢
    rw [upTo_succ _ _ (by omega), List.foldlM_cons]
    have e1 : (A.length : Int) + 1 = ((A ++ [x]).length : Int) := by simp
    have e2 : A ++ x :: (b :: B) ++ R = (A ++ [x]) ++ b :: (B ++ R) := by simp
    have e3 : A ++ x :: (b :: B) ++ R = A ++ x :: (b :: B ++ R) := by simp
    conv => lhs; arg 1; arg 1; rw [e1, e2, rd_app]
    rw [Except.ok_bind, e3, wr_app, Except.ok_bind]
    have e4 : A ++ b :: (b :: B ++ R) = (A ++ [b]) ++ b :: B ++ R := by simp
    have e5 : ((A ++ [b]).length : Int) = (A.length : Int) + 1 := by simp
    rw [e4, ← e5, hl]
    simp

theorem shiftDown_spec {α : Type} (a : List α) (lo hi n : Int) (hn : n = hi + 1)
    (h0 : 0 ≤ lo) (h1 : lo ≤ hi) (h2 : n ≤ a.length) :
    ∃ a', shiftDown a lo hi = .ok a' ∧ a'.length = a.length ∧
      view a' hi = (view a n).eraseIdx lo.toNat := by
  obtain ⟨l, rfl⟩ : ∃ l : Nat, lo = l := ⟨lo.toNat, by omega⟩
  obtain ⟨m, rfl⟩ : ∃ m : Nat, hi = m := ⟨hi.toNat, by omega⟩
  subst hn
  have hlm : l ≤ m := by omega
  have hma : m < a.length := by omega
  have hdrop : a.drop l ≠ [] := by
    intro h; have := congrArg List.length h; simp at this; omega
  obtain ⟨x, T, hxT⟩ := List.exists_cons_of_ne_nil hdrop
  have hT : T = a.drop (l + 1) := by
    have := congrArg (List.drop 1) hxT
    simpa [List.drop_drop, Nat.add_comm] using this.symm
  have ha : a = a.take l ++ x :: T.take (m - l) ++ T.drop (m - l) := by
    rw [List.append_assoc, List.cons_append, List.take_append_drop, ← hxT, List.take_append_drop]
  have hlenA : (a.take l).length = l := by rw [List.length_take]; omega
  have hlenT : T.length = a.length - (l + 1) := by rw [hT, List.length_drop]
  have hlenB : (T.take (m - l)).length = m - l := by
    rw [List.length_take, hlenT]; omega
  obtain ⟨z, hz⟩ := shiftDown_app (T.take (m - l)) (a.take l) x (T.drop (m - l)) m
    (by rw [hlenA, hlenB]; omega)
  rw [← ha, hlenA] at hz
  refine ⟨_, hz, ?_, ?_⟩
  · conv => rhs; rw [ha]
    simp
    omega
  · have hview : view a ((m : Int) + 1) = a.take l ++ x :: T.take (m - l) := by
      unfold view
      have e1 : ((m : Int) + 1).toNat = m + 1 := by omega
      rw [e1]
      conv => lhs; rw [ha]
      rw [List.take_left' (by simp [hlenA, hlenB]; omega)]
    rw [hview]
    unfold view
    simp only [Int.toNat_ofNat]
    rw [List.eraseIdx_append_of_length_le (by omega)]
    simp only [hlenA, Nat.sub_self, List.eraseIdx_cons_zero]
    rw [List.append_assoc, ← List.append_assoc, List.take_left' (by simp [hlenA, hlenB]; omega)]

/-- The loop `copyRange` from round `j0` on. -/
theorem copyRange_app {α : Type} (dOff sOff cnt : Int) (S3 D3 : List α) (S2 : List α) :
    ∀ (D2 D1 : List α) (S0 : List α) (j0 : Int), D2.length = S2.length →
    (D1.length : Int) = j0 + dOff → (S0.length : Int) = j0 + sOff → cnt = j0 + S2.length →
    (upTo j0 cnt).foldlM (fun a j => do wr a (j + dOff) (← rd (S0 ++ S2 ++ S3) (j + sOff)))
      (D1 ++ D2 ++ D3) = (.ok (D1 ++ S2 ++ D3) : Except Err (List α)) := by
  induction S2 with
  | nil =>
    intro D2 D1 S0 j0 hlen _ _ hcnt
    have : D2 = [] := List.length_eq_zero.mp (by simpa using hlen)
    subst this
    rw [upTo_nil _ _ (by simp at hcnt; omega)]
    simp [List.foldlM]
  | cons s S2 ih =>
    intro D2 D1 S0 j0 hlen hD hS hcnt
    cases D2 with
    | nil => simp at hlen
    | cons d D2 =>
      simp only [List.length_cons, Nat.cast_add, Nat.cast_one] at hcnt hlen
      rw [upTo_succ _ _ (by omega), List.foldlM_cons]
      have e1 : S0 ++ s :: S2 ++ S3 = S0 ++ s :: (S2 ++ S3) := by simp
      have e2 : D1 ++ d :: D2 ++ D3 = D1 ++ d :: (D2 ++ D3) := by simp
      rw [e1, ← hS, rd_app, Except.ok_bind, e2, ← hD, wr_app, Except.ok_bind]
      have := ih D2 (D1 ++ [s]) (S0 ++ [s]) (j0 + 1) (by omega) (by simp; omega) (by simp; omega)
        (by omega)
      have e3 : S0 ++ [s] ++ S2 ++ S3 = S0 ++ s :: (S2 ++ S3) := by simp
      have e4 : D1 ++ [s] ++ D2 ++ D3 = D1 ++ s :: (D2 ++ D3) := by simp
      have e5 : D1 ++ [s] ++ S2 ++ D3 = D1 ++ s :: S2 ++ D3 := by simp
      rw [e3, e4, e5] at this
      exact this

theorem copyRange_spec {α : Type} (dst src : List α) (cnt dOff sOff : Int)
    (h0 : 0 ≤ cnt) (h1 : 0 ≤ dOff) (h2 : 0 ≤ sOff)
    (h3 : dOff + cnt ≤ dst.length) (h4 : sOff + cnt ≤ src.length) :
    ∃ d', copyRange dst src cnt dOff sOff = .ok d' ∧ d'.length = dst.length ∧
      view d' (dOff + cnt) = view dst dOff ++ (src.drop sOff.toNat).take cnt.toNat := by
  obtain ⟨c, rfl⟩ : ∃ c : Nat, cnt = c := ⟨cnt.toNat, by omega⟩
  obtain ⟨p, rfl⟩ : ∃ p : Nat, dOff = p := ⟨dOff.toNat, by omega⟩
  obtain ⟨q, rfl⟩ : ∃ q : Nat, sOff = q := ⟨sOff.toNat, by omega⟩
  have hd : dst = dst.take p ++ (dst.drop p).take c ++ (dst.drop p).drop c := by
    rw [List.append_assoc, List.take_append_drop, List.take_append_drop]
  have hs : src = src.take q ++ (src.drop q).take c ++ (src.drop q).drop c := by
    rw [List.append_assoc, List.take_append_drop, List.take_append_drop]
  have l1 : (dst.take p).length = p := by rw [List.length_take]; omega
  have l2 : ((dst.drop p).take c).length = c := by rw [List.length_take, List.length_drop]; omega
  have l3 : (src.take q).length = q := by rw [List.length_take]; omega
  have l4 : ((src.drop q).take c).length = c := by rw [List.length_take, List.length_drop]; omega
  have := copyRange_app (p : Int) (q : Int) (c : Int) ((src.drop q).drop c)
    ((dst.drop p).drop c) ((src.drop q).take c) ((dst.drop p).take c) (dst.take p) (src.take q) 0
    (by rw [l2, l4]) (by rw [l1]; omega) (by rw [l3]; omega) (by rw [l4]; omega)
  rw [← hd, ← hs] at this
  refine ⟨_, this, ?_, ?_⟩
  · conv => rhs; rw [hd]
    simp only [List.length_append, l1, l2, l4]
  · unfold view
    have e1 : ((p : Int) + (c : Int)).toNat = p + c := by omega
    simp only [Int.toNat_ofNat, e1]
    rw [List.take_left' (by simp [l1, l4])]

theorem view_set_beyond {α : Type} (a : List α) (n i : Int) (y : α) (h0 : 0 ≤ n) (h1 : n ≤ i) :
    view (a.set i.toNat y) n = view a n := by
  unfold view
  rw [List.set_take, List.set_eq_of_length_le]
  rw [List.length_take]
  omega

theorem view_set_inside {α : Type} (a : List α) (n i : Int) (y : α) :
    view (a.set i.toNat y) n = (view a n).set i.toNat y := by
  unfold view
  rw [List.set_take]

theorem view_set_snoc {α : Type} (a : List α) (n : Int) (y : α) (h0 : 0 ≤ n) (h1 : n < a.length) :
    view (a.set n.toNat y) (n + 1) = view a n ++ [y] := by
  have hb := view_set_beyond a n n y h0 (le_refl _)
  unfold view at hb ⊢
  have e1 : (n + 1).toNat = n.toNat + 1 := by omega
  have hlt : n.toNat < (a.set n.toNat y).length := by simp; omega
  rw [e1, List.take_succ, List.getElem?_eq_getElem hlt, hb]
  simp

theorem rd_view {α : Type} {a : List α} {n i : Int} {v : α} (h0 : 0 ≤ i) (h1 : i < n)
    (h : (view a n)[i.toNat]? = some v) : rd a i = .ok v := by
  apply rd_ok h0
  unfold view at h
  rw [List.getElem?_take] at h
  rw [if_pos (by omega)] at h
  exact h

theorem view_rd {α : Type} {a : List α} {n i : Int} {v : α} (h1 : i < n)
    (h : rd a i = .ok v) : (view a n)[i.toNat]? = some v := by
  obtain ⟨h0, hv⟩ := rd_ok_iff.mp h
  unfold view
  rw [List.getElem?_take, if_pos (by omega)]
  exact hv

theorem rd_total {α : Type} (a : List α) (i : Int) (h0 : 0 ≤ i) (h1 : i < a.length) :
    ∃ v, rd a i = .ok v := by
  have hlt : i.toNat < a.length := by omega
  exact ⟨a[i.toNat], rd_ok h0 (List.getElem?_eq_getElem hlt)⟩

theorem scanUp_app (k n : Int) (A2 : List Int) : ∀ (A1 T : List Int) (fuel : Nat),
    (∀ y ∈ A2, y < k) → A2.length < fuel → (A1.length : Int) + A2.length ≤ n →
    ((A1.length : Int) + A2.length < n → ∃ y T', T = y :: T' ∧ k ≤ y) →
    scanUp (A1 ++ A2 ++ T) n k fuel A1.length = .ok ((A1.length : Int) + A2.length) := by
  induction A2 with
  | nil =>
    intro A1 T fuel _ hf hn hT
    obtain ⟨f, rfl⟩ : ∃ f, fuel = f + 1 := ⟨fuel - 1, by simp at hf; omega⟩
    simp only [List.length_nil, Nat.cast_zero, add_zero, List.append_nil] at hn hT ⊢
    unfold scanUp
    by_cases hlt : (A1.length : Int) < n
    · obtain ⟨y, T', rfl, hy⟩ := hT hlt
      rw [if_pos hlt, rd_app, Except.ok_bind, if_neg (by omega)]
      rfl
    · rw [if_neg hlt]; rfl
  | cons a A2 ih =>
    intro A1 T fuel hA hf hn hT
    obtain ⟨f, rfl⟩ : ∃ f, fuel = f + 1 := ⟨fuel - 1, by simp at hf; omega⟩
    simp only [List.length_cons, Nat.cast_add, Nat.cast_one] at hn hT hf ⊢
    unfold scanUp
    have e1 : A1 ++ a :: A2 ++ T = A1 ++ a :: (A2 ++ T) := by simp
    rw [if_pos (by omega), e1, rd_app, Except.ok_bind, if_pos (hA a (by simp))]
    have := ih (A1 ++ [a]) T f (fun y hy => hA y (by simp [hy])) (by omega)
      (by simp; omega) (by intro h; apply hT; simp at h; omega)
    have e2 : A1 ++ [a] ++ A2 ++ T = A1 ++ a :: (A2 ++ T) := by simp
    have e3 : ((A1 ++ [a]).length : Int) = (A1.length : Int) + 1 := by simp
    rw [e2, e3] at this
    rw [this]
    congr 1
    omega

theorem exists_prefix_lt (k : Int) : ∀ L : List Int, ∃ A B, L = A ++ B ∧ (∀ y ∈ A, y < k) ∧
    (∀ y, B.head? = some y → k ≤ y) := by
  intro L
  induction L with
  | nil => exact ⟨[], [], rfl, by simp, by simp⟩
  | cons a L ih =>
    by_cases ha : a < k
    · obtain ⟨A, B, rfl, hA, hB⟩ := ih
      refine ⟨a :: A, B, rfl, ?_, hB⟩
      intro y hy
      rcases List.mem_cons.mp hy with rfl | h
      · exact ha
      · exact hA y h
    · exact ⟨[], a :: L, rfl, by simp, by intro y hy; simp at hy; omega⟩

theorem scanUp_spec (key : List Int) (n k : Int) (h0 : 0 ≤ n) (h1 : n ≤ key.length) :
    ∃ i, scanUp key n k (n.toNat + 1) 0 = .ok i ∧ 0 ≤ i ∧ i ≤ n ∧
      (∀ y ∈ (view key n).take i.toNat, y < k) ∧
      (∀ y, (view key n)[i.toNat]? = some y → k ≤ y) := by
  obtain ⟨A, B, hL, hA, hB⟩ := exists_prefix_lt k (view key n)
  have hlen := view_length key n h0 h1
  have hkey : key = [] ++ A ++ (B ++ key.drop n.toNat) := by
    have : key = view key n ++ key.drop n.toNat := by unfold view; simp
    rw [hL] at this
    simpa using this
  have hAB : A.length + B.length = n.toNat := by
    rw [← hlen, hL, List.length_append]
  have := scanUp_app k n A [] (B ++ key.drop n.toNat) (n.toNat + 1) hA (by omega)
    (by simp; omega) (by
      intro h
      simp at h
      cases B with
      | nil => simp at hAB; omega
      | cons b B => exact ⟨b, B ++ key.drop n.toNat, rfl, hB b rfl⟩)
  rw [← hkey] at this
  simp only [List.length_nil, Nat.cast_zero, zero_add] at this
  refine ⟨_, this, by omega, by omega, ?_, ?_⟩
  · intro y hy
    rw [hL] at hy
    simp only [Int.toNat_ofNat, List.take_left' rfl] at hy
    exact hA y hy
  · intro y hy
    rw [hL] at hy
    simp only [Int.toNat_ofNat] at hy
    rw [List.getElem?_append_right (le_refl _)] at hy
    simp only [Nat.sub_self] at hy
    cases B with
    | nil => simp at hy
    | cons b B =>
      simp at hy
      subst hy
      exact hB b rfl

theorem scanDown_app (k : Int) (B : List Int) : ∀ (A R : List Int) (fuel : Nat),
    (∀ y ∈ B, k < y) → (∀ y, A.getLast? = some y → y ≤ k) → B.length < fuel →
    scanDown (A ++ B ++ R) k fuel ((A.length : Int) + B.length - 1) = .ok ((A.length : Int) - 1) := by
  induction B using List.reverseRecOn with
  | nil =>
    intro A R fuel _ hA hf
    obtain ⟨f, rfl⟩ : ∃ f, fuel = f + 1 := ⟨fuel - 1, by simp at hf; omega⟩
    simp only [List.length_nil, Nat.cast_zero, add_zero, List.append_nil]
    unfold scanDown
    rcases List.eq_nil_or_concat A with rfl | ⟨A0, a, rfl⟩
    · simp
    · simp only [List.concat_eq_append] at hA ⊢
      have hle : a ≤ k := hA a (by simp)
      have e1 : ((A0 ++ [a]).length : Int) - 1 = (A0.length : Int) := by simp
      have e2 : A0 ++ [a] ++ R = A0 ++ a :: R := by simp
      rw [e1, e2, if_pos (by omega), rd_app, Except.ok_bind, if_neg (by omega)]
      rfl
  | append_singleton B b ih =>
    intro A R fuel hB hA hf
    obtain ⟨f, rfl⟩ : ∃ f, fuel = f + 1 := ⟨fuel - 1, by simp at hf; omega⟩
    simp only [List.length_append, List.length_singleton, Nat.cast_add, Nat.cast_one] at hf ⊢
    unfold scanDown
    have e1 : (A.length : Int) + ((B.length : Int) + 1) - 1 = ((A ++ B).length : Int) := by
      simp; omega
    have e2 : A ++ (B ++ [b]) ++ R = (A ++ B) ++ b :: R := by simp
    rw [e1, e2, if_pos (by omega), rd_app, Except.ok_bind, if_pos (hB b (by simp))]
    have := ih A (b :: R) f (fun y hy => hB y (by simp [hy])) hA (by omega)
    have e3 : ((A ++ B).length : Int) - 1 = (A.length : Int) + B.length - 1 := by simp
    have e4 : A ++ B ++ b :: R = A ++ B ++ (b :: R) := rfl
    rw [e3, this]

theorem exists_suffix_gt (k : Int) : ∀ L : List Int, ∃ A B, L = A ++ B ∧ (∀ y ∈ B, k < y) ∧
    (∀ y, A.getLast? = some y → y ≤ k) := by
  intro L
  induction L using List.reverseRecOn with
  | nil => exact ⟨[], [], rfl, by simp, by simp⟩
  | append_singleton L a ih =>
    by_cases ha : k < a
    · obtain ⟨A, B, rfl, hB, hA⟩ := ih
      refine ⟨A, B ++ [a], by simp, ?_, hA⟩
      intro y hy
      rcases List.mem_append.mp hy with h | h
      · exact hB y h
      · simp at h; omega
    · exact ⟨L ++ [a], [], by simp, by simp, by intro y hy; simp at hy; omega⟩

theorem scanDown_spec (key : List Int) (n k : Int) (h0 : 0 ≤ n) (h1 : n ≤ key.length) :
    ∃ i, scanDown key k (n.toNat + 1) (n - 1) = .ok i ∧ -1 ≤ i ∧ i < n ∧
      (∀ y ∈ (view key n).drop (i + 1).toNat, k < y) ∧
      (∀ y, 0 ≤ i → (view key n)[i.toNat]? = some y → y ≤ k) := by
  obtain ⟨A, B, hL, hB, hA⟩ := exists_suffix_gt k (view key n)
  have hlen := view_length key n h0 h1
  have hkey : key = A ++ B ++ key.drop n.toNat := by
    have : key = view key n ++ key.drop n.toNat := by unfold view; simp
    rw [hL] at this
    exact this
  have hAB : A.length + B.length = n.toNat := by
    rw [← hlen, hL, List.length_append]
  have := scanDown_app k B A (key.drop n.toNat) (n.toNat + 1) hB hA (by omega)
  rw [← hkey] at this
  have e1 : (A.length : Int) + B.length - 1 = n - 1 := by omega
  rw [e1] at this
  refine ⟨_, this, by omega, by omega, ?_, ?_⟩
  · intro y hy
    rw [hL] at hy
    have e2 : ((A.length : Int) - 1 + 1).toNat = A.length := by omega
    rw [e2, List.drop_left' rfl] at hy
    exact hB y hy
  · intro y hi hy
    rw [hL] at hy
    apply hA
    rcases List.eq_nil_or_concat A with rfl | ⟨A0, a, rfl⟩
    · simp at hi
    · simp only [List.concat_eq_append] at hy hA ⊢
      have e3 : (((A0 ++ [a]).length : Int) - 1).toNat = A0.length := by simp
      rw [e3] at hy
      have e4 : A0 ++ [a] ++ B = A0 ++ a :: B := by simp
      rw [e4, List.getElem?_append_right (le_refl _)] at hy
      simp only [Nat.sub_self, List.getElem?_cons_zero, Option.some.injEq] at hy
      subst hy
      simp

theorem rd_at {α : Type} {L A R : List α} {x : α} {i : Int}
    (hL : L = A ++ x :: R) (hi : i = (A.length : Int)) : rd L i = .ok x := by
  subst hL hi; exact rd_app A x R

theorem wr_at {α : Type} {L A R : List α} {x : α} {i : Int} (y : α)
    (hL : L = A ++ x :: R) (hi : i = (A.length : Int)) : wr L i y = .ok (A ++ y :: R) := by
  subst hL hi; exact wr_app A x y R

theorem shiftWhile_app (k : Int) (B : List Int) : ∀ (B' A A' : List Int) (x x' : Int)
    (R R' K V : List Int) (i : Int) (fuel : Nat), B'.length = B.length → A'.length = A.length →
    (∀ y ∈ B, k < y) → (∀ y, A.getLast? = some y → y ≤ k) → B.length < fuel →
    K = A ++ B ++ x :: R → V = A' ++ B' ++ x' :: R' → i = (A.length : Int) + B.length - 1 →
    ∃ h h', shiftWhile k fuel K V i
      = .ok (A ++ h :: B ++ R, A' ++ h' :: B' ++ R', (A.length : Int) - 1) := by
  induction B using List.reverseRecOn with
  | nil =>
    intro B' A A' x x' R R' K V i fuel hB' hA' _ hA hf hK hV hi
    obtain ⟨f, rfl⟩ : ∃ f, fuel = f + 1 := ⟨fuel - 1, by simp at hf; omega⟩
    have : B' = [] := List.length_eq_zero.mp (by simpa using hB')
    subst this
    refine ⟨x, x', ?_⟩
    simp only [List.length_nil, Nat.cast_zero, add_zero, List.append_nil] at hi hK hV ⊢
    unfold shiftWhile
    rcases List.eq_nil_or_concat A with rfl | ⟨A0, a, rfl⟩
    · subst hi hK hV
      have : A' = [] := List.length_eq_zero.mp (by simpa using hA')
      subst this
      simp
    · simp only [List.concat_eq_append] at hA hi hK hA' ⊢
      have hle : a ≤ k := hA a (by simp)
      have r1 : rd K i = .ok a := rd_at (A := A0) (R := x :: R) (by simp [hK]) (by simp [hi])
      rw [if_pos (by simp at hi; omega), r1, Except.ok_bind, if_neg (by omega)]
      subst hi hK hV
      simp
  | append_singleton B b ih =>
    intro B' A A' x x' R R' K V i fuel hB' hA' hB hA hf hK hV hi
    obtain ⟨f, rfl⟩ : ∃ f, fuel = f + 1 := ⟨fuel - 1, by simp at hf; omega⟩
    rcases List.eq_nil_or_concat B' with rfl | ⟨B0', b', rfl⟩
    · simp at hB'
    simp only [List.concat_eq_append, List.length_append, List.length_singleton,
      Nat.cast_add, Nat.cast_one] at hf hB' hi hV
    obtain ⟨h, h', hh⟩ := ih B0' A A' b b' (b :: R) (b' :: R') (A ++ B ++ b :: b :: R)
      (A' ++ B0' ++ b' :: b' :: R') (i - 1) f (by omega) hA'
      (fun y hy => hB y (by simp [hy])) hA (by omega) rfl rfl (by omega)
    refine ⟨h, h', ?_⟩
    unfold shiftWhile
    have r1 : rd K i = .ok b :=
      rd_at (A := A ++ B) (R := x :: R) (by simp [hK]) (by simp [hi] <;> omega)
    have r2 : rd V i = .ok b' :=
      rd_at (A := A' ++ B0') (R := x' :: R') (by simp [hV]) (by simp [hi] <;> omega)
    have w1 : wr K (i + 1) b = .ok (A ++ B ++ b :: b :: R) := by
      rw [wr_at (A := A ++ B ++ [b]) (R := R) (x := x) b (by simp [hK]) (by simp [hi] <;> omega)]
      simp
    have w2 : wr V (i + 1) b' = .ok (A' ++ B0' ++ b' :: b' :: R') := by
      rw [wr_at (A := A' ++ B0' ++ [b']) (R := R') (x := x') b' (by simp [hV])
        (by simp [hi] <;> omega)]
      simp
    rw [if_pos (by omega), r1, Except.ok_bind, if_pos (hB b (by simp)), w1, Except.ok_bind, r2]
    simp only [Except.ok_bind, w2, hh]
    simp

theorem shiftWhile_spec (key val : List Int) (n k : Int) (h0 : 0 ≤ n)
    (h1 : n < key.length) (h2 : n < val.length) :
    ∃ key' val' i, shiftWhile k (n.toNat + 1) key val (n - 1) = .ok (key', val', i) ∧
      -1 ≤ i ∧ i < n ∧ key'.length = key.length ∧ val'.length = val.length ∧
      (∀ y ∈ (view key n).drop (i + 1).toNat, k < y) ∧
      (∀ y, 0 ≤ i → (view key n)[i.toNat]? = some y → y ≤ k) ∧
      (∀ y, view (key'.set (i + 1).toNat y) (n + 1)
        = (view key n).take (i + 1).toNat ++ y :: (view key n).drop (i + 1).toNat) ∧
      (∀ w, view (val'.set (i + 1).toNat w) (n + 1)
        = (view val n).take (i + 1).toNat ++ w :: (view val n).drop (i + 1).toNat) := by
  obtain ⟨A, B, hL, hB, hA⟩ := exists_suffix_gt k (view key n)
  have hlen := view_length key n h0 (by omega)
  have hlen' := view_length val n h0 (by omega)
  have hAB : A.length + B.length = n.toNat := by rw [← hlen, hL, List.length_append]
  have hdk : key.drop n.toNat ≠ [] := by
    intro h; have := congrArg List.length h; simp at this; omega
  have hdv : val.drop n.toNat ≠ [] := by
    intro h; have := congrArg List.length h; simp at this; omega
  obtain ⟨x, R, hxR⟩ := List.exists_cons_of_ne_nil hdk
  obtain ⟨x', R', hxR'⟩ := List.exists_cons_of_ne_nil hdv
  have hkey : key = A ++ B ++ x :: R := by
    have : key = view key n ++ key.drop n.toNat := by unfold view; simp
    rw [hL, hxR] at this; exact this
  have hval : val = (view val n).take A.length ++ (view val n).drop A.length ++ x' :: R' := by
    have : val = view val n ++ val.drop n.toNat := by unfold view; simp
    rw [hxR'] at this
    rw [List.take_append_drop]; exact this
  have lA' : ((view val n).take A.length).length = A.length := by
    rw [List.length_take, hlen']; omega
  have lB' : ((view val n).drop A.length).length = B.length := by
    rw [List.length_drop, hlen']; omega
  obtain ⟨h, h', hh⟩ := shiftWhile_app k B ((view val n).drop A.length) A
    ((view val n).take A.length) x x' R R' key val (n - 1) (n.toNat + 1) lB' lA' hB hA
    (by omega) hkey hval (by omega)
  have ei : ((A.length : Int) - 1 + 1).toNat = A.length := by omega
  have en : (n + 1).toNat = A.length + 1 + B.length := by omega
  refine ⟨_, _, _, hh, by omega, by omega, ?_, ?_, ?_, ?_, ?_, ?_⟩
  · rw [hkey]; simp; omega
  · conv => rhs; rw [hval]
    simp only [List.length_append, List.length_cons, lA', lB']
    omega
  · intro y hy
    rw [hL, ei, List.drop_left' rfl] at hy
    exact hB y hy
  · intro y hi hy
    rw [hL] at hy
    apply hA
    rcases List.eq_nil_or_concat A with rfl | ⟨A0, a, rfl⟩
    · simp at hi
    · simp only [List.concat_eq_append] at hy hA ⊢
      have e3 : (((A0 ++ [a]).length : Int) - 1).toNat = A0.length := by simp
      rw [e3] at hy
      have e4 : A0 ++ [a] ++ B = A0 ++ a :: B := by simp
      rw [e4, List.getElem?_append_right (le_refl _)] at hy
      simp only [Nat.sub_self, List.getElem?_cons_zero, Option.some.injEq] at hy
      subst hy
      simp
  · intro y
    rw [hL, ei, List.take_left' rfl, List.drop_left' rfl]
    rw [show ∀ L : List Int, view L (n + 1) = L.take (A.length + 1 + B.length) from
      fun L => by unfold view; rw [en]]
    have e2 : (A ++ h :: B ++ R).set A.length y = (A ++ y :: B) ++ R := by
      rw [List.append_assoc, List.set_append_right _ _ (by omega)]
      simp
    rw [e2, List.take_left' (by simp; omega)]
  · intro w
    rw [ei]
    rw [show ∀ L : List Int, view L (n + 1) = L.take (A.length + 1 + B.length) from
      fun L => by unfold view; rw [en]]
    have e2 : ((view val n).take A.length ++ h' :: (view val n).drop A.length ++ R').set A.length w
        = ((view val n).take A.length ++ w :: (view val n).drop A.length) ++ R' := by
      rw [List.append_assoc, List.set_append_right _ _ (by omega)]
      simp [lA']
    rw [e2, List.take_left' (by simp [lA', lB']; omega)]

/-! In-order reading of a multiway node: children interleaved with keys. -/

theorem inter_cons {α : Type} (c : List α) (cs : List (List α)) (ks : List α) :
    inter (c :: cs) ks = c ++ rest cs ks := rfl

theorem rest_cons {α : Type} (c : List α) (cs : List (List α)) (k : α) (ks : List α) :
    rest (c :: cs) (k :: ks) = k :: (c ++ rest cs ks) := rfl

theorem rest_eq_inter {α : Type} (c : List α) (cs : List (List α)) (k : α) (ks : List α) :
    rest (c :: cs) (k :: ks) = k :: inter (c :: cs) ks := rfl

theorem inter_append {α : Type} (A : List (List α)) : ∀ (KA : List α) (c : List α)
    (B : List (List α)) (KB : List α), A.length = KA.length →
    inter (A ++ c :: B) (KA ++ KB) = pre A KA ++ c ++ rest B KB := by
  induction A with
  | nil =>
    intro KA c B KB h
    have : KA = [] := List.length_eq_zero.mp (by simpa using h.symm)
    subst this
    simp [inter, pre]
  | cons a A ih =>
    intro KA c B KB h
    cases KA with
    | nil => simp at h
    | cons k KA =>
      have := ih KA c B KB (by simpa using h)
      simp only [List.cons_append, inter_cons, pre] at this ⊢
      cases A with
      | nil =>
        have : KA = [] := List.length_eq_zero.mp (by simpa using h.symm)
        subst this
        simp [rest, pre, inter] at this ⊢
      | cons a' A =>
        simp only [List.cons_append, rest_cons, inter_cons] at this ⊢
        rw [this]
        simp

theorem pre_snoc {α : Type} (A : List (List α)) : ∀ (KA : List α) (a : List α) (k : α),
    A.length = KA.length → pre (A ++ [a]) (KA ++ [k]) = pre A KA ++ a ++ [k] := by
  induction A with
  | nil =>
    intro KA a k h
    have : KA = [] := List.length_eq_zero.mp (by simpa using h.symm)
    subst this
    simp [pre]
  | cons a' A ih =>
    intro KA a k h
    cases KA with
    | nil => simp at h
    | cons k' KA =>
      show a' ++ k' :: pre (A ++ [a]) (KA ++ [k]) = _
      rw [ih KA a k (by simpa using h)]
      simp [pre]

theorem pre_append {α : Type} (A : List (List α)) : ∀ (KA : List α) (B : List (List α))
    (KB : List α), A.length = KA.length → pre (A ++ B) (KA ++ KB) = pre A KA ++ pre B KB := by
  induction A with
  | nil =>
    intro KA B KB h
    have : KA = [] := List.length_eq_zero.mp (by simpa using h.symm)
    subst this
    simp [pre]
  | cons a' A ih =>
    intro KA B KB h
    cases KA with
    | nil => simp at h
    | cons k' KA =>
      show a' ++ k' :: pre (A ++ B) (KA ++ KB) = _
      rw [ih KA B KB (by simpa using h)]
      simp [pre]

theorem rest_append {α : Type} (B : List (List α)) : ∀ (KB : List α) (C : List (List α))
    (KC : List α), B.length = KB.length →
    rest (B ++ C) (KB ++ KC) = rest B KB ++ rest C KC := by
  induction B with
  | nil =>
    intro KB C KC h
    have : KB = [] := List.length_eq_zero.mp (by simpa using h.symm)
    subst this
    cases KC <;> simp [rest]
  | cons b B ih =>
    intro KB C KC h
    cases KB with
    | nil => simp at h
    | cons k KB =>
      simp only [List.cons_append, rest_cons]
      rw [ih KB C KC (by simpa using h)]
      simp

theorem rest_nil_keys {α : Type} (B : List (List α)) : rest B ([] : List α) = [] := by
  cases B <;> rfl

theorem inter_replicate_nil {α : Type} (K : List α) :
    inter (List.replicate (K.length + 1) ([] : List α)) K = K := by
  induction K with
  | nil => rfl
  | cons k K ih =>
    simp only [List.length_cons, List.replicate_succ, inter_cons, List.nil_append] at ih ⊢
    rw [rest_cons, ih]
    rfl

theorem SortedKV.le_of_append_cons {l1 l2 : List (Int × Int)} {m : Int × Int}
    (h : SortedKV (l1 ++ m :: l2)) : (∀ p ∈ l1, p.1 ≤ m.1) ∧ (∀ p ∈ l2, m.1 ≤ p.1) := by
  unfold SortedKV at h
  rw [List.pairwise_append] at h
  obtain ⟨_, h2, h3⟩ := h
  rw [List.pairwise_cons] at h2
  exact ⟨fun p hp => h3 p hp m (by simp), fun p hp => h2.1 p hp⟩

theorem SortedKV.insert_mid {l1 l2 : List (Int × Int)} {kv : Int × Int}
    (h : SortedKV (l1 ++ l2)) (h1 : ∀ p ∈ l1, p.1 ≤ kv.1) (h2 : ∀ p ∈ l2, kv.1 ≤ p.1) :
    SortedKV (l1 ++ kv :: l2) := by
  unfold SortedKV at h ⊢
  rw [List.pairwise_append] at h ⊢
  obtain ⟨ha, hb, hc⟩ := h
  refine ⟨ha, ?_, ?_⟩
  · rw [List.pairwise_cons]
    exact ⟨h2, hb⟩
  · intro p hp q hq
    rcases List.mem_cons.mp hq with rfl | hq
    · exact h1 p hp
    · exact hc p hp q hq

theorem SortedKV.sublist {l1 l2 : List (Int × Int)} (hs : l1.Sublist l2) (h : SortedKV l2) :
    SortedKV l1 := List.Pairwise.sublist hs h

theorem SortedKV.left {l1 l2 : List (Int × Int)} (h : SortedKV (l1 ++ l2)) : SortedKV l1 :=
  h.sublist (List.sublist_append_left l1 l2)

theorem SortedKV.right {l1 l2 : List (Int × Int)} (h : SortedKV (l1 ++ l2)) : SortedKV l2 :=
  h.sublist (List.sublist_append_right l1 l2)

theorem inter_split {α : Type} (S : List (List α)) (K : List α) (j : Nat) (m : α)
    (hS : S.length = K.length + 1) (hm : K[j]? = some m) :
    inter S K = inter (S.take (j + 1)) (K.take j) ++ m :: inter (S.drop (j + 1)) (K.drop (j + 1)) := by
  have hj : j < K.length := by
    rcases Nat.lt_or_ge j K.length with h | h
    · exact h
    · rw [List.getElem?_eq_none h] at hm; cases hm
  have hK : K = K.take j ++ m :: K.drop (j + 1) := by
    have h1 : K.drop j = m :: K.drop (j + 1) := by
      rw [List.drop_eq_getElem_cons hj]
      rw [List.getElem?_eq_getElem hj] at hm
      simp only [Option.some.injEq] at hm
      rw [hm]
    rw [← h1, List.take_append_drop]
  have hjs : j < S.length := by omega
  have hS1 : S = S.take j ++ S[j] :: S.drop (j + 1) := by
    rw [← List.drop_eq_getElem_cons hjs, List.take_append_drop]
  have hd : S.drop (j + 1) ≠ [] := by
    intro h; have := congrArg List.length h; simp at this; omega
  obtain ⟨b, B, hB⟩ := List.exists_cons_of_ne_nil hd
  have l1 : (S.take j).length = (K.take j).length := by
    rw [List.length_take, List.length_take]; omega
  have e1 : S.take (j + 1) = S.take j ++ S[j] :: [] := by
    rw [List.take_succ, List.getElem?_eq_getElem hjs]; rfl
  conv => lhs; rw [hS1, hK]
  rw [inter_append _ _ _ _ _ l1, e1]
  have := inter_append (S.take j) (K.take j) S[j] [] [] l1
  rw [List.append_nil] at this
  rw [this, hB]
  simp [rest, inter]

theorem pre_mem_le {K : List (Int × Int)} {S : List (List (Int × Int))} {R : List (Int × Int)}
    {i : Nat} {k : Int} (hS : (S.take i).length = (K.take i).length)
    (hs : SortedKV (pre (S.take i) (K.take i) ++ R))
    (hk : ∀ m, 0 < i → K[i - 1]? = some m → m.1 ≤ k) (hi : i ≤ K.length) :
    ∀ p ∈ pre (S.take i) (K.take i), p.1 ≤ k := by
  cases i with
  | zero => intro p hp; simp [pre] at hp
  | succ j =>
    have hj : j < K.length := by omega
    have hjs : j < S.length := by
      rw [List.length_take, List.length_take] at hS; omega
    have e1 : S.take (j + 1) = S.take j ++ [S[j]] := by
      rw [List.take_succ, List.getElem?_eq_getElem hjs]; rfl
    have e2 : K.take (j + 1) = K.take j ++ [K[j]] := by
      rw [List.take_succ, List.getElem?_eq_getElem hj]; rfl
    have l1 : (S.take j).length = (K.take j).length := by
      rw [List.length_take, List.length_take]; omega
    rw [e1, e2, pre_snoc _ _ _ _ l1] at hs ⊢
    have hm := hk K[j] (by omega) (by simp [List.getElem?_eq_getElem hj])
    have hs' : SortedKV ((pre (S.take j) (K.take j) ++ S[j]) ++ K[j] :: R) := by
      simpa using hs
    have := hs'.le_of_append_cons.1
    intro p hp
    rcases List.mem_append.mp hp with hp | hp
    · have := this p hp; omega
    · simp at hp; subst hp; exact hm

theorem rest_mem_ge {K : List (Int × Int)} {S : List (List (Int × Int))} {L : List (Int × Int)}
    {k : Int} (hs : SortedKV (L ++ rest S K))
    (hk : ∀ m, K.head? = some m → k ≤ m.1) :
    ∀ p ∈ rest S K, k ≤ p.1 := by
  cases K with
  | nil => intro p hp; rw [rest_nil_keys] at hp; simp at hp
  | cons m K =>
    have hm := hk m rfl
    have hr : ∃ T, rest S (m :: K) = m :: T := by
      cases S with
      | nil => exact ⟨[], rfl⟩
      | cons c S => exact ⟨_, rfl⟩
    obtain ⟨T, hT⟩ := hr
    rw [hT] at hs ⊢
    have := hs.le_of_append_cons.2
    intro p hp
    rcases List.mem_cons.mp hp with rfl | hp
    · exact hm
    · have := this p hp; omega

/-! Removal of one pair from a sorted reading, and the rearrangements of a multiway node. -/

theorem rest_cons_any {α : Type} (S : List (List α)) (m : α) (K : List α) :
    rest S (m :: K) = m :: inter S K := by
  cases S with
  | nil => rfl
  | cons s S => rfl

theorem inter_join {α : Type} (Sl Sr : List (List α)) (Kl Kr : List α) (m : α)
    (h : Sl.length = Kl.length + 1) :
    inter (Sl ++ Sr) (Kl ++ m :: Kr) = inter Sl Kl ++ m :: inter Sr Kr := by
  rcases List.eq_nil_or_concat Sl with rfl | ⟨A, c, rfl⟩
  · simp at h
  · simp only [List.concat_eq_append, List.length_append, List.length_singleton,
      add_left_inj] at h ⊢
    have e1 : A ++ [c] ++ Sr = A ++ c :: Sr := by simp
    have e2 : inter (A ++ [c]) Kl = pre A Kl ++ c := by
      have := inter_append A Kl c [] [] h
      simpa [rest] using this
    rw [e1, inter_append A Kl c Sr (m :: Kr) h, e2, rest_cons_any]

theorem inter_single {α : Type} (s : List α) : inter [s] ([] : List α) = s := by
  simp [inter, rest]

theorem sorted_append3 {P C R C' : List (Int × Int)} (hs : SortedKV (P ++ C ++ R))
    (hc : SortedKV C') (hsub : ∀ p ∈ C', p ∈ C) : SortedKV (P ++ C' ++ R) := by
  unfold SortedKV at *
  rw [List.pairwise_append, List.pairwise_append] at hs ⊢
  obtain ⟨⟨hP, hC, hPC⟩, hR, hPCR⟩ := hs
  refine ⟨⟨hP, hc, fun a ha b hb => hPC a ha b (hsub b hb)⟩, hR, ?_⟩
  intro a ha b hb
  apply hPCR a _ b hb
  rcases List.mem_append.mp ha with ha | ha
  · exact List.mem_append_left _ ha
  · exact List.mem_append_right _ (hsub a ha)

/-- A removal inside the part `C` of a sorted reading `P ++ C ++ R` whose other parts do not
hold the key. -/
theorem remspec_ctx {P C R C' : List (Int × Int)} {k : Int} {res : Bool}
    (hs : SortedKV (P ++ C ++ R)) (hP : ∀ p ∈ P, p.1 ≠ k) (hR : ∀ p ∈ R, p.1 ≠ k)
    (h : RemSpec C C' k res) : RemSpec (P ++ C ++ R) (P ++ C' ++ R) k res := by
  rcases h with ⟨hr, he, hn⟩ | ⟨hr, hc, hsub, hperm⟩
  · left
    refine ⟨hr, by rw [he], ?_⟩
    intro p hp
    rcases List.mem_append.mp hp with hp | hp
    · rcases List.mem_append.mp hp with hp | hp
      · exact hP p hp
      · exact hn p hp
    · exact hR p hp
  · right
    refine ⟨hr, sorted_append3 hs hc hsub, ?_, ?_⟩
    · intro p hp
      simp only [List.mem_append] at hp ⊢
      rcases hp with (hp | hp) | hp
      · exact Or.inl (Or.inl hp)
      · exact Or.inl (Or.inr (hsub p hp))
      · exact Or.inr hp
    · rw [List.perm_iff_count]
      intro a
      have := List.perm_iff_count.mp hperm a
      simp only [List.map_append, List.count_append, List.count_cons] at this ⊢
      omega

/-- Dropping one pair with key `k` from a sorted reading. -/
theorem remspec_erase_at {A B : List (Int × Int)} {k v : Int}
    (hs : SortedKV (A ++ (k, v) :: B)) : RemSpec (A ++ (k, v) :: B) (A ++ B) k true := by
  right
  refine ⟨rfl, hs.sublist (by simp), ?_, ?_⟩
  · intro p hp
    simp only [List.mem_append, List.mem_cons] at hp ⊢
    rcases hp with hp | hp
    · exact Or.inl hp
    · exact Or.inr (Or.inr hp)
  · rw [List.perm_iff_count]
    intro a
    simp only [List.map_append, List.map_cons, List.count_append, List.count_cons]
    omega

/-- The separator `(k, v)` is replaced by the predecessor `p`, and a pair with the key of `p`
is removed from the left subtree. -/
theorem remspec_pred {P L0 R0 Cl' : List (Int × Int)} {p : Int × Int} {k v : Int} {resl : Bool}
    (hs : SortedKV (P ++ (L0 ++ [p]) ++ (k, v) :: R0))
    (h : RemSpec (L0 ++ [p]) Cl' p.1 resl) :
    resl = true ∧ RemSpec (P ++ (L0 ++ [p]) ++ (k, v) :: R0) (P ++ Cl' ++ p :: R0) k true := by
  rcases h with ⟨hr, he, hn⟩ | ⟨hr, hc, hsub, hperm⟩
  · exact absurd rfl (hn p (by simp))
  · refine ⟨hr, Or.inr ⟨rfl, ?_, ?_, ?_⟩⟩
    · have hs2 : SortedKV (P ++ (L0 ++ [p]) ++ R0) := hs.sublist (by simp)
      have hs3 := sorted_append3 hs2 hc hsub
      have hle : ∀ q ∈ P ++ Cl', q.1 ≤ p.1 := by
        intro q hq
        have h1 : SortedKV ((P ++ L0) ++ p :: ((k, v) :: R0)) := by simpa using hs
        have := h1.le_of_append_cons.1
        rcases List.mem_append.mp hq with hq | hq
        · exact this q (List.mem_append_left _ hq)
        · have := hsub q hq
          rcases List.mem_append.mp this with h2 | h2
          · exact ‹∀ p_1 ∈ P ++ L0, p_1.1 ≤ p.1› q (List.mem_append_right _ h2)
          · simp at h2; rw [h2]
      have hge : ∀ q ∈ R0, p.1 ≤ q.1 := by
        intro q hq
        have h1 : SortedKV ((P ++ L0) ++ p :: ((k, v) :: R0)) := by simpa using hs
        exact h1.le_of_append_cons.2 q (List.mem_cons_of_mem _ hq)
      exact hs3.insert_mid hle hge
    · intro q hq
      have h1 : q ∈ Cl' → q ∈ L0 ∨ q = p := fun h => by simpa using hsub q h
      simp only [List.mem_append, List.mem_cons, List.mem_singleton, List.not_mem_nil] at hq ⊢
      tauto
    · rw [List.perm_iff_count]
      intro a
      have := List.perm_iff_count.mp hperm a
      simp only [List.map_append, List.map_cons, List.count_append, List.count_cons,
        List.map_nil, List.count_nil] at this ⊢
      omega

/-- The separator `(k, v)` is replaced by the successor `s`, and a pair with the key of `s` is
removed from the right subtree. -/
theorem remspec_succ {P0 L0 R Cr' : List (Int × Int)} {s : Int × Int} {k v : Int} {resr : Bool}
    (hs : SortedKV (P0 ++ (k, v) :: (s :: L0) ++ R))
    (h : RemSpec (s :: L0) Cr' s.1 resr) :
    resr = true ∧ RemSpec (P0 ++ (k, v) :: (s :: L0) ++ R) (P0 ++ s :: Cr' ++ R) k true := by
  rcases h with ⟨hr, he, hn⟩ | ⟨hr, hc, hsub, hperm⟩
  · exact absurd rfl (hn s (by simp))
  · refine ⟨hr, Or.inr ⟨rfl, ?_, ?_, ?_⟩⟩
    · have hs2 : SortedKV (P0 ++ (s :: L0) ++ R) := hs.sublist (by simp)
      have hs3 : SortedKV (P0 ++ (Cr' ++ R)) := by
        have := sorted_append3 hs2 hc hsub
        simpa using this
      have h1 : SortedKV ((P0 ++ [(k, v)]) ++ s :: (L0 ++ R)) := by simpa using hs
      have hle : ∀ q ∈ P0, q.1 ≤ s.1 := by
        intro q hq
        exact h1.le_of_append_cons.1 q (List.mem_append_left _ hq)
      have hge : ∀ q ∈ Cr' ++ R, s.1 ≤ q.1 := by
        intro q hq
        rcases List.mem_append.mp hq with hq | hq
        · have := hsub q hq
          rcases List.mem_cons.mp this with h2 | h2
          · rw [h2]
          · exact h1.le_of_append_cons.2 q (List.mem_append_left _ h2)
        · exact h1.le_of_append_cons.2 q (List.mem_append_right _ hq)
      have := hs3.insert_mid hle hge
      simpa using this
    · intro q hq
      simp only [List.mem_append, List.mem_cons] at hq ⊢
      rcases hq with (hq | hq | hq) | hq
      · exact Or.inl (Or.inl hq)
      · exact Or.inl (Or.inr (Or.inr (Or.inl hq)))
      · have := hsub q hq
        simp only [List.mem_cons] at this
        exact Or.inl (Or.inr (Or.inr this))
      · exact Or.inr hq
    · rw [List.perm_iff_count]
      intro a
      have := List.perm_iff_count.mp hperm a
      simp only [List.map_append, List.map_cons, List.count_append, List.count_cons,
        List.map_nil, List.count_nil] at this ⊢
      omega

theorem decomp_at {α : Type} {L : List α} {i : Nat} {a : α} (h : L[i]? = some a) :
    L = L.take i ++ a :: L.drop (i + 1) ∧ (L.take i).length = i := by
  have hi : i < L.length := by
    rcases Nat.lt_or_ge i L.length with h' | h'
    · exact h'
    · rw [List.getElem?_eq_none h'] at h; cases h
  rw [List.getElem?_eq_getElem hi] at h
  simp only [Option.some.injEq] at h
  refine ⟨?_, by rw [List.length_take]; omega⟩
  rw [← h, ← List.drop_eq_getElem_cons hi, List.take_append_drop]

theorem decomp_at2 {α : Type} {L : List α} {i : Nat} {a b : α} (h : L[i]? = some a)
    (h2 : L[i + 1]? = some b) :
    L = L.take i ++ a :: b :: L.drop (i + 2) ∧ (L.take i).length = i := by
  obtain ⟨e, hl⟩ := decomp_at h
  obtain ⟨e2, _⟩ := decomp_at h2
  refine ⟨?_, hl⟩
  have : L.drop (i + 1) = b :: L.drop (i + 2) := by
    have hi : i + 1 < L.length := by
      rcases Nat.lt_or_ge (i + 1) L.length with h' | h'
      · exact h'
      · rw [List.getElem?_eq_none h'] at h2; cases h2
    rw [List.getElem?_eq_getElem hi] at h2
    simp only [Option.some.injEq] at h2
    rw [← h2, ← List.drop_eq_getElem_cons hi]
  rw [← this]; exact e

theorem set_explicit {α : Type} (A : List α) (x y : α) (B : List α) (i : Nat)
    (h : A.length = i) : (A ++ x :: B).set i y = A ++ y :: B := by
  subst h; simp

theorem eraseIdx_explicit {α : Type} (A : List α) (x : α) (B : List α) (i : Nat)
    (h : A.length = i) : (A ++ x :: B).eraseIdx i = A ++ B := by
  subst h
  rw [List.eraseIdx_append_of_length_le (le_refl _)]
  simp

theorem getElem_explicit {α : Type} (A : List α) (x : α) (B : List α) (i : Nat)
    (h : A.length = i) : (A ++ x :: B)[i]? = some x := by
  subst h
  rw [List.getElem?_append_right (le_refl _)]
  simp

theorem getElem_explicit2 {α : Type} (A : List α) (x y : α) (B : List α) (i : Nat)
    (h : A.length = i) : (A ++ x :: y :: B)[i + 1]? = some y := by
  subst h
  rw [List.getElem?_append_right (by omega)]
  simp

/-! Invariants of the in-memory B-tree and the effect of its node operations. -/

namespace BTree

namespace Node
@[simp] theorem key_setKey (x : Node) (v) : (x.setKey v).key = v := by cases x; rfl
@[simp] theorem key_setLeaf (x : Node) (v) : (x.setLeaf v).key = x.key := by cases x; rfl
@[simp] theorem key_setN (x : Node) (v) : (x.setN v).key = x.key := by cases x; rfl
@[simp] theorem key_setVal (x : Node) (v) : (x.setVal v).key = x.key := by cases x; rfl
@[simp] theorem key_setC (x : Node) (v) : (x.setC v).key = x.key := by cases x; rfl
@[simp] theorem leaf_setKey (x : Node) (v) : (x.setKey v).leaf = x.leaf := by cases x; rfl
@[simp] theorem leaf_setLeaf (x : Node) (v) : (x.setLeaf v).leaf = v := by cases x; rfl
@[simp] theorem leaf_setN (x : Node) (v) : (x.setN v).leaf = x.leaf := by cases x; rfl
@[simp] theorem leaf_setVal (x : Node) (v) : (x.setVal v).leaf = x.leaf := by cases x; rfl
@[simp] theorem leaf_setC (x : Node) (v) : (x.setC v).leaf = x.leaf := by cases x; rfl
@[simp] theorem n_setKey (x : Node) (v) : (x.setKey v).n = x.n := by cases x; rfl
@[simp] theorem n_setLeaf (x : Node) (v) : (x.setLeaf v).n = x.n := by cases x; rfl
@[simp] theorem n_setN (x : Node) (v) : (x.setN v).n = v := by cases x; rfl
@[simp] theorem n_setVal (x : Node) (v) : (x.setVal v).n = x.n := by cases x; rfl
@[simp] theorem n_setC (x : Node) (v) : (x.setC v).n = x.n := by cases x; rfl
@[simp] theorem val_setKey (x : Node) (v) : (x.setKey v).val = x.val := by cases x; rfl
@[simp] theorem val_setLeaf (x : Node) (v) : (x.setLeaf v).val = x.val := by cases x; rfl
@[simp] theorem val_setN (x : Node) (v) : (x.setN v).val = x.val := by cases x; rfl
@[simp] theorem val_setVal (x : Node) (v) : (x.setVal v).val = v := by cases x; rfl
@[simp] theorem val_setC (x : Node) (v) : (x.setC v).val = x.val := by cases x; rfl
@[simp] theorem c_setKey (x : Node) (v) : (x.setKey v).c = x.c := by cases x; rfl
@[simp] theorem c_setLeaf (x : Node) (v) : (x.setLeaf v).c = x.c := by cases x; rfl
@[simp] theorem c_setN (x : Node) (v) : (x.setN v).c = x.c := by cases x; rfl
@[simp] theorem c_setVal (x : Node) (v) : (x.setVal v).c = x.c := by cases x; rfl
@[simp] theorem c_setC (x : Node) (v) : (x.setC v).c = v := by cases x; rfl

end Node

end BTree

namespace BTree

theorem inorder_eq_inter (h : Nat) (x : Node) :
    inorder h (some x) = inter (subs h x) x.kvs := by
  cases h with
  | zero => simp [inorder, subs, inter_replicate_nil]
  | succ h => rfl

theorem Shape.kvs_length {t : Int} {x : Node} (hx : Shape t x) : x.kvs.length = x.n.toNat := by
  obtain ⟨h1, h2, _, h4, h5⟩ := hx
  unfold Node.kvs
  rw [List.length_zip, view_length _ _ h4 (by omega), view_length _ _ h4 (by omega)]
  simp

theorem Shape.kids_length {t : Int} {x : Node} (hx : Shape t x) :
    x.kids.length = x.n.toNat + 1 := by
  obtain ⟨_, _, h3, h4, h5⟩ := hx
  unfold Node.kids
  rw [view_length _ _ (by omega) (by omega)]
  omega

theorem allocate_shape (t : Int) (ht : 1 ≤ t) : Shape t (_allocate_node t) := by
  unfold Shape _allocate_node
  simp only [Node.key, Node.val, Node.c, Node.n, List.length_replicate]
  omega

theorem zip_insert {α β : Type} (A : List α) (B : List β) (i : Nat) (a : α) (b : β)
    (h : A.length = B.length) :
    (A.take i ++ a :: A.drop i).zip (B.take i ++ b :: B.drop i)
      = (A.zip B).take i ++ (a, b) :: (A.zip B).drop i := by
  rw [List.zip_append (by simp [h])]
  simp [List.zip_eq_zipWith, List.take_zipWith, List.drop_zipWith]

theorem set_take_drop {α : Type} (L : List α) (i : Nat) (a b : α) (h : i < L.length) :
    (L.set i a).take (i + 1) ++ b :: (L.set i a).drop (i + 1)
      = L.take i ++ a :: b :: L.drop (i + 1) := by
  rw [List.take_succ, List.set_take, List.getElem?_set_self h, List.drop_set_of_lt _ _
    (by omega), List.set_eq_of_length_le (by rw [List.length_take]; omega)]
  simp

/-- Running `_split_child`: the result and the contents of its arrays. -/
theorem split_child_run (t : Int) (ht : 1 ≤ t) (x y : Node) (i : Int)
    (hx : Shape t x) (h0 : 0 ≤ i) (hi : i ≤ x.n) (hfull : x.n < 2 * t - 1)
    (hy : rd x.c i = .ok (some y)) (hyS : Shape t y) (hyn : y.n = 2 * t - 1) :
    ∃ x' z mk mv, _split_child t x i = .ok x' ∧ Shape t x' ∧ x'.n = x.n + 1 ∧
      x'.leaf = x.leaf ∧ rd y.key (t - 1) = .ok mk ∧ rd y.val (t - 1) = .ok mv ∧
      view x'.key (x.n + 1) = (view x.key x.n).take i.toNat ++ mk :: (view x.key x.n).drop i.toNat ∧
      view x'.val (x.n + 1) = (view x.val x.n).take i.toNat ++ mv :: (view x.val x.n).drop i.toNat ∧
      view x'.c (x.n + 1 + 1) = (view x.c (x.n + 1)).take i.toNat ++ some (y.setN (t - 1)) ::
        some z :: (view x.c (x.n + 1)).drop (i.toNat + 1) ∧
      Shape t z ∧ z.n = t - 1 ∧ z.leaf = y.leaf ∧
      view z.key (t - 1) = (y.key.drop t.toNat).take (t - 1).toNat ∧
      view z.val (t - 1) = (y.val.drop t.toNat).take (t - 1).toNat ∧
      (y.leaf = false → view z.c t = (y.c.drop t.toNat).take t.toNat) := by
  obtain ⟨hxk, hxv, hxc, hxn0, hxn1⟩ := hx
  obtain ⟨hyk, hyv, hyc, hyn0, hyn1⟩ := hyS
  obtain ⟨hzk, hzv, hzc, _, _⟩ := allocate_shape t ht
  obtain ⟨zk, ezk, lzk, vzk⟩ := copyRange_spec (_allocate_node t).key y.key (t - 1) 0 t
    (by omega) (by omega) (by omega) (by omega) (by omega)
  obtain ⟨zv, ezv, lzv, vzv⟩ := copyRange_spec (_allocate_node t).val y.val (t - 1) 0 t
    (by omega) (by omega) (by omega) (by omega) (by omega)
  obtain ⟨zc, ezc, lzc, vzc⟩ := copyRange_spec (_allocate_node t).c y.c t 0 t
    (by omega) (by omega) (by omega) (by omega) (by omega)
  obtain ⟨mk, emk⟩ := rd_total y.key (t - 1) (by omega) (by omega)
  obtain ⟨mv, emv⟩ := rd_total y.val (t - 1) (by omega) (by omega)
  have ew1 := wr_ok (a := x.c) (some (y.setN (t - 1))) h0 (by omega)
  obtain ⟨c1, ec1, lc1, vc1⟩ := shiftUp_spec (x.c.set i.toNat (some (y.setN (t - 1)))) x.n (i + 1)
    (x.n + 1) rfl (by omega) (by omega) (by simp; omega)
  rw [List.length_set] at lc1
  obtain ⟨k1, ek1, lk1, vk1⟩ := shiftUp_spec x.key (x.n - 1) i x.n (by omega) h0 hi (by omega)
  obtain ⟨v1, ev1, lv1, vv1⟩ := shiftUp_spec x.val (x.n - 1) i x.n (by omega) h0 hi (by omega)
  have ew2 : ∀ v, wr c1 (i + 1) v = .ok (c1.set (i + 1).toNat v) :=
    fun v => wr_ok v (by omega) (by omega)
  have ew3 := wr_ok (a := k1) mk h0 (by omega)
  have ew4 := wr_ok (a := v1) mv h0 (by omega)
  have hlt : i.toNat < (view x.c (x.n + 1)).length := by
    rw [view_length _ _ (by omega) (by omega)]; omega
  have e5 : (0 + (t - 1)).toNat = (t - 1).toNat := by omega
  have e6 : (0 + t).toNat = t.toNat := by omega
  have e7 : (i + 1).toNat = i.toNat + 1 := by omega
  have hkids : ∀ z : Node, view (c1.set (i + 1).toNat (some z)) (x.n + 1 + 1)
      = (view x.c (x.n + 1)).take i.toNat ++ some (y.setN (t - 1)) :: some z ::
        (view x.c (x.n + 1)).drop (i.toNat + 1) := by
    intro z
    rw [vc1, view_set_inside, e7, set_take_drop _ _ _ _ hlt]
  have hvzk : view zk (t - 1) = (y.key.drop t.toNat).take (t - 1).toNat := by
    unfold view at vzk ⊢
    rw [e5] at vzk
    simpa using vzk
  have hvzv : view zv (t - 1) = (y.val.drop t.toNat).take (t - 1).toNat := by
    unfold view at vzv ⊢
    rw [e5] at vzv
    simpa using vzv
  have hvzc : view zc t = (y.c.drop t.toNat).take t.toNat := by
    unfold view at vzc ⊢
    rw [e6] at vzc
    simpa using vzc
  cases hleaf : y.leaf with
  | true =>
    simp only [_split_child, hy, deref, Except.ok_bind, Except.pure_eq_ok, Node.key_setLeaf,
      Node.val_setLeaf, Node.c_setLeaf, ezk, ezv, ezc, Node.val_setKey, Node.leaf_setKey, hleaf,
      Node.c_setKey, Node.c_setVal, Node.key_setN, Node.val_setN, emk, emv, ew1, Node.c_setC,
      Node.n_setC, ec1, ew2, Node.key_setC, Node.val_setC, ek1, ev1, Node.n_setKey,
      Node.val_setKey, Node.key_setKey, Node.key_setVal, Node.val_setVal, Node.n_setVal, ew3, ew4,
      Bool.not_true, Bool.false_eq_true, if_false, ite_false]
    refine ⟨_, ((((_allocate_node t).setLeaf true).setKey zk).setVal zv).setN (t - 1), mk, mv,
      rfl, ?_, by simp, by simp, rfl, rfl, ?_, ?_, ?_, ?_, by simp, by simp, ?_, ?_, ?_⟩
    · refine ⟨?_, ?_, ?_, ?_, ?_⟩ <;> simp <;> omega
    · simpa using vk1 mk
    · simpa using vv1 mv
    · simpa using hkids _
    · refine ⟨?_, ?_, ?_, ?_, ?_⟩ <;> simp <;> omega
    · simpa using hvzk
    · simpa using hvzv
    · intro h; cases h
  | false =>
    simp only [_split_child, hy, deref, Except.ok_bind, Except.pure_eq_ok, Node.key_setLeaf,
      Node.val_setLeaf, Node.c_setLeaf, ezk, ezv, ezc, Node.val_setKey, Node.leaf_setKey, hleaf,
      Node.c_setKey, Node.c_setVal, Node.key_setN, Node.val_setN, emk, emv, ew1, Node.c_setC,
      Node.n_setC, ec1, ew2, Node.key_setC, Node.val_setC, ek1, ev1, Node.n_setKey,
      Node.val_setKey, Node.key_setKey, Node.key_setVal, Node.val_setVal, Node.n_setVal, ew3, ew4,
      Bool.not_false, if_true, ite_true]
    refine ⟨_, (((((_allocate_node t).setLeaf false).setKey zk).setVal zv).setC zc).setN (t - 1),
      mk, mv, rfl, ?_, by simp, by simp, rfl, rfl, ?_, ?_, ?_, ?_, by simp, by simp, ?_, ?_, ?_⟩
    · refine ⟨?_, ?_, ?_, ?_, ?_⟩ <;> simp <;> omega
    · simpa using vk1 mk
    · simpa using vv1 mv
    · simpa using hkids _
    · refine ⟨?_, ?_, ?_, ?_, ?_⟩ <;> simp <;> omega
    · simpa using hvzk
    · simpa using hvzv
    · intro _; simpa using hvzc

end BTree

namespace BTree

theorem Shape.kvs_fst {t : Int} {x : Node} (hx : Shape t x) :
    x.kvs.map Prod.fst = view x.key x.n := by
  obtain ⟨h1, h2, _, h4, h5⟩ := hx
  unfold Node.kvs
  rw [List.map_fst_zip]
  rw [view_length _ _ h4 (by omega), view_length _ _ h4 (by omega)]

theorem WF.shape {t : Int} {h : Nat} {x : Node} (hx : WF t h x) : Shape t x := by
  cases h with
  | zero => exact hx.1
  | succ h => exact hx.1

theorem WF.kid {t : Int} {h : Nat} {x : Node} (hx : WF t (h + 1) x) (i : Int)
    (h0 : 0 ≤ i) (hi : i ≤ x.n) :
    ∃ ch, rd x.c i = .ok (some ch) ∧ x.kids[i.toNat]? = some (some ch) ∧ WF t h ch ∧
      t - 1 ≤ ch.n := by
  obtain ⟨hS, _, hk⟩ := hx
  have hl := hS.kids_length
  have hlt : i.toNat < x.kids.length := by omega
  obtain ⟨ch, e, hw, hn⟩ := hk x.kids[i.toNat] (List.getElem_mem _)
  have hg : x.kids[i.toNat]? = some (some ch) := by
    rw [List.getElem?_eq_getElem hlt, e]
  refine ⟨ch, ?_, hg, hw, hn⟩
  exact rd_view (n := x.n + 1) h0 (by omega) hg

theorem inorder_at (h : Nat) (x : Node) (i : Nat) (o : Option Node) (t : Int) (hS : Shape t x)
    (ho : x.kids[i]? = some o) :
    inorder (h + 1) (some x) = pre ((x.kids.take i).map (inorder h)) (x.kvs.take i)
      ++ inorder h o ++ rest ((x.kids.drop (i + 1)).map (inorder h)) (x.kvs.drop i) := by
  have hl := hS.kids_length
  have hk := hS.kvs_length
  have hi : i < x.kids.length := by
    rcases Nat.lt_or_ge i x.kids.length with h | h
    · exact h
    · rw [List.getElem?_eq_none h] at ho; cases ho
  have e1 : x.kids = x.kids.take i ++ o :: x.kids.drop (i + 1) := by
    rw [List.getElem?_eq_getElem hi] at ho
    simp only [Option.some.injEq] at ho
    rw [← ho, ← List.drop_eq_getElem_cons hi, List.take_append_drop]
  have e2 : x.kvs = x.kvs.take i ++ x.kvs.drop i := (List.take_append_drop _ _).symm
  show inter (x.kids.map (inorder h)) x.kvs = _
  conv => lhs; rw [e1, e2]
  rw [List.map_append, List.map_cons, inter_append]
  rw [List.length_map, List.length_take, List.length_take]
  omega

theorem split_child_wf (t : Int) (ht : 1 ≤ t) (h : Nat) (x y : Node) (i : Int)
    (hx : WF t (h + 1) x) (h0 : 0 ≤ i) (hi : i ≤ x.n) (hfull : x.n < 2 * t - 1)
    (hy : x.kids[i.toNat]? = some (some y)) (hyn : y.n = 2 * t - 1) :
    ∃ x' yl z m, _split_child t x i = .ok x' ∧ WF t (h + 1) x' ∧ x'.n = x.n + 1 ∧
      x'.kvs = x.kvs.take i.toNat ++ m :: x.kvs.drop i.toNat ∧
      x'.kids = x.kids.take i.toNat ++ some yl :: some z :: x.kids.drop (i.toNat + 1) ∧
      WF t h yl ∧ WF t h z ∧ yl.n = t - 1 ∧ z.n = t - 1 ∧
      inorder h (some y) = inorder h (some yl) ++ m :: inorder h (some z) := by
  obtain ⟨ch, hrd, hg, hyw, _⟩ := hx.kid i h0 hi
  rw [hy] at hg
  simp only [Option.some.injEq] at hg
  subst hg
  have hyS := hyw.shape
  obtain ⟨x', z, mk, mv, hE, hS', xn, xl, emk, emv, vk, vv, vc, zS, zn, zl, zk, zv, zc⟩ :=
    split_child_run t ht x y i hx.shape h0 hi hfull hrd hyS hyn
  obtain ⟨hxS, hxl, hxk⟩ := hx
  obtain ⟨hyk, hyv, hyc, hyn0, hyn1⟩ := hyS
  have ylS : Shape t (y.setN (t - 1)) :=
    ⟨by simpa using hyk, by simpa using hyv, by simpa using hyc, by simp; omega, by simp; omega⟩
  have hm : y.kvs[(t - 1).toNat]? = some (mk, mv) := by
    unfold Node.kvs
    rw [List.getElem?_zip_eq_some]
    exact ⟨view_rd (by omega) emk, view_rd (by omega) emv⟩
  have lK : (view x.key x.n).length = (view x.val x.n).length := by
    rw [view_length _ _ hxS.2.2.2.1 (by have := hxS.1; omega),
      view_length _ _ hxS.2.2.2.1 (by have := hxS.2.1; omega)]
  have xkvs : x'.kvs = x.kvs.take i.toNat ++ (mk, mv) :: x.kvs.drop i.toNat := by
    unfold Node.kvs
    rw [xn, vk, vv]
    exact zip_insert _ _ _ _ _ lK
  have xkids : x'.kids = x.kids.take i.toNat ++ some (y.setN (t - 1)) :: some z ::
      x.kids.drop (i.toNat + 1) := by
    unfold Node.kids
    rw [xn, vc]
  have e1 : (t - 1).toNat + t.toNat = (2 * t - 1).toNat := by omega
  have e2 : (t - 1 + 1).toNat = t.toNat := by omega
  have e3 : (2 * t - 1 + 1).toNat = t.toNat + t.toNat := by omega
  have e4 : (2 * t - 1).toNat = t.toNat + (t - 1).toNat := by omega
  have ylkvs : (y.setN (t - 1)).kvs = y.kvs.take (t - 1).toNat := by
    unfold Node.kvs view
    simp only [Node.key_setN, Node.val_setN, Node.n_setN, hyn, List.zip_eq_zipWith,
      List.take_zipWith, List.take_take]
    congr 1 <;> congr 1 <;> omega
  have zkvs : z.kvs = y.kvs.drop t.toNat := by
    unfold Node.kvs
    rw [zn, hyn, zk, zv]
    unfold view
    simp only [List.zip_eq_zipWith, List.drop_zipWith, List.take_drop]
    congr 1 <;> congr 2 <;> omega
  have ylkids : (y.setN (t - 1)).kids = y.kids.take t.toNat := by
    unfold Node.kids view
    simp only [Node.c_setN, Node.n_setN, hyn, List.take_take, e2, e3]
    congr 1; omega
  have zkids : y.leaf = false → z.kids = y.kids.drop t.toNat := by
    intro hl
    unfold Node.kids
    have e8 : t - 1 + 1 = t := by omega
    rw [zn, hyn, e8, zc hl]
    unfold view
    rw [e3, List.take_drop]
  have ykl : y.kvs.length = (2 * t - 1).toNat := by
    have := hyw.shape.kvs_length; rw [hyn] at this; exact this
  have ykidsl : y.kids.length = (2 * t - 1).toNat + 1 := by
    have := hyw.shape.kids_length; rw [hyn] at this; exact this
  -- well-formedness and in-order reading of the two halves
  have hhalves : WF t h (y.setN (t - 1)) ∧ WF t h z ∧
      inorder h (some y) = inorder h (some (y.setN (t - 1))) ++ (mk, mv) :: inorder h (some z) := by
    cases h with
    | zero =>
      obtain ⟨_, hyleaf⟩ := hyw
      refine ⟨⟨ylS, by simpa using hyleaf⟩, ⟨zS, by rw [zl]; exact hyleaf⟩, ?_⟩
      show y.kvs = (y.setN (t - 1)).kvs ++ (mk, mv) :: z.kvs
      rw [ylkvs, zkvs]
      have hj : (t - 1).toNat < y.kvs.length := by omega
      have : y.kvs.drop (t - 1).toNat = (mk, mv) :: y.kvs.drop t.toNat := by
        rw [List.drop_eq_getElem_cons hj]
        rw [List.getElem?_eq_getElem hj] at hm
        simp only [Option.some.injEq] at hm
        rw [hm]
        congr 2; omega
      rw [← this, List.take_append_drop]
    | succ h =>
      obtain ⟨_, hyleaf, hykids⟩ := hyw
      have zkids' := zkids hyleaf
      refine ⟨⟨ylS, by simpa using hyleaf, ?_⟩, ⟨zS, by rw [zl]; exact hyleaf, ?_⟩, ?_⟩
      · intro o ho
        rw [ylkids] at ho
        exact hykids o (List.mem_of_mem_take ho)
      · intro o ho
        rw [zkids'] at ho
        exact hykids o (List.mem_of_mem_drop ho)
      · show inter (y.kids.map (inorder h)) y.kvs
          = inter ((y.setN (t - 1)).kids.map (inorder h)) (y.setN (t - 1)).kvs
            ++ (mk, mv) :: inter (z.kids.map (inorder h)) z.kvs
        rw [ylkids, zkids', ylkvs, zkvs]
        have := inter_split (y.kids.map (inorder h)) y.kvs (t - 1).toNat (mk, mv)
          (by rw [List.length_map, ykidsl, ykl]) hm
        have e5 : (t - 1).toNat + 1 = t.toNat := by omega
        rw [e5] at this
        rw [this, List.map_take, List.map_drop]
  obtain ⟨ylW, zW, hio⟩ := hhalves
  refine ⟨x', y.setN (t - 1), z, (mk, mv), hE, ⟨hS', by rw [xl]; exact hxl, ?_⟩, xn, xkvs, xkids,
    ylW, zW, by simp, zn, hio⟩
  intro o ho
  rw [xkids] at ho
  rcases List.mem_append.mp ho with ho | ho
  · exact hxk o (List.mem_of_mem_take ho)
  · rcases List.mem_cons.mp ho with rfl | ho
    · exact ⟨_, rfl, ylW, by simp⟩
    · rcases List.mem_cons.mp ho with rfl | ho
      · exact ⟨_, rfl, zW, by omega⟩
      · exact hxk o (List.mem_of_mem_drop ho)

end BTree

namespace BTree

theorem sorted_take_le {L : List (Int × Int)} {j : Nat} {m : Int × Int} (hs : SortedKV L)
    (hm : L[j]? = some m) : ∀ p ∈ L.take (j + 1), p.1 ≤ m.1 := by
  have hj : j < L.length := by
    rcases Nat.lt_or_ge j L.length with h | h
    · exact h
    · rw [List.getElem?_eq_none h] at hm; cases hm
  have e : L = L.take j ++ m :: L.drop (j + 1) := by
    rw [List.getElem?_eq_getElem hj] at hm
    simp only [Option.some.injEq] at hm
    rw [← hm, ← List.drop_eq_getElem_cons hj, List.take_append_drop]
  rw [e] at hs
  have h1 := hs.le_of_append_cons.1
  intro p hp
  rw [List.take_succ, hm] at hp
  rcases List.mem_append.mp hp with hp | hp
  · exact h1 p hp
  · simp at hp; subst hp; exact le_refl _

theorem kvs_key_at {t : Int} {x : Node} (hx : Shape t x) {j : Nat} {m : Int × Int}
    (hm : x.kvs[j]? = some m) : (view x.key x.n)[j]? = some m.1 := by
  rw [← hx.kvs_fst, List.getElem?_map, hm]; rfl

theorem key_kvs_at {t : Int} {x : Node} (hx : Shape t x) {j : Nat} {y : Int}
    (hy : (view x.key x.n)[j]? = some y) : ∃ m, x.kvs[j]? = some m ∧ m.1 = y := by
  rw [← hx.kvs_fst, List.getElem?_map] at hy
  cases hm : x.kvs[j]? with
  | none => rw [hm] at hy; cases hy
  | some m => rw [hm] at hy; simp at hy; exact ⟨m, rfl, hy⟩

/-- Storing a child object back in slot `i` of its parent. -/
theorem setC_child (t : Int) (x : Node) (i : Int) (o : Option Node) (hx : Shape t x)
    (h0 : 0 ≤ i) (hi : i ≤ x.n) :
    wr x.c i o = .ok (x.c.set i.toNat o) ∧
    Shape t (x.setC (x.c.set i.toNat o)) ∧
    (x.setC (x.c.set i.toNat o)).kvs = x.kvs ∧
    (x.setC (x.c.set i.toNat o)).kids = x.kids.set i.toNat o := by
  obtain ⟨h1, h2, h3, h4, h5⟩ := hx
  refine ⟨wr_ok _ h0 (by omega), ⟨by simpa using h1, by simpa using h2, by simpa using h3,
    by simpa using h4, by simpa using h5⟩, ?_, ?_⟩
  · unfold Node.kvs; simp
  · unfold Node.kids
    simp only [Node.c_setC, Node.n_setC]
    exact view_set_inside _ _ _ _

theorem insert_descend (t : Int) (h : Nat) (x c c' : Node) (j : Int) (k v : Int)
    (a b : List (Int × Int))
    (hx : WF t (h + 1) x) (h0 : 0 ≤ j) (hj : j ≤ x.n)
    (hc : x.kids[j.toNat]? = some (some c))
    (hs : SortedKV (inorder (h + 1) (some x)))
    (hlo : ∀ m, 0 < j.toNat → x.kvs[j.toNat - 1]? = some m → m.1 ≤ k)
    (hhi : ∀ m, (x.kvs.drop j.toNat).head? = some m → k ≤ m.1)
    (hc' : WF t h c') (hn : t - 1 ≤ c'.n)
    (hab : inorder h (some c) = a ++ b) (hab' : inorder h (some c') = a ++ (k, v) :: b)
    (ha : ∀ p ∈ a, p.1 ≤ k) (hb : ∀ p ∈ b, k ≤ p.1) :
    wr x.c j (some c') = .ok (x.c.set j.toNat (some c')) ∧
    WF t (h + 1) (x.setC (x.c.set j.toNat (some c'))) ∧
    (x.setC (x.c.set j.toNat (some c'))).n = x.n ∧
    ∃ l1 l2, inorder (h + 1) (some x) = l1 ++ l2 ∧
      inorder (h + 1) (some (x.setC (x.c.set j.toNat (some c')))) = l1 ++ (k, v) :: l2 ∧
      (∀ p ∈ l1, p.1 ≤ k) ∧ (∀ p ∈ l2, k ≤ p.1) := by
  obtain ⟨hw, hS2, hkv2, hkid2⟩ := setC_child t x j (some c') hx.shape h0 hj
  have hS := hx.shape
  have hkl := hS.kids_length
  have hvl := hS.kvs_length
  have hjl : j.toNat < x.kids.length := by omega
  have e1 := inorder_at h x j.toNat (some c) t hS hc
  have hc2 : (x.setC (x.c.set j.toNat (some c'))).kids[j.toNat]? = some (some c') := by
    rw [hkid2, List.getElem?_set_self hjl]
  have e2 := inorder_at h _ j.toNat (some c') t hS2 hc2
  have t1 : (x.kids.set j.toNat (some c')).take j.toNat = x.kids.take j.toNat := by
    rw [List.set_take, List.set_eq_of_length_le (by rw [List.length_take]; omega)]
  have t2 : (x.kids.set j.toNat (some c')).drop (j.toNat + 1) = x.kids.drop (j.toNat + 1) :=
    List.drop_set_of_lt _ _ (by omega)
  rw [hkv2, hkid2, t1, t2] at e2
  rw [List.map_take] at e1 e2
  have hsP : SortedKV (pre ((x.kids.map (inorder h)).take j.toNat) (x.kvs.take j.toNat)
      ++ (inorder h (some c) ++ rest ((x.kids.drop (j.toNat + 1)).map (inorder h))
        (x.kvs.drop j.toNat))) := by
    rw [e1] at hs; simpa using hs
  have hP := pre_mem_le (k := k) (by
      rw [List.length_take, List.length_take, List.length_map]; omega) hsP hlo (by omega)
  have hsQ : SortedKV ((pre ((x.kids.map (inorder h)).take j.toNat) (x.kvs.take j.toNat)
      ++ inorder h (some c)) ++ rest ((x.kids.drop (j.toNat + 1)).map (inorder h))
        (x.kvs.drop j.toNat)) := by
    rw [e1] at hs; exact hs
  have hQ := rest_mem_ge (k := k) hsQ hhi
  refine ⟨hw, ⟨hS2, by simpa using hx.2.1, ?_⟩, by simp,
    pre ((x.kids.map (inorder h)).take j.toNat) (x.kvs.take j.toNat) ++ a,
    b ++ rest ((x.kids.drop (j.toNat + 1)).map (inorder h)) (x.kvs.drop j.toNat), ?_, ?_, ?_, ?_⟩
  · intro o ho
    rw [hkid2] at ho
    rcases List.mem_or_eq_of_mem_set ho with ho | rfl
    · exact hx.2.2 o ho
    · exact ⟨c', rfl, hc', hn⟩
  · rw [e1, hab]; simp
  · rw [e2, hab']; simp
  · intro p hp
    rcases List.mem_append.mp hp with hp | hp
    · exact hP p hp
    · exact ha p hp
  · intro p hp
    rcases List.mem_append.mp hp with hp | hp
    · exact hb p hp
    · exact hQ p hp

end BTree

namespace BTree

theorem insert_leaf_spec (t : Int) (f : Nat) (x : Node) (k v : Int)
    (hx : WF t 0 x) (hfull : x.n < 2 * t - 1) (hs : SortedKV (inorder 0 (some x))) :
    ∃ x', _insert_non_full t (f + 1) x k v = .ok x' ∧ WF t 0 x' ∧ x.n ≤ x'.n ∧
      ∃ l1 l2, inorder 0 (some x) = l1 ++ l2 ∧ inorder 0 (some x') = l1 ++ (k, v) :: l2 ∧
        (∀ p ∈ l1, p.1 ≤ k) ∧ (∀ p ∈ l2, k ≤ p.1) := by
  obtain ⟨hS, hleaf⟩ := hx
  have hS0 := hS
  obtain ⟨h1, h2, h3, h4, h5⟩ := hS
  obtain ⟨key', val', i, E, hi0, hi1, lk, lv, hgt, hle, vk, vv⟩ :=
    shiftWhile_spec x.key x.val x.n k h4 (by omega) (by omega)
  have w1 := wr_ok (a := key') k (i := i + 1) (by omega) (by omega)
  have w2 := wr_ok (a := val') v (i := i + 1) (by omega) (by omega)
  have lK : (view x.key x.n).length = (view x.val x.n).length := by
    rw [view_length _ _ h4 (by omega), view_length _ _ h4 (by omega)]
  have hkvs : (((x.setKey (key'.set (i + 1).toNat k)).setVal (val'.set (i + 1).toNat v)).setN
      (x.n + 1)).kvs = x.kvs.take (i + 1).toNat ++ (k, v) :: x.kvs.drop (i + 1).toNat := by
    unfold Node.kvs
    simp only [Node.key_setN, Node.val_setN, Node.n_setN, Node.key_setVal, Node.key_setKey,
      Node.val_setVal]
    rw [vk, vv]
    exact zip_insert _ _ _ _ _ lK
  refine ⟨((x.setKey (key'.set (i + 1).toNat k)).setVal (val'.set (i + 1).toNat v)).setN
    (x.n + 1), ?_, ⟨⟨?_, ?_, ?_, ?_, ?_⟩, ?_⟩, ?_, x.kvs.take (i + 1).toNat,
    x.kvs.drop (i + 1).toNat, ?_, ?_, ?_, ?_⟩
  · simp only [_insert_non_full, hleaf, if_true, ite_true, E, Except.ok_bind, w1, w2,
      Except.pure_eq_ok]
  · simp; omega
  · simp; omega
  · simpa using h3
  · simp; omega
  · simp; omega
  · simpa using hleaf
  · simp
  · show x.kvs = _
    rw [List.take_append_drop]
  · exact hkvs
  · intro p hp
    by_cases hi : 0 ≤ i
    · have hlt : i.toNat < (view x.key x.n).length := by
        rw [view_length _ _ h4 (by omega)]; omega
      obtain ⟨m, hm, hm1⟩ := key_kvs_at hS0 (List.getElem?_eq_getElem hlt)
      have hmk : m.1 ≤ k := by
        rw [hm1]; exact hle _ hi (List.getElem?_eq_getElem hlt)
      have e : (i + 1).toNat = i.toNat + 1 := by omega
      rw [e] at hp
      have := sorted_take_le (L := x.kvs) hs hm p hp
      omega
    · have e : (i + 1).toNat = 0 := by omega
      rw [e] at hp; simp at hp
  · intro p hp
    have : p.1 ∈ (view x.key x.n).drop (i + 1).toNat := by
      rw [← hS0.kvs_fst, ← List.map_drop]
      exact List.mem_map_of_mem _ hp
    have := hgt _ this
    omega

theorem WF.kid_sorted {t : Int} {h : Nat} {x c : Node} {j : Nat} (hx : WF t (h + 1) x)
    (hc : x.kids[j]? = some (some c)) (hs : SortedKV (inorder (h + 1) (some x))) :
    SortedKV (inorder h (some c)) := by
  rw [inorder_at h x j (some c) t hx.shape hc] at hs
  exact hs.left.right

theorem split_inorder (t : Int) (h : Nat) (x x1 y yl z : Node) (m : Int × Int) (c : Nat)
    (hS : Shape t x) (hS1 : Shape t x1) (hy : x.kids[c]? = some (some y))
    (hkvs : x1.kvs = x.kvs.take c ++ m :: x.kvs.drop c)
    (hkids : x1.kids = x.kids.take c ++ some yl :: some z :: x.kids.drop (c + 1))
    (hio : inorder h (some y) = inorder h (some yl) ++ m :: inorder h (some z)) :
    inorder (h + 1) (some x1) = inorder (h + 1) (some x) := by
  have hc : c < x.kids.length := by
    rcases Nat.lt_or_ge c x.kids.length with h | h
    · exact h
    · rw [List.getElem?_eq_none h] at hy; cases hy
  have hkl := hS.kids_length
  have hvl := hS.kvs_length
  have lA : (x.kids.take c).length = c := by rw [List.length_take]; omega
  have lK : (x.kvs.take c).length = c := by rw [List.length_take]; omega
  have hyl : x1.kids[c]? = some (some yl) := by
    rw [hkids, List.getElem?_append_right (by omega), lA]; simp
  rw [inorder_at h x c (some y) t hS hy, inorder_at h x1 c (some yl) t hS1 hyl, hkvs, hkids, hio]
  rw [List.take_left' lA, List.take_left' lK, List.drop_left' lK]
  have e : (x.kids.take c ++ some yl :: some z :: x.kids.drop (c + 1)).drop (c + 1)
      = some z :: x.kids.drop (c + 1) := by
    have : x.kids.take c ++ some yl :: some z :: x.kids.drop (c + 1)
        = (x.kids.take c ++ [some yl]) ++ some z :: x.kids.drop (c + 1) := by simp
    rw [this, List.drop_left' (by simp [lA])]
  rw [e]
  simp [rest]

theorem insert_non_full_spec (t : Int) (ht : 1 ≤ t) : ∀ (h : Nat) (fuel : Nat) (x : Node)
    (k v : Int), WF t h x → x.n < 2 * t - 1 → SortedKV (inorder h (some x)) → h < fuel →
    ∃ x', _insert_non_full t fuel x k v = .ok x' ∧ WF t h x' ∧ x.n ≤ x'.n ∧
      ∃ l1 l2, inorder h (some x) = l1 ++ l2 ∧ inorder h (some x') = l1 ++ (k, v) :: l2 ∧
        (∀ p ∈ l1, p.1 ≤ k) ∧ (∀ p ∈ l2, k ≤ p.1) := by
  intro h
  induction h with
  | zero =>
    intro fuel x k v hx hfull hs hf
    obtain ⟨f, rfl⟩ : ∃ f, fuel = f + 1 := ⟨fuel - 1, by omega⟩
    exact insert_leaf_spec t f x k v hx hfull hs
  | succ h ih =>
    intro fuel x k v hx hfull hs hf
    obtain ⟨f, rfl⟩ : ∃ f, fuel = f + 1 := ⟨fuel - 1, by omega⟩
    have hS := hx.shape
    have hleaf : x.leaf = false := hx.2.1
    obtain ⟨h1, h2, h3, h4, h5⟩ := hS
    obtain ⟨i, E, hi0, hi1, hgt, hle⟩ := scanDown_spec x.key x.n k h4 (by omega)
    obtain ⟨child, hrd, hkid, hcw, hcn⟩ := hx.kid (i + 1) (by omega) (by omega)
    have e1 : (i + 1).toNat - 1 = i.toNat := by omega
    -- bounds on the neighbours of slot i + 1 in the node as it is
    have hlo : ∀ m, 0 < (i + 1).toNat → x.kvs[(i + 1).toNat - 1]? = some m → m.1 ≤ k := by
      intro m hpos hm
      rw [e1] at hm
      exact hle _ (by omega) (kvs_key_at hx.shape hm)
    have hhi : ∀ m, (x.kvs.drop (i + 1).toNat).head? = some m → k ≤ m.1 := by
      intro m hm
      have hmem : m ∈ x.kvs.drop (i + 1).toNat := List.mem_of_mem_head? hm
      have : m.1 ∈ (view x.key x.n).drop (i + 1).toNat := by
        rw [← hx.shape.kvs_fst, ← List.map_drop]
        exact List.mem_map_of_mem _ hmem
      have := hgt _ this
      omega
    by_cases hcf : child.n = 2 * t - 1
    · obtain ⟨x1, yl, z, m, E1, W1, n1, kvs1, kids1, ylW, zW, yln, zn, hio⟩ :=
        split_child_wf t ht h x child (i + 1) hx (by omega) (by omega) hfull hkid hcf
      have hkl := hx.shape.kids_length
      have hvl := hx.shape.kvs_length
      have lA : (x.kids.take (i + 1).toNat).length = (i + 1).toNat := by
        rw [List.length_take]; omega
      have lK : (x.kvs.take (i + 1).toNat).length = (i + 1).toNat := by
        rw [List.length_take]; omega
      have hio1 := split_inorder t h x x1 child yl z m (i + 1).toNat hx.shape W1.shape hkid kvs1
        kids1 hio
      have hs1 : SortedKV (inorder (h + 1) (some x1)) := by rw [hio1]; exact hs
      have hm1 : x1.kvs[(i + 1).toNat]? = some m := by
        rw [kvs1, List.getElem?_append_right (by omega), lK]; simp
      have rdm : rd x1.key (i + 1) = .ok m.1 :=
        rd_view (n := x1.n) (by omega) (by omega) (kvs_key_at W1.shape hm1)
      by_cases hk : k > m.1
      · -- the pair goes to the new right sibling
        have e2 : (i + 1 + 1).toNat = (i + 1).toNat + 1 := by omega
        have hz : x1.kids[(i + 1 + 1).toNat]? = some (some z) := by
          rw [kids1, e2, List.getElem?_append_right (by omega), lA]; simp
        obtain ⟨z0, hrdz, hkz, _, _⟩ := W1.kid (i + 1 + 1) (by omega) (by omega)
        rw [hz] at hkz
        simp only [Option.some.injEq] at hkz
        subst hkz
        have hlo1 : ∀ m', 0 < (i + 1 + 1).toNat → x1.kvs[(i + 1 + 1).toNat - 1]? = some m' →
            m'.1 ≤ k := by
          intro m' _ hm'
          have e3 : (i + 1 + 1).toNat - 1 = (i + 1).toNat := by omega
          rw [e3, hm1] at hm'
          simp only [Option.some.injEq] at hm'
          subst hm'; omega
        have hhi1 : ∀ m', (x1.kvs.drop (i + 1 + 1).toNat).head? = some m' → k ≤ m'.1 := by
          intro m' hm'
          apply hhi
          have : x1.kvs.drop (i + 1 + 1).toNat = x.kvs.drop (i + 1).toNat := by
            rw [kvs1, e2]
            have : x.kvs.take (i + 1).toNat ++ m :: x.kvs.drop (i + 1).toNat
                = (x.kvs.take (i + 1).toNat ++ [m]) ++ x.kvs.drop (i + 1).toNat := by simp
            rw [this, List.drop_left' (by simp [lK])]
          rw [← this]; exact hm'
        have hcs := W1.kid_sorted hz hs1
        obtain ⟨c', Ec, hcw', hcn', a, b, hab, hab', ha, hb⟩ :=
          ih f z k v zW (by omega) hcs (by omega)
        obtain ⟨hw, hW2, hn2, l1, l2, hl, hl', hl1, hl2⟩ :=
          insert_descend t h x1 z c' (i + 1 + 1) k v a b W1 (by omega) (by omega) hz hs1 hlo1
            hhi1 hcw' (by omega) hab hab' ha hb
        refine ⟨_, ?_, hW2, by omega, l1, l2, by rw [← hio1]; exact hl, hl', hl1, hl2⟩
        simp only [_insert_non_full, hleaf, E, Except.ok_bind, hrd, deref, hcf, if_true, ite_true,
          E1, rdm, hk, hrdz, Ec, hw, Except.pure_eq_ok, Bool.false_eq_true, if_false, ite_false]
      · -- the pair goes to the left half
        have hyl : x1.kids[(i + 1).toNat]? = some (some yl) := by
          rw [kids1, List.getElem?_append_right (by omega), lA]; simp
        obtain ⟨y0, hrdy, hky, _, _⟩ := W1.kid (i + 1) (by omega) (by omega)
        rw [hyl] at hky
        simp only [Option.some.injEq] at hky
        subst hky
        have hlo1 : ∀ m', 0 < (i + 1).toNat → x1.kvs[(i + 1).toNat - 1]? = some m' →
            m'.1 ≤ k := by
          intro m' hpos hm'
          apply hlo m' hpos
          rw [kvs1, List.getElem?_append_left (by omega)] at hm'
          rw [List.getElem?_take] at hm'
          rw [if_pos (by omega)] at hm'
          exact hm'
        have hhi1 : ∀ m', (x1.kvs.drop (i + 1).toNat).head? = some m' → k ≤ m'.1 := by
          intro m' hm'
          rw [kvs1, List.drop_left' lK] at hm'
          simp only [List.head?_cons, Option.some.injEq] at hm'
          subst hm'; omega
        have hcs := W1.kid_sorted hyl hs1
        obtain ⟨c', Ec, hcw', hcn', a, b, hab, hab', ha, hb⟩ :=
          ih f yl k v ylW (by omega) hcs (by omega)
        obtain ⟨hw, hW2, hn2, l1, l2, hl, hl', hl1, hl2⟩ :=
          insert_descend t h x1 yl c' (i + 1) k v a b W1 (by omega) (by omega) hyl hs1 hlo1
            hhi1 hcw' (by omega) hab hab' ha hb
        refine ⟨_, ?_, hW2, by omega, l1, l2, by rw [← hio1]; exact hl, hl', hl1, hl2⟩
        simp only [_insert_non_full, hleaf, E, Except.ok_bind, hrd, deref, hcf, if_true, ite_true,
          E1, rdm, hk, hrdy, Ec, hw, Except.pure_eq_ok, Bool.false_eq_true, if_false, ite_false]
    · have hcs := hx.kid_sorted hkid hs
      obtain ⟨c', Ec, hcw', hcn', a, b, hab, hab', ha, hb⟩ :=
        ih f child k v hcw (by have := hcw.shape.2.2.2.2; omega) hcs (by omega)
      obtain ⟨hw, hW2, hn2, l1, l2, hl, hl', hl1, hl2⟩ :=
        insert_descend t h x child c' (i + 1) k v a b hx (by omega) (by omega) hkid hs hlo hhi
          hcw' (by omega) hab hab' ha hb
      refine ⟨_, ?_, hW2, by omega, l1, l2, hl, hl', hl1, hl2⟩
      simp only [_insert_non_full, hleaf, E, Except.ok_bind, hrd, deref, hcf, if_false, ite_false,
        Ec, hw, Except.pure_eq_ok, Bool.false_eq_true]

end BTree

namespace BTree

theorem inter_at {α : Type} (S : List (List α)) (K : List α) (i : Nat) (c : List α)
    (hS : S.length = K.length + 1) (hc : S[i]? = some c) :
    inter S K = pre (S.take i) (K.take i) ++ c ++ rest (S.drop (i + 1)) (K.drop i) := by
  have hi : i < S.length := by
    rcases Nat.lt_or_ge i S.length with h | h
    · exact h
    · rw [List.getElem?_eq_none h] at hc; cases hc
  have e1 : S = S.take i ++ c :: S.drop (i + 1) := by
    rw [List.getElem?_eq_getElem hi] at hc
    simp only [Option.some.injEq] at hc
    rw [← hc, ← List.drop_eq_getElem_cons hi, List.take_append_drop]
  have e2 : K = K.take i ++ K.drop i := (List.take_append_drop _ _).symm
  conv => lhs; rw [e1, e2]
  rw [inter_append]
  rw [List.length_take, List.length_take]
  omega

theorem subs_length {t : Int} (h : Nat) {x : Node} (hS : Shape t x) :
    (subs h x).length = x.kvs.length + 1 := by
  cases h with
  | zero => simp [subs]
  | succ h =>
    show (x.kids.map (inorder h)).length = _
    rw [List.length_map, hS.kids_length, hS.kvs_length]

theorem kvs_at {t : Int} {x : Node} (hS : Shape t x) {i : Int} {a b : Int} (h1 : i < x.n)
    (ha : rd x.key i = .ok a) (hb : rd x.val i = .ok b) : x.kvs[i.toNat]? = some (a, b) := by
  unfold Node.kvs
  rw [List.getElem?_zip_eq_some]
  exact ⟨view_rd h1 ha, view_rd h1 hb⟩

/-- Running `_find_key` and the hit test in a node whose reading is sorted: either the key is
found in slot `i`, or every pair with key `k` lies in the `i`-th subtree. -/
theorem find_key_node (t : Int) (x : Node) (k : Int) (S : List (List (Int × Int)))
    (hS : Shape t x) (hl : S.length = x.kvs.length + 1) (hs : SortedKV (inter S x.kvs)) :
    ∃ i, _find_key x k = .ok i ∧ 0 ≤ i ∧ i ≤ x.n ∧
      ((∃ v, hit x i k = .ok true ∧ rd x.val i = .ok v ∧ (k, v) ∈ inter S x.kvs) ∨
       (hit x i k = .ok false ∧ ∀ C, S[i.toNat]? = some C →
          ∀ p ∈ inter S x.kvs, p.1 = k → p ∈ C)) := by
  have hS0 := hS
  obtain ⟨h1, h2, h3, h4, h5⟩ := hS
  obtain ⟨i, E, hi0, hi1, hlt, hge⟩ := scanUp_spec x.key x.n k h4 (by omega)
  have hvl := hS0.kvs_length
  refine ⟨i, E, hi0, hi1, ?_⟩
  have miss : (∀ m, x.kvs[i.toNat]? = some m → m.1 ≠ k) → ∀ C, S[i.toNat]? = some C →
      ∀ p ∈ inter S x.kvs, p.1 = k → p ∈ C := by
    intro hne C hC p hp hpk
    rw [inter_at S x.kvs i.toNat C hl hC] at hp hs
    have lT : (S.take i.toNat).length = (x.kvs.take i.toNat).length := by
      rw [List.length_take, List.length_take]; omega
    rcases List.mem_append.mp hp with hp | hp
    · rcases List.mem_append.mp hp with hp | hp
      · have hs' : SortedKV (pre (S.take i.toNat) (x.kvs.take i.toNat) ++
            (C ++ rest (S.drop (i.toNat + 1)) (x.kvs.drop i.toNat))) := by
          simpa using hs
        have := pre_mem_le (k := k - 1) lT hs' (by
          intro m hpos hm
          have := kvs_key_at hS0 hm
          have hmem : m.1 ∈ (view x.key x.n).take i.toNat := by
            rw [List.mem_iff_getElem?]
            refine ⟨i.toNat - 1, ?_⟩
            rw [List.getElem?_take, if_pos (by omega)]
            exact this
          have := hlt _ hmem
          omega) (by omega) p hp
        omega
      · exact hp
    · have := rest_mem_ge (k := k + 1) hs (by
        intro m hm
        rw [List.head?_drop] at hm
        have h1 := hge _ (kvs_key_at hS0 hm)
        have h2 := hne m hm
        omega) p hp
      omega
  by_cases hin : i < x.n
  · obtain ⟨ki, hki⟩ := rd_total x.key i hi0 (by omega)
    obtain ⟨vi, hvi⟩ := rd_total x.val i hi0 (by omega)
    have hat := kvs_at hS0 hin hki hvi
    by_cases hk : k = ki
    · left
      refine ⟨vi, ?_, hvi, ?_⟩
      · simp only [hit, hin, if_true, ite_true, hki, Except.ok_bind, Except.pure_eq_ok, hk,
          decide_True]
      · subst hk
        rw [inter_split S x.kvs i.toNat (k, vi) hl hat]
        simp
    · right
      refine ⟨?_, miss ?_⟩
      · simp only [hit, hin, if_true, ite_true, hki, Except.ok_bind, Except.pure_eq_ok, hk,
          decide_False]
      · intro m hm
        rw [hat] at hm
        simp only [Option.some.injEq] at hm
        subst hm
        exact fun h => hk h.symm
  · right
    refine ⟨?_, miss ?_⟩
    · simp only [hit, hin, if_false, ite_false, Except.pure_eq_ok]
    · intro m hm
      rw [List.getElem?_eq_none (by omega)] at hm
      cases hm

/-- The search below a well-formed node with a sorted reading returns a value stored with the key,
or nothing when no pair has the key. -/
theorem search_spec (t : Int) : ∀ (h fuel : Nat) (x : Node) (k : Int), WF t h x →
    SortedKV (inorder h (some x)) → h < fuel →
    ∃ res, _search fuel (some x) k = .ok res ∧
      (∀ v, res = some v → (k, v) ∈ inorder h (some x)) ∧
      (res = none → ∀ p ∈ inorder h (some x), p.1 ≠ k) := by
  intro h
  induction h with
  | zero =>
    intro fuel x k hx hs hf
    obtain ⟨f, rfl⟩ : ∃ f, fuel = f + 1 := ⟨fuel - 1, by omega⟩
    have hS := hx.shape
    rw [inorder_eq_inter] at hs ⊢
    obtain ⟨i, E, hi0, hi1, hcase⟩ := find_key_node t x k (subs 0 x) hS (subs_length 0 hS) hs
    rcases hcase with ⟨v, hh, hv, hmem⟩ | ⟨hh, hmiss⟩
    · refine ⟨some v, ?_, ?_, ?_⟩
      · simp only [_search, E, Except.ok_bind, hh, if_true, ite_true, hv, Except.pure_eq_ok]
      · intro v' hv'
        simp only [Option.some.injEq] at hv'
        subst hv'; exact hmem
      · intro hn; cases hn
    · refine ⟨none, ?_, ?_, ?_⟩
      · simp only [_search, E, Except.ok_bind, hh, hx.2, if_true, ite_true, Except.pure_eq_ok,
          Bool.false_eq_true, if_false, ite_false]
      · intro v' hv'; cases hv'
      · intro _ p hp hpk
        have hC : (subs 0 x)[i.toNat]? = some [] := by
          have := hS.kvs_length
          simp only [subs]
          rw [List.getElem?_replicate, if_pos (by omega)]
        have := hmiss [] hC p hp hpk
        simp at this
  | succ h ih =>
    intro fuel x k hx hs hf
    obtain ⟨f, rfl⟩ : ∃ f, fuel = f + 1 := ⟨fuel - 1, by omega⟩
    have hS := hx.shape
    have hs0 := hs
    rw [inorder_eq_inter] at hs ⊢
    obtain ⟨i, E, hi0, hi1, hcase⟩ :=
      find_key_node t x k (subs (h + 1) x) hS (subs_length (h + 1) hS) hs
    rcases hcase with ⟨v, hh, hv, hmem⟩ | ⟨hh, hmiss⟩
    · refine ⟨some v, ?_, ?_, ?_⟩
      · simp only [_search, E, Except.ok_bind, hh, if_true, ite_true, hv, Except.pure_eq_ok]
      · intro v' hv'
        simp only [Option.some.injEq] at hv'
        subst hv'; exact hmem
      · intro hn; cases hn
    · obtain ⟨ch, hrd, hkid, hcw, _⟩ := hx.kid i hi0 hi1
      have hcs := hx.kid_sorted hkid hs0
      obtain ⟨res, Er, hsome, hnone⟩ := ih f ch k hcw hcs (by omega)
      have hC : (subs (h + 1) x)[i.toNat]? = some (inorder h (some ch)) := by
        show (x.kids.map (inorder h))[i.toNat]? = _
        rw [List.getElem?_map, hkid]; rfl
      have hsub : ∀ p ∈ inorder h (some ch), p ∈ inter (subs (h + 1) x) x.kvs := by
        intro p hp
        rw [inter_at _ _ i.toNat _ (subs_length (h + 1) hS) hC]
        simp [hp]
      refine ⟨res, ?_, ?_, ?_⟩
      · simp only [_search, E, Except.ok_bind, hh, hx.2.1, if_true, ite_true, Except.pure_eq_ok,
          Bool.false_eq_true, if_false, ite_false, hrd, Er]
      · intro v hv; exact hsub _ (hsome v hv)
      · intro hn p hp hpk
        exact hnone hn p (hmiss _ hC p hp hpk) hpk

end BTree

namespace BTree

theorem new_wf (t : Int) (ht : 1 ≤ t) :
    WF t 0 ((_allocate_node t).setLeaf true) ∧
    inorder 0 (some ((_allocate_node t).setLeaf true)) = [] := by
  have hS := allocate_shape t ht
  refine ⟨⟨?_, by simp⟩, ?_⟩
  · obtain ⟨h1, h2, h3, h4, h5⟩ := hS
    exact ⟨by simpa using h1, by simpa using h2, by simpa using h3, by simpa using h4,
      by simpa using h5⟩
  · have hn0 : ((_allocate_node t).setLeaf true).n = 0 := rfl
    simp only [inorder, Node.kvs, hn0, view]
    rfl

/-- The fresh root built by `insert` over a full root `r`, before the split. -/
theorem new_root_wf (t : Int) (ht : 1 ≤ t) (h : Nat) (r : Node) (hw : WF t h r)
    (hn : r.n = 2 * t - 1) :
    wr (_allocate_node t).c 0 (some r) = .ok ((_allocate_node t).c.set 0 (some r)) ∧
    WF t (h + 1) (((_allocate_node t).setC ((_allocate_node t).c.set 0 (some r))).setLeaf false) ∧
    (((_allocate_node t).setC ((_allocate_node t).c.set 0 (some r))).setLeaf false).n = 0 ∧
    (((_allocate_node t).setC ((_allocate_node t).c.set 0 (some r))).setLeaf false).kids
      = [some r] ∧
    (((_allocate_node t).setC ((_allocate_node t).c.set 0 (some r))).setLeaf false).kvs = [] := by
  have hS := allocate_shape t ht
  obtain ⟨h1, h2, h3, h4, h5⟩ := hS
  have hn0 : (_allocate_node t).n = 0 := rfl
  have hkids : (((_allocate_node t).setC ((_allocate_node t).c.set 0 (some r))).setLeaf
      false).kids = [some r] := by
    unfold Node.kids
    simp only [Node.c_setLeaf, Node.n_setLeaf, Node.c_setC, Node.n_setC, hn0]
    have hpos : 0 < (_allocate_node t).c.length := by omega
    unfold view
    cases hc : (_allocate_node t).c with
    | nil => rw [hc] at hpos; simp at hpos
    | cons a l => simp
  have hwr : wr (_allocate_node t).c 0 (some r) = .ok ((_allocate_node t).c.set 0 (some r)) := by
    have := wr_ok (a := (_allocate_node t).c) (some r) (i := 0) (by omega) (by omega)
    simpa using this
  refine ⟨hwr, ⟨⟨?_, ?_, ?_, ?_, ?_⟩, by simp, ?_⟩, by simp [hn0], hkids, ?_⟩
  · simpa using h1
  · simpa using h2
  · simpa using h3
  · simp [hn0]
  · simp [hn0]; omega
  · intro o ho
    rw [hkids] at ho
    simp only [List.mem_singleton] at ho
    exact ⟨r, ho, hw, by omega⟩
  · unfold Node.kvs
    simp [hn0, view]

/-- One `insert` on a tree with a well-formed root and a sorted reading. -/
theorem insert_spec (t : Int) (ht : 2 ≤ t) (h fuel : Nat) (tr : BTree) (r : Node) (k v : Int)
    (hr : tr.root_ = some r) (hw : WF t h r) (hs : SortedKV (inorder h (some r)))
    (hf : h + 1 < fuel) :
    ∃ tr' r' h', insert t fuel tr k v = .ok tr' ∧ tr'.root_ = some r' ∧ WF t h' r' ∧
      h' ≤ h + 1 ∧
      ∃ l1 l2, inorder h (some r) = l1 ++ l2 ∧ inorder h' (some r') = l1 ++ (k, v) :: l2 ∧
        (∀ p ∈ l1, p.1 ≤ k) ∧ (∀ p ∈ l2, k ≤ p.1) := by
  by_cases hn : r.n = 2 * t - 1
  · obtain ⟨ew, sW, sn, skids, skvs⟩ := new_root_wf t (by omega) h r hw hn
    have hkid : (((_allocate_node t).setC ((_allocate_node t).c.set 0 (some r))).setLeaf
        false).kids[(0 : Int).toNat]? = some (some r) := by rw [skids]; rfl
    obtain ⟨x1, yl, z, m, E1, W1, n1, kvs1, kids1, ylW, zW, yln, zn, hio⟩ :=
      split_child_wf t (by omega) h _ r 0 sW (by omega) (by omega) (by omega) hkid hn
    have hio1 := split_inorder t h _ x1 r yl z m 0 sW.shape W1.shape hkid kvs1 kids1 hio
    have hs0 : inorder (h + 1) (some (((_allocate_node t).setC
        ((_allocate_node t).c.set 0 (some r))).setLeaf false)) = inorder h (some r) := by
      show inter (List.map (inorder h) (Node.kids _)) (Node.kvs _) = _
      rw [skids, skvs]
      simp [inter, rest]
    obtain ⟨x', Ex, W', _, l1, l2, hl, hl', hl1, hl2⟩ :=
      insert_non_full_spec t (by omega) (h + 1) fuel x1 k v W1 (by omega)
        (by rw [hio1, hs0]; exact hs) hf
    refine ⟨⟨some x'⟩, x', h + 1, ?_, rfl, W', le_refl _, l1, l2, ?_, hl', hl1, hl2⟩
    · simp only [insert, hr, hn, if_true, ite_true, ew, Except.ok_bind, E1, Ex,
        Except.pure_eq_ok]
    · rw [← hs0, ← hio1]; exact hl
  · obtain ⟨x', Ex, W', _, l1, l2, hl, hl', hl1, hl2⟩ :=
      insert_non_full_spec t (by omega) h fuel r k v hw (by have := hw.shape.2.2.2.2; omega)
        hs (by omega)
    refine ⟨⟨some x'⟩, x', h, ?_, rfl, W', by omega, l1, l2, hl, hl', hl1, hl2⟩
    simp only [insert, hr, hn, if_false, ite_false, Except.ok_bind, Ex, Except.pure_eq_ok]

/-- A run of inserts keeps the root well formed and the reading sorted; the reading is the old one
plus the inserted pairs. -/
theorem insertAll_spec (t : Int) (ht : 2 ≤ t) : ∀ (kvs : List (Int × Int)) (fuel : Nat)
    (tr : BTree) (h : Nat) (r : Node), tr.root_ = some r → WF t h r →
    SortedKV (inorder h (some r)) → h + kvs.length < fuel →
    ∃ tr' r' h', insertAll t fuel tr kvs = .ok tr' ∧ tr'.root_ = some r' ∧ WF t h' r' ∧
      h' ≤ h + kvs.length ∧ SortedKV (inorder h' (some r')) ∧
      (inorder h' (some r')).Perm (kvs ++ inorder h (some r)) := by
  intro kvs
  induction kvs with
  | nil =>
    intro fuel tr h r hr hw hs hf
    exact ⟨tr, r, h, rfl, hr, hw, by simp, hs, by simp⟩
  | cons p ps ih =>
    intro fuel tr h r hr hw hs hf
    simp only [List.length_cons] at hf
    obtain ⟨tr1, r1, h1, E1, hr1, hw1, hh1, l1, l2, hl, hl', hl1, hl2⟩ :=
      insert_spec t ht h fuel tr r p.1 p.2 hr hw hs (by omega)
    have hs1 : SortedKV (inorder h1 (some r1)) := by
      rw [hl']; rw [hl] at hs
      exact hs.insert_mid hl1 hl2
    obtain ⟨tr2, r2, h2, E2, hr2, hw2, hh2, hs2, hp2⟩ :=
      ih fuel tr1 h1 r1 hr1 hw1 hs1 (by omega)
    refine ⟨tr2, r2, h2, ?_, hr2, hw2, by simp only [List.length_cons]; omega, hs2, ?_⟩
    · simp only [insertAll, List.foldlM_cons, E1, Except.ok_bind] at E2 ⊢
      exact E2
    · refine hp2.trans ?_
      rw [hl', hl]
      have : (l1 ++ (p.1, p.2) :: l2).Perm (p :: (l1 ++ l2)) := List.perm_middle
      exact (List.Perm.append_left ps this).trans List.perm_middle

theorem nodup_keys_val : ∀ (kvs : List (Int × Int)), (kvs.map Prod.fst).Nodup →
    ∀ (k a b : Int), (k, a) ∈ kvs → (k, b) ∈ kvs → a = b := by
  intro kvs
  induction kvs with
  | nil => intro _ k a b ha; cases ha
  | cons p ps ih =>
    intro hd k a b ha hb
    simp only [List.map_cons, List.nodup_cons] at hd
    rcases List.mem_cons.mp ha with ha | ha <;> rcases List.mem_cons.mp hb with hb | hb
    · rw [← ha] at hb; exact (Prod.mk.inj hb).2.symm ▸ rfl
    · exfalso; apply hd.1
      rw [← ha]; exact List.mem_map.mpr ⟨(k, b), hb, rfl⟩
    · exfalso; apply hd.1
      rw [← hb]; exact List.mem_map.mpr ⟨(k, a), ha, rfl⟩
    · exact ih hd.2 k a b ha hb

/-- Round trip for any degree `t ≥ 2`. -/
theorem round_trip (t : Int) (ht : 2 ≤ t) (kvs : List (Int × Int)) (fuel : Nat)
    (hd : (kvs.map Prod.fst).Nodup) (hf : kvs.length < fuel) :
    ∃ tr, insertAll t fuel (new t) kvs = .ok tr ∧
      (∀ p ∈ kvs, search fuel tr p.1 = .ok (some p.2) ∧ contains fuel tr p.1 = .ok true) ∧
      (∀ k, k ∉ kvs.map Prod.fst → search fuel tr k = .ok none ∧
        contains fuel tr k = .ok false) := by
  obtain ⟨hw0, hi0⟩ := new_wf t (by omega)
  obtain ⟨tr, r, h, E, hr, hw, hh, hs, hp⟩ :=
    insertAll_spec t ht kvs fuel (new t) 0 _ rfl hw0 (by rw [hi0]; exact List.Pairwise.nil)
      (by omega)
  rw [hi0, List.append_nil] at hp
  refine ⟨tr, E, ?_, ?_⟩
  · intro p hpm
    obtain ⟨res, Er, hsome, hnone⟩ := search_spec t h fuel r p.1 hw hs (by omega)
    have hres : res = some p.2 := by
      cases res with
      | none => exact absurd rfl (hnone rfl p (hp.mem_iff.mpr hpm))
      | some v =>
        have := hp.mem_iff.mp (hsome v rfl)
        rw [nodup_keys_val kvs hd p.1 v p.2 this hpm]
    subst hres
    have hsr : search fuel tr p.1 = .ok (some p.2) := by
      simp only [search, hr]; exact Er
    refine ⟨hsr, ?_⟩
    simp only [contains, hsr, Except.ok_bind, Except.pure_eq_ok, Option.isSome_some]
  · intro k hk
    obtain ⟨res, Er, hsome, hnone⟩ := search_spec t h fuel r k hw hs (by omega)
    have hres : res = none := by
      cases res with
      | none => rfl
      | some v =>
        exfalso; apply hk
        exact List.mem_map_of_mem Prod.fst (hp.mem_iff.mp (hsome v rfl))
    subst hres
    have hsr : search fuel tr k = .ok none := by
      simp only [search, hr]; exact Er
    refine ⟨hsr, ?_⟩
    simp only [contains, hsr, Except.ok_bind, Except.pure_eq_ok, Option.isSome_none]

end BTree

namespace BTree

theorem zip_eraseIdx {α β : Type} : ∀ (A : List α) (B : List β) (i : Nat),
    (A.eraseIdx i).zip (B.eraseIdx i) = (A.zip B).eraseIdx i := by
  intro A
  induction A with
  | nil => intro B i; simp
  | cons a A ih =>
    intro B i
    cases B with
    | nil => simp
    | cons b B =>
      cases i with
      | zero => simp
      | succ i => simp [ih]

theorem set_set_eraseIdx {α : Type} (L : List α) (i : Nat) (a b : α) (h : i + 1 < L.length) :
    ((L.set i a).set (i + 1) b).eraseIdx (i + 1) = L.take i ++ a :: L.drop (i + 2) := by
  induction L generalizing i with
  | nil => simp at h
  | cons x L ih =>
    cases i with
    | zero =>
      cases L with
      | nil => simp at h
      | cons y L => simp
    | succ i =>
      simp only [List.length_cons] at h
      simp only [List.set_cons_succ, List.eraseIdx_cons_succ, List.take_succ_cons,
        List.cons_append, List.drop_succ_cons]
      rw [ih i (by omega)]

/-- Running `_remove_from_leaf`. -/
theorem remove_from_leaf_run (t : Int) (x : Node) (i : Int) (hx : Shape t x) (h0 : 0 ≤ i)
    (hi : i < x.n) :
    ∃ x', _remove_from_leaf x i = .ok (x', true) ∧ Shape t x' ∧ x'.n = x.n - 1 ∧
      x'.leaf = x.leaf ∧ x'.c = x.c ∧ x'.kvs = x.kvs.eraseIdx i.toNat := by
  obtain ⟨h1, h2, h3, h4, h5⟩ := hx
  obtain ⟨k1, ek1, lk1, vk1⟩ := shiftDown_spec x.key i (x.n - 1) x.n (by omega) h0 (by omega)
    (by omega)
  obtain ⟨v1, ev1, lv1, vv1⟩ := shiftDown_spec x.val i (x.n - 1) x.n (by omega) h0 (by omega)
    (by omega)
  refine ⟨((x.setKey k1).setVal v1).setN (x.n - 1), ?_, ?_, by simp, by simp, by simp, ?_⟩
  · simp only [_remove_from_leaf, ek1, Except.ok_bind, Node.val_setKey, ev1, Node.n_setVal,
      Node.n_setKey, Except.pure_eq_ok]
  · refine ⟨?_, ?_, ?_, ?_, ?_⟩ <;> simp <;> omega
  · unfold Node.kvs
    simp only [Node.key_setN, Node.val_setN, Node.n_setN, Node.key_setVal, Node.key_setKey,
      Node.val_setVal]
    rw [vk1, vv1, zip_eraseIdx]

/-- Running `_merge` on two adjacent children `l`, `r` of `p`. -/
theorem merge_run (t : Int) (p l r : Node) (i : Int) (hp : Shape t p) (hpl : p.leaf = false)
    (h0 : 0 ≤ i) (hi : i < p.n) (hl : rd p.c i = .ok (some l))
    (hr : rd p.c (i + 1) = .ok (some r)) (hlS : Shape t l) (hrS : Shape t r)
    (hsum : l.n + r.n + 1 ≤ 2 * t - 1) :
    ∃ p' l' m, _merge p i = .ok p' ∧ Shape t p' ∧ p'.n = p.n - 1 ∧ p'.leaf = false ∧
      p.kvs[i.toNat]? = some m ∧ p'.kvs = p.kvs.eraseIdx i.toNat ∧
      p'.kids = p.kids.take i.toNat ++ some l' :: p.kids.drop (i.toNat + 2) ∧
      Shape t l' ∧ l'.n = l.n + 1 + r.n ∧ l'.leaf = l.leaf ∧ l'.kvs = l.kvs ++ m :: r.kvs ∧
      (l.leaf = false → l'.kids = l.kids ++ r.kids) := by
  have hp0 := hp
  obtain ⟨hpk, hpv, hpc, hpn0, hpn1⟩ := hp
  obtain ⟨hlk, hlv, hlc, hln0, hln1⟩ := hlS
  obtain ⟨hrk, hrv, hrc, hrn0, hrn1⟩ := hrS
  obtain ⟨mk, emk⟩ := rd_total p.key i h0 (by omega)
  obtain ⟨mv, emv⟩ := rd_total p.val i h0 (by omega)
  have hm := kvs_at hp0 hi emk emv
  have w1 := wr_ok (a := l.val) mv hln0 (by omega)
  have w2 := wr_ok (a := l.key) mk hln0 (by omega)
  obtain ⟨lk, elk, llk, vlk⟩ := copyRange_spec (l.key.set l.n.toNat mk) r.key r.n (l.n + 1) 0
    hrn0 (by omega) (by omega) (by simp; omega) (by omega)
  obtain ⟨lv, elv, llv, vlv⟩ := copyRange_spec (l.val.set l.n.toNat mv) r.val r.n (l.n + 1) 0
    hrn0 (by omega) (by omega) (by simp; omega) (by omega)
  obtain ⟨lc, elc, llc, vlc⟩ := copyRange_spec l.c r.c (r.n + 1) (l.n + 1) 0
    (by omega) (by omega) (by omega) (by omega) (by omega)
  rw [List.length_set] at llk llv
  have w3 : ∀ v, wr p.c i v = .ok (p.c.set i.toNat v) := fun v => wr_ok v h0 (by omega)
  have w4 : ∀ v w, wr (p.c.set i.toNat v) (i + 1) w = .ok ((p.c.set i.toNat v).set (i + 1).toNat w) :=
    fun v w => wr_ok w (by omega) (by simp; omega)
  obtain ⟨pk, epk, lpk, vpk⟩ := shiftDown_spec p.key i (p.n - 1) p.n (by omega) h0 (by omega)
    (by omega)
  obtain ⟨pv, epv, lpv, vpv⟩ := shiftDown_spec p.val i (p.n - 1) p.n (by omega) h0 (by omega)
    (by omega)
  have hsc : ∀ v w, ∃ pc, shiftDown ((p.c.set i.toNat v).set (i + 1).toNat w) (i + 1) p.n = .ok pc ∧
      pc.length = p.c.length ∧ view pc p.n = (view p.c (p.n + 1)).take i.toNat ++ v ::
        (view p.c (p.n + 1)).drop (i.toNat + 2) := by
    intro v w
    obtain ⟨pc, epc, lpc, vpc⟩ := shiftDown_spec ((p.c.set i.toNat v).set (i + 1).toNat w) (i + 1)
      p.n (p.n + 1) rfl (by omega) (by omega) (by simp; omega)
    refine ⟨pc, epc, by simpa using lpc, ?_⟩
    have e7 : (i + 1).toNat = i.toNat + 1 := by omega
    rw [vpc, view_set_inside, view_set_inside, e7, set_set_eraseIdx]
    rw [view_length _ _ (by omega) (by omega)]; omega
  have e0 : (0 : Int).toNat = 0 := rfl
  have hvk : view lk (l.n + 1 + r.n) = view l.key l.n ++ mk :: view r.key r.n := by
    rw [vlk, view_set_snoc _ _ _ hln0 (by omega)]
    simp [view]
  have hvv : view lv (l.n + 1 + r.n) = view l.val l.n ++ mv :: view r.val r.n := by
    rw [vlv, view_set_snoc _ _ _ hln0 (by omega)]
    simp [view]
  have hvc : view lc (l.n + 1 + r.n + 1) = view l.c (l.n + 1) ++ view r.c (r.n + 1) := by
    have : l.n + 1 + r.n + 1 = l.n + 1 + (r.n + 1) := by omega
    rw [this, vlc]
    simp [view]
  have hzip : (view l.key l.n ++ mk :: view r.key r.n).zip (view l.val l.n ++ mv :: view r.val r.n)
      = l.kvs ++ (mk, mv) :: r.kvs := by
    rw [List.zip_append (by rw [view_length _ _ hln0 (by omega), view_length _ _ hln0 (by omega)])]
    rfl
  cases hleaf : l.leaf with
  | true =>
    obtain ⟨pc, epc, lpc, vpc⟩ := hsc (some ((((((l.setVal (l.val.set l.n.toNat mv)).setKey
      (l.key.set l.n.toNat mk)).setN (l.n + 1)).setKey lk).setVal lv).setN (l.n + 1 + r.n)))
      (some (r.setN 0))
    refine ⟨((((((p.setC (p.c.set i.toNat (some ((((((l.setVal (l.val.set l.n.toNat mv)).setKey (l.key.set l.n.toNat mk)).setN (l.n + 1)).setKey lk).setVal lv).setN (l.n + 1 + r.n))))).setC ((p.c.set i.toNat (some ((((((l.setVal (l.val.set l.n.toNat mv)).setKey (l.key.set l.n.toNat mk)).setN (l.n + 1)).setKey lk).setVal lv).setN (l.n + 1 + r.n)))).set (i + 1).toNat (some (r.setN 0)))).setKey pk).setVal pv).setC pc).setN (p.n - 1)),
      ((((((l.setVal (l.val.set l.n.toNat mv)).setKey (l.key.set l.n.toNat mk)).setN (l.n + 1)).setKey lk).setVal lv).setN (l.n + 1 + r.n)), (mk, mv), ?_, ?_, ?_, ?_, hm, ?_, ?_, ?_, ?_, ?_, ?_, ?_⟩
    · simp only [_merge, hl, hr, deref, Except.ok_bind, Except.pure_eq_ok, emv, emk, w1, w2,
        Node.key_setVal, Node.key_setN, Node.key_setKey, Node.n_setN, Node.val_setN,
        Node.val_setKey, Node.val_setVal, Node.n_setKey, Node.n_setVal, elk, elv,
        Node.leaf_setVal, Node.leaf_setKey, Node.leaf_setN, hleaf, Bool.not_true,
        Bool.false_eq_true, if_false, ite_false, w3, w4, Node.c_setC, Node.key_setC,
        Node.val_setC, Node.n_setC, epk, epv, Node.leaf_setC, hpl, Bool.not_false, if_true,
        ite_true, Node.c_setKey, Node.c_setVal, epc]
    · refine ⟨?_, ?_, ?_, ?_, ?_⟩ <;> simp <;> omega
    · simp
    · simpa using hpl
    · unfold Node.kvs
      simp only [Node.key_setN, Node.val_setN, Node.n_setN, Node.key_setVal, Node.key_setKey,
        Node.val_setVal, Node.key_setC, Node.val_setC, Node.val_setKey]
      rw [vpk, vpv, zip_eraseIdx]
    · unfold Node.kids
      simp only [Node.c_setN, Node.n_setN, Node.c_setC]
      have : p.n - 1 + 1 = p.n := by omega
      rw [this, vpc]
    · refine ⟨?_, ?_, ?_, ?_, ?_⟩ <;> simp <;> omega
    · simp
    · simpa using hleaf
    · unfold Node.kvs
      simp only [Node.key_setN, Node.val_setN, Node.n_setN, Node.key_setVal, Node.key_setKey,
        Node.val_setVal, Node.val_setKey]
      rw [hvk, hvv]
      exact hzip
    · intro h; cases h
  | false =>
    obtain ⟨pc, epc, lpc, vpc⟩ := hsc (some (((((((l.setVal (l.val.set l.n.toNat mv)).setKey
      (l.key.set l.n.toNat mk)).setN (l.n + 1)).setKey lk).setVal lv).setC lc).setN
      (l.n + 1 + r.n))) (some (r.setN 0))
    refine ⟨((((((p.setC (p.c.set i.toNat (some (((((((l.setVal (l.val.set l.n.toNat mv)).setKey (l.key.set l.n.toNat mk)).setN (l.n + 1)).setKey lk).setVal lv).setC lc).setN (l.n + 1 + r.n))))).setC ((p.c.set i.toNat (some (((((((l.setVal (l.val.set l.n.toNat mv)).setKey (l.key.set l.n.toNat mk)).setN (l.n + 1)).setKey lk).setVal lv).setC lc).setN (l.n + 1 + r.n)))).set (i + 1).toNat (some (r.setN 0)))).setKey pk).setVal pv).setC pc).setN (p.n - 1)),
      (((((((l.setVal (l.val.set l.n.toNat mv)).setKey (l.key.set l.n.toNat mk)).setN (l.n + 1)).setKey lk).setVal lv).setC lc).setN (l.n + 1 + r.n)), (mk, mv), ?_, ?_, ?_, ?_, hm, ?_, ?_, ?_, ?_, ?_, ?_, ?_⟩
    · simp only [_merge, hl, hr, deref, Except.ok_bind, Except.pure_eq_ok, emv, emk, w1, w2,
        Node.key_setVal, Node.key_setN, Node.key_setKey, Node.n_setN, Node.val_setN,
        Node.val_setKey, Node.val_setVal, Node.n_setKey, Node.n_setVal, elk, elv,
        Node.leaf_setVal, Node.leaf_setKey, Node.leaf_setN, hleaf, Bool.not_true,
        Bool.false_eq_true, if_false, ite_false, w3, w4, Node.c_setC, Node.key_setC,
        Node.val_setC, Node.n_setC, epk, epv, Node.leaf_setC, hpl, Bool.not_false, if_true,
        ite_true, Node.c_setKey, Node.c_setVal, Node.c_setN, elc, epc]
    · refine ⟨?_, ?_, ?_, ?_, ?_⟩ <;> simp <;> omega
    · simp
    · simpa using hpl
    · unfold Node.kvs
      simp only [Node.key_setN, Node.val_setN, Node.n_setN, Node.key_setVal, Node.key_setKey,
        Node.val_setVal, Node.key_setC, Node.val_setC, Node.val_setKey]
      rw [vpk, vpv, zip_eraseIdx]
    · unfold Node.kids
      simp only [Node.c_setN, Node.n_setN, Node.c_setC]
      have : p.n - 1 + 1 = p.n := by omega
      rw [this, vpc]
    · refine ⟨?_, ?_, ?_, ?_, ?_⟩ <;> simp <;> omega
    · simp
    · simpa using hleaf
    · unfold Node.kvs
      simp only [Node.key_setN, Node.val_setN, Node.n_setN, Node.key_setVal, Node.key_setKey,
        Node.val_setVal, Node.val_setKey, Node.key_setC, Node.val_setC]
      rw [hvk, hvv]
      exact hzip
    · intro _
      unfold Node.kids
      simp only [Node.c_setN, Node.n_setN, Node.c_setC, Node.c_setVal, Node.c_setKey]
      rw [hvc]

end BTree

namespace BTree

theorem zip_set {α β : Type} : ∀ (A : List α) (B : List β) (i : Nat) (a : α) (b : β),
    (A.set i a).zip (B.set i b) = (A.zip B).set i (a, b) := by
  intro A
  induction A with
  | nil => intro B i a b; simp
  | cons x A ih =>
    intro B i a b
    cases B with
    | nil => simp
    | cons y B =>
      cases i with
      | zero => simp
      | succ i => simp [ih]

theorem view_succ {α : Type} {a : List α} {n : Int} {v : α} (h0 : 0 ≤ n)
    (h : rd a n = .ok v) : view a (n + 1) = view a n ++ [v] := by
  obtain ⟨_, hv⟩ := rd_ok_iff.mp h
  unfold view
  have e : (n + 1).toNat = n.toNat + 1 := by omega
  rw [e, List.take_succ, hv]
  rfl

theorem view_cons {α : Type} {a : List α} {n : Int} {v : α} (h0 : 0 < n)
    (h : rd a 0 = .ok v) : view a n = v :: (view a n).eraseIdx 0 := by
  obtain ⟨_, hv⟩ := rd_ok_iff.mp h
  unfold view
  cases a with
  | nil => simp at hv
  | cons x a =>
    simp at hv
    subst hv
    obtain ⟨m, hm⟩ : ∃ m, n.toNat = m + 1 := ⟨n.toNat - 1, by omega⟩
    rw [hm]
    simp

/-- Running `_borrow_from_prev`: child `c` in slot `i` takes the separator, the separator takes
the last pair of the left sibling `l`. -/
theorem borrow_from_prev_run (t : Int) (p c l : Node) (i : Int) (hp : Shape t p)
    (h0 : 0 < i) (hi : i ≤ p.n) (hc : rd p.c i = .ok (some c))
    (hl : rd p.c (i - 1) = .ok (some l)) (hcS : Shape t c) (hlS : Shape t l)
    (hcn : c.n < 2 * t - 1) (hln : 1 ≤ l.n) (hleaf : l.leaf = c.leaf) :
    ∃ p' c' l' m ml, _borrow_from_prev p i = .ok p' ∧
      p'.c = (p.c.set i.toNat (some c')).set (i - 1).toNat (some l') ∧
      Shape t p' ∧ p'.n = p.n ∧ p'.leaf = p.leaf ∧
      p.kvs[(i - 1).toNat]? = some m ∧ p'.kvs = p.kvs.set (i - 1).toNat ml ∧
      Shape t c' ∧ Shape t l' ∧ c'.n = c.n + 1 ∧ l'.n = l.n - 1 ∧ c'.leaf = c.leaf ∧
      l'.leaf = l.leaf ∧ c'.kvs = m :: c.kvs ∧ l.kvs = l'.kvs ++ [ml] ∧
      (c.leaf = false → ∃ o, l.kids = l'.kids ++ [o] ∧ c'.kids = o :: c.kids) := by
  have hp0 := hp
  have hl0 := hlS
  obtain ⟨hpk, hpv, hpc, hpn0, hpn1⟩ := hp
  obtain ⟨hlk, hlv, hlc, hln0, hln1⟩ := hlS
  obtain ⟨hck, hcv, hcc, hcn0, hcn1⟩ := hcS
  obtain ⟨ck, eck, lck, vck⟩ := shiftUp_spec c.key (c.n - 1) 0 c.n (by omega) (le_refl _) hcn0
    (by omega)
  obtain ⟨cv, ecv, lcv, vcv⟩ := shiftUp_spec c.val (c.n - 1) 0 c.n (by omega) (le_refl _) hcn0
    (by omega)
  obtain ⟨cc, ecc, lcc, vcc⟩ := shiftUp_spec c.c c.n 0 (c.n + 1) rfl (le_refl _) (by omega)
    (by omega)
  obtain ⟨mk, emk⟩ := rd_total p.key (i - 1) (by omega) (by omega)
  obtain ⟨mv, emv⟩ := rd_total p.val (i - 1) (by omega) (by omega)
  obtain ⟨lmk, elmk⟩ := rd_total l.key (l.n - 1) (by omega) (by omega)
  obtain ⟨lmv, elmv⟩ := rd_total l.val (l.n - 1) (by omega) (by omega)
  obtain ⟨lo, elo⟩ := rd_total l.c l.n (by omega) (by omega)
  have w1 := wr_ok (a := ck) mk (le_refl (0 : Int)) (by omega)
  have w2 := wr_ok (a := cv) mv (le_refl (0 : Int)) (by omega)
  have w3 := wr_ok (a := cc) lo (le_refl (0 : Int)) (by omega)
  have w4 := wr_ok (a := p.key) lmk (i := i - 1) (by omega) (by omega)
  have w5 := wr_ok (a := p.val) lmv (i := i - 1) (by omega) (by omega)
  have w6 : ∀ v, wr p.c i v = .ok (p.c.set i.toNat v) := fun v => wr_ok v (by omega) (by omega)
  have w7 : ∀ v w, wr (p.c.set i.toNat v) (i - 1) w
      = .ok ((p.c.set i.toNat v).set (i - 1).toNat w) :=
    fun v w => wr_ok w (by omega) (by simp; omega)
  have hm := kvs_at hp0 (i := i - 1) (by omega) emk emv
  have hpkvs : (view (p.key.set (i - 1).toNat lmk) p.n).zip (view (p.val.set (i - 1).toNat lmv) p.n)
      = p.kvs.set (i - 1).toNat (lmk, lmv) := by
    rw [view_set_inside, view_set_inside, zip_set]; rfl
  have hckvs : (view (ck.set (0 : Int).toNat mk) (c.n + 1)).zip
      (view (cv.set (0 : Int).toNat mv) (c.n + 1)) = (mk, mv) :: c.kvs := by
    rw [vck, vcv]; rfl
  have hlkvs : l.kvs = (view l.key (l.n - 1)).zip (view l.val (l.n - 1)) ++ [(lmk, lmv)] := by
    unfold Node.kvs
    have e1 := view_succ (a := l.key) (n := l.n - 1) (by omega) elmk
    have e2 := view_succ (a := l.val) (n := l.n - 1) (by omega) elmv
    have : l.n - 1 + 1 = l.n := by omega
    rw [this] at e1 e2
    rw [e1, e2, List.zip_append]
    · rfl
    · rw [view_length _ _ (by omega) (by omega), view_length _ _ (by omega) (by omega)]
  have hlkids : l.kids = view l.c l.n ++ [lo] := view_succ hln0 elo
  cases hcl : c.leaf with
  | true =>
    simp only [_borrow_from_prev, hc, hl, deref, Except.ok_bind, Except.pure_eq_ok, eck, ecv,
      Node.val_setKey, Node.n_setKey, Node.n_setVal, Node.leaf_setKey, Node.leaf_setVal, hcl,
      Bool.not_true, Bool.false_eq_true, if_false, ite_false, Node.key_setVal, Node.key_setKey,
      emk, emv, w1, w2, Node.val_setVal, elmk, elmv, w4, w5, Node.c_setKey, Node.c_setVal,
      w6, w7, Node.c_setC, Node.n_setC, Node.leaf_setC, Node.c_setN]
    refine ⟨_, (((((c.setKey ck).setVal cv).setKey (ck.set (0 : Int).toNat mk)).setVal (cv.set (0 : Int).toNat mv)).setN (c.n + 1)),
      l.setN (l.n - 1), (mk, mv), (lmk, lmv), rfl, by simp, ?_, by simp, by simp, hm, ?_, ?_, ?_,
      by simp, by simp, by simpa using hcl, by simp, ?_, ?_, ?_⟩
    · refine ⟨?_, ?_, ?_, ?_, ?_⟩ <;> simp <;> omega
    · unfold Node.kvs
      simpa using hpkvs
    · refine ⟨?_, ?_, ?_, ?_, ?_⟩ <;> simp <;> omega
    · refine ⟨?_, ?_, ?_, ?_, ?_⟩ <;> simp <;> omega
    · unfold Node.kvs
      simpa using hckvs
    · rw [hlkvs]; unfold Node.kvs; simp
    · intro h; cases h
  | false =>
    simp only [_borrow_from_prev, hc, hl, deref, Except.ok_bind, Except.pure_eq_ok, eck, ecv,
      Node.val_setKey, Node.n_setKey, Node.n_setVal, Node.leaf_setKey, Node.leaf_setVal, hcl,
      Bool.not_false, if_true, ite_true, Node.key_setVal, Node.key_setKey, Node.key_setC,
      Node.val_setC, emk, emv, w1, w2, Node.val_setVal, elmk, elmv, w4, w5, Node.c_setKey,
      Node.c_setVal, ecc, elo, w3, w6, w7, Node.c_setC, Node.n_setC, Node.leaf_setC,
      Node.c_setN]
    refine ⟨_, (((((((c.setKey ck).setVal cv).setC cc).setKey (ck.set (0 : Int).toNat mk)).setVal (cv.set (0 : Int).toNat mv)).setC (cc.set (0 : Int).toNat lo)).setN (c.n + 1)),
      l.setN (l.n - 1), (mk, mv), (lmk, lmv), rfl, by simp, ?_, by simp, by simp, hm, ?_, ?_, ?_,
      by simp, by simp, by simpa using hcl, by simp, ?_, ?_, ?_⟩
    · refine ⟨?_, ?_, ?_, ?_, ?_⟩ <;> simp <;> omega
    · unfold Node.kvs
      simpa using hpkvs
    · refine ⟨?_, ?_, ?_, ?_, ?_⟩ <;> simp <;> omega
    · refine ⟨?_, ?_, ?_, ?_, ?_⟩ <;> simp <;> omega
    · unfold Node.kvs
      simpa using hckvs
    · rw [hlkvs]; unfold Node.kvs; simp
    · intro _
      refine ⟨lo, ?_, ?_⟩
      · rw [hlkids]; unfold Node.kids; simp
      · unfold Node.kids
        simp only [Node.c_setN, Node.n_setN, Node.c_setC, Node.n_setC, Node.n_setVal,
          Node.n_setKey]
        have := vcc lo
        simpa using this

end BTree

namespace BTree

/-- Running `_borrow_from_next`: child `c` in slot `i` takes the separator, the separator takes
the first pair of the right sibling `r`. -/
theorem borrow_from_next_run (t : Int) (x c r : Node) (i : Int) (hx : Shape t x)
    (h0 : 0 ≤ i) (hi : i < x.n) (hc : rd x.c i = .ok (some c))
    (hr : rd x.c (i + 1) = .ok (some r)) (hcS : Shape t c) (hrS : Shape t r)
    (hcn : c.n < 2 * t - 1) (hrn : 1 ≤ r.n) (hleaf : r.leaf = c.leaf) :
    ∃ x' c' r' m mr, _borrow_from_next x i = .ok x' ∧
      x'.c = (x.c.set i.toNat (some c')).set (i + 1).toNat (some r') ∧
      Shape t x' ∧ x'.n = x.n ∧ x'.leaf = x.leaf ∧
      x.kvs[i.toNat]? = some m ∧ x'.kvs = x.kvs.set i.toNat mr ∧
      Shape t c' ∧ Shape t r' ∧ c'.n = c.n + 1 ∧ r'.n = r.n - 1 ∧ c'.leaf = c.leaf ∧
      r'.leaf = r.leaf ∧ c'.kvs = c.kvs ++ [m] ∧ r.kvs = mr :: r'.kvs ∧
      (c.leaf = false → ∃ o, r.kids = o :: r'.kids ∧ c'.kids = c.kids ++ [o]) := by
  have hx0 := hx
  obtain ⟨hxk, hxv, hxc, hxn0, hxn1⟩ := hx
  obtain ⟨hrk, hrv, hrc, hrn0, hrn1⟩ := hrS
  obtain ⟨hck, hcv, hcc, hcn0, hcn1⟩ := hcS
  obtain ⟨mk, emk⟩ := rd_total x.key i h0 (by omega)
  obtain ⟨mv, emv⟩ := rd_total x.val i h0 (by omega)
  obtain ⟨rmk, ermk⟩ := rd_total r.key 0 (le_refl _) (by omega)
  obtain ⟨rmv, ermv⟩ := rd_total r.val 0 (le_refl _) (by omega)
  obtain ⟨ro, ero⟩ := rd_total r.c 0 (le_refl _) (by omega)
  have w1 := wr_ok (a := c.val) mv hcn0 (by omega)
  have w2 := wr_ok (a := c.key) mk hcn0 (by omega)
  have w3 := wr_ok (a := x.val) rmv h0 (by omega)
  have w4 := wr_ok (a := x.key) rmk h0 (by omega)
  have w5 := wr_ok (a := c.c) ro (i := c.n + 1) (by omega) (by omega)
  obtain ⟨rk, erk, lrk, vrk⟩ := shiftDown_spec r.key 0 (r.n - 1) r.n (by omega) (le_refl _)
    (by omega) (by omega)
  obtain ⟨rv, erv, lrv, vrv⟩ := shiftDown_spec r.val 0 (r.n - 1) r.n (by omega) (le_refl _)
    (by omega) (by omega)
  obtain ⟨rc, erc, lrc, vrc⟩ := shiftDown_spec r.c 0 r.n (r.n + 1) rfl (le_refl _)
    (by omega) (by omega)
  have w6 : ∀ v, wr x.c i v = .ok (x.c.set i.toNat v) := fun v => wr_ok v (by omega) (by omega)
  have w7 : ∀ v w, wr (x.c.set i.toNat v) (i + 1) w
      = .ok ((x.c.set i.toNat v).set (i + 1).toNat w) :=
    fun v w => wr_ok w (by omega) (by simp; omega)
  have hm := kvs_at hx0 hi emk emv
  have hxkvs : (view (x.key.set i.toNat rmk) x.n).zip (view (x.val.set i.toNat rmv) x.n)
      = x.kvs.set i.toNat (rmk, rmv) := by
    rw [view_set_inside, view_set_inside, zip_set]; rfl
  have hckvs : (view (c.key.set c.n.toNat mk) (c.n + 1)).zip
      (view (c.val.set c.n.toNat mv) (c.n + 1)) = c.kvs ++ [(mk, mv)] := by
    rw [view_set_snoc _ _ _ hcn0 (by omega), view_set_snoc _ _ _ hcn0 (by omega),
      List.zip_append]
    · rfl
    · rw [view_length _ _ hcn0 (by omega), view_length _ _ hcn0 (by omega)]
  have hrkvs : r.kvs = (rmk, rmv) :: (view rk (r.n - 1)).zip (view rv (r.n - 1)) := by
    unfold Node.kvs
    rw [vrk, vrv]
    conv => lhs; rw [view_cons (a := r.key) (by omega) ermk, view_cons (a := r.val) (by omega) ermv]
    rfl
  have hrkids : r.kids = ro :: view rc r.n := by
    unfold Node.kids
    rw [vrc]
    exact view_cons (by omega) ero
  have hckids : view (c.c.set (c.n + 1).toNat ro) (c.n + 1 + 1) = c.kids ++ [ro] :=
    view_set_snoc _ _ _ (by omega) (by omega)
  cases hcl : c.leaf with
  | true =>
    have hrl : r.leaf = true := by rw [hleaf, hcl]
    simp only [_borrow_from_next, hc, hr, deref, Except.ok_bind, Except.pure_eq_ok, emv, emk,
      w1, w2, w3, w4, Node.key_setVal, Node.n_setVal, Node.n_setKey, Node.val_setVal,
      Node.leaf_setKey, Node.leaf_setVal, hcl, hrl, Bool.not_true, Bool.false_eq_true, if_false,
      ite_false, ermk, ermv, erk, erv, Node.val_setKey, Node.key_setKey, Node.c_setKey,
      Node.c_setVal, w6, w7, Node.c_setC, Node.n_setC, Node.leaf_setC, Node.c_setN,
      Node.n_setN]
    refine ⟨_, ((c.setVal (c.val.set c.n.toNat mv)).setKey (c.key.set c.n.toNat mk)).setN
      (c.n + 1), ((r.setKey rk).setVal rv).setN (r.n - 1), (mk, mv), (rmk, rmv), rfl, by simp,
      ?_, by simp, by simp, hm, ?_, ?_, ?_, by simp, by simp, by simpa using hcl,
      by simpa using hrl, ?_, ?_, ?_⟩
    · refine ⟨?_, ?_, ?_, ?_, ?_⟩ <;> simp <;> omega
    · unfold Node.kvs
      simpa using hxkvs
    · refine ⟨?_, ?_, ?_, ?_, ?_⟩ <;> simp <;> omega
    · refine ⟨?_, ?_, ?_, ?_, ?_⟩ <;> simp <;> omega
    · unfold Node.kvs
      simpa using hckvs
    · rw [hrkvs]; unfold Node.kvs; simp
    · intro h; cases h
  | false =>
    have hrl : r.leaf = false := by rw [hleaf, hcl]
    simp only [_borrow_from_next, hc, hr, deref, Except.ok_bind, Except.pure_eq_ok, emv, emk,
      w1, w2, w3, w4, w5, Node.key_setVal, Node.n_setVal, Node.n_setKey, Node.val_setVal,
      Node.leaf_setKey, Node.leaf_setVal, hcl, hrl, Bool.not_false, if_true, ite_true, ero,
      ermk, ermv, erk, erv, erc, Node.val_setKey, Node.key_setKey, Node.c_setKey,
      Node.c_setVal, w6, w7, Node.c_setC, Node.n_setC, Node.leaf_setC, Node.c_setN,
      Node.n_setN]
    refine ⟨_, (((c.setVal (c.val.set c.n.toNat mv)).setKey (c.key.set c.n.toNat mk)).setC
      (c.c.set (c.n + 1).toNat ro)).setN (c.n + 1), (((r.setKey rk).setVal rv).setC rc).setN
      (r.n - 1), (mk, mv), (rmk, rmv), rfl, by simp, ?_, by simp, by simp, hm, ?_, ?_, ?_,
      by simp, by simp, by simpa using hcl, by simpa using hrl, ?_, ?_, ?_⟩
    · refine ⟨?_, ?_, ?_, ?_, ?_⟩ <;> simp <;> omega
    · unfold Node.kvs
      simpa using hxkvs
    · refine ⟨?_, ?_, ?_, ?_, ?_⟩ <;> simp <;> omega
    · refine ⟨?_, ?_, ?_, ?_, ?_⟩ <;> simp <;> omega
    · unfold Node.kvs
      simpa using hckvs
    · rw [hrkvs]; unfold Node.kvs; simp
    · intro _
      refine ⟨ro, ?_, ?_⟩
      · rw [hrkids]; unfold Node.kids; simp
      · unfold Node.kids
        simp only [Node.c_setN, Node.n_setN, Node.c_setC, Node.n_setC, Node.n_setVal,
          Node.n_setKey]
        exact hckids

end BTree

namespace BTree

theorem WF.leaf_eq {t : Int} {h : Nat} {x y : Node} (hx : WF t h x) (hy : WF t h y) :
    x.leaf = y.leaf := by
  cases h with
  | zero => rw [hx.2, hy.2]
  | succ h => rw [hx.2.1, hy.2.1]

/-- The child in an explicit position of the child list of a well-formed node. -/
theorem WF.kid_at {t : Int} {h : Nat} {x c : Node} {S1 S2 : List (Option Node)}
    (hx : WF t (h + 1) x) (hk : x.kids = S1 ++ some c :: S2) :
    rd x.c (S1.length : Int) = .ok (some c) ∧ WF t h c ∧ t - 1 ≤ c.n ∧
      (S1.length : Int) ≤ x.n := by
  have hl := hx.shape.kids_length
  have hlen : S1.length + 1 + S2.length = x.n.toNat + 1 := by
    rw [← hl, hk]; simp; omega
  have hn0 := hx.shape.2.2.2.1
  have hi : (S1.length : Int) ≤ x.n := by omega
  obtain ⟨ch, hrd, hkid, hw, hn⟩ := hx.kid (S1.length : Int) (by omega) hi
  have : x.kids[S1.length]? = some (some c) := by rw [hk]; exact getElem_explicit _ _ _ _ rfl
  simp only [Int.toNat_ofNat] at hkid
  rw [this] at hkid
  simp only [Option.some.injEq] at hkid
  subst hkid
  exact ⟨hrd, hw, hn, hi⟩

theorem merge_child (t : Int) (h : Nat) (l r l' : Node) (m : Int × Int) (hl : WF t h l)
    (hr : WF t h r) (hS : Shape t l') (hleaf : l'.leaf = l.leaf)
    (hk : l'.kvs = l.kvs ++ m :: r.kvs) (hc : l.leaf = false → l'.kids = l.kids ++ r.kids) :
    WF t h l' ∧ inorder h (some l') = inorder h (some l) ++ m :: inorder h (some r) := by
  cases h with
  | zero =>
    refine ⟨⟨hS, by rw [hleaf, hl.2]⟩, ?_⟩
    simp only [inorder]; exact hk
  | succ h =>
    have hkids := hc hl.2.1
    refine ⟨⟨hS, by rw [hleaf, hl.2.1], ?_⟩, ?_⟩
    · intro o ho
      rw [hkids] at ho
      rcases List.mem_append.mp ho with ho | ho
      · exact hl.2.2 o ho
      · exact hr.2.2 o ho
    · show inter (l'.kids.map (inorder h)) l'.kvs = inter (l.kids.map (inorder h)) l.kvs ++
        m :: inter (r.kids.map (inorder h)) r.kvs
      rw [hkids, hk, List.map_append, inter_join]
      rw [List.length_map, hl.1.kids_length, hl.1.kvs_length]

theorem borrow_prev_child (t : Int) (h : Nat) (c l c' l' : Node) (m ml : Int × Int)
    (hc : WF t h c) (hl : WF t h l) (hcS : Shape t c') (hlS : Shape t l')
    (hcl : c'.leaf = c.leaf) (hll : l'.leaf = l.leaf) (hck : c'.kvs = m :: c.kvs)
    (hlk : l.kvs = l'.kvs ++ [ml])
    (hk : c.leaf = false → ∃ o, l.kids = l'.kids ++ [o] ∧ c'.kids = o :: c.kids) :
    WF t h c' ∧ WF t h l' ∧ ∃ oi, inorder h (some l) = inorder h (some l') ++ ml :: oi ∧
      inorder h (some c') = oi ++ m :: inorder h (some c) := by
  cases h with
  | zero =>
    refine ⟨⟨hcS, by rw [hcl, hc.2]⟩, ⟨hlS, by rw [hll, hl.2]⟩, [], ?_, ?_⟩
    · simp only [inorder]; exact hlk
    · simp only [inorder]; exact hck
  | succ h =>
    obtain ⟨o, hlkids, hckids⟩ := hk hc.2.1
    refine ⟨⟨hcS, by rw [hcl, hc.2.1], ?_⟩, ⟨hlS, by rw [hll, hl.2.1], ?_⟩, inorder h o, ?_, ?_⟩
    · intro o' ho
      rw [hckids] at ho
      rcases List.mem_cons.mp ho with ho | ho
      · exact hl.2.2 o' (by rw [hlkids, ho]; simp)
      · exact hc.2.2 o' ho
    · intro o' ho
      exact hl.2.2 o' (by rw [hlkids]; exact List.mem_append_left _ ho)
    · show inter (l.kids.map (inorder h)) l.kvs = inter (l'.kids.map (inorder h)) l'.kvs ++
        ml :: inorder h o
      rw [hlkids, hlk, List.map_append, inter_join _ _ _ _ _
        (by rw [List.length_map, hlS.kids_length, hlS.kvs_length])]
      simp [inter_single]
    · show inter (c'.kids.map (inorder h)) c'.kvs = inorder h o ++
        m :: inter (c.kids.map (inorder h)) c.kvs
      rw [hckids, hck, List.map_cons]
      have := inter_join [inorder h o] (c.kids.map (inorder h)) [] c.kvs m rfl
      simpa [inter_single] using this

theorem borrow_next_child (t : Int) (h : Nat) (c r c' r' : Node) (m mr : Int × Int)
    (hc : WF t h c) (hr : WF t h r) (hcS : Shape t c') (hrS : Shape t r')
    (hcl : c'.leaf = c.leaf) (hrl : r'.leaf = r.leaf) (hck : c'.kvs = c.kvs ++ [m])
    (hrk : r.kvs = mr :: r'.kvs)
    (hk : c.leaf = false → ∃ o, r.kids = o :: r'.kids ∧ c'.kids = c.kids ++ [o]) :
    WF t h c' ∧ WF t h r' ∧ ∃ oi, inorder h (some r) = oi ++ mr :: inorder h (some r') ∧
      inorder h (some c') = inorder h (some c) ++ m :: oi := by
  cases h with
  | zero =>
    refine ⟨⟨hcS, by rw [hcl, hc.2]⟩, ⟨hrS, by rw [hrl, hr.2]⟩, [], ?_, ?_⟩
    · simp only [inorder]; exact hrk
    · simp only [inorder]; exact hck
  | succ h =>
    obtain ⟨o, hrkids, hckids⟩ := hk hc.2.1
    refine ⟨⟨hcS, by rw [hcl, hc.2.1], ?_⟩, ⟨hrS, by rw [hrl, hr.2.1], ?_⟩, inorder h o, ?_, ?_⟩
    · intro o' ho
      rw [hckids] at ho
      rcases List.mem_append.mp ho with ho | ho
      · exact hc.2.2 o' ho
      · simp only [List.mem_singleton] at ho
        exact hr.2.2 o' (by rw [hrkids, ho]; simp)
    · intro o' ho
      exact hr.2.2 o' (by rw [hrkids]; exact List.mem_cons_of_mem _ ho)
    · show inter (r.kids.map (inorder h)) r.kvs = inorder h o ++
        mr :: inter (r'.kids.map (inorder h)) r'.kvs
      rw [hrkids, hrk, List.map_cons]
      have := inter_join [inorder h o] (r'.kids.map (inorder h)) [] r'.kvs mr rfl
      simpa [inter_single] using this
    · show inter (c'.kids.map (inorder h)) c'.kvs = inter (c.kids.map (inorder h)) c.kvs ++
        m :: inorder h o
      rw [hckids, hck, List.map_append, inter_join _ _ _ _ _
        (by rw [List.length_map, hc.1.kids_length, hc.1.kvs_length])]
      simp [inter_single]

end BTree

namespace BTree

theorem view_set_inside_nat {α : Type} (a : List α) (n : Int) (i : Nat) (y : α) :
    view (a.set i y) n = (view a n).set i y := by
  unfold view
  rw [List.set_take]

theorem kvs_len_explicit {t : Int} {x : Node} {K1 K2 : List (Int × Int)} {m : Int × Int}
    (hS : Shape t x) (hk : x.kvs = K1 ++ m :: K2) : (K1.length : Int) < x.n := by
  have := hS.kvs_length
  rw [hk] at this
  simp at this
  have := hS.2.2.2.1
  omega

/-- Source `_merge` on the children `l`, `r` around the separator `m`. -/
theorem merge_spec (t : Int) (h : Nat) (x l r : Node) (S1 S2 : List (Option Node))
    (K1 K2 : List (Int × Int)) (m : Int × Int) (hx : WF t (h + 1) x)
    (hkids : x.kids = S1 ++ some l :: some r :: S2) (hkvs : x.kvs = K1 ++ m :: K2)
    (hlen : S1.length = K1.length) (hsum : l.n + r.n + 1 ≤ 2 * t - 1) :
    ∃ x' l', _merge x (K1.length : Int) = .ok x' ∧ WF t (h + 1) x' ∧ x'.n = x.n - 1 ∧
      x'.kids = S1 ++ some l' :: S2 ∧ x'.kvs = K1 ++ K2 ∧ WF t h l' ∧ l'.n = l.n + 1 + r.n ∧
      inorder h (some l') = inorder h (some l) ++ m :: inorder h (some r) := by
  have hS := hx.shape
  have hi := kvs_len_explicit hS hkvs
  obtain ⟨hrl, hlw, hln, _⟩ := hx.kid_at hkids
  have hkids2 : x.kids = (S1 ++ [some l]) ++ some r :: S2 := by rw [hkids]; simp
  obtain ⟨hrr, hrw, hrn, _⟩ := hx.kid_at hkids2
  rw [hlen] at hrl
  have e1 : (((S1 ++ [some l]).length : Nat) : Int) = (K1.length : Int) + 1 := by
    simp [hlen]
  rw [e1] at hrr
  obtain ⟨x', l', m', E, hS', hn', hleaf', hm', hkvs', hkids', hlS', hln', hll', hlk', hlc'⟩ :=
    merge_run t x l r (K1.length : Int) hS hx.2.1 (by omega) hi hrl hrr hlw.shape hrw.shape hsum
  simp only [Int.toNat_ofNat] at hm' hkvs' hkids'
  rw [hkvs, getElem_explicit _ _ _ _ rfl] at hm'
  simp only [Option.some.injEq] at hm'
  subst hm'
  obtain ⟨hlw', hio⟩ := merge_child t h l r l' m hlw hrw hlS' hll' hlk' hlc'
  have hk2 : x'.kids = S1 ++ some l' :: S2 := by
    rw [hkids', hkids, List.take_left' hlen]
    have : S1 ++ some l :: some r :: S2 = (S1 ++ [some l, some r]) ++ S2 := by simp
    rw [this, List.drop_left' (by simp [hlen])]
  refine ⟨x', l', E, ⟨hS', hleaf', ?_⟩, hn', hk2, ?_, hlw', hln', hio⟩
  · intro o ho
    rw [hk2] at ho
    have hmem : ∀ o ∈ S1 ++ S2, o ∈ x.kids := by
      intro o ho; rw [hkids]
      simp only [List.mem_append, List.mem_cons] at ho ⊢
      tauto
    simp only [List.mem_append, List.mem_cons] at ho
    rcases ho with ho | ho | ho
    · exact hx.2.2 o (hmem o (List.mem_append_left _ ho))
    · exact ⟨l', ho, hlw', by have := hrw.shape.2.2.2.1; omega⟩
    · exact hx.2.2 o (hmem o (List.mem_append_right _ ho))
  · rw [hkvs', hkvs, eraseIdx_explicit _ _ _ _ rfl]

/-- Source `_borrow_from_prev` for the child `c` with left sibling `l` and separator `m`. -/
theorem borrow_prev_spec (t : Int) (h : Nat) (x l c : Node) (S1 S2 : List (Option Node))
    (K1 K2 : List (Int × Int)) (m : Int × Int) (hx : WF t (h + 1) x)
    (hkids : x.kids = S1 ++ some l :: some c :: S2) (hkvs : x.kvs = K1 ++ m :: K2)
    (hlen : S1.length = K1.length) (hcn : c.n < 2 * t - 1) (hln : t ≤ l.n) (ht : 1 ≤ t) :
    ∃ x' l' c' ml oi, _borrow_from_prev x ((K1.length : Int) + 1) = .ok x' ∧
      WF t (h + 1) x' ∧ x'.n = x.n ∧
      x'.kids = S1 ++ some l' :: some c' :: S2 ∧ x'.kvs = K1 ++ ml :: K2 ∧ WF t h c' ∧
      c'.n = c.n + 1 ∧ inorder h (some l) = inorder h (some l') ++ ml :: oi ∧
      inorder h (some c') = oi ++ m :: inorder h (some c) := by
  have hS := hx.shape
  have hi := kvs_len_explicit hS hkvs
  obtain ⟨hrl, hlw, _, _⟩ := hx.kid_at hkids
  have hkids2 : x.kids = (S1 ++ [some l]) ++ some c :: S2 := by rw [hkids]; simp
  obtain ⟨hrc, hcw, hcn1, _⟩ := hx.kid_at hkids2
  rw [hlen] at hrl
  have e1 : (((S1 ++ [some l]).length : Nat) : Int) = (K1.length : Int) + 1 := by
    simp [hlen]
  rw [e1] at hrc
  have e2 : (K1.length : Int) + 1 - 1 = (K1.length : Int) := by omega
  obtain ⟨x', c', l', m', ml, E, hc', hS', hn', hleaf', hm', hkvs', hcS', hlS', hcn', hln',
      hcl', hll', hck', hlk', hkk'⟩ :=
    borrow_from_prev_run t x c l ((K1.length : Int) + 1) hS (by omega) (by omega) hrc
      (by rw [e2]; exact hrl) hcw.shape hlw.shape hcn (by omega) (hlw.leaf_eq hcw)
  have e3 : ((K1.length : Int) + 1).toNat = K1.length + 1 := by omega
  rw [e2] at hc' hm' hkvs'
  simp only [Int.toNat_ofNat, e3] at hm' hkvs' hc'
  rw [hkvs, getElem_explicit _ _ _ _ rfl] at hm'
  simp only [Option.some.injEq] at hm'
  subst hm'
  obtain ⟨hcw', hlw', oi, hio1, hio2⟩ :=
    borrow_prev_child t h c l c' l' m ml hcw hlw hcS' hlS' hcl' hll' hck' hlk' hkk'
  have hk2 : x'.kids = S1 ++ some l' :: some c' :: S2 := by
    unfold Node.kids
    rw [hn', hc', view_set_inside_nat, view_set_inside_nat]
    show (x.kids.set (K1.length + 1) (some c')).set K1.length (some l') = _
    rw [hkids, ← hlen]
    have : S1 ++ some l :: some c :: S2 = (S1 ++ [some l]) ++ some c :: S2 := by simp
    rw [this, set_explicit _ _ _ _ _ (by simp)]
    simp
  refine ⟨x', l', c', ml, oi, E, ⟨hS', by rw [hleaf']; exact hx.2.1, ?_⟩, hn', hk2, ?_, hcw',
    hcn', hio1, hio2⟩
  · intro o ho
    rw [hk2] at ho
    have hmem : ∀ o ∈ S1 ++ S2, o ∈ x.kids := by
      intro o ho; rw [hkids]
      simp only [List.mem_append, List.mem_cons] at ho ⊢
      tauto
    simp only [List.mem_append, List.mem_cons] at ho
    rcases ho with ho | ho | ho | ho
    · exact hx.2.2 o (hmem o (List.mem_append_left _ ho))
    · exact ⟨l', ho, hlw', by omega⟩
    · exact ⟨c', ho, hcw', by omega⟩
    · exact hx.2.2 o (hmem o (List.mem_append_right _ ho))
  · rw [hkvs', hkvs, set_explicit _ _ _ _ _ rfl]

/-- Source `_borrow_from_next` for the child `c` with right sibling `r` and separator `m`. -/
theorem borrow_next_spec (t : Int) (h : Nat) (x c r : Node) (S1 S2 : List (Option Node))
    (K1 K2 : List (Int × Int)) (m : Int × Int) (hx : WF t (h + 1) x)
    (hkids : x.kids = S1 ++ some c :: some r :: S2) (hkvs : x.kvs = K1 ++ m :: K2)
    (hlen : S1.length = K1.length) (hcn : c.n < 2 * t - 1) (hrn : t ≤ r.n) (ht : 1 ≤ t) :
    ∃ x' c' r' mr oi, _borrow_from_next x (K1.length : Int) = .ok x' ∧
      WF t (h + 1) x' ∧ x'.n = x.n ∧
      x'.kids = S1 ++ some c' :: some r' :: S2 ∧ x'.kvs = K1 ++ mr :: K2 ∧ WF t h c' ∧
      c'.n = c.n + 1 ∧ inorder h (some r) = oi ++ mr :: inorder h (some r') ∧
      inorder h (some c') = inorder h (some c) ++ m :: oi := by
  have hS := hx.shape
  have hi := kvs_len_explicit hS hkvs
  obtain ⟨hrc, hcw, hcn1, _⟩ := hx.kid_at hkids
  have hkids2 : x.kids = (S1 ++ [some c]) ++ some r :: S2 := by rw [hkids]; simp
  obtain ⟨hrr, hrw, _, _⟩ := hx.kid_at hkids2
  rw [hlen] at hrc
  have e1 : (((S1 ++ [some c]).length : Nat) : Int) = (K1.length : Int) + 1 := by
    simp [hlen]
  rw [e1] at hrr
  obtain ⟨x', c', r', m', mr, E, hc', hS', hn', hleaf', hm', hkvs', hcS', hrS', hcn', hrn',
      hcl', hrl', hck', hrk', hkk'⟩ :=
    borrow_from_next_run t x c r (K1.length : Int) hS (by omega) hi hrc hrr hcw.shape hrw.shape
      hcn (by omega) (hrw.leaf_eq hcw)
  have e3 : ((K1.length : Int) + 1).toNat = K1.length + 1 := by omega
  simp only [Int.toNat_ofNat, e3] at hm' hkvs' hc'
  rw [hkvs, getElem_explicit _ _ _ _ rfl] at hm'
  simp only [Option.some.injEq] at hm'
  subst hm'
  obtain ⟨hcw', hrw', oi, hio1, hio2⟩ :=
    borrow_next_child t h c r c' r' m mr hcw hrw hcS' hrS' hcl' hrl' hck' hrk' hkk'
  have hk2 : x'.kids = S1 ++ some c' :: some r' :: S2 := by
    unfold Node.kids
    rw [hn', hc', view_set_inside_nat, view_set_inside_nat]
    show (x.kids.set K1.length (some c')).set (K1.length + 1) (some r') = _
    rw [hkids, ← hlen, set_explicit _ _ _ _ _ rfl]
    have : S1 ++ some c' :: some r :: S2 = (S1 ++ [some c']) ++ some r :: S2 := by simp
    rw [this, set_explicit _ _ _ _ _ (by simp)]
    simp
  refine ⟨x', c', r', mr, oi, E, ⟨hS', by rw [hleaf']; exact hx.2.1, ?_⟩, hn', hk2, ?_, hcw',
    hcn', hio1, hio2⟩
  · intro o ho
    rw [hk2] at ho
    have hmem : ∀ o ∈ S1 ++ S2, o ∈ x.kids := by
      intro o ho; rw [hkids]
      simp only [List.mem_append, List.mem_cons] at ho ⊢
      tauto
    simp only [List.mem_append, List.mem_cons] at ho
    rcases ho with ho | ho | ho | ho
    · exact hx.2.2 o (hmem o (List.mem_append_left _ ho))
    · exact ⟨c', ho, hcw', by omega⟩
    · exact ⟨r', ho, hrw', by omega⟩
    · exact hx.2.2 o (hmem o (List.mem_append_right _ ho))
  · rw [hkvs', hkvs, set_explicit _ _ _ _ _ rfl]

end BTree

namespace BTree

theorem snoc_of_length {α : Type} (L : List α) (h : 0 < L.length) :
    ∃ A a, L = A ++ [a] := by
  rcases List.eq_nil_or_concat L with rfl | ⟨A, a, rfl⟩
  · simp at h
  · exact ⟨A, a, by simp⟩

theorem cons_of_length {α : Type} (L : List α) (h : 0 < L.length) :
    ∃ a A, L = a :: A := by
  cases L with
  | nil => simp at h
  | cons a A => exact ⟨a, A, rfl⟩

/-- The part of `_fill` after the test of the left sibling: borrow from the right sibling or
merge with it. -/
theorem fill_next_part (t : Int) (ht : 1 ≤ t) (h : Nat) (x c : Node)
    (S1 S2 : List (Option Node)) (K1 K2 : List (Int × Int)) (hx : WF t (h + 1) x)
    (hkids : x.kids = S1 ++ some c :: S2) (hkvs : x.kvs = K1 ++ K2)
    (hlen : S1.length = K1.length) (hcn : c.n = t - 1) (hi : (K1.length : Int) < x.n) :
    ∃ r, rd x.c ((K1.length : Int) + 1) = .ok (some r) ∧
    ∃ x' c' S2' K2' B,
      (if r.n > t - 1 then _borrow_from_next x (K1.length : Int)
        else _merge x (K1.length : Int)) = .ok x' ∧
      WF t (h + 1) x' ∧ x'.kids = S1 ++ some c' :: S2' ∧ x'.kvs = K1 ++ K2' ∧
      t ≤ c'.n ∧ WF t h c' ∧
      rest (S2.map (inorder h)) K2 = B ++ rest (S2'.map (inorder h)) K2' ∧
      inorder h (some c') = inorder h (some c) ++ B ∧
      (x'.n = x.n ∨ x'.n = x.n - 1) := by
  have hS := hx.shape
  have hkl := hS.kids_length
  have hvl := hS.kvs_length
  rw [hkids] at hkl
  rw [hkvs] at hvl
  simp only [List.length_append, List.length_cons] at hkl hvl
  obtain ⟨m, K2b, rfl⟩ := cons_of_length K2 (by omega)
  obtain ⟨o, S2b, rfl⟩ := cons_of_length S2 (by simp only [List.length_cons] at hvl; omega)
  have hkids2 : x.kids = (S1 ++ [some c]) ++ o :: S2b := by rw [hkids]; simp
  obtain ⟨r, rfl, hrw, hrn⟩ := hx.2.2 o (by rw [hkids]; simp)
  obtain ⟨hrr, _, _, _⟩ := hx.kid_at hkids2
  have e1 : (((S1 ++ [some c]).length : Nat) : Int) = (K1.length : Int) + 1 := by
    simp [hlen]
  rw [e1] at hrr
  refine ⟨r, hrr, ?_⟩
  by_cases hr : r.n > t - 1
  · obtain ⟨x', c', r', mr, oi, E, hw', hn', hk', hv', hcw', hcn', hio1, hio2⟩ :=
      borrow_next_spec t h x c r S1 S2b K1 K2b m hx hkids hkvs hlen (by omega) (by omega) ht
    refine ⟨x', c', some r' :: S2b, mr :: K2b, m :: oi, ?_, hw', hk', hv', by omega, hcw', ?_,
      ?_, Or.inl hn'⟩
    · rw [if_pos hr]; exact E
    · simp only [List.map_cons, rest_cons, hio1]
      simp
    · rw [hio2]
  · obtain ⟨x', l', E, hw', hn', hk', hv', hlw', hln', hio⟩ :=
      merge_spec t h x c r S1 S2b K1 K2b m hx hkids hkvs hlen (by omega)
    refine ⟨x', l', S2b, K2b, m :: inorder h (some r), ?_, hw', hk', hv', by omega, hlw', ?_,
      ?_, Or.inr hn'⟩
    · rw [if_neg hr]; exact E
    · simp only [List.map_cons, rest_cons]
      simp
    · rw [hio]

/-- Source `_fill` on a child with exactly `t - 1` keys: afterwards the node reads the same, the
child on the way to the key (in slot `K1'.length`) has at least `t` keys and covers the old
child. -/
theorem fill_spec (t : Int) (ht : 1 ≤ t) (h : Nat) (x c : Node)
    (S1 S2 : List (Option Node)) (K1 K2 : List (Int × Int)) (hx : WF t (h + 1) x)
    (hkids : x.kids = S1 ++ some c :: S2) (hkvs : x.kvs = K1 ++ K2)
    (hlen : S1.length = K1.length) (hcn : c.n = t - 1) (hn : 1 ≤ x.n) :
    ∃ x' c' S1' S2' K1' K2' A B, _fill t x (K1.length : Int) = .ok x' ∧
      WF t (h + 1) x' ∧ x'.kids = S1' ++ some c' :: S2' ∧ x'.kvs = K1' ++ K2' ∧
      S1'.length = K1'.length ∧ t ≤ c'.n ∧ WF t h c' ∧
      pre (S1.map (inorder h)) K1 = pre (S1'.map (inorder h)) K1' ++ A ∧
      rest (S2.map (inorder h)) K2 = B ++ rest (S2'.map (inorder h)) K2' ∧
      inorder h (some c') = A ++ inorder h (some c) ++ B ∧
      (x'.n = x.n ∨ x'.n = x.n - 1) ∧
      (((K1.length : Int) = x.n ∧ (K1.length : Int) > x'.n) → (K1'.length : Int) + 1 = K1.length) ∧
      (¬ ((K1.length : Int) = x.n ∧ (K1.length : Int) > x'.n) → K1'.length = K1.length) := by
  have hS := hx.shape
  have hkl := hS.kids_length
  have hvl := hS.kvs_length
  have hn0 := hS.2.2.2.1
  rw [hkids] at hkl
  rw [hkvs] at hvl
  simp only [List.length_append, List.length_cons] at hkl hvl
  by_cases h0 : 0 < (K1.length : Int)
  · obtain ⟨K1a, m, rfl⟩ := snoc_of_length K1 (by omega)
    obtain ⟨S1a, o, rfl⟩ := snoc_of_length S1 (by omega)
    obtain ⟨l, rfl, hlw, hln⟩ := hx.2.2 o (by rw [hkids]; simp)
    have hlen' : S1a.length = K1a.length := by simpa using hlen
    have hkids' : x.kids = S1a ++ some l :: some c :: S2 := by rw [hkids]; simp
    have hkvs' : x.kvs = K1a ++ m :: K2 := by rw [hkvs]; simp
    obtain ⟨hrl, _, _, _⟩ := hx.kid_at hkids'
    have e1 : ((K1a ++ [m]).length : Int) - 1 = (S1a.length : Int) := by simp [hlen']
    have e2 : ((K1a ++ [m]).length : Int) = (K1a.length : Int) + 1 := by simp
    have hpre : pre ((S1a ++ [some l]).map (inorder h)) (K1a ++ [m])
        = pre (S1a.map (inorder h)) K1a ++ inorder h (some l) ++ [m] := by
      rw [List.map_append, List.map_singleton, pre_snoc _ _ _ _ (by simpa using hlen')]
    by_cases hl : l.n > t - 1
    · obtain ⟨x', l', c', ml, oi, E, hw', hn', hk', hv', hcw', hcn', hio1, hio2⟩ :=
        borrow_prev_spec t h x l c S1a S2 K1a K2 m hx hkids' hkvs' hlen' (by omega) (by omega) ht
      refine ⟨x', c', S1a ++ [some l'], S2, K1a ++ [ml], K2, oi ++ [m], [], ?_, hw', ?_, ?_, ?_,
        by omega, hcw', ?_, by simp, ?_, Or.inl hn', ?_, ?_⟩
      · simp only [_fill, h0, if_true, ite_true, e1, hrl, deref, Except.ok_bind,
          Except.pure_eq_ok, hl, decide_True]
        rw [e2]; exact E
      · rw [hk']; simp
      · rw [hv']; simp
      · simp [hlen']
      · rw [hpre, List.map_append, List.map_singleton, pre_snoc _ _ _ _ (by simpa using hlen'),
          hio1]
        simp
      · rw [hio2]; simp
      · intro hc; omega
      · intro _; simp
    · by_cases h1 : ((K1a ++ [m]).length : Int) < x.n
      · obtain ⟨r, hrr, x', c', S2', K2', B, E, hw', hk', hv', hcn', hcw', hrest, hio, hn'⟩ :=
          fill_next_part t ht h x c (S1a ++ [some l]) S2 (K1a ++ [m]) K2 hx hkids hkvs hlen hcn h1
        refine ⟨x', c', S1a ++ [some l], S2', K1a ++ [m], K2', [], B, ?_, hw', hk', hv', hlen,
          hcn', hcw', by simp, hrest, by simpa using hio, hn', ?_, ?_⟩
        · simp only [_fill, h0, if_true, ite_true, e1, hrl, deref, Except.ok_bind,
            Except.pure_eq_ok, hl, decide_False, Bool.false_eq_true, if_false, ite_false, h1, hrr]
          by_cases hr : r.n > t - 1
          · simp only [hr, decide_True, if_true, ite_true] at E ⊢; exact E
          · simp only [hr, decide_False, if_false, ite_false, Bool.false_eq_true] at E ⊢; exact E
        · intro hc; omega
        · intro _; rfl
      · obtain ⟨x', l', E, hw', hn', hk', hv', hlw', hln', hio⟩ :=
          merge_spec t h x l c S1a S2 K1a K2 m hx hkids' hkvs' hlen' (by omega)
        refine ⟨x', l', S1a, S2, K1a, K2, inorder h (some l) ++ [m], [], ?_, hw', hk', hv',
          hlen', by omega, hlw', by rw [hpre]; simp, by simp, by rw [hio]; simp, Or.inr hn',
          ?_, ?_⟩
        · simp only [_fill, h0, if_true, ite_true, e1, hrl, deref, Except.ok_bind,
            Except.pure_eq_ok, hl, decide_False, Bool.false_eq_true, if_false, ite_false, h1]
          rw [hlen']; exact E
        · intro _; simp
        · intro hc
          exfalso; apply hc
          simp only [List.length_append, List.length_singleton, Nat.cast_add, Nat.cast_one] at h1 hvl ⊢
          omega
  · have h1 : (K1.length : Int) < x.n := by omega
    obtain ⟨r, hrr, x', c', S2', K2', B, E, hw', hk', hv', hcn', hcw', hrest, hio, hn'⟩ :=
      fill_next_part t ht h x c S1 S2 K1 K2 hx hkids hkvs hlen hcn h1
    refine ⟨x', c', S1, S2', K1, K2', [], B, ?_, hw', hk', hv', hlen,
      hcn', hcw', by simp, hrest, by simpa using hio, hn', ?_, ?_⟩
    · simp only [_fill, h0, if_false, ite_false, Except.ok_bind, Except.pure_eq_ok,
        Bool.false_eq_true, h1, if_true, ite_true, hrr, deref]
      by_cases hr : r.n > t - 1
      · simp only [hr, decide_True, if_true, ite_true] at E ⊢; exact E
      · simp only [hr, decide_False, if_false, ite_false, Bool.false_eq_true] at E ⊢; exact E
    · intro hc; omega
    · intro _; rfl

end BTree

namespace BTree

theorem inorder_explicit {t : Int} (h : Nat) {x : Node} {o : Option Node}
    {S1 S2 : List (Option Node)} {K1 K2 : List (Int × Int)} (hk : x.kids = S1 ++ o :: S2)
    (hv : x.kvs = K1 ++ K2) (hlen : S1.length = K1.length) :
    inorder (h + 1) (some x) = pre (S1.map (inorder h)) K1 ++ inorder h o ++
      rest (S2.map (inorder h)) K2 := by
  show inter (x.kids.map (inorder h)) x.kvs = _
  rw [hk, hv, List.map_append, List.map_cons, inter_append _ _ _ _ _ (by simpa using hlen)]

theorem pre_lt {S1 : List (List (Int × Int))} {K1 X : List (Int × Int)} {k : Int}
    (hs : SortedKV (pre S1 K1 ++ X)) (hlen : S1.length = K1.length)
    (hk : ∀ p ∈ K1, p.1 < k) : ∀ p ∈ pre S1 K1, p.1 < k := by
  rcases List.eq_nil_or_concat K1 with rfl | ⟨K1a, m, rfl⟩
  · have : S1 = [] := List.length_eq_zero.mp (by simpa using hlen)
    subst this
    intro p hp; simp [pre] at hp
  · simp only [List.concat_eq_append] at hlen hk hs ⊢
    obtain ⟨S1a, s, rfl⟩ : ∃ A a, S1 = A ++ [a] := by
      rcases List.eq_nil_or_concat S1 with rfl | ⟨A, a, rfl⟩
      · simp at hlen
      · exact ⟨A, a, by simp⟩
    have hl : S1a.length = K1a.length := by simpa using hlen
    rw [pre_snoc _ _ _ _ hl] at hs ⊢
    have hm := hk m (by simp)
    have hs' : SortedKV ((pre S1a K1a ++ s) ++ m :: X) := by simpa using hs
    have := hs'.le_of_append_cons.1
    intro p hp
    rcases List.mem_append.mp hp with hp | hp
    · have := this p hp; omega
    · simp at hp; subst hp; exact hm

theorem rest_gt {S2 : List (List (Int × Int))} {K2 X : List (Int × Int)} {k : Int}
    (hs : SortedKV (X ++ rest S2 K2)) (hk : ∀ p ∈ K2, k < p.1) :
    ∀ p ∈ rest S2 K2, k < p.1 := by
  cases K2 with
  | nil => intro p hp; rw [rest_nil_keys] at hp; simp at hp
  | cons m K =>
    have hm := hk m (by simp)
    rw [rest_cons_any] at hs ⊢
    have := hs.le_of_append_cons.2
    intro p hp
    rcases List.mem_cons.mp hp with rfl | hp
    · exact hm
    · have := this p hp; omega

theorem kvs_sorted {t : Int} {h : Nat} {x : Node} (hx : WF t h x)
    (hs : SortedKV (inorder h (some x))) : SortedKV x.kvs := by
  cases h with
  | zero => exact hs
  | succ h =>
    have hl := hx.shape.kids_length
    have hv := hx.shape.kvs_length
    have key : ∀ (S : List (List (Int × Int))) (K : List (Int × Int)), S.length = K.length + 1 →
        K.Sublist (inter S K) := by
      intro S K
      induction K generalizing S with
      | nil => intro _; simp
      | cons m K ih =>
        intro hS
        obtain ⟨s, S', rfl⟩ := cons_of_length S (by omega)
        rw [inter_cons, rest_cons_any]
        have := ih S' (by simpa using hS)
        exact List.Sublist.trans (List.Sublist.cons₂ m this) (List.sublist_append_right _ _)
    exact hs.sublist (key _ _ (by rw [List.length_map, hl, hv]))

/-- Running `_find_key` and the hit test in a node with sorted keys, with the position given by
a decomposition of the pairs. -/
theorem find_key_explicit (t : Int) (x : Node) (k : Int) (hS : Shape t x)
    (hs : SortedKV x.kvs) :
    ∃ i, _find_key x k = .ok i ∧
      ((∃ v K1 K2, hit x i k = .ok true ∧ x.kvs = K1 ++ (k, v) :: K2 ∧ i = (K1.length : Int) ∧
          rd x.key i = .ok k ∧ rd x.val i = .ok v ∧ (∀ p ∈ K1, p.1 < k)) ∨
       (∃ K1 K2, hit x i k = .ok false ∧ x.kvs = K1 ++ K2 ∧ i = (K1.length : Int) ∧
          (∀ p ∈ K1, p.1 < k) ∧ (∀ p ∈ K2, k < p.1))) := by
  have hS0 := hS
  obtain ⟨h1, h2, h3, h4, h5⟩ := hS
  obtain ⟨i, E, hi0, hi1, hlt, hge⟩ := scanUp_spec x.key x.n k h4 (by omega)
  have hvl := hS0.kvs_length
  refine ⟨i, E, ?_⟩
  have hK1 : ∀ p ∈ x.kvs.take i.toNat, p.1 < k := by
    intro p hp
    apply hlt
    rw [← hS0.kvs_fst, ← List.map_take]
    exact List.mem_map_of_mem _ hp
  have hlen1 : ((x.kvs.take i.toNat).length : Int) = i := by
    rw [List.length_take]; omega
  by_cases hin : i < x.n
  · obtain ⟨ki, hki⟩ := rd_total x.key i hi0 (by omega)
    obtain ⟨vi, hvi⟩ := rd_total x.val i hi0 (by omega)
    have hat := kvs_at hS0 hin hki hvi
    obtain ⟨e, _⟩ := decomp_at hat
    have hkk : k ≤ ki := hge ki (view_rd hin hki)
    by_cases hk : k = ki
    · left
      subst hk
      refine ⟨vi, x.kvs.take i.toNat, x.kvs.drop (i.toNat + 1), ?_, e, hlen1.symm, hki, hvi, hK1⟩
      simp only [hit, hin, if_true, ite_true, hki, Except.ok_bind, Except.pure_eq_ok,
        decide_True]
    · right
      refine ⟨x.kvs.take i.toNat, x.kvs.drop i.toNat, ?_, (List.take_append_drop _ _).symm,
        hlen1.symm, hK1, ?_⟩
      · simp only [hit, hin, if_true, ite_true, hki, Except.ok_bind, Except.pure_eq_ok, hk,
          decide_False]
      · intro p hp
        have hsd : SortedKV (x.kvs.take i.toNat ++ (ki, vi) :: x.kvs.drop (i.toNat + 1)) := by
          rw [← e]; exact hs
        have e2 : x.kvs.drop i.toNat = (ki, vi) :: x.kvs.drop (i.toNat + 1) := by
          have := congrArg (List.drop i.toNat) e
          rw [List.drop_left' (by rw [List.length_take]; omega)] at this
          exact this
        rw [e2] at hp
        rcases List.mem_cons.mp hp with rfl | hp
        · show k < ki; omega
        · have := hsd.le_of_append_cons.2 p hp
          have : ki ≤ p.1 := this
          omega
  · right
    refine ⟨x.kvs.take i.toNat, x.kvs.drop i.toNat, ?_, (List.take_append_drop _ _).symm,
      hlen1.symm, hK1, ?_⟩
    · simp only [hit, hin, if_false, ite_false, Except.pure_eq_ok]
    · intro p hp
      rw [List.drop_eq_nil_of_le (by omega)] at hp
      simp at hp

theorem split_unique {k : Int} : ∀ (A B A' B' : List (Int × Int)), A ++ B = A' ++ B' →
    (∀ p ∈ A, p.1 < k) → (∀ p ∈ B, k ≤ p.1) → (∀ p ∈ A', p.1 < k) → (∀ p ∈ B', k ≤ p.1) →
    A = A' := by
  intro A
  induction A with
  | nil =>
    intro B A' B' e _ hB hA' _
    cases A' with
    | nil => rfl
    | cons a A' =>
      exfalso
      simp only [List.nil_append, List.cons_append] at e
      have h1 := hA' a (by simp)
      have h2 := hB a (by rw [e]; simp)
      omega
  | cons a A ih =>
    intro B A' B' e hA hB hA' hB'
    cases A' with
    | nil =>
      exfalso
      simp only [List.nil_append, List.cons_append] at e
      have h1 := hA a (by simp)
      have h2 := hB' a (by rw [← e]; simp)
      omega
    | cons a' A' =>
      simp only [List.cons_append, List.cons.injEq] at e
      obtain ⟨rfl, e⟩ := e
      rw [ih B A' B' e (fun p hp => hA p (List.mem_cons_of_mem _ hp)) hB
        (fun p hp => hA' p (List.mem_cons_of_mem _ hp)) hB']

/-- Storing a child back in an explicit slot of a well-formed node. -/
theorem setC_explicit (t : Int) (h : Nat) (x c c' : Node) (S1 S2 : List (Option Node))
    (hx : WF t (h + 1) x) (hk : x.kids = S1 ++ some c :: S2) (hc : WF t h c')
    (hn : t - 1 ≤ c'.n) :
    wr x.c (S1.length : Int) (some c') = .ok (x.c.set S1.length (some c')) ∧
    WF t (h + 1) (x.setC (x.c.set S1.length (some c'))) ∧
    (x.setC (x.c.set S1.length (some c'))).n = x.n ∧
    (x.setC (x.c.set S1.length (some c'))).kids = S1 ++ some c' :: S2 ∧
    (x.setC (x.c.set S1.length (some c'))).kvs = x.kvs := by
  obtain ⟨_, _, _, hi⟩ := hx.kid_at hk
  obtain ⟨hw, hS', hkv, hkd⟩ := setC_child t x (S1.length : Int) (some c') hx.shape (by omega) hi
  simp only [Int.toNat_ofNat] at hw hS' hkv hkd
  have hk2 : (x.setC (x.c.set S1.length (some c'))).kids = S1 ++ some c' :: S2 := by
    rw [hkd, hk, set_explicit _ _ _ _ _ rfl]
  refine ⟨hw, ⟨hS', by simpa using hx.2.1, ?_⟩, by simp, hk2, hkv⟩
  intro o ho
  rw [hk2] at ho
  simp only [List.mem_append, List.mem_cons] at ho
  rcases ho with ho | ho | ho
  · exact hx.2.2 o (by rw [hk]; exact List.mem_append_left _ ho)
  · exact ⟨c', ho, hc, hn⟩
  · exact hx.2.2 o (by rw [hk]; simp [ho])

end BTree

namespace BTree

theorem kvs_last {t : Int} {x : Node} (hS : Shape t x) (hn : 1 ≤ x.n) :
    ∃ a b, rd x.key (x.n - 1) = .ok a ∧ rd x.val (x.n - 1) = .ok b ∧
      ∃ L0, x.kvs = L0 ++ [(a, b)] := by
  obtain ⟨h1, h2, h3, h4, h5⟩ := hS
  obtain ⟨a, ea⟩ := rd_total x.key (x.n - 1) (by omega) (by omega)
  obtain ⟨b, eb⟩ := rd_total x.val (x.n - 1) (by omega) (by omega)
  refine ⟨a, b, ea, eb, (view x.key (x.n - 1)).zip (view x.val (x.n - 1)), ?_⟩
  unfold Node.kvs
  have e1 := view_succ (a := x.key) (n := x.n - 1) (by omega) ea
  have e2 := view_succ (a := x.val) (n := x.n - 1) (by omega) eb
  have : x.n - 1 + 1 = x.n := by omega
  rw [this] at e1 e2
  rw [e1, e2, List.zip_append]
  · rfl
  · rw [view_length _ _ (by omega) (by omega), view_length _ _ (by omega) (by omega)]

theorem kvs_first {t : Int} {x : Node} (hS : Shape t x) (hn : 1 ≤ x.n) :
    ∃ a b, rd x.key 0 = .ok a ∧ rd x.val 0 = .ok b ∧ ∃ L0, x.kvs = (a, b) :: L0 := by
  obtain ⟨h1, h2, h3, h4, h5⟩ := hS
  obtain ⟨a, ea⟩ := rd_total x.key 0 (le_refl _) (by omega)
  obtain ⟨b, eb⟩ := rd_total x.val 0 (le_refl _) (by omega)
  refine ⟨a, b, ea, eb, ((view x.key x.n).eraseIdx 0).zip ((view x.val x.n).eraseIdx 0), ?_⟩
  unfold Node.kvs
  conv => lhs; rw [view_cons (a := x.key) (by omega) ea, view_cons (a := x.val) (by omega) eb]
  rfl

/-- Source `_get_pred`: the last pair of the in-order reading of the subtree. -/
theorem get_pred_loop_spec (t : Int) (ht : 2 ≤ t) : ∀ (h fuel : Nat) (x : Node), WF t h x →
    1 ≤ x.n → h < fuel →
    ∃ p L0, _get_pred_loop fuel x = .ok p ∧ inorder h (some x) = L0 ++ [p] := by
  intro h
  induction h with
  | zero =>
    intro fuel x hx hn hf
    obtain ⟨f, rfl⟩ : ∃ f, fuel = f + 1 := ⟨fuel - 1, by omega⟩
    obtain ⟨a, b, ea, eb, L0, hL⟩ := kvs_last hx.1 hn
    refine ⟨(a, b), L0, ?_, hL⟩
    simp only [_get_pred_loop, hx.2, Bool.not_true, Bool.false_eq_true, if_false, ite_false, ea,
      eb, Except.ok_bind, Except.pure_eq_ok]
  | succ h ih =>
    intro fuel x hx hn hf
    obtain ⟨f, rfl⟩ : ∃ f, fuel = f + 1 := ⟨fuel - 1, by omega⟩
    have hkl := hx.shape.kids_length
    have hvl := hx.shape.kvs_length
    obtain ⟨S1, o, hk⟩ := snoc_of_length x.kids (by omega)
    obtain ⟨c, rfl, hcw, hcn⟩ := hx.2.2 o (by rw [hk]; simp)
    have hk' : x.kids = S1 ++ some c :: [] := hk
    obtain ⟨hrd, _, _, _⟩ := hx.kid_at hk'
    have hlen : S1.length = x.kvs.length := by
      rw [hk] at hkl; simp at hkl; omega
    have e : (S1.length : Int) = x.n := by
      have := hx.shape.2.2.2.1; omega
    rw [e] at hrd
    obtain ⟨p, L0, E, hL⟩ := ih f c hcw (by omega) (by omega)
    refine ⟨p, pre (S1.map (inorder h)) x.kvs ++ L0, ?_, ?_⟩
    · simp only [_get_pred_loop, hx.2.1, Bool.not_false, if_true, ite_true, hrd, deref,
        Except.ok_bind, E]
    · rw [inorder_explicit (t := t) h hk' (List.append_nil _).symm hlen, hL]
      simp [rest]

/-- Source `_get_succ`: the first pair of the in-order reading of the subtree. -/
theorem get_succ_loop_spec (t : Int) (ht : 2 ≤ t) : ∀ (h fuel : Nat) (x : Node), WF t h x →
    1 ≤ x.n → h < fuel →
    ∃ p L0, _get_succ_loop fuel x = .ok p ∧ inorder h (some x) = p :: L0 := by
  intro h
  induction h with
  | zero =>
    intro fuel x hx hn hf
    obtain ⟨f, rfl⟩ : ∃ f, fuel = f + 1 := ⟨fuel - 1, by omega⟩
    obtain ⟨a, b, ea, eb, L0, hL⟩ := kvs_first hx.1 hn
    refine ⟨(a, b), L0, ?_, hL⟩
    simp only [_get_succ_loop, hx.2, Bool.not_true, Bool.false_eq_true, if_false, ite_false, ea,
      eb, Except.ok_bind, Except.pure_eq_ok]
  | succ h ih =>
    intro fuel x hx hn hf
    obtain ⟨f, rfl⟩ : ∃ f, fuel = f + 1 := ⟨fuel - 1, by omega⟩
    have hkl := hx.shape.kids_length
    obtain ⟨o, S2, hk⟩ := cons_of_length x.kids (by omega)
    obtain ⟨c, rfl, hcw, hcn⟩ := hx.2.2 o (by rw [hk]; simp)
    have hk' : x.kids = [] ++ some c :: S2 := hk
    obtain ⟨hrd, _, _, _⟩ := hx.kid_at hk'
    simp only [List.length_nil, Nat.cast_zero] at hrd
    obtain ⟨p, L0, E, hL⟩ := ih f c hcw (by omega) (by omega)
    refine ⟨p, L0 ++ rest (S2.map (inorder h)) x.kvs, ?_, ?_⟩
    · simp only [_get_succ_loop, hx.2.1, Bool.not_false, if_true, ite_true, hrd, deref,
        Except.ok_bind, E]
    · rw [@inorder_explicit t h _ _ _ _ [] _ hk' (List.nil_append _).symm rfl, hL]
      simp [pre]

/-- The result of a removal in a child, stored back in its slot, when the rest of the node does
not hold the key. -/
theorem descend_spec (t : Int) (h : Nat) (x c c' : Node) (S1 S2 : List (Option Node))
    (K1 K2 : List (Int × Int)) (k : Int) (res : Bool) (hx : WF t (h + 1) x)
    (hk : x.kids = S1 ++ some c :: S2) (hv : x.kvs = K1 ++ K2) (hlen : S1.length = K1.length)
    (hs : SortedKV (inorder (h + 1) (some x)))
    (hP : ∀ p ∈ pre (S1.map (inorder h)) K1, p.1 ≠ k)
    (hR : ∀ p ∈ rest (S2.map (inorder h)) K2, p.1 ≠ k) (hc : WF t h c') (hn : t - 1 ≤ c'.n)
    (hr : RemSpec (inorder h (some c)) (inorder h (some c')) k res) :
    wr x.c (K1.length : Int) (some c') = .ok (x.c.set K1.length (some c')) ∧
    WF t (h + 1) (x.setC (x.c.set K1.length (some c'))) ∧
    (x.setC (x.c.set K1.length (some c'))).n = x.n ∧
    RemSpec (inorder (h + 1) (some x))
      (inorder (h + 1) (some (x.setC (x.c.set K1.length (some c'))))) k res := by
  obtain ⟨hw, hW, hn', hk', hv'⟩ := setC_explicit t h x c c' S1 S2 hx hk hc hn
  rw [hlen] at hw hW hn' hk' hv'
  refine ⟨hw, hW, hn', ?_⟩
  rw [inorder_explicit (t := t) h hk hv hlen] at hs ⊢
  rw [inorder_explicit (t := t) h hk' (hv'.trans hv) hlen]
  exact remspec_ctx hs hP hR hr

/-- Overwriting the pair in an explicit slot of a node. -/
theorem setKV_explicit (t : Int) (h : Nat) (x : Node) (K1 K2 : List (Int × Int))
    (m : Int × Int) (a b : Int) (hx : WF t (h + 1) x) (hv : x.kvs = K1 ++ m :: K2) :
    wr x.key (K1.length : Int) a = .ok (x.key.set K1.length a) ∧
    wr x.val (K1.length : Int) b = .ok (x.val.set K1.length b) ∧
    WF t (h + 1) ((x.setKey (x.key.set K1.length a)).setVal (x.val.set K1.length b)) ∧
    ((x.setKey (x.key.set K1.length a)).setVal (x.val.set K1.length b)).kids = x.kids ∧
    ((x.setKey (x.key.set K1.length a)).setVal (x.val.set K1.length b)).kvs
      = K1 ++ (a, b) :: K2 := by
  have hS := hx.shape
  have hi := kvs_len_explicit hS hv
  obtain ⟨h1, h2, h3, h4, h5⟩ := hS
  have w1 := wr_ok (a := x.key) a (i := (K1.length : Int)) (by omega) (by omega)
  have w2 := wr_ok (a := x.val) b (i := (K1.length : Int)) (by omega) (by omega)
  simp only [Int.toNat_ofNat] at w1 w2
  have hkids : ((x.setKey (x.key.set K1.length a)).setVal (x.val.set K1.length b)).kids
      = x.kids := by
    unfold Node.kids; simp
  refine ⟨w1, w2, ⟨⟨?_, ?_, ?_, ?_, ?_⟩, by simpa using hx.2.1, ?_⟩, hkids, ?_⟩
  · simpa using h1
  · simpa using h2
  · simpa using h3
  · simpa using h4
  · simpa using h5
  · rw [hkids]; exact hx.2.2
  · unfold Node.kvs
    simp only [Node.key_setVal, Node.key_setKey, Node.val_setVal, Node.n_setVal, Node.n_setKey]
    rw [view_set_inside_nat, view_set_inside_nat, zip_set]
    show x.kvs.set K1.length (a, b) = _
    rw [hv, set_explicit _ _ _ _ _ rfl]

end BTree

namespace BTree

theorem child_remove (t : Int) (ht : 1 ≤ t) (h : Nat) (IH : RemOK t h) (fuel : Nat) (c : Node)
    (k : Int) (hc : WF t h c) (hn : t ≤ c.n) (hs : SortedKV (inorder h (some c)))
    (hf : 4 * h + 1 ≤ fuel) :
    ∃ c' res, _remove_node t fuel (some c) k = .ok (some c', res) ∧ WF t h c' ∧ t - 1 ≤ c'.n ∧
      RemSpec (inorder h (some c)) (inorder h (some c')) k res := by
  obtain ⟨c', h', res, E, hw, _, hh, hr⟩ := IH fuel c k hc (by omega) hs hf
  obtain ⟨rfl, hn'⟩ := hh hn
  exact ⟨c', res, E, hw, hn', hr⟩

/-- Source `_remove_from_non_leaf`, first branch: the left child has more than `t - 1` keys. -/
theorem pred_step (t : Int) (ht : 2 ≤ t) (h : Nat) (IH : RemOK t h) (f : Nat) (x l r : Node)
    (S1 S2 : List (Option Node)) (K1 K2 : List (Int × Int)) (k v : Int)
    (hx : WF t (h + 1) x) (hk : x.kids = S1 ++ some l :: some r :: S2)
    (hv : x.kvs = K1 ++ (k, v) :: K2) (hlen : S1.length = K1.length)
    (hs : SortedKV (inorder (h + 1) (some x))) (hrk : rd x.key (K1.length : Int) = .ok k)
    (hl : l.n > t - 1) (hf : 4 * h + 1 ≤ f) :
    ∃ x' res, _remove_from_non_leaf t (f + 1) x (K1.length : Int) = .ok (some x', res) ∧
      WF t (h + 1) x' ∧ x'.n = x.n ∧
      RemSpec (inorder (h + 1) (some x)) (inorder (h + 1) (some x')) k res := by
  obtain ⟨hrl, hlw, _, _⟩ := hx.kid_at hk
  have hk2 : x.kids = (S1 ++ [some l]) ++ some r :: S2 := by rw [hk]; simp
  obtain ⟨hrr, hrw, _, _⟩ := hx.kid_at hk2
  rw [hlen] at hrl
  have e1 : (((S1 ++ [some l]).length : Nat) : Int) = (K1.length : Int) + 1 := by
    simp [hlen]
  rw [e1] at hrr
  have hio := inorder_explicit (t := t) h hk hv hlen
  simp only [List.map_cons, rest_cons] at hio
  obtain ⟨p, L0, Ep, hL⟩ := get_pred_loop_spec t ht h f l hlw (by omega) (by omega)
  obtain ⟨w1, w2, hW1, hk1, hv1⟩ := setKV_explicit t h x K1 K2 (k, v) p.1 p.2 hx hv
  have hls : SortedKV (inorder h (some l)) := by
    rw [hio] at hs; exact hs.left.right
  obtain ⟨l', resl, El, hlw', hln', hrl'⟩ :=
    child_remove t (by omega) h IH f l p.1 hlw (by omega) hls hf
  obtain ⟨hw, hW2, hn2, hk2', hv2⟩ :=
    setC_explicit t h _ l l' S1 (some r :: S2) hW1 (hk1.trans hk) hlw' hln'
  rw [hlen] at hw hW2 hn2 hk2' hv2
  have hio2 := inorder_explicit (t := t) h hk2' (hv2.trans hv1) hlen
  simp only [List.map_cons, rest_cons] at hio2
  rw [hL] at hrl'
  rw [hio, hL] at hs
  obtain ⟨ht', hR⟩ := remspec_pred hs hrl'
  subst ht'
  simp only [Node.c_setVal, Node.c_setKey, Node.n_setC, Node.n_setVal, Node.n_setKey] at hw hn2
  refine ⟨_, true, ?_, hW2, by simp, ?_⟩
  · simp only [_remove_from_non_leaf, hrk, hrl, hrr, deref, Except.ok_bind, hl, if_true,
      ite_true, _get_pred, Ep, w1, w2, Node.val_setKey, El, Node.c_setVal, Node.c_setKey, hw,
      Except.pure_eq_ok]
  · rw [hio, hL, hio2]
    exact hR

/-- Source `_remove_from_non_leaf`, second branch: the right child has more than `t - 1` keys
and the left child has not. -/
theorem succ_step (t : Int) (ht : 2 ≤ t) (h : Nat) (IH : RemOK t h) (f : Nat) (x l r : Node)
    (S1 S2 : List (Option Node)) (K1 K2 : List (Int × Int)) (k v : Int)
    (hx : WF t (h + 1) x) (hk : x.kids = S1 ++ some l :: some r :: S2)
    (hv : x.kvs = K1 ++ (k, v) :: K2) (hlen : S1.length = K1.length)
    (hs : SortedKV (inorder (h + 1) (some x))) (hrk : rd x.key (K1.length : Int) = .ok k)
    (hl : ¬ l.n > t - 1) (hr : r.n > t - 1) (hf : 4 * h + 1 ≤ f) :
    ∃ x' res, _remove_from_non_leaf t (f + 1) x (K1.length : Int) = .ok (some x', res) ∧
      WF t (h + 1) x' ∧ x'.n = x.n ∧
      RemSpec (inorder (h + 1) (some x)) (inorder (h + 1) (some x')) k res := by
  obtain ⟨hrl, hlw, _, _⟩ := hx.kid_at hk
  have hk2 : x.kids = (S1 ++ [some l]) ++ some r :: S2 := by rw [hk]; simp
  obtain ⟨hrr, hrw, _, _⟩ := hx.kid_at hk2
  rw [hlen] at hrl
  have e1 : (((S1 ++ [some l]).length : Nat) : Int) = (K1.length : Int) + 1 := by
    simp [hlen]
  have e1' : (S1 ++ [some l]).length = K1.length + 1 := by simp [hlen]
  rw [e1] at hrr
  have hio := inorder_explicit (t := t) h hk hv hlen
  simp only [List.map_cons, rest_cons] at hio
  obtain ⟨p, L0, Ep, hL⟩ := get_succ_loop_spec t ht h f r hrw (by omega) (by omega)
  obtain ⟨w1, w2, hW1, hk1, hv1⟩ := setKV_explicit t h x K1 K2 (k, v) p.1 p.2 hx hv
  have hrs : SortedKV (inorder h (some r)) := by
    rw [hio] at hs
    have := hs.right
    have h2 : SortedKV ([(k, v)] ++ inorder h (some r) ++ rest (S2.map (inorder h)) K2) := by
      simpa using this
    exact h2.left.right
  obtain ⟨r', resr, Er, hrw', hrn', hrr'⟩ :=
    child_remove t (by omega) h IH f r p.1 hrw (by omega) hrs hf
  obtain ⟨hw, hW2, hn2, hk2', hv2⟩ :=
    setC_explicit t h _ r r' (S1 ++ [some l]) S2 hW1 (hk1.trans hk2) hrw' hrn'
  rw [e1] at hw
  rw [e1'] at hw hW2 hn2 hk2' hv2
  have hk3 : (((x.setKey (x.key.set K1.length p.1)).setVal (x.val.set K1.length p.2)).setC
      (((x.setKey (x.key.set K1.length p.1)).setVal (x.val.set K1.length p.2)).c.set
        (K1.length + 1) (some r'))).kids = S1 ++ some l :: some r' :: S2 := by
    rw [hk2']; simp
  have hio2 := inorder_explicit (t := t) h hk3 (hv2.trans hv1) hlen
  simp only [List.map_cons, rest_cons] at hio2
  rw [hL] at hrr'
  have hs' : SortedKV ((pre (S1.map (inorder h)) K1 ++ inorder h (some l)) ++ (k, v) ::
      (p :: L0) ++ rest (S2.map (inorder h)) K2) := by
    rw [hio, hL] at hs; simpa using hs
  obtain ⟨ht', hR⟩ := remspec_succ hs' hrr'
  subst ht'
  simp only [Node.c_setVal, Node.c_setKey, Node.n_setC, Node.n_setVal, Node.n_setKey] at hw hn2
  refine ⟨_, true, ?_, hW2, by simp, ?_⟩
  · simp only [_remove_from_non_leaf, hrk, hrl, hrr, deref, Except.ok_bind, hl, if_false,
      ite_false, hr, if_true, ite_true, _get_succ, Ep, w1, w2, Node.val_setKey, Er,
      Node.c_setVal, Node.c_setKey, hw, Except.pure_eq_ok]
  · rw [hio, hL, hio2]
    simpa using hR

end BTree

namespace BTree

theorem kids_decomp1 {t : Int} {h : Nat} {x : Node} {K1 K2 : List (Int × Int)}
    (hx : WF t (h + 1) x) (hv : x.kvs = K1 ++ K2) :
    ∃ S1 c S2, x.kids = S1 ++ some c :: S2 ∧ S1.length = K1.length := by
  have hkl := hx.shape.kids_length
  have hvl := hx.shape.kvs_length
  rw [hv] at hvl
  simp only [List.length_append] at hvl
  have hi : K1.length < x.kids.length := by omega
  obtain ⟨e, hl⟩ := decomp_at (List.getElem?_eq_getElem hi)
  obtain ⟨c, hc, _, _⟩ := hx.2.2 x.kids[K1.length] (List.getElem_mem _)
  rw [hc] at e
  exact ⟨_, c, _, e, hl⟩

theorem kids_decomp2 {t : Int} {h : Nat} {x : Node} {K1 K2 : List (Int × Int)} {m : Int × Int}
    (hx : WF t (h + 1) x) (hv : x.kvs = K1 ++ m :: K2) :
    ∃ S1 l r S2, x.kids = S1 ++ some l :: some r :: S2 ∧ S1.length = K1.length := by
  have hkl := hx.shape.kids_length
  have hvl := hx.shape.kvs_length
  rw [hv] at hvl
  simp only [List.length_append, List.length_cons] at hvl
  have hi : K1.length < x.kids.length := by omega
  have hi2 : K1.length + 1 < x.kids.length := by omega
  obtain ⟨e, hl⟩ := decomp_at2 (List.getElem?_eq_getElem hi) (List.getElem?_eq_getElem hi2)
  obtain ⟨l, hc, _, _⟩ := hx.2.2 x.kids[K1.length] (List.getElem_mem _)
  obtain ⟨r, hr, _, _⟩ := hx.2.2 x.kids[K1.length + 1] (List.getElem_mem _)
  rw [hc, hr] at e
  exact ⟨_, l, r, _, e, hl⟩

/-- Source `_remove_node` on an internal node that does not hold the key: the child on the way
is filled when it has fewer than `t` keys, the key is removed below, and the child is stored
back. -/
theorem miss_step (t : Int) (ht : 2 ≤ t) (h : Nat) (IH : RemOK t h) (f : Nat) (x c : Node)
    (S1 S2 : List (Option Node)) (K1 K2 : List (Int × Int)) (k : Int)
    (hx : WF t (h + 1) x) (hn : 1 ≤ x.n) (hk : x.kids = S1 ++ some c :: S2)
    (hv : x.kvs = K1 ++ K2) (hlen : S1.length = K1.length)
    (hs : SortedKV (inorder (h + 1) (some x))) (hK1 : ∀ p ∈ K1, p.1 < k)
    (hK2 : ∀ p ∈ K2, k < p.1) (hfind : _find_key x k = .ok (K1.length : Int))
    (hhit : hit x (K1.length : Int) k = .ok false) (hf : 4 * h + 1 ≤ f) :
    ∃ x' res, _remove_node t (f + 1) (some x) k = .ok (some x', res) ∧ WF t (h + 1) x' ∧
      (x'.n = x.n ∨ x'.n = x.n - 1) ∧ (t ≤ c.n → x'.n = x.n) ∧
      RemSpec (inorder (h + 1) (some x)) (inorder (h + 1) (some x')) k res := by
  have hn0 : ¬ x.n = 0 := by omega
  obtain ⟨hrc, hcw, hcn, hile⟩ := hx.kid_at hk
  rw [hlen] at hrc hile
  have hio := inorder_explicit (t := t) h hk hv hlen
  have hs1 := hs
  rw [hio] at hs1
  have hP := pre_lt (k := k) (by rw [List.append_assoc] at hs1; exact hs1)
    (by simpa using hlen) hK1
  have hR := rest_gt (k := k) hs1 hK2
  by_cases hc : c.n < t
  · obtain ⟨x1, c1, S1', S2', K1', K2', A, B, E, hW1, hk1, hv1, hlen1, hcn1, hcw1, hpre, hrest,
      hio1, hn1, hidx1, hidx2⟩ :=
      fill_spec t (by omega) h x c S1 S2 K1 K2 hx hk hv hlen (by omega) hn
    have hiox : inorder (h + 1) (some x1) = inorder (h + 1) (some x) := by
      rw [hio, inorder_explicit (t := t) h hk1 hv1 hlen1, hio1, hpre, hrest]
      simp
    obtain ⟨hrc1, _, _, _⟩ := hW1.kid_at hk1
    rw [hlen1] at hrc1
    have hcs1 : SortedKV (inorder h (some c1)) := by
      have := hs
      rw [← hiox, inorder_explicit (t := t) h hk1 hv1 hlen1] at this
      exact this.left.right
    obtain ⟨c2, res, Ec, hcw2, hcn2, hrs⟩ :=
      child_remove t (by omega) h IH f c1 k hcw1 hcn1 hcs1 hf
    obtain ⟨hw, hW2, hn2, hR2⟩ := descend_spec t h x1 c1 c2 S1' S2' K1' K2' k res hW1 hk1 hv1
      hlen1 (by rw [hiox]; exact hs)
      (fun p hp => by
        have := hP p (by rw [hpre]; exact List.mem_append_left _ hp)
        omega)
      (fun p hp => by
        have := hR p (by rw [hrest]; exact List.mem_append_right _ hp)
        omega) hcw2 hcn2 hrs
    rw [hiox] at hR2
    refine ⟨_, res, ?_, hW2, by rw [hn2]; exact hn1, fun hh => by omega, hR2⟩
    by_cases hcond : (K1.length : Int) = x.n ∧ (K1.length : Int) > x1.n
    · have e := hidx1 hcond
      have e' : (K1.length : Int) - 1 = (K1'.length : Int) := by omega
      have hb : (decide ((K1.length : Int) = x.n) && decide ((K1.length : Int) > x1.n)) = true := by
        rw [Bool.and_eq_true]
        exact ⟨decide_eq_true hcond.1, decide_eq_true hcond.2⟩
      simp only [_remove_node, deref, Except.ok_bind, hn0, if_false, ite_false,
        Except.pure_eq_ok, hfind, hhit, Bool.false_eq_true, hx.2.1, hrc, hc, if_true, ite_true,
        E, hb, e', hrc1, Ec, hw]
    · have e := hidx2 hcond
      have e' : (K1.length : Int) = (K1'.length : Int) := by omega
      have hb : (decide ((K1.length : Int) = x.n) && decide ((K1.length : Int) > x1.n)) = false := by
        rw [Bool.and_eq_false_iff]
        by_cases h1 : (K1.length : Int) = x.n
        · right; simp only [decide_eq_false_iff_not]; exact fun h2 => hcond ⟨h1, h2⟩
        · left; simp only [decide_eq_false_iff_not]; exact h1
      simp only [_remove_node, deref, Except.ok_bind, hn0, if_false, ite_false,
        Except.pure_eq_ok, hfind, hhit, Bool.false_eq_true, hx.2.1, hrc, hc, if_true, ite_true,
        E, hb]
      rw [e']
      simp only [hrc1, Ec, hw, Except.ok_bind, Except.pure_eq_ok]
  · have hcs : SortedKV (inorder h (some c)) := hs1.left.right
    obtain ⟨c2, res, Ec, hcw2, hcn2, hrs⟩ :=
      child_remove t (by omega) h IH f c k hcw (by omega) hcs hf
    obtain ⟨hw, hW2, hn2, hR2⟩ := descend_spec t h x c c2 S1 S2 K1 K2 k res hx hk hv
      hlen hs (fun p hp => by have := hP p hp; omega) (fun p hp => by have := hR p hp; omega)
      hcw2 hcn2 hrs
    refine ⟨_, res, ?_, hW2, Or.inl hn2, fun _ => hn2, hR2⟩
    have hb : (decide ((K1.length : Int) = x.n) && decide ((K1.length : Int) > x.n)) = false := by
      rw [Bool.and_eq_false_iff]
      right; simp only [decide_eq_false_iff_not]; omega
    simp only [_remove_node, deref, Except.ok_bind, hn0, if_false, ite_false,
      Except.pure_eq_ok, hfind, hhit, Bool.false_eq_true, hx.2.1, hrc, hc, hb, Ec, hw]

end BTree

namespace BTree

/-- Source `_remove_node` on an internal node whose child on the way to the key has at least `t`
keys (the call made by `_remove_from_non_leaf` after a merge): the node keeps its count. -/
theorem reenter_spec (t : Int) (ht : 2 ≤ t) (h : Nat) (IH : RemOK t h) (f : Nat) (x l : Node)
    (S1 S2 : List (Option Node)) (K1 K2 : List (Int × Int)) (k : Int)
    (hx : WF t (h + 1) x) (hn : 1 ≤ x.n) (hk : x.kids = S1 ++ some l :: S2)
    (hv : x.kvs = K1 ++ K2) (hlen : S1.length = K1.length)
    (hs : SortedKV (inorder (h + 1) (some x))) (hK1 : ∀ p ∈ K1, p.1 < k)
    (hK2 : ∀ p ∈ K2, k ≤ p.1) (hl : t ≤ l.n) (hf : 4 * h + 2 ≤ f) :
    ∃ x' res, _remove_node t (f + 1) (some x) k = .ok (some x', res) ∧ WF t (h + 1) x' ∧
      x'.n = x.n ∧ RemSpec (inorder (h + 1) (some x)) (inorder (h + 1) (some x')) k res := by
  have hn0 : ¬ x.n = 0 := by omega
  have hks := kvs_sorted hx hs
  obtain ⟨i, hfind, hcase⟩ := find_key_explicit t x k hx.shape hks
  rcases hcase with ⟨v, K1', K2', hhit, hv', hi, hrk, hrv, hK1'⟩ | ⟨K1', K2', hhit, hv', hi, hK1', hK2'⟩
  · have hge : ∀ p ∈ (k, v) :: K2', k ≤ p.1 := by
      intro p hp
      rcases List.mem_cons.mp hp with rfl | hp
      · exact le_refl _
      · rw [hv'] at hks
        exact hks.le_of_append_cons.2 p hp
    have e := split_unique K1 K2 K1' ((k, v) :: K2') (by rw [← hv, hv']) hK1 hK2 hK1' hge
    subst e
    subst hi
    obtain ⟨S1', l', r, S2', hk', hlen'⟩ := kids_decomp2 hx hv'
    have e2 : S1' = S1 := by
      have := congrArg (List.take S1.length) (hk.symm.trans hk')
      rw [List.take_left' rfl, List.take_left' (by rw [hlen', hlen])] at this
      exact this.symm
    subst e2
    have e3 : l' = l := by
      have := hk.symm.trans hk'
      simp only [List.append_cancel_left_eq, List.cons.injEq, Option.some.injEq] at this
      exact this.1.symm
    subst e3
    obtain ⟨g, rfl⟩ : ∃ g, f = g + 1 := ⟨f - 1, by omega⟩
    obtain ⟨x', res, E, hW, hn', hR⟩ := pred_step t ht h IH g x l' r S1' S2' K1 K2' k v hx hk'
      hv' hlen hs hrk (by omega) (by omega)
    refine ⟨x', res, ?_, hW, hn', hR⟩
    simp only [_remove_node, deref, Except.ok_bind, hn0, if_false, ite_false,
      Except.pure_eq_ok, hfind, hhit, if_true, ite_true, hx.2.1, Bool.false_eq_true, E]
  · have e := split_unique K1 K2 K1' K2' (by rw [← hv, hv']) hK1 hK2 hK1'
      (fun p hp => by have := hK2' p hp; omega)
    subst e
    subst hi
    obtain ⟨x', res, E, hW, _, hn', hR⟩ := miss_step t ht h IH f x l S1 S2 K1 K2' k hx hn hk hv'
      hlen hs hK1 hK2' hfind hhit (by omega)
    exact ⟨x', res, E, hW, hn' hl, hR⟩

/-- Source `_remove_node` is correct on every well-formed subtree that holds a key. -/
theorem remove_node_ok (t : Int) (ht : 2 ≤ t) : ∀ h, RemOK t h := by
  intro h
  induction h with
  | zero =>
    intro fuel x k hx hn hs hf
    obtain ⟨f, rfl⟩ : ∃ f, fuel = f + 1 := ⟨fuel - 1, by omega⟩
    have hn0 : ¬ x.n = 0 := by omega
    have hs' : SortedKV x.kvs := hs
    obtain ⟨i, hfind, hcase⟩ := find_key_explicit t x k hx.1 hs'
    rcases hcase with ⟨v, K1, K2, hhit, hv, hi, hrk, hrv, hK1⟩ | ⟨K1, K2, hhit, hv, hi, hK1, hK2⟩
    · subst hi
      obtain ⟨x', E, hS', hn', hleaf', _, hkvs'⟩ :=
        remove_from_leaf_run t x (K1.length : Int) hx.1 (by omega) (kvs_len_explicit hx.1 hv)
      simp only [Int.toNat_ofNat] at hkvs'
      rw [hv, eraseIdx_explicit _ _ _ _ rfl] at hkvs'
      refine ⟨x', 0, true, ?_, ⟨hS', by rw [hleaf']; exact hx.2⟩, le_refl _,
        fun hh => ⟨rfl, by omega⟩, ?_⟩
      · simp only [_remove_node, deref, Except.ok_bind, hn0, if_false, ite_false,
          Except.pure_eq_ok, hfind, hhit, if_true, ite_true, hx.2, E]
      · show RemSpec x.kvs x'.kvs k true
        rw [hkvs', hv]
        rw [hv] at hs'
        exact remspec_erase_at hs'
    · refine ⟨x, 0, false, ?_, hx, le_refl _, fun hh => ⟨rfl, by omega⟩, ?_⟩
      · simp only [_remove_node, deref, Except.ok_bind, hn0, if_false, ite_false,
          Except.pure_eq_ok, hfind, hhit, Bool.false_eq_true, hx.2, if_true, ite_true]
      · left
        refine ⟨rfl, rfl, ?_⟩
        intro p hp
        have hp' : p ∈ K1 ++ K2 := by rw [← hv]; exact hp
        rcases List.mem_append.mp hp' with hp' | hp'
        · have := hK1 p hp'; omega
        · have := hK2 p hp'; omega
  | succ h IH =>
    intro fuel x k hx hn hs hf
    obtain ⟨f, rfl⟩ : ∃ f, fuel = f + 1 := ⟨fuel - 1, by omega⟩
    have hn0 : ¬ x.n = 0 := by omega
    have hks := kvs_sorted hx hs
    obtain ⟨i, hfind, hcase⟩ := find_key_explicit t x k hx.shape hks
    rcases hcase with ⟨v, K1, K2, hhit, hv, hi, hrk, hrv, hK1⟩ | ⟨K1, K2, hhit, hv, hi, hK1, hK2⟩
    · subst hi
      obtain ⟨S1, l, r, S2, hk, hlen⟩ := kids_decomp2 hx hv
      obtain ⟨g, rfl⟩ : ∃ g, f = g + 1 := ⟨f - 1, by omega⟩
      have hev : ∀ z, _remove_from_non_leaf t (g + 1) x (K1.length : Int) = .ok z →
          _remove_node t (g + 1 + 1) (some x) k = .ok z := by
        intro z hz
        simp only [_remove_node, deref, Except.ok_bind, hn0, if_false, ite_false,
          Except.pure_eq_ok, hfind, hhit, if_true, ite_true, hx.2.1, Bool.false_eq_true, hz]
      by_cases hl : l.n > t - 1
      · obtain ⟨x', res, E, hW, hn', hR⟩ := pred_step t ht h IH g x l r S1 S2 K1 K2 k v hx hk
          hv hlen hs hrk hl (by omega)
        exact ⟨x', h + 1, res, hev _ E, hW, le_refl _, fun hh => ⟨rfl, by omega⟩, hR⟩
      by_cases hr : r.n > t - 1
      · obtain ⟨x', res, E, hW, hn', hR⟩ := succ_step t ht h IH g x l r S1 S2 K1 K2 k v hx hk
          hv hlen hs hrk hl hr (by omega)
        exact ⟨x', h + 1, res, hev _ E, hW, le_refl _, fun hh => ⟨rfl, by omega⟩, hR⟩
      -- both children hold `t - 1` keys: merge them around the key
      obtain ⟨hrl, hlw, hln, _⟩ := hx.kid_at hk
      have hk2 : x.kids = (S1 ++ [some l]) ++ some r :: S2 := by rw [hk]; simp
      obtain ⟨hrr, hrw, hrn, _⟩ := hx.kid_at hk2
      rw [hlen] at hrl
      have e1 : (((S1 ++ [some l]).length : Nat) : Int) = (K1.length : Int) + 1 := by
        simp [hlen]
      rw [e1] at hrr
      obtain ⟨x1, l1, E, hW1, hn1, hk1, hv1, hlw1, hln1, hio1⟩ :=
        merge_spec t h x l r S1 S2 K1 K2 (k, v) hx hk hv hlen (by omega)
      have hio := inorder_explicit (t := t) h hk hv hlen
      simp only [List.map_cons, rest_cons] at hio
      have hiox : inorder (h + 1) (some x1) = inorder (h + 1) (some x) := by
        rw [hio, inorder_explicit (t := t) h hk1 hv1 hlen, hio1]
        simp
      have hge : ∀ p ∈ K2, k ≤ p.1 := by
        intro p hp
        rw [hv] at hks
        exact hks.le_of_append_cons.2 p hp
      by_cases hz : x1.n = 0
      · have hvl1 := hW1.shape.kvs_length
        rw [hv1, hz] at hvl1
        simp only [List.length_append, Int.toNat_zero, Nat.add_eq_zero] at hvl1
        have hK1n : K1 = [] := List.length_eq_zero.mp hvl1.1
        have hK2n : K2 = [] := List.length_eq_zero.mp hvl1.2
        subst hK1n hK2n
        have hS1n : S1 = [] := List.length_eq_zero.mp (by simpa using hlen)
        subst hS1n
        have hkl1 := hW1.shape.kids_length
        rw [hk1, hz] at hkl1
        have hS2n : S2 = [] := List.length_eq_zero.mp (by simpa using hkl1)
        subst hS2n
        obtain ⟨hrd1, _, _, _⟩ := hW1.kid_at hk1
        simp only [List.length_nil, Nat.cast_zero] at hrd1
        have hio2 : inorder (h + 1) (some x1) = inorder h (some l1) := by
          rw [@inorder_explicit t h _ _ _ _ [] [] hk1 hv1 rfl]
          simp [pre, rest]
        obtain ⟨x', h', res, E', hW', hh', _, hR'⟩ :=
          IH g l1 k hlw1 (by omega) (by rw [← hio2, hiox]; exact hs) (by omega)
        refine ⟨x', h', res, hev _ ?_, hW', by omega, fun hh => by omega, ?_⟩
        · simp only [_remove_from_non_leaf, hrk, hrl, hrr, deref, Except.ok_bind, hl, if_false,
            ite_false, hr, E, hz, if_true, ite_true, hrd1, Except.pure_eq_ok,
            List.length_nil, Nat.cast_zero, zero_add] at hrk hrl hrr E ⊢
          simp only [hrk, hrl, hrr, E, Except.ok_bind, deref, hl, hr, if_false, ite_false, hz,
            if_true, ite_true, hrd1, E']
        · rw [← hiox, hio2]; exact hR'
      · obtain ⟨g', rfl⟩ : ∃ g', g = g' + 1 := ⟨g - 1, by omega⟩
        have hn1' : 1 ≤ x1.n := by have := hW1.shape.2.2.2.1; omega
        obtain ⟨x', res, E', hW', hn', hR'⟩ := reenter_spec t ht h IH g' x1 l1 S1 S2 K1 K2 k hW1
          hn1' hk1 hv1 hlen (by rw [hiox]; exact hs) hK1 hge (by omega) (by omega)
        refine ⟨x', h + 1, res, hev _ ?_, hW', le_refl _, fun hh => ⟨rfl, by omega⟩, ?_⟩
        · simp only [_remove_from_non_leaf, hrk, hrl, hrr, deref, Except.ok_bind, hl, if_false,
            ite_false, hr, E, hz, Except.pure_eq_ok, E']
        · rw [← hiox]; exact hR'
    · subst hi
      obtain ⟨S1, c, S2, hk, hlen⟩ := kids_decomp1 hx hv
      obtain ⟨x', res, E, hW, hn', _, hR⟩ := miss_step t ht h IH f x c S1 S2 K1 K2 k hx hn hk hv
        hlen hs hK1 hK2 hfind hhit (by omega)
      exact ⟨x', h + 1, res, E, hW, le_refl _, fun hh => ⟨rfl, by omega⟩, hR⟩

end BTree

namespace BTree

theorem remove_node_reseat (t : Int) (f : Nat) (r c : Node) (k : Int) (hr0 : r.n = 0)
    (hrd : rd r.c 0 = .ok (some c)) (hc : ¬ c.n = 0) :
    _remove_node t (f + 1) (some r) k = _remove_node t (f + 1) (some c) k := by
  simp only [_remove_node, deref, Except.ok_bind, hr0, if_true, ite_true, hrd, hc, if_false,
    ite_false, Except.pure_eq_ok]

/-- Source `BTree::remove` on a tree that holds a key. -/
theorem remove_root_spec (t : Int) (ht : 2 ≤ t) (h fuel : Nat) (tr : BTree) (r : Node) (k : Int)
    (hr : tr.root_ = some r) (hw : WF t h r) (hs : SortedKV (inorder h (some r)))
    (hne : inorder h (some r) ≠ []) (hf : 4 * h + 1 ≤ fuel) :
    ∃ tr' r' h' res, remove t fuel tr k = .ok (tr', res) ∧ tr'.root_ = some r' ∧ WF t h' r' ∧
      h' ≤ h ∧ RemSpec (inorder h (some r)) (inorder h' (some r')) k res := by
  have hn0 := hw.shape.2.2.2.1
  by_cases hn : 1 ≤ r.n
  · obtain ⟨x', h', res, E, hW, hh, _, hR⟩ := remove_node_ok t ht h fuel r k hw hn hs hf
    refine ⟨⟨some x'⟩, x', h', res, ?_, rfl, hW, hh, hR⟩
    simp only [remove, hr, E, Except.ok_bind, Except.pure_eq_ok]
  · have hz : r.n = 0 := by omega
    have hvl := hw.shape.kvs_length
    rw [hz] at hvl
    have hkv : r.kvs = [] := List.length_eq_zero.mp (by simpa using hvl)
    cases h with
    | zero => exact absurd hkv hne
    | succ h0 =>
      have hkl := hw.shape.kids_length
      rw [hz] at hkl
      obtain ⟨o, S2, hk⟩ := cons_of_length r.kids (by omega)
      have hS2 : S2 = [] := List.length_eq_zero.mp (by rw [hk] at hkl; simpa using hkl)
      subst hS2
      obtain ⟨c, rfl, hcw, hcn⟩ := hw.2.2 o (by rw [hk]; simp)
      have hk' : r.kids = [] ++ some c :: [] := hk
      obtain ⟨hrd, _, _, _⟩ := hw.kid_at hk'
      simp only [List.length_nil, Nat.cast_zero] at hrd
      have hio : inorder (h0 + 1) (some r) = inorder h0 (some c) := by
        rw [@inorder_explicit t h0 _ _ _ _ [] [] hk' hkv rfl]
        simp [pre, rest]
      obtain ⟨f, rfl⟩ : ∃ f, fuel = f + 1 := ⟨fuel - 1, by omega⟩
      obtain ⟨x', h', res, E, hW, hh, _, hR⟩ :=
        remove_node_ok t ht h0 (f + 1) c k hcw (by omega) (by rw [← hio]; exact hs) (by omega)
      refine ⟨⟨some x'⟩, x', h', res, ?_, rfl, hW, by omega, by rw [hio]; exact hR⟩
      simp only [remove, hr, remove_node_reseat t f r c k hz hrd (by omega), E, Except.ok_bind,
        Except.pure_eq_ok]

/-- With pairwise distinct keys, a removal is the deletion of the key from the finite map. -/
theorem remspec_filter {L L' : List (Int × Int)} {k : Int} {res : Bool}
    (h : RemSpec L L' k res) (hs : SortedKV L) (hd : (L.map Prod.fst).Nodup) :
    SortedKV L' ∧ L'.Perm (L.filter (fun p => decide (p.1 ≠ k))) ∧
      (res = true ↔ k ∈ L.map Prod.fst) := by
  rcases h with ⟨hr, he, hn⟩ | ⟨hr, hc, hsub, hperm⟩
  · subst he
    refine ⟨hs, ?_, ?_⟩
    · rw [List.filter_eq_self.mpr]
      intro p hp
      simpa using hn p hp
    · rw [hr]
      constructor
      · intro h; cases h
      · intro hk
        obtain ⟨p, hp, hpk⟩ := List.mem_map.mp hk
        exact absurd hpk (hn p hp)
  · have hd' : (k :: L'.map Prod.fst).Nodup := hperm.nodup_iff.mp hd
    have hk' : k ∉ L'.map Prod.fst := (List.nodup_cons.mp hd').1
    have hdL' : L'.Nodup := List.Nodup.of_map _ (List.nodup_cons.mp hd').2
    have hdL : L.Nodup := List.Nodup.of_map _ hd
    refine ⟨hc, ?_, ?_⟩
    · rw [List.perm_ext_iff_of_nodup hdL' (hdL.filter _)]
      intro p
      simp only [List.mem_filter, decide_eq_true_eq]
      constructor
      · intro hp
        exact ⟨hsub p hp, fun hpk => hk' (by rw [← hpk]; exact List.mem_map_of_mem _ hp)⟩
      · rintro ⟨hp, hpk⟩
        have h1 : p.1 ∈ k :: L'.map Prod.fst := hperm.mem_iff.mp (List.mem_map_of_mem _ hp)
        rcases List.mem_cons.mp h1 with h1 | h1
        · exact absurd h1 hpk
        · obtain ⟨q, hq, hqp⟩ := List.mem_map.mp h1
          have hq' := hsub q hq
          have : q = p := by
            have hv := nodup_keys_val L hd p.1 q.2 p.2 (by rw [← hqp]; exact hq') hp
            exact Prod.ext hqp hv
          rw [← this]; exact hq
    · rw [hr]
      simp only [true_iff]
      exact hperm.mem_iff.mpr (List.mem_cons_self _ _)

/-- A legal history of calls runs to completion, keeps the root well formed and the reading
sorted, and the reading holds the pairs of the finite map the history describes. -/
theorem calls_inv (t : Int) (ht : 2 ≤ t) : ∀ (ops : List Call) (C : List (Int × Int))
    (fuel : Nat) (tr : BTree) (h : Nat) (r : Node), tr.root_ = some r → WF t h r →
    SortedKV (inorder h (some r)) → (inorder h (some r)).Perm C → (C.map Prod.fst).Nodup →
    Legal C ops → 4 * (h + ops.length) + 2 ≤ fuel →
    ∃ tr' r' h', runCalls t fuel tr ops = .ok tr' ∧ tr'.root_ = some r' ∧ WF t h' r' ∧
      h' ≤ h + ops.length ∧ SortedKV (inorder h' (some r')) ∧
      (inorder h' (some r')).Perm (contents C ops) ∧ ((contents C ops).map Prod.fst).Nodup := by
  intro ops
  induction ops with
  | nil =>
    intro C fuel tr h r hr hw hs hp hd _ _
    exact ⟨tr, r, h, rfl, hr, hw, by simp, hs, hp, hd⟩
  | cons op ops ih =>
    intro C fuel tr h r hr hw hs hp hd hl hf
    simp only [List.length_cons] at hf
    cases op with
    | ins k v =>
      obtain ⟨hk, hl'⟩ := hl
      obtain ⟨tr1, r1, h1, E1, hr1, hw1, hh1, l1, l2, hL, hL', hl1, hl2⟩ :=
        insert_spec t ht h fuel tr r k v hr hw hs (by omega)
      have hs1 : SortedKV (inorder h1 (some r1)) := by
        rw [hL']; rw [hL] at hs
        exact hs.insert_mid hl1 hl2
      have hp1 : (inorder h1 (some r1)).Perm ((k, v) :: C) := by
        rw [hL']
        refine List.perm_middle.trans (List.Perm.cons _ ?_)
        rw [← hL]; exact hp
      have hd1 : (((k, v) :: C).map Prod.fst).Nodup := by
        simp only [List.map_cons, List.nodup_cons]
        exact ⟨hk, hd⟩
      obtain ⟨tr2, r2, h2, E2, hr2, hw2, hh2, hs2, hp2, hd2⟩ :=
        ih ((k, v) :: C) fuel tr1 h1 r1 hr1 hw1 hs1 hp1 hd1 hl' (by omega)
      refine ⟨tr2, r2, h2, ?_, hr2, hw2, by simp only [List.length_cons]; omega, hs2, hp2, hd2⟩
      simp only [runCalls, List.foldlM_cons, applyCall, E1, Except.ok_bind] at E2 ⊢
      exact E2
    | rem k =>
      obtain ⟨hne, hl'⟩ := hl
      have hne' : inorder h (some r) ≠ [] := by
        intro h0; rw [h0] at hp
        exact hne (List.Perm.eq_nil hp.symm)
      obtain ⟨tr1, r1, h1, res, E1, hr1, hw1, hh1, hR⟩ :=
        remove_root_spec t ht h fuel tr r k hr hw hs hne' (by omega)
      have hdL : ((inorder h (some r)).map Prod.fst).Nodup :=
        (hp.map Prod.fst).nodup_iff.mpr hd
      obtain ⟨hs1, hp1, _⟩ := remspec_filter hR hs hdL
      have hp1' : (inorder h1 (some r1)).Perm (C.filter (fun p => decide (p.1 ≠ k))) :=
        hp1.trans (hp.filter _)
      have hd1 : ((C.filter (fun p => decide (p.1 ≠ k))).map Prod.fst).Nodup :=
        hd.sublist ((List.filter_sublist C).map Prod.fst)
      obtain ⟨tr2, r2, h2, E2, hr2, hw2, hh2, hs2, hp2, hd2⟩ :=
        ih _ fuel tr1 h1 r1 hr1 hw1 hs1 hp1' hd1 hl' (by omega)
      refine ⟨tr2, r2, h2, ?_, hr2, hw2, by simp only [List.length_cons]; omega, hs2, hp2, hd2⟩
      simp only [runCalls, List.foldlM_cons, applyCall, E1, Except.ok_bind,
        Except.pure_eq_ok] at E2 ⊢
      exact E2

/-- Removal as deletion on a finite map, for any degree `t ≥ 2`. -/
theorem remove_is_deletion (t : Int) (ht : 2 ≤ t) (ops : List Call) (fuel : Nat) (k : Int)
    (hl : Legal [] ops) (hne : contents [] ops ≠ []) (hf : 4 * ops.length + 2 ≤ fuel) :
    ∃ tr b tr', runCalls t fuel (new t) ops = .ok tr ∧ contains fuel tr k = .ok b ∧
      remove t fuel tr k = .ok (tr', b) ∧ contains fuel tr' k = .ok false ∧
      ∀ j, j ≠ k → search fuel tr' j = search fuel tr j := by
  obtain ⟨hw0, hi0⟩ := new_wf t (by omega)
  obtain ⟨tr, r, h, E, hr, hw, hh, hs, hp, hd⟩ :=
    calls_inv t ht ops [] fuel (new t) 0 _ rfl hw0 (by rw [hi0]; exact List.Pairwise.nil)
      (by rw [hi0]) (by simp) hl (by omega)
  simp only [zero_add] at hh
  have hdL : ((inorder h (some r)).map Prod.fst).Nodup := (hp.map Prod.fst).nodup_iff.mpr hd
  have hneL : inorder h (some r) ≠ [] := by
    intro h0; rw [h0] at hp
    exact hne (List.Perm.eq_nil hp.symm)
  obtain ⟨tr', r', h', res, Er, hr', hw', hh', hR⟩ :=
    remove_root_spec t ht h fuel tr r k hr hw hs hneL (by omega)
  obtain ⟨hs', hp', hres⟩ := remspec_filter hR hs hdL
  have hsearch : ∀ j, ∃ a, search fuel tr j = .ok a ∧ (∀ v, a = some v → (j, v) ∈ inorder h (some r))
      ∧ (a = none → ∀ p ∈ inorder h (some r), p.1 ≠ j) := by
    intro j
    obtain ⟨a, Ea, h1, h2⟩ := search_spec t h fuel r j hw hs (by omega)
    exact ⟨a, by simp only [search, hr]; exact Ea, h1, h2⟩
  have hsearch' : ∀ j, ∃ a, search fuel tr' j = .ok a ∧
      (∀ v, a = some v → (j, v) ∈ inorder h' (some r')) ∧
      (a = none → ∀ p ∈ inorder h' (some r'), p.1 ≠ j) := by
    intro j
    obtain ⟨a, Ea, h1, h2⟩ := search_spec t h' fuel r' j hw' hs' (by omega)
    exact ⟨a, by simp only [search, hr']; exact Ea, h1, h2⟩
  have hmem' : ∀ p, p ∈ inorder h' (some r') ↔ p ∈ inorder h (some r) ∧ p.1 ≠ k := by
    intro p
    rw [hp'.mem_iff]
    simp [List.mem_filter]
  obtain ⟨a0, Ea0, ha1, ha2⟩ := hsearch k
  obtain ⟨a1, Ea1, hb1, hb2⟩ := hsearch' k
  have hb : res = a0.isSome := by
    cases a0 with
    | none =>
      cases res with
      | false => rfl
      | true =>
        obtain ⟨p, hp1, hp2⟩ := List.mem_map.mp (hres.mp rfl)
        exact absurd hp2 (ha2 rfl p hp1)
    | some v =>
      have : res = true := hres.mpr (List.mem_map.mpr ⟨(k, v), ha1 v rfl, rfl⟩)
      rw [this]; rfl
  have ha1n : a1 = none := by
    cases a1 with
    | none => rfl
    | some v => exact absurd rfl ((hmem' (k, v)).mp (hb1 v rfl)).2
  refine ⟨tr, a0.isSome, tr', E, ?_, by rw [← hb]; exact Er, ?_, ?_⟩
  · simp only [contains, Ea0, Except.ok_bind, Except.pure_eq_ok]
  · simp only [contains, Ea1, ha1n, Except.ok_bind, Except.pure_eq_ok, Option.isSome_none]
  · intro j hj
    obtain ⟨a, Ea, hA1, hA2⟩ := hsearch j
    obtain ⟨b, Eb, hB1, hB2⟩ := hsearch' j
    rw [Ea, Eb]
    congr 1
    cases b with
    | none =>
      cases a with
      | none => rfl
      | some v =>
        exact absurd rfl (hB2 rfl (j, v) ((hmem' (j, v)).mpr ⟨hA1 v rfl, hj⟩))
    | some v =>
      have hin := ((hmem' (j, v)).mp (hB1 v rfl)).1
      cases a with
      | none => exact absurd rfl (hA2 rfl (j, v) hin)
      | some v' =>
        rw [nodup_keys_val _ hdL j v v' hin (hA1 v' rfl)]

end BTree

namespace DiskBTree

theorem forall2_get {α β : Type} {R : α → β → Prop} : ∀ {l1 : List α} {l2 : List β},
    List.Forall₂ R l1 l2 → ∀ (i : Nat) (b : β), l2[i]? = some b → ∃ a, l1[i]? = some a ∧ R a b := by
  intro l1 l2 h
  induction h with
  | nil => intro i b hb; simp at hb
  | cons hab _ ih =>
    intro i b hb
    cases i with
    | zero =>
      simp only [List.getElem?_cons_zero, Option.some.injEq] at hb
      subst hb
      exact ⟨_, by simp, hab⟩
    | succ i =>
      simp only [List.getElem?_cons_succ] at hb ⊢
      exact ih i b hb

theorem NodeRel.flat {file : Int → Option DNode} {h : Nat} {dn : DNode} {M : BTree.Node}
    (hr : NodeRel file h dn M) : Flat dn M := by
  cases h with
  | zero => exact hr
  | succ h => exact hr.1

theorem read_at (t : Int) (s : DiskBTree) (p : Int) (b : Bool) (d : DNode)
    (h : s.file p = some d) : _disk_read s (_allocate_node t p b) = d := by
  simp only [_disk_read, _allocate_node, h]

/-- The child in slot `i` of a handle that stands for a well-formed in-memory node. -/
theorem NodeRel.kid_rel {t : Int} {file : Int → Option DNode} {h : Nat} {dn : DNode}
    {M : BTree.Node} (hr : NodeRel file (h + 1) dn M) (hw : BTree.WF t (h + 1) M) (i : Int)
    (h0 : 0 ≤ i) (hi : i ≤ M.n) :
    ∃ p dni Mi, rd dn.c i = .ok p ∧ file p = some dni ∧ dni.pos = p ∧
      rd M.c i = .ok (some Mi) ∧ M.kids[i.toNat]? = some (some Mi) ∧ NodeRel file h dni Mi ∧
      BTree.WF t h Mi ∧ t - 1 ≤ Mi.n := by
  obtain ⟨Mi, hrd, hk, hw', hn⟩ := hw.kid i h0 hi
  obtain ⟨p, hp, Mi', dni, e, hf, hpos, hR⟩ := forall2_get hr.2 i.toNat _ hk
  simp only [Option.some.injEq] at e
  subst e
  have hfl := hr.1
  exact ⟨p, dni, Mi, rd_view h0 (by rw [hfl.2.2.1]; omega) hp, hf, hpos, hrd, hk, hR, hw', hn⟩

/-- The search of the disk-resident tree computes what the in-memory search computes on the
tree the file stands for. -/
theorem sim_search (t : Int) : ∀ (h fuel : Nat) (s : DiskBTree) (dn : DNode) (M : BTree.Node)
    (k : Int), NodeRel s.file h dn M → BTree.WF t h M →
    _search t s fuel dn k = BTree._search fuel (some M) k := by
  intro h
  induction h with
  | zero =>
    intro fuel s dn M k hr hw
    cases fuel with
    | zero => rfl
    | succ f =>
      obtain ⟨e1, e2, e3, e4, _⟩ := hr
      have hl : M.leaf = true := hw.2
      simp only [_search, BTree._search, _find_key, BTree._find_key, hit, BTree.hit, e1, e2, e3,
        e4, hl]
      cases scanUp M.key M.n k (M.n.toNat + 1) 0 with
      | error e => rfl
      | ok i =>
        simp only [Except.ok_bind]
        cases (if i < M.n then do
            let ki ← rd M.key i
            pure (decide (k = ki)) else pure false : Except Err Bool) with
        | error e => rfl
        | ok b => cases b <;> rfl
  | succ h ih =>
    intro fuel s dn M k hr hw
    cases fuel with
    | zero => rfl
    | succ f =>
      have hfl := hr.1
      obtain ⟨e1, e2, e3, e4, _⟩ := hfl
      have hl : M.leaf = false := hw.2.1
      obtain ⟨i, E, hi0, hi1, _, _⟩ := scanUp_spec M.key M.n k hw.shape.2.2.2.1
        (by have := hw.shape.1; have := hw.shape.2.2.2.2; omega)
      obtain ⟨p, dni, Mi, hrd, hf, hpos, hrdM, _, hR, hwi, _⟩ := hr.kid_rel hw i hi0 hi1
      simp only [_search, BTree._search, _find_key, BTree._find_key, hit, BTree.hit, e1, e2, e3,
        e4, hl, E, Except.ok_bind, hrd, hrdM, read_at t s p false dni hf, ih f s dni Mi k hR hwi]

end DiskBTree

namespace DiskBTree

theorem fpKids_succ (file : Int → Option DNode) (h : Nat) (dn : DNode) :
    fpKids file (h + 1) dn = (view dn.c (dn.n + 1)).flatMap (fpAt file h) := rfl

theorem forall2_imp_mem {α β : Type} {R S : α → β → Prop} : ∀ {l1 : List α} {l2 : List β},
    List.Forall₂ R l1 l2 → (∀ a ∈ l1, ∀ b, R a b → S a b) → List.Forall₂ S l1 l2 := by
  intro l1 l2 h
  induction h with
  | nil => intro _; exact List.Forall₂.nil
  | cons hab _ ih =>
    intro hi
    exact List.Forall₂.cons (hi _ (List.mem_cons_self _ _) _ hab)
      (ih (fun a ha b => hi a (List.mem_cons_of_mem _ ha) b))

theorem forall2_split {α β : Type} {R : α → β → Prop} : ∀ (S1 : List β) {P : List α} {b : β}
    {S2 : List β}, List.Forall₂ R P (S1 ++ b :: S2) →
    ∃ P1 a P2, P = P1 ++ a :: P2 ∧ List.Forall₂ R P1 S1 ∧ R a b ∧ List.Forall₂ R P2 S2 ∧
      P1.length = S1.length := by
  intro S1
  induction S1 with
  | nil =>
    intro P b S2 h
    cases h with
    | cons hab ht => exact ⟨[], _, _, rfl, List.Forall₂.nil, hab, ht, rfl⟩
  | cons s S1 ih =>
    intro P b S2 h
    cases h with
    | cons hab ht =>
      obtain ⟨P1, a, P2, e, h1, h2, h3, h4⟩ := ih ht
      exact ⟨_ :: P1, a, P2, by rw [e]; rfl, List.Forall₂.cons hab h1, h2, h3, by simp [h4]⟩

theorem forall2_join {α β : Type} {R : α → β → Prop} {P1 P2 : List α} {S1 S2 : List β}
    (h1 : List.Forall₂ R P1 S1) (h2 : List.Forall₂ R P2 S2) :
    List.Forall₂ R (P1 ++ P2) (S1 ++ S2) := by
  induction h1 with
  | nil => exact h2
  | cons hab _ ih => exact List.Forall₂.cons hab ih

/-- Records outside the subtree under a handle do not matter to its footprint nor to the
in-memory tree it stands for. -/
theorem frame (file file' : Int → Option DNode) : ∀ (h : Nat) (dn : DNode),
    (∀ q ∈ fpKids file h dn, file' q = file q) →
    fpKids file' h dn = fpKids file h dn ∧
      ∀ M, NodeRel file h dn M → NodeRel file' h dn M := by
  intro h
  induction h with
  | zero => intro dn _; exact ⟨rfl, fun M hr => hr⟩
  | succ h ih =>
    intro dn hq
    have hkid : ∀ p ∈ view dn.c (dn.n + 1), file' p = file p ∧
        ∀ d, file p = some d → ∀ q ∈ fpKids file h d, file' q = file q := by
      intro p hp
      have hsub : ∀ q ∈ fpAt file h p, q ∈ fpKids file (h + 1) dn := by
        intro q hq'
        rw [fpKids_succ, List.mem_flatMap]
        exact ⟨p, hp, hq'⟩
      refine ⟨hq p (hsub p (by simp [fpAt])), ?_⟩
      intro d hd q hq'
      exact hq q (hsub q (by simp [fpAt, hd, hq']))
    constructor
    · rw [fpKids_succ, fpKids_succ]
      apply List.flatMap_congr
      intro p hp
      obtain ⟨e, hd⟩ := hkid p hp
      simp only [fpAt, e]
      cases hf : file p with
      | none => rfl
      | some d => simp only [(ih d (hd d hf)).1]
    · intro M hr
      refine ⟨hr.1, forall2_imp_mem hr.2 ?_⟩
      intro p hp o ⟨Mi, dni, e1, e2, e3, e4⟩
      obtain ⟨e, hd⟩ := hkid p hp
      exact ⟨Mi, dni, e1, by rw [e, e2], e3, (ih dni (hd dni e2)).2 Mi e4⟩

theorem frame_at (file file' : Int → Option DNode) (h : Nat) (p : Int)
    (hq : ∀ q ∈ fpAt file h p, file' q = file q) :
    fpAt file' h p = fpAt file h p ∧
      ∀ o, KidRel file (NodeRel file h) p o → KidRel file' (NodeRel file' h) p o := by
  have e := hq p (by simp [fpAt])
  constructor
  · simp only [fpAt, e]
    cases hf : file p with
    | none => rfl
    | some d =>
      simp only
      rw [(frame file file' h d (fun q hq' => hq q (by simp [fpAt, hf, hq']))).1]
  · intro o ⟨Mi, dni, e1, e2, e3, e4⟩
    exact ⟨Mi, dni, e1, by rw [e, e2], e3,
      (frame file file' h dni (fun q hq' => hq q (by simp [fpAt, e2, hq']))).2 Mi e4⟩

theorem frame_list (file file' : Int → Option DNode) (h : Nat) (Ps : List Int)
    (hq : ∀ q ∈ Ps.flatMap (fpAt file h), file' q = file q) :
    Ps.flatMap (fpAt file' h) = Ps.flatMap (fpAt file h) ∧
      ∀ S, List.Forall₂ (KidRel file (NodeRel file h)) Ps S →
        List.Forall₂ (KidRel file' (NodeRel file' h)) Ps S := by
  have hp : ∀ p ∈ Ps, ∀ q ∈ fpAt file h p, file' q = file q := by
    intro p hp q hq'
    exact hq q (List.mem_flatMap.mpr ⟨p, hp, hq'⟩)
  constructor
  · apply List.flatMap_congr
    intro p hp'
    exact (frame_at file file' h p (hp p hp')).1
  · intro S hS
    exact forall2_imp_mem hS (fun p hp' o ho => (frame_at file file' h p (hp p hp')).2 o ho)

/-- The record written by `_disk_write` and the records it leaves alone. -/
theorem write_file (s : DiskBTree) (x : DNode) (hx : x.pos ≠ -1) :
    (_disk_write s x).file x.pos = some x ∧ (∀ q, q ≠ x.pos → (_disk_write s x).file q = s.file q) ∧
      (_disk_write s x).next_pos_ = s.next_pos_ ∧ (_disk_write s x).root_ = s.root_ := by
  simp only [_disk_write, hx, if_false, ite_false, if_true, ite_true, true_and]
  refine ⟨?_, trivial⟩
  intro q hq
  simp only [hq, if_false, ite_false]

theorem alloc_key (t p : Int) (b : Bool) :
    (_allocate_node t p b).key = (BTree._allocate_node t).key := rfl

theorem alloc_val (t p : Int) (b : Bool) :
    (_allocate_node t p b).val = (BTree._allocate_node t).val := rfl

theorem alloc_pos (t p : Int) (b : Bool) : (_allocate_node t p b).pos = p := rfl

theorem alloc_leaf (t p : Int) (b : Bool) : (_allocate_node t p b).leaf = b := rfl

theorem alloc_n (t p : Int) (b : Bool) : (_allocate_node t p b).n = 0 := rfl

end DiskBTree

namespace DiskBTree

/-- Running `_split_child` of both trees on a handle `x` that agrees with the in-memory node
`Mx` and a full child `y` that agrees with `My`: the results and the contents of their arrays. -/
theorem split_arrays (t : Int) (ht : 1 ≤ t) (s : DiskBTree) (x y : DNode) (Mx My : BTree.Node)
    (i : Int) (hx : BTree.Shape t Mx) (h0 : 0 ≤ i) (hi : i ≤ Mx.n) (hfull : Mx.n < 2 * t - 1)
    (hy : rd Mx.c i = .ok (some My)) (hyS : BTree.Shape t My) (hyn : My.n = 2 * t - 1)
    (fx : Flat x Mx) (fy : Flat y My) (hxp : x.pos ≠ -1) (hyp : y.pos ≠ -1)
    (hnp : s.next_pos_ ≠ -1) (hd1 : y.pos ≠ x.pos) (hd2 : s.next_pos_ ≠ x.pos)
    (hd3 : y.pos ≠ s.next_pos_) :
    ∃ Mx' Zm s' x' z',
      BTree._split_child t Mx i = .ok Mx' ∧
      _split_child t s x i y = .ok (s', x', { y with n := t - 1 }) ∧
      Flat x' Mx' ∧ x'.pos = x.pos ∧ x'.n = x.n + 1 ∧
      view x'.c (x.n + 1 + 1) = (view x.c (x.n + 1)).take (i + 1).toNat ++ s.next_pos_ ::
        (view x.c (x.n + 1)).drop (i + 1).toNat ∧
      Mx'.kids = Mx.kids.take i.toNat ++ some (My.setN (t - 1)) :: some Zm ::
        Mx.kids.drop (i.toNat + 1) ∧
      Flat z' Zm ∧ z'.pos = s.next_pos_ ∧ z'.n = t - 1 ∧
      (My.leaf = false → view z'.c t = (y.c.drop t.toNat).take t.toNat ∧
        Zm.kids = (My.c.drop t.toNat).take t.toNat) ∧
      s'.next_pos_ = s.next_pos_ + 1 ∧ s'.root_ = s.root_ ∧
      s'.file x.pos = some x' ∧ s'.file s.next_pos_ = some z' ∧
      s'.file y.pos = some { y with n := t - 1 } ∧
      (∀ q, q ≠ x.pos → q ≠ s.next_pos_ → q ≠ y.pos → s'.file q = s.file q) := by
  obtain ⟨hxk, hxv, hxc, hxn0, hxn1⟩ := hx
  obtain ⟨hyk, hyv, hyc, hyn0, hyn1⟩ := hyS
  obtain ⟨hzk, hzv, hzc, _, _⟩ := BTree.allocate_shape t ht
  obtain ⟨fx1, fx2, fx3, fx4, fx5⟩ := fx
  obtain ⟨fy1, fy2, fy3, fy4, fy5⟩ := fy
  obtain ⟨zk, ezk, lzk, vzk⟩ := copyRange_spec (BTree._allocate_node t).key My.key (t - 1) 0 t
    (by omega) (by omega) (by omega) (by omega) (by omega)
  obtain ⟨zv, ezv, lzv, vzv⟩ := copyRange_spec (BTree._allocate_node t).val My.val (t - 1) 0 t
    (by omega) (by omega) (by omega) (by omega) (by omega)
  obtain ⟨zc, ezc, lzc, vzc⟩ := copyRange_spec (BTree._allocate_node t).c My.c t 0 t
    (by omega) (by omega) (by omega) (by omega) (by omega)
  have hdz : ((_allocate_node t s.next_pos_ y.leaf).c.length : Int) = 2 * t := by
    simp only [_allocate_node, List.length_replicate]; omega
  obtain ⟨dzc, edzc, ldzc, vdzc⟩ := copyRange_spec (_allocate_node t s.next_pos_ y.leaf).c y.c t 0 t
    (by omega) (by omega) (by omega) (by omega) (by omega)
  obtain ⟨mk, emk⟩ := rd_total My.key (t - 1) (by omega) (by omega)
  obtain ⟨mv, emv⟩ := rd_total My.val (t - 1) (by omega) (by omega)
  have ew1 := wr_ok (a := Mx.c) (some (My.setN (t - 1))) h0 (by omega)
  obtain ⟨c1, ec1, lc1, vc1⟩ := shiftUp_spec (Mx.c.set i.toNat (some (My.setN (t - 1)))) Mx.n
    (i + 1) (Mx.n + 1) rfl (by omega) (by omega) (by simp; omega)
  rw [List.length_set] at lc1
  obtain ⟨dc1, edc1, ldc1, vdc1⟩ := shiftUp_spec x.c Mx.n (i + 1) (Mx.n + 1) rfl (by omega)
    (by omega) (by omega)
  obtain ⟨k1, ek1, lk1, vk1⟩ := shiftUp_spec Mx.key (Mx.n - 1) i Mx.n (by omega) h0 hi (by omega)
  obtain ⟨v1, ev1, lv1, vv1⟩ := shiftUp_spec Mx.val (Mx.n - 1) i Mx.n (by omega) h0 hi (by omega)
  have ew2 : ∀ v, wr c1 (i + 1) v = .ok (c1.set (i + 1).toNat v) :=
    fun v => wr_ok v (by omega) (by omega)
  have edw2 : ∀ v, wr dc1 (i + 1) v = .ok (dc1.set (i + 1).toNat v) :=
    fun v => wr_ok v (by omega) (by omega)
  have ew3 := wr_ok (a := k1) mk h0 (by omega)
  have ew4 := wr_ok (a := v1) mv h0 (by omega)
  have hlt : i.toNat < (view Mx.c (Mx.n + 1)).length := by
    rw [view_length _ _ (by omega) (by omega)]; omega
  have e6 : (0 + t).toNat = t.toNat := by omega
  have e7 : (i + 1).toNat = i.toNat + 1 := by omega
  have hkids : ∀ z : BTree.Node, view (c1.set (i + 1).toNat (some z)) (Mx.n + 1 + 1)
      = (view Mx.c (Mx.n + 1)).take i.toNat ++ some (My.setN (t - 1)) :: some z ::
        (view Mx.c (Mx.n + 1)).drop (i.toNat + 1) := by
    intro z
    rw [vc1, view_set_inside, e7, BTree.set_take_drop _ _ _ _ hlt]
  have hvzc : view zc t = (My.c.drop t.toNat).take t.toNat := by
    unfold view at vzc ⊢
    rw [e6] at vzc
    simpa using vzc
  have hvdzc : view dzc t = (y.c.drop t.toNat).take t.toNat := by
    unfold view at vdzc ⊢
    rw [e6] at vdzc
    simpa using vdzc
  have ezk' : copyRange (BTree._allocate_node t).key y.key (t - 1) 0 t = .ok zk := by
    rw [fy1]; exact ezk
  have ezv' : copyRange (BTree._allocate_node t).val y.val (t - 1) 0 t = .ok zv := by
    rw [fy2]; exact ezv
  have emk' : rd y.key (t - 1) = .ok mk := by rw [fy1]; exact emk
  have emv' : rd y.val (t - 1) = .ok mv := by rw [fy2]; exact emv
  have edc1' : shiftUp x.c x.n (i + 1) = .ok dc1 := by rw [fx3]; exact edc1
  have ek1' : shiftUp x.key (x.n - 1) i = .ok k1 := by rw [fx1, fx3]; exact ek1
  have ev1' : shiftUp x.val (x.n - 1) i = .ok v1 := by rw [fx2, fx3]; exact ev1
  have hwf : ∀ (s0 : DiskBTree) (a b c : DNode) (pa pb pc : Int), a.pos = pa → b.pos = pb →
      c.pos = pc → pa ≠ -1 → pb ≠ -1 → pc ≠ -1 → pa ≠ pc → pb ≠ pc → pa ≠ pb →
      let s3 := _disk_write (_disk_write (_disk_write s0 a) b) c
      s3.next_pos_ = s0.next_pos_ ∧ s3.root_ = s0.root_ ∧ s3.file pc = some c ∧
        s3.file pb = some b ∧ s3.file pa = some a ∧
        ∀ q, q ≠ pc → q ≠ pb → q ≠ pa → s3.file q = s0.file q := by
    intro s0 a b c pa pb pc ea eb ec ha hb hc hac hbc hab
    subst ea eb ec
    obtain ⟨a1, a2, a3, a4⟩ := write_file s0 a ha
    obtain ⟨b1, b2, b3, b4⟩ := write_file (_disk_write s0 a) b hb
    obtain ⟨c1, c2, c3, c4⟩ := write_file (_disk_write (_disk_write s0 a) b) c hc
    refine ⟨by rw [c3, b3, a3], by rw [c4, b4, a4], c1, by rw [c2 _ hbc, b1],
      by rw [c2 _ hac, b2 _ hab, a1], ?_⟩
    intro q h1 h2 h3
    rw [c2 _ h1, b2 _ h2, a2 _ h3]
  cases hleaf : My.leaf with
  | true =>
    have hyl : y.leaf = true := by rw [fy4, hleaf]
    obtain ⟨w1, w2, w3, w4, w5, w6⟩ := hwf { s with next_pos_ := s.next_pos_ + 1 }
      { y with n := t - 1 }
      { key := zk, leaf := true, pos := s.next_pos_, n := t - 1, val := zv,
        c := (_allocate_node t s.next_pos_ true).c }
      { x with c := dc1.set (i + 1).toNat s.next_pos_, key := k1.set i.toNat mk,
               val := v1.set i.toNat mv, n := x.n + 1 }
      y.pos s.next_pos_ x.pos rfl rfl rfl hyp hnp hxp hd1 hd2 hd3
    simp only [hyl] at w1 w2 w3 w4 w5 w6
    simp only [BTree._split_child, hy, deref, Except.ok_bind, Except.pure_eq_ok,
      BTree.Node.key_setLeaf, BTree.Node.val_setLeaf, BTree.Node.c_setLeaf, ezk, ezv, ezc,
      BTree.Node.val_setKey, BTree.Node.leaf_setKey, hleaf, BTree.Node.c_setKey,
      BTree.Node.c_setVal, BTree.Node.key_setN, BTree.Node.val_setN, emk, emv, ew1,
      BTree.Node.c_setC, BTree.Node.n_setC, ec1, ew2, BTree.Node.key_setC,
      BTree.Node.val_setC, ek1, ev1, BTree.Node.n_setKey, BTree.Node.val_setKey,
      BTree.Node.key_setKey, BTree.Node.key_setVal, BTree.Node.val_setVal,
      BTree.Node.n_setVal, ew3, ew4, Bool.not_true, Bool.false_eq_true, if_false, ite_false,
      _split_child, hyl, alloc_key, alloc_val, alloc_pos, alloc_leaf, ezk', ezv', emk', emv',
      edc1', ek1', ev1', edw2]
    refine ⟨_, ((((BTree._allocate_node t).setLeaf true).setKey zk).setVal zv).setN (t - 1), _,
      { x with c := dc1.set (i + 1).toNat s.next_pos_, key := k1.set i.toNat mk,
               val := v1.set i.toNat mv, n := x.n + 1 },
      { key := zk, leaf := true, pos := s.next_pos_, n := t - 1, val := zv,
        c := (_allocate_node t s.next_pos_ true).c }, rfl, rfl, ?_, rfl, by simp, ?_, ?_, ?_,
      rfl, rfl, ?_, w1, w2, w3, w4, w5, w6⟩
    · refine ⟨by simp, by simp, by simp [fx3], by simp [fx4], ?_⟩
      simp only [List.length_set, BTree.Node.c_setN, BTree.Node.c_setVal, BTree.Node.c_setKey,
        BTree.Node.c_setC]
      omega
    · show view (dc1.set (i + 1).toNat s.next_pos_) (x.n + 1 + 1) = _
      rw [fx3]; exact vdc1 _
    · unfold BTree.Node.kids
      simpa using hkids _
    · refine ⟨by simp, by simp, by simp, by simp, ?_⟩
      simp only [BTree.Node.c_setN, BTree.Node.c_setVal, BTree.Node.c_setKey,
        BTree.Node.c_setLeaf]
      simp only [_allocate_node, BTree._allocate_node, BTree.Node.c, List.length_replicate]
    · intro h; cases h
  | false =>
    have hyl : y.leaf = false := by rw [fy4, hleaf]
    obtain ⟨w1, w2, w3, w4, w5, w6⟩ := hwf { s with next_pos_ := s.next_pos_ + 1 }
      { y with n := t - 1 }
      { key := zk, leaf := false, pos := s.next_pos_, n := t - 1, val := zv, c := dzc }
      { x with c := dc1.set (i + 1).toNat s.next_pos_, key := k1.set i.toNat mk,
               val := v1.set i.toNat mv, n := x.n + 1 }
      y.pos s.next_pos_ x.pos rfl rfl rfl hyp hnp hxp hd1 hd2 hd3
    rw [hyl] at edzc
    simp only [hyl] at w1 w2 w3 w4 w5 w6
    simp only [BTree._split_child, hy, deref, Except.ok_bind, Except.pure_eq_ok,
      BTree.Node.key_setLeaf, BTree.Node.val_setLeaf, BTree.Node.c_setLeaf, ezk, ezv, ezc,
      BTree.Node.val_setKey, BTree.Node.leaf_setKey, hleaf, BTree.Node.c_setKey,
      BTree.Node.c_setVal, BTree.Node.key_setN, BTree.Node.val_setN, emk, emv, ew1,
      BTree.Node.c_setC, BTree.Node.n_setC, ec1, ew2, BTree.Node.key_setC,
      BTree.Node.val_setC, ek1, ev1, BTree.Node.n_setKey, BTree.Node.val_setKey,
      BTree.Node.key_setKey, BTree.Node.key_setVal, BTree.Node.val_setVal,
      BTree.Node.n_setVal, ew3, ew4, Bool.not_false, if_true, ite_true,
      _split_child, hyl, alloc_key, alloc_val, alloc_pos, alloc_leaf, ezk', ezv', emk', emv',
      edzc, edc1', ek1', ev1', edw2]
    refine ⟨_, (((((BTree._allocate_node t).setLeaf false).setKey zk).setVal zv).setC zc).setN
      (t - 1), _,
      { x with c := dc1.set (i + 1).toNat s.next_pos_, key := k1.set i.toNat mk,
               val := v1.set i.toNat mv, n := x.n + 1 },
      { key := zk, leaf := false, pos := s.next_pos_, n := t - 1, val := zv, c := dzc },
      rfl, rfl, ?_, rfl, by simp, ?_, ?_, ?_, rfl, rfl, ?_, w1, w2, w3, w4, w5, w6⟩
    · refine ⟨by simp, by simp, by simp [fx3], by simp [fx4], ?_⟩
      simp only [List.length_set, BTree.Node.c_setN, BTree.Node.c_setVal, BTree.Node.c_setKey,
        BTree.Node.c_setC]
      omega
    · show view (dc1.set (i + 1).toNat s.next_pos_) (x.n + 1 + 1) = _
      rw [fx3]; exact vdc1 _
    · unfold BTree.Node.kids
      simpa using hkids _
    · refine ⟨by simp, by simp, by simp, by simp, ?_⟩
      simp only [BTree.Node.c_setN, BTree.Node.c_setC]
      rw [ldzc, lzc]
      simp only [_allocate_node, BTree._allocate_node, BTree.Node.c, List.length_replicate]
    · intro _
      refine ⟨hvdzc, ?_⟩
      unfold BTree.Node.kids
      simp only [BTree.Node.c_setN, BTree.Node.n_setN, BTree.Node.c_setC]
      have : t - 1 + 1 = t := by omega
      rw [this]; exact hvzc

end DiskBTree

namespace DiskBTree

theorem flat_setN {y : DNode} {My : BTree.Node} (f : Flat y My) (n : Int) :
    Flat { y with n := n } (My.setN n) := by
  obtain ⟨f1, f2, f3, f4, f5⟩ := f
  exact ⟨by simpa using f1, by simpa using f2, by simp, by simpa using f4, by simpa using f5⟩

theorem count_mem_pos {q : Int} {L : List Int} (h : q ∈ L) : 1 ≤ L.count q :=
  List.count_pos_iff.mpr h

/-- The two halves of a full child after `_split_child`, in a file that kept the records of its
descendants. -/
theorem split_halves (t : Int) (ht : 1 ≤ t) (h : Nat) (file file' : Int → Option DNode)
    (y z : DNode) (My Zm : BTree.Node) (hry : NodeRel file h y My) (hw : BTree.WF t h My)
    (hyn : My.n = 2 * t - 1) (fz : Flat z Zm) (hzn : z.n = t - 1)
    (hz : My.leaf = false → view z.c t = (y.c.drop t.toNat).take t.toNat ∧
        Zm.kids = (My.c.drop t.toNat).take t.toNat)
    (hfr : ∀ q ∈ fpKids file h y, file' q = file q) :
    NodeRel file' h { y with n := t - 1 } (My.setN (t - 1)) ∧ NodeRel file' h z Zm ∧
      fpKids file' h { y with n := t - 1 } ++ fpKids file' h z = fpKids file h y := by
  cases h with
  | zero => exact ⟨flat_setN hry (t - 1), fz, rfl⟩
  | succ h =>
    obtain ⟨fy, hkids⟩ := hry
    have hl := hw.2.1
    obtain ⟨hz1, hz2⟩ := hz hl
    have hS := hw.shape
    have hyn' : y.n = 2 * t - 1 := by rw [fy.2.2.1, hyn]
    have e0 : (2 * t - 1 + 1).toNat = t.toNat + t.toNat := by omega
    have e1 : view y.c (y.n + 1) = view y.c t ++ (y.c.drop t.toNat).take t.toNat := by
      unfold view
      rw [hyn', e0, List.take_add]
    have e2 : My.kids = view My.c t ++ (My.c.drop t.toNat).take t.toNat := by
      unfold BTree.Node.kids view
      rw [hyn, e0, List.take_add]
    have hylen : (y.c.length : Int) = 2 * t := by rw [fy.2.2.2.2]; exact hS.2.2.1
    have l1 : (view y.c t).length = t.toNat := by
      rw [view_length _ _ (by omega) (by omega)]
    have l2 : (view My.c t).length = t.toNat := by
      rw [view_length _ _ (by omega) (by have := hS.2.2.1; omega)]
    rw [e1, e2] at hkids
    have hA : List.Forall₂ (KidRel file (NodeRel file h)) (view y.c t) (view My.c t) := by
      have := List.forall₂_take t.toNat hkids
      rw [List.take_left' l1, List.take_left' l2] at this
      exact this
    have hB : List.Forall₂ (KidRel file (NodeRel file h)) ((y.c.drop t.toNat).take t.toNat)
        ((My.c.drop t.toNat).take t.toNat) := by
      have := List.forall₂_drop t.toNat hkids
      rw [List.drop_left' l1, List.drop_left' l2] at this
      exact this
    have efp : fpKids file (h + 1) y = (view y.c t).flatMap (fpAt file h) ++
        ((y.c.drop t.toNat).take t.toNat).flatMap (fpAt file h) := by
      rw [fpKids_succ, e1, List.flatMap_append]
    rw [efp] at hfr
    obtain ⟨a1, a2⟩ := frame_list file file' h (view y.c t)
      (fun q hq => hfr q (List.mem_append_left _ hq))
    obtain ⟨b1, b2⟩ := frame_list file file' h ((y.c.drop t.toNat).take t.toNat)
      (fun q hq => hfr q (List.mem_append_right _ hq))
    have e3 : t - 1 + 1 = t := by omega
    refine ⟨⟨flat_setN fy (t - 1), ?_⟩, ⟨fz, ?_⟩, ?_⟩
    · show List.Forall₂ _ (view y.c (t - 1 + 1)) (My.setN (t - 1)).kids
      have : (My.setN (t - 1)).kids = view My.c t := by
        unfold BTree.Node.kids
        simp only [BTree.Node.c_setN, BTree.Node.n_setN, e3]
      rw [this, e3]
      exact a2 _ hA
    · rw [hzn, e3, hz1, hz2]
      exact b2 _ hB
    · rw [efp, fpKids_succ, fpKids_succ, hzn]
      show (view y.c (t - 1 + 1)).flatMap _ ++ _ = _
      rw [e3, hz1, a1, b1]

/-- Splitting a full child on disk and in memory: the handle written back stands for the node
the in-memory split returns, and the tree under it gained exactly the position of the new
sibling. -/
theorem sim_split (t : Int) (ht : 1 ≤ t) (h : Nat) (s : DiskBTree) (x y : DNode)
    (Mx My : BTree.Node) (i : Int)
    (hr : NodeRel s.file (h + 1) x Mx) (hw : BTree.WF t (h + 1) Mx) (h0 : 0 ≤ i) (hi : i ≤ Mx.n)
    (hfull : Mx.n < 2 * t - 1) (hk : Mx.kids[i.toNat]? = some (some My)) (hyn : My.n = 2 * t - 1)
    (hP : (view x.c (x.n + 1))[i.toNat]? = some y.pos) (hf : s.file y.pos = some y)
    (hry : NodeRel s.file h y My) (hok : TreeOK s.file s.next_pos_ (h + 1) x) :
    ∃ Mx' s' x', BTree._split_child t Mx i = .ok Mx' ∧
      _split_child t s x i y = .ok (s', x', { y with n := t - 1 }) ∧
      x'.pos = x.pos ∧ s'.file x.pos = some x' ∧ NodeRel s'.file (h + 1) x' Mx' ∧
      TreeOK s'.file s'.next_pos_ (h + 1) x' ∧ s'.next_pos_ = s.next_pos_ + 1 ∧
      s'.root_ = s.root_ ∧
      (∀ q, q ∉ x.pos :: fpKids s.file (h + 1) x → q ≠ s.next_pos_ → s'.file q = s.file q) ∧
      (x'.pos :: fpKids s'.file (h + 1) x').Perm
        (s.next_pos_ :: x.pos :: fpKids s.file (h + 1) x) := by
  obtain ⟨hnd, hbd⟩ := hok
  have hfl := hr.1
  obtain ⟨My, hrdM, hkM, hwy, _⟩ := hw.kid i h0 hi
  rw [hk] at hkM
  simp only [Option.some.injEq] at hkM
  subst hkM
  rename_i hk0
  obtain ⟨eP, lP⟩ := decomp_at hP
  obtain ⟨eS, lS⟩ := decomp_at hk
  have efp : fpKids s.file (h + 1) x = ((view x.c (x.n + 1)).take i.toNat).flatMap (fpAt s.file h) ++
      (y.pos :: fpKids s.file h y ++
        ((view x.c (x.n + 1)).drop (i.toNat + 1)).flatMap (fpAt s.file h)) := by
    rw [fpKids_succ]
    conv_lhs => rw [eP]
    simp [List.flatMap_append, fpAt, hf]
  rw [efp] at hnd hbd
  rw [List.nodup_iff_count_le_one] at hnd
  have bx := hbd x.pos (List.mem_cons_self _ _)
  have byp := hbd y.pos (by simp)
  have hxy : y.pos ≠ x.pos := by
    intro e
    have := hnd x.pos
    simp [List.count_cons, List.count_append, e] at this
  obtain ⟨Mx', Zm, s', x', z', E1, E2, fx', xp, xn, vx, kx, fz, zp, zn, hz, snp, srt, fX, fZ, fY,
    fO⟩ := split_arrays t ht s x y Mx My i hw.shape h0 hi hfull hrdM hwy.shape hyn hfl hry.flat
      (by omega) (by omega) (by omega) hxy (by omega) (by omega)
  have key : ∀ q, q ∈ ((view x.c (x.n + 1)).take i.toNat).flatMap (fpAt s.file h) ∨
      q ∈ fpKids s.file h y ∨
      q ∈ ((view x.c (x.n + 1)).drop (i.toNat + 1)).flatMap (fpAt s.file h) →
      s'.file q = s.file q := by
    intro q hq
    have hc := hnd q
    have hb := hbd q (by
      simp only [List.mem_cons, List.mem_append]
      tauto)
    simp only [List.count_cons, List.count_append] at hc
    have hcnt : 1 ≤ List.count q
          (((view x.c (x.n + 1)).take i.toNat).flatMap (fpAt s.file h)) +
        (List.count q (fpKids s.file h y) +
          List.count q (((view x.c (x.n + 1)).drop (i.toNat + 1)).flatMap (fpAt s.file h))) := by
      rcases hq with hq | hq | hq
      · have := count_mem_pos hq; omega
      · have := count_mem_pos hq; omega
      · have := count_mem_pos hq; omega
    apply fO
    · intro e
      rw [e] at hc hcnt
      simp only [beq_self_eq_true, if_true] at hc
      omega
    · omega
    · intro e
      rw [e] at hc hcnt
      simp only [beq_self_eq_true, if_true] at hc
      omega
  obtain ⟨ry, rz, efy⟩ := split_halves t ht h s.file s'.file y z' My Zm hry hwy hyn fz zn hz
    (fun q hq => key q (Or.inr (Or.inl hq)))
  obtain ⟨a1, a2⟩ := frame_list s.file s'.file h ((view x.c (x.n + 1)).take i.toNat)
    (fun q hq => key q (Or.inl hq))
  obtain ⟨b1, b2⟩ := frame_list s.file s'.file h ((view x.c (x.n + 1)).drop (i.toNat + 1))
    (fun q hq => key q (Or.inr (Or.inr hq)))
  have e7 : (i + 1).toNat = i.toNat + 1 := by omega
  have etk : (view x.c (x.n + 1)).take (i + 1).toNat =
      (view x.c (x.n + 1)).take i.toNat ++ [y.pos] := by
    rw [e7, List.take_succ, hP]; rfl
  rw [e7] at vx
  rw [e7] at etk
  rw [etk] at vx
  have efp' : fpKids s'.file (h + 1) x' =
      ((view x.c (x.n + 1)).take i.toNat).flatMap (fpAt s.file h) ++
      (y.pos :: fpKids s'.file h { y with n := t - 1 } ++
        (s.next_pos_ :: fpKids s'.file h z' ++
        ((view x.c (x.n + 1)).drop (i.toNat + 1)).flatMap (fpAt s.file h))) := by
    rw [fpKids_succ, xn, vx]
    simp [List.flatMap_append, fpAt, fY, fZ, a1, b1]
  have hperm : (x'.pos :: fpKids s'.file (h + 1) x').Perm
      (s.next_pos_ :: x.pos :: fpKids s.file (h + 1) x) := by
    rw [efp', efp, xp, ← efy]
    rw [List.perm_iff_count]
    intro a
    simp only [List.count_cons, List.count_append]
    omega
  refine ⟨Mx', s', x', E1, E2, xp, fX, ⟨fx', ?_⟩, ⟨?_, ?_⟩, snp, srt, ?_, hperm⟩
  · rw [xn, vx, kx]
    have hT := a2 _ (List.forall₂_take i.toNat hr.2)
    have hD := b2 _ (List.forall₂_drop (i.toNat + 1) hr.2)
    have hY : KidRel s'.file (NodeRel s'.file h) y.pos (some (My.setN (t - 1))) :=
      ⟨_, _, rfl, fY, rfl, ry⟩
    have hZ : KidRel s'.file (NodeRel s'.file h) s.next_pos_ (some Zm) :=
      ⟨_, _, rfl, fZ, zp, rz⟩
    have := forall2_join hT (List.Forall₂.cons hY (List.Forall₂.cons hZ hD))
    simpa using this
  · rw [hperm.nodup_iff, List.nodup_cons]
    refine ⟨?_, ?_⟩
    · intro hm
      rw [efp] at hm
      have := (hbd _ hm).2
      omega
    · rw [efp, List.nodup_iff_count_le_one]
      exact hnd
  · intro p hp
    rw [hperm.mem_iff, efp] at hp
    rw [snp]
    rcases List.mem_cons.mp hp with e | hp
    · rw [e]; omega
    · have := hbd p hp; omega
  · intro q hq hqn
    rw [efp] at hq
    simp only [List.mem_cons, List.mem_append, not_or] at hq
    exact fO q hq.1 hqn hq.2.2.1.1

end DiskBTree

namespace DiskBTree

theorem fpAt_of {file : Int → Option DNode} {h : Nat} {d : DNode} (hf : file d.pos = some d) :
    fpAt file h d.pos = d.pos :: fpKids file h d := by
  simp only [fpAt, hf]

theorem fp_decomp {file : Int → Option DNode} {h : Nat} {x d : DNode} {j : Nat}
    (hP : (view x.c (x.n + 1))[j]? = some d.pos) (hf : file d.pos = some d) :
    fpKids file (h + 1) x = ((view x.c (x.n + 1)).take j).flatMap (fpAt file h) ++
      (d.pos :: fpKids file h d ++ ((view x.c (x.n + 1)).drop (j + 1)).flatMap (fpAt file h)) := by
  obtain ⟨eP, _⟩ := decomp_at hP
  rw [fpKids_succ]
  conv_lhs => rw [eP]
  rw [List.flatMap_append, List.flatMap_cons, fpAt_of hf]

/-- The subtree under a child of a tree is a tree. -/
theorem TreeOK.kid_ok {file : Int → Option DNode} {np : Int} {h : Nat} {x d : DNode} {j : Nat}
    (hok : TreeOK file np (h + 1) x) (hP : (view x.c (x.n + 1))[j]? = some d.pos)
    (hf : file d.pos = some d) : TreeOK file np h d := by
  obtain ⟨hnd, hbd⟩ := hok
  rw [fp_decomp hP hf] at hnd hbd
  have hsl : (d.pos :: fpKids file h d).Sublist
      (((view x.c (x.n + 1)).take j).flatMap (fpAt file h) ++
      (d.pos :: fpKids file h d ++ ((view x.c (x.n + 1)).drop (j + 1)).flatMap (fpAt file h))) :=
    List.Sublist.trans (List.sublist_append_left _ _) (List.sublist_append_right _ _)
  refine ⟨(List.nodup_cons.mp hnd).2.sublist hsl, ?_⟩
  intro q hq
  exact hbd q (List.mem_cons_of_mem _ (hsl.subset hq))

/-- A parent whose child in slot `j` was rewritten in place (the file changed only under that
child and at new positions) stands for the in-memory parent with the new child in slot `j`. -/
theorem sim_descend (h : Nat) (file file' : Int → Option DNode) (np np' : Int) (x d d' : DNode)
    (M M2 Mi Mi' : BTree.Node) (j : Nat)
    (hr : NodeRel file (h + 1) x M) (hok : TreeOK file np (h + 1) x) (hxf : file x.pos = some x)
    (hP : (view x.c (x.n + 1))[j]? = some d.pos) (hk : M.kids[j]? = some (some Mi))
    (hdf : file d.pos = some d)
    (hd' : file' d.pos = some d') (hdp : d'.pos = d.pos) (hr' : NodeRel file' h d' Mi')
    (hok' : TreeOK file' np' h d') (hnp : np ≤ np')
    (hfr : ∀ q, q ∉ d.pos :: fpKids file h d → q < np → file' q = file q)
    (hnew : ∀ q ∈ fpKids file' h d', q ∈ fpKids file h d ∨ np ≤ q)
    (hfl : Flat x M2) (hk2 : M2.kids = M.kids.set j (some Mi')) :
    file' x.pos = some x ∧ NodeRel file' (h + 1) x M2 ∧ TreeOK file' np' (h + 1) x ∧
    (∀ q, q ∉ x.pos :: fpKids file (h + 1) x → q < np → file' q = file q) ∧
    (∀ q ∈ fpKids file' (h + 1) x, q ∈ fpKids file (h + 1) x ∨ np ≤ q) := by
  obtain ⟨hnd, hbd⟩ := hok
  obtain ⟨hnd', hbd'⟩ := hok'
  obtain ⟨eP, lP⟩ := decomp_at hP
  obtain ⟨eS, lS⟩ := decomp_at hk
  have efp := fp_decomp (h := h) hP hdf
  rw [efp] at hnd hbd
  rw [List.nodup_iff_count_le_one] at hnd hnd'
  have key : ∀ q, q ∈ ((view x.c (x.n + 1)).take j).flatMap (fpAt file h) ∨
      q ∈ ((view x.c (x.n + 1)).drop (j + 1)).flatMap (fpAt file h) ∨ q = x.pos →
      file' q = file q := by
    intro q hq
    have hc := hnd q
    have hb := hbd q (by
      simp only [List.mem_cons, List.mem_append]
      tauto)
    simp only [List.count_cons, List.count_append] at hc
    apply hfr q _ hb.2
    intro hm
    have h1 : 1 ≤ (if d.pos == q then 1 else 0) + List.count q (fpKids file h d) := by
      rcases List.mem_cons.mp hm with e | hm
      · rw [e]; simp
      · have := count_mem_pos hm; omega
    rcases hq with hq | hq | hq
    · have := count_mem_pos hq; omega
    · have := count_mem_pos hq; omega
    · rw [hq] at hc h1
      simp only [beq_self_eq_true, if_true] at hc
      omega
  obtain ⟨a1, a2⟩ := frame_list file file' h ((view x.c (x.n + 1)).take j)
    (fun q hq => key q (Or.inl hq))
  obtain ⟨b1, b2⟩ := frame_list file file' h ((view x.c (x.n + 1)).drop (j + 1))
    (fun q hq => key q (Or.inr (Or.inl hq)))
  have hd2 : file' d'.pos = some d' := by rw [hdp]; exact hd'
  have hP' : (view x.c (x.n + 1))[j]? = some d'.pos := by rw [hdp]; exact hP
  have efp' := fp_decomp (h := h) hP' hd2
  rw [a1, b1, hdp] at efp'
  have hxf' : file' x.pos = some x := by rw [key x.pos (Or.inr (Or.inr rfl)), hxf]
  have hmem' : ∀ q ∈ fpKids file' (h + 1) x, q ∈ fpKids file (h + 1) x ∨ np ≤ q := by
    intro q hq
    rw [efp'] at hq
    rw [efp]
    simp only [List.mem_cons, List.mem_append] at hq ⊢
    rcases hq with hq | (hq | hq) | hq
    · tauto
    · tauto
    · rcases hnew q hq with hq | hq
      · tauto
      · exact Or.inr hq
    · tauto
  refine ⟨hxf', ⟨hfl, ?_⟩, ⟨?_, ?_⟩, ?_, hmem'⟩
  · rw [hk2]
    have e1 : M.kids.set j (some Mi') = M.kids.take j ++ some Mi' :: M.kids.drop (j + 1) := by
      conv_lhs => rw [eS]
      exact set_explicit _ _ _ _ _ lS
    rw [e1, eP]
    have hT := a2 _ (List.forall₂_take j hr.2)
    have hD := b2 _ (List.forall₂_drop (j + 1) hr.2)
    have hY : KidRel file' (NodeRel file' h) d.pos (some Mi') := ⟨_, _, rfl, hd', hdp, hr'⟩
    exact forall2_join hT (List.Forall₂.cons hY hD)
  · rw [efp', List.nodup_iff_count_le_one]
    intro a
    have hc := hnd a
    have hc' := hnd' a
    rw [hdp] at hc'
    simp only [List.count_cons, List.count_append] at hc hc' ⊢
    by_cases hm : a ∈ fpKids file' h d'
    · rcases hnew a hm with hm2 | hm2
      · have := count_mem_pos hm2
        omega
      · have n1 : List.count a (((view x.c (x.n + 1)).take j).flatMap (fpAt file h)) = 0 := by
          apply List.count_eq_zero_of_not_mem
          intro hq
          have := (hbd a (by simp only [List.mem_cons, List.mem_append]; tauto)).2
          omega
        have n2 : List.count a (((view x.c (x.n + 1)).drop (j + 1)).flatMap (fpAt file h))
            = 0 := by
          apply List.count_eq_zero_of_not_mem
          intro hq
          have := (hbd a (by simp only [List.mem_cons, List.mem_append]; tauto)).2
          omega
        have n3 : (if x.pos == a then 1 else 0) = 0 := by
          have := (hbd x.pos (List.mem_cons_self _ _)).2
          have hne : x.pos ≠ a := by omega
          simp [hne]
        omega
    · have := List.count_eq_zero_of_not_mem hm
      omega
  · intro q hq
    rcases List.mem_cons.mp hq with e | hq
    · have := hbd x.pos (List.mem_cons_self _ _)
      rw [e]; omega
    · rw [efp'] at hq
      simp only [List.mem_cons, List.mem_append] at hq
      have old : q ∈ x.pos :: (((view x.c (x.n + 1)).take j).flatMap (fpAt file h) ++
          (d.pos :: fpKids file h d ++
            ((view x.c (x.n + 1)).drop (j + 1)).flatMap (fpAt file h))) → 0 ≤ q ∧ q < np' := by
        intro hm
        have := hbd q hm
        omega
      rcases hq with hq | (hq | hq) | hq
      · exact old (by simp only [List.mem_cons, List.mem_append]; tauto)
      · exact old (by simp only [List.mem_cons, List.mem_append]; tauto)
      · exact hbd' q (List.mem_cons_of_mem _ hq)
      · exact old (by simp only [List.mem_cons, List.mem_append]; tauto)
  · intro q hq hlt
    apply hfr q _ hlt
    intro hm
    apply hq
    rw [efp]
    simp only [List.mem_cons, List.mem_append] at hm ⊢
    tauto

end DiskBTree

namespace DiskBTree

theorem read_pos (s : DiskBTree) (c d : DNode) (p : Int) (hf : s.file p = some d) :
    _disk_read s { c with pos := p } = d := by
  simp only [_disk_read, hf]

theorem sim_insert_leaf (t : Int) (ht : 1 ≤ t) : InsSim t 0 := by
  intro fuel s x M M' k v hr hw hfull hok hxf hM
  cases fuel with
  | zero => cases hM
  | succ f =>
    obtain ⟨hS, hleaf⟩ := hw
    obtain ⟨h1, h2, h3, h4, h5⟩ := hS
    obtain ⟨f1, f2, f3, f4, f5⟩ := hr
    obtain ⟨key', val', i, E, hi0, hi1, lk, lv, _⟩ :=
      shiftWhile_spec M.key M.val M.n k h4 (by omega) (by omega)
    have w1 := wr_ok (a := key') k (i := i + 1) (by omega) (by omega)
    have w2 := wr_ok (a := val') v (i := i + 1) (by omega) (by omega)
    simp only [BTree._insert_non_full, hleaf, if_true, ite_true, E, Except.ok_bind, w1, w2,
      Except.pure_eq_ok, Except.ok.injEq] at hM
    subst hM
    have hxl : x.leaf = true := by rw [f4, hleaf]
    have E' : shiftWhile k (x.n.toNat + 1) x.key x.val (x.n - 1) = .ok (key', val', i) := by
      rw [f1, f2, f3]; exact E
    have hb := hok.2 x.pos (List.mem_cons_self _ _)
    have hxp : x.pos ≠ -1 := by omega
    obtain ⟨g1, g2, g3, g4⟩ := write_file s
      { x with key := key'.set (i + 1).toNat k, val := val'.set (i + 1).toNat v, n := x.n + 1 }
      hxp
    refine ⟨_, { x with key := key'.set (i + 1).toNat k, val := val'.set (i + 1).toNat v,
                        n := x.n + 1 }, ?_, g1, rfl, ?_, ?_, ?_, g4, ?_, ?_⟩
    · simp only [_insert_non_full, hxl, if_true, ite_true, E', Except.ok_bind, w1, w2,
        Except.pure_eq_ok]
    · exact ⟨by simp, by simp, by simp [f3], by simp [f4], by simpa using f5⟩
    · refine ⟨by simp [fpKids], ?_⟩
      intro p hp
      simp only [fpKids, List.mem_singleton] at hp
      rw [g3, hp]
      exact hb
    · rw [g3]
    · intro q hq _
      apply g2
      intro e
      apply hq
      rw [e]
      exact List.mem_cons_self _ _
    · intro q hq
      simp [fpKids] at hq

/-- One level of `_insert_non_full`: the recursive call on the child in slot `j`. -/
theorem sim_insert_step (t : Int) (h : Nat) (ih : InsSim t h) (f : Nat) (s : DiskBTree)
    (x : DNode) (M : BTree.Node) (k v : Int) (j : Int) (Mj c' : BTree.Node)
    (hr : NodeRel s.file (h + 1) x M) (hw : BTree.WF t (h + 1) M)
    (hok : TreeOK s.file s.next_pos_ (h + 1) x) (hxf : s.file x.pos = some x)
    (h0 : 0 ≤ j) (hj : j ≤ M.n) (hk : M.kids[j.toNat]? = some (some Mj))
    (hn : Mj.n < 2 * t - 1) (hrec : BTree._insert_non_full t f Mj k v = .ok c') :
    ∃ d s', rd x.c j = .ok d.pos ∧ s.file d.pos = some d ∧
      _insert_non_full t f s d k v = .ok s' ∧
      wr M.c j (some c') = .ok (M.c.set j.toNat (some c')) ∧
      s'.file x.pos = some x ∧ NodeRel s'.file (h + 1) x (M.setC (M.c.set j.toNat (some c'))) ∧
      TreeOK s'.file s'.next_pos_ (h + 1) x ∧ s.next_pos_ ≤ s'.next_pos_ ∧
      s'.root_ = s.root_ ∧
      (∀ q, q ∉ x.pos :: fpKids s.file (h + 1) x → q < s.next_pos_ → s'.file q = s.file q) ∧
      (∀ q ∈ fpKids s'.file (h + 1) x, q ∈ fpKids s.file (h + 1) x ∨ s.next_pos_ ≤ q) := by
  obtain ⟨p, d, Mi, hrd, hdf, hdp, hrdM, hkid, hrd', hwi, hni⟩ := hr.kid_rel hw j h0 hj
  subst hdp
  rw [hk] at hkid
  simp only [Option.some.injEq] at hkid
  subst hkid
  have hfl := hr.1
  have hP : (view x.c (x.n + 1))[j.toNat]? = some d.pos :=
    view_rd (by rw [hfl.2.2.1]; omega) hrd
  obtain ⟨s', d', E, hd', hdp', hr2, hok2, hnp, hrt, hfr, hnew⟩ :=
    ih f s d Mj c' k v hrd' hwi hn (hok.kid_ok hP hdf) hdf hrec
  obtain ⟨hw1, hS2, hkv2, hkid2⟩ := BTree.setC_child t M j (some c') hw.shape h0 hj
  have hfl2 : Flat x (M.setC (M.c.set j.toNat (some c'))) := by
    obtain ⟨f1, f2, f3, f4, f5⟩ := hfl
    exact ⟨by simpa using f1, by simpa using f2, by simpa using f3, by simpa using f4,
      by simpa using f5⟩
  obtain ⟨r1, r2, r3, r4, r5⟩ := sim_descend h s.file s'.file s.next_pos_ s'.next_pos_ x d d'
    M _ Mj c' j.toNat hr hok hxf hP hk hdf hd' hdp' hr2 hok2 hnp hfr hnew hfl2 hkid2
  exact ⟨d, s', hrd, hdf, E, hw1, r1, r2, r3, hnp, hrt, r4, r5⟩

end DiskBTree

namespace DiskBTree

/-- The disk-resident `_insert_non_full` leaves in the file the tree the in-memory
`_insert_non_full` returns. -/
theorem sim_insert_non_full (t : Int) (ht : 1 ≤ t) : ∀ h : Nat, InsSim t h := by
  intro h
  induction h with
  | zero => exact sim_insert_leaf t ht
  | succ h ih =>
    intro fuel s x M M' k v hr hw hfull hok hxf hM
    cases fuel with
    | zero => cases hM
    | succ f =>
      have hS := hw.shape
      have hleaf : M.leaf = false := hw.2.1
      obtain ⟨h1, h2, h3, h4, h5⟩ := hS
      obtain ⟨f1, f2, f3, f4, f5⟩ := hr.1
      obtain ⟨i, E, hi0, hi1, _, _⟩ := scanDown_spec M.key M.n k h4 (by omega)
      obtain ⟨p, d, Mi, hrd, hdf, hdp, hrdM, hkid, hrd', hwi, hni⟩ :=
        hr.kid_rel hw (i + 1) (by omega) (by omega)
      subst hdp
      have hP : (view x.c (x.n + 1))[(i + 1).toNat]? = some d.pos :=
        view_rd (by rw [f3]; omega) hrd
      have hxl : x.leaf = false := by rw [f4, hleaf]
      have E' : scanDown x.key k (x.n.toNat + 1) (x.n - 1) = .ok i := by
        rw [f1, f3]; exact E
      have hdn : d.n = Mi.n := hrd'.flat.2.2.1
      by_cases hcf : Mi.n = 2 * t - 1
      · obtain ⟨Mx', s1, x1, E1, E2, xp, fX, r1, ok1, snp, srt, fO, hperm⟩ :=
          sim_split t ht h s x d M Mi (i + 1) hr hw (by omega) (by omega) hfull hkid hcf hP hdf
            hrd' hok
        obtain ⟨x1', yl, z, m, E1', W1, n1, kvs1, kids1, ylW, zW, yln, zn, hio⟩ :=
          BTree.split_child_wf t ht h M Mi (i + 1) hw (by omega) (by omega) hfull hkid hcf
        rw [E1] at E1'
        simp only [Except.ok.injEq] at E1'
        subst E1'
        have hkl := hw.shape.kids_length
        have hvl := hw.shape.kvs_length
        have lA : (M.kids.take (i + 1).toNat).length = (i + 1).toNat := by
          rw [List.length_take]; omega
        have lK : (M.kvs.take (i + 1).toNat).length = (i + 1).toNat := by
          rw [List.length_take]; omega
        have hm1 : Mx'.kvs[(i + 1).toNat]? = some m := by
          rw [kvs1, List.getElem?_append_right (by omega), lK]; simp
        have rdm : rd Mx'.key (i + 1) = .ok m.1 :=
          rd_view (n := Mx'.n) (by omega) (by omega) (BTree.kvs_key_at W1.shape hm1)
        have rdm' : rd x1.key (i + 1) = .ok m.1 := by rw [r1.1.1]; exact rdm
        have hdn' : d.n = 2 * t - 1 := by rw [hdn, hcf]
        have fX' : s1.file x1.pos = some x1 := by rw [xp]; exact fX
        have tail : ∀ (j : Int) (Mj : BTree.Node), 0 ≤ j → j ≤ Mx'.n →
            Mx'.kids[j.toNat]? = some (some Mj) → Mj.n < 2 * t - 1 →
            (do let c ← BTree._insert_non_full t f Mj k v
                let a ← wr Mx'.c j (some c)
                pure (Mx'.setC a)) = Except.ok M' →
            ∃ dj s2, rd x1.c j = .ok dj.pos ∧ s1.file dj.pos = some dj ∧
              _insert_non_full t f s1 dj k v = .ok s2 ∧ s2.file x.pos = some x1 ∧
              NodeRel s2.file (h + 1) x1 M' ∧ TreeOK s2.file s2.next_pos_ (h + 1) x1 ∧
              s.next_pos_ ≤ s2.next_pos_ ∧ s2.root_ = s.root_ ∧
              (∀ q, q ∉ x.pos :: fpKids s.file (h + 1) x → q < s.next_pos_ →
                s2.file q = s.file q) ∧
              (∀ q ∈ fpKids s2.file (h + 1) x1, q ∈ fpKids s.file (h + 1) x ∨
                s.next_pos_ ≤ q) := by
          intro j Mj hj0 hj1 hkj hnj hM
          cases hrec : BTree._insert_non_full t f Mj k v with
          | error e => rw [hrec] at hM; cases hM
          | ok c' =>
            obtain ⟨dj, s2, a1, a2, a3, a4, a5, a6, a7, a8, a9, a10, a11⟩ :=
              sim_insert_step t h ih f s1 x1 Mx' k v j Mj c' r1 W1 ok1 fX' hj0 hj1 hkj hnj hrec
            rw [hrec] at hM
            simp only [Except.ok_bind, a4, Except.pure_eq_ok, Except.ok.injEq] at hM
            subst hM
            refine ⟨dj, s2, a1, a2, a3, by rw [← xp]; exact a5, a6, a7, by omega,
              by rw [a9, srt], ?_, ?_⟩
            · intro q hq hlt
              have hq1 : q ∉ x1.pos :: fpKids s1.file (h + 1) x1 := by
                intro hm
                rw [hperm.mem_iff] at hm
                rcases List.mem_cons.mp hm with e | hm
                · omega
                · exact hq hm
              rw [a10 q hq1 (by omega), fO q hq (by omega)]
            · intro q hq
              rcases a11 q hq with hq | hq
              · have hm : q ∈ x1.pos :: fpKids s1.file (h + 1) x1 :=
                  List.mem_cons_of_mem _ hq
                rw [hperm.mem_iff] at hm
                rcases List.mem_cons.mp hm with e | hm
                · right; omega
                · rcases List.mem_cons.mp hm with e | hm
                  · exfalso
                    have hnd := ok1.1
                    rw [List.nodup_cons] at hnd
                    apply hnd.1
                    rw [xp, ← e]
                    exact hq
                  · exact Or.inl hm
              · right; omega
        by_cases hk : k > m.1
        · have e2 : (i + 1 + 1).toNat = (i + 1).toNat + 1 := by omega
          have hz : Mx'.kids[(i + 1 + 1).toNat]? = some (some z) := by
            rw [kids1, e2, List.getElem?_append_right (by omega), lA]; simp
          obtain ⟨z0, hrdz, hkz, _, _⟩ := W1.kid (i + 1 + 1) (by omega) (by omega)
          rw [hz] at hkz
          simp only [Option.some.injEq] at hkz
          subst hkz
          simp only [BTree._insert_non_full, hleaf, E, Except.ok_bind, hrdM, deref, hcf, if_true,
            ite_true, E1, rdm, hk, hrdz, Except.pure_eq_ok, Bool.false_eq_true, if_false,
            ite_false] at hM
          obtain ⟨dj, s2, a1, a2, a3, a5, a6, a7, a8, a9, a10, a11⟩ :=
            tail (i + 1 + 1) z (by omega) (by omega) hz (by omega) hM
          refine ⟨s2, x1, ?_, a5, xp, a6, a7, a8, a9, a10, a11⟩
          simp only [_insert_non_full, hxl, E', Except.ok_bind, hrd, read_at t s d.pos false d hdf,
            hdn', if_true, ite_true, E2, rdm', hk, Except.pure_eq_ok, Bool.false_eq_true,
            if_false, ite_false, a1]
          simp only [_disk_read, a2, a3]
        · have hyl : Mx'.kids[(i + 1).toNat]? = some (some yl) := by
            rw [kids1, List.getElem?_append_right (by omega), lA]; simp
          obtain ⟨y0, hrdy, hky, _, _⟩ := W1.kid (i + 1) (by omega) (by omega)
          rw [hyl] at hky
          simp only [Option.some.injEq] at hky
          subst hky
          simp only [BTree._insert_non_full, hleaf, E, Except.ok_bind, hrdM, deref, hcf, if_true,
            ite_true, E1, rdm, hk, hrdy, Except.pure_eq_ok, Bool.false_eq_true, if_false,
            ite_false] at hM
          obtain ⟨dj, s2, a1, a2, a3, a5, a6, a7, a8, a9, a10, a11⟩ :=
            tail (i + 1) yl (by omega) (by omega) hyl (by omega) hM
          refine ⟨s2, x1, ?_, a5, xp, a6, a7, a8, a9, a10, a11⟩
          simp only [_insert_non_full, hxl, E', Except.ok_bind, hrd, read_at t s d.pos false d hdf,
            hdn', if_true, ite_true, E2, rdm', hk, Except.pure_eq_ok, Bool.false_eq_true,
            if_false, ite_false, a1]
          simp only [_disk_read, a2, a3]
      · simp only [BTree._insert_non_full, hleaf, E, Except.ok_bind, hrdM, deref, hcf, if_false,
          ite_false, Except.pure_eq_ok, Bool.false_eq_true] at hM
        cases hrec : BTree._insert_non_full t f Mi k v with
        | error e => rw [hrec] at hM; cases hM
        | ok c' =>
          obtain ⟨dj, s2, a1, a2, a3, a4, a5, a6, a7, a8, a9, a10, a11⟩ :=
            sim_insert_step t h ih f s x M k v (i + 1) Mi c' hr hw hok hxf (by omega) (by omega)
              hkid (by have := hwi.shape.2.2.2.2; omega) hrec
          rw [hrec] at hM
          simp only [Except.ok_bind, a4, Except.pure_eq_ok, Except.ok.injEq] at hM
          subst hM
          have hdn' : ¬ d.n = 2 * t - 1 := by rw [hdn]; exact hcf
          refine ⟨s2, x, ?_, a5, rfl, a6, a7, a8, a9, a10, a11⟩
          rw [hrd] at a1
          simp only [Except.ok.injEq] at a1
          have edj : dj = d := by
            rw [← a1, hdf] at a2
            simp only [Option.some.injEq] at a2
            exact a2.symm
          subst edj
          simp only [_insert_non_full, hxl, E', Except.ok_bind, hrd,
            read_at t s dj.pos false dj hdf, hdn', if_false, ite_false, Except.pure_eq_ok,
            Bool.false_eq_true, read_pos s _ dj dj.pos hdf, a3]

end DiskBTree

namespace DiskBTree

/-- The first `insert`, on a tree with no node allocated. -/
theorem insert_first (t : Int) (ht : 1 ≤ t) (fuel : Nat) (s : DiskBTree) (k v : Int)
    (h0 : s.next_pos_ = 0) :
    ∃ s' M, insert t fuel s k v = .ok s' ∧ Rep s' 0 M ∧ BTree.WF t 0 M ∧
      BTree.inorder 0 (some M) = [(k, v)] := by
  have hS := BTree.allocate_shape t ht
  obtain ⟨h1, h2, h3, h4, h5⟩ := hS
  have w1 := wr_ok (a := (BTree._allocate_node t).key) k (i := 0) (by omega) (by omega)
  have w2 := wr_ok (a := (BTree._allocate_node t).val) v (i := 0) (by omega) (by omega)
  have hn0 : (BTree._allocate_node t).n = 0 := rfl
  have hxp : (DNode.mk ((BTree._allocate_node t).key.set (0 : Int).toNat k) true 0 (0 + 1)
      ((BTree._allocate_node t).val.set (0 : Int).toNat v) (_allocate_node t 0 true).c).pos
      ≠ -1 := by
    show (0 : Int) ≠ -1
    omega
  obtain ⟨g1, g2, g3, g4⟩ := write_file { s with root_ := 0, next_pos_ := 0 + 1 } _ hxp
  have E : insert t fuel s k v = .ok (_disk_write { s with root_ := 0, next_pos_ := 0 + 1 }
      (DNode.mk ((BTree._allocate_node t).key.set (0 : Int).toNat k) true 0 (0 + 1)
      ((BTree._allocate_node t).val.set (0 : Int).toNat v) (_allocate_node t 0 true).c)) := by
    simp only [insert, h0, if_true, ite_true, alloc_key, alloc_val, alloc_n, w1, w2,
      Except.ok_bind, Except.pure_eq_ok]
    rfl
  refine ⟨_, (((((BTree._allocate_node t).setLeaf true).setKey
    ((BTree._allocate_node t).key.set (0 : Int).toNat k)).setVal
    ((BTree._allocate_node t).val.set (0 : Int).toNat v)).setN (0 + 1)), E,
    ⟨(DNode.mk ((BTree._allocate_node t).key.set (0 : Int).toNat k) true 0 (0 + 1)
      ((BTree._allocate_node t).val.set (0 : Int).toNat v) (_allocate_node t 0 true).c),
      ?_, ?_, ?_, ?_⟩,
    ⟨⟨?_, ?_, ?_, ?_, ?_⟩, ?_⟩, ?_⟩
  · rw [g4]; exact g1
  · rw [g4]
  · refine ⟨by simp, by simp, by simp, by simp, ?_⟩
    simp only [BTree.Node.c_setN, BTree.Node.c_setVal, BTree.Node.c_setKey,
      BTree.Node.c_setLeaf]
    simp only [_allocate_node, BTree._allocate_node, BTree.Node.c, List.length_replicate]
  · refine ⟨by simp [fpKids], ?_⟩
    intro p hp
    simp only [fpKids, List.mem_singleton] at hp
    rw [g3, hp]
    show (0 : Int) ≤ 0 ∧ (0 : Int) < 0 + 1
    omega
  · simpa using h1
  · simpa using h2
  · simpa using h3
  · simp
  · simp; omega
  · simp
  · show BTree.Node.kvs _ = _
    unfold BTree.Node.kvs
    simp only [BTree.Node.key_setN, BTree.Node.val_setN, BTree.Node.n_setN,
      BTree.Node.key_setVal, BTree.Node.key_setKey, BTree.Node.val_setVal]
    have e1 : ∀ (a : List Int) (y : Int), 0 < a.length →
        view (a.set (0 : Int).toNat y) (0 + 1) = [y] := by
      intro a y ha
      cases a with
      | nil => simp at ha
      | cons b a => simp [view]
    rw [e1 _ _ (by omega), e1 _ _ (by omega)]
    rfl

end DiskBTree

namespace DiskBTree

theorem insert_rep (t : Int) (ht : 2 ≤ t) (h fuel : Nat) (s : DiskBTree) (M : BTree.Node)
    (k v : Int) (hrep : Rep s h M) (hw : BTree.WF t h M)
    (hs : SortedKV (BTree.inorder h (some M))) (hf : h + 1 < fuel) :
    ∃ s' M' h', insert t fuel s k v = .ok s' ∧ Rep s' h' M' ∧ BTree.WF t h' M' ∧ h' ≤ h + 1 ∧
      ∃ l1 l2, BTree.inorder h (some M) = l1 ++ l2 ∧
        BTree.inorder h' (some M') = l1 ++ (k, v) :: l2 ∧
        (∀ p ∈ l1, p.1 ≤ k) ∧ (∀ p ∈ l2, k ≤ p.1) := by
  obtain ⟨r, hrf, hrp, hrr, hok⟩ := hrep
  have hb := hok.2 r.pos (List.mem_cons_self _ _)
  have hnp0 : ¬ s.next_pos_ = 0 := by omega
  have hread : _disk_read s (_allocate_node t s.root_ false) = r := read_at t s s.root_ false r hrf
  have hfl := hrr.flat
  by_cases hn : M.n = 2 * t - 1
  · have hrn : r.n = 2 * t - 1 := by rw [hfl.2.2.1, hn]
    have w0 := wr_ok (a := (_allocate_node t s.next_pos_ false).c) s.root_ (i := 0) (by omega)
      (by simp only [_allocate_node, List.length_replicate]; omega)
    obtain ⟨ew, sW, sn, skids, skvs⟩ := BTree.new_root_wf t (by omega) h M hw hn
    have hkid : (((BTree._allocate_node t).setC ((BTree._allocate_node t).c.set 0
        (some M))).setLeaf false).kids[(0 : Int).toNat]? = some (some M) := by rw [skids]; rfl
    have hc0 : 0 < (_allocate_node t s.next_pos_ false).c.length := by
      simp only [_allocate_node, List.length_replicate]; omega
    have hv0 : view ((_allocate_node t s.next_pos_ false).c.set (Int.toNat 0) s.root_) (0 + 1)
        = [s.root_] := by
      cases hc : (_allocate_node t s.next_pos_ false).c with
      | nil => rw [hc] at hc0; simp at hc0
      | cons a l => simp [view]
    have hfp0 : fpKids s.file (h + 1) (DNode.mk (_allocate_node t s.next_pos_ false).key
        (_allocate_node t s.next_pos_ false).leaf (_allocate_node t s.next_pos_ false).pos
        (_allocate_node t s.next_pos_ false).n (_allocate_node t s.next_pos_ false).val
        ((_allocate_node t s.next_pos_ false).c.set (Int.toNat 0) s.root_))
        = r.pos :: fpKids s.file h r := by
      rw [fpKids_succ]
      show (view ((_allocate_node t s.next_pos_ false).c.set (Int.toNat 0) s.root_)
        (0 + 1)).flatMap _ = _
      rw [hv0]
      simp [fpAt, hrf, hrp]
    have hr0 : NodeRel s.file (h + 1) (DNode.mk (_allocate_node t s.next_pos_ false).key
        (_allocate_node t s.next_pos_ false).leaf (_allocate_node t s.next_pos_ false).pos
        (_allocate_node t s.next_pos_ false).n (_allocate_node t s.next_pos_ false).val
        ((_allocate_node t s.next_pos_ false).c.set (Int.toNat 0) s.root_))
        (((BTree._allocate_node t).setC ((BTree._allocate_node t).c.set 0
        (some M))).setLeaf false) := by
      refine ⟨⟨by simp [alloc_key], by simp [alloc_val], by simp [alloc_n, sn],
        by simp [alloc_leaf], ?_⟩, ?_⟩
      · simp only [List.length_set, BTree.Node.c_setLeaf, BTree.Node.c_setC]
        simp only [_allocate_node, BTree._allocate_node, BTree.Node.c, List.length_replicate]
      · show List.Forall₂ _ (view ((_allocate_node t s.next_pos_ false).c.set (Int.toNat 0)
          s.root_) (0 + 1)) _
        rw [hv0, skids]
        exact List.Forall₂.cons ⟨M, r, rfl, hrf, hrp, hrr⟩ List.Forall₂.nil
    have hok0 : TreeOK s.file (s.next_pos_ + 1) (h + 1)
        (DNode.mk (_allocate_node t s.next_pos_ false).key
        (_allocate_node t s.next_pos_ false).leaf (_allocate_node t s.next_pos_ false).pos
        (_allocate_node t s.next_pos_ false).n (_allocate_node t s.next_pos_ false).val
        ((_allocate_node t s.next_pos_ false).c.set (Int.toNat 0) s.root_)) := by
      unfold TreeOK
      rw [hfp0]
      show (s.next_pos_ :: r.pos :: fpKids s.file h r).Nodup ∧
        ∀ p ∈ s.next_pos_ :: r.pos :: fpKids s.file h r, 0 ≤ p ∧ p < s.next_pos_ + 1
      refine ⟨List.nodup_cons.mpr ⟨?_, hok.1⟩, ?_⟩
      · intro hm
        have := hok.2 _ hm
        omega
      · intro p hp
        rcases List.mem_cons.mp hp with e | hp
        · rw [e]; omega
        · have := hok.2 p hp; omega
    obtain ⟨Mx', s1, x1, E1, E2, xp, fX, r1, ok1, snp, srt, fO, hperm⟩ :=
      sim_split t (by omega) h (DiskBTree.mk (_allocate_node t s.next_pos_ false).pos
        (s.next_pos_ + 1) s.file) _ r _ M 0 hr0 sW (le_refl _) (by omega) (by omega) hkid hn
        (by
          show (view ((_allocate_node t s.next_pos_ false).c.set (Int.toNat 0) s.root_)
            (0 + 1))[(0 : Int).toNat]? = _
          rw [hv0, hrp]; rfl)
        (by rw [hrp]; exact hrf) hrr hok0
    obtain ⟨x1', yl, z, m, E1', W1, n1, kvs1, kids1, ylW, zW, yln, zn, hio⟩ :=
      BTree.split_child_wf t (by omega) h _ M 0 sW (by omega) (by omega) (by omega) hkid hn
    rw [E1] at E1'
    simp only [Except.ok.injEq] at E1'
    subst E1'
    have hio1 := BTree.split_inorder t h _ Mx' M yl z m 0 sW.shape W1.shape hkid kvs1 kids1 hio
    have hs0 : BTree.inorder (h + 1) (some (((BTree._allocate_node t).setC
        ((BTree._allocate_node t).c.set 0 (some M))).setLeaf false)) = BTree.inorder h (some M) := by
      show inter (List.map (BTree.inorder h) (BTree.Node.kids _)) (BTree.Node.kvs _) = _
      rw [skids, skvs]
      simp [inter, rest]
    have hs1 : SortedKV (BTree.inorder (h + 1) (some Mx')) := by rw [hio1, hs0]; exact hs
    rw [skvs] at kvs1
    rw [skids] at kids1
    simp only [Int.toNat_zero, List.take_zero, List.nil_append, List.drop_zero, zero_add,
      List.drop_succ_cons, List.drop_nil] at kvs1 kids1
    have hm1 : Mx'.kvs[(0 : Int).toNat]? = some m := by rw [kvs1]; rfl
    have rdm : rd Mx'.key 0 = .ok m.1 :=
      rd_view (n := Mx'.n) (by omega) (by omega) (BTree.kvs_key_at W1.shape hm1)
    have rdm' : rd x1.key 0 = .ok m.1 := by rw [r1.1.1]; exact rdm
    have fX' : s1.file x1.pos = some x1 := by rw [xp]; exact fX
    simp only [insert, hnp0, if_false, ite_false, hread, hrn, ne_eq, not_true_eq_false,
      Except.ok_bind, Except.pure_eq_ok, w0, E2, rdm']
    have tail : ∀ (j : Int) (Mj : BTree.Node), 0 ≤ j → j ≤ 1 →
        Mx'.kids[j.toNat]? = some (some Mj) → Mj.n = t - 1 → BTree.WF t h Mj →
        (∀ m', 0 < j.toNat → Mx'.kvs[j.toNat - 1]? = some m' → m'.1 ≤ k) →
        (∀ m', (Mx'.kvs.drop j.toNat).head? = some m' → k ≤ m'.1) →
        ∃ s' M' h', (do
            let a ← rd x1.c j
            _insert_non_full t fuel s1 (s1._disk_read (_allocate_node t a false)) k v)
            = Except.ok s' ∧ Rep s' h' M' ∧ BTree.WF t h' M' ∧ h' ≤ h + 1 ∧
          ∃ l1 l2, BTree.inorder h (some M) = l1 ++ l2 ∧
            BTree.inorder h' (some M') = l1 ++ (k, v) :: l2 ∧
            (∀ p ∈ l1, p.1 ≤ k) ∧ (∀ p ∈ l2, k ≤ p.1) := by
      intro j Mj hj0 hj1 hkj hnj hWj hlo hhi
      have hcs := W1.kid_sorted hkj hs1
      obtain ⟨c', Ec, hcw', hcn', a, b, hab, hab', ha, hb⟩ :=
        BTree.insert_non_full_spec t (by omega) h fuel Mj k v hWj (by omega) hcs (by omega)
      obtain ⟨dj, s2, a1, a2, a3, a4, a5, a6, a7, a8, a9, a10, a11⟩ :=
        sim_insert_step t h (sim_insert_non_full t (by omega) h) fuel s1 x1 Mx' k v j Mj c' r1 W1
          ok1 fX' hj0 (by omega) hkj (by omega) Ec
      obtain ⟨hw', hW2, hn2, l1, l2, hl, hl', hl1, hl2⟩ :=
        BTree.insert_descend t h Mx' Mj c' j k v a b W1 hj0 (by omega) hkj hs1 hlo hhi hcw'
          (by omega) hab hab' ha hb
      refine ⟨s2, _, h + 1, ?_, ⟨x1, ?_, ?_, a6, a7⟩, hW2, le_refl _, l1, l2, ?_, hl', hl1, hl2⟩
      · simp only [a1, Except.ok_bind, read_at t s1 dj.pos false dj a2, a3]
      · rw [a9, srt]
        show s2.file (_allocate_node t s.next_pos_ false).pos = some x1
        have : x1.pos = (_allocate_node t s.next_pos_ false).pos := xp
        rw [← this]; exact a5
      · rw [a9, srt]; exact xp
      · rw [← hs0, ← hio1]; exact hl
    by_cases hk : m.1 < k
    · simp only [hk, if_true, ite_true]
      refine tail 1 z (by omega) (by omega) (by rw [kids1]; rfl) zn zW ?_ ?_
      · intro m' _ hm'
        rw [kvs1] at hm'
        simp at hm'
        rw [← hm']; omega
      · intro m' hm'
        rw [kvs1] at hm'
        simp at hm'
    · simp only [hk, if_false, ite_false]
      refine tail 0 yl (by omega) (by omega) (by rw [kids1]; rfl) yln ylW ?_ ?_
      · intro m' hpos
        simp at hpos
      · intro m' hm'
        rw [kvs1] at hm'
        simp at hm'
        rw [← hm']; omega
  · have hrn : ¬ r.n = 2 * t - 1 := by rw [hfl.2.2.1]; exact hn
    obtain ⟨M', Ex, W', _, l1, l2, hl, hl', hl1, hl2⟩ :=
      BTree.insert_non_full_spec t (by omega) h fuel M k v hw
        (by have := hw.shape.2.2.2.2; omega) hs (by omega)
    obtain ⟨s', x', E, hx', hxp', hr2, hok2, hnp, hrt, _, _⟩ :=
      sim_insert_non_full t (by omega) h fuel s r M M' k v hrr hw
        (by have := hw.shape.2.2.2.2; omega) hok (by rw [hrp]; exact hrf) Ex
    refine ⟨s', M', h, ?_, ⟨x', by rw [hrt, ← hrp]; exact hx', by rw [hxp', hrp, hrt], hr2,
      hok2⟩, W', by omega, l1, l2, hl, hl', hl1, hl2⟩
    simp only [insert, hnp0, if_false, ite_false, hread, hrn, ne_eq, not_false_eq_true, if_true,
      ite_true, Except.ok_bind, E, Except.pure_eq_ok]

end DiskBTree

namespace DiskBTree

/-- One `insert` on a tree that holds the pairs `L`. -/
theorem insert_holds (t : Int) (ht : 2 ≤ t) (fuel : Nat) (s : DiskBTree) (L : List (Int × Int))
    (k v : Int) (hH : Holds t s L) (hf : L.length + 1 < fuel) :
    ∃ s', insert t fuel s k v = .ok s' ∧ Holds t s' ((k, v) :: L) := by
  rcases hH with ⟨h0, hL⟩ | ⟨h, M, hrep, hw, hs, hp, hh⟩
  · obtain ⟨s', M, E, hrep, hw, hio⟩ := insert_first t (by omega) fuel s k v h0
    refine ⟨s', E, Or.inr ⟨0, M, hrep, hw, ?_, ?_, by simp⟩⟩
    · rw [hio]; exact List.pairwise_singleton _ _
    · rw [hio, hL]
  · obtain ⟨s', M', h', E, hrep', hw', hh', l1, l2, hl, hl', hl1, hl2⟩ :=
      insert_rep t ht h fuel s M k v hrep hw hs (by omega)
    refine ⟨s', E, Or.inr ⟨h', M', hrep', hw', ?_, ?_, by simp only [List.length_cons]; omega⟩⟩
    · rw [hl']; rw [hl] at hs
      exact hs.insert_mid hl1 hl2
    · rw [hl']
      rw [hl] at hp
      exact List.perm_middle.trans (List.Perm.cons _ hp)

/-- A run of `insert` calls on a tree that holds the pairs `L`. -/
theorem insertAll_holds (t : Int) (ht : 2 ≤ t) : ∀ (kvs : List (Int × Int)) (fuel : Nat)
    (s : DiskBTree) (L : List (Int × Int)), Holds t s L → L.length + kvs.length < fuel →
    ∃ s', insertAll t fuel s kvs = .ok s' ∧ Holds t s' (kvs.reverse ++ L) := by
  intro kvs
  induction kvs with
  | nil =>
    intro fuel s L hH _
    exact ⟨s, rfl, by simpa using hH⟩
  | cons p ps ih =>
    intro fuel s L hH hf
    simp only [List.length_cons] at hf
    obtain ⟨s1, E1, H1⟩ := insert_holds t ht fuel s L p.1 p.2 hH (by omega)
    obtain ⟨s2, E2, H2⟩ := ih fuel s1 (p :: L) H1 (by simp only [List.length_cons]; omega)
    refine ⟨s2, ?_, by simpa using H2⟩
    simp only [insertAll, List.foldlM_cons, E1, Except.ok_bind] at E2 ⊢
    exact E2

/-- Searching a tree that holds pairs: a value found is one of the pairs held with the key, and
nothing is found only if no pair has the key. -/
theorem search_holds (t : Int) (fuel : Nat) (s : DiskBTree) (h : Nat) (M : BTree.Node) (k : Int)
    (hrep : Rep s h M) (hw : BTree.WF t h M) (hs : SortedKV (BTree.inorder h (some M)))
    (hf : h < fuel) :
    ∃ res, search t fuel s k = .ok res ∧
      (∀ v, res = some v → (k, v) ∈ BTree.inorder h (some M)) ∧
      (res = none → ∀ p ∈ BTree.inorder h (some M), p.1 ≠ k) := by
  obtain ⟨r, hrf, hrp, hrr, hok⟩ := hrep
  obtain ⟨res, E, h1, h2⟩ := BTree.search_spec t h fuel M k hw hs hf
  refine ⟨res, ?_, h1, h2⟩
  unfold search
  rw [read_at t s s.root_ false r hrf, sim_search t h fuel s r M k hrr hw]
  exact E

/-- Inserting keys, each with the value `f` makes of it, into a new disk-resident tree: every
key of the list is then found, with its value. -/
theorem disk_round_trip (t : Int) (ht : 2 ≤ t) (f : Int → Int) (ks : List Int) (fuel : Nat)
    (hf : ks.length < fuel) :
    ∃ s, insertAll t fuel new (ks.map (fun k => (k, f k))) = .ok s ∧
      ∀ k ∈ ks, contains t fuel s k = .ok true ∧ search t fuel s k = .ok (some (f k)) := by
  obtain ⟨s, E, H⟩ := insertAll_holds t ht (ks.map (fun k => (k, f k))) fuel new []
    (Or.inl ⟨rfl, rfl⟩) (by simpa using hf)
  refine ⟨s, E, ?_⟩
  intro k hk
  rw [List.append_nil] at H
  have hmem : (k, f k) ∈ (ks.map (fun k => (k, f k))).reverse :=
    List.mem_reverse.mpr (List.mem_map.mpr ⟨k, hk, rfl⟩)
  rcases H with ⟨_, hL⟩ | ⟨h, M, hrep, hw, hs, hp, hh⟩
  · rw [hL] at hmem; cases hmem
  · simp only [List.length_reverse, List.length_map] at hh
    obtain ⟨res, Es, h1, h2⟩ := search_holds t fuel s h M k hrep hw hs (by omega)
    have hres : res = some (f k) := by
      cases res with
      | none =>
        exact absurd rfl (h2 rfl (k, f k) (hp.mem_iff.mpr hmem))
      | some v =>
        have hm := hp.mem_iff.mp (h1 v rfl)
        rw [List.mem_reverse, List.mem_map] at hm
        obtain ⟨k', _, e⟩ := hm
        simp only [Prod.mk.injEq] at e
        rw [← e.2, e.1]
    subst hres
    refine ⟨?_, Es⟩
    simp only [contains, Es, Except.ok_bind, Except.pure_eq_ok, Option.isSome_some]

end DiskBTree

namespace DiskBTree

/-- A write of the record already stored changes nothing. -/
theorem write_same (s : DiskBTree) (x : DNode) (hx : x.pos ≠ -1) (hf : s.file x.pos = some x) :
    (∀ q, (_disk_write s x).file q = s.file q) ∧
      (_disk_write s x).next_pos_ = s.next_pos_ ∧ (_disk_write s x).root_ = s.root_ := by
  obtain ⟨g1, g2, g3, g4⟩ := write_file s x hx
  refine ⟨?_, g3, g4⟩
  intro q
  by_cases e : q = x.pos
  · rw [e, g1, hf]
  · exact g2 q e

/-- Equal files give the same footprints and relations. -/
theorem frame_all (file file' : Int → Option DNode) (hq : ∀ q, file' q = file q) (h : Nat)
    (dn : DNode) :
    fpKids file' h dn = fpKids file h dn ∧ ∀ M, NodeRel file h dn M → NodeRel file' h dn M :=
  frame file file' h dn (fun q _ => hq q)

/-- A node whose children in a middle range were rebuilt, the file changing only at the node
and under those children: the new handle stands for the new in-memory node and the subtree
under it is a tree within the old one. -/
theorem sim_rebuild (h : Nat) (file file' : Int → Option DNode) (np : Int) (x x' : DNode)
    (M M' : BTree.Node) (P1 Pm Pm' P2 : List Int) (S1 Sm Sm' S2 : List (Option BTree.Node))
    (hr : NodeRel file (h + 1) x M) (hok : TreeOK file np (h + 1) x)
    (hP : view x.c (x.n + 1) = P1 ++ Pm ++ P2) (hS : M.kids = S1 ++ Sm ++ S2)
    (hl1 : P1.length = S1.length) (hlm : Pm.length = Sm.length)
    (hfl : Flat x' M') (hpos : x'.pos = x.pos)
    (hP' : view x'.c (x'.n + 1) = P1 ++ Pm' ++ P2) (hS' : M'.kids = S1 ++ Sm' ++ S2)
    (hmid : List.Forall₂ (KidRel file' (NodeRel file' h)) Pm' Sm')
    (hfr : ∀ q, q ∉ x.pos :: Pm.flatMap (fpAt file h) → file' q = file q)
    (hnd : (Pm'.flatMap (fpAt file' h)).Nodup)
    (hsub : ∀ q ∈ Pm'.flatMap (fpAt file' h), q ∈ Pm.flatMap (fpAt file h)) :
    NodeRel file' (h + 1) x' M' ∧ TreeOK file' np (h + 1) x' ∧
      (∀ q ∈ fpKids file' (h + 1) x', q ∈ fpKids file (h + 1) x) ∧
      (∀ q, q ∉ x.pos :: fpKids file (h + 1) x → file' q = file q) := by
  obtain ⟨hnd0, hbd⟩ := hok
  have efp : fpKids file (h + 1) x = P1.flatMap (fpAt file h) ++ (Pm.flatMap (fpAt file h) ++
      P2.flatMap (fpAt file h)) := by
    rw [fpKids_succ, hP, List.flatMap_append, List.flatMap_append, List.append_assoc]
  rw [efp] at hnd0 hbd
  rw [List.nodup_iff_count_le_one] at hnd0 hnd
  have key : ∀ q, q ∈ P1.flatMap (fpAt file h) ∨ q ∈ P2.flatMap (fpAt file h) →
      file' q = file q := by
    intro q hq
    have hc := hnd0 q
    simp only [List.count_cons, List.count_append] at hc
    apply hfr q
    intro hm
    have h1 : 1 ≤ (if x.pos == q then 1 else 0) + List.count q (Pm.flatMap (fpAt file h)) := by
      rcases List.mem_cons.mp hm with e | hm
      · rw [e]; simp
      · have := count_mem_pos hm; omega
    rcases hq with hq | hq
    · have := count_mem_pos hq; omega
    · have := count_mem_pos hq; omega
  obtain ⟨a1, a2⟩ := frame_list file file' h P1 (fun q hq => key q (Or.inl hq))
  obtain ⟨b1, b2⟩ := frame_list file file' h P2 (fun q hq => key q (Or.inr hq))
  have efp' : fpKids file' (h + 1) x' = P1.flatMap (fpAt file h) ++
      (Pm'.flatMap (fpAt file' h) ++ P2.flatMap (fpAt file h)) := by
    rw [fpKids_succ, hP', List.flatMap_append, List.flatMap_append, List.append_assoc, a1, b1]
  have hF := hr.2
  rw [hP, hS] at hF
  have hF1 : List.Forall₂ (KidRel file (NodeRel file h)) P1 S1 := by
    have := List.forall₂_take P1.length hF
    rw [List.append_assoc, List.take_left' rfl, List.append_assoc, List.take_left' hl1.symm]
      at this
    exact this
  have hF2 : List.Forall₂ (KidRel file (NodeRel file h)) P2 S2 := by
    have := List.forall₂_drop (P1 ++ Pm).length hF
    rw [List.drop_left' rfl, List.drop_left' (by simp [hl1, hlm])] at this
    exact this
  have hmem : ∀ q ∈ fpKids file' (h + 1) x', q ∈ fpKids file (h + 1) x := by
    intro q hq
    rw [efp'] at hq
    rw [efp]
    simp only [List.mem_append] at hq ⊢
    rcases hq with hq | hq | hq
    · exact Or.inl hq
    · exact Or.inr (Or.inl (hsub q hq))
    · exact Or.inr (Or.inr hq)
  refine ⟨⟨hfl, ?_⟩, ⟨?_, ?_⟩, hmem, ?_⟩
  · rw [hP', hS']
    exact forall2_join (forall2_join (a2 _ hF1) hmid) (b2 _ hF2)
  · rw [efp', hpos, List.nodup_iff_count_le_one]
    intro a
    have hc := hnd0 a
    have hc' := hnd a
    simp only [List.count_cons, List.count_append] at hc ⊢
    by_cases hm : a ∈ Pm'.flatMap (fpAt file' h)
    · have := count_mem_pos (hsub a hm)
      omega
    · have := List.count_eq_zero_of_not_mem hm
      omega
  · intro p hp
    rw [hpos] at hp
    rcases List.mem_cons.mp hp with e | hp
    · exact hbd p (by rw [e]; exact List.mem_cons_self _ _)
    · have := hmem p hp
      rw [efp] at this
      exact hbd p (List.mem_cons_of_mem _ this)
  · intro q hq
    apply hfr q
    intro hm
    apply hq
    rw [efp]
    simp only [List.mem_cons, List.mem_append] at hm ⊢
    tauto

/-- Three successive writes at distinct positions. -/
theorem write3 (s0 : DiskBTree) (a b c : DNode) (ha : a.pos ≠ -1) (hb : b.pos ≠ -1)
    (hc : c.pos ≠ -1) (hac : a.pos ≠ c.pos) (hbc : b.pos ≠ c.pos) (hab : a.pos ≠ b.pos) :
    (_disk_write (_disk_write (_disk_write s0 a) b) c).next_pos_ = s0.next_pos_ ∧
    (_disk_write (_disk_write (_disk_write s0 a) b) c).root_ = s0.root_ ∧
    (_disk_write (_disk_write (_disk_write s0 a) b) c).file c.pos = some c ∧
    (_disk_write (_disk_write (_disk_write s0 a) b) c).file b.pos = some b ∧
    (_disk_write (_disk_write (_disk_write s0 a) b) c).file a.pos = some a ∧
    ∀ q, q ≠ c.pos → q ≠ b.pos → q ≠ a.pos →
      (_disk_write (_disk_write (_disk_write s0 a) b) c).file q = s0.file q := by
  obtain ⟨a1, a2, a3, a4⟩ := write_file s0 a ha
  obtain ⟨b1, b2, b3, b4⟩ := write_file (_disk_write s0 a) b hb
  obtain ⟨c1, c2, c3, c4⟩ := write_file (_disk_write (_disk_write s0 a) b) c hc
  refine ⟨by rw [c3, b3, a3], by rw [c4, b4, a4], c1, by rw [c2 _ hbc, b1],
    by rw [c2 _ hac, b2 _ hab, a1], ?_⟩
  intro q h1 h2 h3
  rw [c2 _ h1, b2 _ h2, a2 _ h3]

end DiskBTree

namespace DiskBTree

/-- Running `_merge` of both trees on a handle `x` that agrees with the in-memory node `Mx`,
whose children in slots `i`, `i + 1` are stored as `ld`, `rn`: the results and their arrays. -/
theorem merge_arrays (t : Int) (s : DiskBTree) (x ld rn : DNode) (Mx Ml Mr : BTree.Node)
    (i : Int) (hp : BTree.Shape t Mx) (hpl : Mx.leaf = false) (h0 : 0 ≤ i) (hi : i < Mx.n)
    (hl : rd Mx.c i = .ok (some Ml)) (hr : rd Mx.c (i + 1) = .ok (some Mr))
    (hlS : BTree.Shape t Ml) (hrS : BTree.Shape t Mr) (hsum : Ml.n + Mr.n + 1 ≤ 2 * t - 1)
    (fx : Flat x Mx) (fl : Flat ld Ml) (fr : Flat rn Mr)
    (hxl : rd x.c i = .ok ld.pos) (hxr : rd x.c (i + 1) = .ok rn.pos)
    (hfl : s.file ld.pos = some ld) (hfr : s.file rn.pos = some rn)
    (hlp : ld.pos ≠ -1) (hrp : rn.pos ≠ -1) (hxp : x.pos ≠ -1) (hd1 : ld.pos ≠ x.pos)
    (hd2 : rn.pos ≠ x.pos) (hd3 : ld.pos ≠ rn.pos) :
    ∃ Mx' Ml' s' x' l', BTree._merge Mx i = .ok Mx' ∧ _merge t s x i = .ok (s', x') ∧
      Flat x' Mx' ∧ x'.pos = x.pos ∧ x'.n = x.n - 1 ∧
      view x'.c (x'.n + 1) = (view x.c (x.n + 1)).eraseIdx (i + 1).toNat ∧
      Mx'.kids = Mx.kids.take i.toNat ++ some Ml' :: Mx.kids.drop (i.toNat + 2) ∧
      Flat l' Ml' ∧ l'.pos = ld.pos ∧ l'.n = ld.n + 1 + rn.n ∧
      (Ml.leaf = false → view l'.c (l'.n + 1) = view ld.c (ld.n + 1) ++ view rn.c (rn.n + 1) ∧
        Ml'.kids = Ml.kids ++ Mr.kids) ∧
      s'.next_pos_ = s.next_pos_ ∧ s'.root_ = s.root_ ∧ s'.file x.pos = some x' ∧
      s'.file ld.pos = some l' ∧
      (∀ q, q ≠ x.pos → q ≠ rn.pos → q ≠ ld.pos → s'.file q = s.file q) := by
  obtain ⟨hpk, hpv, hpc, hpn0, hpn1⟩ := hp
  obtain ⟨hlk, hlv, hlc, hln0, hln1⟩ := hlS
  obtain ⟨hrk, hrv, hrc, hrn0, hrn1⟩ := hrS
  obtain ⟨fx1, fx2, fx3, fx4, fx5⟩ := fx
  obtain ⟨fl1, fl2, fl3, fl4, fl5⟩ := fl
  obtain ⟨fr1, fr2, fr3, fr4, fr5⟩ := fr
  obtain ⟨mk, emk⟩ := rd_total Mx.key i h0 (by omega)
  obtain ⟨mv, emv⟩ := rd_total Mx.val i h0 (by omega)
  have w1 := wr_ok (a := Ml.val) mv hln0 (by omega)
  have w2 := wr_ok (a := Ml.key) mk hln0 (by omega)
  obtain ⟨lk, elk, llk, vlk⟩ := copyRange_spec (Ml.key.set Ml.n.toNat mk) Mr.key Mr.n (Ml.n + 1) 0
    hrn0 (by omega) (by omega) (by simp; omega) (by omega)
  obtain ⟨lv, elv, llv, vlv⟩ := copyRange_spec (Ml.val.set Ml.n.toNat mv) Mr.val Mr.n (Ml.n + 1) 0
    hrn0 (by omega) (by omega) (by simp; omega) (by omega)
  obtain ⟨lc, elc, llc, vlc⟩ := copyRange_spec Ml.c Mr.c (Mr.n + 1) (Ml.n + 1) 0
    (by omega) (by omega) (by omega) (by omega) (by omega)
  obtain ⟨dlc, edlc, ldlc, vdlc⟩ := copyRange_spec ld.c rn.c (rn.n + 1) (ld.n + 1) 0
    (by omega) (by omega) (by omega) (by omega) (by omega)
  rw [List.length_set] at llk llv
  have w3 : ∀ v, wr Mx.c i v = .ok (Mx.c.set i.toNat v) := fun v => wr_ok v h0 (by omega)
  have w4 : ∀ v w, wr (Mx.c.set i.toNat v) (i + 1) w
      = .ok ((Mx.c.set i.toNat v).set (i + 1).toNat w) :=
    fun v w => wr_ok w (by omega) (by simp; omega)
  obtain ⟨pk, epk, lpk, vpk⟩ := shiftDown_spec Mx.key i (Mx.n - 1) Mx.n (by omega) h0 (by omega)
    (by omega)
  obtain ⟨pv, epv, lpv, vpv⟩ := shiftDown_spec Mx.val i (Mx.n - 1) Mx.n (by omega) h0 (by omega)
    (by omega)
  obtain ⟨dpc, edpc, ldpc, vdpc⟩ := shiftDown_spec x.c (i + 1) x.n (x.n + 1) rfl (by omega)
    (by omega) (by omega)
  have hsc : ∀ v w, ∃ pc, shiftDown ((Mx.c.set i.toNat v).set (i + 1).toNat w) (i + 1) Mx.n
      = .ok pc ∧ pc.length = Mx.c.length ∧
      view pc Mx.n = (view Mx.c (Mx.n + 1)).take i.toNat ++ v ::
        (view Mx.c (Mx.n + 1)).drop (i.toNat + 2) := by
    intro v w
    obtain ⟨pc, epc, lpc, vpc⟩ := shiftDown_spec ((Mx.c.set i.toNat v).set (i + 1).toNat w)
      (i + 1) Mx.n (Mx.n + 1) rfl (by omega) (by omega) (by simp; omega)
    refine ⟨pc, epc, by simpa using lpc, ?_⟩
    have e7 : (i + 1).toNat = i.toNat + 1 := by omega
    rw [vpc, view_set_inside, view_set_inside, e7, BTree.set_set_eraseIdx]
    rw [view_length _ _ (by omega) (by omega)]; omega
  have hvc : view lc (Ml.n + 1 + Mr.n + 1) = view Ml.c (Ml.n + 1) ++ view Mr.c (Mr.n + 1) := by
    have : Ml.n + 1 + Mr.n + 1 = Ml.n + 1 + (Mr.n + 1) := by omega
    rw [this, vlc]
    simp [view]
  have hvdc : view dlc (ld.n + 1 + rn.n + 1) = view ld.c (ld.n + 1) ++ view rn.c (rn.n + 1) := by
    have : ld.n + 1 + rn.n + 1 = ld.n + 1 + (rn.n + 1) := by omega
    rw [this, vdlc]
    simp [view]
  have emk' : rd x.key i = .ok mk := by rw [fx1]; exact emk
  have emv' : rd x.val i = .ok mv := by rw [fx2]; exact emv
  have w1' : wr ld.val ld.n mv = .ok (Ml.val.set Ml.n.toNat mv) := by rw [fl2, fl3]; exact w1
  have w2' : wr ld.key ld.n mk = .ok (Ml.key.set Ml.n.toNat mk) := by rw [fl1, fl3]; exact w2
  have elk' : copyRange (Ml.key.set Ml.n.toNat mk) rn.key rn.n (ld.n + 1) 0 = .ok lk := by
    rw [fr1, fr3, fl3]; exact elk
  have elv' : copyRange (Ml.val.set Ml.n.toNat mv) rn.val rn.n (ld.n + 1) 0 = .ok lv := by
    rw [fr2, fr3, fl3]; exact elv
  have epk' : shiftDown x.key i (x.n - 1) = .ok pk := by rw [fx1, fx3]; exact epk
  have epv' : shiftDown x.val i (x.n - 1) = .ok pv := by rw [fx2, fx3]; exact epv
  have hxlf : x.leaf = false := by rw [fx4, hpl]
  cases hleaf : Ml.leaf with
  | true =>
    have hdl : ld.leaf = true := by rw [fl4, hleaf]
    obtain ⟨pc, epc, lpc, vpc⟩ := hsc (some ((((((Ml.setVal (Ml.val.set Ml.n.toNat mv)).setKey (Ml.key.set Ml.n.toNat mk)).setN (Ml.n + 1)).setKey lk).setVal lv).setN (Ml.n + 1 + Mr.n))) (some (Mr.setN 0))
    obtain ⟨g1, g2, g3, g4, g5, g6⟩ := write3 s
      (DNode.mk lk true ld.pos (ld.n + 1 + rn.n) lv ld.c)
      (DNode.mk rn.key rn.leaf rn.pos 0 rn.val rn.c)
      (DNode.mk pk false x.pos (x.n - 1) pv dpc) hlp hrp hxp hd1 hd2 hd3
    simp only [BTree._merge, hl, hr, deref, Except.ok_bind, Except.pure_eq_ok, emv, emk, w1, w2,
        BTree.Node.key_setVal, BTree.Node.key_setN, BTree.Node.key_setKey, BTree.Node.n_setN,
        BTree.Node.val_setN, BTree.Node.val_setKey, BTree.Node.val_setVal, BTree.Node.n_setKey,
        BTree.Node.n_setVal, elk, elv, BTree.Node.leaf_setVal, BTree.Node.leaf_setKey,
        BTree.Node.leaf_setN, hleaf, w3, w4, BTree.Node.c_setC, BTree.Node.key_setC,
        BTree.Node.val_setC, BTree.Node.n_setC, epk, epv, BTree.Node.leaf_setC, hpl,
        Bool.not_false, Bool.not_true, Bool.false_eq_true, if_true, ite_true, if_false,
        ite_false, BTree.Node.c_setKey, BTree.Node.c_setVal, BTree.Node.c_setN, epc,
        _merge, hxl, hxr, read_at t s ld.pos false ld hfl, read_at t s rn.pos false rn hfr,
        emv', emk', w1', w2', elk', elv', hdl, hxlf, epk', epv', edpc]
    refine ⟨_, ((((((Ml.setVal (Ml.val.set Ml.n.toNat mv)).setKey (Ml.key.set Ml.n.toNat mk)).setN (Ml.n + 1)).setKey lk).setVal lv).setN (Ml.n + 1 + Mr.n)), _, DNode.mk pk false x.pos (x.n - 1) pv dpc,
      DNode.mk lk true ld.pos (ld.n + 1 + rn.n) lv ld.c, rfl, rfl, ?_, rfl, rfl, ?_, ?_,
      ?_, rfl, rfl, ?_, g1, g2, g3, g5, g6⟩
    · refine ⟨by simp, by simp, by simp [fx3], by simp [hpl], ?_⟩
      simp only [BTree.Node.c_setN, BTree.Node.c_setC]
      rw [ldpc, lpc, fx5]
    · show view dpc (x.n - 1 + 1) = _
      have : x.n - 1 + 1 = x.n := by omega
      rw [this, vdpc]
    · unfold BTree.Node.kids
      simp only [BTree.Node.c_setN, BTree.Node.n_setN, BTree.Node.c_setC]
      have : Mx.n - 1 + 1 = Mx.n := by omega
      rw [this, vpc]
    · refine ⟨by simp, by simp, by simp [fl3, fr3], by simp [hleaf], ?_⟩
      simpa using fl5
    · intro h; cases h
  | false =>
    have hdl : ld.leaf = false := by rw [fl4, hleaf]
    obtain ⟨pc, epc, lpc, vpc⟩ := hsc (some (((((((Ml.setVal (Ml.val.set Ml.n.toNat mv)).setKey (Ml.key.set Ml.n.toNat mk)).setN (Ml.n + 1)).setKey lk).setVal lv).setC lc).setN (Ml.n + 1 + Mr.n))) (some (Mr.setN 0))
    obtain ⟨g1, g2, g3, g4, g5, g6⟩ := write3 s
      (DNode.mk lk false ld.pos (ld.n + 1 + rn.n) lv dlc)
      (DNode.mk rn.key rn.leaf rn.pos 0 rn.val rn.c)
      (DNode.mk pk false x.pos (x.n - 1) pv dpc) hlp hrp hxp hd1 hd2 hd3
    simp only [BTree._merge, hl, hr, deref, Except.ok_bind, Except.pure_eq_ok, emv, emk, w1, w2,
        BTree.Node.key_setVal, BTree.Node.key_setN, BTree.Node.key_setKey, BTree.Node.n_setN,
        BTree.Node.val_setN, BTree.Node.val_setKey, BTree.Node.val_setVal, BTree.Node.n_setKey,
        BTree.Node.n_setVal, elk, elv, BTree.Node.leaf_setVal, BTree.Node.leaf_setKey,
        BTree.Node.leaf_setN, hleaf, w3, w4, BTree.Node.c_setC, BTree.Node.key_setC,
        BTree.Node.val_setC, BTree.Node.n_setC, epk, epv, BTree.Node.leaf_setC, hpl,
        Bool.not_false, Bool.not_true, Bool.false_eq_true, if_true, ite_true, if_false,
        ite_false, BTree.Node.c_setKey, BTree.Node.c_setVal, BTree.Node.c_setN, epc, elc,
        _merge, hxl, hxr, read_at t s ld.pos false ld hfl, read_at t s rn.pos false rn hfr,
        emv', emk', w1', w2', elk', elv', hdl, hxlf, epk', epv', edpc, edlc]
    refine ⟨_, (((((((Ml.setVal (Ml.val.set Ml.n.toNat mv)).setKey (Ml.key.set Ml.n.toNat mk)).setN (Ml.n + 1)).setKey lk).setVal lv).setC lc).setN (Ml.n + 1 + Mr.n)), _, DNode.mk pk false x.pos (x.n - 1) pv dpc,
      DNode.mk lk false ld.pos (ld.n + 1 + rn.n) lv dlc, rfl, rfl, ?_, rfl, rfl, ?_, ?_,
      ?_, rfl, rfl, ?_, g1, g2, g3, g5, g6⟩
    · refine ⟨by simp, by simp, by simp [fx3], by simp [hpl], ?_⟩
      simp only [BTree.Node.c_setN, BTree.Node.c_setC]
      rw [ldpc, lpc, fx5]
    · show view dpc (x.n - 1 + 1) = _
      have : x.n - 1 + 1 = x.n := by omega
      rw [this, vdpc]
    · unfold BTree.Node.kids
      simp only [BTree.Node.c_setN, BTree.Node.n_setN, BTree.Node.c_setC]
      have : Mx.n - 1 + 1 = Mx.n := by omega
      rw [this, vpc]
    · refine ⟨by simp, by simp, by simp [fl3, fr3], by simp [hleaf], ?_⟩
      simp only [BTree.Node.c_setN, BTree.Node.c_setC]
      rw [ldlc, llc, fl5]
    · intro _
      refine ⟨hvdc, ?_⟩
      unfold BTree.Node.kids
      simp only [BTree.Node.c_setN, BTree.Node.n_setN, BTree.Node.c_setC, BTree.Node.c_setVal,
        BTree.Node.c_setKey]
      rw [hvc]

end DiskBTree

namespace DiskBTree

/-- Running `_borrow_from_prev` of both trees on a handle `x` that agrees with the in-memory
node `Mx`, whose children in slots `i`, `i - 1` are stored as `cd`, `ld`: the results and their
arrays. -/
theorem borrow_prev_arrays (t : Int) (s : DiskBTree) (x cd ld : DNode) (Mx Mc Ml : BTree.Node)
    (i : Int) (hp : BTree.Shape t Mx) (h0 : 0 < i) (hi : i ≤ Mx.n)
    (hc : rd Mx.c i = .ok (some Mc)) (hl : rd Mx.c (i - 1) = .ok (some Ml))
    (hcS : BTree.Shape t Mc) (hlS : BTree.Shape t Ml) (hcn : Mc.n < 2 * t - 1) (hln : 1 ≤ Ml.n)
    (hleaf : Ml.leaf = Mc.leaf) (fx : Flat x Mx) (fc : Flat cd Mc) (fl : Flat ld Ml)
    (hxc : rd x.c i = .ok cd.pos) (hxl : rd x.c (i - 1) = .ok ld.pos)
    (hfc : s.file cd.pos = some cd) (hfl : s.file ld.pos = some ld)
    (hcp : cd.pos ≠ -1) (hlp : ld.pos ≠ -1) (hxp : x.pos ≠ -1) (hd1 : cd.pos ≠ x.pos)
    (hd2 : ld.pos ≠ x.pos) (hd3 : cd.pos ≠ ld.pos) :
    ∃ Mx' Mc' Ml' s' x' c' l', BTree._borrow_from_prev Mx i = .ok Mx' ∧
      _borrow_from_prev t s x i = .ok (s', x') ∧
      Flat x' Mx' ∧ x'.pos = x.pos ∧ x'.n = x.n ∧ x'.c = x.c ∧
      Mx'.c = (Mx.c.set i.toNat (some Mc')).set (i - 1).toNat (some Ml') ∧
      Flat c' Mc' ∧ c'.pos = cd.pos ∧ Flat l' Ml' ∧ l'.pos = ld.pos ∧
      (Mc.leaf = false → ∃ o po, Ml.kids = Ml'.kids ++ [o] ∧ Mc'.kids = o :: Mc.kids ∧
        view ld.c (ld.n + 1) = view l'.c (l'.n + 1) ++ [po] ∧
        view c'.c (c'.n + 1) = po :: view cd.c (cd.n + 1)) ∧
      s'.next_pos_ = s.next_pos_ ∧ s'.root_ = s.root_ ∧ s'.file x.pos = some x' ∧
      s'.file cd.pos = some c' ∧ s'.file ld.pos = some l' ∧
      (∀ q, q ≠ x.pos → q ≠ ld.pos → q ≠ cd.pos → s'.file q = s.file q) := by
  obtain ⟨hpk, hpv, hpc, hpn0, hpn1⟩ := hp
  obtain ⟨hlk, hlv, hlc, hln0, hln1⟩ := hlS
  obtain ⟨hck, hcv, hcc, hcn0, hcn1⟩ := hcS
  obtain ⟨fx1, fx2, fx3, fx4, fx5⟩ := fx
  obtain ⟨fc1, fc2, fc3, fc4, fc5⟩ := fc
  obtain ⟨fl1, fl2, fl3, fl4, fl5⟩ := fl
  obtain ⟨ck, eck, lck, vck⟩ := shiftUp_spec Mc.key (Mc.n - 1) 0 Mc.n (by omega) (le_refl _) hcn0
    (by omega)
  obtain ⟨cv, ecv, lcv, vcv⟩ := shiftUp_spec Mc.val (Mc.n - 1) 0 Mc.n (by omega) (le_refl _) hcn0
    (by omega)
  obtain ⟨cc, ecc, lcc, vcc⟩ := shiftUp_spec Mc.c Mc.n 0 (Mc.n + 1) rfl (le_refl _) (by omega)
    (by omega)
  obtain ⟨dcc, edcc, ldcc, vdcc⟩ := shiftUp_spec cd.c cd.n 0 (cd.n + 1) rfl (le_refl _)
    (by omega) (by omega)
  obtain ⟨mk, emk⟩ := rd_total Mx.key (i - 1) (by omega) (by omega)
  obtain ⟨mv, emv⟩ := rd_total Mx.val (i - 1) (by omega) (by omega)
  obtain ⟨lmk, elmk⟩ := rd_total Ml.key (Ml.n - 1) (by omega) (by omega)
  obtain ⟨lmv, elmv⟩ := rd_total Ml.val (Ml.n - 1) (by omega) (by omega)
  obtain ⟨lo, elo⟩ := rd_total Ml.c Ml.n (by omega) (by omega)
  obtain ⟨dlo, edlo⟩ := rd_total ld.c ld.n (by omega) (by omega)
  have w1 := wr_ok (a := ck) mk (le_refl (0 : Int)) (by omega)
  have w2 := wr_ok (a := cv) mv (le_refl (0 : Int)) (by omega)
  have w3 := wr_ok (a := cc) lo (le_refl (0 : Int)) (by omega)
  have dw3 := wr_ok (a := dcc) dlo (le_refl (0 : Int)) (by omega)
  have w4 := wr_ok (a := Mx.key) lmk (i := i - 1) (by omega) (by omega)
  have w5 := wr_ok (a := Mx.val) lmv (i := i - 1) (by omega) (by omega)
  have w6 : ∀ v, wr Mx.c i v = .ok (Mx.c.set i.toNat v) := fun v => wr_ok v (by omega) (by omega)
  have w7 : ∀ v w, wr (Mx.c.set i.toNat v) (i - 1) w
      = .ok ((Mx.c.set i.toNat v).set (i - 1).toNat w) :=
    fun v w => wr_ok w (by omega) (by simp; omega)
  have hlkids : Ml.kids = view Ml.c Ml.n ++ [lo] := BTree.view_succ hln0 elo
  have hdlkids : view ld.c (ld.n + 1) = view ld.c ld.n ++ [dlo] :=
    BTree.view_succ (by omega) edlo
  have eck' : shiftUp cd.key (cd.n - 1) 0 = .ok ck := by rw [fc1, fc3]; exact eck
  have ecv' : shiftUp cd.val (cd.n - 1) 0 = .ok cv := by rw [fc2, fc3]; exact ecv
  have emk' : rd x.key (i - 1) = .ok mk := by rw [fx1]; exact emk
  have emv' : rd x.val (i - 1) = .ok mv := by rw [fx2]; exact emv
  have elmk' : rd ld.key (ld.n - 1) = .ok lmk := by rw [fl1, fl3]; exact elmk
  have elmv' : rd ld.val (ld.n - 1) = .ok lmv := by rw [fl2, fl3]; exact elmv
  have w4' : wr x.key (i - 1) lmk = .ok (Mx.key.set (i - 1).toNat lmk) := by rw [fx1]; exact w4
  have w5' : wr x.val (i - 1) lmv = .ok (Mx.val.set (i - 1).toNat lmv) := by rw [fx2]; exact w5
  cases hcl : Mc.leaf with
  | true =>
    have hdl : cd.leaf = true := by rw [fc4, hcl]
    obtain ⟨g1, g2, g3, g4, g5, g6⟩ := write3 s
      (DNode.mk (ck.set (0 : Int).toNat mk) true cd.pos (cd.n + 1) (cv.set (0 : Int).toNat mv)
        cd.c)
      (DNode.mk ld.key ld.leaf ld.pos (ld.n - 1) ld.val ld.c)
      (DNode.mk (Mx.key.set (i - 1).toNat lmk) x.leaf x.pos x.n (Mx.val.set (i - 1).toNat lmv)
        x.c) hcp hlp hxp hd1 hd2 hd3
    simp only [BTree._borrow_from_prev, hc, hl, deref, Except.ok_bind, Except.pure_eq_ok, eck, ecv,
      BTree.Node.val_setKey, BTree.Node.n_setKey, BTree.Node.n_setVal, BTree.Node.leaf_setKey,
      BTree.Node.leaf_setVal, hcl, Bool.not_true, Bool.false_eq_true, if_false, ite_false,
      BTree.Node.key_setVal, BTree.Node.key_setKey, emk, emv, w1, w2, BTree.Node.val_setVal,
      elmk, elmv, w4, w5, BTree.Node.c_setKey, BTree.Node.c_setVal, w6, w7, BTree.Node.c_setC,
      BTree.Node.n_setC, BTree.Node.leaf_setC, BTree.Node.c_setN,
      _borrow_from_prev, hxc, hxl, read_at t s cd.pos false cd hfc,
      read_at t s ld.pos false ld hfl, eck', ecv', hdl, emk', emv', elmk', elmv', w4', w5', w1, w2]
    refine ⟨_, (((((Mc.setKey ck).setVal cv).setKey (ck.set (0 : Int).toNat mk)).setVal (cv.set (0 : Int).toNat mv)).setN (Mc.n + 1)), Ml.setN (Ml.n - 1), _,
      DNode.mk (Mx.key.set (i - 1).toNat lmk) x.leaf x.pos x.n (Mx.val.set (i - 1).toNat lmv) x.c,
      DNode.mk (ck.set (0 : Int).toNat mk) true cd.pos (cd.n + 1) (cv.set (0 : Int).toNat mv)
        cd.c,
      DNode.mk ld.key ld.leaf ld.pos (ld.n - 1) ld.val ld.c, rfl, rfl, ?_, rfl, rfl, rfl,
      by simp, ?_, rfl, ?_, rfl, ?_, g1, g2, g3, g5, g4, g6⟩
    · exact ⟨by simp, by simp, by simp [fx3], by simp [fx4], by simpa using fx5⟩
    · exact ⟨by simp, by simp, by simp [fc3], by simp [hcl], by simpa using fc5⟩
    · exact ⟨by simp [fl1], by simp [fl2], by simp [fl3], by simp [fl4], by simpa using fl5⟩
    · intro h; cases h
  | false =>
    have hdl : cd.leaf = false := by rw [fc4, hcl]
    obtain ⟨g1, g2, g3, g4, g5, g6⟩ := write3 s
      (DNode.mk (ck.set (0 : Int).toNat mk) false cd.pos (cd.n + 1) (cv.set (0 : Int).toNat mv)
        (dcc.set (0 : Int).toNat dlo))
      (DNode.mk ld.key ld.leaf ld.pos (ld.n - 1) ld.val ld.c)
      (DNode.mk (Mx.key.set (i - 1).toNat lmk) x.leaf x.pos x.n (Mx.val.set (i - 1).toNat lmv)
        x.c) hcp hlp hxp hd1 hd2 hd3
    simp only [BTree._borrow_from_prev, hc, hl, deref, Except.ok_bind, Except.pure_eq_ok, eck, ecv,
      BTree.Node.val_setKey, BTree.Node.n_setKey, BTree.Node.n_setVal, BTree.Node.leaf_setKey,
      BTree.Node.leaf_setVal, hcl, Bool.not_false, if_true, ite_true, BTree.Node.key_setVal,
      BTree.Node.key_setKey, BTree.Node.key_setC, BTree.Node.val_setC, emk, emv, w1, w2,
      BTree.Node.val_setVal, elmk, elmv, w4, w5, BTree.Node.c_setKey, BTree.Node.c_setVal, ecc,
      elo, w3, w6, w7, BTree.Node.c_setC, BTree.Node.n_setC, BTree.Node.leaf_setC,
      BTree.Node.c_setN,
      _borrow_from_prev, hxc, hxl, read_at t s cd.pos false cd hfc,
      read_at t s ld.pos false ld hfl, eck', ecv', hdl, emk', emv', elmk', elmv', w4', w5', edcc, edlo, dw3]
    refine ⟨_, (((((((Mc.setKey ck).setVal cv).setC cc).setKey (ck.set (0 : Int).toNat mk)).setVal (cv.set (0 : Int).toNat mv)).setC (cc.set (0 : Int).toNat lo)).setN (Mc.n + 1)), Ml.setN (Ml.n - 1), _,
      DNode.mk (Mx.key.set (i - 1).toNat lmk) x.leaf x.pos x.n (Mx.val.set (i - 1).toNat lmv) x.c,
      DNode.mk (ck.set (0 : Int).toNat mk) false cd.pos (cd.n + 1) (cv.set (0 : Int).toNat mv)
        (dcc.set (0 : Int).toNat dlo),
      DNode.mk ld.key ld.leaf ld.pos (ld.n - 1) ld.val ld.c, rfl, rfl, ?_, rfl, rfl, rfl,
      by simp, ?_, rfl, ?_, rfl, ?_, g1, g2, g3, g5, g4, g6⟩
    · exact ⟨by simp, by simp, by simp [fx3], by simp [fx4], by simpa using fx5⟩
    · refine ⟨by simp, by simp, by simp [fc3], by simp [hcl], ?_⟩
      simp only [BTree.Node.c_setN, BTree.Node.c_setC, List.length_set]
      rw [ldcc, lcc, fc5]
    · exact ⟨by simp [fl1], by simp [fl2], by simp [fl3], by simp [fl4], by simpa using fl5⟩
    · intro _
      refine ⟨lo, dlo, ?_, ?_, ?_, ?_⟩
      · rw [hlkids]; unfold BTree.Node.kids; simp
      · unfold BTree.Node.kids
        simp only [BTree.Node.c_setN, BTree.Node.n_setN, BTree.Node.c_setC, BTree.Node.n_setC,
          BTree.Node.n_setVal, BTree.Node.n_setKey]
        have := vcc lo
        simpa using this
      · show view ld.c (ld.n + 1) = view ld.c (ld.n - 1 + 1) ++ [dlo]
        have : ld.n - 1 + 1 = ld.n := by omega
        rw [this]; exact hdlkids
      · show view (dcc.set (0 : Int).toNat dlo) (cd.n + 1 + 1) = _
        have := vdcc dlo
        simpa using this

end DiskBTree

namespace DiskBTree

/-- Running `_borrow_from_next` of both trees on a handle `x` that agrees with the in-memory
node `Mx`, whose children in slots `i`, `i + 1` are stored as `cd`, `rn`: the results and their
arrays. -/
theorem borrow_next_arrays (t : Int) (s : DiskBTree) (x cd rn : DNode) (Mx Mc Mr : BTree.Node)
    (i : Int) (hx : BTree.Shape t Mx) (h0 : 0 ≤ i) (hi : i < Mx.n)
    (hc : rd Mx.c i = .ok (some Mc)) (hr : rd Mx.c (i + 1) = .ok (some Mr))
    (hcS : BTree.Shape t Mc) (hrS : BTree.Shape t Mr) (hcn : Mc.n < 2 * t - 1) (hrn : 1 ≤ Mr.n)
    (hleaf : Mr.leaf = Mc.leaf) (fx : Flat x Mx) (fc : Flat cd Mc) (fr : Flat rn Mr)
    (hxc : rd x.c i = .ok cd.pos) (hxr : rd x.c (i + 1) = .ok rn.pos)
    (hfc : s.file cd.pos = some cd) (hfr : s.file rn.pos = some rn)
    (hcp : cd.pos ≠ -1) (hrp : rn.pos ≠ -1) (hxp : x.pos ≠ -1) (hd1 : cd.pos ≠ x.pos)
    (hd2 : rn.pos ≠ x.pos) (hd3 : cd.pos ≠ rn.pos) :
    ∃ Mx' Mc' Mr' s' x' c' r', BTree._borrow_from_next Mx i = .ok Mx' ∧
      _borrow_from_next t s x i = .ok (s', x') ∧
      Flat x' Mx' ∧ x'.pos = x.pos ∧ x'.n = x.n ∧ x'.c = x.c ∧
      Mx'.c = (Mx.c.set i.toNat (some Mc')).set (i + 1).toNat (some Mr') ∧
      Flat c' Mc' ∧ c'.pos = cd.pos ∧ Flat r' Mr' ∧ r'.pos = rn.pos ∧
      (Mc.leaf = false → ∃ o po, Mr.kids = o :: Mr'.kids ∧ Mc'.kids = Mc.kids ++ [o] ∧
        view rn.c (rn.n + 1) = po :: view r'.c (r'.n + 1) ∧
        view c'.c (c'.n + 1) = view cd.c (cd.n + 1) ++ [po]) ∧
      s'.next_pos_ = s.next_pos_ ∧ s'.root_ = s.root_ ∧ s'.file x.pos = some x' ∧
      s'.file cd.pos = some c' ∧ s'.file rn.pos = some r' ∧
      (∀ q, q ≠ x.pos → q ≠ rn.pos → q ≠ cd.pos → s'.file q = s.file q) := by
  obtain ⟨hxk, hxv, hxc', hxn0, hxn1⟩ := hx
  obtain ⟨hrk, hrv, hrc, hrn0, hrn1⟩ := hrS
  obtain ⟨hck, hcv, hcc, hcn0, hcn1⟩ := hcS
  obtain ⟨fx1, fx2, fx3, fx4, fx5⟩ := fx
  obtain ⟨fc1, fc2, fc3, fc4, fc5⟩ := fc
  obtain ⟨fr1, fr2, fr3, fr4, fr5⟩ := fr
  obtain ⟨mk, emk⟩ := rd_total Mx.key i h0 (by omega)
  obtain ⟨mv, emv⟩ := rd_total Mx.val i h0 (by omega)
  obtain ⟨rmk, ermk⟩ := rd_total Mr.key 0 (le_refl _) (by omega)
  obtain ⟨rmv, ermv⟩ := rd_total Mr.val 0 (le_refl _) (by omega)
  obtain ⟨ro, ero⟩ := rd_total Mr.c 0 (le_refl _) (by omega)
  obtain ⟨dro, edro⟩ := rd_total rn.c 0 (le_refl _) (by omega)
  have w1 := wr_ok (a := Mc.val) mv hcn0 (by omega)
  have w2 := wr_ok (a := Mc.key) mk hcn0 (by omega)
  have w3 := wr_ok (a := Mx.val) rmv h0 (by omega)
  have w4 := wr_ok (a := Mx.key) rmk h0 (by omega)
  have w5 := wr_ok (a := Mc.c) ro (i := Mc.n + 1) (by omega) (by omega)
  have dw5 := wr_ok (a := cd.c) dro (i := cd.n + 1) (by omega) (by omega)
  obtain ⟨rk, erk, lrk, vrk⟩ := shiftDown_spec Mr.key 0 (Mr.n - 1) Mr.n (by omega) (le_refl _)
    (by omega) (by omega)
  obtain ⟨rv, erv, lrv, vrv⟩ := shiftDown_spec Mr.val 0 (Mr.n - 1) Mr.n (by omega) (le_refl _)
    (by omega) (by omega)
  obtain ⟨rc, erc, lrc, vrc⟩ := shiftDown_spec Mr.c 0 Mr.n (Mr.n + 1) rfl (le_refl _)
    (by omega) (by omega)
  obtain ⟨drc, edrc, ldrc, vdrc⟩ := shiftDown_spec rn.c 0 rn.n (rn.n + 1) rfl (le_refl _)
    (by omega) (by omega)
  have w6 : ∀ v, wr Mx.c i v = .ok (Mx.c.set i.toNat v) := fun v => wr_ok v (by omega) (by omega)
  have w7 : ∀ v w, wr (Mx.c.set i.toNat v) (i + 1) w
      = .ok ((Mx.c.set i.toNat v).set (i + 1).toNat w) :=
    fun v w => wr_ok w (by omega) (by simp; omega)
  have hrkids : Mr.kids = ro :: view rc Mr.n := by
    unfold BTree.Node.kids
    rw [vrc]
    exact BTree.view_cons (by omega) ero
  have hdrkids : view rn.c (rn.n + 1) = dro :: view drc rn.n := by
    rw [vdrc]
    exact BTree.view_cons (by omega) edro
  have hckids : view (Mc.c.set (Mc.n + 1).toNat ro) (Mc.n + 1 + 1) = Mc.kids ++ [ro] :=
    view_set_snoc _ _ _ (by omega) (by omega)
  have hdckids : view (cd.c.set (cd.n + 1).toNat dro) (cd.n + 1 + 1)
      = view cd.c (cd.n + 1) ++ [dro] :=
    view_set_snoc _ _ _ (by omega) (by omega)
  have emk' : rd x.key i = .ok mk := by rw [fx1]; exact emk
  have emv' : rd x.val i = .ok mv := by rw [fx2]; exact emv
  have w1' : wr cd.val cd.n mv = .ok (Mc.val.set Mc.n.toNat mv) := by rw [fc2, fc3]; exact w1
  have w2' : wr cd.key cd.n mk = .ok (Mc.key.set Mc.n.toNat mk) := by rw [fc1, fc3]; exact w2
  have w3' : wr x.val i rmv = .ok (Mx.val.set i.toNat rmv) := by rw [fx2]; exact w3
  have w4' : wr x.key i rmk = .ok (Mx.key.set i.toNat rmk) := by rw [fx1]; exact w4
  have ermk' : rd rn.key 0 = .ok rmk := by rw [fr1]; exact ermk
  have ermv' : rd rn.val 0 = .ok rmv := by rw [fr2]; exact ermv
  have erk' : shiftDown rn.key 0 (rn.n - 1) = .ok rk := by rw [fr1, fr3]; exact erk
  have erv' : shiftDown rn.val 0 (rn.n - 1) = .ok rv := by rw [fr2, fr3]; exact erv
  cases hcl : Mc.leaf with
  | true =>
    have hrl : Mr.leaf = true := by rw [hleaf, hcl]
    have hdl : cd.leaf = true := by rw [fc4, hcl]
    have hdr : rn.leaf = true := by rw [fr4, hrl]
    obtain ⟨g1, g2, g3, g4, g5, g6⟩ := write3 s
      (DNode.mk (Mc.key.set Mc.n.toNat mk) true cd.pos (cd.n + 1) (Mc.val.set Mc.n.toNat mv)
        cd.c)
      (DNode.mk rk true rn.pos (rn.n - 1) rv rn.c)
      (DNode.mk (Mx.key.set i.toNat rmk) x.leaf x.pos x.n (Mx.val.set i.toNat rmv) x.c)
      hcp hrp hxp hd1 hd2 hd3
    simp only [BTree._borrow_from_next, hc, hr, deref, Except.ok_bind, Except.pure_eq_ok, emv, emk,
      w1, w2, w3, w4, BTree.Node.key_setVal, BTree.Node.n_setVal, BTree.Node.n_setKey,
      BTree.Node.val_setVal, BTree.Node.leaf_setKey, BTree.Node.leaf_setVal, hcl, hrl,
      Bool.not_true, Bool.false_eq_true, if_false, ite_false, ermk, ermv, erk, erv,
      BTree.Node.val_setKey, BTree.Node.key_setKey, BTree.Node.c_setKey, BTree.Node.c_setVal,
      w6, w7, BTree.Node.c_setC, BTree.Node.n_setC, BTree.Node.leaf_setC, BTree.Node.c_setN,
      BTree.Node.n_setN,
      _borrow_from_next, hxc, hxr, read_at t s cd.pos false cd hfc,
      read_at t s rn.pos false rn hfr, emv', emk', w1', w2', w3', w4', ermk', ermv', erk', erv',
      hdl, hdr]
    refine ⟨_, (((Mc.setVal (Mc.val.set Mc.n.toNat mv)).setKey (Mc.key.set Mc.n.toNat mk)).setN (Mc.n + 1)), (((Mr.setKey rk).setVal rv).setN (Mr.n - 1)), _,
      DNode.mk (Mx.key.set i.toNat rmk) x.leaf x.pos x.n (Mx.val.set i.toNat rmv) x.c,
      DNode.mk (Mc.key.set Mc.n.toNat mk) true cd.pos (cd.n + 1) (Mc.val.set Mc.n.toNat mv)
        cd.c,
      DNode.mk rk true rn.pos (rn.n - 1) rv rn.c, rfl, rfl, ?_, rfl, rfl, rfl,
      by simp, ?_, rfl, ?_, rfl, ?_, g1, g2, g3, g5, g4, g6⟩
    · exact ⟨by simp, by simp, by simp [fx3], by simp [fx4], by simpa using fx5⟩
    · exact ⟨by simp, by simp, by simp [fc3], by simp [hcl], by simpa using fc5⟩
    · exact ⟨by simp, by simp, by simp [fr3], by simp [hrl], by simpa using fr5⟩
    · intro h; cases h
  | false =>
    have hrl : Mr.leaf = false := by rw [hleaf, hcl]
    have hdl : cd.leaf = false := by rw [fc4, hcl]
    have hdr : rn.leaf = false := by rw [fr4, hrl]
    obtain ⟨g1, g2, g3, g4, g5, g6⟩ := write3 s
      (DNode.mk (Mc.key.set Mc.n.toNat mk) false cd.pos (cd.n + 1) (Mc.val.set Mc.n.toNat mv)
        (cd.c.set (cd.n + 1).toNat dro))
      (DNode.mk rk false rn.pos (rn.n - 1) rv drc)
      (DNode.mk (Mx.key.set i.toNat rmk) x.leaf x.pos x.n (Mx.val.set i.toNat rmv) x.c)
      hcp hrp hxp hd1 hd2 hd3
    simp only [BTree._borrow_from_next, hc, hr, deref, Except.ok_bind, Except.pure_eq_ok, emv, emk,
      w1, w2, w3, w4, w5, BTree.Node.key_setVal, BTree.Node.n_setVal, BTree.Node.n_setKey,
      BTree.Node.val_setVal, BTree.Node.leaf_setKey, BTree.Node.leaf_setVal, hcl, hrl,
      Bool.not_false, if_true, ite_true, ero, ermk, ermv, erk, erv, erc, BTree.Node.val_setKey,
      BTree.Node.key_setKey, BTree.Node.c_setKey, BTree.Node.c_setVal, w6, w7,
      BTree.Node.c_setC, BTree.Node.n_setC, BTree.Node.leaf_setC, BTree.Node.c_setN,
      BTree.Node.n_setN,
      _borrow_from_next, hxc, hxr, read_at t s cd.pos false cd hfc,
      read_at t s rn.pos false rn hfr, emv', emk', w1', w2', w3', w4', ermk', ermv', erk', erv',
      hdl, hdr, edro, dw5, edrc]
    refine ⟨_, ((((Mc.setVal (Mc.val.set Mc.n.toNat mv)).setKey (Mc.key.set Mc.n.toNat mk)).setC (Mc.c.set (Mc.n + 1).toNat ro)).setN (Mc.n + 1)), ((((Mr.setKey rk).setVal rv).setC rc).setN (Mr.n - 1)), _,
      DNode.mk (Mx.key.set i.toNat rmk) x.leaf x.pos x.n (Mx.val.set i.toNat rmv) x.c,
      DNode.mk (Mc.key.set Mc.n.toNat mk) false cd.pos (cd.n + 1) (Mc.val.set Mc.n.toNat mv)
        (cd.c.set (cd.n + 1).toNat dro),
      DNode.mk rk false rn.pos (rn.n - 1) rv drc, rfl, rfl, ?_, rfl, rfl, rfl,
      by simp, ?_, rfl, ?_, rfl, ?_, g1, g2, g3, g5, g4, g6⟩
    · exact ⟨by simp, by simp, by simp [fx3], by simp [fx4], by simpa using fx5⟩
    · exact ⟨by simp, by simp, by simp [fc3], by simp [hcl], by simpa using fc5⟩
    · refine ⟨by simp, by simp, by simp [fr3], by simp [hrl], ?_⟩
      simp only [BTree.Node.c_setN, BTree.Node.c_setC]
      rw [ldrc, lrc, fr5]
    · intro _
      refine ⟨ro, dro, ?_, ?_, ?_, ?_⟩
      · rw [hrkids]; unfold BTree.Node.kids; simp
      · unfold BTree.Node.kids
        simp only [BTree.Node.c_setN, BTree.Node.n_setN, BTree.Node.c_setC, BTree.Node.n_setC,
          BTree.Node.n_setVal, BTree.Node.n_setKey]
        exact hckids
      · show view rn.c (rn.n + 1) = dro :: view drc (rn.n - 1 + 1)
        have : rn.n - 1 + 1 = rn.n := by omega
        rw [this]; exact hdrkids
      · exact hdckids

end DiskBTree

namespace DiskBTree

/-- The child that absorbed its right sibling, in a file that kept the records below the two. -/
theorem merge_halves (t : Int) (h : Nat) (file file' : Int → Option DNode) (ld rn l' : DNode)
    (Ml Mr Ml' : BTree.Node) (hrl : NodeRel file h ld Ml) (hrr : NodeRel file h rn Mr)
    (hw : BTree.WF t h Ml) (fl' : Flat l' Ml')
    (hkid : Ml.leaf = false → view l'.c (l'.n + 1) = view ld.c (ld.n + 1) ++ view rn.c (rn.n + 1) ∧
        Ml'.kids = Ml.kids ++ Mr.kids)
    (hfr : ∀ q, q ∈ fpKids file h ld ∨ q ∈ fpKids file h rn → file' q = file q) :
    NodeRel file' h l' Ml' ∧ fpKids file' h l' = fpKids file h ld ++ fpKids file h rn := by
  cases h with
  | zero => exact ⟨fl', rfl⟩
  | succ h =>
    obtain ⟨hk1, hk2⟩ := hkid hw.2.1
    obtain ⟨a1, a2⟩ := frame_list file file' h (view ld.c (ld.n + 1))
      (fun q hq => hfr q (Or.inl hq))
    obtain ⟨b1, b2⟩ := frame_list file file' h (view rn.c (rn.n + 1))
      (fun q hq => hfr q (Or.inr hq))
    refine ⟨⟨fl', ?_⟩, ?_⟩
    · rw [hk1, hk2]
      exact forall2_join (a2 _ hrl.2) (b2 _ hrr.2)
    · rw [fpKids_succ, fpKids_succ, fpKids_succ, hk1, List.flatMap_append, a1, b1]

/-- Two adjacent children of a handle, with the records the file holds for them. -/
theorem NodeRel.kids2 {file : Int → Option DNode} {h : Nat} {x : DNode} {M Ml Mr : BTree.Node}
    {S1 S2 : List (Option BTree.Node)} (hr : NodeRel file (h + 1) x M)
    (hk : M.kids = S1 ++ some Ml :: some Mr :: S2) :
    ∃ P1 P2 ld rn, view x.c (x.n + 1) = P1 ++ ld.pos :: rn.pos :: P2 ∧ P1.length = S1.length ∧
      file ld.pos = some ld ∧ file rn.pos = some rn ∧ NodeRel file h ld Ml ∧
      NodeRel file h rn Mr ∧ List.Forall₂ (KidRel file (NodeRel file h)) P1 S1 ∧
      List.Forall₂ (KidRel file (NodeRel file h)) P2 S2 := by
  have hF := hr.2
  rw [hk] at hF
  obtain ⟨P1, pl, Pr, eP, hF1, ⟨Ml0, ld, e1, e2, e3, e4⟩, hFr, hlen⟩ := forall2_split S1 hF
  cases hFr with
  | cons hab hF2 =>
    obtain ⟨Mr0, rn, e5, e6, e7, e8⟩ := hab
    simp only [Option.some.injEq] at e1 e5
    subst e1 e5 e3 e7
    exact ⟨P1, _, ld, rn, eP, hlen, e2, e6, e4, e8, hF1, hF2⟩

/-- One child of a handle, with the record the file holds for it. -/
theorem NodeRel.kids1 {file : Int → Option DNode} {h : Nat} {x : DNode} {M Mc : BTree.Node}
    {S1 S2 : List (Option BTree.Node)} (hr : NodeRel file (h + 1) x M)
    (hk : M.kids = S1 ++ some Mc :: S2) :
    ∃ P1 P2 cd, view x.c (x.n + 1) = P1 ++ cd.pos :: P2 ∧ P1.length = S1.length ∧
      file cd.pos = some cd ∧ NodeRel file h cd Mc ∧
      List.Forall₂ (KidRel file (NodeRel file h)) P1 S1 ∧
      List.Forall₂ (KidRel file (NodeRel file h)) P2 S2 := by
  have hF := hr.2
  rw [hk] at hF
  obtain ⟨P1, pl, P2, eP, hF1, ⟨Mc0, cd, e1, e2, e3, e4⟩, hF2, hlen⟩ := forall2_split S1 hF
  simp only [Option.some.injEq] at e1
  subst e1 e3
  exact ⟨P1, P2, cd, eP, hlen, e2, e4, hF1, hF2⟩

/-- Reading slot `|P1|` of a child array cut as `P1 ++ p :: P2`. -/
theorem rd_kid {x : DNode} {P1 P2 : List Int} {p : Int}
    (hP : view x.c (x.n + 1) = P1 ++ p :: P2) : rd x.c (P1.length : Int) = .ok p := by
  have hlen : ((P1.length : Int)) < x.n + 1 := by
    have := congrArg List.length hP
    unfold view at this
    simp only [List.length_take, List.length_append, List.length_cons] at this
    omega
  exact rd_view (n := x.n + 1) (by omega) hlen (by
    rw [hP, Int.toNat_ofNat]
    exact getElem_explicit _ _ _ _ rfl)

end DiskBTree

namespace DiskBTree

theorem eraseIdx_mid {α : Type} (A : List α) (a b : α) (B : List α) (i : Nat)
    (h : A.length = i) : (A ++ a :: b :: B).eraseIdx (i + 1) = A ++ a :: B := by
  subst h
  have : A ++ a :: b :: B = (A ++ [a]) ++ b :: B := by simp
  rw [this, eraseIdx_explicit _ _ _ _ (by simp)]
  simp

theorem take_drop_mid {α : Type} (A : List α) (a b c : α) (B : List α) (i : Nat)
    (h : A.length = i) :
    (A ++ a :: b :: B).take i ++ c :: (A ++ a :: b :: B).drop (i + 2) = A ++ c :: B := by
  subst h
  have : A ++ a :: b :: B = (A ++ [a, b]) ++ B := by simp
  rw [List.take_left' rfl, this, List.drop_left' (by simp)]

/-- The disk-resident `_merge` leaves in the file the node the in-memory `_merge` returns. -/
theorem sim_merge (t : Int) (h : Nat) (s : DiskBTree) (x : DNode) (Mx Ml Mr : BTree.Node)
    (S1 S2 : List (Option BTree.Node)) (K1 K2 : List (Int × Int)) (m : Int × Int)
    (hr : NodeRel s.file (h + 1) x Mx) (hw : BTree.WF t (h + 1) Mx)
    (hok : TreeOK s.file s.next_pos_ (h + 1) x)
    (hkids : Mx.kids = S1 ++ some Ml :: some Mr :: S2) (hkvs : Mx.kvs = K1 ++ m :: K2)
    (hlen : S1.length = K1.length) (hsum : Ml.n + Mr.n + 1 ≤ 2 * t - 1) :
    ∃ Mx' s' x', BTree._merge Mx (K1.length : Int) = .ok Mx' ∧
      _merge t s x (K1.length : Int) = .ok (s', x') ∧ OpOut s s' h x x' Mx' := by
  obtain ⟨P1, P2, ld, rn, eP, hPl, hfl, hfr, hrl, hrr, hF1, hF2⟩ := hr.kids2 hkids
  obtain ⟨hrdl, hwl, _, _⟩ := hw.kid_at hkids
  have hkids2 : Mx.kids = (S1 ++ [some Ml]) ++ some Mr :: S2 := by rw [hkids]; simp
  obtain ⟨hrdr, hwr, _, _⟩ := hw.kid_at hkids2
  have eP2 : view x.c (x.n + 1) = (P1 ++ [ld.pos]) ++ rn.pos :: P2 := by rw [eP]; simp
  have hxl := rd_kid eP
  have hxr := rd_kid eP2
  have hi := BTree.kvs_len_explicit hw.shape hkvs
  simp only [List.length_append, List.length_singleton, Nat.cast_add, Nat.cast_one] at hrdr hxr
  rw [hlen] at hrdl hrdr
  rw [hPl, hlen] at hxl hxr
  have hok0 := hok
  obtain ⟨hnd, hbd⟩ := hok
  have efp : fpKids s.file (h + 1) x = P1.flatMap (fpAt s.file h) ++
      ((ld.pos :: fpKids s.file h ld ++ (rn.pos :: fpKids s.file h rn)) ++
        P2.flatMap (fpAt s.file h)) := by
    rw [fpKids_succ, eP]
    simp [List.flatMap_append, fpAt, hfl, hfr]
  rw [efp] at hnd hbd
  have hnd0 := hnd
  rw [List.nodup_iff_count_le_one] at hnd
  have bx := hbd x.pos (List.mem_cons_self _ _)
  have bl := hbd ld.pos (by simp)
  have br := hbd rn.pos (by simp)
  have hd1 : ld.pos ≠ x.pos := by
    intro e
    have := hnd x.pos
    simp [List.count_cons, List.count_append, e] at this
  have hd2 : rn.pos ≠ x.pos := by
    intro e
    have := hnd x.pos
    simp [List.count_cons, List.count_append, e] at this
  have hd3 : ld.pos ≠ rn.pos := by
    intro e
    have := hnd rn.pos
    simp [List.count_cons, List.count_append, e] at this
    omega
  obtain ⟨Mx', Ml', s', x', l', E1, E2, fx', xp, xn, vx, kx, fl', lp, ln, hlk, snp, srt, fX, fL,
    fO⟩ := merge_arrays t s x ld rn Mx Ml Mr (K1.length : Int) hw.shape hw.2.1 (by omega) hi
      hrdl hrdr hwl.shape hwr.shape hsum hr.1 hrl.flat hrr.flat hxl hxr hfl hfr (by omega)
      (by omega) (by omega) hd1 hd2 hd3
  have key : ∀ q, q ∈ fpKids s.file h ld ∨ q ∈ fpKids s.file h rn → s'.file q = s.file q := by
    intro q hq
    have hc := hnd q
    simp only [List.count_cons, List.count_append] at hc
    have hcnt : 1 ≤ List.count q (fpKids s.file h ld) + List.count q (fpKids s.file h rn) := by
      rcases hq with hq | hq
      · have := count_mem_pos hq; omega
      · have := count_mem_pos hq; omega
    apply fO
    · intro e
      rw [e] at hc hcnt
      simp only [beq_self_eq_true, if_true] at hc
      omega
    · intro e
      rw [e] at hc hcnt
      simp only [beq_self_eq_true, if_true] at hc
      omega
    · intro e
      rw [e] at hc hcnt
      simp only [beq_self_eq_true, if_true] at hc
      omega
  obtain ⟨rl', efl'⟩ := merge_halves t h s.file s'.file ld rn l' Ml Mr Ml' hrl hrr hwl fl' hlk key
  have hfl' : s'.file l'.pos = some l' := by rw [lp]; exact fL
  have hmidfp : [ld.pos].flatMap (fpAt s'.file h) =
      ld.pos :: (fpKids s.file h ld ++ fpKids s.file h rn) := by
    simp only [List.flatMap_cons, List.flatMap_nil, List.append_nil]
    rw [← lp, fpAt_of hfl', efl']
  have holdfp : [ld.pos, rn.pos].flatMap (fpAt s.file h) =
      ld.pos :: fpKids s.file h ld ++ (rn.pos :: fpKids s.file h rn) := by
    simp only [List.flatMap_cons, List.flatMap_nil, List.append_nil]
    rw [fpAt_of hfl, fpAt_of hfr]
  have e7 : ((K1.length : Int) + 1).toNat = K1.length + 1 := by omega
  obtain ⟨r1, r2, r3, r4⟩ := sim_rebuild h s.file s'.file s.next_pos_ x x' Mx Mx' P1
    [ld.pos, rn.pos] [ld.pos] P2 S1 [some Ml, some Mr] [some Ml'] S2 hr hok0
    (by rw [eP]; simp) (by rw [hkids]; simp) hPl rfl fx' xp
    (by
      rw [vx, eP, e7, eraseIdx_mid _ _ _ _ _ (by omega)]
      simp)
    (by
      rw [kx, hkids, Int.toNat_ofNat, take_drop_mid _ _ _ _ _ _ hlen]
      simp)
    (List.Forall₂.cons ⟨Ml', l', rfl, fL, lp, rl'⟩ List.Forall₂.nil)
    (by
      intro q hq
      rw [holdfp] at hq
      simp only [List.mem_cons, List.mem_append, not_or] at hq
      exact fO q hq.1 hq.2.2.1 hq.2.1.1)
    (by
      rw [hmidfp]
      have hsl : (ld.pos :: (fpKids s.file h ld ++ fpKids s.file h rn)).Sublist
          (x.pos :: (P1.flatMap (fpAt s.file h) ++
            ((ld.pos :: fpKids s.file h ld ++ (rn.pos :: fpKids s.file h rn)) ++
              P2.flatMap (fpAt s.file h)))) := by
        refine List.Sublist.trans ?_ (List.sublist_cons_self _ _)
        refine List.Sublist.trans ?_ (List.sublist_append_right _ _)
        refine List.Sublist.trans ?_ (List.sublist_append_left _ _)
        exact List.Sublist.cons₂ _ (List.Sublist.append (List.Sublist.refl _)
          (List.sublist_cons_self _ _))
      exact hnd0.sublist hsl)
    (by
      intro q hq
      rw [hmidfp] at hq
      rw [holdfp]
      simp only [List.mem_cons, List.mem_append] at hq ⊢
      tauto)
  refine ⟨Mx', s', x', E1, E2, xp, fX, r1, ?_, snp, srt, r3, r4⟩
  rw [snp]; exact r2

end DiskBTree

namespace DiskBTree

theorem forall2_snoc {α β : Type} {R : α → β → Prop} {P : List α} {S : List β} {a : α} {b : β}
    (h : List.Forall₂ R (P ++ [a]) (S ++ [b])) : List.Forall₂ R P S ∧ R a b := by
  have hl := h.length_eq
  simp only [List.length_append, List.length_singleton, add_left_inj] at hl
  have h1 := List.forall₂_take P.length h
  have h2 := List.forall₂_drop P.length h
  rw [List.take_left' rfl, List.take_left' hl.symm] at h1
  rw [List.drop_left' rfl, List.drop_left' hl.symm] at h2
  cases h2 with
  | cons hab _ => exact ⟨h1, hab⟩

/-- The children after `_borrow_from_prev`: the last grandchild of the left sibling became the
first grandchild of the child. -/
theorem moved_prev (t : Int) (h : Nat) (file file' : Int → Option DNode) (ld cd l' c' : DNode)
    (Ml Mc Ml' Mc' : BTree.Node) (hrl : NodeRel file h ld Ml) (hrc : NodeRel file h cd Mc)
    (hwc : BTree.WF t h Mc) (fl' : Flat l' Ml') (fc' : Flat c' Mc')
    (hk : Mc.leaf = false → ∃ o po, Ml.kids = Ml'.kids ++ [o] ∧ Mc'.kids = o :: Mc.kids ∧
        view ld.c (ld.n + 1) = view l'.c (l'.n + 1) ++ [po] ∧
        view c'.c (c'.n + 1) = po :: view cd.c (cd.n + 1))
    (hfr : ∀ q, q ∈ fpKids file h ld ∨ q ∈ fpKids file h cd → file' q = file q) :
    NodeRel file' h l' Ml' ∧ NodeRel file' h c' Mc' ∧
      ∃ A B, fpKids file h ld = A ++ B ∧ fpKids file' h l' = A ∧
        fpKids file' h c' = B ++ fpKids file h cd := by
  cases h with
  | zero => exact ⟨fl', fc', [], [], rfl, rfl, rfl⟩
  | succ h =>
    obtain ⟨o, po, k1, k2, k3, k4⟩ := hk hwc.2.1
    have hFl := hrl.2
    rw [k1, k3] at hFl
    obtain ⟨hFl', hpo⟩ := forall2_snoc hFl
    have efl : fpKids file (h + 1) ld = (view l'.c (l'.n + 1)).flatMap (fpAt file h) ++
        fpAt file h po := by
      rw [fpKids_succ, k3, List.flatMap_append]
      simp
    obtain ⟨a1, a2⟩ := frame_list file file' h (view l'.c (l'.n + 1))
      (fun q hq => hfr q (Or.inl (by rw [efl]; exact List.mem_append_left _ hq)))
    obtain ⟨b1, b2⟩ := frame_list file file' h (view cd.c (cd.n + 1))
      (fun q hq => hfr q (Or.inr hq))
    obtain ⟨c1, c2⟩ := frame_at file file' h po
      (fun q hq => hfr q (Or.inl (by rw [efl]; exact List.mem_append_right _ hq)))
    refine ⟨⟨fl', a2 _ hFl'⟩, ⟨fc', ?_⟩, _, _, efl, ?_, ?_⟩
    · rw [k4, k2]
      exact List.Forall₂.cons (c2 _ hpo) (b2 _ hrc.2)
    · rw [fpKids_succ, a1]
    · rw [fpKids_succ, k4, List.flatMap_cons, c1, b1, fpKids_succ]

/-- The children after `_borrow_from_next`: the first grandchild of the right sibling became the
last grandchild of the child. -/
theorem moved_next (t : Int) (h : Nat) (file file' : Int → Option DNode) (cd rn c' r' : DNode)
    (Mc Mr Mc' Mr' : BTree.Node) (hrc : NodeRel file h cd Mc) (hrr : NodeRel file h rn Mr)
    (hwc : BTree.WF t h Mc) (fc' : Flat c' Mc') (fr' : Flat r' Mr')
    (hk : Mc.leaf = false → ∃ o po, Mr.kids = o :: Mr'.kids ∧ Mc'.kids = Mc.kids ++ [o] ∧
        view rn.c (rn.n + 1) = po :: view r'.c (r'.n + 1) ∧
        view c'.c (c'.n + 1) = view cd.c (cd.n + 1) ++ [po])
    (hfr : ∀ q, q ∈ fpKids file h cd ∨ q ∈ fpKids file h rn → file' q = file q) :
    NodeRel file' h c' Mc' ∧ NodeRel file' h r' Mr' ∧
      ∃ A B, fpKids file h rn = B ++ A ∧ fpKids file' h r' = A ∧
        fpKids file' h c' = fpKids file h cd ++ B := by
  cases h with
  | zero => exact ⟨fc', fr', [], [], rfl, rfl, rfl⟩
  | succ h =>
    obtain ⟨o, po, k1, k2, k3, k4⟩ := hk hwc.2.1
    have hFr := hrr.2
    rw [k1, k3] at hFr
    cases hFr with
    | cons hpo hFr' =>
      have efr : fpKids file (h + 1) rn = fpAt file h po ++
          (view r'.c (r'.n + 1)).flatMap (fpAt file h) := by
        rw [fpKids_succ, k3, List.flatMap_cons]
      obtain ⟨a1, a2⟩ := frame_list file file' h (view r'.c (r'.n + 1))
        (fun q hq => hfr q (Or.inr (by rw [efr]; exact List.mem_append_right _ hq)))
      obtain ⟨b1, b2⟩ := frame_list file file' h (view cd.c (cd.n + 1))
        (fun q hq => hfr q (Or.inl hq))
      obtain ⟨c1, c2⟩ := frame_at file file' h po
        (fun q hq => hfr q (Or.inr (by rw [efr]; exact List.mem_append_left _ hq)))
      refine ⟨⟨fc', ?_⟩, ⟨fr', a2 _ hFr'⟩, _, _, efr, ?_, ?_⟩
      · rw [k4, k2]
        exact forall2_join (b2 _ hrc.2) (List.Forall₂.cons (c2 _ hpo) List.Forall₂.nil)
      · rw [fpKids_succ, a1]
      · rw [fpKids_succ, k4, List.flatMap_append, b1, fpKids_succ]
        simp [c1]

end DiskBTree

namespace DiskBTree

/-- Two adjacent children of a tree: their positions and the positions below them are pairwise
distinct and distinct from the position of the parent. -/
theorem two_kids_facts {file : Int → Option DNode} {np : Int} {h : Nat} {x a b : DNode}
    {P1 P2 : List Int} (hok : TreeOK file np (h + 1) x)
    (eP : view x.c (x.n + 1) = P1 ++ a.pos :: b.pos :: P2) (hfa : file a.pos = some a)
    (hfb : file b.pos = some b) :
    a.pos ≠ x.pos ∧ b.pos ≠ x.pos ∧ a.pos ≠ b.pos ∧ 0 ≤ x.pos ∧ 0 ≤ a.pos ∧ 0 ≤ b.pos ∧
    [a.pos, b.pos].flatMap (fpAt file h) =
      a.pos :: fpKids file h a ++ (b.pos :: fpKids file h b) ∧
    (a.pos :: fpKids file h a ++ (b.pos :: fpKids file h b)).Nodup ∧
    (∀ q, q ∈ fpKids file h a ∨ q ∈ fpKids file h b → q ≠ x.pos ∧ q ≠ a.pos ∧ q ≠ b.pos) := by
  obtain ⟨hnd, hbd⟩ := hok
  have efp : fpKids file (h + 1) x = P1.flatMap (fpAt file h) ++
      ((a.pos :: fpKids file h a ++ (b.pos :: fpKids file h b)) ++
        P2.flatMap (fpAt file h)) := by
    rw [fpKids_succ, eP]
    simp [List.flatMap_append, fpAt, hfa, hfb]
  rw [efp] at hnd hbd
  have hnd0 := hnd
  rw [List.nodup_iff_count_le_one] at hnd
  have bx := hbd x.pos (List.mem_cons_self _ _)
  have bl := hbd a.pos (by simp)
  have br := hbd b.pos (by simp)
  have hsl : (a.pos :: fpKids file h a ++ (b.pos :: fpKids file h b)).Sublist
      (x.pos :: (P1.flatMap (fpAt file h) ++
        ((a.pos :: fpKids file h a ++ (b.pos :: fpKids file h b)) ++
          P2.flatMap (fpAt file h)))) := by
    refine List.Sublist.trans ?_ (List.sublist_cons_self _ _)
    refine List.Sublist.trans ?_ (List.sublist_append_right _ _)
    exact List.sublist_append_left _ _
  refine ⟨?_, ?_, ?_, bx.1, bl.1, br.1, ?_, hnd0.sublist hsl, ?_⟩
  · intro e
    have := hnd x.pos
    simp [List.count_cons, List.count_append, e] at this
  · intro e
    have := hnd x.pos
    simp [List.count_cons, List.count_append, e] at this
  · intro e
    have := hnd b.pos
    simp [List.count_cons, List.count_append, e] at this
    omega
  · simp only [List.flatMap_cons, List.flatMap_nil, List.append_nil]
    rw [fpAt_of hfa, fpAt_of hfb]
  · intro q hq
    have hc := hnd q
    simp only [List.count_cons, List.count_append] at hc
    have hcnt : 1 ≤ List.count q (fpKids file h a) + List.count q (fpKids file h b) := by
      rcases hq with hq | hq
      · have := count_mem_pos hq; omega
      · have := count_mem_pos hq; omega
    refine ⟨?_, ?_, ?_⟩
    · intro e
      rw [e] at hc hcnt
      simp only [beq_self_eq_true, if_true] at hc
      omega
    · intro e
      rw [e] at hc hcnt
      simp only [beq_self_eq_true, if_true] at hc
      omega
    · intro e
      rw [e] at hc hcnt
      simp only [beq_self_eq_true, if_true] at hc
      omega

/-- The disk-resident `_borrow_from_prev` leaves in the file the node the in-memory
`_borrow_from_prev` returns. -/
theorem sim_borrow_prev (t : Int) (h : Nat) (s : DiskBTree) (x : DNode)
    (Mx Ml Mc : BTree.Node) (S1 S2 : List (Option BTree.Node)) (K1 K2 : List (Int × Int))
    (m : Int × Int) (hr : NodeRel s.file (h + 1) x Mx) (hw : BTree.WF t (h + 1) Mx)
    (hok : TreeOK s.file s.next_pos_ (h + 1) x)
    (hkids : Mx.kids = S1 ++ some Ml :: some Mc :: S2) (hkvs : Mx.kvs = K1 ++ m :: K2)
    (hlen : S1.length = K1.length) (hcn : Mc.n < 2 * t - 1) (hln : t ≤ Ml.n) (ht : 1 ≤ t) :
    ∃ Mx' s' x', BTree._borrow_from_prev Mx ((K1.length : Int) + 1) = .ok Mx' ∧
      _borrow_from_prev t s x ((K1.length : Int) + 1) = .ok (s', x') ∧
      OpOut s s' h x x' Mx' := by
  obtain ⟨P1, P2, ld, cd, eP, hPl, hfl, hfc, hrl, hrc, hF1, hF2⟩ := hr.kids2 hkids
  obtain ⟨hrdl, hwl, _, _⟩ := hw.kid_at hkids
  have hkids2 : Mx.kids = (S1 ++ [some Ml]) ++ some Mc :: S2 := by rw [hkids]; simp
  obtain ⟨hrdc, hwc, _, _⟩ := hw.kid_at hkids2
  have eP2 : view x.c (x.n + 1) = (P1 ++ [ld.pos]) ++ cd.pos :: P2 := by rw [eP]; simp
  have hxl := rd_kid eP
  have hxc := rd_kid eP2
  have hi := BTree.kvs_len_explicit hw.shape hkvs
  simp only [List.length_append, List.length_singleton, Nat.cast_add, Nat.cast_one] at hrdc hxc
  rw [hlen] at hrdl hrdc
  rw [hPl, hlen] at hxl hxc
  obtain ⟨hd1, hd2, hd3, bx, bl, bc, holdfp, hndm, hkeyq⟩ := two_kids_facts hok eP hfl hfc
  have e2 : (K1.length : Int) + 1 - 1 = (K1.length : Int) := by omega
  obtain ⟨Mx', Mc', Ml', s', x', c', l', E1, E2, fx', xp, xn, xc, mc, fc', cp, fl', lp, hk, snp,
    srt, fX, fC, fL, fO⟩ := borrow_prev_arrays t s x cd ld Mx Mc Ml ((K1.length : Int) + 1)
      hw.shape (by omega) (by omega) hrdc (by rw [e2]; exact hrdl) hwc.shape hwl.shape hcn
      (by omega) (hwl.leaf_eq hwc) hr.1 hrc.flat hrl.flat hxc (by rw [e2]; exact hxl) hfc hfl
      (by omega) (by omega) (by omega) hd2 hd1 (Ne.symm hd3)
  have key : ∀ q, q ∈ fpKids s.file h ld ∨ q ∈ fpKids s.file h cd → s'.file q = s.file q := by
    intro q hq
    obtain ⟨q1, q2, q3⟩ := hkeyq q hq
    exact fO q q1 q2 q3
  obtain ⟨rl', rc', A, B, eA, eA', eB'⟩ := moved_prev t h s.file s'.file ld cd l' c' Ml Mc Ml' Mc'
    hrl hrc hwc fl' fc' hk key
  have hfl' : s'.file l'.pos = some l' := by rw [lp]; exact fL
  have hfc' : s'.file c'.pos = some c' := by rw [cp]; exact fC
  have hmidfp : [ld.pos, cd.pos].flatMap (fpAt s'.file h) =
      ld.pos :: A ++ (cd.pos :: (B ++ fpKids s.file h cd)) := by
    simp only [List.flatMap_cons, List.flatMap_nil, List.append_nil]
    rw [← lp, ← cp, fpAt_of hfl', fpAt_of hfc', eA', eB']
  have hperm : (ld.pos :: A ++ (cd.pos :: (B ++ fpKids s.file h cd))).Perm
      (ld.pos :: fpKids s.file h ld ++ (cd.pos :: fpKids s.file h cd)) := by
    rw [eA, List.perm_iff_count]
    intro a
    simp only [List.count_cons, List.count_append]
    omega
  have e3 : ((K1.length : Int) + 1).toNat = K1.length + 1 := by omega
  have hn' : Mx'.n = Mx.n := by rw [← fx'.2.2.1, xn, hr.1.2.2.1]
  have hk2 : Mx'.kids = S1 ++ [some Ml', some Mc'] ++ S2 := by
    unfold BTree.Node.kids
    rw [hn', mc, BTree.view_set_inside_nat, BTree.view_set_inside_nat, e2, e3, Int.toNat_ofNat]
    show ((Mx.kids.set (K1.length + 1) (some Mc')).set K1.length (some Ml')) = _
    rw [hkids, ← hlen]
    have : S1 ++ some Ml :: some Mc :: S2 = (S1 ++ [some Ml]) ++ some Mc :: S2 := by simp
    rw [this, set_explicit _ _ _ _ _ (by simp)]
    simp
  obtain ⟨r1, r2, r3, r4⟩ := sim_rebuild h s.file s'.file s.next_pos_ x x' Mx Mx' P1
    [ld.pos, cd.pos] [ld.pos, cd.pos] P2 S1 [some Ml, some Mc] [some Ml', some Mc'] S2 hr hok
    (by rw [eP]; simp) (by rw [hkids]; simp) hPl rfl fx' xp
    (by rw [xn, xc, eP]; simp) hk2
    (List.Forall₂.cons ⟨Ml', l', rfl, fL, lp, rl'⟩
      (List.Forall₂.cons ⟨Mc', c', rfl, fC, cp, rc'⟩ List.Forall₂.nil))
    (by
      intro q hq
      rw [holdfp] at hq
      simp only [List.mem_cons, List.mem_append, not_or] at hq
      exact fO q hq.1 hq.2.1.1 hq.2.2.1)
    (by rw [hmidfp, hperm.nodup_iff]; exact hndm)
    (by
      intro q hq
      rw [hmidfp] at hq
      rw [holdfp]
      exact hperm.mem_iff.mp hq)
  refine ⟨Mx', s', x', E1, E2, xp, fX, r1, ?_, snp, srt, r3, r4⟩
  rw [snp]; exact r2

/-- The disk-resident `_borrow_from_next` leaves in the file the node the in-memory
`_borrow_from_next` returns. -/
theorem sim_borrow_next (t : Int) (h : Nat) (s : DiskBTree) (x : DNode)
    (Mx Mc Mr : BTree.Node) (S1 S2 : List (Option BTree.Node)) (K1 K2 : List (Int × Int))
    (m : Int × Int) (hr : NodeRel s.file (h + 1) x Mx) (hw : BTree.WF t (h + 1) Mx)
    (hok : TreeOK s.file s.next_pos_ (h + 1) x)
    (hkids : Mx.kids = S1 ++ some Mc :: some Mr :: S2) (hkvs : Mx.kvs = K1 ++ m :: K2)
    (hlen : S1.length = K1.length) (hcn : Mc.n < 2 * t - 1) (hrn : t ≤ Mr.n) (ht : 1 ≤ t) :
    ∃ Mx' s' x', BTree._borrow_from_next Mx (K1.length : Int) = .ok Mx' ∧
      _borrow_from_next t s x (K1.length : Int) = .ok (s', x') ∧
      OpOut s s' h x x' Mx' := by
  obtain ⟨P1, P2, cd, rn, eP, hPl, hfc, hfr, hrc, hrr, hF1, hF2⟩ := hr.kids2 hkids
  obtain ⟨hrdc, hwc, _, _⟩ := hw.kid_at hkids
  have hkids2 : Mx.kids = (S1 ++ [some Mc]) ++ some Mr :: S2 := by rw [hkids]; simp
  obtain ⟨hrdr, hwr, _, _⟩ := hw.kid_at hkids2
  have eP2 : view x.c (x.n + 1) = (P1 ++ [cd.pos]) ++ rn.pos :: P2 := by rw [eP]; simp
  have hxc := rd_kid eP
  have hxr := rd_kid eP2
  have hi := BTree.kvs_len_explicit hw.shape hkvs
  simp only [List.length_append, List.length_singleton, Nat.cast_add, Nat.cast_one] at hrdr hxr
  rw [hlen] at hrdc hrdr
  rw [hPl, hlen] at hxc hxr
  obtain ⟨hd1, hd2, hd3, bx, bc, br, holdfp, hndm, hkeyq⟩ := two_kids_facts hok eP hfc hfr
  obtain ⟨Mx', Mc', Mr', s', x', c', r', E1, E2, fx', xp, xn, xc, mc, fc', cp, fr', rp, hk, snp,
    srt, fX, fC, fR, fO⟩ := borrow_next_arrays t s x cd rn Mx Mc Mr (K1.length : Int)
      hw.shape (by omega) hi hrdc hrdr hwc.shape hwr.shape hcn (by omega) (hwr.leaf_eq hwc)
      hr.1 hrc.flat hrr.flat hxc hxr hfc hfr (by omega) (by omega) (by omega) hd1 hd2 hd3
  have key : ∀ q, q ∈ fpKids s.file h cd ∨ q ∈ fpKids s.file h rn → s'.file q = s.file q := by
    intro q hq
    obtain ⟨q1, q2, q3⟩ := hkeyq q hq
    exact fO q q1 q3 q2
  obtain ⟨rc', rr', A, B, eA, eA', eB'⟩ := moved_next t h s.file s'.file cd rn c' r' Mc Mr Mc' Mr'
    hrc hrr hwc fc' fr' hk key
  have hfr' : s'.file r'.pos = some r' := by rw [rp]; exact fR
  have hfc' : s'.file c'.pos = some c' := by rw [cp]; exact fC
  have hmidfp : [cd.pos, rn.pos].flatMap (fpAt s'.file h) =
      cd.pos :: (fpKids s.file h cd ++ B) ++ (rn.pos :: A) := by
    simp only [List.flatMap_cons, List.flatMap_nil, List.append_nil]
    rw [← rp, ← cp, fpAt_of hfr', fpAt_of hfc', eA', eB']
  have hperm : (cd.pos :: (fpKids s.file h cd ++ B) ++ (rn.pos :: A)).Perm
      (cd.pos :: fpKids s.file h cd ++ (rn.pos :: fpKids s.file h rn)) := by
    rw [eA, List.perm_iff_count]
    intro a
    simp only [List.count_cons, List.count_append]
    omega
  have e3 : ((K1.length : Int) + 1).toNat = K1.length + 1 := by omega
  have hn' : Mx'.n = Mx.n := by rw [← fx'.2.2.1, xn, hr.1.2.2.1]
  have hk2 : Mx'.kids = S1 ++ [some Mc', some Mr'] ++ S2 := by
    unfold BTree.Node.kids
    rw [hn', mc, BTree.view_set_inside_nat, BTree.view_set_inside_nat, e3, Int.toNat_ofNat]
    show ((Mx.kids.set K1.length (some Mc')).set (K1.length + 1) (some Mr')) = _
    rw [hkids, ← hlen, set_explicit _ _ _ _ _ rfl]
    have : S1 ++ some Mc' :: some Mr :: S2 = (S1 ++ [some Mc']) ++ some Mr :: S2 := by simp
    rw [this, set_explicit _ _ _ _ _ (by simp)]
    simp
  obtain ⟨r1, r2, r3, r4⟩ := sim_rebuild h s.file s'.file s.next_pos_ x x' Mx Mx' P1
    [cd.pos, rn.pos] [cd.pos, rn.pos] P2 S1 [some Mc, some Mr] [some Mc', some Mr'] S2 hr hok
    (by rw [eP]; simp) (by rw [hkids]; simp) hPl rfl fx' xp
    (by rw [xn, xc, eP]; simp) hk2
    (List.Forall₂.cons ⟨Mc', c', rfl, fC, cp, rc'⟩
      (List.Forall₂.cons ⟨Mr', r', rfl, fR, rp, rr'⟩ List.Forall₂.nil))
    (by
      intro q hq
      rw [holdfp] at hq
      simp only [List.mem_cons, List.mem_append, not_or] at hq
      exact fO q hq.1 hq.2.2.1 hq.2.1.1)
    (by rw [hmidfp, hperm.nodup_iff]; exact hndm)
    (by
      intro q hq
      rw [hmidfp] at hq
      rw [holdfp]
      exact hperm.mem_iff.mp hq)
  refine ⟨Mx', s', x', E1, E2, xp, fX, r1, ?_, snp, srt, r3, r4⟩
  rw [snp]; exact r2

end DiskBTree

namespace DiskBTree

/-- The part of `_fill` after the test of the left sibling, on disk and in memory. -/
theorem sim_fill_next (t : Int) (ht : 1 ≤ t) (h : Nat) (s : DiskBTree) (x : DNode)
    (Mx Mc : BTree.Node) (S1 S2 : List (Option BTree.Node)) (K1 K2 : List (Int × Int))
    (hr : NodeRel s.file (h + 1) x Mx) (hw : BTree.WF t (h + 1) Mx)
    (hok : TreeOK s.file s.next_pos_ (h + 1) x)
    (hkids : Mx.kids = S1 ++ some Mc :: S2) (hkvs : Mx.kvs = K1 ++ K2)
    (hlen : S1.length = K1.length) (hcn : Mc.n = t - 1) (hi : (K1.length : Int) < Mx.n) :
    ∃ Mr rn, rd Mx.c ((K1.length : Int) + 1) = .ok (some Mr) ∧
      rd x.c ((K1.length : Int) + 1) = .ok rn.pos ∧ s.file rn.pos = some rn ∧ rn.n = Mr.n ∧
      ∃ Mx' s' x',
        (if Mr.n > t - 1 then BTree._borrow_from_next Mx (K1.length : Int)
          else BTree._merge Mx (K1.length : Int)) = .ok Mx' ∧
        (if Mr.n > t - 1 then _borrow_from_next t s x (K1.length : Int)
          else _merge t s x (K1.length : Int)) = .ok (s', x') ∧
        OpOut s s' h x x' Mx' := by
  have hS := hw.shape
  have hkl := hS.kids_length
  have hvl := hS.kvs_length
  rw [hkids] at hkl
  rw [hkvs] at hvl
  simp only [List.length_append, List.length_cons] at hkl hvl
  obtain ⟨m, K2b, rfl⟩ := BTree.cons_of_length K2 (by omega)
  obtain ⟨o, S2b, rfl⟩ := BTree.cons_of_length S2 (by simp only [List.length_cons] at hvl; omega)
  have hkids2 : Mx.kids = (S1 ++ [some Mc]) ++ o :: S2b := by rw [hkids]; simp
  obtain ⟨Mr, rfl, hrw, hrn⟩ := hw.2.2 o (by rw [hkids]; simp)
  obtain ⟨hrr, _, _, _⟩ := hw.kid_at hkids2
  have e1 : (((S1 ++ [some Mc]).length : Nat) : Int) = (K1.length : Int) + 1 := by
    simp [hlen]
  rw [e1] at hrr
  obtain ⟨P1, P2, cd, rn, eP, hPl, hfc, hfr, hrc, hrr', hF1, hF2⟩ := hr.kids2 hkids
  have eP2 : view x.c (x.n + 1) = (P1 ++ [cd.pos]) ++ rn.pos :: P2 := by rw [eP]; simp
  have hxr := rd_kid eP2
  simp only [List.length_append, List.length_singleton, Nat.cast_add, Nat.cast_one] at hxr
  rw [hPl, hlen] at hxr
  refine ⟨Mr, rn, hrr, hxr, hfr, hrr'.flat.2.2.1, ?_⟩
  by_cases hrich : Mr.n > t - 1
  · obtain ⟨Mx', s', x', E1, E2, hO⟩ := sim_borrow_next t h s x Mx Mc Mr S1 S2b K1 K2b m hr hw
      hok hkids hkvs hlen (by omega) (by omega) ht
    exact ⟨Mx', s', x', by rw [if_pos hrich]; exact E1, by rw [if_pos hrich]; exact E2, hO⟩
  · obtain ⟨Mx', s', x', E1, E2, hO⟩ := sim_merge t h s x Mx Mc Mr S1 S2b K1 K2b m hr hw
      hok hkids hkvs hlen (by omega)
    exact ⟨Mx', s', x', by rw [if_neg hrich]; exact E1, by rw [if_neg hrich]; exact E2, hO⟩

/-- The disk-resident `_fill` leaves in the file the node the in-memory `_fill` returns. -/
theorem sim_fill (t : Int) (ht : 1 ≤ t) (h : Nat) (s : DiskBTree) (x : DNode)
    (Mx Mc : BTree.Node) (S1 S2 : List (Option BTree.Node)) (K1 K2 : List (Int × Int))
    (hr : NodeRel s.file (h + 1) x Mx) (hw : BTree.WF t (h + 1) Mx)
    (hok : TreeOK s.file s.next_pos_ (h + 1) x)
    (hkids : Mx.kids = S1 ++ some Mc :: S2) (hkvs : Mx.kvs = K1 ++ K2)
    (hlen : S1.length = K1.length) (hcn : Mc.n = t - 1) (hn : 1 ≤ Mx.n) :
    ∃ Mx' s' x', BTree._fill t Mx (K1.length : Int) = .ok Mx' ∧
      _fill t s x (K1.length : Int) = .ok (s', x') ∧ OpOut s s' h x x' Mx' := by
  have hS := hw.shape
  have hkl := hS.kids_length
  have hvl := hS.kvs_length
  have hn0 := hS.2.2.2.1
  have hxn : x.n = Mx.n := hr.1.2.2.1
  rw [hkids] at hkl
  rw [hkvs] at hvl
  simp only [List.length_append, List.length_cons] at hkl hvl
  by_cases h0 : 0 < (K1.length : Int)
  · obtain ⟨K1a, m, rfl⟩ := BTree.snoc_of_length K1 (by omega)
    obtain ⟨S1a, o, rfl⟩ := BTree.snoc_of_length S1 (by omega)
    obtain ⟨Ml, rfl, hlw, hln⟩ := hw.2.2 o (by rw [hkids]; simp)
    have hlen' : S1a.length = K1a.length := by simpa using hlen
    have hkids' : Mx.kids = S1a ++ some Ml :: some Mc :: S2 := by rw [hkids]; simp
    have hkvs' : Mx.kvs = K1a ++ m :: K2 := by rw [hkvs]; simp
    obtain ⟨hrl, _, _, _⟩ := hw.kid_at hkids'
    have e1 : ((K1a ++ [m]).length : Int) - 1 = (S1a.length : Int) := by simp [hlen']
    have e2 : ((K1a ++ [m]).length : Int) = (K1a.length : Int) + 1 := by simp
    obtain ⟨P1, P2, ld, cd, eP, hPl, hfl, hfc, hrl', hrc, hF1, hF2⟩ := hr.kids2 hkids'
    have hxl := rd_kid eP
    rw [hPl] at hxl
    have hldn : ld.n = Ml.n := hrl'.flat.2.2.1
    by_cases hl : Ml.n > t - 1
    · obtain ⟨Mx', s', x', E1, E2, hO⟩ := sim_borrow_prev t h s x Mx Ml Mc S1a S2 K1a K2 m hr hw
        hok hkids' hkvs' hlen' (by omega) (by omega) ht
      refine ⟨Mx', s', x', ?_, ?_, hO⟩
      · simp only [BTree._fill, h0, if_true, ite_true, e1, hrl, deref, Except.ok_bind,
          Except.pure_eq_ok, hl, decide_True]
        rw [e2]; exact E1
      · simp only [_fill, h0, if_true, ite_true, e1, hxl, Except.ok_bind, Except.pure_eq_ok,
          read_at t s ld.pos false ld hfl, hldn, hl, decide_True]
        rw [e2]; exact E2
    · by_cases h1 : ((K1a ++ [m]).length : Int) < Mx.n
      · obtain ⟨Mr, rn, hrr, hxr, hfr, hrnn, Mx', s', x', E1, E2, hO⟩ :=
          sim_fill_next t ht h s x Mx Mc (S1a ++ [some Ml]) S2 (K1a ++ [m]) K2 hr hw hok hkids
            hkvs hlen hcn h1
        have h1' : ((K1a ++ [m]).length : Int) < x.n := by rw [hxn]; exact h1
        refine ⟨Mx', s', x', ?_, ?_, hO⟩
        · simp only [BTree._fill, h0, if_true, ite_true, e1, hrl, deref, Except.ok_bind,
            Except.pure_eq_ok, hl, decide_False, Bool.false_eq_true, if_false, ite_false, h1,
            hrr]
          by_cases hrich : Mr.n > t - 1
          · simp only [hrich, decide_True, if_true, ite_true] at E1 ⊢; exact E1
          · simp only [hrich, decide_False, if_false, ite_false, Bool.false_eq_true] at E1 ⊢
            exact E1
        · simp only [_fill, h0, if_true, ite_true, e1, hxl, Except.ok_bind, Except.pure_eq_ok,
            read_at t s ld.pos false ld hfl, hldn, hl, decide_False, Bool.false_eq_true,
            if_false, ite_false, h1', hxr, read_at t s rn.pos false rn hfr, hrnn]
          by_cases hrich : Mr.n > t - 1
          · simp only [hrich, decide_True, if_true, ite_true] at E2 ⊢; exact E2
          · simp only [hrich, decide_False, if_false, ite_false, Bool.false_eq_true] at E2 ⊢
            exact E2
      · obtain ⟨Mx', s', x', E1, E2, hO⟩ := sim_merge t h s x Mx Ml Mc S1a S2 K1a K2 m hr hw
          hok hkids' hkvs' hlen' (by omega)
        have h1' : ¬ ((K1a ++ [m]).length : Int) < x.n := by rw [hxn]; exact h1
        refine ⟨Mx', s', x', ?_, ?_, hO⟩
        · simp only [BTree._fill, h0, if_true, ite_true, e1, hrl, deref, Except.ok_bind,
            Except.pure_eq_ok, hl, decide_False, Bool.false_eq_true, if_false, ite_false, h1]
          rw [hlen']; exact E1
        · simp only [_fill, h0, if_true, ite_true, e1, hxl, Except.ok_bind, Except.pure_eq_ok,
            read_at t s ld.pos false ld hfl, hldn, hl, decide_False, Bool.false_eq_true,
            if_false, ite_false, h1']
          rw [hlen']; exact E2
  · have h1 : (K1.length : Int) < Mx.n := by omega
    have h1' : (K1.length : Int) < x.n := by rw [hxn]; exact h1
    obtain ⟨Mr, rn, hrr, hxr, hfr, hrnn, Mx', s', x', E1, E2, hO⟩ :=
      sim_fill_next t ht h s x Mx Mc S1 S2 K1 K2 hr hw hok hkids hkvs hlen hcn h1
    refine ⟨Mx', s', x', ?_, ?_, hO⟩
    · simp only [BTree._fill, h0, if_false, ite_false, Except.ok_bind, Except.pure_eq_ok,
        Bool.false_eq_true, h1, if_true, ite_true, hrr, deref]
      by_cases hrich : Mr.n > t - 1
      · simp only [hrich, decide_True, if_true, ite_true] at E1 ⊢; exact E1
      · simp only [hrich, decide_False, if_false, ite_false, Bool.false_eq_true] at E1 ⊢
        exact E1
    · simp only [_fill, h0, if_false, ite_false, Except.ok_bind, Except.pure_eq_ok,
        Bool.false_eq_true, h1', if_true, ite_true, hxr, read_at t s rn.pos false rn hfr, hrnn]
      by_cases hrich : Mr.n > t - 1
      · simp only [hrich, decide_True, if_true, ite_true] at E2 ⊢; exact E2
      · simp only [hrich, decide_False, if_false, ite_false, Bool.false_eq_true] at E2 ⊢
        exact E2

end DiskBTree

namespace DiskBTree

theorem DRemOK.mem {t : Int} {h : Nat} (ht : 2 ≤ t) (_ : DRemOK t h) : BTree.RemOK t h :=
  BTree.remove_node_ok t ht h

/-- A removal in a stored subtree whose top node has at least `t` keys. -/
theorem d_child_remove (t : Int) (h : Nat) (IH : DRemOK t h) (fuel : Nat) (s : DiskBTree)
    (x : DNode) (c : BTree.Node) (k : Int) (hr : NodeRel s.file h x c) (hc : BTree.WF t h c)
    (ht : 1 ≤ t) (hn : t ≤ c.n) (hs : SortedKV (BTree.inorder h (some c)))
    (hok : TreeOK s.file s.next_pos_ h x) (hxf : s.file x.pos = some x)
    (hf : 4 * h + 1 ≤ fuel) :
    ∃ c' res s' d', BTree._remove_node t fuel (some c) k = .ok (some c', res) ∧
      BTree.WF t h c' ∧ t - 1 ≤ c'.n ∧
      RemSpec (BTree.inorder h (some c)) (BTree.inorder h (some c')) k res ∧
      _remove_node t fuel s x k = .ok (s', d', res) ∧ RemOut s s' h x h d' c' ∧
      d'.pos = x.pos ∧ s'.root_ = s.root_ := by
  obtain ⟨c', h', res, s', xr, d', E, hw, _, hh, hR, E2, hO, hC1, _⟩ :=
    IH fuel s x c k hr hc (by omega) hs hok hxf hf
  obtain ⟨rfl, hn'⟩ := hh hn
  obtain ⟨e1, e2, e3⟩ := hC1 hn
  subst e2
  exact ⟨c', res, s', xr, E, hw, hn', hR, E2, hO, e1, e3⟩

/-- A parent whose child in slot `|S1|` was changed by a removal that kept the child in place:
the parent handle `x2` (the arrays of child positions of `x`, stored at the position of `x`)
stands for the in-memory parent with the new child. -/
theorem reassemble (h : Nat) (s s1 : DiskBTree) (file' : Int → Option DNode) (x x2 cd d' : DNode)
    (M M2 Mc c' : BTree.Node) (S1 S2 : List (Option BTree.Node)) (P1 P2 : List Int)
    (hr : NodeRel s.file (h + 1) x M) (hok : TreeOK s.file s.next_pos_ (h + 1) x)
    (hk : M.kids = S1 ++ some Mc :: S2) (eP : view x.c (x.n + 1) = P1 ++ cd.pos :: P2)
    (hPl : P1.length = S1.length) (hfc : s.file cd.pos = some cd)
    (hO : RemOut s s1 h cd h d' c') (hdp : d'.pos = cd.pos)
    (hfl : Flat x2 M2) (hpos : x2.pos = x.pos) (hc2 : view x2.c (x2.n + 1) = view x.c (x.n + 1))
    (hk2 : M2.kids = S1 ++ some c' :: S2)
    (hf' : file' x.pos = some x2) (hfo : ∀ q, q ≠ x.pos → file' q = s1.file q) :
    NodeRel file' (h + 1) x2 M2 ∧ TreeOK file' s.next_pos_ (h + 1) x2 ∧
      (∀ q ∈ fpKids file' (h + 1) x2, q ∈ fpKids s.file (h + 1) x) ∧
      (∀ q, q ∉ x.pos :: fpKids s.file (h + 1) x → file' q = s.file q) := by
  obtain ⟨o1, o2, o3, o4, o5, o6⟩ := hO
  have hnd := hok.1
  have efp : fpKids s.file (h + 1) x = P1.flatMap (fpAt s.file h) ++
      ((cd.pos :: fpKids s.file h cd) ++ P2.flatMap (fpAt s.file h)) := by
    rw [fpKids_succ, eP, List.flatMap_append, List.flatMap_cons, fpAt_of hfc]
  rw [efp, List.nodup_iff_count_le_one] at hnd
  have hxq : ∀ q ∈ cd.pos :: fpKids s.file h cd, q ≠ x.pos := by
    intro q hq e
    have hc := hnd x.pos
    have := count_mem_pos hq
    rw [e] at this
    simp only [List.count_cons, List.count_append, beq_self_eq_true, if_true] at hc this
    omega
  have hnew : ∀ q ∈ d'.pos :: fpKids s1.file h d', file' q = s1.file q :=
    fun q hq => hfo q (hxq q (o5 q hq))
  have hfd : file' d'.pos = some d' := by
    rw [hnew _ (List.mem_cons_self _ _)]; exact o1
  obtain ⟨f1, f2⟩ := frame s1.file file' h d'
    (fun q hq => hnew q (List.mem_cons_of_mem _ hq))
  have hmidfp : [cd.pos].flatMap (fpAt file' h) = d'.pos :: fpKids s1.file h d' := by
    simp only [List.flatMap_cons, List.flatMap_nil, List.append_nil]
    rw [← hdp, fpAt_of hfd, f1]
  have holdfp : [cd.pos].flatMap (fpAt s.file h) = cd.pos :: fpKids s.file h cd := by
    simp only [List.flatMap_cons, List.flatMap_nil, List.append_nil]
    rw [fpAt_of hfc]
  obtain ⟨r1, r2, r3, r4⟩ := sim_rebuild h s.file file' s.next_pos_ x x2 M M2 P1 [cd.pos]
    [cd.pos] P2 S1 [some Mc] [some c'] S2 hr hok (by rw [eP]; simp) (by rw [hk]; simp) hPl rfl
    hfl hpos (by rw [hc2, eP]; simp) (by rw [hk2]; simp)
    (List.Forall₂.cons ⟨c', d', rfl, by rw [← hdp]; exact hfd, hdp, f2 _ o2⟩ List.Forall₂.nil)
    (by
      intro q hq
      rw [holdfp] at hq
      have hq1 : q ≠ x.pos := fun e => hq (by rw [e]; exact List.mem_cons_self _ _)
      rw [hfo q hq1]
      exact o6 q (fun hm => hq (List.mem_cons_of_mem _ hm)))
    (by rw [hmidfp]; exact o3.1)
    (by
      intro q hq
      rw [hmidfp] at hq
      rw [holdfp]
      exact o5 q hq)
  exact ⟨r1, r2, r3, r4⟩

end DiskBTree

namespace DiskBTree

theorem read_self (s : DiskBTree) (d : DNode) (hf : s.file d.pos = some d) :
    _disk_read s d = d := by
  simp only [_disk_read, hf]

/-- The disk-resident `_get_pred` loop ends on the stored leaf whose last pair the in-memory
loop returns. -/
theorem sim_get_pred_loop (t : Int) (ht : 2 ≤ t) (s : DiskBTree) : ∀ (h fuel : Nat) (d : DNode)
    (M : BTree.Node), NodeRel s.file h d M → BTree.WF t h M → 1 ≤ M.n → h < fuel →
    s.file d.pos = some d →
    ∃ p a b, _get_pred_loop s fuel d = .ok p ∧ s.file p.pos = some p ∧
      rd p.key (p.n - 1) = .ok a ∧ rd p.val (p.n - 1) = .ok b ∧
      BTree._get_pred_loop fuel M = .ok (a, b) := by
  intro h
  induction h with
  | zero =>
    intro fuel d M hr hw hn hf hfd
    obtain ⟨f, rfl⟩ : ∃ f, fuel = f + 1 := ⟨fuel - 1, by omega⟩
    obtain ⟨a, b, ea, eb, _⟩ := BTree.kvs_last hw.1 hn
    obtain ⟨f1, f2, f3, f4, _⟩ := hr
    have hdl : d.leaf = true := by rw [f4, hw.2]
    refine ⟨d, a, b, ?_, hfd, by rw [f1, f3]; exact ea, by rw [f2, f3]; exact eb, ?_⟩
    · simp only [_get_pred_loop, hdl, Bool.not_true, Bool.false_eq_true, if_false, ite_false,
        Except.pure_eq_ok]
    · simp only [BTree._get_pred_loop, hw.2, Bool.not_true, Bool.false_eq_true, if_false,
        ite_false, ea, eb, Except.ok_bind, Except.pure_eq_ok]
  | succ h ih =>
    intro fuel d M hr hw hn hf hfd
    obtain ⟨f, rfl⟩ : ∃ f, fuel = f + 1 := ⟨fuel - 1, by omega⟩
    have hn0 := hw.shape.2.2.2.1
    obtain ⟨p, dni, Mi, hrd, hfi, hpos, hrdM, _, hri, hwi, hni⟩ :=
      hr.kid_rel hw M.n hn0 (le_refl _)
    subst hpos
    obtain ⟨f1, f2, f3, f4, _⟩ := hr.1
    have hdl : d.leaf = false := by rw [f4, hw.2.1]
    obtain ⟨q, a, b, E, hfq, ea, eb, EM⟩ := ih f dni Mi hri hwi (by omega) (by omega) hfi
    refine ⟨q, a, b, ?_, hfq, ea, eb, ?_⟩
    · rw [← f3] at hrd
      simp only [_get_pred_loop, hdl, Bool.not_false, if_true, ite_true, hrd, Except.ok_bind]
      simp only [_disk_read, hfi, E]
    · simp only [BTree._get_pred_loop, hw.2.1, Bool.not_false, if_true, ite_true, hrdM, deref,
        Except.ok_bind, EM]

/-- The disk-resident `_get_succ` loop ends on the stored leaf whose first pair the in-memory
loop returns. -/
theorem sim_get_succ_loop (t : Int) (ht : 2 ≤ t) (s : DiskBTree) : ∀ (h fuel : Nat) (d : DNode)
    (M : BTree.Node), NodeRel s.file h d M → BTree.WF t h M → 1 ≤ M.n → h < fuel →
    s.file d.pos = some d →
    ∃ p a b, _get_succ_loop s fuel d = .ok p ∧ s.file p.pos = some p ∧
      rd p.key 0 = .ok a ∧ rd p.val 0 = .ok b ∧
      BTree._get_succ_loop fuel M = .ok (a, b) := by
  intro h
  induction h with
  | zero =>
    intro fuel d M hr hw hn hf hfd
    obtain ⟨f, rfl⟩ : ∃ f, fuel = f + 1 := ⟨fuel - 1, by omega⟩
    obtain ⟨a, b, ea, eb, _⟩ := BTree.kvs_first hw.1 hn
    obtain ⟨f1, f2, f3, f4, _⟩ := hr
    have hdl : d.leaf = true := by rw [f4, hw.2]
    refine ⟨d, a, b, ?_, hfd, by rw [f1]; exact ea, by rw [f2]; exact eb, ?_⟩
    · simp only [_get_succ_loop, hdl, Bool.not_true, Bool.false_eq_true, if_false, ite_false,
        Except.pure_eq_ok]
    · simp only [BTree._get_succ_loop, hw.2, Bool.not_true, Bool.false_eq_true, if_false,
        ite_false, ea, eb, Except.ok_bind, Except.pure_eq_ok]
  | succ h ih =>
    intro fuel d M hr hw hn hf hfd
    obtain ⟨f, rfl⟩ : ∃ f, fuel = f + 1 := ⟨fuel - 1, by omega⟩
    have hn0 := hw.shape.2.2.2.1
    obtain ⟨p, dni, Mi, hrd, hfi, hpos, hrdM, _, hri, hwi, hni⟩ :=
      hr.kid_rel hw 0 (le_refl _) hn0
    subst hpos
    obtain ⟨f1, f2, f3, f4, _⟩ := hr.1
    have hdl : d.leaf = false := by rw [f4, hw.2.1]
    obtain ⟨q, a, b, E, hfq, ea, eb, EM⟩ := ih f dni Mi hri hwi (by omega) (by omega) hfi
    refine ⟨q, a, b, ?_, hfq, ea, eb, ?_⟩
    · simp only [_get_succ_loop, hdl, Bool.not_false, if_true, ite_true, hrd, Except.ok_bind]
      simp only [_disk_read, hfi, E]
    · simp only [BTree._get_succ_loop, hw.2.1, Bool.not_false, if_true, ite_true, hrdM, deref,
        Except.ok_bind, EM]

theorem rd_set_self {α : Type} (a : List α) (i : Nat) (v : α) (h : i < a.length) :
    rd (a.set i v) (i : Int) = .ok v := by
  apply rd_ok (by omega)
  simp [List.getElem?_set_self h]

end DiskBTree

namespace DiskBTree

/-- The state reached by writing a parent handle over a removal in one of its children. -/
theorem parent_out (h : Nat) (s s1 : DiskBTree) (x x2 cd d' : DNode)
    (M M2 Mc c' : BTree.Node) (S1 S2 : List (Option BTree.Node)) (P1 P2 : List Int)
    (hr : NodeRel s.file (h + 1) x M) (hok : TreeOK s.file s.next_pos_ (h + 1) x)
    (hk : M.kids = S1 ++ some Mc :: S2) (eP : view x.c (x.n + 1) = P1 ++ cd.pos :: P2)
    (hPl : P1.length = S1.length) (hfc : s.file cd.pos = some cd)
    (hO : RemOut s s1 h cd h d' c') (hdp : d'.pos = cd.pos)
    (hfl : Flat x2 M2) (hpos : x2.pos = x.pos) (hc2 : view x2.c (x2.n + 1) = view x.c (x.n + 1))
    (hk2 : M2.kids = S1 ++ some c' :: S2) :
    RemOut s (_disk_write s1 x2) (h + 1) x (h + 1) x2 M2 := by
  have hb := hok.2 x.pos (List.mem_cons_self _ _)
  have hxp : x2.pos ≠ -1 := by rw [hpos]; omega
  obtain ⟨g1, g2, g3, g4⟩ := write_file s1 x2 hxp
  have hnp := hO.2.2.2.1
  obtain ⟨r1, r2, r3, r4⟩ := reassemble h s s1 (_disk_write s1 x2).file x x2 cd d' M M2 Mc c' S1
    S2 P1 P2 hr hok hk eP hPl hfc hO hdp hfl hpos hc2 hk2 (by rw [← hpos]; exact g1)
    (fun q hq => g2 q (by rw [hpos]; exact hq))
  refine ⟨g1, r1, by rw [g3, hnp]; exact r2, by rw [g3, hnp], ?_, r4⟩
  intro q hq
  rcases List.mem_cons.mp hq with e | hq
  · rw [e, hpos]; exact List.mem_cons_self _ _
  · exact List.mem_cons_of_mem _ (r3 q hq)

/-- Source `_remove_from_non_leaf` of both trees, first branch: the left child has more than
`t - 1` keys. -/
theorem d_pred_step (t : Int) (ht : 2 ≤ t) (h : Nat) (IH : DRemOK t h) (f : Nat)
    (s : DiskBTree) (x : DNode) (M l r : BTree.Node) (S1 S2 : List (Option BTree.Node))
    (K1 K2 : List (Int × Int)) (k v : Int)
    (hr : NodeRel s.file (h + 1) x M) (hx : BTree.WF t (h + 1) M)
    (hok : TreeOK s.file s.next_pos_ (h + 1) x)
    (hk : M.kids = S1 ++ some l :: some r :: S2) (hv : M.kvs = K1 ++ (k, v) :: K2)
    (hlen : S1.length = K1.length) (hs : SortedKV (BTree.inorder (h + 1) (some M)))
    (hrk : rd M.key (K1.length : Int) = .ok k) (hl : l.n > t - 1) (hf : 4 * h + 1 ≤ f) :
    ∃ M' res s1 xr, BTree._remove_from_non_leaf t (f + 1) M (K1.length : Int)
        = .ok (some M', res) ∧
      BTree.WF t (h + 1) M' ∧ M'.n = M.n ∧
      RemSpec (BTree.inorder (h + 1) (some M)) (BTree.inorder (h + 1) (some M')) k res ∧
      _remove_from_non_leaf t (f + 1) s x (K1.length : Int) = .ok (s1, xr, res) ∧
      xr.pos = x.pos ∧ RemOut s (_disk_write s1 xr) (h + 1) x (h + 1) xr M' ∧
      s1.root_ = s.root_ := by
  obtain ⟨x', res, E, hW, hn', hR⟩ := BTree.pred_step t ht h (IH.mem ht) f M l r S1 S2 K1 K2 k v
    hx hk hv hlen hs hrk hl hf
  obtain ⟨hrl, hlw, _, _⟩ := hx.kid_at hk
  have hk2 : M.kids = (S1 ++ [some l]) ++ some r :: S2 := by rw [hk]; simp
  obtain ⟨hrr, hrw, _, _⟩ := hx.kid_at hk2
  rw [hlen] at hrl
  have e1 : (((S1 ++ [some l]).length : Nat) : Int) = (K1.length : Int) + 1 := by
    simp [hlen]
  rw [e1] at hrr
  have hio := BTree.inorder_explicit (t := t) h hk hv hlen
  simp only [List.map_cons, rest_cons] at hio
  have hls : SortedKV (BTree.inorder h (some l)) := by
    rw [hio] at hs; exact hs.left.right
  obtain ⟨P1, P2, ld, rn, eP, hPl, hfl, hfr, hrl', hrr', hF1, hF2⟩ := hr.kids2 hk
  have eP2 : view x.c (x.n + 1) = (P1 ++ [ld.pos]) ++ rn.pos :: P2 := by rw [eP]; simp
  have hxl := rd_kid eP
  have hxr := rd_kid eP2
  simp only [List.length_append, List.length_singleton, Nat.cast_add, Nat.cast_one] at hxr
  rw [hPl, hlen] at hxl hxr
  obtain ⟨p, a, b, Ep, hfp, ea, eb, EpM⟩ :=
    sim_get_pred_loop t ht s h f ld l hrl' hlw (by omega) (by omega) hfl
  obtain ⟨w1, w2, hW1, hk1, hv1⟩ := BTree.setKV_explicit t h M K1 K2 (k, v) a b hx hv
  have hokl : TreeOK s.file s.next_pos_ h ld :=
    hok.kid_ok (j := P1.length) (by rw [eP]; exact getElem_explicit _ _ _ _ rfl) hfl
  obtain ⟨l', resl, s1, d', El, hlw', hln', hrl'', E2, hO, hdp, hrt⟩ :=
    d_child_remove t h IH f s ld l a hrl' hlw (by omega) (by omega) hls hokl hfl hf
  obtain ⟨hw, hW2, hn2, hk2', hv2⟩ :=
    BTree.setC_explicit t h _ l l' S1 (some r :: S2) hW1 (hk1.trans hk) hlw' hln'
  rw [hlen] at hw hW2 hn2 hk2' hv2
  simp only [BTree.Node.c_setVal, BTree.Node.c_setKey, BTree.Node.n_setC, BTree.Node.n_setVal,
    BTree.Node.n_setKey] at hw hn2 hk2'
  have EM : BTree._remove_from_non_leaf t (f + 1) M (K1.length : Int) = .ok (some
      (((M.setKey (M.key.set K1.length a)).setVal (M.val.set K1.length b)).setC
        (M.c.set K1.length (some l'))), resl) := by
    simp only [BTree._remove_from_non_leaf, hrk, hrl, hrr, deref, Except.ok_bind, hl, if_true,
      ite_true, BTree._get_pred, EpM, w1, w2, BTree.Node.val_setKey, El, BTree.Node.c_setVal,
      BTree.Node.c_setKey, hw, Except.pure_eq_ok]
  rw [EM] at E
  simp only [Except.ok.injEq, Prod.mk.injEq, Option.some.injEq] at E
  obtain ⟨e2, e3⟩ := E
  subst e2 e3
  obtain ⟨fx1, fx2, fx3, fx4, fx5⟩ := hr.1
  have hi := BTree.kvs_len_explicit hx.shape hv
  have hS := hx.shape
  have hrk' : rd x.key (K1.length : Int) = .ok k := by rw [fx1]; exact hrk
  have w1' : wr x.key (K1.length : Int) a = .ok (M.key.set K1.length a) := by rw [fx1]; exact w1
  have w2' : wr x.val (K1.length : Int) b = .ok (M.val.set K1.length b) := by rw [fx2]; exact w2
  have hback : rd (M.key.set K1.length a) (K1.length : Int) = .ok a :=
    rd_set_self _ _ _ (by have h1 := hS.1; have h2 := hS.2.2.2.2; omega)
  have hldn : ld.n = l.n := hrl'.flat.2.2.1
  have hl' : ld.n > t - 1 := by rw [hldn]; exact hl
  have ED : _remove_from_non_leaf t (f + 1) s x (K1.length : Int) = .ok (s1,
      DNode.mk (M.key.set K1.length a) x.leaf x.pos x.n (M.val.set K1.length b) x.c, resl) := by
    simp only [_remove_from_non_leaf, hrk', hxl, hxr, Except.ok_bind,
      read_at t s ld.pos false ld hfl, read_at t s rn.pos false rn hfr, hl', if_true, ite_true,
      _get_pred, Ep, read_self s p hfp, ea, eb, w1', w2', hback, E2, Except.pure_eq_ok]
  have hO2 := parent_out h s s1 x
    (DNode.mk (M.key.set K1.length a) x.leaf x.pos x.n (M.val.set K1.length b) x.c) ld d' M
    (((M.setKey (M.key.set K1.length a)).setVal (M.val.set K1.length b)).setC
      (M.c.set K1.length (some l'))) l l' S1 (some r :: S2) P1 (rn.pos :: P2) hr hok hk eP hPl
    hfl hO hdp
    ⟨by simp, by simp, by simp [fx3], by simp [fx4], by simpa using fx5⟩ rfl rfl hk2'
  exact ⟨_, resl, s1, _, EM, hW, hn', hR, ED, rfl, hO2, hrt⟩

/-- Source `_remove_from_non_leaf` of both trees, second branch: the right child has more than
`t - 1` keys and the left child has not. -/
theorem d_succ_step (t : Int) (ht : 2 ≤ t) (h : Nat) (IH : DRemOK t h) (f : Nat)
    (s : DiskBTree) (x : DNode) (M l r : BTree.Node) (S1 S2 : List (Option BTree.Node))
    (K1 K2 : List (Int × Int)) (k v : Int)
    (hr : NodeRel s.file (h + 1) x M) (hx : BTree.WF t (h + 1) M)
    (hok : TreeOK s.file s.next_pos_ (h + 1) x)
    (hk : M.kids = S1 ++ some l :: some r :: S2) (hv : M.kvs = K1 ++ (k, v) :: K2)
    (hlen : S1.length = K1.length) (hs : SortedKV (BTree.inorder (h + 1) (some M)))
    (hrk : rd M.key (K1.length : Int) = .ok k) (hl : ¬ l.n > t - 1) (hrn : r.n > t - 1)
    (hf : 4 * h + 1 ≤ f) :
    ∃ M' res s1 xr, BTree._remove_from_non_leaf t (f + 1) M (K1.length : Int)
        = .ok (some M', res) ∧
      BTree.WF t (h + 1) M' ∧ M'.n = M.n ∧
      RemSpec (BTree.inorder (h + 1) (some M)) (BTree.inorder (h + 1) (some M')) k res ∧
      _remove_from_non_leaf t (f + 1) s x (K1.length : Int) = .ok (s1, xr, res) ∧
      xr.pos = x.pos ∧ RemOut s (_disk_write s1 xr) (h + 1) x (h + 1) xr M' ∧
      s1.root_ = s.root_ := by
  obtain ⟨x', res, E, hW, hn', hR⟩ := BTree.succ_step t ht h (IH.mem ht) f M l r S1 S2 K1 K2 k v
    hx hk hv hlen hs hrk hl hrn hf
  obtain ⟨hrl, hlw, _, _⟩ := hx.kid_at hk
  have hk2 : M.kids = (S1 ++ [some l]) ++ some r :: S2 := by rw [hk]; simp
  obtain ⟨hrr, hrw, _, _⟩ := hx.kid_at hk2
  rw [hlen] at hrl
  have e1 : (((S1 ++ [some l]).length : Nat) : Int) = (K1.length : Int) + 1 := by
    simp [hlen]
  have e1' : (S1 ++ [some l]).length = K1.length + 1 := by simp [hlen]
  rw [e1] at hrr
  have hio := BTree.inorder_explicit (t := t) h hk hv hlen
  simp only [List.map_cons, rest_cons] at hio
  have hrs : SortedKV (BTree.inorder h (some r)) := by
    rw [hio] at hs
    have := hs.right
    have h2 : SortedKV ([(k, v)] ++ BTree.inorder h (some r) ++
        rest (S2.map (BTree.inorder h)) K2) := by
      simpa using this
    exact h2.left.right
  obtain ⟨P1, P2, ld, rn, eP, hPl, hfl, hfr, hrl', hrr', hF1, hF2⟩ := hr.kids2 hk
  have eP2 : view x.c (x.n + 1) = (P1 ++ [ld.pos]) ++ rn.pos :: P2 := by rw [eP]; simp
  have hxl := rd_kid eP
  have hxr := rd_kid eP2
  simp only [List.length_append, List.length_singleton, Nat.cast_add, Nat.cast_one] at hxr
  rw [hPl, hlen] at hxl hxr
  obtain ⟨p, a, b, Ep, hfp, ea, eb, EpM⟩ :=
    sim_get_succ_loop t ht s h f rn r hrr' hrw (by omega) (by omega) hfr
  obtain ⟨w1, w2, hW1, hk1, hv1⟩ := BTree.setKV_explicit t h M K1 K2 (k, v) a b hx hv
  have hokr : TreeOK s.file s.next_pos_ h rn :=
    hok.kid_ok (j := (P1 ++ [ld.pos]).length)
      (by rw [eP2]; exact getElem_explicit _ _ _ _ rfl) hfr
  obtain ⟨r', resr, s1, d', Er, hrw', hrn', hrr'', E2, hO, hdp, hrt⟩ :=
    d_child_remove t h IH f s rn r a hrr' hrw (by omega) (by omega) hrs hokr hfr hf
  obtain ⟨hw, hW2, hn2, hk2', hv2⟩ :=
    BTree.setC_explicit t h _ r r' (S1 ++ [some l]) S2 hW1 (hk1.trans hk2) hrw' hrn'
  rw [e1] at hw
  rw [e1'] at hw hW2 hn2 hk2' hv2
  simp only [BTree.Node.c_setVal, BTree.Node.c_setKey, BTree.Node.n_setC, BTree.Node.n_setVal,
    BTree.Node.n_setKey] at hw hn2 hk2'
  have EM : BTree._remove_from_non_leaf t (f + 1) M (K1.length : Int) = .ok (some
      (((M.setKey (M.key.set K1.length a)).setVal (M.val.set K1.length b)).setC
        (M.c.set (K1.length + 1) (some r'))), resr) := by
    simp only [BTree._remove_from_non_leaf, hrk, hrl, hrr, deref, Except.ok_bind, hl, if_false,
      ite_false, hrn, if_true, ite_true, BTree._get_succ, EpM, w1, w2, BTree.Node.val_setKey,
      Er, BTree.Node.c_setVal, BTree.Node.c_setKey, hw, Except.pure_eq_ok]
  rw [EM] at E
  simp only [Except.ok.injEq, Prod.mk.injEq, Option.some.injEq] at E
  obtain ⟨e2, e3⟩ := E
  subst e2 e3
  obtain ⟨fx1, fx2, fx3, fx4, fx5⟩ := hr.1
  have hi := BTree.kvs_len_explicit hx.shape hv
  have hS := hx.shape
  have hrk' : rd x.key (K1.length : Int) = .ok k := by rw [fx1]; exact hrk
  have w1' : wr x.key (K1.length : Int) a = .ok (M.key.set K1.length a) := by rw [fx1]; exact w1
  have w2' : wr x.val (K1.length : Int) b = .ok (M.val.set K1.length b) := by rw [fx2]; exact w2
  have hback : rd (M.key.set K1.length a) (K1.length : Int) = .ok a :=
    rd_set_self _ _ _ (by have h1 := hS.1; have h2 := hS.2.2.2.2; omega)
  have hl' : ¬ ld.n > t - 1 := by rw [hrl'.flat.2.2.1]; exact hl
  have hr' : rn.n > t - 1 := by rw [hrr'.flat.2.2.1]; exact hrn
  have ED : _remove_from_non_leaf t (f + 1) s x (K1.length : Int) = .ok (s1,
      DNode.mk (M.key.set K1.length a) x.leaf x.pos x.n (M.val.set K1.length b) x.c, resr) := by
    simp only [_remove_from_non_leaf, hrk', hxl, hxr, Except.ok_bind,
      read_at t s ld.pos false ld hfl, read_at t s rn.pos false rn hfr, hl', if_false,
      ite_false, hr', if_true, ite_true, _get_succ, Ep, ea, eb, w1', w2', hback, E2,
      Except.pure_eq_ok]
  have hk3 : (((M.setKey (M.key.set K1.length a)).setVal (M.val.set K1.length b)).setC
      (M.c.set (K1.length + 1) (some r'))).kids = (S1 ++ [some l]) ++ some r' :: S2 := hk2'
  have hO2 := parent_out h s s1 x
    (DNode.mk (M.key.set K1.length a) x.leaf x.pos x.n (M.val.set K1.length b) x.c) rn d' M
    (((M.setKey (M.key.set K1.length a)).setVal (M.val.set K1.length b)).setC
      (M.c.set (K1.length + 1) (some r'))) r r' (S1 ++ [some l]) S2 (P1 ++ [ld.pos]) P2 hr hok
    hk2 eP2 (by simp [hPl]) hfr hO hdp
    ⟨by simp, by simp, by simp [fx3], by simp [fx4], by simpa using fx5⟩ rfl rfl hk3
  exact ⟨_, resr, s1, _, EM, hW, hn', hR, ED, rfl, hO2, hrt⟩

end DiskBTree

namespace DiskBTree

/-- The position of a node does not occur in the footprint of a child. -/
theorem TreeOK.kid_ne {file : Int → Option DNode} {np : Int} {h : Nat} {x cd : DNode}
    {P1 P2 : List Int} (hok : TreeOK file np (h + 1) x)
    (eP : view x.c (x.n + 1) = P1 ++ cd.pos :: P2) (hfc : file cd.pos = some cd) :
    ∀ q ∈ cd.pos :: fpKids file h cd, q ≠ x.pos := by
  have hnd := hok.1
  have efp : fpKids file (h + 1) x = P1.flatMap (fpAt file h) ++
      ((cd.pos :: fpKids file h cd) ++ P2.flatMap (fpAt file h)) := by
    rw [fpKids_succ, eP, List.flatMap_append, List.flatMap_cons, fpAt_of hfc]
  rw [efp, List.nodup_iff_count_le_one] at hnd
  intro q hq e
  have hc := hnd x.pos
  have := count_mem_pos hq
  rw [e] at this
  simp only [List.count_cons, List.count_append, beq_self_eq_true, if_true] at hc this
  omega

/-- The descent of `_remove_node` into a child that holds at least `t` keys, on disk and in
memory: the child is rewritten in place, the handle of the parent is not touched. -/
theorem d_descend (t : Int) (ht : 1 ≤ t) (h : Nat) (IH : DRemOK t h) (f : Nat) (s : DiskBTree)
    (x : DNode) (M c : BTree.Node) (S1 S2 : List (Option BTree.Node)) (k : Int)
    (hr : NodeRel s.file (h + 1) x M) (hx : BTree.WF t (h + 1) M)
    (hok : TreeOK s.file s.next_pos_ (h + 1) x) (hxf : s.file x.pos = some x)
    (hk : M.kids = S1 ++ some c :: S2) (hcn : t ≤ c.n)
    (hcs : SortedKV (BTree.inorder h (some c))) (hf : 4 * h + 1 ≤ f) :
    ∃ c2 res p s1 d', BTree._remove_node t f (some c) k = .ok (some c2, res) ∧
      BTree.WF t h c2 ∧ t - 1 ≤ c2.n ∧
      RemSpec (BTree.inorder h (some c)) (BTree.inorder h (some c2)) k res ∧
      rd x.c (S1.length : Int) = .ok p ∧
      _remove_node t f s (_disk_read s (_allocate_node t p false)) k = .ok (s1, d', res) ∧
      RemOut s (_disk_write s1 d') (h + 1) x (h + 1) x (M.setC (M.c.set S1.length (some c2))) ∧
      (_disk_write s1 d').root_ = s.root_ := by
  obtain ⟨P1, P2, cd, eP, hPl, hfc, hrc, _, _⟩ := hr.kids1 hk
  have hxc := rd_kid eP
  rw [hPl] at hxc
  have hokc : TreeOK s.file s.next_pos_ h cd :=
    hok.kid_ok (j := P1.length) (by rw [eP]; exact getElem_explicit _ _ _ _ rfl) hfc
  obtain ⟨_, hcw, _, _⟩ := hx.kid_at hk
  obtain ⟨c2, res, s1, d', Ec, hcw2, hcn2, hrs, E2, hO, hdp, hrt⟩ :=
    d_child_remove t h IH f s cd c k hrc hcw ht hcn hcs hokc hfc hf
  obtain ⟨hw, hW2, hn2, hk2, hv2⟩ := BTree.setC_explicit t h M c c2 S1 S2 hx hk hcw2 hcn2
  have hb := hO.2.2.1.2 d'.pos (List.mem_cons_self _ _)
  obtain ⟨w1, w2, w3⟩ := write_same s1 d' (by omega) hO.1
  have hne := hok.kid_ne eP hfc
  have hx1 : s1.file x.pos = some x := by
    rw [hO.2.2.2.2.2 x.pos (fun hq => hne x.pos hq rfl)]; exact hxf
  obtain ⟨fx1, fx2, fx3, fx4, fx5⟩ := hr.1
  obtain ⟨r1, r2, r3, r4⟩ := reassemble h s s1 (_disk_write s1 d').file x x cd d' M
    (M.setC (M.c.set S1.length (some c2))) c c2 S1 S2 P1 P2 hr hok hk eP hPl hfc hO hdp
    ⟨by simpa using fx1, by simpa using fx2, by simpa using fx3, by simpa using fx4,
      by simpa using fx5⟩ rfl rfl hk2 (by rw [w1]; exact hx1)
    (fun q _ => w1 q)
  refine ⟨c2, res, cd.pos, s1, d', Ec, hcw2, hcn2, hrs, hxc, ?_, ?_, by rw [w3]; exact hrt⟩
  · rw [read_at t s cd.pos false cd hfc]; exact E2
  · refine ⟨by rw [w1]; exact hx1, r1, by rw [w2, hO.2.2.2.1]; exact r2,
      by rw [w2, hO.2.2.2.1], ?_, r4⟩
    intro q hq
    rcases List.mem_cons.mp hq with e | hq
    · rw [e]; exact List.mem_cons_self _ _
    · exact List.mem_cons_of_mem _ (r3 q hq)

end DiskBTree

namespace DiskBTree

theorem find_key_flat {x : DNode} {M : BTree.Node} (hfl : Flat x M) (k : Int) :
    _find_key x k = BTree._find_key M k := by
  simp only [_find_key, BTree._find_key, hfl.1, hfl.2.2.1]

theorem hit_flat {x : DNode} {M : BTree.Node} (hfl : Flat x M) (i k : Int) :
    hit x i k = BTree.hit M i k := by
  simp only [hit, BTree.hit, hfl.1, hfl.2.2.1]

/-- A removal that starts from the state a merge or a borrow produced is a removal from the
state before it. -/
theorem RemOut.after_op {s s' s2 : DiskBTree} {h h2 : Nat} {x x' d2 : DNode}
    {Mx' M2 : BTree.Node} (hO : OpOut s s' h x x' Mx')
    (hR : RemOut s' s2 (h + 1) x' h2 d2 M2) : RemOut s s2 (h + 1) x h2 d2 M2 := by
  obtain ⟨o1, o2, o3, o4, o5, o6, o7, o8⟩ := hO
  obtain ⟨r1, r2, r3, r4, r5, r6⟩ := hR
  have hsub : ∀ q ∈ x'.pos :: fpKids s'.file (h + 1) x', q ∈ x.pos :: fpKids s.file (h + 1) x := by
    intro q hq
    rcases List.mem_cons.mp hq with e | hq
    · rw [e, o1]; exact List.mem_cons_self _ _
    · exact List.mem_cons_of_mem _ (o7 q hq)
  refine ⟨r1, r2, r3, by rw [r4, o5], fun q hq => hsub q (r5 q hq), ?_⟩
  intro q hq
  rw [r6 q (fun hq' => hq (hsub q hq')), o8 q hq]

/-- Source `_remove_node` of both trees on an internal node that does not hold the key. -/
theorem d_miss_step (t : Int) (ht : 2 ≤ t) (h : Nat) (IH : DRemOK t h) (f : Nat)
    (s : DiskBTree) (x : DNode) (M c : BTree.Node) (S1 S2 : List (Option BTree.Node))
    (K1 K2 : List (Int × Int)) (k : Int)
    (hr : NodeRel s.file (h + 1) x M) (hx : BTree.WF t (h + 1) M)
    (hok : TreeOK s.file s.next_pos_ (h + 1) x) (hxf : s.file x.pos = some x)
    (hn : 1 ≤ M.n) (hk : M.kids = S1 ++ some c :: S2)
    (hv : M.kvs = K1 ++ K2) (hlen : S1.length = K1.length)
    (hs : SortedKV (BTree.inorder (h + 1) (some M))) (hK1 : ∀ p ∈ K1, p.1 < k)
    (hK2 : ∀ p ∈ K2, k < p.1) (hfind : BTree._find_key M k = .ok (K1.length : Int))
    (hhit : BTree.hit M (K1.length : Int) k = .ok false) (hf : 4 * h + 1 ≤ f) :
    ∃ M' res s' xr, BTree._remove_node t (f + 1) (some M) k = .ok (some M', res) ∧
      BTree.WF t (h + 1) M' ∧ (M'.n = M.n ∨ M'.n = M.n - 1) ∧ (t ≤ c.n → M'.n = M.n) ∧
      RemSpec (BTree.inorder (h + 1) (some M)) (BTree.inorder (h + 1) (some M')) k res ∧
      _remove_node t (f + 1) s x k = .ok (s', xr, res) ∧ xr.pos = x.pos ∧
      RemOut s s' (h + 1) x (h + 1) xr M' ∧ s'.root_ = s.root_ := by
  have hn0 : ¬ M.n = 0 := by omega
  have hfl := hr.1
  have hxn : x.n = M.n := hfl.2.2.1
  have hxn0 : ¬ x.n = 0 := by omega
  have hxl : x.leaf = false := by rw [hfl.2.2.2.1]; exact hx.2.1
  have hfind' := (find_key_flat hfl k).trans hfind
  have hhit' := (hit_flat hfl (K1.length : Int) k).trans hhit
  obtain ⟨hrc, hcw, hcn, hile⟩ := hx.kid_at hk
  rw [hlen] at hrc hile
  have hio := BTree.inorder_explicit (t := t) h hk hv hlen
  have hs1 := hs
  rw [hio] at hs1
  have hP := BTree.pre_lt (k := k) (by rw [List.append_assoc] at hs1; exact hs1)
    (by simpa using hlen) hK1
  have hR := BTree.rest_gt (k := k) hs1 hK2
  obtain ⟨P1, P2, cd, eP, hPl, hfc, hrcd, _, _⟩ := hr.kids1 hk
  have hxc := rd_kid eP
  rw [hPl, hlen] at hxc
  have hcdn : cd.n = c.n := hrcd.flat.2.2.1
  by_cases hc : c.n < t
  · have hc' : cd.n < t := by rw [hcdn]; exact hc
    obtain ⟨x1, c1, S1', S2', K1', K2', A, B, E, hW1, hk1, hv1, hlen1, hcn1, hcw1, hpre, hrest,
      hio1, hn1, hidx1, hidx2⟩ :=
      BTree.fill_spec t (by omega) h M c S1 S2 K1 K2 hx hk hv hlen (by omega) hn
    obtain ⟨Mx', s', x', E', Ed, hO⟩ :=
      sim_fill t (by omega) h s x M c S1 S2 K1 K2 hr hx hok hk hv hlen (by omega) hn
    rw [E] at E'
    simp only [Except.ok.injEq] at E'
    subst E'
    have hiox : BTree.inorder (h + 1) (some x1) = BTree.inorder (h + 1) (some M) := by
      rw [hio, BTree.inorder_explicit (t := t) h hk1 hv1 hlen1, hio1, hpre, hrest]
      simp
    obtain ⟨hrc1, _, _, _⟩ := hW1.kid_at hk1
    rw [hlen1] at hrc1
    have hcs1 : SortedKV (BTree.inorder h (some c1)) := by
      have := hs
      rw [← hiox, BTree.inorder_explicit (t := t) h hk1 hv1 hlen1] at this
      exact this.left.right
    obtain ⟨o1, o2, o3, o4, o5, o6, o7, o8⟩ := hO
    obtain ⟨c2, res, p, s1, d', Ec, hcw2, hcn2, hrs, hxc1, E2, hO2, hrt⟩ :=
      d_descend t (by omega) h IH f s' x' x1 c1 S1' S2' k o3 hW1 o4 (by rw [o1]; exact o2) hk1
        hcn1 hcs1 hf
    rw [hlen1] at hxc1 hO2
    obtain ⟨hw, hW2, hn2, hR2⟩ := BTree.descend_spec t h x1 c1 c2 S1' S2' K1' K2' k res hW1 hk1
      hv1 hlen1 (by rw [hiox]; exact hs)
      (fun p hp => by
        have := hP p (by rw [hpre]; exact List.mem_append_left _ hp)
        omega)
      (fun p hp => by
        have := hR p (by rw [hrest]; exact List.mem_append_right _ hp)
        omega) hcw2 hcn2 hrs
    rw [hiox] at hR2
    have hx1n : x'.n = x1.n := o3.1.2.2.1
    have hOut := RemOut.after_op ⟨o1, o2, o3, o4, o5, o6, o7, o8⟩ hO2
    refine ⟨_, res, _, x', ?_, hW2, by rw [hn2]; exact hn1, fun hh => by omega, hR2, ?_, o1,
      hOut, by rw [hrt, o6]⟩
    · by_cases hcond : (K1.length : Int) = M.n ∧ (K1.length : Int) > x1.n
      · have e := hidx1 hcond
        have e' : (K1.length : Int) - 1 = (K1'.length : Int) := by omega
        have hb : (decide ((K1.length : Int) = M.n) && decide ((K1.length : Int) > x1.n))
            = true := by
          rw [Bool.and_eq_true]
          exact ⟨decide_eq_true hcond.1, decide_eq_true hcond.2⟩
        simp only [BTree._remove_node, deref, Except.ok_bind, hn0, if_false, ite_false,
          Except.pure_eq_ok, hfind, hhit, Bool.false_eq_true, hx.2.1, hrc, hc, if_true, ite_true,
          E, hb, e', hrc1, Ec, hw]
      · have e := hidx2 hcond
        have e' : (K1.length : Int) = (K1'.length : Int) := by omega
        have hb : (decide ((K1.length : Int) = M.n) && decide ((K1.length : Int) > x1.n))
            = false := by
          rw [Bool.and_eq_false_iff]
          by_cases h1 : (K1.length : Int) = M.n
          · right; simp only [decide_eq_false_iff_not]; exact fun h2 => hcond ⟨h1, h2⟩
          · left; simp only [decide_eq_false_iff_not]; exact h1
        simp only [BTree._remove_node, deref, Except.ok_bind, hn0, if_false, ite_false,
          Except.pure_eq_ok, hfind, hhit, Bool.false_eq_true, hx.2.1, hrc, hc, if_true, ite_true,
          E, hb]
        rw [e']
        simp only [hrc1, Ec, hw, Except.ok_bind, Except.pure_eq_ok]
    · by_cases hcond : (K1.length : Int) = M.n ∧ (K1.length : Int) > x1.n
      · have e := hidx1 hcond
        have e' : (K1.length : Int) - 1 = (K1'.length : Int) := by omega
        have hb : (decide ((K1.length : Int) = x.n) && decide ((K1.length : Int) > x'.n))
            = true := by
          rw [Bool.and_eq_true, hxn, hx1n]
          exact ⟨decide_eq_true hcond.1, decide_eq_true hcond.2⟩
        simp only [_remove_node, Except.ok_bind, hxn0, if_false, ite_false,
          Except.pure_eq_ok, hfind', hhit', Bool.false_eq_true, hxl, hxc,
          read_at t s cd.pos false cd hfc, hc', if_true, ite_true, Ed, hb, e', hxc1, E2]
      · have e := hidx2 hcond
        have e' : (K1.length : Int) = (K1'.length : Int) := by omega
        have hb : (decide ((K1.length : Int) = x.n) && decide ((K1.length : Int) > x'.n))
            = false := by
          rw [Bool.and_eq_false_iff, hxn, hx1n]
          by_cases h1 : (K1.length : Int) = M.n
          · right; simp only [decide_eq_false_iff_not]; exact fun h2 => hcond ⟨h1, h2⟩
          · left; simp only [decide_eq_false_iff_not]; exact h1
        simp only [_remove_node, Except.ok_bind, hxn0, if_false, ite_false,
          Except.pure_eq_ok, hfind', hhit', Bool.false_eq_true, hxl, hxc,
          read_at t s cd.pos false cd hfc, hc', if_true, ite_true, Ed, hb]
        rw [e']
        simp only [hxc1, E2, Except.ok_bind, Except.pure_eq_ok]
  · have hc' : ¬ cd.n < t := by rw [hcdn]; exact hc
    have hcs : SortedKV (BTree.inorder h (some c)) := hs1.left.right
    obtain ⟨c2, res, p, s1, d', Ec, hcw2, hcn2, hrs, hxc1, E2, hO2, hrt⟩ :=
      d_descend t (by omega) h IH f s x M c S1 S2 k hr hx hok hxf hk (by omega) hcs hf
    rw [hlen] at hxc1 hO2
    rw [hxc] at hxc1
    simp only [Except.ok.injEq] at hxc1
    subst hxc1
    rw [read_at t s cd.pos false cd hfc] at E2
    obtain ⟨hw, hW2, hn2, hR2⟩ := BTree.descend_spec t h M c c2 S1 S2 K1 K2 k res hx hk hv
      hlen hs (fun p hp => by have := hP p hp; omega) (fun p hp => by have := hR p hp; omega)
      hcw2 hcn2 hrs
    refine ⟨_, res, _, x, ?_, hW2, Or.inl hn2, fun _ => hn2, hR2, ?_, rfl, hO2, hrt⟩
    · have hb : (decide ((K1.length : Int) = M.n) && decide ((K1.length : Int) > M.n))
          = false := by
        rw [Bool.and_eq_false_iff]
        right; simp only [decide_eq_false_iff_not]; omega
      simp only [BTree._remove_node, deref, Except.ok_bind, hn0, if_false, ite_false,
        Except.pure_eq_ok, hfind, hhit, Bool.false_eq_true, hx.2.1, hrc, hc, hb, Ec, hw]
    · have hb : (decide ((K1.length : Int) = x.n) && decide ((K1.length : Int) > x.n))
          = false := by
        rw [Bool.and_eq_false_iff]
        right; simp only [decide_eq_false_iff_not]; omega
      simp only [_remove_node, Except.ok_bind, hxn0, if_false, ite_false,
        Except.pure_eq_ok, hfind', hhit', Bool.false_eq_true, hxl, hxc,
        read_at t s cd.pos false cd hfc, hc', hb, E2]

end DiskBTree

namespace DiskBTree

/-- Source `_remove_from_leaf` of the disk-resident tree does what the in-memory one does. -/
theorem sim_remove_from_leaf {x : DNode} {M M' : BTree.Node} {i : Int} {b : Bool}
    (hfl : Flat x M) (E : BTree._remove_from_leaf M i = .ok (M', b)) :
    ∃ x', _remove_from_leaf x i = .ok (x', b) ∧ Flat x' M' ∧ x'.pos = x.pos := by
  obtain ⟨e1, e2, e3, e4, e5⟩ := hfl
  simp only [BTree._remove_from_leaf] at E
  simp only [_remove_from_leaf, e1, e2, e3]
  rcases hk : shiftDown M.key i (M.n - 1) with e | k1
  · rw [hk] at E; exact absurd E (by simp)
  · rw [hk] at E
    simp only [Except.ok_bind, BTree.Node.val_setKey, BTree.Node.n_setKey] at E ⊢
    rcases hv : shiftDown M.val i (M.n - 1) with e | v1
    · rw [hv] at E; exact absurd E (by simp)
    · rw [hv] at E
      simp only [Except.ok_bind, Except.pure_eq_ok, Except.ok.injEq, Prod.mk.injEq,
        BTree.Node.n_setVal, BTree.Node.n_setKey] at E ⊢
      obtain ⟨E1, E2⟩ := E
      subst E1 E2
      exact ⟨_, ⟨rfl, rfl⟩, ⟨by simp, by simp, by simp, by simp [e4], by simpa using e5⟩, rfl⟩

/-- Source `_remove_node` on an internal node that holds the key hands over to
`_remove_from_non_leaf` and writes the handle it gets back. -/
theorem d_hit_eval (t : Int) (g : Nat) (s s1 : DiskBTree) (x xr : DNode) (M : BTree.Node)
    (i k : Int) (res : Bool) (hfl : Flat x M) (hn0 : ¬ M.n = 0) (hl : M.leaf = false)
    (hfind : BTree._find_key M k = .ok i) (hhit : BTree.hit M i k = .ok true)
    (E : _remove_from_non_leaf t g s x i = .ok (s1, xr, res)) :
    _remove_node t (g + 1) s x k = .ok (_disk_write s1 xr, xr, res) := by
  have hxn0 : ¬ x.n = 0 := by rw [hfl.2.2.1]; exact hn0
  have hxl : x.leaf = false := by rw [hfl.2.2.2.1]; exact hl
  simp only [_remove_node, Except.ok_bind, hxn0, if_false, ite_false, Except.pure_eq_ok,
    (find_key_flat hfl k).trans hfind, (hit_flat hfl i k).trans hhit, if_true, ite_true, hxl,
    Bool.false_eq_true, E]

/-- Source `_remove_node` of both trees on an internal node whose child on the way to the key
has at least `t` keys: the node keeps its count and its position. -/
theorem d_reenter (t : Int) (ht : 2 ≤ t) (h : Nat) (IH : DRemOK t h) (f : Nat)
    (s : DiskBTree) (x : DNode) (M l : BTree.Node) (S1 S2 : List (Option BTree.Node))
    (K1 K2 : List (Int × Int)) (k : Int)
    (hr : NodeRel s.file (h + 1) x M) (hx : BTree.WF t (h + 1) M)
    (hok : TreeOK s.file s.next_pos_ (h + 1) x) (hxf : s.file x.pos = some x)
    (hn : 1 ≤ M.n) (hk : M.kids = S1 ++ some l :: S2)
    (hv : M.kvs = K1 ++ K2) (hlen : S1.length = K1.length)
    (hs : SortedKV (BTree.inorder (h + 1) (some M))) (hK1 : ∀ p ∈ K1, p.1 < k)
    (hK2 : ∀ p ∈ K2, k ≤ p.1) (hl : t ≤ l.n) (hf : 4 * h + 2 ≤ f) :
    ∃ M' res s' xr, BTree._remove_node t (f + 1) (some M) k = .ok (some M', res) ∧
      BTree.WF t (h + 1) M' ∧ M'.n = M.n ∧
      RemSpec (BTree.inorder (h + 1) (some M)) (BTree.inorder (h + 1) (some M')) k res ∧
      _remove_node t (f + 1) s x k = .ok (s', xr, res) ∧ xr.pos = x.pos ∧
      RemOut s s' (h + 1) x (h + 1) xr M' ∧ s'.root_ = s.root_ := by
  have hn0 : ¬ M.n = 0 := by omega
  have hks := BTree.kvs_sorted hx hs
  obtain ⟨i, hfind, hcase⟩ := BTree.find_key_explicit t M k hx.shape hks
  rcases hcase with ⟨v, K1', K2', hhit, hv', hi, hrk, hrv, hK1'⟩ |
    ⟨K1', K2', hhit, hv', hi, hK1', hK2'⟩
  · have hge : ∀ p ∈ (k, v) :: K2', k ≤ p.1 := by
      intro p hp
      rcases List.mem_cons.mp hp with rfl | hp
      · exact le_refl _
      · rw [hv'] at hks
        exact hks.le_of_append_cons.2 p hp
    have e := BTree.split_unique K1 K2 K1' ((k, v) :: K2') (by rw [← hv, hv']) hK1 hK2 hK1' hge
    subst e
    subst hi
    obtain ⟨S1', l', r, S2', hk', hlen'⟩ := BTree.kids_decomp2 hx hv'
    have e2 : S1' = S1 := by
      have := congrArg (List.take S1.length) (hk.symm.trans hk')
      rw [List.take_left' rfl, List.take_left' (by rw [hlen', hlen])] at this
      exact this.symm
    subst e2
    have e3 : l' = l := by
      have := hk.symm.trans hk'
      simp only [List.append_cancel_left_eq, List.cons.injEq, Option.some.injEq] at this
      exact this.1.symm
    subst e3
    obtain ⟨g, rfl⟩ : ∃ g, f = g + 1 := ⟨f - 1, by omega⟩
    obtain ⟨M', res, s1, xr, E, hW, hn', hR, Ed, hpos, hO, hrt⟩ :=
      d_pred_step t ht h IH g s x M l' r S1' S2' K1 K2' k v hr hx hok hk' hv' hlen hs hrk
        (by omega) (by omega)
    obtain ⟨_, _, _, g4⟩ := write_file s1 xr (by
      have := hok.2 x.pos (List.mem_cons_self _ _)
      rw [hpos]; omega)
    refine ⟨M', res, _, xr, ?_, hW, hn', hR,
      d_hit_eval t (g + 1) s s1 x xr M _ k res hr.1 hn0 hx.2.1 hfind hhit Ed, hpos, hO,
      by rw [g4]; exact hrt⟩
    simp only [BTree._remove_node, deref, Except.ok_bind, hn0, if_false, ite_false,
      Except.pure_eq_ok, hfind, hhit, if_true, ite_true, hx.2.1, Bool.false_eq_true, E]
  · have e := BTree.split_unique K1 K2 K1' K2' (by rw [← hv, hv']) hK1 hK2 hK1'
      (fun p hp => by have := hK2' p hp; omega)
    subst e
    subst hi
    obtain ⟨M', res, s', xr, E, hW, _, hn', hR, Ed, hpos, hO, hrt⟩ :=
      d_miss_step t ht h IH f s x M l S1 S2 K1 K2' k hr hx hok hxf hn hk hv' hlen hs hK1 hK2'
        hfind hhit (by omega)
    exact ⟨M', res, s', xr, E, hW, hn' hl, hR, Ed, hpos, hO, hrt⟩

end DiskBTree

namespace DiskBTree

/-- A removal whose last step writes again the record already stored. -/
theorem RemOut.rewrite {s s2 : DiskBTree} {h h2 : Nat} {x d2 xr : DNode} {M2 : BTree.Node}
    (hR : RemOut s s2 h x h2 d2 M2) (hp : xr.pos ≠ -1) (hf : s2.file xr.pos = some xr) :
    RemOut s (_disk_write s2 xr) h x h2 d2 M2 := by
  obtain ⟨w1, w2, _⟩ := write_same s2 xr hp hf
  have hfe : (_disk_write s2 xr).file = s2.file := funext w1
  unfold RemOut
  rw [hfe, w2]
  exact hR

/-- The leaf case of the removal, on disk and in memory. -/
theorem d_remove_leaf (t : Int) (ht : 2 ≤ t) : DRemOK t 0 := by
  intro fuel s x M k hr hw hn hs hok hxf hf
  obtain ⟨f, rfl⟩ : ∃ f, fuel = f + 1 := ⟨fuel - 1, by omega⟩
  have hfl : Flat x M := hr
  have hn0 : ¬ M.n = 0 := by omega
  have hxn0 : ¬ x.n = 0 := by rw [hfl.2.2.1]; exact hn0
  have hxl : x.leaf = true := by rw [hfl.2.2.2.1]; exact hw.2
  have hs' : SortedKV M.kvs := hs
  have hb := hok.2 x.pos (List.mem_cons_self _ _)
  obtain ⟨i, hfind, hcase⟩ := BTree.find_key_explicit t M k hw.1 hs'
  have hfind' := (find_key_flat hfl k).trans hfind
  rcases hcase with ⟨v, K1, K2, hhit, hv, hi, hrk, hrv, hK1⟩ | ⟨K1, K2, hhit, hv, hi, hK1, hK2⟩
  · subst hi
    have hhit' := (hit_flat hfl (K1.length : Int) k).trans hhit
    obtain ⟨x', E, hS', hn', hleaf', _, hkvs'⟩ :=
      BTree.remove_from_leaf_run t M (K1.length : Int) hw.1 (by omega)
        (BTree.kvs_len_explicit hw.1 hv)
    simp only [Int.toNat_ofNat] at hkvs'
    rw [hv, eraseIdx_explicit _ _ _ _ rfl] at hkvs'
    obtain ⟨xd, Ed, hfl', hpos⟩ := sim_remove_from_leaf hfl E
    obtain ⟨g1, g2, g3, g4⟩ := write_file s xd (by rw [hpos]; omega)
    refine ⟨x', 0, true, _disk_write s xd, xd, xd, ?_, ⟨hS', by rw [hleaf']; exact hw.2⟩,
      le_refl _, fun hh => ⟨rfl, by omega⟩, ?_, ?_, ?_, fun _ => ⟨hpos, rfl, g4⟩,
      fun hroot => by rw [g4, hpos, hroot]⟩
    · simp only [BTree._remove_node, deref, Except.ok_bind, hn0, if_false, ite_false,
        Except.pure_eq_ok, hfind, hhit, if_true, ite_true, hw.2, E]
    · show RemSpec M.kvs x'.kvs k true
      rw [hkvs', hv]
      rw [hv] at hs'
      exact remspec_erase_at hs'
    · simp only [_remove_node, Except.ok_bind, hxn0, if_false, ite_false, Except.pure_eq_ok,
        hfind', hhit', if_true, ite_true, hxl, Ed, Bool.false_eq_true]
    · refine ⟨g1, hfl', ⟨?_, ?_⟩, g3, ?_, ?_⟩
      · simp [fpKids]
      · intro p hp
        simp only [fpKids, List.mem_singleton] at hp
        rw [hp, hpos, g3]; exact hb
      · intro q hq
        simp only [fpKids, List.mem_singleton] at hq ⊢
        rw [hq, hpos]
      · intro q hq
        simp only [fpKids, List.mem_singleton] at hq
        exact g2 q (by rw [hpos]; exact hq)
  · subst hi
    have hhit' := (hit_flat hfl (K1.length : Int) k).trans hhit
    refine ⟨M, 0, false, s, x, x, ?_, hw, le_refl _, fun hh => ⟨rfl, by omega⟩, ?_, ?_,
      ⟨hxf, hr, hok, rfl, fun q hq => hq, fun q _ => rfl⟩, fun _ => ⟨rfl, rfl, rfl⟩,
      fun hroot => hroot.symm⟩
    · simp only [BTree._remove_node, deref, Except.ok_bind, hn0, if_false, ite_false,
        Except.pure_eq_ok, hfind, hhit, Bool.false_eq_true, hw.2, if_true, ite_true]
    · left
      refine ⟨rfl, rfl, ?_⟩
      intro p hp
      have hp' : p ∈ K1 ++ K2 := by rw [← hv]; exact hp
      rcases List.mem_append.mp hp' with hp' | hp'
      · have := hK1 p hp'; omega
      · have := hK2 p hp'; omega
    · simp only [_remove_node, Except.ok_bind, hxn0, if_false, ite_false, Except.pure_eq_ok,
        hfind', hhit', Bool.false_eq_true, hxl, if_true, ite_true]

end DiskBTree

namespace DiskBTree

/-- The footprint of a child lies within the footprint of the children of its parent. -/
theorem kid_fp_sub {file : Int → Option DNode} {h : Nat} {x cd : DNode} {P1 P2 : List Int}
    (eP : view x.c (x.n + 1) = P1 ++ cd.pos :: P2) (hfc : file cd.pos = some cd) :
    ∀ q ∈ cd.pos :: fpKids file h cd, q ∈ fpKids file (h + 1) x := by
  intro q hq
  rw [fpKids_succ, eP, List.flatMap_append, List.flatMap_cons, fpAt_of hfc]
  exact List.mem_append_right _ (List.mem_append_left _ hq)

/-- Root demotion inside `_remove_from_non_leaf`: the merge left the node `xd1` without keys; the
root position is moved to its only child when `xd1` is the root, the key is removed from the
child, and the caller writes the empty `xd1` back to its old position. -/
theorem d_demote (t : Int) (h : Nat) (IH : DRemOK t h) (g : Nat) (s1 : DiskBTree) (xd1 : DNode)
    (x1 l1 : BTree.Node) (k : Int)
    (hr : NodeRel s1.file (h + 1) xd1 x1) (hok : TreeOK s1.file s1.next_pos_ (h + 1) xd1)
    (hk1 : x1.kids = [] ++ some l1 :: []) (hlw : BTree.WF t h l1) (hl : t ≤ l1.n) (ht : 1 ≤ t)
    (hs : SortedKV (BTree.inorder h (some l1))) (hf : 4 * h + 1 ≤ g) :
    ∃ (M' : BTree.Node) (res : Bool) (s2 : DiskBTree) (d' ld : DNode),
      rd xd1.c 0 = .ok ld.pos ∧
      BTree._remove_node t g (some l1) k = .ok (some M', res) ∧ BTree.WF t h M' ∧
      RemSpec (BTree.inorder h (some l1)) (BTree.inorder h (some M')) k res ∧
      _remove_node t g (if xd1.pos = s1.root_ then { s1 with root_ := ld.pos } else s1)
        (_disk_read (if xd1.pos = s1.root_ then { s1 with root_ := ld.pos } else s1)
          (_allocate_node t ld.pos false)) k = .ok (s2, d', res) ∧
      RemOut s1 (_disk_write s2 xd1) (h + 1) xd1 h d' M' ∧
      (xd1.pos = s1.root_ → (_disk_write s2 xd1).root_ = d'.pos) := by
  obtain ⟨P1, P2, ld, eP, hPl, hfld, hrld, _, _⟩ := hr.kids1 hk1
  have hP1 : P1 = [] := List.length_eq_zero.mp (by simpa using hPl)
  subst hP1
  have hxc0 := rd_kid eP
  simp only [List.length_nil, Nat.cast_zero] at hxc0
  have hokl : TreeOK s1.file s1.next_pos_ h ld :=
    hok.kid_ok (j := 0) (by rw [eP]; simp) hfld
  have hne := hok.kid_ne eP hfld
  have hsub := kid_fp_sub (h := h) eP hfld
  have hb := hok.2 xd1.pos (List.mem_cons_self _ _)
  have key : ∀ s1' : DiskBTree, s1'.file = s1.file → s1'.next_pos_ = s1.next_pos_ →
      (xd1.pos = s1.root_ → s1'.root_ = ld.pos) →
      ∃ M' res s2 d', BTree._remove_node t g (some l1) k = .ok (some M', res) ∧
        BTree.WF t h M' ∧
        RemSpec (BTree.inorder h (some l1)) (BTree.inorder h (some M')) k res ∧
        _remove_node t g s1' (_disk_read s1' (_allocate_node t ld.pos false)) k
          = .ok (s2, d', res) ∧
        RemOut s1 (_disk_write s2 xd1) (h + 1) xd1 h d' M' ∧
        (xd1.pos = s1.root_ → (_disk_write s2 xd1).root_ = d'.pos) := by
    intro s1' hfile hnp hroot
    obtain ⟨M', h', res, s2, xr2, d', Em, hW', hh', hst, hR', Ed2, hO2, hC1, hC2⟩ :=
      IH g s1' ld l1 k (by rw [hfile]; exact hrld) hlw (by omega) hs
        (by rw [hfile, hnp]; exact hokl) (by rw [hfile]; exact hfld) hf
    obtain ⟨rfl, hn'⟩ := hst hl
    obtain ⟨e1, e2, e3⟩ := hC1 hl
    subst e2
    obtain ⟨p1, p2, p3, p4, p5, p6⟩ := hO2
    rw [hfile] at p5 p6
    obtain ⟨g1, g2, g3, g4⟩ := write_file s2 xd1 (by omega)
    have hnq : ∀ q ∈ xr2.pos :: fpKids s2.file h' xr2, q ≠ xd1.pos :=
      fun q hq => hne q (p5 q hq)
    obtain ⟨f1, f2⟩ := frame s2.file (_disk_write s2 xd1).file h' xr2
      (fun q hq => g2 q (hnq q (List.mem_cons_of_mem _ hq)))
    refine ⟨M', res, s2, xr2, Em, hW', hR', ?_, ⟨?_, f2 _ p2, ?_, ?_, ?_, ?_⟩, ?_⟩
    · rw [read_at t s1' ld.pos false ld (by rw [hfile]; exact hfld)]; exact Ed2
    · rw [g2 _ (hnq _ (List.mem_cons_self _ _))]; exact p1
    · unfold TreeOK
      rw [f1, g3]; exact p3
    · rw [g3, p4, hnp]
    · intro q hq
      rw [f1] at hq
      exact List.mem_cons_of_mem _ (hsub q (p5 q hq))
    · intro q hq
      rw [g2 q (fun e => hq (by rw [e]; exact List.mem_cons_self _ _)),
        p6 q (fun hq' => hq (List.mem_cons_of_mem _ (hsub q hq')))]
    · intro hrt
      rw [g4, e3, hroot hrt, e1]
  obtain ⟨M', res, s2, d', h1, h2, h3, h4, h5, h6⟩ :=
    key (if xd1.pos = s1.root_ then { s1 with root_ := ld.pos } else s1)
      (by split <;> rfl) (by split <;> rfl) (fun hrt => by rw [if_pos hrt])
  exact ⟨M', res, s2, d', ld, hxc0, h1, h2, h3, h4, h5, h6⟩

end DiskBTree

namespace DiskBTree

/-- The removal on an internal node, on disk and in memory, from the removal one level down. -/
theorem d_remove_step (t : Int) (ht : 2 ≤ t) (h : Nat) (IH : DRemOK t h) : DRemOK t (h + 1) := by
  intro fuel s x M k hr hx hn hs hok hxf hf
  obtain ⟨f, rfl⟩ : ∃ f, fuel = f + 1 := ⟨fuel - 1, by omega⟩
  have hn0 : ¬ M.n = 0 := by omega
  have hfl := hr.1
  have hb := hok.2 x.pos (List.mem_cons_self _ _)
  have hks := BTree.kvs_sorted hx hs
  obtain ⟨i, hfind, hcase⟩ := BTree.find_key_explicit t M k hx.shape hks
  rcases hcase with ⟨v, K1, K2, hhit, hv, hi, hrk, hrv, hK1⟩ | ⟨K1, K2, hhit, hv, hi, hK1, hK2⟩
  · subst hi
    obtain ⟨S1, l, r, S2, hk, hlen⟩ := BTree.kids_decomp2 hx hv
    obtain ⟨g, rfl⟩ : ∃ g, f = g + 1 := ⟨f - 1, by omega⟩
    have hev : ∀ z, BTree._remove_from_non_leaf t (g + 1) M (K1.length : Int) = .ok z →
        BTree._remove_node t (g + 1 + 1) (some M) k = .ok z := by
      intro z hz
      simp only [BTree._remove_node, deref, Except.ok_bind, hn0, if_false, ite_false,
        Except.pure_eq_ok, hfind, hhit, if_true, ite_true, hx.2.1, Bool.false_eq_true, hz]
    have hevd : ∀ s1 xr res, _remove_from_non_leaf t (g + 1) s x (K1.length : Int)
        = .ok (s1, xr, res) →
        _remove_node t (g + 1 + 1) s x k = .ok (_disk_write s1 xr, xr, res) :=
      fun s1 xr res E => d_hit_eval t (g + 1) s s1 x xr M _ k res hfl hn0 hx.2.1 hfind hhit E
    by_cases hl : l.n > t - 1
    · obtain ⟨M', res, s1, xr, E, hW, hn', hR, Ed, hpos, hO, hrt⟩ :=
        d_pred_step t ht h IH g s x M l r S1 S2 K1 K2 k v hr hx hok hk hv hlen hs hrk hl
          (by omega)
      obtain ⟨_, _, _, g4⟩ := write_file s1 xr (by rw [hpos]; omega)
      exact ⟨M', h + 1, res, _, xr, xr, hev _ E, hW, le_refl _, fun hh => ⟨rfl, by omega⟩, hR,
        hevd _ _ _ Ed, hO, fun _ => ⟨hpos, rfl, by rw [g4]; exact hrt⟩,
        fun hroot => by rw [g4, hrt, hpos, hroot]⟩
    by_cases hrn : r.n > t - 1
    · obtain ⟨M', res, s1, xr, E, hW, hn', hR, Ed, hpos, hO, hrt⟩ :=
        d_succ_step t ht h IH g s x M l r S1 S2 K1 K2 k v hr hx hok hk hv hlen hs hrk hl hrn
          (by omega)
      obtain ⟨_, _, _, g4⟩ := write_file s1 xr (by rw [hpos]; omega)
      exact ⟨M', h + 1, res, _, xr, xr, hev _ E, hW, le_refl _, fun hh => ⟨rfl, by omega⟩, hR,
        hevd _ _ _ Ed, hO, fun _ => ⟨hpos, rfl, by rw [g4]; exact hrt⟩,
        fun hroot => by rw [g4, hrt, hpos, hroot]⟩
    -- both children hold `t - 1` keys: merge them around the key
    obtain ⟨hrl, hlw, hln, _⟩ := hx.kid_at hk
    have hk2 : M.kids = (S1 ++ [some l]) ++ some r :: S2 := by rw [hk]; simp
    obtain ⟨hrr, hrw, hrn', _⟩ := hx.kid_at hk2
    rw [hlen] at hrl
    have e1 : (((S1 ++ [some l]).length : Nat) : Int) = (K1.length : Int) + 1 := by
      simp [hlen]
    rw [e1] at hrr
    obtain ⟨x1, l1, E, hW1, hn1, hk1, hv1, hlw1, hln1, hio1⟩ :=
      BTree.merge_spec t h M l r S1 S2 K1 K2 (k, v) hx hk hv hlen (by omega)
    obtain ⟨Mx', s1, xd1, E', Ed, hO⟩ :=
      sim_merge t h s x M l r S1 S2 K1 K2 (k, v) hr hx hok hk hv hlen (by omega)
    rw [E] at E'
    simp only [Except.ok.injEq] at E'
    subst E'
    have hO0 := hO
    obtain ⟨o1, o2, o3, o4, o5, o6, o7, o8⟩ := hO
    have hio := BTree.inorder_explicit (t := t) h hk hv hlen
    simp only [List.map_cons, rest_cons] at hio
    have hiox : BTree.inorder (h + 1) (some x1) = BTree.inorder (h + 1) (some M) := by
      rw [hio, BTree.inorder_explicit (t := t) h hk1 hv1 hlen, hio1]
      simp
    have hge : ∀ p ∈ K2, k ≤ p.1 := by
      intro p hp
      rw [hv] at hks
      exact hks.le_of_append_cons.2 p hp
    -- the reads of the disk-resident `_remove_from_non_leaf`
    obtain ⟨P1, P2, ld, rn, eP, hPl, hfld, hfrn, hrld, hrrn, _, _⟩ := hr.kids2 hk
    have eP2 : view x.c (x.n + 1) = (P1 ++ [ld.pos]) ++ rn.pos :: P2 := by rw [eP]; simp
    have hxl := rd_kid eP
    have hxr := rd_kid eP2
    simp only [List.length_append, List.length_singleton, Nat.cast_add, Nat.cast_one] at hxr
    rw [hPl, hlen] at hxl hxr
    have hrk' : rd x.key (K1.length : Int) = .ok k := by rw [hfl.1]; exact hrk
    have hl' : ¬ ld.n > t - 1 := by rw [hrld.flat.2.2.1]; exact hl
    have hr' : ¬ rn.n > t - 1 := by rw [hrrn.flat.2.2.1]; exact hrn
    have hx1n : xd1.n = x1.n := o3.1.2.2.1
    by_cases hz : x1.n = 0
    · have hvl1 := hW1.shape.kvs_length
      rw [hv1, hz] at hvl1
      simp only [List.length_append, Int.toNat_zero, Nat.add_eq_zero] at hvl1
      have hK1n : K1 = [] := List.length_eq_zero.mp hvl1.1
      have hK2n : K2 = [] := List.length_eq_zero.mp hvl1.2
      subst hK1n hK2n
      have hS1n : S1 = [] := List.length_eq_zero.mp (by simpa using hlen)
      subst hS1n
      have hkl1 := hW1.shape.kids_length
      rw [hk1, hz] at hkl1
      have hS2n : S2 = [] := List.length_eq_zero.mp (by simpa using hkl1)
      subst hS2n
      obtain ⟨hrd1, _, _, _⟩ := hW1.kid_at hk1
      simp only [List.length_nil, Nat.cast_zero] at hrd1
      have hio2 : BTree.inorder (h + 1) (some x1) = BTree.inorder h (some l1) := by
        rw [@BTree.inorder_explicit t h _ _ _ _ [] [] hk1 hv1 rfl]
        simp [pre, rest]
      obtain ⟨M', res, s2, d', ld1, hxc0, Em, hW', hR', Ed2, hO2, hrt2⟩ :=
        d_demote t h IH g s1 xd1 x1 l1 k o3 o4 hk1 hlw1 (by omega) (by omega)
          (by rw [← hio2, hiox]; exact hs) (by omega)
      have hz' : xd1.n = 0 := by rw [hx1n]; exact hz
      have Enl : _remove_from_non_leaf t (g + 1) s x ((([] : List (Int × Int)).length : Nat) : Int)
          = .ok (s2, xd1, res) := by
        simp only [List.length_nil, Nat.cast_zero, zero_add] at hrk' hxl hxr Ed ⊢
        simp only [_remove_from_non_leaf, hrk', hxl, hxr, Except.ok_bind,
          read_at t s ld.pos false ld hfld, read_at t s rn.pos false rn hfrn, hl', hr',
          if_false, ite_false, Ed, hz', if_true, ite_true, hxc0, Ed2, Except.pure_eq_ok,
          zero_add]
      refine ⟨M', h, res, _, xd1, d', hev _ ?_, hW', by omega, fun hh => by omega, ?_,
        hevd _ _ _ Enl, RemOut.after_op hO0 hO2, fun hh => by omega, ?_⟩
      · simp only [BTree._remove_from_non_leaf, hrk, hrl, hrr, deref, Except.ok_bind, hl,
          if_false, ite_false, hrn, E, hz, if_true, ite_true, hrd1, Except.pure_eq_ok,
          List.length_nil, Nat.cast_zero, zero_add] at hrk hrl hrr E ⊢
        simp only [hrk, hrl, hrr, E, Except.ok_bind, deref, hl, hrn, if_false, ite_false, hz,
          if_true, ite_true, hrd1, Em]
      · rw [← hiox, hio2]; exact hR'
      · intro hroot
        exact hrt2 (by rw [o1, o6]; exact hroot)
    · obtain ⟨g', rfl⟩ : ∃ g', g = g' + 1 := ⟨g - 1, by omega⟩
      have hn1' : 1 ≤ x1.n := by have := hW1.shape.2.2.2.1; omega
      obtain ⟨M', res, s2, xr, Em, hW', hn', hR', Ed2, hpos2, hO2, hrt2⟩ :=
        d_reenter t ht h IH g' s1 xd1 x1 l1 S1 S2 K1 K2 k o3 hW1 o4 (by rw [o1]; exact o2) hn1'
          hk1 hv1 hlen (by rw [hiox]; exact hs) hK1 hge (by omega) (by omega)
      have hz' : ¬ xd1.n = 0 := by rw [hx1n]; exact hz
      have Enl : _remove_from_non_leaf t (g' + 1 + 1) s x (K1.length : Int)
          = .ok (s2, xr, res) := by
        simp only [_remove_from_non_leaf, hrk', hxl, hxr, Except.ok_bind,
          read_at t s ld.pos false ld hfld, read_at t s rn.pos false rn hfrn, hl', hr',
          if_false, ite_false, Ed, hz', Ed2, Except.pure_eq_ok]
      have hxrp : xr.pos ≠ -1 := by rw [hpos2, o1]; omega
      obtain ⟨_, _, w3⟩ := write_same s2 xr hxrp hO2.1
      refine ⟨M', h + 1, res, _, xr, xr, hev _ ?_, hW', le_refl _,
        fun hh => ⟨rfl, by omega⟩, ?_, hevd _ _ _ Enl,
        RemOut.rewrite (RemOut.after_op hO0 hO2) hxrp hO2.1,
        fun _ => ⟨by rw [hpos2, o1], rfl, by rw [w3, hrt2, o6]⟩,
        fun hroot => by rw [w3, hrt2, o6, hpos2, o1, hroot]⟩
      · simp only [BTree._remove_from_non_leaf, hrk, hrl, hrr, deref, Except.ok_bind, hl,
          if_false, ite_false, hrn, E, hz, Except.pure_eq_ok, Em]
      · rw [← hiox]; exact hR'
  · subst hi
    obtain ⟨S1, c, S2, hk, hlen⟩ := BTree.kids_decomp1 hx hv
    obtain ⟨M', res, s', xr, E, hW, hn', _, hR, Ed, hpos, hO, hrt⟩ :=
      d_miss_step t ht h IH f s x M c S1 S2 K1 K2 k hr hx hok hxf hn hk hv hlen hs hK1 hK2
        hfind hhit (by omega)
    exact ⟨M', h + 1, res, s', xr, xr, E, hW, le_refl _, fun hh => ⟨rfl, by omega⟩, hR, Ed,
      hO, fun _ => ⟨hpos, rfl, hrt⟩, fun hroot => by rw [hrt, hpos, hroot]⟩

/-- Source `_remove_node` of the disk-resident tree does, on the subtree a handle stands for,
what the in-memory `_remove_node` does, and keeps the file a tree. -/
theorem d_remove_node_ok (t : Int) (ht : 2 ≤ t) : ∀ h, DRemOK t h := by
  intro h
  induction h with
  | zero => exact d_remove_leaf t ht
  | succ h ih => exact d_remove_step t ht h ih

end DiskBTree

namespace DiskBTree

/-- A computation that returns the handle `x0` instead of the handle it worked on. -/
theorem swap_handle {α : Type} (m : Except Err α) (g : α → DiskBTree) (a : α → DNode)
    (r : α → Bool) (x0 : DNode) {s' : DiskBTree} {xr : DNode} {res : Bool}
    (E : (m >>= fun y => (.ok (g y, a y, r y) : Except Err (DiskBTree × DNode × Bool)))
      = .ok (s', xr, res)) :
    (m >>= fun y => (.ok (g y, x0, r y) : Except Err (DiskBTree × DNode × Bool)))
      = .ok (s', x0, res) := by
  rcases m with e | y
  · rw [Except.error_bind] at E; exact Except.noConfusion E
  · simp only [Except.ok_bind, Except.ok.injEq, Prod.mk.injEq] at E ⊢
    exact ⟨E.1, trivial, E.2.2⟩

/-- Source `_remove_node` entered with a handle that holds no key: the handle is swapped for its
child in slot 0 (which becomes the root when the handle was the root) and the call goes on as a
call on that child; the caller's handle is what the caller keeps. -/
theorem d_reseat (t : Int) (f : Nat) (s : DiskBTree) (x0 cd : DNode) (c0 k : Int)
    (s' : DiskBTree) (xr : DNode) (res : Bool)
    (hz : x0.n = 0) (hrd : rd x0.c 0 = .ok c0) (hcd : ¬ cd.n = 0)
    (hread : _disk_read (if x0.pos = s.root_ then { s with root_ := c0 } else s)
      (_allocate_node t c0 false) = cd)
    (E : _remove_node t (f + 1) (if x0.pos = s.root_ then { s with root_ := c0 } else s) cd k
      = .ok (s', xr, res)) :
    _remove_node t (f + 1) s x0 k = .ok (s', x0, res) := by
  simp only [_remove_node, hz, if_true, ite_true, hrd, Except.ok_bind, Except.pure_eq_ok, hread]
  generalize (if x0.pos = s.root_ then ({ s with root_ := c0 } : DiskBTree) else s) = s1 at E hread ⊢
  simp only [_remove_node, hcd, if_false, ite_false, Except.ok_bind, Except.pure_eq_ok] at E
  rcases hfk : _find_key cd k with e | i
  · rw [hfk] at E; exact absurd E (by simp)
  rw [hfk] at E
  simp only [Except.ok_bind] at E ⊢
  rcases hh : hit cd i k with e | b
  · rw [hh] at E; exact absurd E (by simp)
  rw [hh] at E
  simp only [Except.ok_bind] at E ⊢
  simp only [Bool.false_eq_true, if_false, ite_false] at E
  cases b with
  | true =>
    simp only [if_true, ite_true] at E ⊢
    by_cases hlf : cd.leaf = true
    · simp only [hlf, if_true, ite_true] at E ⊢
      exact swap_handle _ _ _ _ x0 E
    · simp only [hlf, if_false, ite_false] at E ⊢
      exact swap_handle _ _ _ _ x0 E
  | false =>
    simp only [Bool.false_eq_true, if_false, ite_false] at E ⊢
    by_cases hlf : cd.leaf = true
    · simp only [hlf, if_true, ite_true, Except.ok.injEq, Prod.mk.injEq] at E ⊢
      exact ⟨E.1, trivial, E.2.2⟩
    · simp only [hlf, if_false, ite_false] at E ⊢
      rcases hc : rd cd.c i with e | ci
      · rw [hc] at E; exact absurd E (by simp)
      rw [hc] at E
      simp only [Except.ok_bind] at E ⊢
      by_cases hlt : (s1._disk_read (_allocate_node t ci false)).n < t
      · simp only [hlt, if_true, ite_true] at E ⊢
        rcases hfill : _fill t s1 cd i with e | y
        · rw [hfill] at E; exact absurd E (by simp)
        rw [hfill] at E
        simp only [Except.ok_bind] at E ⊢
        by_cases hb : (decide (i = cd.n) && decide (i > y.2.n)) = true
        · simp only [hb, if_true, ite_true] at E ⊢
          rcases hc2 : rd y.2.c (i - 1) with e | c2
          · rw [hc2] at E; exact absurd E (by simp)
          rw [hc2] at E
          simp only [Except.ok_bind] at E ⊢
          exact swap_handle _ _ _ _ x0 E
        · simp only [hb, if_false, ite_false] at E ⊢
          rcases hc2 : rd y.2.c i with e | c2
          · rw [hc2] at E; exact absurd E (by simp)
          rw [hc2] at E
          simp only [Except.ok_bind] at E ⊢
          exact swap_handle _ _ _ _ x0 E
      · simp only [hlt, if_false, ite_false] at E ⊢
        by_cases hb : (decide (i = cd.n) && decide (i > cd.n)) = true
        · simp only [hb, if_true, ite_true] at E ⊢
          rcases hc2 : rd cd.c (i - 1) with e | c2
          · rw [hc2] at E; exact absurd E (by simp)
          rw [hc2] at E
          simp only [Except.ok_bind] at E ⊢
          exact swap_handle _ _ _ _ x0 E
        · simp only [hb, if_false, ite_false] at E ⊢
          exact swap_handle _ _ _ _ x0 E

/-- Source `BTree::remove` of the disk-resident tree on a file that stands for an in-memory tree
holding a key: it does what the in-memory `_remove_node` does, the file stands for the tree this
gives, and no position is allocated. -/
theorem remove_rep (t : Int) (ht : 2 ≤ t) (h fuel : Nat) (s : DiskBTree) (M : BTree.Node)
    (k : Int) (hrep : Rep s h M) (hw : BTree.WF t h M)
    (hs : SortedKV (BTree.inorder h (some M))) (hne : BTree.inorder h (some M) ≠ [])
    (hf : 4 * h + 1 ≤ fuel) :
    ∃ s' h' M' res, remove t fuel s k = .ok (s', res) ∧ Rep s' h' M' ∧ BTree.WF t h' M' ∧
      h' ≤ h ∧ RemSpec (BTree.inorder h (some M)) (BTree.inorder h' (some M')) k res ∧
      s'.next_pos_ = s.next_pos_ ∧
      BTree._remove_node t fuel (some M) k = .ok (some M', res) := by
  obtain ⟨r, hrf, hrp, hrr, hok⟩ := hrep
  have hn0 := hw.shape.2.2.2.1
  by_cases hn : 1 ≤ M.n
  · obtain ⟨M', h', res, s', xr, d', Em, hW', hh', _, hR, Ed, hO, _, hC2⟩ :=
      d_remove_node_ok t ht h fuel s r M k hrr hw hn hs hok (by rw [hrp]; exact hrf) hf
    refine ⟨s', h', M', res, ?_, ⟨d', ?_, ?_, hO.2.1, hO.2.2.1⟩, hW', hh', hR, hO.2.2.2.1, Em⟩
    · simp only [remove, read_at t s s.root_ false r hrf, Ed, Except.ok_bind,
        Except.pure_eq_ok]
    · rw [hC2 hrp]; exact hO.1
    · exact (hC2 hrp).symm
  · have hz : M.n = 0 := by omega
    have hvl := hw.shape.kvs_length
    rw [hz] at hvl
    have hkv : M.kvs = [] := List.length_eq_zero.mp (by simpa using hvl)
    cases h with
    | zero => exact absurd hkv hne
    | succ h0 =>
      have hkl := hw.shape.kids_length
      rw [hz] at hkl
      obtain ⟨o, S2, hk⟩ := BTree.cons_of_length M.kids (by omega)
      have hS2 : S2 = [] := List.length_eq_zero.mp (by rw [hk] at hkl; simpa using hkl)
      subst hS2
      obtain ⟨c, rfl, hcw, hcn⟩ := hw.2.2 o (by rw [hk]; simp)
      have hk' : M.kids = [] ++ some c :: [] := hk
      obtain ⟨hrd, _, _, _⟩ := hw.kid_at hk'
      simp only [List.length_nil, Nat.cast_zero] at hrd
      have hio : BTree.inorder (h0 + 1) (some M) = BTree.inorder h0 (some c) := by
        rw [@BTree.inorder_explicit t h0 _ _ _ _ [] [] hk' hkv rfl]
        simp [pre, rest]
      obtain ⟨f, rfl⟩ : ∃ f, fuel = f + 1 := ⟨fuel - 1, by omega⟩
      obtain ⟨P1, P2, cd, eP, hPl, hfc, hrcd, _, _⟩ := hrr.kids1 hk'
      have hP1 : P1 = [] := List.length_eq_zero.mp (by simpa using hPl)
      subst hP1
      have hxc0 := rd_kid eP
      simp only [List.length_nil, Nat.cast_zero] at hxc0
      have hokc : TreeOK s.file s.next_pos_ h0 cd :=
        hok.kid_ok (j := 0) (by rw [eP]; simp) hfc
      have hcdn : cd.n = c.n := hrcd.flat.2.2.1
      have hs1 : (if r.pos = s.root_ then ({ s with root_ := cd.pos } : DiskBTree) else s)
          = { s with root_ := cd.pos } := if_pos hrp
      obtain ⟨M', h', res, s', xr, d', Em, hW', hh', _, hR, Ed, hO, _, hC2⟩ :=
        d_remove_node_ok t ht h0 (f + 1) { s with root_ := cd.pos } cd c k hrcd hcw (by omega)
          (by rw [← hio]; exact hs) hokc hfc (by omega)
      have hz' : r.n = 0 := by rw [hrr.1.2.2.1]; exact hz
      have Ers := d_reseat t f s r cd cd.pos k s' xr res hz' hxc0 (by omega)
        (by rw [hs1]; exact read_at t _ cd.pos false cd hfc) (by rw [hs1]; exact Ed)
      refine ⟨s', h', M', res, ?_, ⟨d', ?_, ?_, hO.2.1, hO.2.2.1⟩, hW', by omega,
        by rw [hio]; exact hR, hO.2.2.2.1, ?_⟩
      · simp only [remove, read_at t s s.root_ false r hrf, Ers, Except.ok_bind,
          Except.pure_eq_ok]
      · rw [hC2 rfl]; exact hO.1
      · exact (hC2 rfl).symm
      · rw [BTree.remove_node_reseat t f M c k hz hrd (by omega)]; exact Em

end DiskBTree

namespace DiskBTree

/-- Removing, one by one, the keys a disk-resident tree holds returns true every time. -/
theorem removeAll_true (t : Int) (ht : 2 ≤ t) : ∀ (ks : List Int) (fuel : Nat) (s : DiskBTree)
    (h : Nat) (M : BTree.Node), Rep s h M → BTree.WF t h M →
    SortedKV (BTree.inorder h (some M)) → ((BTree.inorder h (some M)).map Prod.fst).Perm ks →
    4 * h + 1 ≤ fuel →
    ∃ s', removeAll t fuel s ks = .ok (s', List.replicate ks.length true) := by
  intro ks
  induction ks with
  | nil => intro fuel s h M _ _ _ _ _; exact ⟨s, rfl⟩
  | cons k ks ih =>
    intro fuel s h M hrep hw hs hp hf
    have hne : BTree.inorder h (some M) ≠ [] := by
      intro h0
      rw [h0] at hp
      exact absurd hp.symm.eq_nil (by simp)
    obtain ⟨s1, h1, M1, res, E, hrep1, hw1, hh1, hR, _, _⟩ :=
      remove_rep t ht h fuel s M k hrep hw hs hne hf
    rcases hR with ⟨_, _, hno⟩ | ⟨hres, hs1, _, hp1⟩
    · have hk : k ∈ (BTree.inorder h (some M)).map Prod.fst :=
        hp.mem_iff.mpr (List.mem_cons_self _ _)
      obtain ⟨p, hp1, hp2⟩ := List.mem_map.mp hk
      exact absurd hp2 (hno p hp1)
    · subst hres
      have hp2 : ((BTree.inorder h1 (some M1)).map Prod.fst).Perm ks :=
        (hp1.symm.trans hp).cons_inv
      obtain ⟨s2, E2⟩ := ih fuel s1 h1 M1 hrep1 hw1 hs1 hp2 (by omega)
      refine ⟨s2, ?_⟩
      simp only [removeAll, E, E2, Except.ok_bind, Except.pure_eq_ok, List.length_cons,
        List.replicate_succ]

/-- The keys of a list, each with the value `f` makes of it, are inserted into a new
disk-resident tree and then removed in the order of the list: every `remove` returns true. -/
theorem disk_remove_all (t : Int) (ht : 2 ≤ t) (f : Int → Int) (ks : List Int) (fuel : Nat)
    (hne : ks ≠ []) (hf : 4 * ks.length + 2 ≤ fuel) :
    ∃ s s', insertAll t fuel new (ks.map (fun k => (k, f k))) = .ok s ∧
      removeAll t fuel s ks = .ok (s', List.replicate ks.length true) := by
  obtain ⟨s, E, H⟩ := insertAll_holds t ht (ks.map (fun k => (k, f k))) fuel new []
    (Or.inl ⟨rfl, rfl⟩) (by simp only [List.length_nil, List.length_map]; omega)
  rw [List.append_nil] at H
  rcases H with ⟨_, hL⟩ | ⟨h, M, hrep, hw, hs, hp, hh⟩
  · have := congrArg List.length hL
    simp only [List.length_reverse, List.length_map, List.length_nil] at this
    exact absurd (List.length_eq_zero.mp this) hne
  · simp only [List.length_reverse, List.length_map] at hh
    have hp' : ((BTree.inorder h (some M)).map Prod.fst).Perm ks := by
      have h1 := hp.map Prod.fst
      have h2 : ((ks.map (fun k => (k, f k))).reverse.map Prod.fst) = ks.reverse := by
        rw [List.map_reverse, List.map_map]
        congr 1
        exact List.map_id' _
      rw [h2] at h1
      exact h1.trans (List.reverse_perm ks)
    obtain ⟨s', E'⟩ := removeAll_true t ht ks fuel s h M hrep hw hs hp' (by omega)
    exact ⟨s, s', E, E'⟩

end DiskBTree

theorem disk_search_new_aux (k : Int) : ∀ (fuel : Nat) (p : Int),
    DiskBTree._search DiskBTree.t DiskBTree.new fuel (DiskBTree._allocate_node DiskBTree.t p false) k
      = .error .fuel := by
  intro fuel
  induction fuel with
  | zero => intro p; rfl
  | succ f ih =>
    intro p
    have h := ih 0
    rw [DiskBTree._search]
    exact h

/-- C9 (code_bug): on a newly constructed tree `remove(k)` does not return false. The in-memory
tree replaces `root_` by the null `c_[0]` of its empty leaf root and dereferences it; the
disk-resident tree reaches `_merge(x, -1)` and indexes `c_[-1]`. -/
theorem C9_remove_on_new_tree_faults :
    (∀ (f : Nat) (k : Int), BTree.remove BTree.t (f + 1) (BTree.new BTree.t) k = .error .null) ∧
    (∀ (f : Nat) (k : Int),
      DiskBTree.remove DiskBTree.t (f + 1) DiskBTree.new k = .error .oob) :=
  ⟨fun _ _ => rfl, fun _ _ => rfl⟩

/-- C10 (code_bug): on a newly constructed tree the B+ tree and the in-memory tree answer
`search(k)` with an empty result, but the disk-resident `search` never returns: no record is read,
the zeroed handle is not a leaf, and `_search` recurses on position `c_[0] = 0` for ever. -/
theorem C10_search_on_new_tree :
    (∀ (fuel : Nat) (k : Int),
      DiskBTree.search DiskBTree.t fuel DiskBTree.new k = .error .fuel) ∧
    (∀ (f : Nat) (k : Int), BTree.search (f + 1) (BTree.new BTree.t) k = .ok none ∧
      BTree.contains (f + 1) (BTree.new BTree.t) k = .ok false) ∧
    (∀ (f : Nat) (k : Int), BPlusTree.search (f + 1) ⟨none⟩ k = .ok (⟨none⟩, none) ∧
      BPlusTree.contains (f + 1) ⟨none⟩ k = .ok (⟨none⟩, false)) :=
  ⟨fun fuel k => disk_search_new_aux k fuel (-1), fun _ _ => ⟨rfl, rfl⟩, fun _ _ => ⟨rfl, rfl⟩⟩

/-- C8 (code_bug): `N = 1` with the key 0. After `insert(0, 7)` and `remove(0)` on an empty B+
tree the remove returned true and the root leaf holds no keys (main-page count 0, overflow
count 0). On this tree `_get_key_index(0)` yields `n_ - 1 = -1`, the guard `i < n_` of `_search`
holds, and `contains(0)` compares the key with `key_[-1]`, a read in front of the array: the
call does not come back with false. -/
theorem C8_drained_tree_contains_faults :
    (do let tr ← BPlusTree.insert BPlusTree.d 1 ⟨none⟩ 0 7
        let (tr, b) ← BPlusTree.remove BPlusTree.d 2 tr 0
        pure (b, tr.root_.map (fun r => (r.leaf_, r.n, (match r with
          | .leaf x => x.overflow_n | _ => -1)))) : Except Err _) = .ok (true, some (true, 0, 0)) ∧
    (do let tr ← BPlusTree.insert BPlusTree.d 1 ⟨none⟩ 0 7
        let (tr, _) ← BPlusTree.remove BPlusTree.d 2 tr 0
        let r ← deref tr.root_
        let i ← r._get_key_index 0
        pure (i, decide (i < r.n), (rd r.key i).toOption) : Except Err _)
      = .ok (-1, true, none) ∧
    (do let tr ← BPlusTree.insert BPlusTree.d 1 ⟨none⟩ 0 7
        let (tr, _) ← BPlusTree.remove BPlusTree.d 2 tr 0
        let (_, c) ← BPlusTree.contains 2 tr 0
        pure c : Except Err _) = .error .oob := by
  refine ⟨?_, ?_, ?_⟩ <;> rfl

/-- C3 (code_bug): the state reached by `insert(0, 7)`, `remove(0)` holds no keys. There
`remove(0)` does not return false and does not leave the tree alone: its `search` compares the
key with `key_[-1]` of the empty root leaf, a read in front of the array (`_get_key_index(0)` is
`-1` and the guard `i < n_` holds), and the step that follows a hit, `_remove(root_, 0)`, calls
`LeafNode::_remove(-1)`, which moves no pair and leaves the root leaf with the key count `-1`. -/
theorem C3_remove_on_drained_tree_faults :
    (do let tr ← BPlusTree.insert BPlusTree.d 1 ⟨none⟩ 0 7
        let (tr, _) ← BPlusTree.remove BPlusTree.d 2 tr 0
        let r ← deref tr.root_
        let i ← r._get_key_index 0
        pure (r.leaf_, r.n, i, decide (i < r.n), (rd r.key i).toOption) : Except Err _)
      = .ok (true, 0, -1, true, none) ∧
    (do let tr ← BPlusTree.insert BPlusTree.d 1 ⟨none⟩ 0 7
        let (tr, _) ← BPlusTree.remove BPlusTree.d 2 tr 0
        let (_, b) ← BPlusTree.remove BPlusTree.d 2 tr 0
        pure b : Except Err _) = .error .oob ∧
    (do let tr ← BPlusTree.insert BPlusTree.d 1 ⟨none⟩ 0 7
        let (tr, _) ← BPlusTree.remove BPlusTree.d 2 tr 0
        let r ← deref tr.root_
        let r ← BPlusTree._remove BPlusTree.d 1 r 0
        pure (r.leaf_, r.n) : Except Err _) = .ok (true, -1) := by
  refine ⟨?_, ?_, ?_⟩ <;> rfl

/-- C7 (code_bug): after `insert(1, 7)`, `remove(1)` in both trees, a further `remove(1)` returns
false in the disk-resident tree and dereferences a null root in the in-memory tree. -/
theorem C7_lockstep_diverges_on_drained_tree :
    (do let tr ← BTree.insert BTree.t 1 (BTree.new BTree.t) 1 7
        let (tr, _) ← BTree.remove BTree.t 1 tr 1
        let (_, b) ← BTree.remove BTree.t 1 tr 1
        pure b : Except Err _) = .error .null ∧
    (do let tr ← DiskBTree.insert DiskBTree.t 1 DiskBTree.new 1 7
        let (tr, _) ← DiskBTree.remove DiskBTree.t 1 tr 1
        let (_, b) ← DiskBTree.remove DiskBTree.t 1 tr 1
        pure b : Except Err _) = .ok false := by
  constructor <;> rfl

theorem StrictKV.ins_mid {l1 l2 : List (Int × Int)} {kv : Int × Int}
    (hs : StrictKV (l1 ++ l2)) (h1 : ∀ p ∈ l1, p.1 < kv.1) (h2 : ∀ p ∈ l2, kv.1 < p.1) :
    StrictKV (l1 ++ kv :: l2) := by
  unfold StrictKV at *
  rw [List.pairwise_append] at hs ⊢
  obtain ⟨a, b, c⟩ := hs
  refine ⟨a, ?_, ?_⟩
  · rw [List.pairwise_cons]; exact ⟨h2, b⟩
  · intro p hp q hq
    rcases List.mem_cons.mp hq with rfl | hq
    · exact h1 p hp
    · exact c p hp q hq

theorem StrictKV.sub_kv {l1 l2 : List (Int × Int)} (hs : l1.Sublist l2) (h : StrictKV l2) :
    StrictKV l1 := List.Pairwise.sublist hs h

namespace LeafNode

theorem kvs_keys (x : LeafNode) (h0 : 0 ≤ x.n) (h1 : x.n ≤ x.key.length)
    (h2 : x.n ≤ x.val.length) : x.kvs.map Prod.fst = view x.key x.n := by
  unfold kvs
  rw [List.map_fst_zip]
  rw [view_length _ _ h0 h1, view_length _ _ h0 h2]

theorem kvs_len (x : LeafNode) (h0 : 0 ≤ x.n) (h1 : x.n ≤ x.key.length)
    (h2 : x.n ≤ x.val.length) : x.kvs.length = x.n.toNat := by
  unfold kvs
  rw [List.length_zip, view_length _ _ h0 h1, view_length _ _ h0 h2, Nat.min_self]

/-- Source `LeafNode::_insert_main` on a main page with a free slot: the pair is put after the
last pair whose key is not greater. -/
theorem insert_main_run (x : LeafNode) (k v : Int) (h0 : 0 ≤ x.n) (h1 : x.n < x.key.length)
    (h2 : x.n < x.val.length) :
    ∃ x' j, x._insert_main k v = .ok x' ∧ x'.n = x.n + 1 ∧ x'.key.length = x.key.length ∧
      x'.val.length = x.val.length ∧ x'.overflow_n = x.overflow_n ∧
      x'.overflow_key = x.overflow_key ∧ x'.overflow_val = x.overflow_val ∧
      x'.kvs = x.kvs.take j ++ (k, v) :: x.kvs.drop j ∧
      (∀ p ∈ x.kvs.drop j, k < p.1) ∧ (∀ p, 0 < j → x.kvs[j - 1]? = some p → p.1 ≤ k) ∧
      j ≤ x.kvs.length := by
  obtain ⟨key', val', i, E, hi0, hi1, lk, lv, hgt, hle, vk, vv⟩ :=
    shiftWhile_spec x.key x.val x.n k h0 h1 h2
  have w1 := wr_ok (a := key') k (i := i + 1) (by omega) (by omega)
  have w2 := wr_ok (a := val') v (i := i + 1) (by omega) (by omega)
  have lK : (view x.key x.n).length = (view x.val x.n).length := by
    rw [view_length _ _ h0 (by omega), view_length _ _ h0 (by omega)]
  have hfst := x.kvs_keys h0 (by omega) (by omega)
  refine ⟨{ x with key := key'.set (i + 1).toNat k, val := val'.set (i + 1).toNat v,
                   n := x.n + 1 }, (i + 1).toNat, ?_, rfl, by simp [lk], by simp [lv], rfl, rfl,
    rfl, ?_, ?_, ?_, ?_⟩
  · simp only [_insert_main, E, Except.ok_bind, w1, w2, Except.pure_eq_ok]
  · unfold kvs
    simp only
    rw [vk, vv]
    exact BTree.zip_insert _ _ _ _ _ lK
  · intro p hp
    have : p.1 ∈ (view x.key x.n).drop (i + 1).toNat := by
      rw [← hfst, ← List.map_drop]
      exact List.mem_map_of_mem _ hp
    exact hgt _ this
  · intro p hj hp
    have e : (i + 1).toNat - 1 = i.toNat := by omega
    rw [e] at hp
    have : (view x.key x.n)[i.toNat]? = some p.1 := by
      rw [← hfst, List.getElem?_map, hp]; rfl
    exact hle _ (by omega) this
  · rw [x.kvs_len h0 (by omega) (by omega)]; omega

/-- Source `LeafNode::_insert_main` of a key that is not on a strictly ascending main page. -/
theorem insert_main_sorted (x : LeafNode) (k v : Int) (h0 : 0 ≤ x.n)
    (h1 : x.n < x.key.length) (h2 : x.n < x.val.length) (hs : StrictKV x.kvs)
    (hk : k ∉ x.kvs.map Prod.fst) :
    ∃ x', x._insert_main k v = .ok x' ∧ x'.n = x.n + 1 ∧ x'.key.length = x.key.length ∧
      x'.val.length = x.val.length ∧ x'.overflow_n = x.overflow_n ∧
      x'.overflow_key = x.overflow_key ∧ x'.overflow_val = x.overflow_val ∧
      StrictKV x'.kvs ∧ x'.kvs.Perm ((k, v) :: x.kvs) ∧
      ∃ A B, x.kvs = A ++ B ∧ x'.kvs = A ++ (k, v) :: B ∧ (∀ p ∈ A, p.1 < k) ∧
        (∀ p ∈ B, k < p.1) := by
  obtain ⟨x', j, E, e1, e2, e3, e4, e5, e6, hk', hgt, hle, hjn⟩ :=
    insert_main_run x k v h0 h1 h2
  have hA : ∀ p ∈ x.kvs.take j, p.1 < k := by
    intro p hp
    rcases Nat.eq_zero_or_pos j with hj | hj
    · rw [hj] at hp; simp at hp
    · have hjl : j - 1 < x.kvs.length := by omega
      have hm := hle x.kvs[j - 1] hj (List.getElem?_eq_getElem hjl)
      have hne : p.1 ≠ k := fun e => hk (by
        rw [← e]; exact List.mem_map_of_mem _ (List.mem_of_mem_take hp))
      have hple : p.1 ≤ (x.kvs[j - 1]).1 := by
        obtain ⟨a, ha, hpa⟩ := List.getElem_of_mem hp
        simp only [List.length_take] at ha
        have ha2 : a < x.kvs.length := by omega
        have hpa' : x.kvs[a] = p := by
          rw [← hpa, List.getElem_take]
        rcases Nat.lt_or_ge a (j - 1) with hlt | hge
        · have := List.pairwise_iff_getElem.mp hs a (j - 1) (by omega) hjl hlt
          rw [hpa'] at this
          exact le_of_lt this
        · have : a = j - 1 := by omega
          subst this
          rw [hpa']
      omega
  refine ⟨x', E, e1, e2, e3, e4, e5, e6, ?_, ?_, x.kvs.take j, x.kvs.drop j,
    (List.take_append_drop _ _).symm, hk', hA, hgt⟩
  · rw [hk']
    exact StrictKV.ins_mid (by rw [List.take_append_drop]; exact hs) hA hgt
  · rw [hk']
    refine List.perm_middle.trans (List.Perm.cons _ ?_)
    rw [List.take_append_drop]

end LeafNode

namespace LeafNode

/-- Reading slot `a` of two parallel arrays whose first `m` slots are in use. -/
theorem pair_at (ks vs : List Int) (m a : Int) (h0 : 0 ≤ a) (h1 : a < m)
    (h2 : m ≤ ks.length) (h3 : m ≤ vs.length) :
    ∃ ka va, rd ks a = .ok ka ∧ rd vs a = .ok va ∧
      ((view ks m).zip (view vs m)).drop a.toNat
        = (ka, va) :: ((view ks m).zip (view vs m)).drop (a + 1).toNat := by
  obtain ⟨ka, hka⟩ := rd_total ks a h0 (by omega)
  obtain ⟨va, hva⟩ := rd_total vs a h0 (by omega)
  refine ⟨ka, va, hka, hva, ?_⟩
  have e1 := view_rd (n := m) h1 hka
  have e2 := view_rd (n := m) h1 hva
  have hz : ((view ks m).zip (view vs m))[a.toNat]? = some (ka, va) := by
    rw [List.getElem?_zip_eq_some]; exact ⟨e1, e2⟩
  have e : (a + 1).toNat = a.toNat + 1 := by omega
  rw [e]
  obtain ⟨hlt, hget⟩ := List.getElem?_eq_some_iff.mp hz
  rw [List.drop_eq_getElem_cons hlt, hget]

theorem readPairs_from (ks vs : List Int) (m : Int) (h2 : m ≤ ks.length) (h3 : m ≤ vs.length) :
    ∀ (cnt : Nat) (a : Int), 0 ≤ a → a + cnt = m →
      (upTo a m).mapM (fun j => do pure (← rd ks j, ← rd vs j) : Int → Except Err (Int × Int))
        = .ok (((view ks m).zip (view vs m)).drop a.toNat) := by
  intro cnt
  induction cnt with
  | zero =>
    intro a h0 ha
    have hl : ((view ks m).zip (view vs m)).length = m.toNat := by
      rw [List.length_zip, view_length _ _ (by omega) h2, view_length _ _ (by omega) h3,
        Nat.min_self]
    rw [upTo_nil a m (by omega), List.drop_eq_nil_of_le (by rw [hl]; omega)]
    rfl
  | succ c ih =>
    intro a h0 ha
    obtain ⟨ka, va, e1, e2, e3⟩ := pair_at ks vs m a h0 (by omega) h2 h3
    rw [upTo_succ a m (by omega), List.mapM_cons, e1, e2, ih (a + 1) (by omega) (by omega), e3]
    rfl

/-- Reading the pairs in use of two parallel arrays. -/
theorem readPairs_spec (ks vs : List Int) (m : Int) (h0 : 0 ≤ m) (h2 : m ≤ ks.length)
    (h3 : m ≤ vs.length) : readPairs ks vs m = .ok ((view ks m).zip (view vs m)) := by
  have := readPairs_from ks vs m h2 h3 m.toNat 0 (le_refl _) (by omega)
  simpa [readPairs] using this

theorem splice_step {α : Type} (L : List α) (a : Nat) (y : α) (M : List α) (h : a < L.length)
    {n : Nat} (hn : n = M.length) :
    (L.set a y).take (a + 1) ++ M ++ (L.set a y).drop (a + 1 + n)
      = L.take a ++ (y :: M) ++ L.drop (a + (n + 1)) := by
  obtain ⟨A, x, B, rfl, hA⟩ : ∃ A x B, L = A ++ x :: B ∧ A.length = a :=
    ⟨L.take a, L[a], L.drop (a + 1), by simp, by simp; omega⟩
  subst hA
  rw [set_explicit A x y B _ rfl]
  have e1 : (A ++ y :: B).take (A.length + 1) = A ++ [y] := by
    rw [List.take_append_eq_append_take]; simp
  have e2 : (A ++ y :: B).drop (A.length + 1 + n) = B.drop n := by
    rw [List.drop_append_eq_append_drop]
    simp [List.drop_eq_nil_of_le, Nat.add_sub_cancel_left, Nat.add_assoc, Nat.add_comm 1 n]
  have e3 : (A ++ x :: B).drop (A.length + (n + 1)) = B.drop n := by
    rw [List.drop_append_eq_append_drop]
    simp [List.drop_eq_nil_of_le, Nat.add_sub_cancel_left]
  rw [e1, e2, e3]
  simp

theorem zip_fst_snd {α β : Type} : ∀ ps : List (α × β), (ps.map Prod.fst).zip (ps.map Prod.snd) = ps
  | [] => rfl
  | p :: ps => by simp [zip_fst_snd ps]

theorem writePairs_from : ∀ (ps : List (Int × Int)) (a : Nat) (ks vs : List Int),
    a + ps.length ≤ ks.length → a + ps.length ≤ vs.length →
    ∃ ks' vs', (ps.enumFrom a).foldlM (fun (acc : List Int × List Int) jp => do
        pure (← wr acc.1 (jp.1 : Int) jp.2.1, ← wr acc.2 (jp.1 : Int) jp.2.2)
          : List Int × List Int → Nat × Int × Int → Except Err (List Int × List Int)) (ks, vs)
        = .ok (ks', vs') ∧
      ks' = ks.take a ++ ps.map Prod.fst ++ ks.drop (a + ps.length) ∧
      vs' = vs.take a ++ ps.map Prod.snd ++ vs.drop (a + ps.length) := by
  intro ps
  induction ps with
  | nil =>
    intro a ks vs _ _
    exact ⟨ks, vs, rfl, by simp, by simp⟩
  | cons p ps ih =>
    intro a ks vs h1 h2
    simp only [List.length_cons] at h1 h2
    have w1 := wr_ok (a := ks) p.1 (i := (a : Int)) (by omega) (by omega)
    have w2 := wr_ok (a := vs) p.2 (i := (a : Int)) (by omega) (by omega)
    simp only [Int.toNat_ofNat] at w1 w2
    obtain ⟨ks', vs', E, e1, e2⟩ := ih (a + 1) (ks.set a p.1) (vs.set a p.2)
      (by rw [List.length_set]; omega) (by rw [List.length_set]; omega)
    refine ⟨ks', vs', ?_, ?_, ?_⟩
    · simp only [List.enumFrom_cons, List.foldlM_cons, w1, w2, Except.ok_bind,
        Except.pure_eq_ok]
      exact E
    · rw [e1]
      exact splice_step ks a p.1 (ps.map Prod.fst) (by omega) (by simp)
    · rw [e2]
      exact splice_step vs a p.2 (ps.map Prod.snd) (by omega) (by simp)

/-- Writing pairs back to the first slots of two parallel arrays. -/
theorem writePairs_spec (ks vs : List Int) (ps : List (Int × Int)) (h1 : ps.length ≤ ks.length)
    (h2 : ps.length ≤ vs.length) :
    ∃ ks' vs', writePairs ks vs ps = .ok (ks', vs') ∧ ks'.length = ks.length ∧
      vs'.length = vs.length ∧
      (view ks' (ps.length : Int)).zip (view vs' (ps.length : Int)) = ps := by
  obtain ⟨ks', vs', E, e1, e2⟩ := writePairs_from ps 0 ks vs (by omega) (by omega)
  refine ⟨ks', vs', E, ?_, ?_, ?_⟩
  · rw [e1]; simp; omega
  · rw [e2]; simp; omega
  · unfold view
    rw [e1, e2]
    simp only [List.take_zero, List.nil_append, zero_add, Int.toNat_ofNat]
    rw [List.take_left' (by simp), List.take_left' (by simp)]
    exact zip_fst_snd ps

end LeafNode

namespace LeafNode

/-- Source `LeafNode::_sort_overflow`: the pairs in use of the overflow block are rearranged. -/
theorem sort_overflow_spec (x : LeafNode) (h0 : 0 ≤ x.overflow_n)
    (h1 : x.overflow_n ≤ x.overflow_key.length) (h2 : x.overflow_n ≤ x.overflow_val.length) :
    ∃ x', x._sort_overflow = .ok x' ∧ x'.n = x.n ∧ x'.key = x.key ∧ x'.val = x.val ∧
      x'.overflow_n = x.overflow_n ∧ x'.overflow_key.length = x.overflow_key.length ∧
      x'.overflow_val.length = x.overflow_val.length ∧
      x'.okvs = x.okvs.insertionSort (fun a b => a.1 ≤ b.1) := by
  have E1 := readPairs_spec x.overflow_key x.overflow_val x.overflow_n h0 h1 h2
  have hl : (x.okvs.insertionSort (fun a b => a.1 ≤ b.1)).length = x.overflow_n.toNat := by
    rw [List.length_insertionSort]
    unfold okvs
    rw [List.length_zip, view_length _ _ h0 h1, view_length _ _ h0 h2, Nat.min_self]
  obtain ⟨ks', vs', E2, l1, l2, hz⟩ := writePairs_spec x.overflow_key x.overflow_val
    (x.okvs.insertionSort (fun a b => a.1 ≤ b.1)) (by rw [hl]; omega) (by rw [hl]; omega)
  have hc : (((x.okvs.insertionSort (fun a b => a.1 ≤ b.1)).length : Nat) : Int)
      = x.overflow_n := by rw [hl]; omega
  rw [hc] at hz
  refine ⟨{ x with overflow_key := ks', overflow_val := vs' }, ?_, rfl, rfl, rfl, rfl, l1, l2,
    hz⟩
  simp only [_sort_overflow, E1, Except.ok_bind, Except.pure_eq_ok]
  unfold okvs at E2
  rw [E2]
  rfl

/-- The loop of `LeafNode::_load_overflow`: the pairs in slots `a .. m - 1` of the overflow block
are inserted into the main page one after the other. -/
theorem load_loop (OK OV : List Int) (m : Int) (hm1 : m ≤ OK.length) (hm2 : m ≤ OV.length) :
    ∀ (cnt : Nat) (a : Int) (x : LeafNode), 0 ≤ a → a + cnt = m → x.overflow_key = OK →
      x.overflow_val = OV → 0 ≤ x.n → x.n + cnt ≤ x.key.length → x.n + cnt ≤ x.val.length →
      StrictKV x.kvs →
      ((x.kvs ++ ((view OK m).zip (view OV m)).drop a.toNat).map Prod.fst).Nodup →
      ∃ x', (upTo a m).foldlM (fun (x : LeafNode) j => do
          x._insert_main (← rd x.overflow_key j) (← rd x.overflow_val j)) x = .ok x' ∧
        x'.n = x.n + cnt ∧ x'.key.length = x.key.length ∧ x'.val.length = x.val.length ∧
        x'.overflow_n = x.overflow_n ∧ x'.overflow_key = OK ∧ x'.overflow_val = OV ∧
        StrictKV x'.kvs ∧
        x'.kvs.Perm (x.kvs ++ ((view OK m).zip (view OV m)).drop a.toNat) := by
  intro cnt
  induction cnt with
  | zero =>
    intro a x h0 ha ek ev hn hk hv hs hnd
    have hl : ((view OK m).zip (view OV m)).length = m.toNat := by
      rw [List.length_zip, view_length _ _ (by omega) hm1, view_length _ _ (by omega) hm2,
        Nat.min_self]
    rw [upTo_nil a m (by omega), List.drop_eq_nil_of_le (by rw [hl]; omega)]
    exact ⟨x, rfl, by simp, rfl, rfl, rfl, ek, ev, hs, by simp⟩
  | succ c ih =>
    intro a x h0 ha ek ev hn hk hv hs hnd
    obtain ⟨ka, va, e1, e2, e3⟩ := pair_at OK OV m a h0 (by omega) hm1 hm2
    rw [e3] at hnd ⊢
    have hka : ka ∉ x.kvs.map Prod.fst := by
      intro hmem
      rw [List.map_append, List.map_cons] at hnd
      have := (List.nodup_append.mp hnd).2.2
      exact this hmem (List.mem_cons_self _ _)
    obtain ⟨x1, E1, n1, lk1, lv1, on1, ok1, ov1, hs1, hp1, _⟩ :=
      insert_main_sorted x ka va hn (by push_cast at hk; omega) (by push_cast at hv; omega) hs hka
    have hnd1 : ((x1.kvs ++ ((view OK m).zip (view OV m)).drop (a + 1).toNat).map
        Prod.fst).Nodup := by
      refine (List.Perm.nodup_iff ?_).mpr hnd
      refine List.Perm.map _ ?_
      exact (hp1.append_right _).trans (List.perm_middle.symm)
    obtain ⟨x', E2, n2, lk2, lv2, on2, ok2, ov2, hs2, hp2⟩ :=
      ih (a + 1) x1 (by omega) (by push_cast at ha ⊢; omega) (by rw [ok1, ek]) (by rw [ov1, ev])
        (by omega) (by rw [lk1, n1]; push_cast at hk ⊢; omega)
        (by rw [lv1, n1]; push_cast at hv ⊢; omega) hs1 hnd1
    refine ⟨x', ?_, by rw [n2, n1]; push_cast; omega, by rw [lk2, lk1], by rw [lv2, lv1],
      by rw [on2, on1], ok2, ov2, hs2, ?_⟩
    · rw [upTo_succ a m (by omega), List.foldlM_cons, ek, ev, e1, e2]
      simp only [Except.ok_bind]
      rw [E1]
      exact E2
    · exact hp2.trans ((hp1.append_right _).trans List.perm_middle.symm)

/-- Source `LeafNode::_load_overflow` on a shaped leaf with a strictly ascending main page and no
key held twice: the overflow block is emptied into the main page, which stays strictly
ascending. -/
theorem load_overflow_spec (d : Int) (x : LeafNode) (hS : x.Shape d) (hs : StrictKV x.kvs)
    (hnd : (x.pairs.map Prod.fst).Nodup) :
    ∃ x', x._load_overflow = .ok x' ∧ x'.Shape d ∧ x'.overflow_n = 0 ∧
      x'.n = x.n + x.overflow_n ∧ StrictKV x'.kvs ∧ x'.kvs.Perm x.pairs ∧ x'.okvs = [] := by
  obtain ⟨s1, s2, s3, s4, s5, s6, s7, s8⟩ := hS
  by_cases h0 : x.overflow_n = 0
  · have ho : x.okvs = [] := by unfold okvs view; rw [h0]; rfl
    refine ⟨x, ?_, ⟨s1, s2, s3, s4, s5, s6, s7, s8⟩, h0, by omega, hs, ?_, ho⟩
    · simp only [_load_overflow, h0, if_true, ite_true]; rfl
    · unfold pairs; rw [ho, List.append_nil]
  · obtain ⟨x1, E1, n1, k1, v1, on1, lk1, lv1, hok1⟩ :=
      sort_overflow_spec x s6 (by omega) (by omega)
    have hperm : x1.okvs.Perm x.okvs := by rw [hok1]; exact List.perm_insertionSort _ _
    have hkv1 : x1.kvs = x.kvs := by unfold kvs; rw [n1, k1, v1]
    have hnd1 : ((x1.kvs ++ ((view x1.overflow_key x1.overflow_n).zip
        (view x1.overflow_val x1.overflow_n)).drop (0 : Int).toNat).map Prod.fst).Nodup := by
      simp only [Int.toNat_zero, List.drop_zero]
      refine (List.Perm.nodup_iff ?_).mpr hnd
      rw [hkv1]
      exact List.Perm.map _ (List.Perm.append_left _ hperm)
    obtain ⟨x2, E2, n2, lk2, lv2, on2, ok2, ov2, hs2, hp2⟩ :=
      load_loop x1.overflow_key x1.overflow_val x1.overflow_n (by omega) (by omega)
        x1.overflow_n.toNat 0 x1 (le_refl _) (by omega) rfl rfl (by omega)
        (by rw [k1, n1, on1]; omega) (by rw [v1, n1, on1]; omega) (by rw [hkv1]; exact hs) hnd1
    simp only [Int.toNat_zero, List.drop_zero] at hp2
    refine ⟨{ x2 with overflow_n := 0 }, ?_, ⟨?_, ?_, ?_, ?_, ?_, ?_, ?_, ?_⟩, rfl, ?_, hs2, ?_,
      ?_⟩
    · simp only [_load_overflow, h0, if_false, ite_false, E1, Except.ok_bind, E2,
        Except.pure_eq_ok]
    · show (x2.key.length : Int) = _; rw [lk2, k1]; exact s1
    · show (x2.val.length : Int) = _; rw [lv2, v1]; exact s2
    · show (x2.overflow_key.length : Int) = _; rw [ok2, lk1]; exact s3
    · show (x2.overflow_val.length : Int) = _; rw [ov2, lv1]; exact s4
    · show 0 ≤ x2.n; omega
    · exact le_refl _
    · show (0 : Int) ≤ d / 2; omega
    · show x2.n + 0 ≤ 2 * d - 1; omega
    · show x2.n = _; omega
    · show x2.kvs.Perm _
      refine hp2.trans ?_
      rw [hkv1]
      exact List.Perm.append_left _ hperm
    · unfold okvs view; rfl

end LeafNode

namespace LeafNode

theorem okvs_snoc (x : LeafNode) (k v : Int) (h0 : 0 ≤ x.overflow_n)
    (h1 : x.overflow_n < x.overflow_key.length) (h2 : x.overflow_n < x.overflow_val.length) :
    ({ x with overflow_key := x.overflow_key.set x.overflow_n.toNat k,
              overflow_val := x.overflow_val.set x.overflow_n.toNat v,
              overflow_n := x.overflow_n + 1 } : LeafNode).okvs = x.okvs ++ [(k, v)] := by
  unfold okvs
  simp only
  rw [view_set_snoc _ _ _ h0 h1, view_set_snoc _ _ _ h0 h2]
  rw [List.zip_append (by
    rw [view_length _ _ h0 (by omega), view_length _ _ h0 (by omega)])]
  rfl

/-- Source `LeafNode::_insert` of a key the leaf does not hold, when the leaf has room for one
more pair: the pair goes to the main page of a leaf whose main page is more than `2d-1-d/2`
long, else to the overflow block, which is flushed first when it is full. -/
theorem leaf_insert_spec (d : Int) (hd : 2 ≤ d) (x : LeafNode) (k v : Int) (hS : x.Shape d)
    (hs : StrictKV x.kvs) (hnd : (k :: x.pairs.map Prod.fst).Nodup)
    (hroom : x.n + x.overflow_n < 2 * d - 1) :
    ∃ x', x._insert d k v = .ok x' ∧ x'.Shape d ∧ StrictKV x'.kvs ∧
      x'.pairs.Perm ((k, v) :: x.pairs) ∧ x.n ≤ x'.n ∧
      x'.n + x'.overflow_n = x.n + x.overflow_n + 1 ∧
      (x.overflow_n = 0 → x'.overflow_n ≤ 1) := by
  have hS0 := hS
  obtain ⟨s1, s2, s3, s4, s5, s6, s7, s8⟩ := hS
  have hd2 : 1 ≤ d / 2 := by omega
  obtain ⟨hkn, hnd0⟩ := List.nodup_cons.mp hnd
  have hkk : k ∉ x.kvs.map Prod.fst := by
    intro h; apply hkn
    unfold pairs; rw [List.map_append]; exact List.mem_append_left _ h
  by_cases hbig : 2 * d - 1 - d / 2 < x.n
  · obtain ⟨x', E, n1, lk, lv, on1, ok1, ov1, hs', hp', _⟩ :=
      insert_main_sorted x k v s5 (by omega) (by omega) hs hkk
    have hok : x'.okvs = x.okvs := by unfold okvs; rw [on1, ok1, ov1]
    refine ⟨x', ?_, ⟨by rw [lk]; exact s1, by rw [lv]; exact s2, by rw [ok1]; exact s3,
      by rw [ov1]; exact s4, by omega, by omega, by omega, by omega⟩, hs', ?_, by omega,
      by omega, fun h => by omega⟩
    · simp only [_insert, hbig, if_true, ite_true, E, Except.ok_bind, Except.pure_eq_ok]
    · unfold pairs; rw [hok]
      exact hp'.append_right _
  · by_cases hfull : d / 2 = x.overflow_n
    · obtain ⟨x1, E1, hS1, on1, n1, hs1, hp1, ho1⟩ := load_overflow_spec d x hS0 hs hnd0
      obtain ⟨t1, t2, t3, t4, t5, t6, t7, t8⟩ := hS1
      have w1 := wr_ok (a := x1.overflow_key) k (i := x1.overflow_n) (by omega) (by omega)
      have w2 := wr_ok (a := x1.overflow_val) v (i := x1.overflow_n) (by omega) (by omega)
      have hsn := okvs_snoc x1 k v (by omega) (by omega) (by omega)
      refine ⟨{ x1 with overflow_key := x1.overflow_key.set x1.overflow_n.toNat k,
                        overflow_val := x1.overflow_val.set x1.overflow_n.toNat v,
                        overflow_n := x1.overflow_n + 1 }, ?_, ⟨?_, ?_, ?_, ?_, ?_, ?_, ?_, ?_⟩, ?_, ?_, ?_, ?_, ?_⟩
      · simp only [_insert, hbig, if_false, ite_false, if_pos hfull, E1,
          Except.ok_bind, w1, w2, Except.pure_eq_ok]
      · exact t1
      · exact t2
      · show ((x1.overflow_key.set _ _).length : Int) = _; rw [List.length_set]; exact t3
      · show ((x1.overflow_val.set _ _).length : Int) = _; rw [List.length_set]; exact t4
      · exact t5
      · show 0 ≤ x1.overflow_n + 1; omega
      · show x1.overflow_n + 1 ≤ d / 2; omega
      · show x1.n + (x1.overflow_n + 1) ≤ 2 * d - 1; omega
      · exact hs1
      · unfold pairs
        rw [hsn, ho1]
        show (x1.kvs ++ ([] ++ [(k, v)])).Perm _
        rw [List.nil_append]
        refine (List.perm_append_comm).trans ?_
        exact List.Perm.cons _ hp1
      · show x.n ≤ x1.n; omega
      · show x1.n + (x1.overflow_n + 1) = _; omega
      · intro _; show x1.overflow_n + 1 ≤ 1; omega
    · have w1 := wr_ok (a := x.overflow_key) k (i := x.overflow_n) (by omega) (by omega)
      have w2 := wr_ok (a := x.overflow_val) v (i := x.overflow_n) (by omega) (by omega)
      have hsn := okvs_snoc x k v (by omega) (by omega) (by omega)
      refine ⟨{ x with overflow_key := x.overflow_key.set x.overflow_n.toNat k,
                       overflow_val := x.overflow_val.set x.overflow_n.toNat v,
                       overflow_n := x.overflow_n + 1 }, ?_, ⟨?_, ?_, ?_, ?_, ?_, ?_, ?_, ?_⟩, ?_, ?_, ?_, ?_, ?_⟩
      · simp only [_insert, hbig, if_false, ite_false, if_neg hfull, Except.pure_eq_ok,
          Except.ok_bind, w1, w2]
      · exact s1
      · exact s2
      · show ((x.overflow_key.set _ _).length : Int) = _; rw [List.length_set]; exact s3
      · show ((x.overflow_val.set _ _).length : Int) = _; rw [List.length_set]; exact s4
      · exact s5
      · show 0 ≤ x.overflow_n + 1; omega
      · show x.overflow_n + 1 ≤ d / 2; omega
      · show x.n + (x.overflow_n + 1) ≤ 2 * d - 1; omega
      · exact hs
      · unfold pairs
        rw [hsn]
        show (x.kvs ++ (x.okvs ++ [(k, v)])).Perm _
        rw [← List.append_assoc]
        exact (List.perm_append_comm).trans (List.Perm.refl _)
      · exact le_refl _
      · show x.n + (x.overflow_n + 1) = _; omega
      · intro h; show x.overflow_n + 1 ≤ 1; omega

/-- Source `LeafNode::_remove(i)`: the leaf is flushed and the pair in slot `i` of the flushed
main page `L` is taken out. -/
theorem leaf_remove_spec (d : Int) (x : LeafNode) (i : Int) (hS : x.Shape d) (hs : StrictKV x.kvs)
    (hnd : (x.pairs.map Prod.fst).Nodup) (hi0 : 0 ≤ i) (hi1 : i < x.n + x.overflow_n) :
    ∃ x' L, x._remove i = .ok x' ∧ x'.Shape d ∧ x'.overflow_n = 0 ∧
      x'.n = x.n + x.overflow_n - 1 ∧ L.Perm x.pairs ∧ StrictKV L ∧
      (x.overflow_n = 0 → L = x.kvs) ∧
      x'.kvs = L.eraseIdx i.toNat ∧ x'.okvs = [] := by
  obtain ⟨x1, E1, hS1, on1, n1, hs1, hp1, ho1⟩ := load_overflow_spec d x hS hs hnd
  obtain ⟨t1, t2, t3, t4, t5, t6, t7, t8⟩ := hS1
  obtain ⟨k1, ek1, lk1, vk1⟩ := shiftDown_spec x1.key i (x1.n - 1) x1.n (by omega) hi0
    (by omega) (by omega)
  obtain ⟨v1, ev1, lv1, vv1⟩ := shiftDown_spec x1.val i (x1.n - 1) x1.n (by omega) hi0
    (by omega) (by omega)
  refine ⟨{ x1 with key := k1, val := v1, n := x1.n - 1 }, x1.kvs, ?_,
    ⟨?_, ?_, t3, t4, ?_, t6, t7, ?_⟩, on1, ?_, hp1, hs1, ?_, ?_, ?_⟩
  · simp only [_remove, E1, Except.ok_bind, ek1, ev1, Except.pure_eq_ok]
  · show (k1.length : Int) = _; rw [lk1]; exact t1
  · show (v1.length : Int) = _; rw [lv1]; exact t2
  · show 0 ≤ x1.n - 1; omega
  · show x1.n - 1 + x1.overflow_n ≤ 2 * d - 1; omega
  · show x1.n - 1 = _; omega
  · intro h0
    have : x._load_overflow = .ok x := by
      simp only [_load_overflow, h0, if_true, ite_true]; rfl
    rw [this] at E1
    simp only [Except.ok.injEq] at E1
    rw [E1]
  · unfold kvs
    simp only
    rw [vk1, vv1, BTree.zip_eraseIdx]
  · exact ho1

/-- Source `LeafNode::_load_overflow` keeps the invariant of a leaf. -/
theorem Inv.load {d : Int} {lo hi : Option Int} {x : LeafNode} (hI : x.Inv d lo hi) :
    ∃ x', x._load_overflow = .ok x' ∧ x'.Inv d lo hi ∧ x'.overflow_n = 0 ∧
      x'.n = x.n + x.overflow_n ∧ x'.pairs.Perm x.pairs ∧ x'.pairs = x'.kvs := by
  obtain ⟨hS, h1, hs, hnd, hb⟩ := hI
  obtain ⟨x', E, hS', on', n', hs', hp', ho'⟩ := load_overflow_spec d x hS hs hnd
  have hpe : x'.pairs = x'.kvs := by unfold pairs; rw [ho', List.append_nil]
  refine ⟨x', E, ⟨hS', by omega, hs', ?_, ?_⟩, on', n', by rw [hpe]; exact hp', hpe⟩
  · rw [hpe]; exact (List.Perm.nodup_iff (hp'.map _)).mpr hnd
  · intro p hp
    rw [hpe] at hp
    exact hb p (hp'.mem_iff.mp hp)

end LeafNode

/-- Source `NodeBase::_get_key_index` on strictly ascending keys `K1 ++ K2`, `K1` the keys below
`k`: the result is `|K1|`, capped at `n - 1`. -/
theorem get_key_index_run (x : BPNode) (k : Int) (h0 : 0 ≤ x.n) (h1 : x.n ≤ x.key.length) :
    ∃ i, x._get_key_index k = .ok (if i ≤ x.n - 1 then i else x.n - 1) ∧ 0 ≤ i ∧ i ≤ x.n ∧
      (∀ y ∈ (view x.key x.n).take i.toNat, y < k) ∧
      (∀ y, (view x.key x.n)[i.toNat]? = some y → k ≤ y) := by
  obtain ⟨i, E, hi0, hi1, hlt, hge⟩ := scanUp_spec x.key x.n k h0 h1
  refine ⟨i, ?_, hi0, hi1, hlt, hge⟩
  simp only [BPNode._get_key_index, E, Except.ok_bind, Except.pure_eq_ok]

theorem pairwise_drop_gt {L : List Int} (hs : L.Pairwise (· < ·)) {i : Nat} {y : Int}
    (hy : L[i]? = some y) : ∀ z ∈ L.drop (i + 1), y < z := by
  obtain ⟨hlt, hget⟩ := List.getElem?_eq_some_iff.mp hy
  have e : L = L.take i ++ y :: L.drop (i + 1) := by
    rw [← hget]; simp
  rw [e] at hs
  have h2 := (List.pairwise_append.mp hs).2.1
  exact (List.pairwise_cons.mp h2).1

namespace InternalNode

/-- Source `_get_key_index` followed by `_get_child_index` on an Internal node with strictly
ascending keys: the child chosen is the one after the keys `K1` that are not greater than `k`. -/
theorem routing (n : Int) (key : List Int) (c : List (Option BPNode)) (k : Int) (h0 : 1 ≤ n)
    (h1 : n ≤ key.length) (hs : (view key n).Pairwise (· < ·)) :
    ∃ ki ci K1 K2, (BPNode.internal n key c)._get_key_index k = .ok ki ∧
      (⟨n, key, c⟩ : InternalNode)._get_child_index k ki = .ok ci ∧
      view key n = K1 ++ K2 ∧ ci = (K1.length : Int) ∧ (∀ y ∈ K1, y ≤ k) ∧
      (∀ y ∈ K2, k < y) ∧ 0 ≤ ki ∧ ki ≤ n - 1 := by
  obtain ⟨i, E, hi0, hi1, hlt, hge⟩ := get_key_index_run (.internal n key c) k
    (by show 0 ≤ n; omega) h1
  have hn : (BPNode.internal n key c).n = n := rfl
  have hk : (BPNode.internal n key c).key = key := rfl
  rw [hn] at E
  rw [hn, hk] at hlt hge
  have hvl : (view key n).length = n.toNat := view_length _ _ (by omega) h1
  by_cases hin : i ≤ n - 1
  · rw [if_pos hin] at E
    have hil : i.toNat < (view key n).length := by rw [hvl]; omega
    have hy := hge _ (List.getElem?_eq_getElem hil)
    have hrd : rd key i = .ok (view key n)[i.toNat] :=
      rd_view (n := n) hi0 (by omega) (List.getElem?_eq_getElem hil)
    have hgt := pairwise_drop_gt hs (List.getElem?_eq_getElem hil)
    by_cases hlt' : k < (view key n)[i.toNat]
    · refine ⟨i, i, (view key n).take i.toNat, (view key n).drop i.toNat, E, ?_,
        (List.take_append_drop _ _).symm, ?_, fun y hy' => le_of_lt (hlt y hy'), ?_, hi0, hin⟩
      · simp only [_get_child_index, hrd, Except.ok_bind, Except.pure_eq_ok, hlt', if_true,
          ite_true]
      · rw [List.length_take, hvl]; omega
      · intro y hy'
        rw [List.drop_eq_getElem_cons hil] at hy'
        rcases List.mem_cons.mp hy' with rfl | hy'
        · exact hlt'
        · exact lt_trans hlt' (hgt y hy')
    · have hek : (view key n)[i.toNat] = k := by omega
      refine ⟨i, i + 1, (view key n).take (i.toNat + 1), (view key n).drop (i.toNat + 1), E, ?_,
        (List.take_append_drop _ _).symm, ?_, ?_, ?_, hi0, hin⟩
      · simp only [_get_child_index, hrd, Except.ok_bind, Except.pure_eq_ok, hlt', if_false,
          ite_false]
      · rw [List.length_take, hvl]; omega
      · intro y hy'
        rw [List.take_succ, List.getElem?_eq_getElem hil] at hy'
        rcases List.mem_append.mp hy' with hy' | hy'
        · exact le_of_lt (hlt y hy')
        · simp only [Option.toList, List.mem_singleton] at hy'
          omega
      · intro y hy'
        have := hgt y hy'
        omega
  · rw [if_neg hin] at E
    have hin' : i = n := by omega
    have hil : (n - 1).toNat < (view key n).length := by rw [hvl]; omega
    have hrd : rd key (n - 1) = .ok (view key n)[(n - 1).toNat] :=
      rd_view (n := n) (by omega) (by omega) (List.getElem?_eq_getElem hil)
    have hall : ∀ y ∈ view key n, y < k := by
      intro y hy'
      apply hlt
      rw [hin', List.take_of_length_le (by rw [hvl])]
      exact hy'
    have hlast : ¬ k < (view key n)[(n - 1).toNat] := by
      have := hall _ (List.getElem_mem hil)
      omega
    refine ⟨n - 1, n, view key n, [], E, ?_, (List.append_nil _).symm, ?_,
      fun y hy' => le_of_lt (hall y hy'), ?_, by omega, le_refl _⟩
    · simp only [_get_child_index, hrd, Except.ok_bind, Except.pure_eq_ok, hlast, if_false,
        ite_false]
      congr 1; omega
    · rw [hvl]; omega
    · intro y hy'; cases hy'

/-- Source `InternalNode::_insert(k, ki, c, ci)` on a node with a free slot. -/
theorem insert_run (x : InternalNode) (k ki : Int) (o : Option BPNode) (ci : Int)
    (h0 : 0 ≤ x.n) (h1 : x.n < x.key.length) (h2 : x.n + 1 < x.c.length) (hk0 : 0 ≤ ki)
    (hk1 : ki ≤ x.n) (hc0 : 0 ≤ ci) (hc1 : ci ≤ x.n + 1) :
    ∃ x', x._insert k ki o ci = .ok x' ∧ x'.n = x.n + 1 ∧ x'.key.length = x.key.length ∧
      x'.c.length = x.c.length ∧
      view x'.key x'.n = (view x.key x.n).take ki.toNat ++ k :: (view x.key x.n).drop ki.toNat ∧
      view x'.c (x'.n + 1) =
        (view x.c (x.n + 1)).take ci.toNat ++ o :: (view x.c (x.n + 1)).drop ci.toNat := by
  obtain ⟨k1, E1, l1, v1⟩ := shiftUp_spec x.key (x.n - 1) ki x.n (by omega) hk0 hk1 h1
  obtain ⟨c1, E2, l2, v2⟩ := shiftUp_spec x.c x.n ci (x.n + 1) rfl hc0 hc1 h2
  have w1 := wr_ok (a := k1) k (i := ki) hk0 (by omega)
  have w2 := wr_ok (a := c1) o (i := ci) hc0 (by omega)
  refine ⟨{ n := x.n + 1, key := k1.set ki.toNat k, c := c1.set ci.toNat o }, ?_, rfl,
    by simp [l1], by simp [l2], v1 k, ?_⟩
  · simp only [_insert, E1, Except.ok_bind, w1, E2, w2, Except.pure_eq_ok]
  · exact v2 o

/-- Source `InternalNode::_remove(ki, ci)`. -/
theorem remove_run (x : InternalNode) (ki ci : Int) (h1 : x.n ≤ x.key.length)
    (h2 : x.n + 1 ≤ x.c.length) (hk0 : 0 ≤ ki) (hk1 : ki ≤ x.n - 1) (hc0 : 0 ≤ ci)
    (hc1 : ci ≤ x.n) :
    ∃ x', x._remove ki ci = .ok x' ∧ x'.n = x.n - 1 ∧ x'.key.length = x.key.length ∧
      x'.c.length = x.c.length ∧
      view x'.key x'.n = (view x.key x.n).eraseIdx ki.toNat ∧
      view x'.c (x'.n + 1) = (view x.c (x.n + 1)).eraseIdx ci.toNat := by
  obtain ⟨k1, E1, l1, v1⟩ := shiftDown_spec x.key ki (x.n - 1) x.n (by omega) hk0 hk1 h1
  obtain ⟨c1, E2, l2, v2⟩ := shiftDown_spec x.c ci x.n (x.n + 1) rfl hc0 hc1 h2
  refine ⟨{ n := x.n - 1, key := k1, c := c1 }, ?_, rfl, l1, l2, v1, ?_⟩
  · simp only [_remove, E1, Except.ok_bind, E2, Except.pure_eq_ok]
  · show view c1 (x.n - 1 + 1) = _
    rw [show x.n - 1 + 1 = x.n by omega]
    exact v2

end InternalNode

section kidsAlgebra
variable {P : Option Int → Option Int → Option BPNode → Prop}

theorem KI_single {lo hi : Option Int} {o : Option BPNode} : KI P lo hi [o] [] ↔ P lo hi o := by
  simp [KI]

theorem KI_cons {lo hi : Option Int} {o : Option BPNode} {S : List (Option BPNode)} {k : Int}
    {K : List Int} : KI P lo hi (o :: S) (k :: K) ↔ P lo (some k) o ∧ KI P (some k) hi S K := by
  cases S <;> simp [KI]

theorem KI_length : ∀ {S : List (Option BPNode)} {K : List Int} {lo hi : Option Int},
    KI P lo hi S K → S.length = K.length + 1 := by
  intro S
  induction S with
  | nil => intro K lo hi h; cases K <;> simp [KI] at h
  | cons o S ih =>
    intro K lo hi h
    cases K with
    | nil =>
      cases S with
      | nil => rfl
      | cons _ _ => simp [KI] at h
    | cons k K =>
      rw [KI_cons] at h
      simp [ih h.2]

theorem KPre_length : ∀ {S : List (Option BPNode)} {K : List Int} {lo : Option Int},
    KPre P lo S K → S.length = K.length := by
  intro S
  induction S with
  | nil => intro K lo h; cases K with
    | nil => rfl
    | cons _ _ => simp [KPre] at h
  | cons o S ih =>
    intro K lo h
    cases K with
    | nil => simp [KPre] at h
    | cons k K =>
      simp only [KPre] at h
      simp [ih h.2]

theorem lastOr_nil (lo : Option Int) : lastOr lo [] = lo := rfl

theorem lastOr_cons (lo : Option Int) (k : Int) (K : List Int) :
    lastOr lo (k :: K) = lastOr (some k) K := by
  cases K with
  | nil => rfl
  | cons a K =>
    simp only [lastOr, List.getLast?_cons_cons]
    rw [List.getLast?_eq_getLast _ (List.cons_ne_nil a K)]

theorem lastOr_snoc (lo : Option Int) (K : List Int) (k : Int) :
    lastOr lo (K ++ [k]) = some k := by
  simp [lastOr]

/-- The chain read at a child: the children and separators before it, the child with the
separators next to it as bounds, and what follows. -/
theorem KI_at : ∀ {S1 : List (Option BPNode)} {K1 : List Int} {lo hi : Option Int}
    {o : Option BPNode} {S2 : List (Option BPNode)} {K2 : List Int},
    S1.length = K1.length →
    (KI P lo hi (S1 ++ o :: S2) (K1 ++ K2) ↔
      KPre P lo S1 K1 ∧ P (lastOr lo K1) (headOr hi K2) o ∧ KPost P hi S2 K2) := by
  intro S1
  induction S1 with
  | nil =>
    intro K1 lo hi o S2 K2 hl
    have hK1 : K1 = [] := List.length_eq_zero.mp hl.symm
    subst hK1
    simp only [List.nil_append, KPre, lastOr_nil, true_and]
    cases K2 with
    | nil =>
      simp only [headOr, KPost]
      constructor
      · intro h
        have := KI_length h
        simp only [List.length_cons, List.length_nil, zero_add, Nat.add_eq_right,
          List.length_eq_zero] at this
        subst this
        exact ⟨KI_single.mp h, rfl⟩
      · rintro ⟨h, rfl⟩
        exact KI_single.mpr h
    | cons k K => simp only [headOr, KPost, KI_cons]
  | cons a S1 ih =>
    intro K1 lo hi o S2 K2 hl
    cases K1 with
    | nil => simp at hl
    | cons k K1 =>
      simp only [List.length_cons, Nat.add_right_cancel_iff] at hl
      simp only [List.cons_append, KI_cons, KPre, lastOr_cons, ih hl, and_assoc]

/-- Two chains that meet at a separator. -/
theorem KI_join : ∀ {Sl : List (Option BPNode)} {Kl : List Int} {lo hi : Option Int} {s : Int}
    {Sr : List (Option BPNode)} {Kr : List Int}, Sl.length = Kl.length + 1 →
    (KI P lo hi (Sl ++ Sr) (Kl ++ s :: Kr) ↔ KI P lo (some s) Sl Kl ∧ KI P (some s) hi Sr Kr) := by
  intro Sl
  induction Sl with
  | nil => intro Kl lo hi s Sr Kr hl; simp at hl
  | cons a Sl ih =>
    intro Kl lo hi s Sr Kr hl
    cases Kl with
    | nil =>
      simp only [List.length_cons, List.length_nil, zero_add, Nat.add_eq_right,
        List.length_eq_zero] at hl
      subst hl
      simp only [List.cons_append, List.nil_append, KI_cons, KI_single]
    | cons k Kl =>
      simp only [List.length_cons, Nat.add_right_cancel_iff] at hl
      simp only [List.cons_append, KI_cons, ih hl, and_assoc]

theorem KI_mono {Q : Option Int → Option Int → Option BPNode → Prop}
    (hPQ : ∀ l u o, P l u o → Q l u o) : ∀ {S : List (Option BPNode)} {K : List Int}
    {lo hi : Option Int}, KI P lo hi S K → KI Q lo hi S K := by
  intro S
  induction S with
  | nil => intro K lo hi h; cases K <;> simp [KI] at h
  | cons o S ih =>
    intro K lo hi h
    cases K with
    | nil =>
      have := KI_length h
      simp only [List.length_cons, List.length_nil, zero_add, Nat.add_eq_right,
        List.length_eq_zero] at this
      subst this
      exact KI_single.mpr (hPQ _ _ _ (KI_single.mp h))
    | cons k K =>
      rw [KI_cons] at h ⊢
      exact ⟨hPQ _ _ _ h.1, ih h.2⟩

/-- Every child of a chain satisfies `P` with some bounds. -/
theorem KI_mem : ∀ {S : List (Option BPNode)} {K : List Int} {lo hi : Option Int},
    KI P lo hi S K → ∀ o ∈ S, ∃ l u, P l u o := by
  intro S
  induction S with
  | nil => intro K lo hi h; cases K <;> simp [KI] at h
  | cons a S ih =>
    intro K lo hi h o ho
    cases K with
    | nil =>
      have := KI_length h
      simp only [List.length_cons, List.length_nil, zero_add, Nat.add_eq_right,
        List.length_eq_zero] at this
      subst this
      simp only [List.mem_singleton] at ho
      subst ho
      exact ⟨lo, hi, KI_single.mp h⟩
    | cons k K =>
      rw [KI_cons] at h
      rcases List.mem_cons.mp ho with rfl | ho
      · exact ⟨lo, some k, h.1⟩
      · exact ih h.2 o ho

end kidsAlgebra

section chainBounds
variable {P : Option Int → Option Int → Option BPNode → Prop}
variable {g : Option BPNode → List (Int × Int)}

/-- In a chain whose children hold keys within their bounds and have non-empty intervals, the
separators are strictly ascending and strictly inside the outer bounds, and all keys held are
within the outer bounds. -/
theorem KI_bounds
    (hP : ∀ l u o, P l u o → (∀ p ∈ g o, InB l u p.1) ∧
      (∀ a b, l = some a → u = some b → a < b)) :
    ∀ {S : List (Option BPNode)} {K : List Int} {lo hi : Option Int}, KI P lo hi S K →
      (∀ p ∈ S.flatMap g, InB lo hi p.1) ∧ (∀ a b, lo = some a → hi = some b → a < b) ∧
      K.Pairwise (· < ·) ∧ (∀ k ∈ K, InO lo hi k) := by
  intro S
  induction S with
  | nil => intro K lo hi h; cases K <;> simp [KI] at h
  | cons o S ih =>
    intro K lo hi h
    cases K with
    | nil =>
      have := KI_length h
      simp only [List.length_cons, List.length_nil, zero_add, Nat.add_eq_right,
        List.length_eq_zero] at this
      subst this
      obtain ⟨h1, h2⟩ := hP _ _ _ (KI_single.mp h)
      refine ⟨?_, h2, List.Pairwise.nil, fun k hk => by cases hk⟩
      intro p hp
      simp only [List.flatMap_cons, List.flatMap_nil, List.append_nil] at hp
      exact h1 p hp
    | cons k K =>
      rw [KI_cons] at h
      obtain ⟨h1, h2⟩ := hP _ _ _ h.1
      obtain ⟨r1, r2, r3, r4⟩ := ih h.2
      have hlk : ∀ a, lo = some a → a < k := fun a ha => h2 a k ha rfl
      have hkh : ∀ b, hi = some b → k < b := fun b hb => r2 k b rfl hb
      refine ⟨?_, ?_, ?_, ?_⟩
      · intro p hp
        simp only [List.flatMap_cons, List.mem_append] at hp
        rcases hp with hp | hp
        · obtain ⟨a1, a2⟩ := h1 p hp
          refine ⟨a1, fun b hb => ?_⟩
          have := a2 k rfl
          have := hkh b hb
          omega
        · obtain ⟨a1, a2⟩ := r1 p hp
          refine ⟨fun a ha => ?_, a2⟩
          have := a1 k rfl
          have := hlk a ha
          omega
      · intro a b ha hb
        have := hlk a ha
        have := hkh b hb
        omega
      · rw [List.pairwise_cons]
        exact ⟨fun y hy => (r4 y hy).1 k rfl, r3⟩
      · intro y hy
        rcases List.mem_cons.mp hy with rfl | hy
        · exact ⟨hlk, hkh⟩
        · obtain ⟨a1, a2⟩ := r4 y hy
          refine ⟨fun a ha => ?_, a2⟩
          have := a1 k rfl
          have := hlk a ha
          omega

/-- The keys held before a child are below every key that is not below the separators before
the child. -/
theorem KPre_lt (hP : ∀ l u o, P l u o → ∀ p ∈ g o, InB l u p.1) (k : Int) :
    ∀ {S : List (Option BPNode)} {K : List Int} {lo : Option Int}, KPre P lo S K →
      (∀ y ∈ K, y ≤ k) → ∀ p ∈ S.flatMap g, p.1 < k := by
  intro S
  induction S with
  | nil => intro K lo _ _ p hp; cases hp
  | cons o S ih =>
    intro K lo h hK p hp
    cases K with
    | nil => simp [KPre] at h
    | cons y K =>
      simp only [KPre] at h
      simp only [List.flatMap_cons, List.mem_append] at hp
      rcases hp with hp | hp
      · have := (hP _ _ _ h.1 p hp).2 y rfl
        have := hK y (List.mem_cons_self _ _)
        omega
      · exact ih h.2 (fun z hz => hK z (List.mem_cons_of_mem _ hz)) p hp

/-- The keys held in a chain that starts at the bound `a` are above every key below `a`. -/
theorem KI_gt (hP : ∀ l u o, P l u o → ∀ p ∈ g o, InB l u p.1) (k : Int) :
    ∀ {S : List (Option BPNode)} {K : List Int} {a : Int} {hi : Option Int},
      KI P (some a) hi S K → k < a → (∀ y ∈ K, k < y) → ∀ p ∈ S.flatMap g, k < p.1 := by
  intro S
  induction S with
  | nil => intro K a hi _ _ _ p hp; cases hp
  | cons o S ih =>
    intro K a hi h hlo hK p hp
    cases K with
    | nil =>
      have := KI_length h
      simp only [List.length_cons, List.length_nil, zero_add, Nat.add_eq_right,
        List.length_eq_zero] at this
      subst this
      simp only [List.flatMap_cons, List.flatMap_nil, List.append_nil] at hp
      have := (hP _ _ _ (KI_single.mp h) p hp).1 a rfl
      omega
    | cons y K =>
      rw [KI_cons] at h
      simp only [List.flatMap_cons, List.mem_append] at hp
      rcases hp with hp | hp
      · have := (hP _ _ _ h.1 p hp).1 a rfl
        omega
      · exact ih h.2 (hK _ (List.mem_cons_self _ _))
          (fun z hz => hK z (List.mem_cons_of_mem _ hz)) p hp

/-- The keys held after a child are above every key below the separators after the child. -/
theorem KPost_gt (hP : ∀ l u o, P l u o → ∀ p ∈ g o, InB l u p.1) (k : Int)
    {S : List (Option BPNode)} {K : List Int} {hi : Option Int} (h : KPost P hi S K)
    (hK : ∀ y ∈ K, k < y) : ∀ p ∈ S.flatMap g, k < p.1 := by
  cases K with
  | nil =>
    simp only [KPost] at h
    subst h
    intro p hp; cases hp
  | cons y K =>
    simp only [KPost] at h
    exact KI_gt hP k h (hK _ (List.mem_cons_self _ _))
      (fun z hz => hK z (List.mem_cons_of_mem _ hz))

end chainBounds

namespace BPlusTree

theorem BInv_internal {d : Int} {h : Nat} {lo hi : Option Int} {n : Int} {key : List Int}
    {c : List (Option BPNode)} :
    BInv d (h + 1) lo hi (.internal n key c) ↔
      ((key.length : Int) = 2 * d - 1 ∧ (c.length : Int) = 2 * d ∧ 1 ≤ n ∧ n ≤ 2 * d - 1 ∧
        KI (Kid d h) lo hi (view c (n + 1)) (view key n)) := by
  simp only [BInv]
  rfl

theorem BInv_leaf {d : Int} {lo hi : Option Int} {x : LeafNode} :
    BInv d 0 lo hi (.leaf x) ↔ x.Inv d lo hi := by
  simp only [BInv]

theorem contents_internal (h : Nat) (n : Int) (key : List Int) (c : List (Option BPNode)) :
    contents (h + 1) (some (.internal n key c)) = (view c (n + 1)).flatMap (contents h) := rfl

/-- The keys held under a B+ tree lie within its bounds, and the bounds of a tree that holds a
key in its key array are apart. -/
theorem BInv.facts (d : Int) (hd : 2 ≤ d) : ∀ (h : Nat) (lo hi : Option Int) (x : BPNode),
    BInv d h lo hi x → (∀ p ∈ contents h (some x), InB lo hi p.1) ∧
      (1 ≤ x.n → ∀ a b, lo = some a → hi = some b → a < b) := by
  intro h
  induction h with
  | zero =>
    intro lo hi x hI
    cases x with
    | internal n key c => simp [BInv] at hI
    | leaf x =>
      rw [BInv_leaf] at hI
      obtain ⟨hS, _, _, _, hb⟩ := hI
      refine ⟨hb, ?_⟩
      intro hn a b ha hb'
      obtain ⟨s1, s2, s3, s4, s5, s6, s7, s8⟩ := hS
      have hn' : 1 ≤ x.n := hn
      have hl := x.kvs_len s5 (by omega) (by omega)
      have h0 : 0 < x.kvs.length := by rw [hl]; omega
      have hm : x.kvs[0] ∈ x.pairs := List.mem_append_left _ (List.getElem_mem h0)
      obtain ⟨b1, b2⟩ := hb _ hm
      have := b1 a ha
      have := b2 b hb'
      omega
  | succ h ih =>
    intro lo hi x hI
    cases x with
    | leaf x => simp [BInv] at hI
    | internal n key c =>
      rw [BInv_internal] at hI
      obtain ⟨_, _, _, _, hK⟩ := hI
      have hP : ∀ l u o, Kid d h l u o → (∀ p ∈ contents h o, InB l u p.1) ∧
          (∀ a b, l = some a → u = some b → a < b) := by
        rintro l u o ⟨ch, rfl, hc, hn⟩
        obtain ⟨f1, f2⟩ := ih l u ch hc
        exact ⟨f1, f2 (by omega)⟩
      obtain ⟨r1, r2, _, _⟩ := KI_bounds hP hK
      exact ⟨r1, fun _ => r2⟩

theorem Kid.kid_facts {d : Int} (hd : 2 ≤ d) {h : Nat} {l u : Option Int} {o : Option BPNode}
    (hk : Kid d h l u o) : (∀ p ∈ contents h o, InB l u p.1) ∧
      (∀ a b, l = some a → u = some b → a < b) := by
  obtain ⟨ch, rfl, hc, hn⟩ := hk
  obtain ⟨f1, f2⟩ := BInv.facts d hd h l u ch hc
  exact ⟨f1, f2 (by omega)⟩

/-- The keys of an Internal node of a B+ tree are strictly ascending. -/
theorem BInv.keys_sorted {d : Int} (hd : 2 ≤ d) {h : Nat} {lo hi : Option Int} {n : Int}
    {key : List Int} {c : List (Option BPNode)} (hI : BInv d (h + 1) lo hi (.internal n key c)) :
    (view key n).Pairwise (· < ·) ∧ ∀ k ∈ view key n, InO lo hi k := by
  rw [BInv_internal] at hI
  obtain ⟨_, _, _, _, hK⟩ := hI
  obtain ⟨_, _, r3, r4⟩ := KI_bounds (g := contents h) (fun l u o hk => Kid.kid_facts hd hk) hK
  exact ⟨r3, r4⟩

/-- A chain split where the separators are split. -/
theorem kids_at {S : List (Option BPNode)} {K K1 K2 : List Int} (hl : S.length = K.length + 1)
    (hK : K = K1 ++ K2) : ∃ S1 o S2, S = S1 ++ o :: S2 ∧ S1.length = K1.length := by
  have hlt : K1.length < S.length := by rw [hl, hK, List.length_append]; omega
  exact ⟨S.take K1.length, S[K1.length], S.drop (K1.length + 1), by simp,
    by rw [List.length_take]; omega⟩

/-- The child of an Internal node at the place where its keys are split into `K1 ++ K2`. -/
theorem BInv.child {d : Int} {h : Nat} {lo hi : Option Int} {n : Int}
    {key : List Int} {c : List (Option BPNode)} {K1 K2 : List Int}
    (hI : BInv d (h + 1) lo hi (.internal n key c)) (hK : view key n = K1 ++ K2) :
    ∃ S1 ch S2, view c (n + 1) = S1 ++ some ch :: S2 ∧ S1.length = K1.length ∧
      rd c (K1.length : Int) = .ok (some ch) ∧ (K1.length : Int) ≤ n ∧
      BInv d h (lastOr lo K1) (headOr hi K2) ch ∧ d - 1 ≤ ch.n ∧
      KPre (Kid d h) lo S1 K1 ∧ KPost (Kid d h) hi S2 K2 := by
  rw [BInv_internal] at hI
  obtain ⟨h1, h2, h3, h4, hKI⟩ := hI
  obtain ⟨S1, o, S2, hS, hl⟩ := kids_at (KI_length hKI) hK
  rw [hS, hK, KI_at hl] at hKI
  obtain ⟨hpre, ⟨ch, rfl, hc, hn⟩, hpost⟩ := hKI
  have hvl : (view key n).length = n.toNat := view_length _ _ (by omega) (by omega)
  have hle : (K1.length : Int) ≤ n := by
    have := congrArg List.length hK
    rw [hvl, List.length_append] at this
    omega
  refine ⟨S1, ch, S2, hS, hl, ?_, hle, hc, hn, hpre, hpost⟩
  apply rd_view (n := n + 1) (by omega) (by omega)
  rw [hS, Int.toNat_ofNat, ← hl]
  exact getElem_explicit _ _ _ _ rfl

/-- Source `putChild`: storing a child back in its slot. -/
theorem putChild_run {n : Int} (key : List Int) {c : List (Option BPNode)}
    {S1 S2 : List (Option BPNode)} {o : Option BPNode} (ch : BPNode)
    (hS : view c (n + 1) = S1 ++ o :: S2) :
    ∃ c', (BPNode.internal n key c).putChild (S1.length : Int) ch = .ok (.internal n key c') ∧
      c'.length = c.length ∧ view c' (n + 1) = S1 ++ some ch :: S2 ∧
      wr c (S1.length : Int) (some ch) = .ok c' := by
  have hlen : S1.length < c.length := by
    have := congrArg List.length hS
    unfold view at this
    simp only [List.length_take, List.length_append, List.length_cons] at this
    omega
  have w := wr_ok (a := c) (some ch) (i := (S1.length : Int)) (by omega) (by omega)
  refine ⟨c.set S1.length (some ch), ?_, by simp, ?_, by simpa using w⟩
  · simp only [BPNode.putChild, BPNode.asInternal, Except.ok_bind, w, Except.pure_eq_ok,
      InternalNode.toNode, Int.toNat_ofNat]
  · have := view_set_inside c (n + 1) (S1.length : Int) (some ch)
    rw [Int.toNat_ofNat] at this
    rw [this, hS, set_explicit _ _ _ _ _ rfl]

end BPlusTree

namespace LeafNode

/-- The index `_get_key_index` gives on the main page of a leaf that holds a key: it is in range, and
the key is in the main page only if it is the one at this index. -/
theorem find (x : LeafNode) (k : Int) (h0 : 1 ≤ x.n) (h1 : x.n ≤ x.key.length)
    (h2 : x.n ≤ x.val.length) (hs : StrictKV x.kvs) :
    ∃ i p, x.toNode._get_key_index k = .ok i ∧ 0 ≤ i ∧ i < x.n ∧ x.kvs[i.toNat]? = some p ∧
      rd x.key i = .ok p.1 ∧ rd x.val i = .ok p.2 ∧ (p.1 ≠ k → k ∉ x.kvs.map Prod.fst) := by
  obtain ⟨i0, e0, a0, a1, a2, a3⟩ := get_key_index_run (.leaf x) k (by simpa [BPNode.n] using (by omega : 0 ≤ x.n))
    (by simpa [BPNode.n, BPNode.key] using h1)
  simp only [BPNode.n, BPNode.key] at e0 a0 a1 a2 a3
  have hi : ∃ i, i = (if i0 ≤ x.n - 1 then i0 else x.n - 1) ∧ 0 ≤ i ∧ i < x.n := by
    refine ⟨_, rfl, ?_, ?_⟩ <;> split <;> omega
  obtain ⟨i, hie, hi0, hi1⟩ := hi
  obtain ⟨ka, va, r1, r2, r3⟩ := pair_at x.key x.val x.n i hi0 hi1 h1 h2
  have hkv : x.kvs[i.toNat]? = some (ka, va) := by
    have : (x.kvs.drop i.toNat)[0]? = some (ka, va) := by
      unfold kvs; rw [r3]; simp
    rw [List.getElem?_drop] at this
    simpa using this
  have hfst := x.kvs_keys (by omega) h1 h2
  have hsort : (view x.key x.n).Pairwise (· < ·) := by
    rw [← hfst]; exact List.pairwise_map.mpr hs
  have hka : (view x.key x.n)[i.toNat]? = some ka := view_rd hi1 r1
  refine ⟨i, (ka, va), ?_, hi0, hi1, hkv, r1, r2, ?_⟩
  · rw [hie]; exact e0
  · intro hne hmem
    simp only at hne
    rw [hfst] at hmem
    obtain ⟨j, hj, hjk⟩ := List.getElem_of_mem hmem
    have hvl : (view x.key x.n).length = x.n.toNat := view_length _ _ (by omega) h1
    by_cases hc : i0 ≤ x.n - 1
    · rw [if_pos hc] at hie
      subst hie
      have hge := a3 ka hka
      have hlt : k < ka := by omega
      rcases Nat.lt_trichotomy j i.toNat with hji | hji | hji
      · have : (view x.key x.n)[j] ∈ (view x.key x.n).take i.toNat := by
          rw [List.mem_take_iff_getElem]
          exact ⟨j, by omega, rfl⟩
        have := a2 _ this
        omega
      · subst hji
        rw [List.getElem?_eq_getElem hj] at hka
        simp only [Option.some.injEq] at hka
        omega
      · have hd := pairwise_drop_gt hsort hka
        have : (view x.key x.n)[j] ∈ (view x.key x.n).drop (i.toNat + 1) := by
          rw [List.mem_drop_iff_getElem]
          exact ⟨j - (i.toNat + 1), by omega, by congr 1; omega⟩
        have := hd _ this
        omega
    · have hi0n : i0 = x.n := by omega
      have : (view x.key x.n)[j] ∈ (view x.key x.n).take i0.toNat := by
        rw [List.mem_take_iff_getElem]
        exact ⟨j, by omega, rfl⟩
      have := a2 _ this
      omega

end LeafNode

namespace BPlusTree

theorem contents_at {h : Nat} {n : Int} {key : List Int} {c : List (Option BPNode)}
    {S1 S2 : List (Option BPNode)} {o : Option BPNode} (hS : view c (n + 1) = S1 ++ o :: S2) :
    contents (h + 1) (some (.internal n key c)) =
      S1.flatMap (contents h) ++ (contents h o ++ S2.flatMap (contents h)) := by
  rw [contents_internal, hS, List.flatMap_append, List.flatMap_cons]

/-- A key routed to a child lies within the bounds of that child. -/
theorem route_bounds {lo hi : Option Int} {k : Int} {K1 K2 : List Int} (hb : InB lo hi k)
    (h1 : ∀ y ∈ K1, y ≤ k) (h2 : ∀ y ∈ K2, k < y) : InB (lastOr lo K1) (headOr hi K2) k := by
  constructor
  · intro a ha
    rcases List.eq_nil_or_concat K1 with e | ⟨K, y, e⟩
    · subst e; exact hb.1 a ha
    · subst e
      rw [List.concat_eq_append, lastOr_snoc] at ha
      simp only [Option.some.injEq] at ha
      subst ha
      exact h1 _ (by simp)
  · intro b hb'
    cases K2 with
    | nil => exact hb.2 b hb'
    | cons y K =>
      simp only [headOr, Option.some.injEq] at hb'
      subst hb'
      exact h2 _ (by simp)

/-- Source `BPlusTree::_search` on a leaf that holds a key. -/
theorem search_leaf (d : Int) (k : Int) (f : Nat) (lo hi : Option Int) (x : LeafNode)
    (hI : x.Inv d lo hi) (hne : 1 ≤ x.n + x.overflow_n) :
    ∃ x' res, _search (f + 1) (some (.leaf x)) k = .ok (some (.leaf x'), res) ∧
      x._load_overflow = .ok x' ∧ x'.Inv d lo hi ∧ x'.overflow_n = 0 ∧
      x'.n = x.n + x.overflow_n ∧ x'.pairs.Perm x.pairs ∧
      (∀ v, res = some v → (k, v) ∈ x.pairs) ∧ (res = none → k ∉ x.pairs.map Prod.fst) := by
  obtain ⟨x', E, hI', on', n', hp', hpe⟩ := hI.load
  have hI2 := hI'
  obtain ⟨hS, _, hs, _, _⟩ := hI'
  obtain ⟨s1, s2, s3, s4, s5, s6, s7, s8⟩ := hS
  obtain ⟨i, p, e1, i0, i1, e2, e3, e4, e5⟩ := x'.find k (by omega) (by omega) (by omega) hs
  have hmem : p ∈ x.pairs := by
    apply hp'.mem_iff.mp
    rw [hpe]
    exact List.mem_iff_getElem?.mpr ⟨_, e2⟩
  simp only [LeafNode.toNode] at e1
  by_cases hk : k = p.1
  · subst hk
    refine ⟨x', some p.2, ?_, E, hI2, on', n', hp', ?_, ?_⟩
    · simp only [_search, BPNode.leaf_, if_true, ite_true, BPNode.asLeaf, Except.ok_bind, E, e1,
        i1, e3, e4, Except.pure_eq_ok, LeafNode.toNode]
    · intro v hv
      simp only [Option.some.injEq] at hv
      subst hv
      exact hmem
    · intro h; exact absurd h (by simp)
  · refine ⟨x', none, ?_, E, hI2, on', n', hp', ?_, ?_⟩
    · simp only [_search, BPNode.leaf_, if_true, ite_true, BPNode.asLeaf, Except.ok_bind, E, e1,
        i1, e3, hk, if_false, ite_false, Except.pure_eq_ok, LeafNode.toNode]
    · intro v h; exact absurd h (by simp)
    · intro _ hmem'
      have : k ∈ x'.kvs.map Prod.fst := by
        rw [← hpe]
        exact (hp'.map Prod.fst).mem_iff.mpr hmem'
      exact e5 (fun h => hk h.symm) this

end BPlusTree

namespace BPlusTree

/-- Replacing the child of an Internal node by one that fits the same bounds. -/
theorem BInv.put {d : Int} {h : Nat} {lo hi : Option Int} {n : Int} {key : List Int}
    {c c' : List (Option BPNode)} {K1 K2 : List Int} {S1 S2 : List (Option BPNode)}
    {o : Option BPNode} {ch' : BPNode}
    (hI : BInv d (h + 1) lo hi (.internal n key c)) (hK : view key n = K1 ++ K2)
    (hS : view c (n + 1) = S1 ++ o :: S2) (hl : S1.length = K1.length)
    (hc' : view c' (n + 1) = S1 ++ some ch' :: S2) (hlen : c'.length = c.length)
    (hch : BInv d h (lastOr lo K1) (headOr hi K2) ch') (hn : d - 1 ≤ ch'.n) :
    BInv d (h + 1) lo hi (.internal n key c') := by
  rw [BInv_internal] at hI ⊢
  obtain ⟨h1, h2, h3, h4, hKI⟩ := hI
  rw [hS, hK, KI_at hl] at hKI
  refine ⟨h1, by rw [hlen]; exact h2, h3, h4, ?_⟩
  rw [hc', hK, KI_at hl]
  exact ⟨hKI.1, ⟨ch', rfl, hch, hn⟩, hKI.2.2⟩

theorem get_key_index_c (n : Int) (key : List Int) (c c' : List (Option BPNode)) (k : Int) :
    (BPNode.internal n key c)._get_key_index k = (BPNode.internal n key c')._get_key_index k := rfl

theorem get_child_index_c (n : Int) (key : List Int) (c c' : List (Option BPNode)) (k i : Int) :
    (⟨n, key, c⟩ : InternalNode)._get_child_index k i =
      (⟨n, key, c'⟩ : InternalNode)._get_child_index k i := rfl

theorem Kid.keys {d : Int} (hd : 2 ≤ d) {h : Nat} (l u : Option Int) (o : Option BPNode)
    (hk : Kid d h l u o) : ∀ p ∈ contents h o, InB l u p.1 := (Kid.kid_facts hd hk).1

/-- Source `BPlusTree::_search` on a B+ tree that holds a key: the tree it leaves is a B+ tree with
the same pairs in which the leaf on the path of `k` is flushed, and the result is the value
stored with `k`, if any. -/
theorem bp_search_spec (d : Int) (hd : 2 ≤ d) (k : Int) : ∀ (h f : Nat) (lo hi : Option Int)
    (p : BPNode), h + 1 ≤ f → BInv d h lo hi p → (∀ x, p = .leaf x → 1 ≤ x.n + x.overflow_n) →
    ∃ p' res, _search f (some p) k = .ok (some p', res) ∧ BInv d h lo hi p' ∧
      (contents h (some p')).Perm (contents h (some p)) ∧ p.n ≤ p'.n ∧ PathFlushed k h p' ∧
      (∀ v, res = some v → (k, v) ∈ contents h (some p)) ∧
      (res = none → k ∉ (contents h (some p)).map Prod.fst) := by
  intro h
  induction h with
  | zero =>
    intro f lo hi p hf hI hne
    obtain ⟨f, rfl⟩ : ∃ g, f = g + 1 := ⟨f - 1, by omega⟩
    cases p with
    | internal n key c => simp [BInv] at hI
    | leaf x =>
      rw [BInv_leaf] at hI
      obtain ⟨x', res, E, _, hI', on', n', hp', r1, r2⟩ := search_leaf d k f lo hi x hI (hne x rfl)
      refine ⟨.leaf x', res, E, BInv_leaf.mpr hI', hp', ?_, on', r1, r2⟩
      simp only [BPNode.n]
      have := hI.1.2.2.2.2.2.1
      omega
  | succ h ih =>
    intro f lo hi p hf hI hne
    obtain ⟨f, rfl⟩ : ∃ g, f = g + 1 := ⟨f - 1, by omega⟩
    cases p with
    | leaf x => simp [BInv] at hI
    | internal n key c =>
      obtain ⟨hsort, _⟩ := hI.keys_sorted hd
      have hI0 := hI
      rw [BInv_internal] at hI0
      obtain ⟨k1, k2, k3, k4, hKI⟩ := hI0
      obtain ⟨ki, ci, K1, K2, e1, e2, hK, hci, r1, r2, _, _⟩ :=
        InternalNode.routing n key c k k3 (by omega) hsort
      obtain ⟨S1, ch, S2, hS, hl, hrd, hle, hch, hchn, hpre, hpost⟩ := hI.child hK
      have hocc : ∀ x, ch = .leaf x → 1 ≤ x.n + x.overflow_n := by
        intro x hx
        subst hx
        cases h with
        | zero =>
          rw [BInv_leaf] at hch
          have := hch.1.2.2.2.2.2.1
          simp only [BPNode.n] at hchn
          omega
        | succ h => simp [BInv] at hch
      obtain ⟨ch', res, E, hch', hperm, hn', hpf, q1, q2⟩ :=
        ih f (lastOr lo K1) (headOr hi K2) ch (by omega) hch hocc
      obtain ⟨c', _, hlen, hc', hwr⟩ := putChild_run key ch' hS
      rw [hl, ← hci] at hwr
      rw [← hci] at hrd
      have hrd' : rd c' ci = .ok (some ch') := by
        apply rd_view (n := n + 1) (by omega) (by omega)
        rw [hc', hci, Int.toNat_ofNat]
        exact getElem_explicit _ _ _ _ (by omega)
      refine ⟨.internal n key c', res, ?_, hI.put hK hS hl hc' hlen hch' (by omega), ?_,
        le_refl _, ?_, ?_, ?_⟩
      · simp only [_search, BPNode.leaf_, Bool.false_eq_true, if_false, ite_false,
          BPNode.asInternal, Except.ok_bind, Except.pure_eq_ok, e1, e2, hrd, E, hwr,
          InternalNode.toNode]
      · rw [contents_at hS, contents_at hc']
        exact List.Perm.append_left _ (List.Perm.append_right _ hperm)
      · intro ki' ci' ch'' a1 a2 a3
        rw [get_key_index_c n key c' c, e1] at a1
        simp only [Except.ok.injEq] at a1
        subst a1
        rw [get_child_index_c n key c' c, e2] at a2
        simp only [Except.ok.injEq] at a2
        subst a2
        rw [hrd'] at a3
        simp only [Except.ok.injEq, Option.some.injEq] at a3
        subst a3
        exact hpf
      · intro v hv
        rw [contents_at hS]
        exact List.mem_append_right _ (List.mem_append_left _ (q1 v hv))
      · intro hv
        rw [contents_at hS]
        simp only [List.map_append, List.mem_append, not_or]
        refine ⟨?_, q2 hv, ?_⟩
        · intro hm
          obtain ⟨q, hq, hqk⟩ := List.mem_map.mp hm
          have := KPre_lt (g := contents h) (Kid.keys hd) k hpre r1 q hq
          omega
        · intro hm
          obtain ⟨q, hq, hqk⟩ := List.mem_map.mp hm
          have := KPost_gt (g := contents h) (Kid.keys hd) k hpost r2 q hq
          omega

end BPlusTree

/-- A sequenced computation that succeeds had a first step that succeeded. -/
theorem bind_ok {α β : Type} {x : Except Err α} {f : α → Except Err β} {b : β}
    (h : (x >>= f) = .ok b) : ∃ a, x = .ok a ∧ f a = .ok b := by
  rcases x with e | a
  · rw [Except.error_bind] at h
    exact Except.noConfusion h
  · exact ⟨a, rfl, h⟩

theorem wr_same {α : Type} {a a' : List α} {i : Int} {x : α} (h1 : rd a i = .ok x)
    (h2 : wr a i x = .ok a') : a' = a := by
  obtain ⟨h0, hg⟩ := rd_ok_iff.mp h1
  simp only [wr] at h2
  split at h2
  · exact absurd h2 (by simp)
  · simp only [Except.ok.injEq] at h2
    rw [← h2]
    apply List.ext_getElem? 
    intro j
    by_cases e : i.toNat = j
    · subst e
      rw [List.getElem?_set_self (by
        have := List.getElem?_eq_some_iff.mp hg
        exact this.1), hg]
    · rw [List.getElem?_set_ne e]

namespace BPlusTree

/-- Source `LeafNode::_load_overflow` leaves no entry in the overflow block. -/
theorem load_overflow_n {x y : LeafNode} (h : x._load_overflow = .ok y) : y.overflow_n = 0 := by
  simp only [LeafNode._load_overflow] at h
  by_cases h0 : x.overflow_n = 0
  · simp only [h0, if_true, ite_true, Except.pure_eq_ok, Except.ok.injEq] at h
    rw [← h]; exact h0
  · simp only [h0, if_false, ite_false, Except.pure_eq_ok, Except.ok_bind] at h
    obtain ⟨a, _, h⟩ := bind_ok h
    obtain ⟨b, _, h⟩ := bind_ok h
    simp only [Except.ok.injEq] at h
    rw [← h]

/-- Source `LeafNode::_load_overflow` on a leaf with an empty overflow block changes nothing. -/
theorem load_overflow_empty (x : LeafNode) (h : x.overflow_n = 0) : x._load_overflow = .ok x := by
  simp only [LeafNode._load_overflow, h, if_true, ite_true]
  rfl

/-- Source `BPlusTree::_search` changes the tree only by flushing the leaf it reaches. -/
theorem search_flushes : ∀ (fuel : Nat) (p : BPNode) (k : Int) (p' : Option BPNode)
    (res : Option Int), _search fuel (some p) k = .ok (p', res) → ∃ q, p' = some q ∧ Flushed k p q := by
  intro fuel
  induction fuel with
  | zero => intro p k p' res h; exact absurd h (by simp [_search])
  | succ f ih =>
    intro p k p' res h
    cases p with
    | leaf x =>
      simp only [_search, BPNode.leaf_, if_true, ite_true, BPNode.asLeaf, Except.ok_bind] at h
      obtain ⟨y, hy, h⟩ := bind_ok h
      obtain ⟨i, hi, h⟩ := bind_ok h
      refine ⟨.leaf y, ?_, Flushed.leaf x y hy⟩
      by_cases h1 : i < y.n
      · simp only [h1, if_true, ite_true] at h
        obtain ⟨ki, hki, h⟩ := bind_ok h
        by_cases h2 : k = ki
        · simp only [h2, if_true, ite_true] at h
          obtain ⟨v, hv, h⟩ := bind_ok h
          simp only [Except.pure_eq_ok, Except.ok_bind, Except.ok.injEq, Prod.mk.injEq] at h
          exact h.1.symm
        · simp only [h2, if_false, ite_false, Except.pure_eq_ok, Except.ok_bind, Except.ok.injEq,
            Prod.mk.injEq] at h
          exact h.1.symm
      · simp only [h1, if_false, ite_false, Except.pure_eq_ok, Except.ok_bind, Except.ok.injEq,
          Prod.mk.injEq] at h
        exact h.1.symm
    | internal n key c =>
      simp only [_search, BPNode.leaf_, Bool.false_eq_true, if_false, ite_false,
        BPNode.asInternal, Except.ok_bind, Except.pure_eq_ok] at h
      obtain ⟨i, hi, h⟩ := bind_ok h
      obtain ⟨ci, hci, h⟩ := bind_ok h
      obtain ⟨c0, hc0, h⟩ := bind_ok h
      obtain ⟨⟨c1, r1⟩, hc1, h⟩ := bind_ok h
      obtain ⟨c', hc', h⟩ := bind_ok h
      simp only [Except.pure_eq_ok, Except.ok.injEq, Prod.mk.injEq] at h
      obtain ⟨h1, h2⟩ := h
      subst h1
      cases c0 with
      | none =>
        cases f with
        | zero => exact absurd hc1 (by simp [_search])
        | succ g =>
          simp only [_search, Except.pure_eq_ok, Except.ok.injEq, Prod.mk.injEq] at hc1
          obtain ⟨e1, _⟩ := hc1
          subst e1
          have := wr_same hc0 hc'
          subst this
          exact ⟨_, rfl, Flushed.nullChild n key _ i ci hi hci hc0⟩
      | some q =>
        obtain ⟨q', e, hF⟩ := ih q k c1 r1 hc1
        subst e
        exact ⟨_, rfl, Flushed.child n key c c' i ci q q' hi hci hc0 hF hc'⟩

/-- The change described by `Flushed k` is determined by the node and the key. -/
theorem flushed_unique {k : Int} {p q : BPNode} (h : Flushed k p q) :
    ∀ q', Flushed k p q' → q' = q := by
  induction h with
  | leaf x y hy =>
    intro q' h'
    cases h' with
    | leaf _ y' hy' =>
      rw [hy] at hy'
      simp only [Except.ok.injEq] at hy'
      rw [hy']
  | child n key c c' i ci q0 q1 hi hci hc hF hw ih =>
    intro q' h'
    cases h' with
    | child _ _ _ c2 i2 ci2 q2 q3 hi2 hci2 hc2 hF2 hw2 =>
      rw [hi] at hi2
      simp only [Except.ok.injEq] at hi2
      subst hi2
      rw [hci] at hci2
      simp only [Except.ok.injEq] at hci2
      subst hci2
      rw [hc] at hc2
      simp only [Except.ok.injEq, Option.some.injEq] at hc2
      subst hc2
      have e := ih q3 hF2
      subst e
      rw [hw] at hw2
      simp only [Except.ok.injEq] at hw2
      rw [hw2]
    | nullChild _ _ _ i2 ci2 hi2 hci2 hc2 =>
      rw [hi] at hi2
      simp only [Except.ok.injEq] at hi2
      subst hi2
      rw [hci] at hci2
      simp only [Except.ok.injEq] at hci2
      subst hci2
      rw [hc] at hc2
      simp at hc2
  | nullChild n key c i ci hi hci hc =>
    intro q' h'
    cases h' with
    | child _ _ _ c2 i2 ci2 q2 q3 hi2 hci2 hc2 hF2 hw2 =>
      rw [hi] at hi2
      simp only [Except.ok.injEq] at hi2
      subst hi2
      rw [hci] at hci2
      simp only [Except.ok.injEq] at hci2
      subst hci2
      rw [hc] at hc2
      simp at hc2
    | nullChild _ _ _ i2 ci2 hi2 hci2 hc2 => rfl

end BPlusTree

theorem view_view {α : Type} (a : List α) (m n : Int) (h : m ≤ n) :
    view a m = (view a n).take m.toNat := by
  unfold view
  rw [List.take_take]
  congr 1
  omega

theorem view_drop_take {α : Type} (a : List α) (s c : Int) (hs : 0 ≤ s) (hc : 0 ≤ c) :
    (a.drop s.toNat).take c.toNat = (view a (s + c)).drop s.toNat := by
  unfold view
  rw [List.drop_take]
  congr 1
  omega

theorem zip_take {α β : Type} (l1 : List α) (l2 : List β) (n : Nat) :
    (l1.take n).zip (l2.take n) = (l1.zip l2).take n := by
  unfold List.zip
  rw [List.take_zipWith]

theorem zip_drop {α β : Type} (l1 : List α) (l2 : List β) (n : Nat) :
    (l1.drop n).zip (l2.drop n) = (l1.zip l2).drop n := by
  unfold List.zip
  rw [List.drop_zipWith]

namespace InternalNode

/-- The parent's part of a split: the separator and the new right node enter after the slot of
the node that is split. -/
theorem parent_insert (d : Int) (n : Int) (key : List Int) (c : List (Option BPNode))
    (K1 K2 : List Int) (S1 S2 : List (Option BPNode)) (o : Option BPNode)
    (hkl : (key.length : Int) = 2 * d - 1) (hcl : (c.length : Int) = 2 * d) (hn0 : 0 ≤ n)
    (hn : n < 2 * d - 1) (hK : view key n = K1 ++ K2) (hS : view c (n + 1) = S1 ++ o :: S2)
    (hl : S1.length = K1.length) (s : Int) (b : BPNode) :
    ∃ key' c', (⟨n, key, c⟩ : InternalNode)._insert s (K1.length : Int) (some b) (K1.length + 1)
        = .ok ⟨n + 1, key', c'⟩ ∧ (key'.length : Int) = 2 * d - 1 ∧ (c'.length : Int) = 2 * d ∧
      view key' (n + 1) = K1 ++ s :: K2 ∧ view c' (n + 1 + 1) = S1 ++ o :: some b :: S2 ∧
      rd key' (K1.length : Int) = .ok s := by
  have hvl : (view key n).length = n.toNat := view_length _ _ hn0 (by omega)
  have hK1 : (K1.length : Int) ≤ n := by
    have := congrArg List.length hK
    rw [hvl, List.length_append] at this
    omega
  obtain ⟨x', E, e1, e2, e3, e4, e5⟩ := insert_run ⟨n, key, c⟩ s (K1.length : Int) (some b)
    (K1.length + 1) hn0 (by simp only; omega) (by simp only; omega) (by omega) hK1 (by omega)
    (by simp only; omega)
  obtain ⟨n', key', c'⟩ := x'
  simp only at e1 e2 e3 e4 e5
  subst e1
  rw [hK] at e4
  rw [hS] at e5
  have t1 : (K1.length : Int).toNat = K1.length := Int.toNat_ofNat _
  have t2 : ((K1.length : Int) + 1).toNat = S1.length + 1 := by omega
  rw [t1, List.take_left, List.drop_left] at e4
  rw [t2] at e5
  have e5' : view c' (n + 1 + 1) = S1 ++ o :: some b :: S2 := by
    rw [e5]
    have a1 : List.take (S1.length + 1) (S1 ++ o :: S2) = S1 ++ [o] := by
      rw [List.take_append_eq_append_take]
      simp
    have a2 : List.drop (S1.length + 1) (S1 ++ o :: S2) = S2 := by
      rw [List.drop_append_eq_append_drop]
      simp
    rw [a1, a2]
    simp
  refine ⟨key', c', E, by omega, by omega, e4, e5', ?_⟩
  apply rd_view (n := n + 1) (by omega) (by omega)
  rw [e4, t1]
  exact getElem_explicit _ _ _ _ rfl

end InternalNode

namespace LeafNode

theorem leaf_new_key_length (d : Int) (hd : 2 ≤ d) : ((LeafNode.new d).key.length : Int) = 2 * d - 1 := by
  simp only [LeafNode.new, List.length_replicate]; omega

theorem new_val_length (d : Int) (hd : 2 ≤ d) : ((LeafNode.new d).val.length : Int) = 2 * d - 1 := by
  simp only [LeafNode.new, List.length_replicate]; omega

/-- Source `LeafNode::_split` on a full leaf: the first `d - 1` pairs stay, the last `d` go to the
new right leaf, whose first key becomes the separator. -/
theorem leaf_split_spec (d : Int) (hd : 2 ≤ d) (l u : Option Int) (x : LeafNode)
    (hI : x.Inv d l u) (hfull : x.n = 2 * d - 1) (n : Int) (key : List Int)
    (c : List (Option BPNode)) (K1 K2 : List Int) (S1 S2 : List (Option BPNode))
    (o : Option BPNode) (hkl : (key.length : Int) = 2 * d - 1) (hcl : (c.length : Int) = 2 * d)
    (hn0 : 0 ≤ n) (hn : n < 2 * d - 1) (hK : view key n = K1 ++ K2)
    (hS : view c (n + 1) = S1 ++ o :: S2) (hl : S1.length = K1.length) :
    ∃ a b s key' c', x._split d (.internal n key c) (K1.length : Int)
        = .ok (a, .internal (n + 1) key' c') ∧
      (key'.length : Int) = 2 * d - 1 ∧ (c'.length : Int) = 2 * d ∧
      view key' (n + 1) = K1 ++ s :: K2 ∧ view c' (n + 1 + 1) = S1 ++ o :: some (.leaf b) :: S2 ∧
      rd key' (K1.length : Int) = .ok s ∧ a.Inv d l (some s) ∧ b.Inv d (some s) u ∧
      a.n = d - 1 ∧ b.n = d ∧ a.overflow_n = 0 ∧ b.overflow_n = 0 ∧
      a.pairs ++ b.pairs = x.pairs := by
  obtain ⟨hS0, hov1, hs, hnd, hb⟩ := hI
  obtain ⟨s1, s2, s3, s4, s5, s6, s7, s8⟩ := hS0
  have hov : x.overflow_n = 0 := by omega
  obtain ⟨rk, ek, lk, vk⟩ := copyRange_spec (LeafNode.new d).key x.key d 0 (d - 1) (by omega)
    (by omega) (by omega) (by rw [leaf_new_key_length d hd]; omega) (by omega)
  obtain ⟨rv, ev, lv, vv⟩ := copyRange_spec (LeafNode.new d).val x.val d 0 (d - 1) (by omega)
    (by omega) (by omega) (by rw [new_val_length d hd]; omega) (by omega)
  obtain ⟨sk, esk⟩ := rd_total x.key (d - 1) (by omega) (by omega)
  obtain ⟨b, hbd⟩ : ∃ b : LeafNode, b = { (LeafNode.new d) with n := d, key := rk, val := rv } :=
    ⟨_, rfl⟩
  obtain ⟨key', c', E, q1, q2, q3, q4, q5⟩ := InternalNode.parent_insert d n key c K1 K2 S1 S2 o
    hkl hcl hn0 hn hK hS hl sk (.leaf b)
  have hxp : x.pairs = x.kvs := by
    unfold pairs okvs view
    rw [hov]; simp
  have hL : x.kvs.length = (2 * d - 1).toNat := by
    rw [x.kvs_len (by omega) (by omega) (by omega), hfull]
  have ha : ({ x with n := d - 1 } : LeafNode).kvs = x.kvs.take (d - 1).toNat := by
    unfold kvs
    simp only
    rw [view_view x.key (d - 1) x.n (by omega), view_view x.val (d - 1) x.n (by omega), zip_take]
  have hbk : b.kvs = x.kvs.drop (d - 1).toNat := by
    unfold kvs
    simp only [hbd]
    have z := zero_add d
    rw [z] at vk vv
    rw [vk, vv]
    have v0 : ∀ (a : List Int), view a 0 = [] := fun a => rfl
    rw [v0, v0, List.nil_append, List.nil_append]
    rw [view_drop_take x.key (d - 1) d (by omega) (by omega),
      view_drop_take x.val (d - 1) d (by omega) (by omega)]
    have : d - 1 + d = x.n := by omega
    rw [this, zip_drop]
  have hd1 : x.kvs = x.kvs.take (d - 1).toNat ++ x.kvs.drop (d - 1).toNat :=
    (List.take_append_drop _ _).symm
  have hlt : (d - 1).toNat < x.kvs.length := by omega
  have hdrop : ∃ v R, x.kvs.drop (d - 1).toNat = (sk, v) :: R := by
    have hfst := x.kvs_keys (by omega) (by omega) (by omega)
    have hv := view_rd (n := x.n) (by omega) esk
    rw [← hfst, List.getElem?_map, List.getElem?_eq_getElem hlt] at hv
    simp only [Option.map_some', Option.some.injEq] at hv
    refine ⟨(x.kvs[(d - 1).toNat]).2, x.kvs.drop ((d - 1).toNat + 1), ?_⟩
    rw [List.drop_eq_getElem_cons hlt, ← hv]
  obtain ⟨v0, R, hR⟩ := hdrop
  have hs2 : StrictKV (x.kvs.take (d - 1).toNat ++ (sk, v0) :: R) := by
    rw [← hR, ← hd1]; exact hs
  have hlt1 : ∀ p ∈ x.kvs.take (d - 1).toNat, p.1 < sk := by
    intro p hp
    exact (List.pairwise_append.mp hs2).2.2 p hp (sk, v0) (by simp)
  have hge1 : ∀ p ∈ x.kvs.drop (d - 1).toNat, sk ≤ p.1 := by
    intro p hp
    rw [hR] at hp
    rcases List.mem_cons.mp hp with e | hp
    · rw [e]
    · have := (List.pairwise_cons.mp (List.pairwise_append.mp hs2).2.1).1 p hp
      simp only at this
      omega
  have hp : ({ x with n := d - 1 } : LeafNode).pairs = x.kvs.take (d - 1).toNat := by
    unfold pairs
    rw [ha]
    unfold okvs view
    simp only [hov]; simp
  have hpb : b.pairs = x.kvs.drop (d - 1).toNat := by
    unfold pairs
    rw [hbk]
    unfold okvs view
    simp [hbd, LeafNode.new]
  refine ⟨{ x with n := d - 1 }, b, sk, key', c', ?_, q1, q2, q3, q4, q5, ?_, ?_, rfl,
    by rw [hbd], hov, by rw [hbd]; rfl, ?_⟩
  · rw [hbd] at E
    simp only [LeafNode._split, BPlusTree.load_overflow_empty x hov, Except.ok_bind, ek, ev,
      BPNode.asInternal, esk, E, Except.pure_eq_ok, LeafNode.toNode, InternalNode.toNode, hbd]
  · refine ⟨⟨s1, s2, s3, s4, by simp only; omega, s6, s7, by simp only; omega⟩, hov1,
      by rw [ha]; exact hs.sub_kv (List.take_sublist _ _), ?_, ?_⟩
    · rw [hp]
      rw [hxp] at hnd
      exact hnd.sublist ((List.take_sublist _ _).map _)
    · intro p hp'
      rw [hp] at hp'
      have := hb p (by rw [hxp]; exact List.mem_of_mem_take hp')
      refine ⟨this.1, ?_⟩
      intro b' hb'
      simp only [Option.some.injEq] at hb'
      subst hb'
      exact hlt1 p hp'
  · refine ⟨⟨by simp only [hbd]; rw [lk, leaf_new_key_length d hd],
      by simp only [hbd]; rw [lv, new_val_length d hd], ?_, ?_, by simp only [hbd]; omega,
      by simp [hbd, LeafNode.new], by simp only [hbd, LeafNode.new]; omega,
      by simp only [hbd, LeafNode.new]; omega⟩, by simp [hbd, LeafNode.new],
      by rw [hbk]; exact hs.sub_kv (List.drop_sublist _ _), ?_, ?_⟩
    · simp only [hbd, LeafNode.new, List.length_replicate]; omega
    · simp only [hbd, LeafNode.new, List.length_replicate]; omega
    · rw [hpb]
      rw [hxp] at hnd
      exact hnd.sublist ((List.drop_sublist _ _).map _)
    · intro p hp'
      rw [hpb] at hp'
      have := hb p (by rw [hxp]; exact List.mem_of_mem_drop hp')
      refine ⟨?_, this.2⟩
      intro a' ha'
      simp only [Option.some.injEq] at ha'
      subst ha'
      exact hge1 p hp'
  · rw [hp, hpb, hxp]
    exact List.take_append_drop _ _

end LeafNode

namespace InternalNode

theorem inner_new_key_length (d : Int) (hd : 2 ≤ d) :
    ((InternalNode.new d).key.length : Int) = 2 * d - 1 := by
  simp only [InternalNode.new, List.length_replicate]; omega

theorem new_c_length (d : Int) (hd : 2 ≤ d) : ((InternalNode.new d).c.length : Int) = 2 * d := by
  simp only [InternalNode.new, List.length_replicate]; omega

/-- Source `InternalNode::_split` on a full Internal node: the first `d - 1` keys and `d` children
stay, the key at `d - 1` goes up as the separator, the rest goes to the new right node. -/
theorem inner_split_spec (d : Int) (hd : 2 ≤ d) (h : Nat) (l u : Option Int) (m : Int)
    (skey : List Int) (sc : List (Option BPNode))
    (hI : BPlusTree.BInv d (h + 1) l u (.internal m skey sc)) (hfull : m = 2 * d - 1) (n : Int)
    (key : List Int) (c : List (Option BPNode)) (K1 K2 : List Int) (S1 S2 : List (Option BPNode))
    (o : Option BPNode) (hkl : (key.length : Int) = 2 * d - 1) (hcl : (c.length : Int) = 2 * d)
    (hn0 : 0 ≤ n) (hn : n < 2 * d - 1) (hK : view key n = K1 ++ K2)
    (hS : view c (n + 1) = S1 ++ o :: S2) (hl : S1.length = K1.length) :
    ∃ rk rc s key' c', InternalNode._split d ⟨m, skey, sc⟩ (.internal n key c) (K1.length : Int)
        = .ok (⟨d - 1, skey, sc⟩, .internal (n + 1) key' c') ∧
      (key'.length : Int) = 2 * d - 1 ∧ (c'.length : Int) = 2 * d ∧
      view key' (n + 1) = K1 ++ s :: K2 ∧
      view c' (n + 1 + 1) = S1 ++ o :: some (.internal (d - 1) rk rc) :: S2 ∧
      rd key' (K1.length : Int) = .ok s ∧
      BPlusTree.BInv d (h + 1) l (some s) (.internal (d - 1) skey sc) ∧
      BPlusTree.BInv d (h + 1) (some s) u (.internal (d - 1) rk rc) ∧
      BPlusTree.contents (h + 1) (some (.internal (d - 1) skey sc)) ++
        BPlusTree.contents (h + 1) (some (.internal (d - 1) rk rc)) =
        BPlusTree.contents (h + 1) (some (.internal m skey sc)) := by
  rw [BPlusTree.BInv_internal] at hI
  obtain ⟨g1, g2, g3, g4, hKI⟩ := hI
  obtain ⟨rk, ek, lk, vk⟩ := copyRange_spec (InternalNode.new d).key skey (d - 1) 0 d (by omega)
    (by omega) (by omega) (by rw [inner_new_key_length d hd]; omega) (by omega)
  obtain ⟨rc, ec, lc, vc⟩ := copyRange_spec (InternalNode.new d).c sc d 0 d (by omega)
    (by omega) (by omega) (by rw [new_c_length d hd]; omega) (by omega)
  obtain ⟨sk, esk⟩ := rd_total skey (d - 1) (by omega) (by omega)
  obtain ⟨key', c', E, q1, q2, q3, q4, q5⟩ := parent_insert d n key c K1 K2 S1 S2 o
    hkl hcl hn0 hn hK hS hl sk (.internal (d - 1) rk rc)
  have v0 : ∀ {α : Type} (a : List α), view a 0 = [] := fun a => rfl
  rw [zero_add, v0, List.nil_append, view_drop_take skey d (d - 1) (by omega) (by omega)] at vk
  rw [zero_add, v0, List.nil_append, view_drop_take sc d d (by omega) (by omega)] at vc
  have em : d + (d - 1) = m := by omega
  have em1 : d + d = m + 1 := by omega
  have ed : d - 1 + 1 = d := by omega
  rw [em] at vk
  rw [em1] at vc
  have hKl : (view skey m).length = m.toNat := view_length _ _ (by omega) (by omega)
  have hSl : (view sc (m + 1)).length = (m + 1).toNat := view_length _ _ (by omega) (by omega)
  have hlt : (d - 1).toNat < (view skey m).length := by omega
  have hsk : (view skey m)[(d - 1).toNat] = sk := by
    have := view_rd (n := m) (by omega) esk
    rw [List.getElem?_eq_getElem hlt] at this
    simpa using this
  have hKd : view skey m = (view skey m).take (d - 1).toNat ++ sk :: (view skey m).drop d.toNat := by
    have e1 := (List.take_append_drop (d - 1).toNat (view skey m)).symm
    rw [List.drop_eq_getElem_cons hlt, hsk] at e1
    have : (d - 1).toNat + 1 = d.toNat := by omega
    rw [this] at e1
    exact e1
  have hSd : view sc (m + 1) = (view sc (m + 1)).take d.toNat ++ (view sc (m + 1)).drop d.toNat :=
    (List.take_append_drop _ _).symm
  rw [hKd, hSd, KI_join (by rw [List.length_take, List.length_take]; omega)] at hKI
  have hva : view skey (d - 1) = (view skey m).take (d - 1).toNat := view_view _ _ _ (by omega)
  have hvc : view sc (d - 1 + 1) = (view sc (m + 1)).take d.toNat := by
    rw [ed]; exact view_view _ _ _ (by omega)
  refine ⟨rk, rc, sk, key', c', ?_, q1, q2, q3, q4, q5, ?_, ?_, ?_⟩
  · simp only [InternalNode._split, Except.ok_bind, ek, ec, BPNode.asInternal, esk, E,
      Except.pure_eq_ok, InternalNode.toNode, bind_pure_comp, Functor.map, Except.map]
  · rw [BPlusTree.BInv_internal]
    refine ⟨g1, g2, by omega, by omega, ?_⟩
    rw [hva, hvc]
    exact hKI.1
  · rw [BPlusTree.BInv_internal]
    refine ⟨by rw [lk, inner_new_key_length d hd], by rw [lc, new_c_length d hd], by omega, by omega, ?_⟩
    rw [vk, ed, vc]
    exact hKI.2
  · rw [BPlusTree.contents_internal, BPlusTree.contents_internal, BPlusTree.contents_internal,
      hvc, ed, vc, ← List.flatMap_append, List.take_append_drop]

end InternalNode

namespace BPlusTree

/-- The virtual call `self->_split(p, i)` on a full node: the node splits around a separator that
enters the parent together with the new right node. -/
theorem node_split_spec (d : Int) (hd : 2 ≤ d) (h : Nat) (l u : Option Int) (self : BPNode)
    (hI : BInv d h l u self) (hfull : self.n = 2 * d - 1) (n : Int) (key : List Int)
    (c : List (Option BPNode)) (K1 K2 : List Int) (S1 S2 : List (Option BPNode))
    (o : Option BPNode) (hkl : (key.length : Int) = 2 * d - 1) (hcl : (c.length : Int) = 2 * d)
    (hn0 : 0 ≤ n) (hn : n < 2 * d - 1) (hK : view key n = K1 ++ K2)
    (hS : view c (n + 1) = S1 ++ o :: S2) (hl : S1.length = K1.length) :
    ∃ a b s key' c', self._split d (.internal n key c) (K1.length : Int)
        = .ok (a, .internal (n + 1) key' c') ∧
      (key'.length : Int) = 2 * d - 1 ∧ (c'.length : Int) = 2 * d ∧
      view key' (n + 1) = K1 ++ s :: K2 ∧ view c' (n + 1 + 1) = S1 ++ o :: some b :: S2 ∧
      rd key' (K1.length : Int) = .ok s ∧ BInv d h l (some s) a ∧ BInv d h (some s) u b ∧
      a.n = d - 1 ∧ d - 1 ≤ b.n ∧ b.n ≤ d ∧ (∀ y, a = .leaf y → y.overflow_n = 0) ∧
      (∀ y, b = .leaf y → y.overflow_n = 0) ∧
      contents h (some a) ++ contents h (some b) = contents h (some self) := by
  cases h with
  | zero =>
    cases self with
    | internal m skey sc => simp [BInv] at hI
    | leaf x =>
      rw [BInv_leaf] at hI
      obtain ⟨a, b, s, key', c', E, q1, q2, q3, q4, q5, ia, ib, na, nb, oa, ob, hp⟩ :=
        LeafNode.leaf_split_spec d hd l u x hI hfull n key c K1 K2 S1 S2 o hkl hcl hn0 hn hK hS hl
      refine ⟨.leaf a, .leaf b, s, key', c', ?_, q1, q2, q3, q4, q5, BInv_leaf.mpr ia,
        BInv_leaf.mpr ib, na, ?_, ?_, ?_, ?_, hp⟩
      · simp only [BPNode._split, E, Except.ok_bind, Except.pure_eq_ok, LeafNode.toNode]
      · simp only [BPNode.n]; omega
      · simp only [BPNode.n]; omega
      · intro y hy
        simp only [BPNode.leaf.injEq] at hy
        subst hy; exact oa
      · intro y hy
        simp only [BPNode.leaf.injEq] at hy
        subst hy; exact ob
  | succ h =>
    cases self with
    | leaf x => simp [BInv] at hI
    | internal m skey sc =>
      obtain ⟨rk, rc, s, key', c', E, q1, q2, q3, q4, q5, ia, ib, hp⟩ :=
        InternalNode.inner_split_spec d hd h l u m skey sc hI hfull n key c K1 K2 S1 S2 o hkl hcl hn0 hn
          hK hS hl
      refine ⟨.internal (d - 1) skey sc, .internal (d - 1) rk rc, s, key', c', ?_, q1, q2, q3, q4,
        q5, ia, ib, rfl, ?_, ?_, ?_, ?_, hp⟩
      · simp only [BPNode._split, E, Except.ok_bind, Except.pure_eq_ok, InternalNode.toNode]
      · simp only [BPNode.n]; omega
      · simp only [BPNode.n]; omega
      · intro y hy; exact absurd hy (by simp)
      · intro y hy; exact absurd hy (by simp)

end BPlusTree

namespace BPlusTree

theorem BInv.n_le {d : Int} {h : Nat} {lo hi : Option Int} {x : BPNode} (hI : BInv d h lo hi x) :
    0 ≤ x.n ∧ x.n ≤ 2 * d - 1 := by
  cases h with
  | zero =>
    cases x with
    | internal n key c => simp [BInv] at hI
    | leaf x =>
      rw [BInv_leaf] at hI
      obtain ⟨s1, s2, s3, s4, s5, s6, s7, s8⟩ := hI.1
      simp only [BPNode.n]; omega
  | succ h =>
    cases x with
    | leaf x => simp [BInv] at hI
    | internal n key c =>
      rw [BInv_internal] at hI
      simp only [BPNode.n]; omega

/-- The statement `if (x->leaf_) x->_load_overflow()` keeps a B+ tree and its pairs. -/
theorem BInv.loadIfLeaf {d : Int} {h : Nat} {lo hi : Option Int} {x : BPNode}
    (hI : BInv d h lo hi x) :
    ∃ x', x.loadIfLeaf = .ok x' ∧ BInv d h lo hi x' ∧
      (contents h (some x')).Perm (contents h (some x)) ∧ x.n ≤ x'.n ∧
      (∀ y, x' = .leaf y → y.overflow_n = 0) := by
  cases h with
  | zero =>
    cases x with
    | internal n key c => simp [BInv] at hI
    | leaf x =>
      rw [BInv_leaf] at hI
      obtain ⟨x', E, hI', on', n', hp', _⟩ := hI.load
      refine ⟨.leaf x', ?_, BInv_leaf.mpr hI', hp', ?_, ?_⟩
      · simp only [BPNode.loadIfLeaf, E, Except.ok_bind, Except.pure_eq_ok, LeafNode.toNode,
          bind_pure_comp, Functor.map, Except.map]
      · have := hI.1.2.2.2.2.2.1
        simp only [BPNode.n]; omega
      · intro y hy
        simp only [BPNode.leaf.injEq] at hy
        subst hy; exact on'
  | succ h =>
    cases x with
    | leaf x => simp [BInv] at hI
    | internal n key c =>
      exact ⟨_, rfl, hI, List.Perm.refl _, le_refl _, fun y hy => absurd hy (by simp)⟩

theorem KI_head {P : Option Int → Option Int → Option BPNode → Prop} {lo hi : Option Int}
    {o : Option BPNode} {S : List (Option BPNode)} {K : List Int} :
    KI P lo hi (o :: S) K ↔ P lo (headOr hi K) o ∧ KPost P hi S K := by
  have := @KI_at P [] [] lo hi o S K rfl
  simp only [List.nil_append, KPre, true_and, lastOr_nil] at this
  exact this

/-- Source `BPlusTree::_insert` on a B+ tree whose root has room: the pair enters the leaf its key
routes to and the tree stays a B+ tree within the same bounds. -/
theorem insert_leaf (d : Int) (hd : 2 ≤ d) (k v : Int) (f : Nat) (lo hi : Option Int)
    (x : LeafNode) (hI : x.Inv d lo hi) (hn : x.n < 2 * d - 1) (ho : x.overflow_n = 0)
    (hb : InB lo hi k) (hk : k ∉ x.pairs.map Prod.fst) :
    ∃ x', _insert d (f + 1) (.leaf x) k v = .ok (.leaf x') ∧ x'.Inv d lo hi ∧
      x'.pairs.Perm ((k, v) :: x.pairs) ∧ x.n ≤ x'.n := by
  obtain ⟨hS, h1, hs, hnd, hbd⟩ := hI
  obtain ⟨x', E, hS', hs', hp', hn', hsum, hov'⟩ := LeafNode.leaf_insert_spec d hd x k v hS hs
    (List.nodup_cons.mpr ⟨hk, hnd⟩) (by omega)
  refine ⟨x', ?_, ⟨hS', hov' ho, hs', ?_, ?_⟩, hp', hn'⟩
  · simp only [_insert, BPNode.leaf_, if_true, ite_true, BPNode.asLeaf, Except.ok_bind, E,
      Except.pure_eq_ok, LeafNode.toNode]
  · apply (List.Perm.nodup_iff (hp'.map Prod.fst)).mpr
    simp only [List.map_cons]
    exact List.nodup_cons.mpr ⟨hk, hnd⟩
  · intro p hp
    rcases List.mem_cons.mp (hp'.mem_iff.mp hp) with e | hp
    · rw [e]; exact hb
    · exact hbd p hp

end BPlusTree

namespace BPlusTree

theorem perm_mid {α : Type} {A B X X' : List α} {kv : α} (h : X'.Perm (kv :: X)) :
    (A ++ (X' ++ B)).Perm (kv :: (A ++ (X ++ B))) := by
  have h1 : (A ++ (X' ++ B)).Perm (A ++ (kv :: X ++ B)) :=
    List.Perm.append_left _ (List.Perm.append_right _ h)
  exact h1.trans (by simpa using List.perm_middle)

theorem rd_chain {n : Int} {c : List (Option BPNode)} {S1 S2 : List (Option BPNode)}
    {o : Option BPNode} (hS : view c (n + 1) = S1 ++ o :: S2) : rd c (S1.length : Int) = .ok o := by
  have hlen : S1.length < (view c (n + 1)).length := by rw [hS]; simp
  have hn : (S1.length : Int) < n + 1 := by
    unfold view at hlen
    rw [List.length_take] at hlen
    omega
  apply rd_view (n := n + 1) (by omega) hn
  rw [hS, Int.toNat_ofNat]
  exact getElem_explicit _ _ _ _ rfl

theorem rd_chain2 {n : Int} {c : List (Option BPNode)} {S1 S2 : List (Option BPNode)}
    {o o2 : Option BPNode} (hS : view c (n + 1) = S1 ++ o :: o2 :: S2) :
    rd c ((S1.length : Int) + 1) = .ok o2 := by
  have hS' : view c (n + 1) = (S1 ++ [o]) ++ o2 :: S2 := by rw [hS]; simp
  have := rd_chain hS'
  simpa using this

theorem bp_insert_spec (d : Int) (hd : 2 ≤ d) (k v : Int) : ∀ (h f : Nat) (lo hi : Option Int)
    (p : BPNode), h + 1 ≤ f → BInv d h lo hi p → p.n < 2 * d - 1 →
    (∀ x, p = .leaf x → x.overflow_n = 0) → InB lo hi k →
    k ∉ (contents h (some p)).map Prod.fst →
    ∃ p', _insert d f p k v = .ok p' ∧ BInv d h lo hi p' ∧
      (contents h (some p')).Perm ((k, v) :: contents h (some p)) ∧ p.n ≤ p'.n := by
  intro h
  induction h with
  | zero =>
    intro f lo hi p hf hI hn ho hb hk
    obtain ⟨f, rfl⟩ : ∃ g, f = g + 1 := ⟨f - 1, by omega⟩
    cases p with
    | internal n key c => simp [BInv] at hI
    | leaf x =>
      rw [BInv_leaf] at hI
      obtain ⟨x', E, hI', hp', hn'⟩ := insert_leaf d hd k v f lo hi x hI hn (ho x rfl) hb hk
      exact ⟨.leaf x', E, BInv_leaf.mpr hI', hp', hn'⟩
  | succ h ih =>
    intro f lo hi p hf hI hn ho hb hk
    obtain ⟨f, rfl⟩ : ∃ g, f = g + 1 := ⟨f - 1, by omega⟩
    cases p with
    | leaf x => simp [BInv] at hI
    | internal n key c =>
      simp only [BPNode.n] at hn
      obtain ⟨hsort, _⟩ := hI.keys_sorted hd
      have hI0 := hI
      rw [BInv_internal] at hI0
      obtain ⟨k1, k2, k3, k4, hKI⟩ := hI0
      obtain ⟨ki, ci, K1, K2, e1, e2, hK, hci, r1, r2, _, _⟩ :=
        InternalNode.routing n key c k k3 (by omega) hsort
      obtain ⟨S1, ch, S2, hS, hl, hrd, hle, hch, hchn, hpre, hpost⟩ := hI.child hK
      have hkb := route_bounds hb r1 r2
      obtain ⟨ch1, L1, hch1, hperm1, hn1, hfl1⟩ := hch.loadIfLeaf
      obtain ⟨c1, P1, hlen1, hc1, _⟩ := putChild_run key ch1 hS
      have hkch : k ∉ (contents h (some ch1)).map Prod.fst := by
        intro hm
        apply hk
        rw [contents_at hS]
        simp only [List.map_append, List.mem_append]
        exact Or.inr (Or.inl ((hperm1.map Prod.fst).mem_iff.mp hm))
      rw [hl, ← hci] at P1
      rw [← hci] at hrd
      by_cases hfull : ch1.n ≥ 2 * d - 1
      · obtain ⟨a, b, s, key', c', SP, q1, q2, q3, q4, q5, ia, ib, na, nb1, nb2, fa, fb, hcab⟩ :=
          node_split_spec d hd h (lastOr lo K1) (headOr hi K2) ch1 hch1 (by have := hch1.n_le; omega)
            n key c1 K1 K2 S1 S2 (some ch1) k1 (by omega) (by omega) hn hK hc1 hl
        rw [← hci] at SP q5
        obtain ⟨c2, P2, hlen2, hc2, _⟩ := putChild_run (n := n + 1) key' a q4
        rw [hl, ← hci] at P2
        have hka : k ∉ (contents h (some a)).map Prod.fst := by
          intro hm; apply hkch; rw [← hcab]
          simp only [List.map_append, List.mem_append]; exact Or.inl hm
        have hkb' : k ∉ (contents h (some b)).map Prod.fst := by
          intro hm; apply hkch; rw [← hcab]
          simp only [List.map_append, List.mem_append]; exact Or.inr hm
        have hrd2 : rd key' ci = .ok s := q5
        have hrdk : rd (BPNode.internal (n + 1) key' c2).key ci = .ok s := q5
        by_cases hsk : s ≤ k
        · obtain ⟨b', IB, ib', pb', nb'⟩ := ih f (some s) (headOr hi K2) b (by omega) ib
            (by omega) fb ⟨fun a' ha' => by
              simp only [Option.some.injEq] at ha'; omega, hkb.2⟩ hkb'
          have hrb : rd c2 (ci + 1) = .ok (some b) := by
            rw [hci, ← hl]; exact rd_chain2 hc2
          have hc2' : view c2 (n + 1 + 1) = (S1 ++ [some a]) ++ some b :: S2 := by
            rw [hc2]; simp
          obtain ⟨c3, P3, hlen3, hc3, _⟩ := putChild_run (n := n + 1) key' b' hc2'
          have e3 : ((S1 ++ [some a]).length : Int) = ci + 1 := by
            rw [List.length_append, hl, hci]; simp
          rw [e3] at P3
          refine ⟨.internal (n + 1) key' c3, ?_, ?_, ?_, by simp only [BPNode.n]; omega⟩
          · simp only [_insert, BPNode.leaf_, Bool.false_eq_true, if_false, ite_false,
              BPNode.asInternal, Except.ok_bind, Except.pure_eq_ok, e1, e2, hrd, deref, L1, P1,
              hfull, if_true, ite_true, SP, P2, hrdk, hsk, hrb, IB, P3]
          · rw [BInv_internal]
            refine ⟨q1, by omega, by omega, by omega, ?_⟩
            rw [hc3, q3]
            simp only [List.append_assoc, List.singleton_append]
            rw [KI_at hl]
            refine ⟨hpre, ⟨a, rfl, ia, by omega⟩, ?_⟩
            simp only [KPost]
            rw [KI_head]
            exact ⟨⟨b', rfl, ib', by omega⟩, hpost⟩
          · have hv3 : view c3 (n + 1 + 1) = S1 ++ some a :: (some b' :: S2) := by
              rw [hc3]; simp
            rw [contents_at hv3, contents_at hS]
            simp only [List.flatMap_cons]
            rw [← List.append_assoc (contents h (some a))]
            apply perm_mid
            have e4 : (contents h (some a) ++ contents h (some b)).Perm (contents h (some ch)) := by
              rw [hcab]; exact hperm1
            exact ((List.Perm.append_left _ pb').trans List.perm_middle).trans
              (List.Perm.cons _ e4)
        · obtain ⟨a', IA, ia', pa', na'⟩ := ih f (lastOr lo K1) (some s) a (by omega) ia
            (by omega) fa ⟨hkb.1, fun b' hb' => by
              simp only [Option.some.injEq] at hb'; omega⟩ hka
          obtain ⟨c3, P3, hlen3, hc3, _⟩ := putChild_run (n := n + 1) key' a' hc2
          rw [hl, ← hci] at P3
          refine ⟨.internal (n + 1) key' c3, ?_, ?_, ?_, by simp only [BPNode.n]; omega⟩
          · simp only [_insert, BPNode.leaf_, Bool.false_eq_true, if_false, ite_false,
              BPNode.asInternal, Except.ok_bind, Except.pure_eq_ok, e1, e2, hrd, deref, L1, P1,
              hfull, if_true, ite_true, SP, P2, hrdk, hsk, IA, P3]
          · rw [BInv_internal]
            refine ⟨q1, by omega, by omega, by omega, ?_⟩
            rw [hc3, q3, KI_at hl]
            refine ⟨hpre, ⟨a', rfl, ia', by omega⟩, ?_⟩
            simp only [KPost]
            rw [KI_head]
            exact ⟨⟨b, rfl, ib, by omega⟩, hpost⟩
          · rw [contents_at hc3, contents_at hS]
            simp only [List.flatMap_cons]
            rw [← List.append_assoc (contents h (some a'))]
            apply perm_mid
            have e4 : (contents h (some a) ++ contents h (some b)).Perm (contents h (some ch)) := by
              rw [hcab]; exact hperm1
            exact (List.Perm.append_right _ pa').trans (List.Perm.cons _ e4)
      · have hlt : ch1.n < 2 * d - 1 := by omega
        obtain ⟨ch2, IC, ic2, pc2, nc2⟩ := ih f (lastOr lo K1) (headOr hi K2) ch1 (by omega) hch1
          hlt hfl1 hkb hkch
        obtain ⟨c3, P3, hlen3, hc3, _⟩ := putChild_run (n := n) key ch2 hc1
        rw [hl, ← hci] at P3
        refine ⟨.internal n key c3, ?_, ?_, ?_, le_refl _⟩
        · simp only [_insert, BPNode.leaf_, Bool.false_eq_true, if_false, ite_false,
            BPNode.asInternal, Except.ok_bind, Except.pure_eq_ok, e1, e2, hrd, deref, L1, P1,
            hfull, if_false, ite_false, IC, P3]
        · exact hI.put hK hS hl hc3 (by omega) ic2 (by omega)
        · rw [contents_at hc3, contents_at hS]
          apply perm_mid
          exact pc2.trans (List.Perm.cons _ hperm1)

end BPlusTree

namespace BPlusTree

theorem new_leaf_inv (d : Int) (hd : 2 ≤ d) : (LeafNode.new d).Inv d none none := by
  have hp : (LeafNode.new d).pairs = [] := by
    simp [LeafNode.pairs, LeafNode.kvs, LeafNode.okvs, LeafNode.new, view]
  refine ⟨⟨LeafNode.leaf_new_key_length d hd, LeafNode.new_val_length d hd, ?_, ?_, by simp [LeafNode.new],
    by simp [LeafNode.new], by simp only [LeafNode.new]; omega, by simp only [LeafNode.new]; omega⟩,
    by simp [LeafNode.new], by simp [LeafNode.kvs, LeafNode.new, view, StrictKV], by rw [hp]; simp,
    by rw [hp]; simp⟩
  · simp only [LeafNode.new, List.length_replicate]; omega
  · simp only [LeafNode.new, List.length_replicate]; omega

theorem new_leaf_pairs (d : Int) : (LeafNode.new d).pairs = [] := by
  simp [LeafNode.pairs, LeafNode.kvs, LeafNode.okvs, LeafNode.new, view]

/-- Source `BPlusTree::insert` on a tree with a root. -/
theorem insert_some (d : Int) (hd : 2 ≤ d) (fuel : Nat) (root : BPNode) (h : Nat)
    (M : List (Int × Int)) (k v : Int) (hI : BInv d h none none root)
    (hperm : (contents h (some root)).Perm M) (hk : k ∉ M.map Prod.fst) (hf : h + 2 ≤ fuel) :
    ∃ tr' h', insert d fuel ⟨some root⟩ k v = .ok tr' ∧ Good d tr' h' ((k, v) :: M) ∧
      h' ≤ h + 1 ∧ h ≤ h' ∧ tr'.root_ ≠ none := by
  obtain ⟨root1, L1, hI1, hperm1, hn1, hfl1⟩ := hI.loadIfLeaf
  have hnn : (InternalNode.new d).n = 0 := rfl
  have hk1 : k ∉ (contents h (some root1)).map Prod.fst := by
    intro hm
    exact hk (((hperm1.trans hperm).map Prod.fst).mem_iff.mp hm)
  by_cases hfull : root1.n = 2 * d - 1
  · have hc0 : wr (InternalNode.new d).c 0 (some root1) =
        .ok ((InternalNode.new d).c.set 0 (some root1)) := by
      have := wr_ok (a := (InternalNode.new d).c) (i := 0) (some root1) (le_refl _)
        (by rw [InternalNode.new_c_length d hd]; omega)
      simpa using this
    have hv0 : view ((InternalNode.new d).c.set 0 (some root1)) (0 + 1) = [] ++ some root1 :: [] := by
      have : (2 * d).toNat = (2 * d).toNat - 1 + 1 := by omega
      simp only [InternalNode.new, view]
      rw [this, List.replicate_succ]
      simp
    obtain ⟨a, b, s, key', c', SP, q1, q2, q3, q4, q5, ia, ib, na, nb1, nb2, fa, fb, hcab⟩ :=
      node_split_spec d hd h none none root1 hI1 hfull 0 (InternalNode.new d).key
        ((InternalNode.new d).c.set 0 (some root1)) [] [] [] [] (some root1)
        (InternalNode.inner_new_key_length d hd)
        (by rw [List.length_set]; exact InternalNode.new_c_length d hd) (le_refl _) (by omega)
        rfl hv0 rfl
    obtain ⟨c2, P2, hlen2, hc2, _⟩ := putChild_run (n := 0 + 1) key' a q4
    simp only [List.length_nil, Nat.cast_zero, List.nil_append] at SP P2 hc2 q3 q4
    have hI2 : BInv d (h + 1) none none (.internal (0 + 1) key' c2) := by
      rw [BInv_internal]
      refine ⟨q1, by omega, by omega, by omega, ?_⟩
      rw [hc2, q3, KI_cons, KI_single]
      exact ⟨⟨a, rfl, ia, by omega⟩, ⟨b, rfl, ib, nb1⟩⟩
    have hcont : contents (h + 1) (some (.internal (0 + 1) key' c2)) = contents h (some root1) := by
      rw [contents_internal, hc2, ← hcab]
      simp
    obtain ⟨p', IN, ip', pp', _⟩ := bp_insert_spec d hd k v (h + 1) fuel none none _ (by omega) hI2
      (by simp only [BPNode.n]; omega) (fun x hx => absurd hx (by simp))
      ⟨fun _ h => absurd h (by simp), fun _ h => absurd h (by simp)⟩ (by rw [hcont]; exact hk1)
    refine ⟨⟨some p'⟩, h + 1, ?_, ?_, le_refl _, by omega, by simp⟩
    · simp only [insert, L1, Except.ok_bind, hfull, if_true, ite_true, hc0, hnn, SP, P2, IN,
        Except.pure_eq_ok, InternalNode.toNode, bind_pure_comp, Functor.map, Except.map]
    · unfold Good
      simp only
      refine ⟨ip', pp'.trans (List.Perm.cons _ ?_)⟩
      rw [hcont]
      exact hperm1.trans hperm
  · obtain ⟨p', IN, ip', pp', _⟩ := bp_insert_spec d hd k v h fuel none none root1 (by omega) hI1
      (by have := hI1.n_le; omega) hfl1
      ⟨fun _ h => absurd h (by simp), fun _ h => absurd h (by simp)⟩ hk1
    refine ⟨⟨some p'⟩, h, ?_, ?_, by omega, le_refl _, by simp⟩
    · simp only [insert, L1, Except.ok_bind, hfull, if_false, ite_false, IN,
        Except.pure_eq_ok, bind_pure_comp, Functor.map, Except.map]
    · unfold Good
      simp only
      exact ⟨ip', pp'.trans (List.Perm.cons _ (hperm1.trans hperm))⟩

theorem insert_none (d : Int) (fuel : Nat) (k v : Int) :
    insert d fuel ⟨none⟩ k v = insert d fuel ⟨some (LeafNode.new d).toNode⟩ k v := by
  simp only [insert]

/-- Source `BPlusTree::insert` of a key that is not held: the tree afterwards stands for the list
with the pair added, and it is at most one level higher. -/
theorem insert_good (d : Int) (hd : 2 ≤ d) (fuel : Nat) (tr : BPlusTree) (h : Nat)
    (M : List (Int × Int)) (k v : Int) (hG : Good d tr h M) (hk : k ∉ M.map Prod.fst)
    (hf : h + 2 ≤ fuel) :
    ∃ tr' h', insert d fuel tr k v = .ok tr' ∧ Good d tr' h' ((k, v) :: M) ∧ h' ≤ h + 1 ∧
      h ≤ h' ∧ tr'.root_ ≠ none := by
  obtain ⟨r⟩ := tr
  unfold Good at hG
  cases r with
  | none =>
    simp only at hG
    obtain ⟨rfl, rfl⟩ := hG
    rw [insert_none]
    refine insert_some d hd fuel _ 0 [] k v (BInv_leaf.mpr (new_leaf_inv d hd)) ?_ hk hf
    simp only [LeafNode.toNode, contents, new_leaf_pairs]
    exact List.Perm.refl _
  | some r =>
    simp only at hG
    exact insert_some d hd fuel r h M k v hG.1 hG.2 hk hf

end BPlusTree

/-- Replacing a child by one that fits wherever the old one does keeps a chain. -/
theorem KI_set {P : Option Int → Option Int → Option BPNode → Prop} (o' : Option BPNode) :
    ∀ (S : List (Option BPNode)) (K : List Int) (lo hi : Option Int) (j : Nat),
      KI P lo hi S K → (∀ l u o, S[j]? = some o → P l u o → P l u o') →
      KI P lo hi (S.set j o') K := by
  intro S
  induction S with
  | nil => intro K lo hi j h; cases K <;> simp [KI] at h
  | cons o S ih =>
    intro K lo hi j h hP
    cases K with
    | nil =>
      cases S with
      | nil =>
        cases j with
        | zero =>
          simp only [List.set_cons_zero]
          rw [KI_single] at h ⊢
          exact hP lo hi o (by simp) h
        | succ j => simpa using h
      | cons o2 S => simp [KI] at h
    | cons k K =>
      rw [KI_cons] at h
      cases j with
      | zero =>
        simp only [List.set_cons_zero]
        rw [KI_cons]
        exact ⟨hP lo (some k) o (by simp) h.1, h.2⟩
      | succ j =>
        simp only [List.set_cons_succ]
        rw [KI_cons]
        refine ⟨h.1, ih K (some k) hi j h.2 ?_⟩
        intro l u o2 ho2 hp
        exact hP l u o2 (by simpa using ho2) hp

theorem flatMap_set_perm {α β : Type} (f : α → List β) (x' : α) :
    ∀ (S : List α) (j : Nat), (∀ x, S[j]? = some x → (f x').Perm (f x)) →
      ((S.set j x').flatMap f).Perm (S.flatMap f) := by
  intro S
  induction S with
  | nil => intro j _; simp
  | cons a S ih =>
    intro j h
    cases j with
    | zero =>
      simp only [List.set_cons_zero, List.flatMap_cons]
      exact List.Perm.append_right _ (h a (by simp))
    | succ j =>
      simp only [List.set_cons_succ, List.flatMap_cons]
      exact List.Perm.append_left _ (ih j (fun x hx => h x (by simpa using hx)))

theorem rd_set_ne {α : Type} (a : List α) (i j : Int) (y : α) (hj : 0 ≤ j) (hij : i ≠ j) :
    rd (a.set j.toNat y) i = rd a i := by
  unfold rd
  by_cases h : i < 0
  · rw [if_pos h, if_pos h]
  · rw [if_neg h, if_neg h, List.get?_eq_getElem?, List.get?_eq_getElem?,
      List.getElem?_set_ne (by omega)]

theorem perm_eraseIdx {α : Type} {L : List α} {i : Nat} {p : α} (h : L[i]? = some p) :
    L.Perm (p :: L.eraseIdx i) := by
  obtain ⟨hi, rfl⟩ := List.getElem?_eq_some_iff.mp h
  have e : L = L.take i ++ L[i] :: L.drop (i + 1) := by
    rw [← List.drop_eq_getElem_cons hi, List.take_append_drop]
  have e2 : L.eraseIdx i = L.take i ++ L.drop (i + 1) := List.eraseIdx_eq_take_drop_succ _ _
  rw [e2]
  nth_rewrite 1 [e]
  exact List.perm_middle

namespace LeafNode

/-- Source `LeafNode::_remove` on a flushed leaf: the pair at index `i` of the main page goes. -/
theorem Inv.remove_at {d : Int} {lo hi : Option Int} {x : LeafNode} (hI : x.Inv d lo hi)
    (ho : x.overflow_n = 0) (i : Int) (hi0 : 0 ≤ i) (hi1 : i < x.n) :
    ∃ x', x._remove i = .ok x' ∧ x'.Inv d lo hi ∧ x'.overflow_n = 0 ∧ x'.n = x.n - 1 ∧
      x'.kvs = x.kvs.eraseIdx i.toNat ∧ x'.pairs = x'.kvs ∧ x.pairs = x.kvs := by
  obtain ⟨hS, h1, hs, hnd, hb⟩ := hI
  obtain ⟨x', L, E, hS', on', n', hp, hsL, hL, hk', ho'⟩ := leaf_remove_spec d x i hS hs hnd hi0
    (by omega)
  have hLe := hL ho
  subst hLe
  have hpe : x'.pairs = x'.kvs := by unfold pairs; rw [ho', List.append_nil]
  have hxe : x.pairs = x.kvs := by
    unfold pairs okvs view
    rw [ho]; simp
  have hsub : x'.kvs.Sublist x.kvs := by rw [hk']; exact List.eraseIdx_sublist _ _
  refine ⟨x', E, ⟨hS', by omega, hs.sub_kv hsub, ?_, ?_⟩, on', by omega, hk', hpe, hxe⟩
  · rw [hpe]
    rw [hxe] at hnd
    exact hnd.sublist (hsub.map _)
  · intro p hp'
    rw [hpe] at hp'
    exact hb p (by rw [hxe]; exact hsub.subset hp')

end LeafNode

namespace BPlusTree

/-- Source `BPlusTree::_remove` on a leaf that holds the key. -/
theorem remove_leaf (d : Int) (k : Int) (f : Nat) (lo hi : Option Int) (x : LeafNode)
    (hI : x.Inv d lo hi) (hk : k ∈ x.pairs.map Prod.fst) :
    ∃ x' v, _remove d (f + 1) (.leaf x) k = .ok (.leaf x') ∧ x'.Inv d lo hi ∧
      x.pairs.Perm ((k, v) :: x'.pairs) ∧ x'.n = x.n + x.overflow_n - 1 ∧
      x'.overflow_n = 0 := by
  obtain ⟨x1, E, hI1, on1, n1, hp1, hpe1⟩ := hI.load
  have hI1' := hI1
  obtain ⟨hS, _, hs, _, _⟩ := hI1'
  obtain ⟨s1, s2, s3, s4, s5, s6, s7, s8⟩ := hS
  have hk1 : k ∈ x1.kvs.map Prod.fst := by
    rw [← hpe1]; exact (hp1.map Prod.fst).mem_iff.mpr hk
  have hn1 : 1 ≤ x1.n := by
    have hl := x1.kvs_len (by omega) (by omega) (by omega)
    have : 0 < x1.kvs.length := by
      cases hx : x1.kvs with
      | nil => rw [hx] at hk1; simp at hk1
      | cons a b => simp
    omega
  obtain ⟨i, p, e1, i0, i1, e2, e3, e4, e5⟩ := x1.find k hn1 (by omega) (by omega) hs
  have hpk : p.1 = k := by
    by_contra hne
    exact e5 hne hk1
  obtain ⟨x', R, hI', on', n', hk', hpe', hxe⟩ := hI1.remove_at on1 i i0 i1
  simp only [LeafNode.toNode] at e1
  refine ⟨x', p.2, ?_, hI', ?_, by omega, on'⟩
  · simp only [_remove, BPNode.leaf_, if_true, ite_true, BPNode.asLeaf, Except.ok_bind, E, e1, R,
      Except.pure_eq_ok, LeafNode.toNode]
  · have h2 := perm_eraseIdx e2
    rw [← hk', ← hpe', ← hpe1] at h2
    have : p = (k, p.2) := by rw [← hpk]
    rw [← this]
    exact hp1.symm.trans h2

end BPlusTree

theorem StrictKV.nodup {l : List (Int × Int)} (h : StrictKV l) : (l.map Prod.fst).Nodup := by
  unfold StrictKV at h
  rw [List.Nodup, List.pairwise_map]
  exact h.imp (fun hab => ne_of_lt hab)

/-- Writing a separator of a parent in place. -/
theorem wr_sep {n : Int} {key : List Int} {J1 J2 : List Int} {s : Int} (s' : Int)
    (hK : view key n = J1 ++ s :: J2) :
    ∃ key', wr key (J1.length : Int) s' = .ok key' ∧ key'.length = key.length ∧
      view key' n = J1 ++ s' :: J2 := by
  have hlen : J1.length < key.length := by
    have := congrArg List.length hK
    unfold view at this
    simp only [List.length_take, List.length_append, List.length_cons] at this
    omega
  refine ⟨key.set J1.length s', ?_, by simp, ?_⟩
  · have := wr_ok (a := key) s' (i := (J1.length : Int)) (by omega) (by omega)
    simpa using this
  · have := view_set_inside key n (J1.length : Int) s'
    rw [Int.toNat_ofNat] at this
    rw [this, hK, set_explicit _ _ _ _ _ rfl]

namespace LeafNode

theorem pairs_flushed {x : LeafNode} (ho : x.overflow_n = 0) : x.pairs = x.kvs := by
  unfold pairs okvs view
  rw [ho]; simp

/-- A flushed leaf with new bounds. -/
theorem Inv.rebound {d : Int} {lo hi lo' hi' : Option Int} {x : LeafNode} (hI : x.Inv d lo hi)
    (hb : ∀ p ∈ x.pairs, InB lo' hi' p.1) : x.Inv d lo' hi' :=
  ⟨hI.1, hI.2.1, hI.2.2.1, hI.2.2.2.1, hb⟩

/-- The first key of a non-empty main page, as the array read gives it. -/
theorem rd_key_zero {d : Int} {x : LeafNode} (hS : x.Shape d) {p : Int × Int}
    {R : List (Int × Int)} (hk : x.kvs = p :: R) : rd x.key 0 = .ok p.1 := by
  obtain ⟨s1, s2, s3, s4, s5, s6, s7, s8⟩ := hS
  have hl := x.kvs_len (by omega) (by omega) (by omega)
  have hfst := x.kvs_keys (by omega) (by omega) (by omega)
  rw [hk] at hl hfst
  simp only [List.length_cons] at hl
  apply rd_view (n := x.n) (le_refl _) (by omega)
  rw [← hfst]
  simp

/-- Source `LeafNode::_borrow_from_left`: the last pair of the left sibling moves to the front of
this leaf and its key becomes the separator. -/
theorem leaf_borrow_left (d : Int) (hd : 2 ≤ d) (a b : Option Int) (s : Int) (X Y : LeafNode)
    (hX : X.Inv d a (some s)) (hY : Y.Inv d (some s) b) (hXn : 1 ≤ X.n + X.overflow_n)
    (hYn : Y.n + Y.overflow_n < 2 * d - 1) (hsb : ∀ bb, b = some bb → s < bb)
    (n : Int) (key : List Int) (c : List (Option BPNode)) (J1 J2 : List Int)
    (hK : view key n = J1 ++ s :: J2) :
    ∃ X' Y' s' key', Y._borrow_from_left (.internal n key c) (J1.length : Int) (.leaf X)
        = .ok (Y', .internal n key' c, .leaf X') ∧
      key'.length = key.length ∧ view key' n = J1 ++ s' :: J2 ∧ X'.Inv d a (some s') ∧
      Y'.Inv d (some s') b ∧ X'.n = X.n + X.overflow_n - 1 ∧ Y'.n = Y.n + Y.overflow_n + 1 ∧
      X'.overflow_n = 0 ∧ Y'.overflow_n = 0 ∧
      (X'.pairs ++ Y'.pairs).Perm (X.pairs ++ Y.pairs) ∧ (∀ q ∈ Y.pairs, q ∈ Y'.pairs) := by
  obtain ⟨X1, EX, hX1, oX1, nX1, pX1, eX1⟩ := hX.load
  obtain ⟨Y1, EY, hY1, oY1, nY1, pY1, eY1⟩ := hY.load
  have hSX := hX1.1
  have hSY := hY1.1
  obtain ⟨s1, s2, s3, s4, s5, s6, s7, s8⟩ := hSX
  obtain ⟨t1, t2, t3, t4, t5, t6, t7, t8⟩ := hSY
  obtain ⟨km, vm, rk, rv, hdrop⟩ := pair_at X1.key X1.val X1.n (X1.n - 1) (by omega) (by omega)
    (by omega) (by omega)
  have hXl := X1.kvs_len (by omega) (by omega) (by omega)
  have hm1 : (X1.n - 1 + 1).toNat = X1.kvs.length := by omega
  have hXk : X1.kvs = X1.kvs.take (X1.n - 1).toNat ++ [(km, vm)] := by
    have e := (List.take_append_drop (X1.n - 1).toNat X1.kvs).symm
    unfold kvs at e hm1 ⊢
    rw [hdrop, hm1, List.drop_length] at e
    exact e
  have hkm : ∀ q ∈ Y1.kvs, km < q.1 := by
    intro q hq
    have h1 := (hX1.2.2.2.2 (km, vm) (by rw [eX1, hXk]; simp)).2 s rfl
    have h2 := (hY1.2.2.2.2 q (by rw [eY1]; exact hq)).1 s rfl
    simp only at h1
    omega
  obtain ⟨Y2, IY, nY2, lk2, lv2, oY2, ok2, ov2, sY2, pY2, A, B, hAB, hAB', hA, hB⟩ :=
    Y1.insert_main_sorted km vm (by omega) (by omega) (by omega) hY1.2.2.1 (by
      intro hm
      obtain ⟨q, hq, hqk⟩ := List.mem_map.mp hm
      have := hkm q hq
      omega)
  have hAnil : A = [] := by
    cases A with
    | nil => rfl
    | cons q A =>
      have h1 := hA q (by simp)
      have h2 := hkm q (by rw [hAB]; simp)
      omega
  subst hAnil
  simp only [List.nil_append] at hAB hAB'
  subst hAB
  obtain ⟨X2, RX, hX2, oX2, nX2, kX2, eX2, _⟩ := hX1.remove_at oX1 (X1.n - 1) (by omega) (by omega)
  have hX2k : X2.kvs = X1.kvs.take (X1.n - 1).toNat := by
    rw [kX2]
    nth_rewrite 1 [hXk]
    rw [eraseIdx_explicit _ _ _ _ (by rw [List.length_take]; omega)]
    simp
  have hSY2 : Y2.Shape d := ⟨by omega, by omega, by rw [ok2]; exact t3, by rw [ov2]; exact t4,
    by omega, by omega, by omega, by omega⟩
  have eY2 : Y2.pairs = Y2.kvs := pairs_flushed (by omega)
  obtain ⟨key', W, hkl', hv'⟩ := wr_sep km hK
  have hr0 : rd Y2.key 0 = .ok km := rd_key_zero hSY2 hAB'
  have hsX : StrictKV (X1.kvs.take (X1.n - 1).toNat ++ [(km, vm)]) := by
    rw [← hXk]; exact hX1.2.2.1
  refine ⟨X2, Y2, km, key', ?_, hkl', hv', ?_, ?_, by omega, by omega, oX2, by omega, ?_, ?_⟩
  · simp only [_borrow_from_left, BPNode.asLeaf, Except.ok_bind, EX, EY, rk, rv, IY, RX, hr0,
      BPNode.key, W, BPNode.setKey, Except.pure_eq_ok, LeafNode.toNode]
  · apply hX2.rebound
    intro p hp
    rw [eX2, hX2k] at hp
    have hp1 := hX1.2.2.2.2 p (by rw [eX1]; exact List.mem_of_mem_take hp)
    refine ⟨hp1.1, ?_⟩
    intro b' hb'
    simp only [Option.some.injEq] at hb'
    subst hb'
    exact (List.pairwise_append.mp hsX).2.2 p hp (km, vm) (by simp)
  · refine ⟨hSY2, by omega, sY2, by rw [eY2]; exact sY2.nodup, ?_⟩
    intro p hp
    rw [eY2, hAB'] at hp
    rcases List.mem_cons.mp hp with e | hp
    · subst e
      refine ⟨fun a' ha' => by simp only [Option.some.injEq] at ha'; omega, ?_⟩
      intro bb hbb
      have h1 := (hX1.2.2.2.2 (km, vm) (by rw [eX1, hXk]; simp)).2 s rfl
      have := hsb bb hbb
      simp only at h1 ⊢
      omega
    · have hp1 := hY1.2.2.2.2 p (by rw [eY1]; exact hp)
      refine ⟨?_, hp1.2⟩
      intro a' ha'
      simp only [Option.some.injEq] at ha'
      subst ha'
      exact le_of_lt (hkm p hp)
  · rw [eX2, eY2, hAB', hX2k]
    have e1 : (X1.kvs.take (X1.n - 1).toNat ++ (km, vm) :: Y1.kvs) = X1.kvs ++ Y1.kvs := by
      nth_rewrite 2 [hXk]
      simp
    rw [e1, ← eX1, ← eY1]
    exact List.Perm.append pX1 pY1
  · intro q hq
    rw [eY2, hAB']
    exact List.mem_cons_of_mem _ (by rw [← eY1]; exact pY1.mem_iff.mpr hq)

end LeafNode

namespace LeafNode

/-- Source `LeafNode::_borrow_from_right`: the first pair of the right sibling moves to the end of
this leaf and the key that follows it becomes the separator. -/
theorem leaf_borrow_right (d : Int) (hd : 2 ≤ d) (a b : Option Int) (s : Int) (X Y : LeafNode)
    (hX : X.Inv d a (some s)) (hY : Y.Inv d (some s) b) (hYn : 2 ≤ Y.n + Y.overflow_n)
    (hXn : X.n + X.overflow_n < 2 * d - 1) (hXne : 1 ≤ X.n + X.overflow_n)
    (n : Int) (key : List Int) (c : List (Option BPNode)) (J1 J2 : List Int)
    (hK : view key n = J1 ++ s :: J2) :
    ∃ X' Y' s' key', X._borrow_from_right (.internal n key c) (J1.length : Int) (.leaf Y)
        = .ok (X', .internal n key' c, .leaf Y') ∧
      key'.length = key.length ∧ view key' n = J1 ++ s' :: J2 ∧ X'.Inv d a (some s') ∧
      Y'.Inv d (some s') b ∧ X'.n = X.n + X.overflow_n + 1 ∧ Y'.n = Y.n + Y.overflow_n - 1 ∧
      X'.overflow_n = 0 ∧ Y'.overflow_n = 0 ∧
      (X'.pairs ++ Y'.pairs).Perm (X.pairs ++ Y.pairs) ∧ (∀ q ∈ X.pairs, q ∈ X'.pairs) := by
  obtain ⟨X1, EX, hX1, oX1, nX1, pX1, eX1⟩ := hX.load
  obtain ⟨Y1, EY, hY1, oY1, nY1, pY1, eY1⟩ := hY.load
  have hSX := hX1.1
  have hSY := hY1.1
  obtain ⟨s1, s2, s3, s4, s5, s6, s7, s8⟩ := hSX
  obtain ⟨t1, t2, t3, t4, t5, t6, t7, t8⟩ := hSY
  obtain ⟨k0, v0, rk, rv, hdrop⟩ := pair_at Y1.key Y1.val Y1.n 0 (le_refl _) (by omega)
    (by omega) (by omega)
  obtain ⟨k1, v1, rk1, rv1, hdrop1⟩ := pair_at Y1.key Y1.val Y1.n 1 (by omega) (by omega)
    (by omega) (by omega)
  have hYk : Y1.kvs = (k0, v0) :: (k1, v1) :: Y1.kvs.drop 2 := by
    have h0 : Y1.kvs = (k0, v0) :: Y1.kvs.drop 1 := by
      unfold kvs
      simpa using hdrop
    have h1 : Y1.kvs.drop 1 = (k1, v1) :: Y1.kvs.drop 2 := by
      unfold kvs
      have e2 : ((1 : Int) + 1).toNat = 2 := rfl
      rw [e2] at hdrop1
      simpa using hdrop1
    calc Y1.kvs = (k0, v0) :: Y1.kvs.drop 1 := h0
      _ = _ := by rw [h1]
  have hsY : StrictKV ((k0, v0) :: (k1, v1) :: Y1.kvs.drop 2) := by
    rw [← hYk]; exact hY1.2.2.1
  have hk0 : ∀ q ∈ X1.kvs, q.1 < k0 := by
    intro q hq
    have h1 := (hX1.2.2.2.2 q (by rw [eX1]; exact hq)).2 s rfl
    have h2 := (hY1.2.2.2.2 (k0, v0) (by rw [eY1, hYk]; simp)).1 s rfl
    simp only at h2
    omega
  obtain ⟨X2, IX, nX2, lk2, lv2, oX2, ok2, ov2, sX2, pX2, A, B, hAB, hAB', hA, hB⟩ :=
    X1.insert_main_sorted k0 v0 (by omega) (by omega) (by omega) hX1.2.2.1 (by
      intro hm
      obtain ⟨q, hq, hqk⟩ := List.mem_map.mp hm
      have := hk0 q hq
      omega)
  have hBnil : B = [] := by
    cases B with
    | nil => rfl
    | cons q B =>
      have h1 := hB q (by simp)
      have h2 := hk0 q (by rw [hAB]; simp)
      omega
  subst hBnil
  simp only [List.append_nil] at hAB
  subst hAB
  obtain ⟨Y2, RY, hY2, oY2, nY2, kY2, eY2, _⟩ := hY1.remove_at oY1 0 (le_refl _) (by omega)
  have hY2k : Y2.kvs = (k1, v1) :: Y1.kvs.drop 2 := by
    rw [kY2]
    nth_rewrite 1 [hYk]
    rfl
  have hSX2 : X2.Shape d := ⟨by omega, by omega, by rw [ok2]; exact s3, by rw [ov2]; exact s4,
    by omega, by omega, by omega, by omega⟩
  have eX2 : X2.pairs = X2.kvs := pairs_flushed (by omega)
  obtain ⟨key', W, hkl', hv'⟩ := wr_sep k1 hK
  have hr0 : rd Y2.key 0 = .ok k1 := rd_key_zero hY2.1 hY2k
  have hk01 : k0 < k1 := (List.pairwise_cons.mp hsY).1 (k1, v1) (by simp)
  refine ⟨X2, Y2, k1, key', ?_, hkl', hv', ?_, ?_, by omega, by omega, by omega, oY2, ?_, ?_⟩
  · simp only [_borrow_from_right, BPNode.asLeaf, Except.ok_bind, EX, EY, rk, rv, IX, RY, hr0,
      BPNode.key, W, BPNode.setKey, Except.pure_eq_ok, LeafNode.toNode]
  · refine ⟨hSX2, by omega, sX2, by rw [eX2]; exact sX2.nodup, ?_⟩
    intro p hp
    rw [eX2, hAB'] at hp
    rcases List.mem_append.mp hp with hp | hp
    · have hp1 := hX1.2.2.2.2 p (by rw [eX1]; exact hp)
      refine ⟨hp1.1, ?_⟩
      intro b' hb'
      simp only [Option.some.injEq] at hb'
      subst hb'
      have := hk0 p hp
      omega
    · simp only [List.mem_singleton] at hp
      subst hp
      constructor
      · intro a' ha'
        cases hX1k : X1.kvs with
        | nil =>
          have hl := X1.kvs_len (by omega) (by omega) (by omega)
          rw [hX1k] at hl
          simp only [List.length_nil] at hl
          omega
        | cons q R =>
          have h1 := (hX1.2.2.2.2 q (by rw [eX1, hX1k]; simp)).1 a' ha'
          have h2 := hk0 q (by rw [hX1k]; simp)
          simp only
          omega
      · intro b' hb'
        simp only [Option.some.injEq] at hb'
        subst hb'
        exact hk01
  · apply hY2.rebound
    intro p hp
    rw [eY2, hY2k] at hp
    have hp1 := hY1.2.2.2.2 p (by rw [eY1, hYk]; exact List.mem_cons_of_mem _ hp)
    refine ⟨?_, hp1.2⟩
    intro a' ha'
    simp only [Option.some.injEq] at ha'
    subst ha'
    rcases List.mem_cons.mp hp with e | hp
    · rw [e]
    · have := (List.pairwise_cons.mp (List.pairwise_cons.mp hsY).2).1 p hp
      simp only at this
      omega
  · rw [eX2, eY2, hAB', hY2k]
    have e1 : (X1.kvs ++ [(k0, v0)] ++ (k1, v1) :: Y1.kvs.drop 2) = X1.kvs ++ Y1.kvs := by
      nth_rewrite 2 [hYk]
      simp
    rw [e1, ← eX1, ← eY1]
    exact List.Perm.append pX1 pY1
  · intro q hq
    rw [eX2, hAB']
    exact List.mem_append_left _ (by rw [← eX1]; exact pX1.mem_iff.mpr hq)

end LeafNode

namespace InternalNode

/-- The parent's part of a merge: the separator and the slot of the right node go. -/
theorem parent_remove (n : Int) (key : List Int) (c : List (Option BPNode))
    (J1 J2 : List Int) (T1 T2 : List (Option BPNode)) (s : Int) (oX oY : Option BPNode)
    (hkl : n ≤ key.length) (hcl : n + 1 ≤ c.length) (hK : view key n = J1 ++ s :: J2)
    (hS : view c (n + 1) = T1 ++ oX :: oY :: T2) (hl : T1.length = J1.length) :
    ∃ key' c', (⟨n, key, c⟩ : InternalNode)._remove (J1.length : Int) (J1.length + 1)
        = .ok ⟨n - 1, key', c'⟩ ∧ key'.length = key.length ∧ c'.length = c.length ∧
      view key' (n - 1) = J1 ++ J2 ∧ view c' (n - 1 + 1) = T1 ++ oX :: T2 := by
  have hn : (J1.length : Int) + 1 ≤ n := by
    have := congrArg List.length hK
    unfold view at this
    simp only [List.length_take, List.length_append, List.length_cons] at this
    omega
  obtain ⟨x', E, e1, e2, e3, e4, e5⟩ := remove_run ⟨n, key, c⟩ (J1.length : Int)
    (J1.length + 1) hkl hcl (by omega) (by simp only; omega) (by omega) (by simp only; omega)
  obtain ⟨n', key', c'⟩ := x'
  simp only at e1 e2 e3 e4 e5
  subst e1
  rw [hK, Int.toNat_ofNat, eraseIdx_explicit _ _ _ _ rfl] at e4
  have t2 : ((J1.length : Int) + 1).toNat = (T1 ++ [oX]).length := by
    rw [List.length_append, hl]; simp
  have hS' : view c (n + 1) = (T1 ++ [oX]) ++ oY :: T2 := by rw [hS]; simp
  rw [hS', t2, eraseIdx_explicit _ _ _ _ rfl] at e5
  refine ⟨key', c', E, e2, e3, e4, ?_⟩
  rw [e5]; simp

end InternalNode

namespace LeafNode

/-- The loop of `LeafNode::_merge`: the pairs of the flushed right leaf enter this leaf one by one
through `_insert`. -/
theorem leaf_merge_loop (d : Int) (hd : 2 ≤ d) (tr : LeafNode) (hm1 : tr.n ≤ tr.key.length)
    (hm2 : tr.n ≤ tr.val.length) :
    ∀ (cnt : Nat) (a : Int) (x : LeafNode), 0 ≤ a → a + cnt = tr.n → x.Shape d →
      StrictKV x.kvs → ((x.pairs ++ tr.kvs.drop a.toNat).map Prod.fst).Nodup →
      x.n + x.overflow_n + cnt ≤ 2 * d - 1 →
      ∃ x', (upTo a tr.n).foldlM (fun (self : LeafNode) j => do
          self._insert d (← rd tr.key j) (← rd tr.val j)) x = .ok x' ∧
        x'.Shape d ∧ StrictKV x'.kvs ∧ x'.pairs.Perm (x.pairs ++ tr.kvs.drop a.toNat) ∧
        x'.n + x'.overflow_n = x.n + x.overflow_n + cnt := by
  intro cnt
  induction cnt with
  | zero =>
    intro a x ha hac hS hs hnd hcap
    have : tr.kvs.drop a.toNat = [] := by
      apply List.drop_eq_nil_of_le
      unfold kvs
      rw [List.length_zip, view_length _ _ (by omega) hm1, view_length _ _ (by omega) hm2]
      simp only [Nat.cast_zero, add_zero] at hac
      omega
    refine ⟨x, ?_, hS, hs, by rw [this, List.append_nil], by simp⟩
    rw [upTo_nil _ _ (by simp only [Nat.cast_zero, add_zero] at hac; omega)]
    rfl
  | succ cnt ih =>
    intro a x ha hac hS hs hnd hcap
    obtain ⟨ka, va, rk, rv, hdrop⟩ := pair_at tr.key tr.val tr.n a ha (by push_cast at hac; omega)
      hm1 hm2
    have hdrop' : tr.kvs.drop a.toNat = (ka, va) :: tr.kvs.drop (a + 1).toNat := hdrop
    rw [hdrop'] at hnd
    have hnd1 : (ka :: x.pairs.map Prod.fst).Nodup := by
      have hp : ((x.pairs ++ (ka, va) :: tr.kvs.drop (a + 1).toNat).map Prod.fst).Perm
          (ka :: (x.pairs ++ tr.kvs.drop (a + 1).toNat).map Prod.fst) :=
        (List.perm_middle).map Prod.fst
      have h2 := (List.Perm.nodup_iff hp).mp hnd
      rw [List.map_append] at h2
      have h3 := List.nodup_cons.mp h2
      exact List.nodup_cons.mpr ⟨fun hm => h3.1 (List.mem_append_left _ hm),
        (List.nodup_append.mp h3.2).1⟩
    obtain ⟨x1, E1, hS1, hs1, hp1, _, hsum1, _⟩ := leaf_insert_spec d hd x ka va hS hs hnd1
      (by push_cast at hcap; omega)
    have hnd2 : ((x1.pairs ++ tr.kvs.drop (a + 1).toNat).map Prod.fst).Nodup := by
      have hp : ((x1.pairs ++ tr.kvs.drop (a + 1).toNat).map Prod.fst).Perm
          ((x.pairs ++ (ka, va) :: tr.kvs.drop (a + 1).toNat).map Prod.fst) :=
        ((List.Perm.append_right _ hp1).trans
          (by simpa using (@List.perm_middle _ (ka, va) x.pairs
            (tr.kvs.drop (a + 1).toNat)).symm)).map Prod.fst
      exact (List.Perm.nodup_iff hp).mpr hnd
    obtain ⟨x', E', hS', hs', hp', hsum'⟩ := ih (a + 1) x1 (by omega) (by push_cast at hac ⊢; omega)
      hS1 hs1 hnd2 (by push_cast at hcap ⊢; omega)
    refine ⟨x', ?_, hS', hs', ?_, by push_cast at hsum' ⊢; omega⟩
    · rw [upTo_succ _ _ (by push_cast at hac; omega)]
      simp only [List.foldlM_cons, rk, rv, Except.ok_bind, E1]
      exact E'
    · rw [hdrop']
      exact hp'.trans ((List.Perm.append_right _ hp1).trans
        (by simpa using (@List.perm_middle _ (ka, va) x.pairs
          (tr.kvs.drop (a + 1).toNat)).symm))

end LeafNode

namespace LeafNode

/-- Source `LeafNode::_merge`: the pairs of the right leaf move into this leaf, and the parent
loses the separator and the slot of the right leaf. -/
theorem leaf_merge_spec (d : Int) (hd : 2 ≤ d) (a b : Option Int) (s : Int) (X Y : LeafNode)
    (hX : X.Inv d a (some s)) (hY : Y.Inv d (some s) b)
    (hcap : X.n + X.overflow_n + (Y.n + Y.overflow_n) ≤ 2 * d - 1)
    (hXne : 1 ≤ X.n + X.overflow_n) (hYne : 1 ≤ Y.n + Y.overflow_n)
    (n : Int) (key : List Int) (c : List (Option BPNode))
    (J1 J2 : List Int) (T1 T2 : List (Option BPNode)) (oX oY : Option BPNode)
    (hkl : n ≤ key.length) (hcl : n + 1 ≤ c.length) (hK : view key n = J1 ++ s :: J2)
    (hS : view c (n + 1) = T1 ++ oX :: oY :: T2) (hl : T1.length = J1.length) :
    ∃ Z key' c', X._merge d (.internal n key c) (J1.length : Int) (.leaf Y)
        = .ok (Z, .internal (n - 1) key' c') ∧
      key'.length = key.length ∧ c'.length = c.length ∧ view key' (n - 1) = J1 ++ J2 ∧
      view c' (n - 1 + 1) = T1 ++ oX :: T2 ∧ Z.Inv d a b ∧
      Z.n = X.n + X.overflow_n + (Y.n + Y.overflow_n) ∧ Z.overflow_n = 0 ∧
      Z.pairs.Perm (X.pairs ++ Y.pairs) := by
  obtain ⟨X1, EX, hX1, oX1, nX1, pX1, eX1⟩ := hX.load
  obtain ⟨Y1, EY, hY1, oY1, nY1, pY1, eY1⟩ := hY.load
  have hSX := hX1.1
  have hSY := hY1.1
  obtain ⟨s1, s2, s3, s4, s5, s6, s7, s8⟩ := hSX
  obtain ⟨t1, t2, t3, t4, t5, t6, t7, t8⟩ := hSY
  have hlt : ∀ p ∈ X1.pairs, ∀ q ∈ Y1.pairs, p.1 < q.1 := by
    intro p hp q hq
    have h1 := (hX1.2.2.2.2 p hp).2 s rfl
    have h2 := (hY1.2.2.2.2 q hq).1 s rfl
    omega
  have hnd : ((X1.pairs ++ Y1.kvs.drop (0 : Int).toNat).map Prod.fst).Nodup := by
    simp only [Int.toNat_zero, List.drop_zero, List.map_append]
    rw [← eY1]
    refine List.nodup_append.mpr ⟨hX1.2.2.2.1, hY1.2.2.2.1, ?_⟩
    intro k hk1 hk2
    obtain ⟨p, hp, rfl⟩ := List.mem_map.mp hk1
    obtain ⟨q, hq, hqk⟩ := List.mem_map.mp hk2
    have := hlt p hp q hq
    omega
  obtain ⟨x', E', hS', hs', hp', hsum'⟩ := leaf_merge_loop d hd Y1 (by omega) (by omega)
    Y1.n.toNat 0 X1 (le_refl _) (by omega) hX1.1 hX1.2.2.1 hnd (by omega)
  simp only [Int.toNat_zero, List.drop_zero] at hp'
  have hnd' : (x'.pairs.map Prod.fst).Nodup := by
    apply (List.Perm.nodup_iff (hp'.map Prod.fst)).mpr
    simpa using hnd
  obtain ⟨Z, EZ, hSZ, oZ, nZ, hsZ, hpZ, hoZ⟩ := load_overflow_spec d x' hS' hs' hnd'
  obtain ⟨key', c', R, q1, q2, q3, q4⟩ := InternalNode.parent_remove n key c J1 J2 T1 T2 s oX oY
    hkl hcl hK hS hl
  have eZ : Z.pairs = Z.kvs := pairs_flushed oZ
  have hperm : Z.pairs.Perm (X.pairs ++ Y.pairs) := by
    rw [eZ]
    refine hpZ.trans (hp'.trans ?_)
    rw [← eY1]
    exact List.Perm.append pX1 pY1
  have hXl := X1.kvs_len (by omega) (by omega) (by omega)
  have hYl := Y1.kvs_len (by omega) (by omega) (by omega)
  obtain ⟨x0, hx0⟩ : ∃ x0, x0 ∈ X1.pairs := by
    rw [eX1]
    cases hx : X1.kvs with
    | nil => rw [hx] at hXl; simp only [List.length_nil] at hXl; omega
    | cons q R => exact ⟨q, by simp⟩
  obtain ⟨y0, hy0⟩ : ∃ y0, y0 ∈ Y1.pairs := by
    rw [eY1]
    cases hx : Y1.kvs with
    | nil => rw [hx] at hYl; simp only [List.length_nil] at hYl; omega
    | cons q R => exact ⟨q, by simp⟩
  refine ⟨Z, key', c', ?_, q1, q2, q3, q4, ⟨hSZ, by omega, hsZ, ?_, ?_⟩, by omega, oZ, hperm⟩
  · simp only [_merge, BPNode.asInternal, BPNode.asLeaf, Except.ok_bind, EX, EY, E', EZ, R,
      Except.pure_eq_ok, InternalNode.toNode]
  · rw [eZ]; exact hsZ.nodup
  · intro p hp
    have hp2 : p ∈ X1.pairs ++ Y1.pairs := by
      have := hperm.mem_iff.mp hp
      rcases List.mem_append.mp this with h | h
      · exact List.mem_append_left _ (pX1.mem_iff.mpr h)
      · exact List.mem_append_right _ (pY1.mem_iff.mpr h)
    rcases List.mem_append.mp hp2 with h | h
    · refine ⟨(hX1.2.2.2.2 p h).1, ?_⟩
      intro bb hbb
      have h1 := hlt p h y0 hy0
      have h2 := (hY1.2.2.2.2 y0 hy0).2 bb hbb
      omega
    · refine ⟨?_, (hY1.2.2.2.2 p h).2⟩
      intro aa haa
      have h1 := hlt x0 hx0 p h
      have h2 := (hX1.2.2.2.2 x0 hx0).1 aa haa
      omega

end LeafNode

namespace InternalNode

/-- Source `InternalNode::_insert` at the end: the key and the child are appended. -/
theorem push_run (x : InternalNode) (k : Int) (o : Option BPNode) (h0 : 0 ≤ x.n)
    (h1 : x.n < x.key.length) (h2 : x.n + 1 < x.c.length) :
    ∃ x', x._insert k x.n o (x.n + 1) = .ok x' ∧ x'.n = x.n + 1 ∧
      x'.key.length = x.key.length ∧ x'.c.length = x.c.length ∧
      view x'.key x'.n = view x.key x.n ++ [k] ∧
      view x'.c (x'.n + 1) = view x.c (x.n + 1) ++ [o] := by
  obtain ⟨x', E, e1, e2, e3, e4, e5⟩ := insert_run x k x.n o (x.n + 1) h0 h1 h2 h0 (le_refl _)
    (by omega) (le_refl _)
  have l1 : (view x.key x.n).length = x.n.toNat := view_length _ _ h0 (by omega)
  have l2 : (view x.c (x.n + 1)).length = (x.n + 1).toNat := view_length _ _ (by omega) (by omega)
  rw [List.take_of_length_le (by omega), List.drop_of_length_le (by omega)] at e4 e5
  exact ⟨x', E, e1, e2, e3, e4, e5⟩

/-- Source `InternalNode::_insert` at the front: the key and the child are prepended. -/
theorem unshift_run (x : InternalNode) (k : Int) (o : Option BPNode) (h0 : 0 ≤ x.n)
    (h1 : x.n < x.key.length) (h2 : x.n + 1 < x.c.length) :
    ∃ x', x._insert k 0 o 0 = .ok x' ∧ x'.n = x.n + 1 ∧
      x'.key.length = x.key.length ∧ x'.c.length = x.c.length ∧
      view x'.key x'.n = k :: view x.key x.n ∧
      view x'.c (x'.n + 1) = o :: view x.c (x.n + 1) := by
  obtain ⟨x', E, e1, e2, e3, e4, e5⟩ := insert_run x k 0 o 0 h0 h1 h2 (le_refl _) h0
    (le_refl _) (by omega)
  simp only [Int.toNat_zero, List.take_zero, List.drop_zero, List.nil_append] at e4 e5
  exact ⟨x', E, e1, e2, e3, e4, e5⟩

/-- The last key and the last child of a node with at least one key. -/
theorem last_split (n : Int) (key : List Int) (c : List (Option BPNode)) (hn : 1 ≤ n)
    (hkl : n ≤ key.length) (hcl : n + 1 ≤ c.length) :
    ∃ kl ol, rd key (n - 1) = .ok kl ∧ rd c n = .ok ol ∧
      view key n = view key (n - 1) ++ [kl] ∧ view c (n + 1) = view c n ++ [ol] := by
  obtain ⟨kl, ek⟩ := rd_total key (n - 1) (by omega) (by omega)
  obtain ⟨ol, eo⟩ := rd_total c n (by omega) (by omega)
  refine ⟨kl, ol, ek, eo, ?_, ?_⟩
  · have h1 := view_rd (n := n) (by omega) ek
    have l1 : (view key n).length = n.toNat := view_length _ _ (by omega) (by omega)
    have e := (List.take_append_drop (n - 1).toNat (view key n)).symm
    rw [← view_view key (n - 1) n (by omega)] at e
    have hlt : (n - 1).toNat < (view key n).length := by omega
    rw [List.drop_eq_getElem_cons hlt, List.drop_of_length_le (by omega)] at e
    rw [List.getElem?_eq_getElem hlt] at h1
    simp only [Option.some.injEq] at h1
    rw [h1] at e
    exact e
  · have h1 := view_rd (n := n + 1) (by omega) eo
    have l1 : (view c (n + 1)).length = (n + 1).toNat := view_length _ _ (by omega) (by omega)
    have e := (List.take_append_drop n.toNat (view c (n + 1))).symm
    rw [← view_view c n (n + 1) (by omega)] at e
    have hlt : n.toNat < (view c (n + 1)).length := by omega
    rw [List.drop_eq_getElem_cons hlt, List.drop_of_length_le (by omega)] at e
    rw [List.getElem?_eq_getElem hlt] at h1
    simp only [Option.some.injEq] at h1
    rw [h1] at e
    exact e

/-- The first key and the first child of a node with at least one key. -/
theorem head_split (n : Int) (key : List Int) (c : List (Option BPNode)) (hn : 1 ≤ n)
    (hkl : n ≤ key.length) (hcl : n + 1 ≤ c.length) :
    ∃ k0 o0 KY SY, rd key 0 = .ok k0 ∧ rd c 0 = .ok o0 ∧
      view key n = k0 :: KY ∧ view c (n + 1) = o0 :: SY := by
  obtain ⟨k0, ek⟩ := rd_total key 0 (le_refl _) (by omega)
  obtain ⟨o0, eo⟩ := rd_total c 0 (le_refl _) (by omega)
  have h1 := view_rd (n := n) (by omega) ek
  have h2 := view_rd (n := n + 1) (by omega) eo
  simp only [Int.toNat_zero] at h1 h2
  refine ⟨k0, o0, (view key n).tail, (view c (n + 1)).tail, ek, eo, ?_, ?_⟩
  · cases hv : view key n with
    | nil => rw [hv] at h1; simp at h1
    | cons q R => rw [hv] at h1; simp only [List.getElem?_cons_zero, Option.some.injEq] at h1; rw [h1]; rfl
  · cases hv : view c (n + 1) with
    | nil => rw [hv] at h2; simp at h2
    | cons q R => rw [hv] at h2; simp only [List.getElem?_cons_zero, Option.some.injEq] at h2; rw [h2]; rfl

end InternalNode

namespace InternalNode
open BPlusTree

theorem rd_sep {n : Int} {key : List Int} {J1 J2 : List Int} {s : Int}
    (hK : view key n = J1 ++ s :: J2) : rd key (J1.length : Int) = .ok s := by
  have hlen : J1.length < (view key n).length := by rw [hK]; simp
  have hn : (J1.length : Int) < n := by
    unfold view at hlen
    rw [List.length_take] at hlen
    omega
  apply rd_view (n := n) (by omega) hn
  rw [hK, Int.toNat_ofNat]
  exact getElem_explicit _ _ _ _ rfl

/-- Source `InternalNode::_borrow_from_left`: the last child of the left sibling moves to the
front of this node, the separator comes down and the last key of the sibling goes up. -/
theorem inner_borrow_left (d : Int) (hd : 2 ≤ d) (h : Nat) (a b : Option Int) (s : Int)
    (nx : Int) (kx : List Int) (cx : List (Option BPNode)) (ny : Int) (ky : List Int)
    (cy : List (Option BPNode))
    (hX : BInv d (h + 1) a (some s) (.internal nx kx cx))
    (hY : BInv d (h + 1) (some s) b (.internal ny ky cy)) (hXn : 2 ≤ nx)
    (hYn : ny < 2 * d - 1) (n : Int) (key : List Int) (c : List (Option BPNode))
    (J1 J2 : List Int) (hK : view key n = J1 ++ s :: J2) :
    ∃ X' Y' s' key', InternalNode._borrow_from_left ⟨ny, ky, cy⟩ (.internal n key c)
        (J1.length : Int) (.internal nx kx cx) = .ok (Y', .internal n key' c, X') ∧
      key'.length = key.length ∧ view key' n = J1 ++ s' :: J2 ∧
      BInv d (h + 1) a (some s') X' ∧ BInv d (h + 1) (some s') b Y'.toNode ∧
      X'.n = nx - 1 ∧ Y'.n = ny + 1 ∧
      (contents (h + 1) (some X') ++ contents (h + 1) (some Y'.toNode)).Perm
        (contents (h + 1) (some (.internal nx kx cx)) ++
          contents (h + 1) (some (.internal ny ky cy))) ∧
      (∀ q ∈ contents (h + 1) (some (.internal ny ky cy)),
        q ∈ contents (h + 1) (some Y'.toNode)) := by
  have hX0 := hX
  have hY0 := hY
  rw [BInv_internal] at hX0 hY0
  obtain ⟨x1, x2, x3, x4, hKX⟩ := hX0
  obtain ⟨y1, y2, y3, y4, hKY⟩ := hY0
  obtain ⟨kl, ol, rk, ro, vk, vc⟩ := last_split nx kx cx (by omega) (by omega) (by omega)
  have lSX : (view cx nx).length = (view kx (nx - 1)).length + 1 := by
    rw [view_length _ _ (by omega) (by omega), view_length _ _ (by omega) (by omega)]
    omega
  rw [vk, vc, KI_join lSX, KI_single] at hKX
  obtain ⟨hL, last, rfl, hlast, hlastn⟩ := hKX
  obtain ⟨last1, LL, hlast1, plast, nlast, _⟩ := hlast.loadIfLeaf
  have W1 := wr_ok (a := cx) (i := nx) (some last1) (by omega) (by omega)
  have R1 : rd (cx.set nx.toNat (some last1)) nx = .ok (some last1) := by
    apply rd_ok (by omega)
    rw [List.getElem?_set_self (by omega)]
  have rs := rd_sep hK
  obtain ⟨Y', IY, ny', lky, lcy, vky, vcy⟩ := unshift_run ⟨ny, ky, cy⟩ s (some last1)
    (by simp only; omega)
    (by simp only; omega) (by simp only; omega)
  obtain ⟨key', W, hkl', hv'⟩ := wr_sep kl hK
  have vc1 : view (cx.set nx.toNat (some last1)) (nx + 1) = view cx nx ++ [some last1] :=
    view_set_snoc cx nx (some last1) (by omega) (by omega)
  obtain ⟨X', RX, nx', lkx, lcx, vkx, vcx⟩ := remove_run ⟨nx, kx, cx.set nx.toNat (some last1)⟩
    (nx - 1) nx (by simp only; omega) (by simp only [List.length_set]; omega) (by omega)
    (by simp only; omega) (by omega) (le_refl _)
  simp only at nx' lkx lcx vkx vcx ny' lky lcy vky vcy
  rw [vk, eraseIdx_explicit _ _ _ _ (by
    rw [view_length _ _ (by omega) (by omega)])] at vkx
  rw [vc1, eraseIdx_explicit _ _ _ _ (by
    rw [view_length _ _ (by omega) (by omega)])] at vcx
  simp only [List.append_nil] at vkx vcx
  obtain ⟨nX, kX, cX⟩ := X'
  obtain ⟨nY, kY, cY⟩ := Y'
  simp only at nx' lkx lcx vkx vcx ny' lky lcy vky vcy
  subst nx' ny'
  have cX' : contents (h + 1) (some (.internal (nx - 1) kX cX)) =
      (view cx nx).flatMap (contents h) := by
    rw [contents_internal, vcx]
  have cY' : contents (h + 1) (some (.internal (ny + 1) kY cY)) =
      contents h (some last1) ++ (view cy (ny + 1)).flatMap (contents h) := by
    rw [contents_internal, vcy, List.flatMap_cons]
  refine ⟨.internal (nx - 1) kX cX, ⟨ny + 1, kY, cY⟩, kl, key', ?_, hkl', hv', ?_, ?_, rfl, rfl,
    ?_, ?_⟩
  · simp only [InternalNode._borrow_from_left, BPNode.asInternal, Except.ok_bind, ro, deref, LL,
      W1, R1, rs, BPNode.key, IY, rk, W, RX, BPNode.setKey, Except.pure_eq_ok,
      InternalNode.toNode]
  · rw [BInv_internal]
    refine ⟨by omega, by rw [lcx, List.length_set]; omega, by omega, by omega, ?_⟩
    rw [vkx, vcx]
    exact hL
  · simp only [InternalNode.toNode]
    rw [BInv_internal]
    refine ⟨by omega, by omega, by omega, by omega, ?_⟩
    rw [vky, vcy, KI_cons]
    exact ⟨⟨last1, rfl, hlast1, by omega⟩, hKY⟩
  · simp only [InternalNode.toNode]
    rw [cX', cY', contents_internal, contents_internal, vc, List.flatMap_append,
      List.flatMap_singleton, List.append_assoc]
    exact List.Perm.append_left _ (List.Perm.append_right _ plast)
  · intro q hq
    simp only [InternalNode.toNode]
    rw [cY']
    rw [contents_internal] at hq
    exact List.mem_append_right _ hq

end InternalNode

namespace InternalNode
open BPlusTree

/-- Source `InternalNode::_borrow_from_right`: the first child of the right sibling moves to the
end of this node, the separator comes down and the first key of the sibling goes up. -/
theorem inner_borrow_right (d : Int) (hd : 2 ≤ d) (h : Nat) (a b : Option Int) (s : Int)
    (nx : Int) (kx : List Int) (cx : List (Option BPNode)) (ny : Int) (ky : List Int)
    (cy : List (Option BPNode))
    (hX : BInv d (h + 1) a (some s) (.internal nx kx cx))
    (hY : BInv d (h + 1) (some s) b (.internal ny ky cy)) (hYn : 2 ≤ ny)
    (hXn : nx < 2 * d - 1) (n : Int) (key : List Int) (c : List (Option BPNode))
    (J1 J2 : List Int) (hK : view key n = J1 ++ s :: J2) :
    ∃ X' Y' s' key', InternalNode._borrow_from_right ⟨nx, kx, cx⟩ (.internal n key c)
        (J1.length : Int) (.internal ny ky cy) = .ok (X', .internal n key' c, Y') ∧
      key'.length = key.length ∧ view key' n = J1 ++ s' :: J2 ∧
      BInv d (h + 1) a (some s') X'.toNode ∧ BInv d (h + 1) (some s') b Y' ∧
      X'.n = nx + 1 ∧ Y'.n = ny - 1 ∧
      (contents (h + 1) (some X'.toNode) ++ contents (h + 1) (some Y')).Perm
        (contents (h + 1) (some (.internal nx kx cx)) ++
          contents (h + 1) (some (.internal ny ky cy))) ∧
      (∀ q ∈ contents (h + 1) (some (.internal nx kx cx)),
        q ∈ contents (h + 1) (some X'.toNode)) := by
  have hX0 := hX
  have hY0 := hY
  rw [BInv_internal] at hX0 hY0
  obtain ⟨x1, x2, x3, x4, hKX⟩ := hX0
  obtain ⟨y1, y2, y3, y4, hKY⟩ := hY0
  obtain ⟨k0, o0, KY, SY, rk, ro, vk, vc⟩ := head_split ny ky cy (by omega) (by omega) (by omega)
  rw [vk, vc, KI_cons] at hKY
  obtain ⟨⟨first, rfl, hfirst, hfirstn⟩, hR⟩ := hKY
  obtain ⟨first1, LL, hfirst1, pfirst, nfirst, _⟩ := hfirst.loadIfLeaf
  have W1 := wr_ok (a := cy) (i := 0) (some first1) (le_refl _) (by omega)
  simp only [Int.toNat_zero] at W1
  have R1 : rd (cy.set 0 (some first1)) 0 = .ok (some first1) := by
    apply rd_ok (le_refl _)
    simp only [Int.toNat_zero]
    rw [List.getElem?_set_self (by omega)]
  have rs := rd_sep hK
  obtain ⟨X', IX, nx', lkx, lcx, vkx, vcx⟩ := push_run ⟨nx, kx, cx⟩ s (some first1)
    (by simp only; omega) (by simp only; omega) (by simp only; omega)
  obtain ⟨key', W, hkl', hv'⟩ := wr_sep k0 hK
  have vc1 : view (cy.set 0 (some first1)) (ny + 1) = some first1 :: SY := by
    have := view_set_inside cy (ny + 1) 0 (some first1)
    simp only [Int.toNat_zero] at this
    rw [this, vc]
    rfl
  obtain ⟨Y', RY, ny', lky, lcy, vky, vcy⟩ := remove_run ⟨ny, ky, cy.set 0 (some first1)⟩
    0 0 (by simp only; omega) (by simp only [List.length_set]; omega) (le_refl _)
    (by simp only; omega) (le_refl _) (by simp only; omega)
  simp only at nx' lkx lcx vkx vcx ny' lky lcy vky vcy
  rw [vk] at vky
  rw [vc1] at vcy
  simp only [Int.toNat_zero, List.eraseIdx_cons_zero] at vky vcy
  obtain ⟨nX, kX, cX⟩ := X'
  obtain ⟨nY, kY, cY⟩ := Y'
  simp only at nx' lkx lcx vkx vcx ny' lky lcy vky vcy
  subst nx' ny'
  have lSX : (view cx (nx + 1)).length = (view kx nx).length + 1 := KI_length hKX
  have cX' : contents (h + 1) (some (.internal (nx + 1) kX cX)) =
      (view cx (nx + 1)).flatMap (contents h) ++ contents h (some first1) := by
    rw [contents_internal, vcx, List.flatMap_append, List.flatMap_singleton]
  have cY' : contents (h + 1) (some (.internal (ny - 1) kY cY)) = SY.flatMap (contents h) := by
    rw [contents_internal, vcy]
  refine ⟨⟨nx + 1, kX, cX⟩, .internal (ny - 1) kY cY, k0, key', ?_, hkl', hv', ?_, ?_, rfl, rfl,
    ?_, ?_⟩
  · simp only [InternalNode._borrow_from_right, BPNode.asInternal, Except.ok_bind, ro, deref, LL,
      W1, R1, rs, BPNode.key, IX, rk, W, RY, BPNode.setKey, Except.pure_eq_ok,
      InternalNode.toNode]
  · simp only [InternalNode.toNode]
    rw [BInv_internal]
    refine ⟨by omega, by omega, by omega, by omega, ?_⟩
    rw [vkx, vcx, KI_join lSX, KI_single]
    exact ⟨hKX, ⟨first1, rfl, hfirst1, by omega⟩⟩
  · rw [BInv_internal]
    refine ⟨by omega, by rw [lcy, List.length_set]; omega, by omega, by omega, ?_⟩
    rw [vky, vcy]
    exact hR
  · simp only [InternalNode.toNode]
    rw [cX', cY', contents_internal, contents_internal, vc, List.flatMap_cons,
      List.append_assoc]
    exact List.Perm.append_left _ (List.Perm.append_right _ pfirst)
  · intro q hq
    simp only [InternalNode.toNode]
    rw [cX']
    rw [contents_internal] at hq
    exact List.mem_append_left _ hq

end InternalNode

theorem view_drop_cons {α : Type} (a : List α) (n i : Int) (h0 : 0 ≤ i) (h1 : i < n)
    (h2 : n ≤ a.length) :
    ∃ v, rd a i = .ok v ∧ (view a n).drop i.toNat = v :: (view a n).drop (i + 1).toNat := by
  obtain ⟨v, ev⟩ := rd_total a i h0 (by omega)
  refine ⟨v, ev, ?_⟩
  have hv := view_rd (n := n) h1 ev
  have l1 : (view a n).length = n.toNat := view_length _ _ (by omega) h2
  have hlt : i.toNat < (view a n).length := by omega
  rw [List.drop_eq_getElem_cons hlt]
  rw [List.getElem?_eq_getElem hlt] at hv
  simp only [Option.some.injEq] at hv
  rw [hv]
  congr 2
  omega

namespace InternalNode
open BPlusTree

/-- The loop of `InternalNode::_merge`: the keys and children of the right node are appended. -/
theorem inner_merge_loop (d : Int) (tr : InternalNode) (hk : tr.n ≤ tr.key.length)
    (hc : tr.n + 1 ≤ tr.c.length) :
    ∀ (cnt : Nat) (j : Int) (x : InternalNode), 1 ≤ j → j + cnt = tr.n + 1 →
      x.n = d + j - 1 → 0 ≤ x.n → x.n + cnt ≤ x.key.length → x.n + cnt + 1 ≤ x.c.length →
      ∃ x', _merge_loop d tr x (upTo j (tr.n + 1)) = .ok x' ∧ x'.n = x.n + cnt ∧
        x'.key.length = x.key.length ∧ x'.c.length = x.c.length ∧
        view x'.key x'.n = view x.key x.n ++ (view tr.key tr.n).drop (j - 1).toNat ∧
        view x'.c (x'.n + 1) = view x.c (x.n + 1) ++ (view tr.c (tr.n + 1)).drop j.toNat := by
  intro cnt
  induction cnt with
  | zero =>
    intro j x hj hjc hxn hx0 hxk hxc
    simp only [Nat.cast_zero, add_zero] at hjc
    refine ⟨x, ?_, by simp, rfl, rfl, ?_, ?_⟩
    · rw [upTo_nil _ _ (by omega)]; rfl
    · rw [List.drop_of_length_le (by
        rw [view_length _ _ (by omega) hk]; omega), List.append_nil]
    · rw [List.drop_of_length_le (by
        rw [view_length _ _ (by omega) hc]; omega), List.append_nil]
  | succ cnt ih =>
    intro j x hj hjc hxn hx0 hxk hxc
    push_cast at hjc hxk hxc
    obtain ⟨kj, rk, dk⟩ := view_drop_cons tr.key tr.n (j - 1) (by omega) (by omega) hk
    obtain ⟨oj, ro, dc⟩ := view_drop_cons tr.c (tr.n + 1) j (by omega) (by omega) hc
    obtain ⟨x1, E1, n1, lk1, lc1, vk1, vc1⟩ := push_run x kj oj hx0 (by omega) (by omega)
    have e1 : d + j - 1 = x.n := by omega
    have e2 : d + j = x.n + 1 := by omega
    obtain ⟨x', E', n', lk', lc', vk', vc'⟩ := ih (j + 1) x1 (by omega) (by omega) (by omega)
      (by omega) (by omega) (by omega)
    refine ⟨x', ?_, by push_cast; omega, by omega, by omega, ?_, ?_⟩
    · rw [upTo_succ _ _ (by omega)]
      unfold _merge_loop at E' ⊢
      simp only [List.foldlM_cons, rk, ro, Except.ok_bind, e2, add_sub_cancel_right, E1]
      exact E'
    · rw [vk', vk1, dk]
      have : (j + 1 - 1).toNat = (j - 1 + 1).toNat := by omega
      rw [this]
      simp
    · rw [vc', vc1, dc]
      simp

end InternalNode

namespace InternalNode
open BPlusTree

/-- Source `InternalNode::_merge`: the separator comes down, the keys and children of the right
node follow it, and the parent loses the separator and the slot of the right node. -/
theorem inner_merge_spec (d : Int) (hd : 2 ≤ d) (h : Nat) (a b : Option Int) (s : Int)
    (nx : Int) (kx : List Int) (cx : List (Option BPNode)) (ny : Int) (ky : List Int)
    (cy : List (Option BPNode))
    (hX : BInv d (h + 1) a (some s) (.internal nx kx cx))
    (hY : BInv d (h + 1) (some s) b (.internal ny ky cy)) (hnx : nx = d - 1)
    (hny : ny ≤ d - 1) (n : Int) (key : List Int) (c : List (Option BPNode))
    (J1 J2 : List Int) (T1 T2 : List (Option BPNode)) (oX oY : Option BPNode)
    (hkl : n ≤ key.length) (hcl : n + 1 ≤ c.length) (hK : view key n = J1 ++ s :: J2)
    (hS : view c (n + 1) = T1 ++ oX :: oY :: T2) (hl : T1.length = J1.length) :
    ∃ Z key' c', InternalNode._merge d ⟨nx, kx, cx⟩ (.internal n key c) (J1.length : Int)
        (.internal ny ky cy) = .ok (Z, .internal (n - 1) key' c') ∧
      key'.length = key.length ∧ c'.length = c.length ∧ view key' (n - 1) = J1 ++ J2 ∧
      view c' (n - 1 + 1) = T1 ++ oX :: T2 ∧ BInv d (h + 1) a b Z.toNode ∧
      Z.n = nx + 1 + ny ∧
      contents (h + 1) (some Z.toNode) = contents (h + 1) (some (.internal nx kx cx)) ++
        contents (h + 1) (some (.internal ny ky cy)) := by
  have hX0 := hX
  have hY0 := hY
  rw [BInv_internal] at hX0 hY0
  obtain ⟨x1, x2, x3, x4, hKX⟩ := hX0
  obtain ⟨y1, y2, y3, y4, hKY⟩ := hY0
  have rs := rd_sep hK
  obtain ⟨o0, ro, dc⟩ := view_drop_cons cy (ny + 1) 0 (le_refl _) (by omega) (by omega)
  obtain ⟨Z1, E1, n1, lk1, lc1, vk1, vc1⟩ := push_run ⟨nx, kx, cx⟩ s o0 (by simp only; omega)
    (by simp only; omega) (by simp only; omega)
  simp only at n1 lk1 lc1 vk1 vc1 E1
  obtain ⟨Z, E2, n2, lk2, lc2, vk2, vc2⟩ := inner_merge_loop d ⟨ny, ky, cy⟩ (by simp only; omega)
    (by simp only; omega) ny.toNat 1 Z1 (le_refl _) (by simp only; omega) (by omega) (by omega)
    (by omega) (by omega)
  simp only at E2 vk2 vc2
  obtain ⟨key', c', R, q1, q2, q3, q4⟩ := parent_remove n key c J1 J2 T1 T2 s oX oY
    hkl hcl hK hS hl
  have e1 : d - 1 = nx := by omega
  have e2 : d = nx + 1 := by omega
  have hvk : view Z.key Z.n = view kx nx ++ s :: view ky ny := by
    rw [vk2, vk1]
    simp
  have hvc : view Z.c (Z.n + 1) = view cx (nx + 1) ++ view cy (ny + 1) := by
    rw [vc2, vc1]
    simp only [Int.toNat_zero, List.drop_zero, zero_add, Int.toNat_one] at dc ⊢
    rw [List.append_assoc, List.singleton_append, ← dc]
  have lSX : (view cx (nx + 1)).length = (view kx nx).length + 1 := KI_length hKX
  refine ⟨Z, key', c', ?_, q1, q2, q3, q4, ?_, by omega, ?_⟩
  · simp only [InternalNode._merge, BPNode.asInternal, Except.ok_bind, rs, ro, BPNode.key,
      Except.pure_eq_ok, InternalNode.toNode, R]
    rw [e1]
    nth_rewrite 1 [e2]
    rw [E1]
    simp only [Except.ok_bind, E2]
  · simp only [InternalNode.toNode]
    rw [BInv_internal]
    refine ⟨by omega, by omega, by omega, by omega, ?_⟩
    rw [hvk, hvc, KI_join lSX]
    exact ⟨hKX, hKY⟩
  · simp only [InternalNode.toNode]
    rw [contents_internal, contents_internal, contents_internal, hvc, List.flatMap_append]

end InternalNode

namespace BPlusTree

theorem BInv.leaf_pairs {d : Int} {h : Nat} {lo hi : Option Int} {x : LeafNode}
    (hI : BInv d h lo hi (.leaf x)) : h = 0 ∧ x.Inv d lo hi := by
  cases h with
  | zero => exact ⟨rfl, BInv_leaf.mp hI⟩
  | succ h => simp [BInv] at hI

/-- The virtual call `self->_borrow_from_left(p, i, l)` on a node with `d - 1` keys whose left
sibling has more. -/
theorem borrow_left_node (d : Int) (hd : 2 ≤ d) (h : Nat) (a b : Option Int) (s : Int)
    (X Y : BPNode) (hX : BInv d h a (some s) X) (hY : BInv d h (some s) b Y) (hXn : d ≤ X.n)
    (hYn : Y.n = d - 1) (n : Int) (key : List Int) (c : List (Option BPNode))
    (J1 J2 : List Int) (hK : view key n = J1 ++ s :: J2) :
    ∃ X' Y' s' key', Y._borrow_from_left (.internal n key c) (J1.length : Int) X
        = .ok (Y', .internal n key' c, X') ∧
      key'.length = key.length ∧ view key' n = J1 ++ s' :: J2 ∧ BInv d h a (some s') X' ∧
      BInv d h (some s') b Y' ∧ d - 1 ≤ X'.n ∧ d ≤ Y'.n ∧
      (contents h (some X') ++ contents h (some Y')).Perm
        (contents h (some X) ++ contents h (some Y)) ∧
      (∀ q ∈ contents h (some Y), q ∈ contents h (some Y')) := by
  cases h with
  | zero =>
    cases X with
    | internal nx kx cx => simp [BInv] at hX
    | leaf x =>
      cases Y with
      | internal ny ky cy => simp [BInv] at hY
      | leaf y =>
        have hsb := (BInv.facts d hd 0 _ _ _ hY).2 (by omega)
        rw [BInv_leaf] at hX hY
        simp only [BPNode.n] at hXn hYn
        have ox := hX.1.2.2.2.2.2.1
        have oy := hY.1.2.2.2.2.2.1
        have oy1 := hY.2.1
        obtain ⟨X', Y', s', key', E, q1, q2, iX, iY, nX, nY, oX, oY, hp, hsub⟩ :=
          LeafNode.leaf_borrow_left d hd a b s x y hX hY (by omega) (by omega)
            (fun bb hbb => hsb s bb rfl hbb) n key c J1 J2 hK
        refine ⟨.leaf X', .leaf Y', s', key', ?_, q1, q2, BInv_leaf.mpr iX, BInv_leaf.mpr iY,
          by simp only [BPNode.n]; omega, by simp only [BPNode.n]; omega, hp, hsub⟩
        simp only [BPNode._borrow_from_left, E, Except.ok_bind, Except.pure_eq_ok,
          LeafNode.toNode]
  | succ h =>
    cases X with
    | leaf x => simp [BInv] at hX
    | internal nx kx cx =>
      cases Y with
      | leaf y => simp [BInv] at hY
      | internal ny ky cy =>
        simp only [BPNode.n] at hXn hYn
        obtain ⟨X', Y', s', key', E, q1, q2, iX, iY, nX, nY, hp, hsub⟩ :=
          InternalNode.inner_borrow_left d hd h a b s nx kx cx ny ky cy hX hY (by omega)
            (by omega) n key c J1 J2 hK
        refine ⟨X', Y'.toNode, s', key', ?_, q1, q2, iX, iY, by omega, ?_, hp, hsub⟩
        · simp only [BPNode._borrow_from_left, E, Except.ok_bind, Except.pure_eq_ok]
        · simp only [InternalNode.toNode, BPNode.n]; omega

/-- The virtual call `self->_borrow_from_right(p, i, r)` on a node with `d - 1` keys whose right
sibling has more. -/
theorem borrow_right_node (d : Int) (hd : 2 ≤ d) (h : Nat) (a b : Option Int) (s : Int)
    (X Y : BPNode) (hX : BInv d h a (some s) X) (hY : BInv d h (some s) b Y) (hYn : d ≤ Y.n)
    (hXn : X.n = d - 1) (n : Int) (key : List Int) (c : List (Option BPNode))
    (J1 J2 : List Int) (hK : view key n = J1 ++ s :: J2) :
    ∃ X' Y' s' key', X._borrow_from_right (.internal n key c) (J1.length : Int) Y
        = .ok (X', .internal n key' c, Y') ∧
      key'.length = key.length ∧ view key' n = J1 ++ s' :: J2 ∧ BInv d h a (some s') X' ∧
      BInv d h (some s') b Y' ∧ d ≤ X'.n ∧ d - 1 ≤ Y'.n ∧
      (contents h (some X') ++ contents h (some Y')).Perm
        (contents h (some X) ++ contents h (some Y)) ∧
      (∀ q ∈ contents h (some X), q ∈ contents h (some X')) := by
  cases h with
  | zero =>
    cases X with
    | internal nx kx cx => simp [BInv] at hX
    | leaf x =>
      cases Y with
      | internal ny ky cy => simp [BInv] at hY
      | leaf y =>
        rw [BInv_leaf] at hX hY
        simp only [BPNode.n] at hXn hYn
        have ox := hX.1.2.2.2.2.2.1
        have oy := hY.1.2.2.2.2.2.1
        have ox1 := hX.2.1
        obtain ⟨X', Y', s', key', E, q1, q2, iX, iY, nX, nY, oX, oY, hp, hsub⟩ :=
          LeafNode.leaf_borrow_right d hd a b s x y hX hY (by omega) (by omega) (by omega)
            n key c J1 J2 hK
        refine ⟨.leaf X', .leaf Y', s', key', ?_, q1, q2, BInv_leaf.mpr iX, BInv_leaf.mpr iY,
          by simp only [BPNode.n]; omega, by simp only [BPNode.n]; omega, hp, hsub⟩
        simp only [BPNode._borrow_from_right, E, Except.ok_bind, Except.pure_eq_ok,
          LeafNode.toNode]
  | succ h =>
    cases X with
    | leaf x => simp [BInv] at hX
    | internal nx kx cx =>
      cases Y with
      | leaf y => simp [BInv] at hY
      | internal ny ky cy =>
        simp only [BPNode.n] at hXn hYn
        obtain ⟨X', Y', s', key', E, q1, q2, iX, iY, nX, nY, hp, hsub⟩ :=
          InternalNode.inner_borrow_right d hd h a b s nx kx cx ny ky cy hX hY (by omega)
            (by omega) n key c J1 J2 hK
        refine ⟨X'.toNode, Y', s', key', ?_, q1, q2, iX, iY, ?_, by omega, hp, hsub⟩
        · simp only [BPNode._borrow_from_right, E, Except.ok_bind, Except.pure_eq_ok]
        · simp only [InternalNode.toNode, BPNode.n]; omega

/-- The virtual call `self->_merge(p, i, r)` on two neighbours with `d - 1` keys each. -/
theorem merge_node (d : Int) (hd : 2 ≤ d) (h : Nat) (a b : Option Int) (s : Int)
    (X Y : BPNode) (hX : BInv d h a (some s) X) (hY : BInv d h (some s) b Y)
    (hXn : X.n = d - 1) (hYn : Y.n = d - 1)
    (hov : ∀ x y, X = .leaf x → Y = .leaf y → x.overflow_n + y.overflow_n ≤ 1)
    (n : Int) (key : List Int) (c : List (Option BPNode))
    (J1 J2 : List Int) (T1 T2 : List (Option BPNode)) (oX oY : Option BPNode)
    (hkl : n ≤ key.length) (hcl : n + 1 ≤ c.length) (hK : view key n = J1 ++ s :: J2)
    (hS : view c (n + 1) = T1 ++ oX :: oY :: T2) (hl : T1.length = J1.length) :
    ∃ Z key' c', X._merge d (.internal n key c) (J1.length : Int) Y
        = .ok (Z, .internal (n - 1) key' c') ∧
      key'.length = key.length ∧ c'.length = c.length ∧ view key' (n - 1) = J1 ++ J2 ∧
      view c' (n - 1 + 1) = T1 ++ oX :: T2 ∧ BInv d h a b Z ∧ d ≤ Z.n ∧
      (contents h (some Z)).Perm (contents h (some X) ++ contents h (some Y)) := by
  cases h with
  | zero =>
    cases X with
    | internal nx kx cx => simp [BInv] at hX
    | leaf x =>
      cases Y with
      | internal ny ky cy => simp [BInv] at hY
      | leaf y =>
        rw [BInv_leaf] at hX hY
        simp only [BPNode.n] at hXn hYn
        have ox := hX.1.2.2.2.2.2.1
        have oy := hY.1.2.2.2.2.2.1
        have := hov x y rfl rfl
        obtain ⟨Z, key', c', E, q1, q2, q3, q4, iZ, nZ, oZ, hp⟩ :=
          LeafNode.leaf_merge_spec d hd a b s x y hX hY (by omega) (by omega) (by omega)
            n key c J1 J2 T1 T2 oX oY hkl hcl hK hS hl
        refine ⟨.leaf Z, key', c', ?_, q1, q2, q3, q4, BInv_leaf.mpr iZ,
          by simp only [BPNode.n]; omega, hp⟩
        simp only [BPNode._merge, E, Except.ok_bind, Except.pure_eq_ok, LeafNode.toNode]
  | succ h =>
    cases X with
    | leaf x => simp [BInv] at hX
    | internal nx kx cx =>
      cases Y with
      | leaf y => simp [BInv] at hY
      | internal ny ky cy =>
        simp only [BPNode.n] at hXn hYn
        obtain ⟨Z, key', c', E, q1, q2, q3, q4, iZ, nZ, hp⟩ :=
          InternalNode.inner_merge_spec d hd h a b s nx kx cx ny ky cy hX hY hXn (by omega)
            n key c J1 J2 T1 T2 oX oY hkl hcl hK hS hl
        refine ⟨Z.toNode, key', c', ?_, q1, q2, q3, q4, iZ, ?_, by rw [hp]⟩
        · simp only [BPNode._merge, E, Except.ok_bind, Except.pure_eq_ok]
        · simp only [InternalNode.toNode, BPNode.n]; omega

end BPlusTree

namespace BPlusTree

/-- Two neighbouring children of an Internal node and the separator between them. -/
theorem BInv.pair {d : Int} {h : Nat} {lo hi : Option Int} {n : Int} {key : List Int}
    {c : List (Option BPNode)} {J1 J2 : List Int} {s : Int}
    (hI : BInv d (h + 1) lo hi (.internal n key c)) (hK : view key n = J1 ++ s :: J2) :
    ∃ T1 X Y T2, view c (n + 1) = T1 ++ some X :: some Y :: T2 ∧ T1.length = J1.length ∧
      KPre (Kid d h) lo T1 J1 ∧ BInv d h (lastOr lo J1) (some s) X ∧ d - 1 ≤ X.n ∧
      BInv d h (some s) (headOr hi J2) Y ∧ d - 1 ≤ Y.n ∧ KPost (Kid d h) hi T2 J2 := by
  obtain ⟨S1, X, S2, hS, hl, _, _, hX, hXn, hpre, hpost⟩ := hI.child hK
  simp only [KPost] at hpost
  cases S2 with
  | nil => cases J2 <;> simp [KI] at hpost
  | cons o S2 =>
    rw [KI_head] at hpost
    obtain ⟨⟨Y, rfl, hY, hYn⟩, hpost⟩ := hpost
    exact ⟨S1, X, Y, S2, hS, hl, hpre, hX, hXn, hY, hYn, hpost⟩

/-- An Internal node put together from two neighbouring children and what surrounds them. -/
theorem BInv.pair_put {d : Int} {h : Nat} {lo hi : Option Int} {n : Int} {key : List Int}
    {c : List (Option BPNode)} {J1 J2 : List Int} {s : Int} {T1 T2 : List (Option BPNode)}
    {X Y : BPNode} (hkl : (key.length : Int) = 2 * d - 1) (hcl : (c.length : Int) = 2 * d)
    (hn1 : 1 ≤ n) (hn2 : n ≤ 2 * d - 1) (hK : view key n = J1 ++ s :: J2)
    (hS : view c (n + 1) = T1 ++ some X :: some Y :: T2) (hl : T1.length = J1.length)
    (hpre : KPre (Kid d h) lo T1 J1) (hX : BInv d h (lastOr lo J1) (some s) X)
    (hXn : d - 1 ≤ X.n) (hY : BInv d h (some s) (headOr hi J2) Y) (hYn : d - 1 ≤ Y.n)
    (hpost : KPost (Kid d h) hi T2 J2) : BInv d (h + 1) lo hi (.internal n key c) := by
  rw [BInv_internal]
  refine ⟨hkl, hcl, hn1, hn2, ?_⟩
  rw [hK, hS, KI_at hl]
  refine ⟨hpre, ⟨X, rfl, hX, hXn⟩, ?_⟩
  simp only [KPost]
  rw [KI_head]
  exact ⟨⟨Y, rfl, hY, hYn⟩, hpost⟩

/-- An Internal node put together from one child and what surrounds it. -/
theorem BInv.one_put {d : Int} {h : Nat} {lo hi : Option Int} {n : Int} {key : List Int}
    {c : List (Option BPNode)} {J1 J2 : List Int} {T1 T2 : List (Option BPNode)}
    {Z : BPNode} (hkl : (key.length : Int) = 2 * d - 1) (hcl : (c.length : Int) = 2 * d)
    (hn1 : 1 ≤ n) (hn2 : n ≤ 2 * d - 1) (hK : view key n = J1 ++ J2)
    (hS : view c (n + 1) = T1 ++ some Z :: T2) (hl : T1.length = J1.length)
    (hpre : KPre (Kid d h) lo T1 J1) (hZ : BInv d h (lastOr lo J1) (headOr hi J2) Z)
    (hZn : d - 1 ≤ Z.n) (hpost : KPost (Kid d h) hi T2 J2) :
    BInv d (h + 1) lo hi (.internal n key c) := by
  rw [BInv_internal]
  refine ⟨hkl, hcl, hn1, hn2, ?_⟩
  rw [hK, hS, KI_at hl]
  exact ⟨hpre, ⟨Z, rfl, hZ, hZn⟩, hpost⟩

/-- The statements that fetch a child, flush it when it is a leaf, and store it back. -/
theorem load_slot (d : Int) (h : Nat) (lo hi : Option Int) (n : Int) (key : List Int)
    (c : List (Option BPNode)) (hI : BInv d (h + 1) lo hi (.internal n key c)) (j : Int)
    (hj0 : 0 ≤ j) (hjn : j ≤ n) :
    ∃ x x1 c', rd c j = .ok (some x) ∧ x.loadIfLeaf = .ok x1 ∧
      (BPNode.internal n key c).putChild j x1 = .ok (.internal n key c') ∧
      BInv d (h + 1) lo hi (.internal n key c') ∧
      (contents (h + 1) (some (.internal n key c'))).Perm
        (contents (h + 1) (some (.internal n key c))) ∧
      rd c' j = .ok (some x1) ∧ (∀ i, i ≠ j → rd c' i = rd c i) ∧ x.n ≤ x1.n ∧
      d - 1 ≤ x.n ∧ (∀ y, x1 = .leaf y → y.overflow_n = 0) := by
  have hI0 := hI
  rw [BInv_internal] at hI0
  obtain ⟨g1, g2, g3, g4, hKI⟩ := hI0
  have hSl : (view c (n + 1)).length = (n + 1).toNat := view_length _ _ (by omega) (by omega)
  have hlt : j.toNat < (view c (n + 1)).length := by omega
  obtain ⟨l, u, x, hx, hIx, hxn⟩ := KI_mem hKI _ (List.getElem_mem hlt)
  have hget : (view c (n + 1))[j.toNat]? = some (some x) := by
    rw [List.getElem?_eq_getElem hlt, hx]
  have hrd : rd c j = .ok (some x) := rd_view (n := n + 1) hj0 (by omega) hget
  obtain ⟨x1, L, hI1, hp1, hn1, hf1⟩ := hIx.loadIfLeaf
  have W := wr_ok (a := c) (i := j) (some x1) hj0 (by omega)
  have hv : view (c.set j.toNat (some x1)) (n + 1) = (view c (n + 1)).set j.toNat (some x1) :=
    view_set_inside _ _ _ _
  refine ⟨x, x1, c.set j.toNat (some x1), hrd, L, ?_, ?_, ?_, ?_, ?_, hn1, hxn, hf1⟩
  · simp only [BPNode.putChild, BPNode.asInternal, Except.ok_bind, W, Except.pure_eq_ok,
      InternalNode.toNode]
  · rw [BInv_internal]
    refine ⟨g1, by rw [List.length_set]; exact g2, g3, g4, ?_⟩
    rw [hv]
    apply KI_set (some x1) _ _ _ _ _ hKI
    intro l' u' o2 ho2 hk
    rw [hget] at ho2
    simp only [Option.some.injEq] at ho2
    subst ho2
    obtain ⟨x', hx', hIx', hxn'⟩ := hk
    simp only [Option.some.injEq] at hx'
    subst hx'
    obtain ⟨x2, L2, hI2, _, hn2, _⟩ := hIx'.loadIfLeaf
    rw [L] at L2
    simp only [Except.ok.injEq] at L2
    subst L2
    exact ⟨x1, rfl, hI2, by omega⟩
  · rw [contents_internal, contents_internal, hv]
    apply flatMap_set_perm
    intro o2 ho2
    rw [hget] at ho2
    simp only [Option.some.injEq] at ho2
    subst ho2
    exact hp1
  · apply rd_ok hj0
    rw [List.getElem?_set_self (by omega)]
  · intro i hi
    exact rd_set_ne c i j (some x1) hj0 hi

/-- The key of a B+ tree that routes to a child is held under that child. -/
theorem routed_mem (d : Int) (hd : 2 ≤ d) (h : Nat) (lo hi : Option Int) (n : Int)
    (key : List Int) (c : List (Option BPNode)) (k : Int)
    (hI : BInv d (h + 1) lo hi (.internal n key c)) (K1 K2 : List Int)
    (hK : view key n = K1 ++ K2) (r1 : ∀ y ∈ K1, y ≤ k) (r2 : ∀ y ∈ K2, k < y)
    (hk : k ∈ (contents (h + 1) (some (.internal n key c))).map Prod.fst) (ch : BPNode)
    (hrd : rd c (K1.length : Int) = .ok (some ch)) :
    k ∈ (contents h (some ch)).map Prod.fst := by
  obtain ⟨S1, ch', S2, hS, hl, hrd', hle, hch, hchn, hpre, hpost⟩ := hI.child hK
  rw [hrd] at hrd'
  simp only [Except.ok.injEq, Option.some.injEq] at hrd'
  subst hrd'
  rw [contents_at hS] at hk
  simp only [List.map_append, List.mem_append] at hk
  rcases hk with hm | hm | hm
  · obtain ⟨q, hq, hqk⟩ := List.mem_map.mp hm
    have := KPre_lt (g := contents h) (Kid.keys hd) k hpre r1 q hq
    omega
  · exact hm
  · obtain ⟨q, hq, hqk⟩ := List.mem_map.mp hm
    have := KPost_gt (g := contents h) (Kid.keys hd) k hpost r2 q hq
    omega

end BPlusTree

namespace BPlusTree

/-- The last step of `_remove` on an Internal node whose routed child has at least `d` keys. -/
theorem finish_plain (d : Int) (hd : 2 ≤ d) (k : Int) (h f : Nat) (ih : RemStep d k h f)
    (lo hi : Option Int) (n : Int) (key : List Int) (c : List (Option BPNode))
    (hI : BInv d (h + 1) lo hi (.internal n key c)) (K1 K2 : List Int)
    (hK : view key n = K1 ++ K2) (r1 : ∀ y ∈ K1, y ≤ k) (r2 : ∀ y ∈ K2, k < y)
    (hk : k ∈ (contents (h + 1) (some (.internal n key c))).map Prod.fst) (ch : BPNode)
    (hrd : rd c (K1.length : Int) = .ok (some ch)) (hn : d ≤ ch.n) :
    ∃ ch' c' v, _remove d f ch k = .ok ch' ∧
      (BPNode.internal n key c).putChild (K1.length : Int) ch' = .ok (.internal n key c') ∧
      BInv d (h + 1) lo hi (.internal n key c') ∧
      (contents (h + 1) (some (.internal n key c))).Perm
        ((k, v) :: contents (h + 1) (some (.internal n key c'))) := by
  have hkc := routed_mem d hd h lo hi n key c k hI K1 K2 hK r1 r2 hk ch hrd
  obtain ⟨S1, ch0, S2, hS, hl, hrd', hle, hch, hchn, hpre, hpost⟩ := hI.child hK
  rw [hrd] at hrd'
  simp only [Except.ok.injEq, Option.some.injEq] at hrd'
  subst hrd'
  obtain ⟨ch', v, E, hch', hperm, hn'⟩ := ih _ _ ch hch hkc hn
  obtain ⟨c', P, hlen, hc', _⟩ := putChild_run key ch' hS
  rw [hl] at P
  refine ⟨ch', c', v, E, P, hI.put hK hS hl hc' hlen hch' hn', ?_⟩
  rw [contents_at hS, contents_at hc']
  exact ((List.Perm.append_left _ (List.Perm.append_right _ hperm)).trans
    (by simpa using List.perm_middle))

theorem flat_pair {h : Nat} {n : Int} {key : List Int} {c : List (Option BPNode)}
    {T1 T2 : List (Option BPNode)} {X Y : BPNode}
    (hS : view c (n + 1) = T1 ++ some X :: some Y :: T2) :
    contents (h + 1) (some (.internal n key c)) =
      T1.flatMap (contents h) ++
        ((contents h (some X) ++ contents h (some Y)) ++ T2.flatMap (contents h)) := by
  rw [contents_internal, hS]
  simp

/-- The borrow from the left sibling and the steps of `_remove` that follow it. -/
theorem finish_borrow_left (d : Int) (hd : 2 ≤ d) (k : Int) (h f : Nat)
    (ih : RemStep d k h f) (lo hi : Option Int) (n : Int) (key : List Int)
    (c : List (Option BPNode)) (hI : BInv d (h + 1) lo hi (.internal n key c))
    (K0 K2 : List Int) (s : Int) (hK : view key n = K0 ++ s :: K2)
    (r1 : ∀ y ∈ K0 ++ [s], y ≤ k) (r2 : ∀ y ∈ K2, k < y)
    (hk : k ∈ (contents (h + 1) (some (.internal n key c))).map Prod.fst) (l1 ch1 : BPNode)
    (hrl : rd c (K0.length : Int) = .ok (some l1))
    (hrc : rd c ((K0.length : Int) + 1) = .ok (some ch1)) (hln : d ≤ l1.n)
    (hcn : ch1.n = d - 1) :
    ∃ Y' key' X' c4 Y'' c5 v,
      ch1._borrow_from_left (.internal n key c) (K0.length : Int) l1
        = .ok (Y', .internal n key' c, X') ∧
      (BPNode.internal n key' c).putChild (K0.length : Int) X' = .ok (.internal n key' c4) ∧
      _remove d f Y' k = .ok Y'' ∧
      (BPNode.internal n key' c4).putChild ((K0.length : Int) + 1) Y''
        = .ok (.internal n key' c5) ∧
      BInv d (h + 1) lo hi (.internal n key' c5) ∧
      (contents (h + 1) (some (.internal n key c))).Perm
        ((k, v) :: contents (h + 1) (some (.internal n key' c5))) := by
  have hK' : view key n = (K0 ++ [s]) ++ K2 := by rw [hK]; simp
  have hrc' : rd c (((K0 ++ [s]).length : Nat) : Int) = .ok (some ch1) := by
    rw [List.length_append]; simpa using hrc
  have hkc := routed_mem d hd h lo hi n key c k hI (K0 ++ [s]) K2 hK' r1 r2 hk ch1 hrc'
  have hI0 := hI
  rw [BInv_internal] at hI0
  obtain ⟨g1, g2, g3, g4, _⟩ := hI0
  obtain ⟨T1, X, Y, T2, hS, hl, hpre, hX, hXn, hY, hYn, hpost⟩ := hI.pair hK
  have eX : X = l1 := by
    have := rd_chain hS
    rw [hl, hrl] at this
    simpa using this.symm
  have eY : Y = ch1 := by
    have := rd_chain2 hS
    rw [hl, hrc] at this
    simpa using this.symm
  subst eX eY
  obtain ⟨X', Y', s', key', E, q1, q2, iX, iY, nX, nY, hp, hsub⟩ :=
    borrow_left_node d hd h _ _ s X Y hX hY hln hcn n key c K0 K2 hK
  obtain ⟨c4, P4, l4, v4, _⟩ := putChild_run key' X' hS
  rw [hl] at P4
  have hkY' : k ∈ (contents h (some Y')).map Prod.fst := by
    obtain ⟨q, hq, hqk⟩ := List.mem_map.mp hkc
    exact List.mem_map.mpr ⟨q, hsub q hq, hqk⟩
  obtain ⟨Y'', v, ER, iY'', pY'', nY''⟩ := ih _ _ Y' iY hkY' nY
  have v4' : view c4 (n + 1) = (T1 ++ [some X']) ++ some Y :: T2 := by rw [v4]; simp
  obtain ⟨c5, P5, l5, v5, _⟩ := putChild_run key' Y'' v4'
  have e5 : (((T1 ++ [some X']).length : Nat) : Int) = (K0.length : Int) + 1 := by
    rw [List.length_append, hl]; simp
  rw [e5] at P5
  have v5' : view c5 (n + 1) = T1 ++ some X' :: some Y'' :: T2 := by rw [v5]; simp
  refine ⟨Y', key', X', c4, Y'', c5, v, E, P4, ER, P5, ?_, ?_⟩
  · exact BInv.pair_put (by omega) (by omega) g3 g4 q2 v5' hl hpre iX nX iY'' nY'' hpost
  · rw [flat_pair hS, flat_pair v5']
    apply perm_mid
    exact hp.symm.trans ((List.Perm.append_left _ pY'').trans List.perm_middle)

end BPlusTree

namespace BPlusTree

/-- The borrow from the right sibling and the steps of `_remove` that follow it. -/
theorem finish_borrow_right (d : Int) (hd : 2 ≤ d) (k : Int) (h f : Nat)
    (ih : RemStep d k h f) (lo hi : Option Int) (n : Int) (key : List Int)
    (c : List (Option BPNode)) (hI : BInv d (h + 1) lo hi (.internal n key c))
    (K1 K3 : List Int) (s : Int) (hK : view key n = K1 ++ s :: K3)
    (r1 : ∀ y ∈ K1, y ≤ k) (r2 : ∀ y ∈ s :: K3, k < y)
    (hk : k ∈ (contents (h + 1) (some (.internal n key c))).map Prod.fst) (ch1 rr : BPNode)
    (hrc : rd c (K1.length : Int) = .ok (some ch1))
    (hrr : rd c ((K1.length : Int) + 1) = .ok (some rr)) (hrn : d ≤ rr.n)
    (hcn : ch1.n = d - 1) :
    ∃ X' key' Y' c4 X'' c5 v,
      ch1._borrow_from_right (.internal n key c) (K1.length : Int) rr
        = .ok (X', .internal n key' c, Y') ∧
      (BPNode.internal n key' c).putChild ((K1.length : Int) + 1) Y'
        = .ok (.internal n key' c4) ∧
      _remove d f X' k = .ok X'' ∧
      (BPNode.internal n key' c4).putChild (K1.length : Int) X'' = .ok (.internal n key' c5) ∧
      BInv d (h + 1) lo hi (.internal n key' c5) ∧
      (contents (h + 1) (some (.internal n key c))).Perm
        ((k, v) :: contents (h + 1) (some (.internal n key' c5))) := by
  have hkc := routed_mem d hd h lo hi n key c k hI K1 (s :: K3) hK r1 r2 hk ch1 hrc
  have hI0 := hI
  rw [BInv_internal] at hI0
  obtain ⟨g1, g2, g3, g4, _⟩ := hI0
  obtain ⟨T1, X, Y, T2, hS, hl, hpre, hX, hXn, hY, hYn, hpost⟩ := hI.pair hK
  have eX : X = ch1 := by
    have := rd_chain hS
    rw [hl, hrc] at this
    simpa using this.symm
  have eY : Y = rr := by
    have := rd_chain2 hS
    rw [hl, hrr] at this
    simpa using this.symm
  subst eX eY
  obtain ⟨X', Y', s', key', E, q1, q2, iX, iY, nX, nY, hp, hsub⟩ :=
    borrow_right_node d hd h _ _ s X Y hX hY hrn hcn n key c K1 K3 hK
  have hS' : view c (n + 1) = (T1 ++ [some X]) ++ some Y :: T2 := by rw [hS]; simp
  obtain ⟨c4, P4, l4, v4, _⟩ := putChild_run key' Y' hS'
  have e4 : (((T1 ++ [some X]).length : Nat) : Int) = (K1.length : Int) + 1 := by
    rw [List.length_append, hl]; simp
  rw [e4] at P4
  have hkX' : k ∈ (contents h (some X')).map Prod.fst := by
    obtain ⟨q, hq, hqk⟩ := List.mem_map.mp hkc
    exact List.mem_map.mpr ⟨q, hsub q hq, hqk⟩
  obtain ⟨X'', v, ER, iX'', pX'', nX''⟩ := ih _ _ X' iX hkX' nX
  have v4' : view c4 (n + 1) = T1 ++ some X :: (some Y' :: T2) := by rw [v4]; simp
  obtain ⟨c5, P5, l5, v5, _⟩ := putChild_run key' X'' v4'
  rw [hl] at P5
  refine ⟨X', key', Y', c4, X'', c5, v, E, P4, ER, P5, ?_, ?_⟩
  · exact BInv.pair_put (by omega) (by omega) g3 g4 q2 v5 hl hpre iX'' nX'' iY nY hpost
  · rw [flat_pair hS, flat_pair v5]
    apply perm_mid
    exact hp.symm.trans (List.Perm.append_right _ pX'')

/-- The merge of two neighbours and the steps of `_remove` that follow it. -/
theorem finish_merge (d : Int) (hd : 2 ≤ d) (k : Int) (h f : Nat)
    (ih : RemStep d k h f) (lo hi : Option Int) (n : Int) (key : List Int)
    (c : List (Option BPNode)) (hI : BInv d (h + 1) lo hi (.internal n key c))
    (J1 J2 : List Int) (s : Int) (hK : view key n = J1 ++ s :: J2) (hn2 : 2 ≤ n)
    (X Y : BPNode) (hrX : rd c (J1.length : Int) = .ok (some X))
    (hrY : rd c ((J1.length : Int) + 1) = .ok (some Y)) (hXn : X.n = d - 1)
    (hYn : Y.n = d - 1)
    (hov : ∀ x y, X = .leaf x → Y = .leaf y → x.overflow_n + y.overflow_n ≤ 1)
    (hk : k ∈ (contents h (some X)).map Prod.fst ∨ k ∈ (contents h (some Y)).map Prod.fst) :
    ∃ Z key' c' Z' c'' v,
      X._merge d (.internal n key c) (J1.length : Int) Y = .ok (Z, .internal (n - 1) key' c') ∧
      _remove d f Z k = .ok Z' ∧
      (BPNode.internal (n - 1) key' c').putChild (J1.length : Int) Z'
        = .ok (.internal (n - 1) key' c'') ∧
      BInv d (h + 1) lo hi (.internal (n - 1) key' c'') ∧
      (contents (h + 1) (some (.internal n key c))).Perm
        ((k, v) :: contents (h + 1) (some (.internal (n - 1) key' c''))) := by
  have hI0 := hI
  rw [BInv_internal] at hI0
  obtain ⟨g1, g2, g3, g4, _⟩ := hI0
  obtain ⟨T1, X0, Y0, T2, hS, hl, hpre, hX, hXn0, hY, hYn0, hpost⟩ := hI.pair hK
  have eX : X0 = X := by
    have := rd_chain hS
    rw [hl, hrX] at this
    simpa using this.symm
  have eY : Y0 = Y := by
    have := rd_chain2 hS
    rw [hl, hrY] at this
    simpa using this.symm
  subst eX eY
  obtain ⟨Z, key', c', E, q1, q2, q3, q4, iZ, nZ, hp⟩ :=
    merge_node d hd h _ _ s X0 Y0 hX hY hXn hYn hov n key c J1 J2 T1 T2 (some X0) (some Y0)
      (by omega) (by omega) hK hS hl
  have hkZ : k ∈ (contents h (some Z)).map Prod.fst := by
    apply (hp.map Prod.fst).mem_iff.mpr
    simp only [List.map_append, List.mem_append]
    exact hk
  obtain ⟨Z', v, ER, iZ', pZ', nZ'⟩ := ih _ _ Z iZ hkZ nZ
  obtain ⟨c'', P, l5, v5, _⟩ := putChild_run key' Z' q4
  rw [hl] at P
  refine ⟨Z, key', c', Z', c'', v, E, ER, P, ?_, ?_⟩
  · exact BInv.one_put (by omega) (by omega) (by omega) (by omega) q3 v5 hl hpre iZ' nZ' hpost
  · rw [flat_pair hS, contents_at v5]
    apply perm_mid
    exact hp.symm.trans pZ'

end BPlusTree

set_option maxHeartbeats 1000000

namespace BPlusTree

theorem loadSibling_some {x x1 : BPNode} (h : x.loadIfLeaf = .ok x1) :
    loadSibling (some x) = .ok (some x1) := by
  simp only [loadSibling, h, Except.ok_bind, Except.pure_eq_ok]

theorem loadSibling_none : loadSibling none = .ok none := rfl

/-- Source `BPlusTree::_remove` on an Internal node whose routed child has no left sibling. -/
theorem remove_first (d : Int) (hd : 2 ≤ d) (k : Int) (h f : Nat) (ih : RemStep d k h f)
    (lo hi : Option Int) (n : Int) (key : List Int) (c : List (Option BPNode))
    (hI : BInv d (h + 1) lo hi (.internal n key c))
    (hk : k ∈ (contents (h + 1) (some (.internal n key c))).map Prod.fst)
    (hr : 2 ≤ n ∨ ∃ l r, rd c 0 = .ok (some l) ∧ rd c 1 = .ok (some r) ∧
      ¬ (l.n = d - 1 ∧ r.n = d - 1))
    (ki : Int) (K2 : List Int) (e1 : (BPNode.internal n key c)._get_key_index k = .ok ki)
    (e2 : (⟨n, key, c⟩ : InternalNode)._get_child_index k ki = .ok 0)
    (hK : view key n = [] ++ K2) (r2 : ∀ y ∈ K2, k < y) :
    ∃ p' v, _remove d (f + 1) (.internal n key c) k = .ok p' ∧ BInv d (h + 1) lo hi p' ∧
      (contents (h + 1) (some (.internal n key c))).Perm ((k, v) :: contents (h + 1) (some p')) ∧
      n - 1 ≤ p'.n := by
  have hI0 := hI
  rw [BInv_internal] at hI0
  obtain ⟨g1, g2, g3, g4, _⟩ := hI0
  obtain ⟨ch, ch1, c1, hrd, L, P1, hI1, perm1, rd1, frame1, n1, hxn, fl1⟩ :=
    load_slot d h lo hi n key c hI 0 (le_refl _) (by omega)
  have hk1 : k ∈ (contents (h + 1) (some (.internal n key c1))).map Prod.fst :=
    (perm1.map Prod.fst).mem_iff.mpr hk
  have r1 : ∀ y ∈ ([] : List Int), y ≤ k := fun y hy => absurd hy (by simp)
  by_cases hfill : d - 1 = ch1.n
  · obtain ⟨r0, rr1, c3, hrdr, LR, P3, hI3, perm3, rd3, frame3, nr, hrn0, flr⟩ :=
      load_slot d h lo hi n key c1 hI1 1 (by omega) (by omega)
    have hrdr0 : rd c 1 = .ok (some r0) := by
      rw [← frame1 1 (by omega)]; exact hrdr
    have hk3 : k ∈ (contents (h + 1) (some (.internal n key c3))).map Prod.fst :=
      (perm3.map Prod.fst).mem_iff.mpr hk1
    have hc3 : rd c3 ((([] : List Int).length : Nat) : Int) = .ok (some ch1) := by
      rw [frame3 _ (by simp)]; exact rd1
    obtain ⟨s, K3, rfl⟩ : ∃ s K3, K2 = s :: K3 := by
      cases K2 with
      | nil =>
        have := congrArg List.length hK
        rw [view_length _ _ (by omega) (by omega)] at this
        simp only [List.append_nil, List.length_nil] at this
        omega
      | cons s K3 => exact ⟨s, K3, rfl⟩
    have hn0 : 0 < n := by omega
    by_cases hb : rr1.n > d - 1
    · have hb' : ch1.n < rr1.n := by omega
      obtain ⟨X', key', Y', c4, X'', c5, v, E, P4, ER, P5, hI5, perm5⟩ :=
        finish_borrow_right d hd k h f ih lo hi n key c3 hI3 [] K3 s hK r1 r2 hk3 ch1 rr1 hc3
          (by simpa using rd3) (by omega) hfill.symm
      simp only [List.length_nil, Nat.cast_zero, zero_add] at E P4 P5
      refine ⟨_, v, ?_, hI5, (perm1.symm.trans perm3.symm).trans perm5, by simp only [BPNode.n]; omega⟩
      simp only [_remove, BPNode.leaf_, Bool.false_eq_true, if_false, ite_false,
        BPNode.asInternal, Except.ok_bind, Except.pure_eq_ok, e1, e2, hrd, deref, L, P1, hfill,
        if_true, ite_true, lt_irrefl, gt_iff_lt, hn0, zero_add, hrdr0, loadSibling_none,
        loadSibling_some LR, P3, hb', E, P4, ER, P5]
    · have hb' : ¬ ch1.n < rr1.n := by omega
      have hn2 : 2 ≤ n := by
        rcases hr with hr | ⟨l, r, hl, hr', hne⟩
        · exact hr
        · rw [hrd] at hl
          rw [hrdr0] at hr'
          simp only [Except.ok.injEq, Option.some.injEq] at hl hr'
          subst hl hr'
          exact absurd ⟨by omega, by omega⟩ hne
      have hkc := routed_mem d hd h lo hi n key c3 k hI3 [] (s :: K3) hK r1 r2 hk3 ch1 hc3
      obtain ⟨Z, key', c', Z', c'', v, E, ER, P5, hI5, perm5⟩ :=
        finish_merge d hd k h f ih lo hi n key c3 hI3 [] K3 s hK hn2 ch1 rr1 hc3
          (by simpa using rd3) hfill.symm (by omega)
          (fun x y hx hy => by have := fl1 x hx; have := flr y hy; omega) (Or.inl hkc)
      simp only [List.length_nil, Nat.cast_zero, zero_add] at E P5
      refine ⟨_, v, ?_, hI5, (perm1.symm.trans perm3.symm).trans perm5, by simp only [BPNode.n]; omega⟩
      simp only [_remove, BPNode.leaf_, Bool.false_eq_true, if_false, ite_false,
        BPNode.asInternal, Except.ok_bind, Except.pure_eq_ok, e1, e2, hrd, deref, L, P1, hfill,
        if_true, ite_true, lt_irrefl, gt_iff_lt, hn0, zero_add, hrdr0, loadSibling_none,
        loadSibling_some LR, P3, hb', E, ER, P5]
  · have hc1 : rd c1 ((([] : List Int).length : Nat) : Int) = .ok (some ch1) := rd1
    obtain ⟨ch', c', v, ER, P5, hI5, perm5⟩ := finish_plain d hd k h f ih lo hi n key c1 hI1 []
      K2 hK r1 r2 hk1 ch1 hc1 (by omega)
    simp only [List.length_nil, Nat.cast_zero] at P5
    refine ⟨_, v, ?_, hI5, perm1.symm.trans perm5, by simp only [BPNode.n]; omega⟩
    simp only [_remove, BPNode.leaf_, Bool.false_eq_true, if_false, ite_false,
      BPNode.asInternal, Except.ok_bind, Except.pure_eq_ok, e1, e2, hrd, deref, L, P1, hfill,
      if_false, ite_false, ER, P5]

end BPlusTree

namespace BPlusTree

/-- Source `BPlusTree::_remove` on an Internal node whose routed child has a left sibling. -/
theorem remove_later (d : Int) (hd : 2 ≤ d) (k : Int) (h f : Nat) (ih : RemStep d k h f)
    (lo hi : Option Int) (n : Int) (key : List Int) (c : List (Option BPNode))
    (hI : BInv d (h + 1) lo hi (.internal n key c))
    (hk : k ∈ (contents (h + 1) (some (.internal n key c))).map Prod.fst)
    (hr : 2 ≤ n ∨ ∃ l r, rd c 0 = .ok (some l) ∧ rd c 1 = .ok (some r) ∧
      ¬ (l.n = d - 1 ∧ r.n = d - 1))
    (ki : Int) (K0 : List Int) (s0 : Int) (K2 : List Int)
    (e1 : (BPNode.internal n key c)._get_key_index k = .ok ki)
    (e2 : (⟨n, key, c⟩ : InternalNode)._get_child_index k ki = .ok ((K0.length : Int) + 1))
    (hK : view key n = (K0 ++ [s0]) ++ K2) (r1 : ∀ y ∈ K0 ++ [s0], y ≤ k)
    (r2 : ∀ y ∈ K2, k < y) :
    ∃ p' v, _remove d (f + 1) (.internal n key c) k = .ok p' ∧ BInv d (h + 1) lo hi p' ∧
      (contents (h + 1) (some (.internal n key c))).Perm ((k, v) :: contents (h + 1) (some p')) ∧
      n - 1 ≤ p'.n := by
  have hI0 := hI
  rw [BInv_internal] at hI0
  obtain ⟨g1, g2, g3, g4, _⟩ := hI0
  have hKl := congrArg List.length hK
  rw [view_length _ _ (by omega) (by omega)] at hKl
  simp only [List.length_append, List.length_singleton] at hKl
  have hK' : view key n = K0 ++ s0 :: K2 := by rw [hK]; simp
  have eL : (((K0 ++ [s0]).length : Nat) : Int) = (K0.length : Int) + 1 := by
    rw [List.length_append]; simp
  obtain ⟨ch, ch1, c1, hrd, L, P1, hI1, perm1, rd1, frame1, n1, hxn, fl1⟩ :=
    load_slot d h lo hi n key c hI ((K0.length : Int) + 1) (by omega) (by omega)
  have hk1 : k ∈ (contents (h + 1) (some (.internal n key c1))).map Prod.fst :=
    (perm1.map Prod.fst).mem_iff.mpr hk
  have hpos : (0 : Int) < (K0.length : Int) + 1 := by omega
  by_cases hfill : d - 1 = ch1.n
  · obtain ⟨l0, l1, c2, hrdl, LL, P2, hI2, perm2, rd2, frame2, nl, hln0, fll⟩ :=
      load_slot d h lo hi n key c1 hI1 (K0.length : Int) (by omega) (by omega)
    have hrdl0 : rd c (K0.length : Int) = .ok (some l0) := by
      rw [← frame1 _ (by omega)]; exact hrdl
    have hk2 : k ∈ (contents (h + 1) (some (.internal n key c2))).map Prod.fst :=
      (perm2.map Prod.fst).mem_iff.mpr hk1
    have hc2 : rd c2 ((K0.length : Int) + 1) = .ok (some ch1) := by
      rw [frame2 _ (by omega)]; exact rd1
    have hn2' : ¬ ch1.n < l1.n → 2 ≤ n := by
      intro hb
      rcases hr with hr | ⟨l, r, hl, hr', hne⟩
      · exact hr
      · by_contra hlt
        have hK0 : K0.length = 0 := by omega
        rw [hK0] at hrdl0 hrd
        simp only [Nat.cast_zero, zero_add] at hrdl0 hrd
        rw [hrdl0] at hl
        rw [hrd] at hr'
        simp only [Except.ok.injEq, Option.some.injEq] at hl hr'
        subst hl hr'
        exact absurd ⟨by omega, by omega⟩ hne
    by_cases hrn : (K0.length : Int) + 1 < n
    · obtain ⟨r0, rr1, c3, hrdr, LR, P3, hI3, perm3, rd3, frame3, nr, hrn0, flr⟩ :=
        load_slot d h lo hi n key c2 hI2 ((K0.length : Int) + 1 + 1) (by omega) (by omega)
      have hrdr0 : rd c ((K0.length : Int) + 1 + 1) = .ok (some r0) := by
        rw [← frame1 _ (by omega), ← frame2 _ (by omega)]; exact hrdr
      have hk3 : k ∈ (contents (h + 1) (some (.internal n key c3))).map Prod.fst :=
        (perm3.map Prod.fst).mem_iff.mpr hk2
      have hc3 : rd c3 ((K0.length : Int) + 1) = .ok (some ch1) := by
        rw [frame3 _ (by omega)]; exact hc2
      have hl3 : rd c3 (K0.length : Int) = .ok (some l1) := by
        rw [frame3 _ (by omega)]; exact rd2
      obtain ⟨s, K3, rfl⟩ : ∃ s K3, K2 = s :: K3 := by
        cases K2 with
        | nil => simp only [List.length_nil] at hKl; omega
        | cons s K3 => exact ⟨s, K3, rfl⟩
      by_cases hb : ch1.n < l1.n
      · obtain ⟨Y', key', X', c4, Y'', c5, v, E, P4, ER, P5, hI5, perm5⟩ :=
          finish_borrow_left d hd k h f ih lo hi n key c3 hI3 K0 (s :: K3) s0 hK' r1 r2 hk3
            l1 ch1 hl3 hc3 (by omega) hfill.symm
        refine ⟨_, v, ?_, hI5, ((perm1.symm.trans perm2.symm).trans perm3.symm).trans perm5,
          by simp only [BPNode.n]; omega⟩
        simp only [_remove, BPNode.leaf_, Bool.false_eq_true, if_false, ite_false,
          BPNode.asInternal, Except.ok_bind, Except.pure_eq_ok, e1, e2, hrd, deref, L, P1, hfill,
          if_true, ite_true, gt_iff_lt, hpos, hrn, add_sub_cancel_right, hrdl0, hrdr0,
          loadSibling_some LL, loadSibling_some LR, P2, P3, hb, E, P4, ER, P5]
      · by_cases hb2 : ch1.n < rr1.n
        · have hc3' : rd c3 (((K0 ++ [s0]).length : Nat) : Int) = .ok (some ch1) := by
            rw [eL]; exact hc3
          have hr3' : rd c3 ((((K0 ++ [s0]).length : Nat) : Int) + 1) = .ok (some rr1) := by
            rw [eL]; exact rd3
          obtain ⟨X', key', Y', c4, X'', c5, v, E, P4, ER, P5, hI5, perm5⟩ :=
            finish_borrow_right d hd k h f ih lo hi n key c3 hI3 (K0 ++ [s0]) K3 s hK r1 r2 hk3
              ch1 rr1 hc3' hr3' (by omega) hfill.symm
          rw [eL] at E P4 P5
          refine ⟨_, v, ?_, hI5, ((perm1.symm.trans perm2.symm).trans perm3.symm).trans perm5,
            by simp only [BPNode.n]; omega⟩
          simp only [_remove, BPNode.leaf_, Bool.false_eq_true, if_false, ite_false,
            BPNode.asInternal, Except.ok_bind, Except.pure_eq_ok, e1, e2, hrd, deref, L, P1,
            hfill, if_true, ite_true, gt_iff_lt, hpos, hrn, add_sub_cancel_right, hrdl0, hrdr0,
            loadSibling_some LL, loadSibling_some LR, P2, P3, hb, hb2, decide_True, E, P4, ER,
            P5]
        · have hkc := routed_mem d hd h lo hi n key c3 k hI3 (K0 ++ [s0]) (s :: K3) hK r1 r2
            hk3 ch1 (by rw [eL]; exact hc3)
          obtain ⟨Z, key', c', Z', c'', v, E, ER, P5, hI5, perm5⟩ :=
            finish_merge d hd k h f ih lo hi n key c3 hI3 K0 (s :: K3) s0 hK' (by omega) l1 ch1
              hl3 hc3 (by omega) hfill.symm
              (fun x y hx hy => by have := fll x hx; have := fl1 y hy; omega) (Or.inr hkc)
          refine ⟨_, v, ?_, hI5, ((perm1.symm.trans perm2.symm).trans perm3.symm).trans perm5,
            by simp only [BPNode.n]; omega⟩
          simp only [_remove, BPNode.leaf_, Bool.false_eq_true, if_false, ite_false,
            BPNode.asInternal, Except.ok_bind, Except.pure_eq_ok, e1, e2, hrd, deref, L, P1,
            hfill, if_true, ite_true, gt_iff_lt, hpos, hrn, add_sub_cancel_right, hrdl0, hrdr0,
            loadSibling_some LL, loadSibling_some LR, P2, P3, hb, hb2, decide_False, E, ER, P5]
    · have hK2 : K2 = [] := by
        cases K2 with
        | nil => rfl
        | cons s K3 => simp only [List.length_cons] at hKl; omega
      subst hK2
      have hl2 : rd c2 (K0.length : Int) = .ok (some l1) := rd2
      by_cases hb : ch1.n < l1.n
      · obtain ⟨Y', key', X', c4, Y'', c5, v, E, P4, ER, P5, hI5, perm5⟩ :=
          finish_borrow_left d hd k h f ih lo hi n key c2 hI2 K0 [] s0 hK' r1 r2 hk2
            l1 ch1 hl2 hc2 (by omega) hfill.symm
        refine ⟨_, v, ?_, hI5, (perm1.symm.trans perm2.symm).trans perm5,
          by simp only [BPNode.n]; omega⟩
        simp only [_remove, BPNode.leaf_, Bool.false_eq_true, if_false, ite_false,
          BPNode.asInternal, Except.ok_bind, Except.pure_eq_ok, e1, e2, hrd, deref, L, P1, hfill,
          if_true, ite_true, gt_iff_lt, hpos, hrn, add_sub_cancel_right, hrdl0,
          loadSibling_some LL, loadSibling_none, P2, hb, E, P4, ER, P5]
      · have hkc := routed_mem d hd h lo hi n key c2 k hI2 (K0 ++ [s0]) [] hK r1 r2
          hk2 ch1 (by rw [eL]; exact hc2)
        obtain ⟨Z, key', c', Z', c'', v, E, ER, P5, hI5, perm5⟩ :=
          finish_merge d hd k h f ih lo hi n key c2 hI2 K0 [] s0 hK' (hn2' hb) l1 ch1
            hl2 hc2 (by omega) hfill.symm
            (fun x y hx hy => by have := fll x hx; have := fl1 y hy; omega) (Or.inr hkc)
        refine ⟨_, v, ?_, hI5, (perm1.symm.trans perm2.symm).trans perm5,
          by simp only [BPNode.n]; omega⟩
        simp only [_remove, BPNode.leaf_, Bool.false_eq_true, if_false, ite_false,
          BPNode.asInternal, Except.ok_bind, Except.pure_eq_ok, e1, e2, hrd, deref, L, P1, hfill,
          if_true, ite_true, gt_iff_lt, hpos, hrn, add_sub_cancel_right, hrdl0,
          loadSibling_some LL, loadSibling_none, P2, hb, E, ER, P5]
  · have hc1 : rd c1 (((K0 ++ [s0]).length : Nat) : Int) = .ok (some ch1) := by
      rw [eL]; exact rd1
    obtain ⟨ch', c', v, ER, P5, hI5, perm5⟩ := finish_plain d hd k h f ih lo hi n key c1 hI1
      (K0 ++ [s0]) K2 hK r1 r2 hk1 ch1 hc1 (by omega)
    rw [eL] at P5
    refine ⟨_, v, ?_, hI5, perm1.symm.trans perm5, by simp only [BPNode.n]; omega⟩
    simp only [_remove, BPNode.leaf_, Bool.false_eq_true, if_false, ite_false,
      BPNode.asInternal, Except.ok_bind, Except.pure_eq_ok, e1, e2, hrd, deref, L, P1, hfill,
      if_false, ite_false, ER, P5]

end BPlusTree

namespace BPlusTree

/-- Source `BPlusTree::_remove` for a key held under a B+ tree whose root, when it has a single
key, does not have two children with `d - 1` keys each: the tree stays a B+ tree within the same
bounds and loses exactly the pair of the key. -/
theorem bp_remove_spec (d : Int) (hd : 2 ≤ d) (k : Int) : ∀ (h f : Nat) (lo hi : Option Int)
    (p : BPNode), h + 1 ≤ f → BInv d h lo hi p → k ∈ (contents h (some p)).map Prod.fst →
    (∀ n key c, p = .internal n key c → 2 ≤ n ∨ ∃ l r, rd c 0 = .ok (some l) ∧
      rd c 1 = .ok (some r) ∧ ¬ (l.n = d - 1 ∧ r.n = d - 1)) →
    ∃ p' v, _remove d f p k = .ok p' ∧ BInv d h lo hi p' ∧
      (contents h (some p)).Perm ((k, v) :: contents h (some p')) ∧ p.n - 1 ≤ p'.n := by
  intro h
  induction h with
  | zero =>
    intro f lo hi p hf hI hk hr
    obtain ⟨f, rfl⟩ : ∃ g, f = g + 1 := ⟨f - 1, by omega⟩
    cases p with
    | internal n key c => simp [BInv] at hI
    | leaf x =>
      rw [BInv_leaf] at hI
      obtain ⟨x', v, E, hI', hp, hn, _⟩ := remove_leaf d k f lo hi x hI hk
      refine ⟨.leaf x', v, E, BInv_leaf.mpr hI', hp, ?_⟩
      have := hI.1.2.2.2.2.2.1
      simp only [BPNode.n]; omega
  | succ h ih =>
    intro f lo hi p hf hI hk hr
    obtain ⟨f, rfl⟩ : ∃ g, f = g + 1 := ⟨f - 1, by omega⟩
    have ih' : RemStep d k h f := by
      intro lo hi p hI hk hn
      obtain ⟨p', v, E, hI', hp, hn'⟩ := ih f lo hi p (by omega) hI hk
        (fun n key c hp => Or.inl (by rw [hp] at hn; simp only [BPNode.n] at hn; omega))
      exact ⟨p', v, E, hI', hp, by omega⟩
    cases p with
    | leaf x => simp [BInv] at hI
    | internal n key c =>
      obtain ⟨hsort, _⟩ := hI.keys_sorted hd
      have hI0 := hI
      rw [BInv_internal] at hI0
      obtain ⟨k1, k2, k3, k4, hKI⟩ := hI0
      obtain ⟨ki, ci, K1, K2, e1, e2, hK, hci, r1, r2, _, _⟩ :=
        InternalNode.routing n key c k k3 (by omega) hsort
      subst hci
      rcases List.eq_nil_or_concat K1 with e | ⟨K0, s0, e⟩
      · subst e
        exact remove_first d hd k h f ih' lo hi n key c hI hk (hr n key c rfl) ki K2 e1 e2 hK r2
      · subst e
        rw [List.concat_eq_append] at hK r1 e2
        have eL : (((K0 ++ [s0]).length : Nat) : Int) = (K0.length : Int) + 1 := by
          rw [List.length_append]; simp
        rw [eL] at e2
        exact remove_later d hd k h f ih' lo hi n key c hI hk (hr n key c rfl) ki K0 s0 K2 e1 e2
          hK r1 r2

end BPlusTree

set_option maxHeartbeats 1000000

theorem perm_filter_key {M N : List (Int × Int)} {k v : Int} (hnd : (M.map Prod.fst).Nodup)
    (hp : M.Perm ((k, v) :: N)) : N.Perm (M.filter (fun p => decide (p.1 ≠ k))) := by
  have h1 : (M.filter (fun p => decide (p.1 ≠ k))).Perm
      (((k, v) :: N).filter (fun p => decide (p.1 ≠ k))) := hp.filter _
  have hnd2 : (((k, v) :: N).map Prod.fst).Nodup := (List.Perm.nodup_iff (hp.map Prod.fst)).mp hnd
  simp only [List.map_cons, List.nodup_cons] at hnd2
  have h2 : ((k, v) :: N).filter (fun p => decide (p.1 ≠ k)) = N := by
    rw [List.filter_cons_of_neg (by simp)]
    apply List.filter_eq_self.mpr
    intro p hp'
    simp only [ne_eq, decide_not, Bool.not_eq_eq_eq_not, Bool.not_true, decide_eq_false_iff_not]
    intro e
    exact hnd2.1 (List.mem_map.mpr ⟨p, hp', e⟩)
  rw [h2] at h1
  exact h1.symm

namespace LeafNode

theorem pairs_length {d : Int} {x : LeafNode} (hS : x.Shape d) :
    (x.pairs.length : Int) = x.n + x.overflow_n := by
  obtain ⟨s1, s2, s3, s4, s5, s6, s7, s8⟩ := hS
  unfold pairs
  rw [List.length_append, x.kvs_len s5 (by omega) (by omega)]
  unfold okvs
  rw [List.length_zip, view_length _ _ s6 (by omega), view_length _ _ s6 (by omega)]
  simp only [min_self]
  omega

end LeafNode

namespace BPlusTree

/-- A B+ tree with a key in the key array of its root holds a pair. -/
theorem BInv.nonempty (d : Int) (hd : 2 ≤ d) : ∀ (h : Nat) (lo hi : Option Int) (p : BPNode),
    BInv d h lo hi p → 1 ≤ p.n → contents h (some p) ≠ [] := by
  intro h
  induction h with
  | zero =>
    intro lo hi p hI hn
    cases p with
    | internal n key c => simp [BInv] at hI
    | leaf x =>
      rw [BInv_leaf] at hI
      have hl := LeafNode.pairs_length hI.1
      have := hI.1.2.2.2.2.2.1
      simp only [BPNode.n] at hn
      intro e
      simp only [contents] at e
      rw [e] at hl
      simp only [List.length_nil, Nat.cast_zero] at hl
      omega
  | succ h ih =>
    intro lo hi p hI hn
    cases p with
    | leaf x => simp [BInv] at hI
    | internal n key c =>
      have hK0 : view key n = [] ++ view key n := rfl
      obtain ⟨S1, ch, S2, hS, hl, _, _, hch, hchn, _, _⟩ := hI.child hK0
      have := ih _ _ ch hch (by omega)
      rw [contents_at hS]
      intro e
      simp only [List.append_eq_nil] at e
      exact this e.2.1

/-- Source `BPlusTree::search` on a tree that was never used. -/
theorem search_none (fuel : Nat) (k : Int) (hf : 1 ≤ fuel) :
    search fuel ⟨none⟩ k = .ok (⟨none⟩, none) := by
  obtain ⟨f, rfl⟩ : ∃ g, fuel = g + 1 := ⟨fuel - 1, by omega⟩
  simp only [search, _search, Except.pure_eq_ok, Except.ok_bind]

/-- Source `BPlusTree::search` on a tree that holds a key. -/
theorem search_good (d : Int) (hd : 2 ≤ d) (fuel : Nat) (r : BPNode) (h : Nat)
    (M : List (Int × Int)) (k : Int) (hI : BInv d h none none r)
    (hp : (contents h (some r)).Perm M) (hne : M ≠ []) (hf : h + 1 ≤ fuel) :
    ∃ r' res, search fuel ⟨some r⟩ k = .ok (⟨some r'⟩, res) ∧ BInv d h none none r' ∧
      (contents h (some r')).Perm M ∧ PathFlushed k h r' ∧
      (∀ v, res = some v → (k, v) ∈ M) ∧ (res = none → k ∉ M.map Prod.fst) := by
  have hocc : ∀ x, r = .leaf x → 1 ≤ x.n + x.overflow_n := by
    intro x hx
    subst hx
    obtain ⟨rfl, hI'⟩ := hI.leaf_pairs
    have hl := LeafNode.pairs_length hI'.1
    have : x.pairs ≠ [] := by
      intro e
      simp only [contents] at hp
      rw [e] at hp
      exact hne hp.symm.eq_nil
    have : 0 < x.pairs.length := List.length_pos.mpr this
    omega
  obtain ⟨r', res, E, hI', hp', _, hpf, q1, q2⟩ := bp_search_spec d hd k h fuel none none r hf hI hocc
  refine ⟨r', res, ?_, hI', hp'.trans hp, hpf, ?_, ?_⟩
  · simp only [search, E, Except.ok_bind, Except.pure_eq_ok]
  · intro v hv
    exact hp.mem_iff.mp (q1 v hv)
  · intro hv hm
    exact q2 hv ((hp.map Prod.fst).mem_iff.mpr hm)

end BPlusTree

namespace BPlusTree

/-- The two children of a root with a single key. -/
theorem BInv.two {d : Int} {h : Nat} {key : List Int} {c : List (Option BPNode)}
    (hI : BInv d (h + 1) none none (.internal 1 key c)) :
    ∃ s X Y, view key 1 = [] ++ s :: [] ∧ view c (1 + 1) = [] ++ some X :: some Y :: [] ∧
      rd c 0 = .ok (some X) ∧ rd c 1 = .ok (some Y) ∧ BInv d h none (some s) X ∧
      BInv d h (some s) none Y ∧ d - 1 ≤ X.n ∧ d - 1 ≤ Y.n := by
  have hI0 := hI
  rw [BInv_internal] at hI0
  obtain ⟨g1, g2, g3, g4, hKI⟩ := hI0
  have hkl : (view key 1).length = 1 := by
    rw [view_length _ _ (by omega) (by omega)]; rfl
  obtain ⟨s, hs⟩ : ∃ s, view key 1 = [s] := by
    cases hv : view key 1 with
    | nil => rw [hv] at hkl; simp at hkl
    | cons a R =>
      cases R with
      | nil => exact ⟨a, rfl⟩
      | cons b R => rw [hv] at hkl; simp at hkl
  have hK : view key 1 = [] ++ s :: [] := hs
  obtain ⟨T1, X, Y, T2, hS, hl, hpre, hX, hXn, hY, hYn, hpost⟩ := hI.pair hK
  have hT1 : T1 = [] := List.length_eq_zero.mp (by simpa using hl)
  subst hT1
  simp only [KPost] at hpost
  subst hpost
  refine ⟨s, X, Y, hK, hS, ?_, ?_, hX, hY, hXn, hYn⟩
  · have := rd_chain hS
    simpa using this
  · have := rd_chain2 hS
    simpa using this

end BPlusTree

namespace BPlusTree

/-- After `search`, at most one pair waits in the overflow blocks of the two leaves under a root
with a single key: the leaf on the path of the key was flushed. -/
theorem flushed_pair (d : Int) (hd : 2 ≤ d) (k : Int) (h : Nat) (key : List Int)
    (c : List (Option BPNode)) (hI : BInv d (h + 1) none none (.internal 1 key c))
    (hpf : PathFlushed k (h + 1) (.internal 1 key c)) :
    ∀ s X Y, rd c 0 = .ok (some X) → rd c 1 = .ok (some Y) → BInv d h none (some s) X →
      BInv d h (some s) none Y →
      ∀ x y, X = .leaf x → Y = .leaf y → x.overflow_n + y.overflow_n ≤ 1 := by
  intro s X Y hX hY iX iY x y ex ey
  subst ex ey
  obtain ⟨rfl, iX'⟩ := iX.leaf_pairs
  rw [BInv_leaf] at iY
  obtain ⟨hsort, _⟩ := hI.keys_sorted hd
  have hI0 := hI
  rw [BInv_internal] at hI0
  obtain ⟨g1, g2, g3, g4, hKI⟩ := hI0
  obtain ⟨ki, ci, K1, K2, e1, e2, hK, hci, r1, r2, _, _⟩ :=
    InternalNode.routing 1 key c k (le_refl _) (by omega) hsort
  have hkl := congrArg List.length hK
  rw [view_length _ _ (by omega) (by omega), List.length_append] at hkl
  have h1 : (1 : Int).toNat = 1 := rfl
  rw [h1] at hkl
  simp only [PathFlushed] at hpf
  have ox := iX'.1.2.2.2.2.2.1
  have oy := iY.1.2.2.2.2.2.1
  have ox1 := iX'.2.1
  have oy1 := iY.2.1
  by_cases hz : K1.length = 0
  · have : ci = 0 := by omega
    subst this
    have := hpf ki 0 (.leaf x) e1 e2 hX
    simp only [PathFlushed] at this
    omega
  · have : ci = 1 := by omega
    subst this
    have := hpf ki 1 (.leaf y) e1 e2 hY
    simp only [PathFlushed] at this
    omega

end BPlusTree

namespace BPlusTree

/-- Source `BPlusTree::remove` on a tree that holds a key: the tree afterwards stands for the list
without the pairs of `k`, and the flag tells whether `k` was held. -/
theorem remove_some (d : Int) (hd : 2 ≤ d) (fuel : Nat) (r : BPNode) (h : Nat)
    (M : List (Int × Int)) (k : Int) (hI : BInv d h none none r)
    (hp : (contents h (some r)).Perm M) (hnd : (M.map Prod.fst).Nodup) (hne : M ≠ [])
    (hf : h + 1 ≤ fuel) :
    ∃ tr' h' res, remove d fuel ⟨some r⟩ k = .ok (tr', res) ∧
      Good d tr' h' (M.filter (fun p => decide (p.1 ≠ k))) ∧ h' ≤ h ∧
      (res = true ↔ k ∈ M.map Prod.fst) ∧ tr'.root_ ≠ none := by
  obtain ⟨r', res, ES, hI', hp', hpf, q1, q2⟩ := search_good d hd fuel r h M k hI hp hne hf
  cases res with
  | none =>
    have hk := q2 rfl
    refine ⟨⟨some r'⟩, h, false, ?_, ?_, le_refl _, by simpa using hk, by simp⟩
    · simp only [remove, ES, Except.ok_bind, Option.isNone_none, if_true, ite_true,
        Except.pure_eq_ok]
    · have : M.filter (fun p => decide (p.1 ≠ k)) = M := by
        apply List.filter_eq_self.mpr
        intro p hp''
        simp only [ne_eq, decide_not, Bool.not_eq_eq_eq_not, Bool.not_true,
          decide_eq_false_iff_not]
        intro e
        exact hk (List.mem_map.mpr ⟨p, hp'', e⟩)
      rw [this]
      exact ⟨hI', hp'⟩
  | some v =>
    have hkM : k ∈ M.map Prod.fst := List.mem_map.mpr ⟨(k, v), q1 v rfl, rfl⟩
    have hk' : k ∈ (contents h (some r')).map Prod.fst := (hp'.map Prod.fst).mem_iff.mpr hkM
    have fin : ∀ (h2 : Nat) (p' : BPNode) (v' : Int), BInv d h2 none none p' →
        (contents h (some r')).Perm ((k, v') :: contents h2 (some p')) →
        Good d ⟨some p'⟩ h2 (M.filter (fun p => decide (p.1 ≠ k))) := by
      intro h2 p' v' hI2 hp2
      exact ⟨hI2, perm_filter_key hnd (hp'.symm.trans hp2)⟩
    by_cases hone : r'.n = 1 ∧ (!r'.leaf_) = true
    · cases r' with
      | leaf x => simp [BPNode.leaf_] at hone
      | internal n key c =>
        simp only [BPNode.n] at hone
        obtain ⟨hn1, _⟩ := hone
        subst hn1
        obtain ⟨h0, rfl⟩ : ∃ h0, h = h0 + 1 := by
          cases h with
          | zero => simp [BInv] at hI'
          | succ h0 => exact ⟨h0, rfl⟩
        obtain ⟨s, X, Y, hK, hS, rX, rY, iX, iY, nX, nY⟩ := hI'.two
        by_cases hboth : d - 1 = X.n ∧ d - 1 = Y.n
        · obtain ⟨Z, key', c', EM, _, _, _, _, iZ, nZ, pZ⟩ :=
            merge_node d hd h0 none none s X Y iX iY hboth.1.symm hboth.2.symm
              (flushed_pair d hd k h0 key c hI' hpf s X Y rX rY iX iY) 1 key c [] [] [] []
              (some X) (some Y) (by rw [BInv_internal] at hI'; omega)
              (by rw [BInv_internal] at hI'; omega) hK hS rfl
          simp only [List.length_nil, Nat.cast_zero] at EM
          have hcr : contents (h0 + 1) (some (.internal 1 key c)) =
              contents h0 (some X) ++ contents h0 (some Y) := by
            rw [contents_internal, hS]; simp
          have hkZ : k ∈ (contents h0 (some Z)).map Prod.fst := by
            apply (pZ.map Prod.fst).mem_iff.mpr
            rw [← hcr]; exact hk'
          obtain ⟨p', v', ER, iP, pP, _⟩ := bp_remove_spec d hd k h0 fuel none none Z (by omega) iZ
            hkZ (fun n key c hz => Or.inl (by rw [hz] at nZ; simp only [BPNode.n] at nZ; omega))
          refine ⟨⟨some p'⟩, h0, true, ?_, ?_, by omega, by simpa using hkM, by simp⟩
          · have hn1' : (BPNode.internal 1 key c).n = 1 := rfl
            simp only [remove, ES, Except.ok_bind, Option.isNone_some, Bool.false_eq_true,
              if_false, ite_false, deref, hn1', BPNode.leaf_, Bool.not_false, and_self,
              if_true, ite_true, BPNode.asInternal, rX, rY, Except.pure_eq_ok]
            rw [if_pos hboth]
            simp only [EM, Except.ok_bind, ER]
          · apply fin h0 p' v' iP
            rw [hcr]
            exact pZ.symm.trans pP
        · obtain ⟨p', v', ER, iP, pP, _⟩ := bp_remove_spec d hd k (h0 + 1) fuel none none
            (.internal 1 key c) (by omega) hI' hk' (fun n' key' c' hz => by
              simp only [BPNode.internal.injEq] at hz
              obtain ⟨rfl, rfl, rfl⟩ := hz
              exact Or.inr ⟨X, Y, rX, rY, fun hh => hboth ⟨hh.1.symm, hh.2.symm⟩⟩)
          refine ⟨⟨some p'⟩, h0 + 1, true, ?_, fin _ p' v' iP pP, le_refl _, by simpa using hkM,
            by simp⟩
          have hn1' : (BPNode.internal 1 key c).n = 1 := rfl
          simp only [remove, ES, Except.ok_bind, Option.isNone_some, Bool.false_eq_true,
            if_false, ite_false, deref, hn1', BPNode.leaf_, Bool.not_false, and_self,
            if_true, ite_true, BPNode.asInternal, rX, rY, Except.pure_eq_ok]
          rw [if_neg hboth]
          simp only [Except.ok_bind, ER]
    · obtain ⟨p', v', ER, iP, pP, _⟩ := bp_remove_spec d hd k h fuel none none r' (by omega) hI' hk'
        (fun n' key' c' hz => by
          subst hz
          simp only [BPNode.n, BPNode.leaf_, Bool.not_false, and_true] at hone
          have := hI'.n_le
          cases h with
          | zero => simp [BInv] at hI'
          | succ h0 =>
            rw [BInv_internal] at hI'
            exact Or.inl (by omega))
      refine ⟨⟨some p'⟩, h, true, ?_, fin _ p' v' iP pP, le_refl _, by simpa using hkM, by simp⟩
      simp only [remove, ES, Except.ok_bind, Option.isNone_some, Bool.false_eq_true,
        if_false, ite_false, deref, hone, Except.pure_eq_ok, ER]

end BPlusTree

set_option maxHeartbeats 1000000

namespace BPlusTree

/-- Source `BPlusTree::remove` on a tree that was never used. -/
theorem remove_none (d : Int) (fuel : Nat) (k : Int) (hf : 1 ≤ fuel) :
    remove d fuel ⟨none⟩ k = .ok (⟨none⟩, false) := by
  simp only [remove, search_none fuel k hf, Except.ok_bind, Option.isNone_none, if_true,
    ite_true, Except.pure_eq_ok]

/-- Source `BPlusTree::_search` on a root leaf that holds nothing reads `key_[-1]`. -/
theorem search_drained (d : Int) (hd : 2 ≤ d) (fuel : Nat) (r : BPNode) (h : Nat) (k : Int)
    (hI : BInv d h none none r) (he : contents h (some r) = []) :
    ∃ e, _search fuel (some r) k = .error e := by
  cases fuel with
  | zero => exact ⟨_, rfl⟩
  | succ f =>
    cases r with
    | internal n key c =>
      have hn := hI.n_le
      cases h with
      | zero => simp [BInv] at hI
      | succ h0 =>
        have h1 : 1 ≤ (BPNode.internal n key c).n := by
          rw [BInv_internal] at hI
          simp only [BPNode.n]; omega
        exact absurd he (BInv.nonempty d hd _ _ _ _ hI h1)
    | leaf x =>
      obtain ⟨rfl, hI'⟩ := hI.leaf_pairs
      have hl := LeafNode.pairs_length hI'.1
      simp only [contents] at he
      rw [he] at hl
      simp only [List.length_nil, Nat.cast_zero] at hl
      obtain ⟨s1, s2, s3, s4, s5, s6, s7, s8⟩ := hI'.1
      have hn0 : x.n = 0 := by omega
      have ho0 : x.overflow_n = 0 := by omega
      obtain ⟨i, e0, a0, a1, _, _⟩ := get_key_index_run (.leaf x) k
        (by simp only [BPNode.n]; omega) (by simp only [BPNode.n, BPNode.key]; omega)
      simp only [BPNode.n, hn0] at e0 a0 a1
      have hi : i = 0 := by omega
      subst hi
      simp only [zero_sub, Left.nonneg_neg_iff, Int.reduceLE, if_false, ite_false] at e0
      refine ⟨.oob, ?_⟩
      simp only [_search, BPNode.leaf_, if_true, ite_true, BPNode.asLeaf, Except.ok_bind,
        load_overflow_empty x ho0, LeafNode.toNode, e0, hn0, Int.reduceNeg, Left.neg_neg_iff,
        zero_lt_one, rd, Int.reduceLT]
      rfl

end BPlusTree

namespace BPlusTree

/-- Source `BPlusTree::remove` on a root leaf that holds nothing does not return. -/
theorem remove_drained (d : Int) (hd : 2 ≤ d) (fuel : Nat) (r : BPNode) (h : Nat) (k : Int)
    (hI : BInv d h none none r) (he : contents h (some r) = []) :
    ∃ e, remove d fuel ⟨some r⟩ k = .error e := by
  obtain ⟨e, he'⟩ := search_drained d hd fuel r h k hI he
  refine ⟨e, ?_⟩
  simp only [remove, search, he']
  rfl

/-- Source `BPlusTree::remove` on a tree that holds a key or was never used. -/
theorem remove_good (d : Int) (hd : 2 ≤ d) (fuel : Nat) (tr : BPlusTree) (h : Nat)
    (M : List (Int × Int)) (k : Int) (hG : Good d tr h M) (hnd : (M.map Prod.fst).Nodup)
    (hne : M ≠ [] ∨ tr.root_ = none) (hf : h + 1 ≤ fuel) :
    ∃ tr' h' res, remove d fuel tr k = .ok (tr', res) ∧
      Good d tr' h' (M.filter (fun p => decide (p.1 ≠ k))) ∧ h' ≤ h ∧
      (res = true ↔ k ∈ M.map Prod.fst) := by
  obtain ⟨r⟩ := tr
  unfold Good at hG
  cases r with
  | none =>
    simp only at hG
    obtain ⟨rfl, rfl⟩ := hG
    refine ⟨⟨none⟩, 0, false, remove_none d fuel k (by omega), ?_, le_refl _, by simp⟩
    unfold Good
    simp
  | some r =>
    simp only at hG
    have hne' : M ≠ [] := by
      rcases hne with h1 | h1
      · exact h1
      · simp at h1
    obtain ⟨tr', h', res, E, hG', hh, hres, _⟩ := remove_some d hd fuel r h M k hG.1 hG.2 hnd hne' hf
    exact ⟨tr', h', res, E, hG', hh, hres⟩

theorem nodup_filter_key {M : List (Int × Int)} (k : Int) (hnd : (M.map Prod.fst).Nodup) :
    ((M.filter (fun p => decide (p.1 ≠ k))).map Prod.fst).Nodup :=
  hnd.sublist ((List.filter_sublist _).map _)

end BPlusTree

/-- A history of inserts of absent keys and of removes issued while a key is held runs to
completion, and the tree it reaches stands for the finite map the history describes. -/
theorem bp_calls_total (d : Int) (hd : 2 ≤ d) : ∀ (ops : List Call) (M : List (Int × Int))
    (fuel : Nat) (tr : BPlusTree) (h : Nat), BPlusTree.Good d tr h M → (M.map Prod.fst).Nodup →
    Legal M ops → h + ops.length + 1 ≤ fuel →
    ∃ tr' h', BPlusTree.runCalls d fuel tr ops = .ok tr' ∧
      BPlusTree.Good d tr' h' (contents M ops) ∧
      ((contents M ops).map Prod.fst).Nodup ∧ h' ≤ h + ops.length := by
  intro ops
  induction ops with
  | nil =>
    intro M fuel tr h hG hnd _ _
    exact ⟨tr, h, rfl, hG, hnd, by simp⟩
  | cons op ops ih =>
    intro M fuel tr h hG hnd hl hf
    simp only [List.length_cons] at hf
    cases op with
    | ins k v =>
      obtain ⟨hk, hl'⟩ := hl
      obtain ⟨tr1, h1, E1, hG1, hh1, _, _⟩ :=
        BPlusTree.insert_good d hd fuel tr h M k v hG hk (by omega)
      obtain ⟨tr', h', E', hG', hnd', hh'⟩ := ih ((k, v) :: M) fuel tr1 h1 hG1
        (by simp only [List.map_cons]; exact List.nodup_cons.mpr ⟨hk, hnd⟩) hl' (by omega)
      refine ⟨tr', h', ?_, hG', hnd', by simp only [List.length_cons]; omega⟩
      simp only [BPlusTree.runCalls, List.foldlM_cons, BPlusTree.applyCall, E1, Except.ok_bind]
      exact E'
    | rem k =>
      obtain ⟨hne, hl'⟩ := hl
      obtain ⟨tr1, h1, res, E1, hG1, hh1, _⟩ := BPlusTree.remove_good d hd fuel tr h M k hG hnd
        (Or.inl hne) (by omega)
      obtain ⟨tr', h', E', hG', hnd', hh'⟩ := ih _ fuel tr1 h1 hG1
        (BPlusTree.nodup_filter_key k hnd) hl' (by omega)
      refine ⟨tr', h', ?_, hG', hnd', by simp only [List.length_cons]; omega⟩
      simp only [BPlusTree.runCalls, List.foldlM_cons, BPlusTree.applyCall, E1, Except.ok_bind,
        Except.pure_eq_ok]
      exact E'

/-- A history of inserts of absent keys and of removes, when it runs to completion, reaches a
tree that stands for the finite map the history describes. -/
theorem bp_calls_partial (d : Int) (hd : 2 ≤ d) : ∀ (ops : List Call) (M : List (Int × Int))
    (fuel : Nat) (tr : BPlusTree) (h : Nat), BPlusTree.Good d tr h M → (M.map Prod.fst).Nodup →
    Fresh M ops → h + ops.length + 1 ≤ fuel →
    ∀ tr', BPlusTree.runCalls d fuel tr ops = .ok tr' →
      ∃ h', BPlusTree.Good d tr' h' (contents M ops) ∧
        ((contents M ops).map Prod.fst).Nodup := by
  intro ops
  induction ops with
  | nil =>
    intro M fuel tr h hG hnd _ _ tr' hrun
    simp only [BPlusTree.runCalls, List.foldlM_nil, Except.pure_eq_ok, Except.ok.injEq] at hrun
    subst hrun
    exact ⟨h, hG, hnd⟩
  | cons op ops ih =>
    intro M fuel tr h hG hnd hl hf tr' hrun
    simp only [List.length_cons] at hf
    cases op with
    | ins k v =>
      obtain ⟨hk, hl'⟩ := hl
      obtain ⟨tr1, h1, E1, hG1, hh1, _, _⟩ :=
        BPlusTree.insert_good d hd fuel tr h M k v hG hk (by omega)
      simp only [BPlusTree.runCalls, List.foldlM_cons, BPlusTree.applyCall, E1,
        Except.ok_bind] at hrun
      exact ih ((k, v) :: M) fuel tr1 h1 hG1
        (by simp only [List.map_cons]; exact List.nodup_cons.mpr ⟨hk, hnd⟩) hl' (by omega)
        tr' hrun
    | rem k =>
      have hl' : Fresh (M.filter (fun p => decide (p.1 ≠ k))) ops := hl
      by_cases hne : M ≠ [] ∨ tr.root_ = none
      · obtain ⟨tr1, h1, res, E1, hG1, hh1, _⟩ :=
          BPlusTree.remove_good d hd fuel tr h M k hG hnd hne (by omega)
        simp only [BPlusTree.runCalls, List.foldlM_cons, BPlusTree.applyCall, E1,
          Except.ok_bind, Except.pure_eq_ok] at hrun
        exact ih _ fuel tr1 h1 hG1 (BPlusTree.nodup_filter_key k hnd) hl' (by omega) tr' hrun
      · simp only [not_or, not_not] at hne
        obtain ⟨hM, hr⟩ := hne
        obtain ⟨r⟩ := tr
        cases r with
        | none => exact absurd rfl hr
        | some r =>
          unfold BPlusTree.Good at hG
          simp only at hG
          subst hM
          obtain ⟨e, he⟩ := BPlusTree.remove_drained d hd fuel r h k hG.1 hG.2.eq_nil
          simp only [BPlusTree.runCalls, List.foldlM_cons, BPlusTree.applyCall, he] at hrun
          exact absurd hrun (by
            intro hc
            cases hc)

namespace BPlusTree

/-- Every node under the root of a B+ tree is the root of a B+ tree and holds at least `d - 1`
keys. -/
theorem BInv.under (d : Int) : ∀ (r x : BPNode), Under r x → ∀ (h : Nat) (lo hi : Option Int),
    BInv d h lo hi r → ∃ h' lo' hi', BInv d h' lo' hi' x ∧ d - 1 ≤ x.n := by
  intro r x hu
  induction hu with
  | kid n key c x hm =>
    intro h lo hi hI
    cases h with
    | zero => simp [BInv] at hI
    | succ h0 =>
      rw [BInv_internal] at hI
      obtain ⟨l, u, ch, hch, hIc, hn⟩ := KI_mem hI.2.2.2.2 _ hm
      simp only [Option.some.injEq] at hch
      subst hch
      exact ⟨h0, l, u, hIc, hn⟩
  | deeper n key c y x hm _ ih =>
    intro h lo hi hI
    cases h with
    | zero => simp [BInv] at hI
    | succ h0 =>
      rw [BInv_internal] at hI
      obtain ⟨l, u, ch, hch, hIc, hn⟩ := KI_mem hI.2.2.2.2 _ hm
      simp only [Option.some.injEq] at hch
      subst hch
      exact ih h0 l u hIc

/-- What the invariant says of a single node: the key count is within the capacity of the key
array, the keys in use are strictly ascending, and the overflow count of a leaf is within the
capacity of the overflow block. -/
theorem BInv.node (d : Int) (hd : 2 ≤ d) {h : Nat} {lo hi : Option Int} {x : BPNode}
    (hI : BInv d h lo hi x) :
    0 ≤ x.n ∧ x.n ≤ 2 * d - 1 ∧ (view x.key x.n).Pairwise (· < ·) ∧
      ∀ y, x = .leaf y → 0 ≤ y.overflow_n ∧ y.overflow_n ≤ d / 2 := by
  refine ⟨hI.n_le.1, hI.n_le.2, ?_, ?_⟩
  · cases h with
    | zero =>
      cases x with
      | internal n key c => simp [BInv] at hI
      | leaf y =>
        rw [BInv_leaf] at hI
        obtain ⟨s1, s2, s3, s4, s5, s6, s7, s8⟩ := hI.1
        simp only [BPNode.key, BPNode.n]
        rw [← y.kvs_keys s5 (by omega) (by omega)]
        exact List.pairwise_map.mpr hI.2.2.1
    | succ h0 =>
      cases x with
      | leaf y => simp [BInv] at hI
      | internal n key c => exact (hI.keys_sorted hd).1
  · intro y hy
    subst hy
    obtain ⟨_, hI'⟩ := hI.leaf_pairs
    exact ⟨hI'.1.2.2.2.2.2.1, hI'.1.2.2.2.2.2.2.1⟩

end BPlusTree

theorem lookup_of_mem : ∀ {M : List (Int × Int)} {k v : Int}, (M.map Prod.fst).Nodup →
    (k, v) ∈ M → M.lookup k = some v := by
  intro M
  induction M with
  | nil => intro k v _ h; simp at h
  | cons p M ih =>
    intro k v hnd hm
    obtain ⟨a, b⟩ := p
    simp only [List.map_cons, List.nodup_cons] at hnd
    rcases List.mem_cons.mp hm with e | hm2
    · simp only [Prod.mk.injEq] at e
      obtain ⟨rfl, rfl⟩ := e
      simp [List.lookup]
    · have hne : k ≠ a := by
        intro e
        subst e
        exact hnd.1 (List.mem_map.mpr ⟨(k, v), hm2, rfl⟩)
      rw [List.lookup_cons]
      have : (k == a) = false := by simpa using hne
      rw [this]
      exact ih hnd.2 hm2

theorem lookup_of_not_mem : ∀ {M : List (Int × Int)} {k : Int}, k ∉ M.map Prod.fst →
    M.lookup k = none := by
  intro M
  induction M with
  | nil => intro k _; rfl
  | cons p M ih =>
    intro k hk
    obtain ⟨a, b⟩ := p
    simp only [List.map_cons, List.mem_cons, not_or] at hk
    rw [List.lookup_cons]
    have : (k == a) = false := by simpa using hk.1
    rw [this]
    exact ih hk.2

theorem lookup_filter_ne (M : List (Int × Int)) (k j : Int) (hj : j ≠ k) :
    (M.filter (fun p => decide (p.1 ≠ k))).lookup j = M.lookup j := by
  induction M with
  | nil => rfl
  | cons p M ih =>
    obtain ⟨a, b⟩ := p
    by_cases ha : a = k
    · subst ha
      rw [List.filter_cons_of_neg (by simp), ih, List.lookup_cons]
      have : (j == a) = false := by simpa using hj
      rw [this]
    · rw [List.filter_cons_of_pos (by simpa using ha), List.lookup_cons, List.lookup_cons, ih]

/-- Source `BPlusTree::search` on a tree that stands for a finite map returns the value the map
gives the key, and leaves a tree that stands for the same map. -/
theorem bp_search_model (d : Int) (hd : 2 ≤ d) (fuel : Nat) (tr : BPlusTree) (h : Nat)
    (M : List (Int × Int)) (k : Int) (hG : BPlusTree.Good d tr h M)
    (hnd : (M.map Prod.fst).Nodup) (hne : M ≠ [] ∨ tr.root_ = none) (hf : h + 1 ≤ fuel) :
    ∃ tr', BPlusTree.search fuel tr k = .ok (tr', M.lookup k) ∧ BPlusTree.Good d tr' h M ∧
      BPlusTree.contains fuel tr k = .ok (tr', (M.lookup k).isSome) := by
  obtain ⟨r⟩ := tr
  unfold BPlusTree.Good at hG
  cases r with
  | none =>
    simp only at hG
    obtain ⟨rfl, rfl⟩ := hG
    have E := BPlusTree.search_none fuel k (by omega)
    refine ⟨⟨none⟩, E, by unfold BPlusTree.Good; simp, ?_⟩
    simp only [BPlusTree.contains, E, Except.ok_bind, Except.pure_eq_ok]
    rfl
  | some r =>
    simp only at hG
    have hne' : M ≠ [] := by
      rcases hne with h1 | h1
      · exact h1
      · simp at h1
    obtain ⟨r', res, E, hI', hp', _, q1, q2⟩ :=
      BPlusTree.search_good d hd fuel r h M k hG.1 hG.2 hne' hf
    have hres : res = M.lookup k := by
      cases res with
      | none => exact (lookup_of_not_mem (q2 rfl)).symm
      | some v => exact (lookup_of_mem hnd (q1 v rfl)).symm
    subst hres
    refine ⟨⟨some r'⟩, E, ⟨hI', hp'⟩, ?_⟩
    simp only [BPlusTree.contains, E, Except.ok_bind, Except.pure_eq_ok]

/-- A run of inserts is the history of the corresponding `insert` calls. -/
theorem bp_insertAll_calls (d : Int) (fuel : Nat) : ∀ (kvs : List (Int × Int)) (tr : BPlusTree),
    BPlusTree.insertAll d fuel tr kvs =
      BPlusTree.runCalls d fuel tr (kvs.map (fun p => Call.ins p.1 p.2)) := by
  intro kvs
  induction kvs with
  | nil => intro tr; rfl
  | cons p kvs ih =>
    intro tr
    simp only [BPlusTree.insertAll, BPlusTree.runCalls, List.foldlM_cons, List.map_cons,
      BPlusTree.applyCall]
    congr 1
    funext t
    exact ih t

theorem legal_inserts : ∀ (kvs : List (Int × Int)) (M : List (Int × Int)),
    ((kvs.map Prod.fst) ++ (M.map Prod.fst)).Nodup →
    Legal M (kvs.map (fun p => Call.ins p.1 p.2)) := by
  intro kvs
  induction kvs with
  | nil => intro M _; trivial
  | cons p kvs ih =>
    intro M hnd
    simp only [List.map_cons, List.cons_append, List.nodup_cons, List.mem_append, not_or] at hnd
    refine ⟨hnd.1.2, ih ((p.1, p.2) :: M) ?_⟩
    simp only [List.map_cons]
    exact (List.Perm.nodup_iff List.perm_middle).mpr (List.nodup_cons.mpr ⟨by
      simp only [List.mem_append, not_or]; exact hnd.1, hnd.2⟩)

theorem contents_inserts : ∀ (kvs : List (Int × Int)) (M : List (Int × Int)),
    contents M (kvs.map (fun p => Call.ins p.1 p.2)) = kvs.reverse ++ M := by
  intro kvs
  induction kvs with
  | nil => intro M; rfl
  | cons p kvs ih =>
    intro M
    simp only [List.map_cons, contents, List.foldl_cons, Call.apply, List.reverse_cons,
      List.append_assoc, List.singleton_append]
    exact ih ((p.1, p.2) :: M)

namespace LeafNode

/-- The loop of `LeafNode::_load_overflow` runs through on any leaf whose main page has room for
the pairs of the overflow block, whatever the keys are. -/
theorem load_loop_run (OK OV : List Int) (m : Int) (hm1 : m ≤ OK.length) (hm2 : m ≤ OV.length) :
    ∀ (cnt : Nat) (a : Int) (x : LeafNode), 0 ≤ a → a + cnt = m → x.overflow_key = OK →
      x.overflow_val = OV → 0 ≤ x.n → x.n + cnt ≤ x.key.length → x.n + cnt ≤ x.val.length →
      ∃ x', (upTo a m).foldlM (fun (x : LeafNode) j => do
          x._insert_main (← rd x.overflow_key j) (← rd x.overflow_val j)) x = .ok x' ∧
        x'.n = x.n + cnt ∧ x'.key.length = x.key.length ∧ x'.val.length = x.val.length ∧
        x'.overflow_n = x.overflow_n ∧ x'.overflow_key = OK ∧ x'.overflow_val = OV := by
  intro cnt
  induction cnt with
  | zero =>
    intro a x h0 ha ek ev hn hk hv
    rw [upTo_nil a m (by omega)]
    exact ⟨x, rfl, by simp, rfl, rfl, rfl, ek, ev⟩
  | succ c ih =>
    intro a x h0 ha ek ev hn hk hv
    obtain ⟨ka, va, e1, e2, _⟩ := pair_at OK OV m a h0 (by omega) hm1 hm2
    obtain ⟨x1, j, E1, n1, lk1, lv1, on1, ok1, ov1, _⟩ :=
      insert_main_run x ka va hn (by push_cast at hk; omega) (by push_cast at hv; omega)
    obtain ⟨x', E2, n2, lk2, lv2, on2, ok2, ov2⟩ :=
      ih (a + 1) x1 (by omega) (by push_cast at ha ⊢; omega) (by rw [ok1, ek]) (by rw [ov1, ev])
        (by omega) (by rw [lk1, n1]; push_cast at hk ⊢; omega)
        (by rw [lv1, n1]; push_cast at hv ⊢; omega)
    refine ⟨x', ?_, by rw [n2, n1]; push_cast; omega, by rw [lk2, lk1], by rw [lv2, lv1],
      by rw [on2, on1], ok2, ov2⟩
    rw [upTo_succ a m (by omega), List.foldlM_cons, ek, ev, e1, e2]
    simp only [Except.ok_bind]
    rw [E1]
    exact E2

/-- Source `LeafNode::_load_overflow` returns on every leaf with the capacities of the header and
counts within them, and leaves the overflow block empty and the capacities as they were. -/
theorem load_total (d : Int) (x : LeafNode) (hS : x.Shape d) :
    ∃ x', x._load_overflow = .ok x' ∧ x'.overflow_n = 0 ∧ x'.n = x.n + x.overflow_n ∧
      x'.overflow_key.length = x.overflow_key.length ∧
      x'.overflow_val.length = x.overflow_val.length := by
  obtain ⟨s1, s2, s3, s4, s5, s6, s7, s8⟩ := hS
  by_cases h0 : x.overflow_n = 0
  · refine ⟨x, ?_, h0, by omega, rfl, rfl⟩
    simp only [_load_overflow, h0, if_true, ite_true]; rfl
  · obtain ⟨x1, E1, n1, k1, v1, on1, lk1, lv1, _⟩ :=
      sort_overflow_spec x s6 (by omega) (by omega)
    obtain ⟨x2, E2, n2, lk2, lv2, on2, ok2, ov2⟩ :=
      load_loop_run x1.overflow_key x1.overflow_val x1.overflow_n (by omega) (by omega)
        x1.overflow_n.toNat 0 x1 (le_refl _) (by omega) rfl rfl (by omega)
        (by rw [k1, n1, on1]; omega) (by rw [v1, n1, on1]; omega)
    refine ⟨{ x2 with overflow_n := 0 }, ?_, rfl, ?_, ?_, ?_⟩
    · simp only [_load_overflow, h0, if_false, ite_false, E1, Except.ok_bind, E2,
        Except.pure_eq_ok]
    · show x2.n = _; omega
    · show x2.overflow_key.length = _; rw [ok2, lk1]
    · show x2.overflow_val.length = _; rw [ov2, lv1]

/-- Source `LeafNode::_insert` on a leaf with the capacities of the header and counts within them:
when the pair goes to the overflow block, the slot written is slot `overflow_n_` of the leaf as
it is after the flush of a full block, and this slot is within the block. -/
theorem insert_slot (d : Int) (hd : 2 ≤ d) (x : LeafNode) (k v : Int) (hS : x.Shape d)
    (hbr : ¬ 2 * d - 1 - d / 2 < x.n) :
    ∃ x1, (if d / 2 = x.overflow_n then x._load_overflow else pure x) = .ok x1 ∧
      0 ≤ x1.overflow_n ∧ x1.overflow_n < d / 2 ∧
      (x1.overflow_n : Int) < x1.overflow_key.length ∧
      (x1.overflow_n : Int) < x1.overflow_val.length ∧
      x._insert d k v = .ok { x1 with
        overflow_key := x1.overflow_key.set x1.overflow_n.toNat k,
        overflow_val := x1.overflow_val.set x1.overflow_n.toNat v,
        overflow_n := x1.overflow_n + 1 } := by
  have hS0 := hS
  obtain ⟨s1, s2, s3, s4, s5, s6, s7, s8⟩ := hS
  by_cases hfull : d / 2 = x.overflow_n
  · obtain ⟨x1, E, o1, n1, l1, l2⟩ := load_total d x hS0
    have W1 := wr_ok (a := x1.overflow_key) (i := x1.overflow_n) k (by omega) (by omega)
    have W2 := wr_ok (a := x1.overflow_val) (i := x1.overflow_n) v (by omega) (by omega)
    refine ⟨x1, by rw [if_pos hfull]; exact E, by omega, by omega, by omega, by omega, ?_⟩
    simp only [_insert, hbr, if_false, ite_false, if_pos hfull, E, Except.ok_bind, W1, W2,
      Except.pure_eq_ok]
  · have W1 := wr_ok (a := x.overflow_key) (i := x.overflow_n) k (by omega) (by omega)
    have W2 := wr_ok (a := x.overflow_val) (i := x.overflow_n) v (by omega) (by omega)
    refine ⟨x, by rw [if_neg hfull]; rfl, by omega, by omega, by omega, by omega, ?_⟩
    simp only [_insert, hbr, if_false, ite_false, if_neg hfull, Except.pure_eq_ok,
      Except.ok_bind, W1, W2]

/-- Source `LeafNode::_insert` with more than `2d - 1 - d/2` keys in the main page does not touch
the overflow block: it is `_insert_main`. -/
theorem insert_main_branch (d : Int) (x : LeafNode) (k v : Int) (hbr : 2 * d - 1 - d / 2 < x.n) :
    x._insert d k v = x._insert_main k v := by
  simp only [_insert, hbr, if_true, ite_true]
  cases x._insert_main k v <;> rfl

end LeafNode

theorem bp_good_new (d : Int) : BPlusTree.Good d ⟨none⟩ 0 [] := by
  unfold BPlusTree.Good
  simp

theorem lookup_perm {M N : List (Int × Int)} (hnd : (M.map Prod.fst).Nodup) (hp : M.Perm N)
    (j : Int) : M.lookup j = N.lookup j := by
  have hnd' : (N.map Prod.fst).Nodup := (List.Perm.nodup_iff (hp.map Prod.fst)).mp hnd
  by_cases hj : j ∈ M.map Prod.fst
  · obtain ⟨p, hp1, rfl⟩ := List.mem_map.mp hj
    rw [lookup_of_mem hnd (show (p.1, p.2) ∈ M from hp1),
      lookup_of_mem hnd' (show (p.1, p.2) ∈ N from hp.mem_iff.mp hp1)]
  · rw [lookup_of_not_mem hj, lookup_of_not_mem (fun h => hj ((hp.map Prod.fst).mem_iff.mpr h))]

/-- A run of inserts of pairwise distinct keys into a new tree completes, and the tree stands for
the list of the pairs. -/
theorem bp_insertAll_good (d : Int) (hd : 2 ≤ d) (kvs : List (Int × Int)) (fuel : Nat)
    (hnd : (kvs.map Prod.fst).Nodup) (hf : kvs.length + 1 ≤ fuel) :
    ∃ t h, BPlusTree.insertAll d fuel ⟨none⟩ kvs = .ok t ∧ BPlusTree.Good d t h kvs.reverse ∧
      h ≤ kvs.length ∧ (kvs = [] → t.root_ = none) := by
  obtain ⟨t, h, E, hG, _, hh⟩ := bp_calls_total d hd (kvs.map (fun p => Call.ins p.1 p.2)) []
    fuel ⟨none⟩ 0 (bp_good_new d) (by simp) (legal_inserts kvs [] (by simpa using hnd))
    (by simpa using hf)
  rw [contents_inserts, List.append_nil] at hG
  refine ⟨t, h, by rw [bp_insertAll_calls]; exact E, hG, by simpa using hh, ?_⟩
  intro he
  subst he
  simp only [List.map_nil, BPlusTree.runCalls, List.foldlM_nil, Except.pure_eq_ok,
    Except.ok.injEq] at E
  rw [← E]

/-- A loop that completed kept what every round that completes keeps. -/
theorem foldlM_keeps {α β : Type} (I : β → Prop) (f : β → α → Except Err β)
    (hf : ∀ b a b', I b → f b a = .ok b' → I b') :
    ∀ (l : List α) (b b' : β), I b → l.foldlM f b = .ok b' → I b' := by
  intro l
  induction l with
  | nil =>
    intro b b' hb h
    simp only [List.foldlM_nil, Except.pure_eq_ok, Except.ok.injEq] at h
    subst h; exact hb
  | cons a l ih =>
    intro b b' hb h
    rw [List.foldlM_cons] at h
    obtain ⟨b1, h1, h2⟩ := bind_ok h
    exact ih b1 b' (hf b a b1 hb h1) h2

theorem rd_mem {α : Type} {a : List α} {i : Int} {x : α} (h : rd a i = .ok x) : x ∈ a := by
  obtain ⟨_, hg⟩ := rd_ok_iff.mp h
  exact List.mem_iff_getElem?.mpr ⟨_, hg⟩

theorem wr_keeps {α : Type} {a a' : List α} {i : Int} {x : α} (h : wr a i x = .ok a') :
    a'.length = a.length ∧ (∀ y ∈ a', y = x ∨ y ∈ a) ∧ 0 ≤ i ∧ i < a.length := by
  simp only [wr] at h
  split at h
  · exact absurd h (by simp)
  · simp only [Except.ok.injEq] at h
    subst h
    refine ⟨by simp, ?_, by omega, by omega⟩
    intro y hy
    rcases List.mem_or_eq_of_mem_set hy with h1 | h1
    · exact Or.inr h1
    · exact Or.inl h1

theorem shiftUp_keeps {α : Type} {a a' : List α} {hi lo : Int} (h : shiftUp a hi lo = .ok a') :
    a'.length = a.length ∧ ∀ y ∈ a', y ∈ a := by
  unfold shiftUp at h
  refine foldlM_keeps (fun b => b.length = a.length ∧ ∀ y ∈ b, y ∈ a) _ ?_ _ a a' ⟨rfl, fun y hy => hy⟩ h
  intro b j b' hb hj
  obtain ⟨x, hx, hw⟩ := bind_ok hj
  obtain ⟨l1, l2, _, _⟩ := wr_keeps hw
  refine ⟨by rw [l1, hb.1], ?_⟩
  intro y hy
  rcases l2 y hy with e | e
  · rw [e]; exact hb.2 x (rd_mem hx)
  · exact hb.2 y e

theorem shiftDown_keeps {α : Type} {a a' : List α} {lo hi : Int}
    (h : shiftDown a lo hi = .ok a') : a'.length = a.length ∧ ∀ y ∈ a', y ∈ a := by
  unfold shiftDown at h
  refine foldlM_keeps (fun b => b.length = a.length ∧ ∀ y ∈ b, y ∈ a) _ ?_ _ a a' ⟨rfl, fun y hy => hy⟩ h
  intro b j b' hb hj
  obtain ⟨x, hx, hw⟩ := bind_ok hj
  obtain ⟨l1, l2, _, _⟩ := wr_keeps hw
  refine ⟨by rw [l1, hb.1], ?_⟩
  intro y hy
  rcases l2 y hy with e | e
  · rw [e]; exact hb.2 x (rd_mem hx)
  · exact hb.2 y e

theorem copyRange_keeps {α : Type} {dst src a' : List α} {cnt dOff sOff : Int}
    (h : copyRange dst src cnt dOff sOff = .ok a') :
    a'.length = dst.length ∧ ∀ y ∈ a', y ∈ dst ∨ y ∈ src := by
  unfold copyRange at h
  refine foldlM_keeps (fun b => b.length = dst.length ∧ ∀ y ∈ b, y ∈ dst ∨ y ∈ src) _ ?_ _ dst a'
    ⟨rfl, fun y hy => Or.inl hy⟩ h
  intro b j b' hb hj
  obtain ⟨x, hx, hw⟩ := bind_ok hj
  obtain ⟨l1, l2, _, _⟩ := wr_keeps hw
  refine ⟨by rw [l1, hb.1], ?_⟩
  intro y hy
  rcases l2 y hy with e | e
  · rw [e]; exact Or.inr (rd_mem hx)
  · exact hb.2 y e

namespace LeafNode

/-- Source `LeafNode::_insert_main` does not touch the overflow block. -/
theorem insert_main_ov {x x' : LeafNode} {k v : Int} (h : x._insert_main k v = .ok x') :
    x'.overflow_key = x.overflow_key ∧ x'.overflow_val = x.overflow_val ∧
      x'.overflow_n = x.overflow_n := by
  simp only [_insert_main] at h
  obtain ⟨⟨key, val, j⟩, _, h⟩ := bind_ok h
  obtain ⟨key', _, h⟩ := bind_ok h
  obtain ⟨val', _, h⟩ := bind_ok h
  simp only [Except.pure_eq_ok, Except.ok.injEq] at h
  subst h
  exact ⟨rfl, rfl, rfl⟩

theorem writePairs_len {ks vs ks' vs' : List Int} {ps : List (Int × Int)}
    (h : writePairs ks vs ps = .ok (ks', vs')) :
    ks'.length = ks.length ∧ vs'.length = vs.length := by
  unfold writePairs at h
  refine foldlM_keeps (fun (acc : List Int × List Int) =>
    acc.1.length = ks.length ∧ acc.2.length = vs.length) _ ?_ _ (ks, vs) (ks', vs') ⟨rfl, rfl⟩ h
  intro b jp b' hb hj
  obtain ⟨k1, h1, hj⟩ := bind_ok hj
  obtain ⟨v1, h2, hj⟩ := bind_ok hj
  simp only [Except.pure_eq_ok, Except.ok.injEq] at hj
  subst hj
  exact ⟨by rw [(wr_keeps h1).1, hb.1], by rw [(wr_keeps h2).1, hb.2]⟩

theorem sort_overflow_ov {d : Int} {x x' : LeafNode} (h : x._sort_overflow = .ok x')
    (hx : x.OvOK d) : x'.OvOK d := by
  simp only [_sort_overflow] at h
  obtain ⟨ps, _, h⟩ := bind_ok h
  obtain ⟨⟨ks, vs⟩, hw, h⟩ := bind_ok h
  simp only [Except.pure_eq_ok, Except.ok.injEq] at h
  subst h
  obtain ⟨l1, l2⟩ := writePairs_len hw
  obtain ⟨q1, q2, q3, q4⟩ := hx
  exact ⟨by show (ks.length : Int) = _; rw [l1]; exact q1,
    by show (vs.length : Int) = _; rw [l2]; exact q2, q3, q4⟩

/-- Source `LeafNode::_load_overflow` keeps the overflow block well formed. -/
theorem load_ov {d : Int} {x x' : LeafNode} (h : x._load_overflow = .ok x') (hx : x.OvOK d) :
    x'.OvOK d ∧ x'.overflow_n = 0 := by
  simp only [_load_overflow] at h
  by_cases h0 : x.overflow_n = 0
  · simp only [h0, if_true, ite_true, Except.pure_eq_ok, Except.ok.injEq] at h
    have : x' = x := h.symm
    subst this
    exact ⟨hx, h0⟩
  · simp only [h0, if_false, ite_false, Except.pure_eq_ok, Except.ok_bind] at h
    obtain ⟨x1, hs, h⟩ := bind_ok h
    obtain ⟨x2, hl, h⟩ := bind_ok h
    simp only [Except.ok.injEq] at h
    subst h
    have h1 := sort_overflow_ov hs hx
    have h2 : x2.overflow_key = x1.overflow_key ∧ x2.overflow_val = x1.overflow_val := by
      refine foldlM_keeps (fun (y : LeafNode) =>
        y.overflow_key = x1.overflow_key ∧ y.overflow_val = x1.overflow_val) _ ?_ _ x1 x2
        ⟨rfl, rfl⟩ hl
      intro b j b' hb hj
      obtain ⟨k1, _, hj⟩ := bind_ok hj
      obtain ⟨v1, _, hj⟩ := bind_ok hj
      obtain ⟨e1, e2, _⟩ := insert_main_ov hj
      exact ⟨by rw [e1, hb.1], by rw [e2, hb.2]⟩
    obtain ⟨q1, q2, q3, q4⟩ := h1
    exact ⟨⟨by show (x2.overflow_key.length : Int) = _; rw [h2.1]; exact q1,
      by show (x2.overflow_val.length : Int) = _; rw [h2.2]; exact q2, le_refl _,
      by show (0 : Int) ≤ d / 2; omega⟩, rfl⟩

/-- Source `LeafNode::_insert` keeps the overflow block well formed. -/
theorem insert_ov {d : Int} {x x' : LeafNode} {k v : Int} (h : x._insert d k v = .ok x')
    (hx : x.OvOK d) : x'.OvOK d := by
  simp only [_insert] at h
  by_cases hbr : 2 * d - 1 - d / 2 < x.n
  · simp only [hbr, if_true, ite_true, Except.pure_eq_ok] at h
    obtain ⟨x1, h1, h⟩ := bind_ok h
    simp only [Except.ok.injEq] at h
    subst h
    obtain ⟨e1, e2, e3⟩ := insert_main_ov h1
    obtain ⟨q1, q2, q3, q4⟩ := hx
    exact ⟨by rw [e1]; exact q1, by rw [e2]; exact q2, by rw [e3]; exact q3, by rw [e3]; exact q4⟩
  · have fin : ∀ x1 : LeafNode, x1.OvOK d →
        (wr x1.overflow_key x1.overflow_n k >>= fun ok =>
          wr x1.overflow_val x1.overflow_n v >>= fun ov =>
            (Except.ok (⟨x1.n, x1.key, x1.val, x1.overflow_n + 1, ok, ov⟩ : LeafNode)
              : Except Err LeafNode)) = .ok x' → x'.OvOK d := by
      intro x1 hx1 h
      obtain ⟨ok, hk, h⟩ := bind_ok h
      obtain ⟨ov, hv, h⟩ := bind_ok h
      simp only [Except.ok.injEq] at h
      subst h
      obtain ⟨l1, _, i0, i1⟩ := wr_keeps hk
      obtain ⟨l2, _, _, _⟩ := wr_keeps hv
      obtain ⟨q1, q2, q3, q4⟩ := hx1
      exact ⟨by show (ok.length : Int) = _; rw [l1]; exact q1,
        by show (ov.length : Int) = _; rw [l2]; exact q2,
        by show 0 ≤ x1.overflow_n + 1; omega, by show x1.overflow_n + 1 ≤ d / 2; omega⟩
    rw [if_neg hbr] at h
    simp only [Except.pure_eq_ok, Except.ok_bind] at h
    by_cases hf : d / 2 = x.overflow_n
    · rw [if_pos hf] at h
      obtain ⟨x1, h1, h⟩ := bind_ok h
      exact fin x1 (load_ov h1 hx).1 h
    · rw [if_neg hf] at h
      exact fin x hx h

/-- Source `LeafNode::_remove` keeps the overflow block well formed. -/
theorem remove_ov {d : Int} {x x' : LeafNode} {i : Int} (h : x._remove i = .ok x')
    (hx : x.OvOK d) : x'.OvOK d := by
  simp only [_remove] at h
  obtain ⟨x1, h1, h⟩ := bind_ok h
  obtain ⟨key, _, h⟩ := bind_ok h
  obtain ⟨val, _, h⟩ := bind_ok h
  simp only [Except.pure_eq_ok, Except.ok.injEq] at h
  subst h
  exact (load_ov h1 hx).1

theorem new_ov (d : Int) (hd : 0 ≤ d / 2) : (LeafNode.new d).OvOK d := by
  refine ⟨?_, ?_, le_refl _, hd⟩
  · simp only [LeafNode.new, List.length_replicate]; omega
  · simp only [LeafNode.new, List.length_replicate]; omega

end LeafNode

namespace BPlusTree

theorem leavesOK_internal {d : Int} {n : Int} {key : List Int} {c : List (Option BPNode)} :
    LeavesOK d (.internal n key c) ↔ KidsOK d c := by
  constructor
  · intro h
    cases h with
    | internal _ _ _ hc => exact hc
  · intro h
    exact LeavesOK.internal n key c h

theorem leavesOK_leaf {d : Int} {x : LeafNode} : LeavesOK d (.leaf x) ↔ x.OvOK d := by
  constructor
  · intro h
    cases h with
    | leaf _ hx => exact hx
  · intro h
    exact LeavesOK.leaf x h

theorem kidsOK_replicate (d : Int) (n : Nat) : KidsOK d (List.replicate n none) := by
  intro ch hm
  have := List.eq_of_mem_replicate hm
  exact absurd this (by simp)

theorem kidsOK_rd {d : Int} {c : List (Option BPNode)} {i : Int} {ch : BPNode}
    (h : rd c i = .ok (some ch)) (hc : KidsOK d c) : LeavesOK d ch := hc ch (rd_mem h)

theorem kidsOK_wr {d : Int} {c c' : List (Option BPNode)} {i : Int} {o : Option BPNode}
    (h : wr c i o = .ok c') (hc : KidsOK d c) (ho : ∀ ch, o = some ch → LeavesOK d ch) :
    KidsOK d c' := by
  intro ch hm
  rcases (wr_keeps h).2.1 _ hm with e | e
  · exact ho ch e.symm
  · exact hc ch e

theorem kidsOK_sub {d : Int} {c c' : List (Option BPNode)} (hs : ∀ y ∈ c', y ∈ c)
    (hc : KidsOK d c) : KidsOK d c' := fun ch hm => hc ch (hs _ hm)

theorem asInternal_ok {p : BPNode} {tp : InternalNode} (h : p.asInternal = .ok tp) :
    p = .internal tp.n tp.key tp.c := by
  cases p with
  | leaf x => exact absurd h (by simp [BPNode.asInternal])
  | internal n key c =>
    simp only [BPNode.asInternal, Except.ok.injEq] at h
    subst h; rfl

theorem asLeaf_ok {p : BPNode} {x : LeafNode} (h : p.asLeaf = .ok x) : p = .leaf x := by
  cases p with
  | leaf y =>
    simp only [BPNode.asLeaf, Except.ok.injEq] at h
    subst h; rfl
  | internal n key c => exact absurd h (by simp [BPNode.asLeaf])

theorem asInternal_kids {d : Int} {p : BPNode} {tp : InternalNode} (h : p.asInternal = .ok tp)
    (hp : LeavesOK d p) : KidsOK d tp.c := by
  rw [asInternal_ok h] at hp
  exact leavesOK_internal.mp hp

theorem toNode_kids {d : Int} {x : InternalNode} (h : KidsOK d x.c) : LeavesOK d x.toNode :=
  leavesOK_internal.mpr h

theorem setKey_ok {d : Int} {p : BPNode} (key : List Int) (hp : LeavesOK d p) :
    LeavesOK d (p.setKey key) := by
  cases p with
  | leaf x =>
    rw [leavesOK_leaf] at hp
    exact leavesOK_leaf.mpr hp
  | internal n k c => exact leavesOK_internal.mpr (leavesOK_internal.mp hp)

/-- Source `InternalNode::_insert` keeps the leaves under the children well formed. -/
theorem inner_insert_ok {d : Int} {x x' : InternalNode} {k ki ci : Int} {o : Option BPNode}
    (h : x._insert k ki o ci = .ok x') (hc : KidsOK d x.c)
    (ho : ∀ ch, o = some ch → LeavesOK d ch) : KidsOK d x'.c := by
  simp only [InternalNode._insert] at h
  obtain ⟨k1, _, h⟩ := bind_ok h
  obtain ⟨k2, _, h⟩ := bind_ok h
  obtain ⟨c1, h1, h⟩ := bind_ok h
  obtain ⟨c2, h2, h⟩ := bind_ok h
  simp only [Except.pure_eq_ok, Except.ok.injEq] at h
  subst h
  exact kidsOK_wr h2 (kidsOK_sub (shiftUp_keeps h1).2 hc) ho

/-- Source `InternalNode::_remove` keeps the leaves under the children well formed. -/
theorem inner_remove_ok {d : Int} {x x' : InternalNode} {ki ci : Int}
    (h : x._remove ki ci = .ok x') (hc : KidsOK d x.c) : KidsOK d x'.c := by
  simp only [InternalNode._remove] at h
  obtain ⟨k1, _, h⟩ := bind_ok h
  obtain ⟨c1, h1, h⟩ := bind_ok h
  simp only [Except.pure_eq_ok, Except.ok.injEq] at h
  subst h
  exact kidsOK_sub (shiftDown_keeps h1).2 hc

theorem putChild_ok {d : Int} {p p' ch : BPNode} {i : Int} (h : p.putChild i ch = .ok p')
    (hp : LeavesOK d p) (hch : LeavesOK d ch) : LeavesOK d p' := by
  simp only [BPNode.putChild] at h
  obtain ⟨tp, h1, h⟩ := bind_ok h
  obtain ⟨c1, h2, h⟩ := bind_ok h
  simp only [Except.pure_eq_ok, Except.ok.injEq] at h
  subst h
  apply toNode_kids
  exact kidsOK_wr h2 (asInternal_kids h1 hp) (fun x hx => by
    simp only [Option.some.injEq] at hx
    subst hx; exact hch)

theorem loadIfLeaf_ok {d : Int} {x x' : BPNode} (h : x.loadIfLeaf = .ok x')
    (hx : LeavesOK d x) : LeavesOK d x' := by
  cases x with
  | leaf y =>
    simp only [BPNode.loadIfLeaf] at h
    obtain ⟨y1, h1, h⟩ := bind_ok h
    simp only [Except.pure_eq_ok, Except.ok.injEq] at h
    subst h
    exact leavesOK_leaf.mpr (LeafNode.load_ov h1 (leavesOK_leaf.mp hx)).1
  | internal n key c =>
    simp only [BPNode.loadIfLeaf, Except.pure_eq_ok, Except.ok.injEq] at h
    subst h; exact hx

theorem loadSibling_ok {d : Int} {o o' : Option BPNode} (h : loadSibling o = .ok o')
    (ho : ∀ x, o = some x → LeavesOK d x) : ∀ x, o' = some x → LeavesOK d x := by
  cases o with
  | none =>
    simp only [loadSibling, Except.pure_eq_ok, Except.ok.injEq] at h
    subst h
    intro x hx; exact absurd hx (by simp)
  | some y =>
    simp only [loadSibling] at h
    obtain ⟨y1, h1, h⟩ := bind_ok h
    simp only [Except.pure_eq_ok, Except.ok.injEq] at h
    subst h
    intro x hx
    simp only [Option.some.injEq] at hx
    subst hx
    exact loadIfLeaf_ok h1 (ho y rfl)

theorem deref_ok {α : Type} {o : Option α} {x : α} (h : deref o = .ok x) : o = some x := by
  cases o with
  | none => exact absurd h (by simp [deref])
  | some y =>
    simp only [deref, Except.ok.injEq] at h
    rw [h]

end BPlusTree

namespace BPlusTree

/-- Source `LeafNode::_split` keeps the overflow blocks well formed. -/
theorem leaf_split_ok {d : Int} (hd : 0 ≤ d / 2) {self s : LeafNode} {p p' : BPNode} {i : Int}
    (h : self._split d p i = .ok (s, p')) (hs : self.OvOK d) (hp : LeavesOK d p) :
    s.OvOK d ∧ LeavesOK d p' := by
  simp only [LeafNode._split] at h
  obtain ⟨s1, h1, h⟩ := bind_ok h
  obtain ⟨rk, _, h⟩ := bind_ok h
  obtain ⟨rv, _, h⟩ := bind_ok h
  obtain ⟨tp, h2, h⟩ := bind_ok h
  obtain ⟨sk, _, h⟩ := bind_ok h
  obtain ⟨tp', h3, h⟩ := bind_ok h
  simp only [Except.pure_eq_ok, Except.ok.injEq, Prod.mk.injEq] at h
  obtain ⟨e1, e2⟩ := h
  subst e1 e2
  have hs1 := (LeafNode.load_ov h1 hs).1
  refine ⟨hs1, toNode_kids (inner_insert_ok h3 (asInternal_kids h2 hp) ?_)⟩
  intro ch hch
  simp only [Option.some.injEq] at hch
  subst hch
  exact leavesOK_leaf.mpr (LeafNode.new_ov d hd)

/-- Source `InternalNode::_split` keeps the leaves under the two halves and under the parent well
formed. -/
theorem inner_split_ok {d : Int} {self s : InternalNode} {p p' : BPNode} {i : Int}
    (h : InternalNode._split d self p i = .ok (s, p')) (hs : KidsOK d self.c)
    (hp : LeavesOK d p) : KidsOK d s.c ∧ LeavesOK d p' := by
  simp only [InternalNode._split] at h
  obtain ⟨rk, _, h⟩ := bind_ok h
  obtain ⟨rc, h1, h⟩ := bind_ok h
  obtain ⟨tp, h2, h⟩ := bind_ok h
  obtain ⟨sk, _, h⟩ := bind_ok h
  obtain ⟨tp', h3, h⟩ := bind_ok h
  simp only [Except.pure_eq_ok, Except.ok.injEq, Prod.mk.injEq] at h
  obtain ⟨e1, e2⟩ := h
  subst e1 e2
  refine ⟨hs, toNode_kids (inner_insert_ok h3 (asInternal_kids h2 hp) ?_)⟩
  intro ch hch
  simp only [Option.some.injEq] at hch
  subst hch
  apply toNode_kids
  intro y hy
  rcases (copyRange_keeps h1).2 _ hy with e | e
  · exact absurd (List.eq_of_mem_replicate e) (by simp)
  · exact hs y e

/-- The virtual call `self->_split(p, i)` keeps the overflow blocks well formed. -/
theorem node_split_ok {d : Int} (hd : 0 ≤ d / 2) {self s p p' : BPNode} {i : Int}
    (h : self._split d p i = .ok (s, p')) (hs : LeavesOK d self) (hp : LeavesOK d p) :
    LeavesOK d s ∧ LeavesOK d p' := by
  cases self with
  | leaf y =>
    simp only [BPNode._split] at h
    obtain ⟨⟨s1, p1⟩, h1, h⟩ := bind_ok h
    simp only [Except.pure_eq_ok, Except.ok.injEq, Prod.mk.injEq] at h
    obtain ⟨e1, e2⟩ := h
    subst e1 e2
    obtain ⟨a, b⟩ := leaf_split_ok hd h1 (leavesOK_leaf.mp hs) hp
    exact ⟨leavesOK_leaf.mpr a, b⟩
  | internal n key c =>
    simp only [BPNode._split] at h
    obtain ⟨⟨s1, p1⟩, h1, h⟩ := bind_ok h
    simp only [Except.pure_eq_ok, Except.ok.injEq, Prod.mk.injEq] at h
    obtain ⟨e1, e2⟩ := h
    subst e1 e2
    obtain ⟨a, b⟩ := inner_split_ok h1 (leavesOK_internal.mp hs) hp
    exact ⟨toNode_kids a, b⟩

/-- Source `LeafNode::_merge` keeps the overflow blocks well formed. -/
theorem leaf_merge_ok {d : Int} {self s : LeafNode} {p p' r : BPNode} {i : Int}
    (h : self._merge d p i r = .ok (s, p')) (hs : self.OvOK d) (hp : LeavesOK d p) :
    s.OvOK d ∧ LeavesOK d p' := by
  simp only [LeafNode._merge] at h
  obtain ⟨tp, h1, h⟩ := bind_ok h
  obtain ⟨tr, _, h⟩ := bind_ok h
  obtain ⟨s1, h2, h⟩ := bind_ok h
  obtain ⟨tr1, _, h⟩ := bind_ok h
  obtain ⟨s2, h3, h⟩ := bind_ok h
  obtain ⟨s3, h4, h⟩ := bind_ok h
  obtain ⟨tp', h5, h⟩ := bind_ok h
  simp only [Except.pure_eq_ok, Except.ok.injEq, Prod.mk.injEq] at h
  obtain ⟨e1, e2⟩ := h
  subst e1 e2
  have hs1 := (LeafNode.load_ov h2 hs).1
  have hs2 : s2.OvOK d := by
    refine foldlM_keeps (fun (y : LeafNode) => y.OvOK d) _ ?_ _ s1 s2 hs1 h3
    intro b j b' hb hj
    obtain ⟨k1, _, hj⟩ := bind_ok hj
    obtain ⟨v1, _, hj⟩ := bind_ok hj
    exact LeafNode.insert_ov hj hb
  exact ⟨(LeafNode.load_ov h4 hs2).1, toNode_kids (inner_remove_ok h5 (asInternal_kids h1 hp))⟩

/-- Source `InternalNode::_merge` keeps the leaves under the merged node and under the parent well
formed. -/
theorem inner_merge_ok {d : Int} {self s : InternalNode} {p p' r : BPNode} {i : Int}
    (h : InternalNode._merge d self p i r = .ok (s, p')) (hs : KidsOK d self.c)
    (hp : LeavesOK d p) (hr : LeavesOK d r) : KidsOK d s.c ∧ LeavesOK d p' := by
  simp only [InternalNode._merge] at h
  obtain ⟨tp, h1, h⟩ := bind_ok h
  obtain ⟨tr, h2, h⟩ := bind_ok h
  obtain ⟨sk, _, h⟩ := bind_ok h
  obtain ⟨o0, h3, h⟩ := bind_ok h
  obtain ⟨s1, h4, h⟩ := bind_ok h
  obtain ⟨s2, h5, h⟩ := bind_ok h
  obtain ⟨tp', h6, h⟩ := bind_ok h
  simp only [Except.pure_eq_ok, Except.ok.injEq, Prod.mk.injEq] at h
  obtain ⟨e1, e2⟩ := h
  subst e1 e2
  have hrc := asInternal_kids h2 hr
  have hs1 : KidsOK d s1.c := inner_insert_ok h4 hs (fun ch hch => hrc ch (hch ▸ rd_mem h3))
  have hs2 : KidsOK d s2.c := by
    unfold InternalNode._merge_loop at h5
    refine foldlM_keeps (fun (y : InternalNode) => KidsOK d y.c) _ ?_ _ s1 s2 hs1 h5
    intro b j b' hb hj
    obtain ⟨k1, _, hj⟩ := bind_ok hj
    obtain ⟨oj, h7, hj⟩ := bind_ok hj
    exact inner_insert_ok hj hb (fun ch hch => hrc ch (hch ▸ rd_mem h7))
  exact ⟨hs2, toNode_kids (inner_remove_ok h6 (asInternal_kids h1 hp))⟩

/-- The virtual call `self->_merge(p, i, r)` keeps the overflow blocks well formed. -/
theorem node_merge_ok {d : Int} {self s p p' r : BPNode} {i : Int}
    (h : self._merge d p i r = .ok (s, p')) (hs : LeavesOK d self) (hp : LeavesOK d p)
    (hr : LeavesOK d r) : LeavesOK d s ∧ LeavesOK d p' := by
  cases self with
  | leaf y =>
    simp only [BPNode._merge] at h
    obtain ⟨⟨s1, p1⟩, h1, h⟩ := bind_ok h
    simp only [Except.pure_eq_ok, Except.ok.injEq, Prod.mk.injEq] at h
    obtain ⟨e1, e2⟩ := h
    subst e1 e2
    obtain ⟨a, b⟩ := leaf_merge_ok h1 (leavesOK_leaf.mp hs) hp
    exact ⟨leavesOK_leaf.mpr a, b⟩
  | internal n key c =>
    simp only [BPNode._merge] at h
    obtain ⟨⟨s1, p1⟩, h1, h⟩ := bind_ok h
    simp only [Except.pure_eq_ok, Except.ok.injEq, Prod.mk.injEq] at h
    obtain ⟨e1, e2⟩ := h
    subst e1 e2
    obtain ⟨a, b⟩ := inner_merge_ok h1 (leavesOK_internal.mp hs) hp hr
    exact ⟨toNode_kids a, b⟩

end BPlusTree

namespace BPlusTree

theorem insert_main_ovok {d : Int} {x x' : LeafNode} {k v : Int}
    (h : x._insert_main k v = .ok x') (hx : x.OvOK d) : x'.OvOK d := by
  obtain ⟨e1, e2, e3⟩ := LeafNode.insert_main_ov h
  obtain ⟨q1, q2, q3, q4⟩ := hx
  exact ⟨by rw [e1]; exact q1, by rw [e2]; exact q2, by rw [e3]; exact q3, by rw [e3]; exact q4⟩

/-- Source `LeafNode::_borrow_from_left` keeps the overflow blocks well formed. -/
theorem leaf_borrow_left_ok {d : Int} {self s : LeafNode} {p p' l l' : BPNode} {i : Int}
    (h : self._borrow_from_left p i l = .ok (s, p', l')) (hs : self.OvOK d)
    (hp : LeavesOK d p) (hl : LeavesOK d l) : s.OvOK d ∧ LeavesOK d p' ∧ LeavesOK d l' := by
  simp only [LeafNode._borrow_from_left] at h
  obtain ⟨tl, h1, h⟩ := bind_ok h
  obtain ⟨tl1, h2, h⟩ := bind_ok h
  obtain ⟨s1, h3, h⟩ := bind_ok h
  obtain ⟨k1, _, h⟩ := bind_ok h
  obtain ⟨v1, _, h⟩ := bind_ok h
  obtain ⟨s2, h4, h⟩ := bind_ok h
  obtain ⟨tl2, h5, h⟩ := bind_ok h
  obtain ⟨k2, _, h⟩ := bind_ok h
  obtain ⟨key', _, h⟩ := bind_ok h
  simp only [Except.pure_eq_ok, Except.ok.injEq, Prod.mk.injEq] at h
  obtain ⟨e1, e2, e3⟩ := h
  subst e1 e2 e3
  rw [asLeaf_ok h1] at hl
  have htl1 := (LeafNode.load_ov h2 (leavesOK_leaf.mp hl)).1
  exact ⟨insert_main_ovok h4 (LeafNode.load_ov h3 hs).1, setKey_ok _ hp,
    leavesOK_leaf.mpr (LeafNode.remove_ov h5 htl1)⟩

/-- Source `LeafNode::_borrow_from_right` keeps the overflow blocks well formed. -/
theorem leaf_borrow_right_ok {d : Int} {self s : LeafNode} {p p' r r' : BPNode} {i : Int}
    (h : self._borrow_from_right p i r = .ok (s, p', r')) (hs : self.OvOK d)
    (hp : LeavesOK d p) (hr : LeavesOK d r) : s.OvOK d ∧ LeavesOK d p' ∧ LeavesOK d r' := by
  simp only [LeafNode._borrow_from_right] at h
  obtain ⟨tr, h1, h⟩ := bind_ok h
  obtain ⟨tr1, h2, h⟩ := bind_ok h
  obtain ⟨s1, h3, h⟩ := bind_ok h
  obtain ⟨k1, _, h⟩ := bind_ok h
  obtain ⟨v1, _, h⟩ := bind_ok h
  obtain ⟨s2, h4, h⟩ := bind_ok h
  obtain ⟨tr2, h5, h⟩ := bind_ok h
  obtain ⟨k2, _, h⟩ := bind_ok h
  obtain ⟨key', _, h⟩ := bind_ok h
  simp only [Except.pure_eq_ok, Except.ok.injEq, Prod.mk.injEq] at h
  obtain ⟨e1, e2, e3⟩ := h
  subst e1 e2 e3
  rw [asLeaf_ok h1] at hr
  have htr1 := (LeafNode.load_ov h2 (leavesOK_leaf.mp hr)).1
  exact ⟨insert_main_ovok h4 (LeafNode.load_ov h3 hs).1, setKey_ok _ hp,
    leavesOK_leaf.mpr (LeafNode.remove_ov h5 htr1)⟩

/-- Source `InternalNode::_borrow_from_left` keeps the leaves under the nodes well formed. -/
theorem inner_borrow_left_ok {d : Int} {self s : InternalNode} {p p' l l' : BPNode} {i : Int}
    (h : InternalNode._borrow_from_left self p i l = .ok (s, p', l')) (hs : KidsOK d self.c)
    (hp : LeavesOK d p) (hl : LeavesOK d l) :
    KidsOK d s.c ∧ LeavesOK d p' ∧ LeavesOK d l' := by
  simp only [InternalNode._borrow_from_left] at h
  obtain ⟨tl, h1, h⟩ := bind_ok h
  obtain ⟨o, h2, h⟩ := bind_ok h
  obtain ⟨last, h3, h⟩ := bind_ok h
  obtain ⟨last1, h4, h⟩ := bind_ok h
  obtain ⟨c1, h5, h⟩ := bind_ok h
  obtain ⟨sk, _, h⟩ := bind_ok h
  obtain ⟨o2, h6, h⟩ := bind_ok h
  obtain ⟨s1, h7, h⟩ := bind_ok h
  obtain ⟨kk, _, h⟩ := bind_ok h
  obtain ⟨key', _, h⟩ := bind_ok h
  obtain ⟨tl2, h8, h⟩ := bind_ok h
  simp only [Except.pure_eq_ok, Except.ok.injEq, Prod.mk.injEq] at h
  obtain ⟨e1, e2, e3⟩ := h
  subst e1 e2 e3
  have hlc := asInternal_kids h1 hl
  have hlast : LeavesOK d last := by
    have := deref_ok h3
    subst this
    exact kidsOK_rd h2 hlc
  have hc1 : KidsOK d c1 := kidsOK_wr h5 hlc (fun x hx => by
    simp only [Option.some.injEq] at hx
    subst hx; exact loadIfLeaf_ok h4 hlast)
  refine ⟨inner_insert_ok h7 hs (fun ch hch => hc1 ch (hch ▸ rd_mem h6)), setKey_ok _ hp, ?_⟩
  exact toNode_kids (inner_remove_ok h8 hc1)

/-- Source `InternalNode::_borrow_from_right` keeps the leaves under the nodes well formed. -/
theorem inner_borrow_right_ok {d : Int} {self s : InternalNode} {p p' r r' : BPNode} {i : Int}
    (h : InternalNode._borrow_from_right self p i r = .ok (s, p', r')) (hs : KidsOK d self.c)
    (hp : LeavesOK d p) (hr : LeavesOK d r) :
    KidsOK d s.c ∧ LeavesOK d p' ∧ LeavesOK d r' := by
  simp only [InternalNode._borrow_from_right] at h
  obtain ⟨tr, h1, h⟩ := bind_ok h
  obtain ⟨o, h2, h⟩ := bind_ok h
  obtain ⟨first, h3, h⟩ := bind_ok h
  obtain ⟨first1, h4, h⟩ := bind_ok h
  obtain ⟨c1, h5, h⟩ := bind_ok h
  obtain ⟨sk, _, h⟩ := bind_ok h
  obtain ⟨o2, h6, h⟩ := bind_ok h
  obtain ⟨s1, h7, h⟩ := bind_ok h
  obtain ⟨kk, _, h⟩ := bind_ok h
  obtain ⟨key', _, h⟩ := bind_ok h
  obtain ⟨tr2, h8, h⟩ := bind_ok h
  simp only [Except.pure_eq_ok, Except.ok.injEq, Prod.mk.injEq] at h
  obtain ⟨e1, e2, e3⟩ := h
  subst e1 e2 e3
  have hrc := asInternal_kids h1 hr
  have hfirst : LeavesOK d first := by
    have := deref_ok h3
    subst this
    exact kidsOK_rd h2 hrc
  have hc1 : KidsOK d c1 := kidsOK_wr h5 hrc (fun x hx => by
    simp only [Option.some.injEq] at hx
    subst hx; exact loadIfLeaf_ok h4 hfirst)
  refine ⟨inner_insert_ok h7 hs (fun ch hch => hc1 ch (hch ▸ rd_mem h6)), setKey_ok _ hp, ?_⟩
  exact toNode_kids (inner_remove_ok h8 hc1)

/-- The virtual call `self->_borrow_from_left(p, i, l)` keeps the overflow blocks well formed. -/
theorem node_borrow_left_ok {d : Int} {self s p p' l l' : BPNode} {i : Int}
    (h : self._borrow_from_left p i l = .ok (s, p', l')) (hs : LeavesOK d self)
    (hp : LeavesOK d p) (hl : LeavesOK d l) :
    LeavesOK d s ∧ LeavesOK d p' ∧ LeavesOK d l' := by
  cases self with
  | leaf y =>
    simp only [BPNode._borrow_from_left] at h
    obtain ⟨⟨s1, p1, l1⟩, h1, h⟩ := bind_ok h
    simp only [Except.pure_eq_ok, Except.ok.injEq, Prod.mk.injEq] at h
    obtain ⟨e1, e2, e3⟩ := h
    subst e1 e2 e3
    obtain ⟨a, b, c⟩ := leaf_borrow_left_ok h1 (leavesOK_leaf.mp hs) hp hl
    exact ⟨leavesOK_leaf.mpr a, b, c⟩
  | internal n key c =>
    simp only [BPNode._borrow_from_left] at h
    obtain ⟨⟨s1, p1, l1⟩, h1, h⟩ := bind_ok h
    simp only [Except.pure_eq_ok, Except.ok.injEq, Prod.mk.injEq] at h
    obtain ⟨e1, e2, e3⟩ := h
    subst e1 e2 e3
    obtain ⟨a, b, c⟩ := inner_borrow_left_ok h1 (leavesOK_internal.mp hs) hp hl
    exact ⟨toNode_kids a, b, c⟩

/-- The virtual call `self->_borrow_from_right(p, i, r)` keeps the overflow blocks well formed. -/
theorem node_borrow_right_ok {d : Int} {self s p p' r r' : BPNode} {i : Int}
    (h : self._borrow_from_right p i r = .ok (s, p', r')) (hs : LeavesOK d self)
    (hp : LeavesOK d p) (hr : LeavesOK d r) :
    LeavesOK d s ∧ LeavesOK d p' ∧ LeavesOK d r' := by
  cases self with
  | leaf y =>
    simp only [BPNode._borrow_from_right] at h
    obtain ⟨⟨s1, p1, l1⟩, h1, h⟩ := bind_ok h
    simp only [Except.pure_eq_ok, Except.ok.injEq, Prod.mk.injEq] at h
    obtain ⟨e1, e2, e3⟩ := h
    subst e1 e2 e3
    obtain ⟨a, b, c⟩ := leaf_borrow_right_ok h1 (leavesOK_leaf.mp hs) hp hr
    exact ⟨leavesOK_leaf.mpr a, b, c⟩
  | internal n key c =>
    simp only [BPNode._borrow_from_right] at h
    obtain ⟨⟨s1, p1, l1⟩, h1, h⟩ := bind_ok h
    simp only [Except.pure_eq_ok, Except.ok.injEq, Prod.mk.injEq] at h
    obtain ⟨e1, e2, e3⟩ := h
    subst e1 e2 e3
    obtain ⟨a, b, c⟩ := inner_borrow_right_ok h1 (leavesOK_internal.mp hs) hp hr
    exact ⟨toNode_kids a, b, c⟩

end BPlusTree

namespace BPlusTree

/-- Source `BPlusTree::_insert` keeps the overflow blocks of all leaves well formed. -/
theorem insert_tree_ok {d : Int} (hd : 0 ≤ d / 2) : ∀ (f : Nat) (p p' : BPNode) (k v : Int),
    _insert d f p k v = .ok p' → LeavesOK d p → LeavesOK d p' := by
  intro f
  induction f with
  | zero => intro p p' k v h; simp only [_insert] at h; cases h
  | succ f ih =>
    intro p p' k v h hp
    simp only [_insert] at h
    by_cases hl : p.leaf_ = true
    · rw [if_pos hl] at h
      obtain ⟨tp, h1, h⟩ := bind_ok h
      obtain ⟨x, h2, h⟩ := bind_ok h
      simp only [Except.pure_eq_ok, Except.ok.injEq] at h
      subst h
      rw [asLeaf_ok h1] at hp
      exact leavesOK_leaf.mpr (LeafNode.insert_ov h2 (leavesOK_leaf.mp hp))
    · rw [if_neg hl] at h
      simp only [pure_bind] at h
      obtain ⟨tp, h1, h⟩ := bind_ok h
      obtain ⟨ki, _, h⟩ := bind_ok h
      obtain ⟨ci, _, h⟩ := bind_ok h
      obtain ⟨o, h2, h⟩ := bind_ok h
      obtain ⟨c, h3, h⟩ := bind_ok h
      obtain ⟨c1, h4, h⟩ := bind_ok h
      obtain ⟨p1, h5, h⟩ := bind_ok h
      have hc : LeavesOK d c := by
        have := deref_ok h3
        subst this
        exact kidsOK_rd h2 (asInternal_kids h1 hp)
      have hc1 := loadIfLeaf_ok h4 hc
      have hp1 := putChild_ok h5 hp hc1
      by_cases hfull : c1.n ≥ 2 * d - 1
      · rw [if_pos hfull] at h
        obtain ⟨⟨c2, p2⟩, h6, h⟩ := bind_ok h
        simp only at h
        obtain ⟨p3, h7, h⟩ := bind_ok h
        obtain ⟨kk, _, h⟩ := bind_ok h
        obtain ⟨hc2, hp2⟩ := node_split_ok hd h6 hc1 hp1
        have hp3 := putChild_ok h7 hp2 hc2
        by_cases hle : kk ≤ k
        · rw [if_pos hle] at h
          obtain ⟨tp3, h8, h⟩ := bind_ok h
          obtain ⟨o3, h9, h⟩ := bind_ok h
          obtain ⟨c3, h10, h⟩ := bind_ok h
          obtain ⟨c4, h11, h⟩ := bind_ok h
          obtain ⟨p4, h12, h⟩ := bind_ok h
          simp only [Except.pure_eq_ok, Except.ok.injEq] at h
          subst h
          have hc3 : LeavesOK d c3 := by
            have := deref_ok h10
            subst this
            exact kidsOK_rd h9 (asInternal_kids h8 hp3)
          exact putChild_ok h12 hp3 (ih _ _ _ _ h11 hc3)
        · rw [if_neg hle] at h
          obtain ⟨c4, h11, h⟩ := bind_ok h
          obtain ⟨p4, h12, h⟩ := bind_ok h
          simp only [Except.pure_eq_ok, Except.ok.injEq] at h
          subst h
          exact putChild_ok h12 hp3 (ih _ _ _ _ h11 hc2)
      · rw [if_neg hfull] at h
        obtain ⟨c4, h11, h⟩ := bind_ok h
        exact putChild_ok h hp1 (ih _ _ _ _ h11 hc1)

/-- Source `BPlusTree::insert` keeps the overflow blocks of all leaves well formed. -/
theorem insert_ok {d : Int} (hd : 0 ≤ d / 2) {fuel : Nat} {tr tr' : BPlusTree} {k v : Int}
    (h : insert d fuel tr k v = .ok tr') (ht : ∀ r, tr.root_ = some r → LeavesOK d r) :
    ∀ r, tr'.root_ = some r → LeavesOK d r := by
  simp only [insert] at h
  obtain ⟨root, h1, h⟩ := bind_ok h
  have hroot : LeavesOK d root := by
    refine loadIfLeaf_ok h1 ?_
    cases hr : tr.root_ with
    | none => exact leavesOK_leaf.mpr (LeafNode.new_ov d hd)
    | some r => exact ht r hr
  by_cases hfull : root.n = 2 * d - 1
  · rw [if_pos hfull] at h
    obtain ⟨c0, h2, h⟩ := bind_ok h
    obtain ⟨⟨root1, r1⟩, h3, h⟩ := bind_ok h
    simp only at h
    obtain ⟨r2, h4, h⟩ := bind_ok h
    obtain ⟨r3, h5, h⟩ := bind_ok h
    simp only [Except.pure_eq_ok, Except.ok.injEq] at h
    subst h
    intro r hr
    simp only [Option.some.injEq] at hr
    subst hr
    have hc0 : KidsOK d c0 := kidsOK_wr h2 (kidsOK_replicate d _) (fun x hx => by
      simp only [Option.some.injEq] at hx
      subst hx; exact hroot)
    obtain ⟨a, b⟩ := node_split_ok hd h3 hroot (toNode_kids hc0)
    exact insert_tree_ok hd _ _ _ _ _ h5 (putChild_ok h4 b a)
  · rw [if_neg hfull] at h
    simp only [pure_bind] at h
    obtain ⟨r3, h5, h⟩ := bind_ok h
    simp only [Except.pure_eq_ok, Except.ok.injEq] at h
    subst h
    intro r hr
    simp only [Option.some.injEq] at hr
    subst hr
    exact insert_tree_ok hd _ _ _ _ _ h5 hroot

end BPlusTree

namespace BPlusTree

/-- Source `BPlusTree::_search` keeps the overflow blocks of all leaves well formed. -/
theorem search_tree_ok {d : Int} : ∀ (f : Nat) (o o' : Option BPNode) (k : Int) (res : Option Int),
    _search f o k = .ok (o', res) → (∀ x, o = some x → LeavesOK d x) →
    ∀ x, o' = some x → LeavesOK d x := by
  intro f
  induction f with
  | zero => intro o o' k res h; simp only [_search] at h; cases h
  | succ f ih =>
    intro o o' k res h ho
    cases o with
    | none =>
      simp only [_search, Except.pure_eq_ok, Except.ok.injEq, Prod.mk.injEq] at h
      intro x hx
      rw [← h.1] at hx
      cases hx
    | some p =>
      have hp := ho p rfl
      simp only [_search] at h
      by_cases hl : p.leaf_ = true
      · rw [if_pos hl] at h
        obtain ⟨tp, h1, h⟩ := bind_ok h
        obtain ⟨tp1, h2, h⟩ := bind_ok h
        obtain ⟨i, _, h⟩ := bind_ok h
        rw [asLeaf_ok h1] at hp
        have htp1 := leavesOK_leaf.mpr (LeafNode.load_ov h2 (leavesOK_leaf.mp hp)).1
        have key : o' = some tp1.toNode := by
          by_cases hi : i < tp1.n
          · rw [if_pos hi] at h
            obtain ⟨kk, _, h⟩ := bind_ok h
            by_cases hk : k = kk
            · rw [if_pos hk] at h
              obtain ⟨vv, _, h⟩ := bind_ok h
              simp only [Except.pure_eq_ok, Except.ok.injEq, Prod.mk.injEq] at h
              exact h.1.symm
            · rw [if_neg hk] at h
              simp only [pure_bind, Except.pure_eq_ok, Except.ok_bind, Except.ok.injEq, Prod.mk.injEq] at h
              exact h.1.symm
          · rw [if_neg hi] at h
            simp only [pure_bind, Except.pure_eq_ok, Except.ok_bind, Except.ok.injEq, Prod.mk.injEq] at h
            exact h.1.symm
        intro x hx
        rw [key] at hx
        simp only [Option.some.injEq] at hx
        subst hx
        exact htp1
      · rw [if_neg hl] at h
        simp only [pure_bind] at h
        obtain ⟨tp, h1, h⟩ := bind_ok h
        obtain ⟨i, _, h⟩ := bind_ok h
        obtain ⟨ci, _, h⟩ := bind_ok h
        obtain ⟨c, h2, h⟩ := bind_ok h
        obtain ⟨⟨c1, res1⟩, h3, h⟩ := bind_ok h
        simp only at h
        obtain ⟨cs, h4, h⟩ := bind_ok h
        simp only [Except.pure_eq_ok, Except.ok.injEq, Prod.mk.injEq] at h
        obtain ⟨e1, e2⟩ := h
        subst e1
        have hkids := asInternal_kids h1 hp
        have hc1 := ih _ _ _ _ h3 (fun x hx => hkids x (hx ▸ rd_mem h2))
        intro x hx
        simp only [Option.some.injEq] at hx
        subst hx
        exact toNode_kids (kidsOK_wr h4 hkids hc1)

/-- Source `BPlusTree::search` keeps the overflow blocks of all leaves well formed. -/
theorem search_ok {d : Int} {fuel : Nat} {tr tr' : BPlusTree} {k : Int} {res : Option Int}
    (h : search fuel tr k = .ok (tr', res)) (ht : ∀ r, tr.root_ = some r → LeavesOK d r) :
    ∀ r, tr'.root_ = some r → LeavesOK d r := by
  simp only [search] at h
  obtain ⟨⟨r1, res1⟩, h1, h⟩ := bind_ok h
  simp only [Except.pure_eq_ok, Except.ok.injEq, Prod.mk.injEq] at h
  obtain ⟨e1, e2⟩ := h
  subst e1
  exact search_tree_ok _ _ _ _ _ h1 ht

theorem sibling_ok {d : Int} {c : List (Option BPNode)} {j : Int} {cond : Prop} [Decidable cond]
    {o : Option BPNode} (h : (if cond then rd c j else pure none) = .ok o) (hc : KidsOK d c) :
    ∀ x, o = some x → LeavesOK d x := by
  intro x hx
  subst hx
  by_cases hcd : cond
  · rw [if_pos hcd] at h
    exact kidsOK_rd h hc
  · rw [if_neg hcd] at h
    cases h

theorem putSome_ok {d : Int} {p p' : BPNode} {j : Int} {o : Option BPNode}
    (h : (match o with
      | some l => p.putChild j l
      | none => pure p) = .ok p') (hp : LeavesOK d p) (ho : ∀ x, o = some x → LeavesOK d x) :
    LeavesOK d p' := by
  cases o with
  | none =>
    simp only [Except.pure_eq_ok, Except.ok.injEq] at h
    subst h
    exact hp
  | some l =>
    simp only at h
    exact putChild_ok h hp (ho l rfl)

end BPlusTree

namespace BPlusTree

theorem if_bind_back {α β : Type} (c : Prop) [Decidable c] (x : Except Err (Option α))
    (g : Option α → Except Err β) :
    (if c then x >>= g else g none) = ((if c then x else pure none) >>= g) := by
  by_cases h : c
  · rw [if_pos h, if_pos h]
  · rw [if_neg h, if_neg h]; rfl

/-- Source `BPlusTree::_remove` keeps the overflow blocks of all leaves well formed. -/
theorem remove_tree_ok {d : Int} : ∀ (f : Nat) (p p' : BPNode) (k : Int),
    _remove d f p k = .ok p' → LeavesOK d p → LeavesOK d p' := by
  intro f
  induction f with
  | zero => intro p p' k h; simp only [_remove] at h; cases h
  | succ f ih =>
    intro p p' k h hp
    simp only [_remove] at h
    by_cases hl : p.leaf_ = true
    · rw [if_pos hl] at h
      obtain ⟨tp, h1, h⟩ := bind_ok h
      obtain ⟨tp1, h2, h⟩ := bind_ok h
      obtain ⟨i, _, h⟩ := bind_ok h
      obtain ⟨tp2, h3, h⟩ := bind_ok h
      simp only [Except.pure_eq_ok, Except.ok.injEq] at h
      subst h
      rw [asLeaf_ok h1] at hp
      exact leavesOK_leaf.mpr
        (LeafNode.remove_ov h3 (LeafNode.load_ov h2 (leavesOK_leaf.mp hp)).1)
    · rw [if_neg hl] at h
      simp only [pure_bind] at h
      obtain ⟨tp, h1, h⟩ := bind_ok h
      obtain ⟨i, _, h⟩ := bind_ok h
      obtain ⟨ci, _, h⟩ := bind_ok h
      obtain ⟨o, h2, h⟩ := bind_ok h
      obtain ⟨c, h3, h⟩ := bind_ok h
      obtain ⟨c1, h4, h⟩ := bind_ok h
      obtain ⟨p1, h5, h⟩ := bind_ok h
      have hkids := asInternal_kids h1 hp
      have hc : LeavesOK d c := by
        have := deref_ok h3
        subst this
        exact kidsOK_rd h2 hkids
      have hc1 := loadIfLeaf_ok h4 hc
      have hp1 := putChild_ok h5 hp hc1
      by_cases hmin : d - 1 = c1.n
      · rw [if_pos hmin] at h
        rw [if_bind_back] at h
        obtain ⟨l0, h6, h⟩ := bind_ok h
        rw [if_bind_back] at h
        obtain ⟨r0, h7, h⟩ := bind_ok h
        obtain ⟨l, h8, h⟩ := bind_ok h
        obtain ⟨r, h9, h⟩ := bind_ok h
        have hl' := loadSibling_ok h8 (sibling_ok h6 hkids)
        have hr' := loadSibling_ok h9 (sibling_ok h7 hkids)
        cases l with
        | some lv =>
          simp only at h
          have hlv := hl' lv rfl
          obtain ⟨p2, h10, h⟩ := bind_ok h
          have hp2 := putChild_ok h10 hp1 hlv
          cases r with
          | some rv =>
            simp only at h
            have hrv := hr' rv rfl
            obtain ⟨p3, h11, h⟩ := bind_ok h
            have hp3 := putChild_ok h11 hp2 hrv
            by_cases hb : lv.n > d - 1
            · rw [if_pos hb] at h
              obtain ⟨⟨c2, p4, l2⟩, h12, h⟩ := bind_ok h
              simp only at h
              obtain ⟨p5, h13, h⟩ := bind_ok h
              obtain ⟨c3, h14, h⟩ := bind_ok h
              obtain ⟨a1, a2, a3⟩ := node_borrow_left_ok h12 hc1 hp3 hlv
              exact putChild_ok h (putChild_ok h13 a2 a3) (ih _ _ _ h14 a1)
            · rw [if_neg hb] at h
              by_cases hb2 : decide (rv.n > d - 1) = true
              · rw [if_pos hb2] at h
                obtain ⟨rv1, h15, h⟩ := bind_ok h
                have := deref_ok h15
                simp only [Option.some.injEq] at this
                subst this
                obtain ⟨⟨c2, p4, r2⟩, h12, h⟩ := bind_ok h
                simp only at h
                obtain ⟨p5, h13, h⟩ := bind_ok h
                obtain ⟨c3, h14, h⟩ := bind_ok h
                obtain ⟨a1, a2, a3⟩ := node_borrow_right_ok h12 hc1 hp3 hrv
                exact putChild_ok h (putChild_ok h13 a2 a3) (ih _ _ _ h14 a1)
              · rw [if_neg hb2] at h
                obtain ⟨⟨l2, p4⟩, h12, h⟩ := bind_ok h
                simp only at h
                obtain ⟨l3, h14, h⟩ := bind_ok h
                obtain ⟨a1, a2⟩ := node_merge_ok h12 hlv hp3 hc1
                exact putChild_ok h a2 (ih _ _ _ h14 a1)
          | none =>
            simp only at h
            by_cases hb : lv.n > d - 1
            · rw [if_pos hb] at h
              obtain ⟨⟨c2, p4, l2⟩, h12, h⟩ := bind_ok h
              simp only at h
              obtain ⟨p5, h13, h⟩ := bind_ok h
              obtain ⟨c3, h14, h⟩ := bind_ok h
              obtain ⟨a1, a2, a3⟩ := node_borrow_left_ok h12 hc1 hp2 hlv
              exact putChild_ok h (putChild_ok h13 a2 a3) (ih _ _ _ h14 a1)
            · rw [if_neg hb] at h
              simp only [Bool.false_eq_true, if_false] at h
              obtain ⟨⟨l2, p4⟩, h12, h⟩ := bind_ok h
              simp only at h
              obtain ⟨l3, h14, h⟩ := bind_ok h
              obtain ⟨a1, a2⟩ := node_merge_ok h12 hlv hp2 hc1
              exact putChild_ok h a2 (ih _ _ _ h14 a1)
        | none =>
          simp only at h
          cases r with
          | some rv =>
            simp only at h
            have hrv := hr' rv rfl
            obtain ⟨p3, h11, h⟩ := bind_ok h
            have hp3 := putChild_ok h11 hp1 hrv
            by_cases hb : rv.n > d - 1
            · rw [if_pos hb] at h
              obtain ⟨⟨c2, p4, r2⟩, h12, h⟩ := bind_ok h
              simp only at h
              obtain ⟨p5, h13, h⟩ := bind_ok h
              obtain ⟨c3, h14, h⟩ := bind_ok h
              obtain ⟨a1, a2, a3⟩ := node_borrow_right_ok h12 hc1 hp3 hrv
              exact putChild_ok h (putChild_ok h13 a2 a3) (ih _ _ _ h14 a1)
            · rw [if_neg hb] at h
              obtain ⟨⟨c2, p4⟩, h12, h⟩ := bind_ok h
              simp only at h
              obtain ⟨c3, h14, h⟩ := bind_ok h
              obtain ⟨a1, a2⟩ := node_merge_ok h12 hc1 hp3 hrv
              exact putChild_ok h a2 (ih _ _ _ h14 a1)
          | none =>
            simp only at h
            cases h
      · rw [if_neg hmin] at h
        obtain ⟨c4, h11, h⟩ := bind_ok h
        exact putChild_ok h hp1 (ih _ _ _ h11 hc1)

end BPlusTree

namespace BPlusTree

/-- Source `BPlusTree::remove` keeps the overflow blocks of all leaves well formed. -/
theorem remove_ok {d : Int} {fuel : Nat} {tr tr' : BPlusTree} {k : Int} {b : Bool}
    (h : remove d fuel tr k = .ok (tr', b)) (ht : ∀ r, tr.root_ = some r → LeavesOK d r) :
    ∀ r, tr'.root_ = some r → LeavesOK d r := by
  simp only [remove] at h
  obtain ⟨⟨t1, found⟩, h1, h⟩ := bind_ok h
  simp only at h
  have ht1 := search_ok h1 ht
  by_cases hf : found.isNone = true
  · rw [if_pos hf] at h
    simp only [Except.pure_eq_ok, Except.ok.injEq, Prod.mk.injEq] at h
    rw [← h.1]
    exact ht1
  · rw [if_neg hf] at h
    simp only [pure_bind] at h
    obtain ⟨root, h2, h⟩ := bind_ok h
    have hroot : LeavesOK d root := ht1 root (deref_ok h2)
    have fin : ∀ root1, LeavesOK d root1 →
        (_remove d fuel root1 k >>= fun x => (pure (⟨some x⟩, true) : Except Err (BPlusTree × Bool)))
          = .ok (tr', b) → ∀ r, tr'.root_ = some r → LeavesOK d r := by
      intro root1 hroot1 h
      obtain ⟨r2, h4, h⟩ := bind_ok h
      simp only [Except.pure_eq_ok, Except.ok.injEq, Prod.mk.injEq] at h
      obtain ⟨e1, e2⟩ := h
      subst e1
      intro r hr
      simp only [Option.some.injEq] at hr
      subst hr
      exact remove_tree_ok _ _ _ _ h4 hroot1
    by_cases hc : root.n = 1 ∧ (!root.leaf_) = true
    · rw [if_pos hc] at h
      obtain ⟨trn, h5, h⟩ := bind_ok h
      obtain ⟨o1, h6, h⟩ := bind_ok h
      obtain ⟨l, h7, h⟩ := bind_ok h
      obtain ⟨o2, h8, h⟩ := bind_ok h
      obtain ⟨r, h9, h⟩ := bind_ok h
      have hkids := asInternal_kids h5 hroot
      have hl : LeavesOK d l := by
        have := deref_ok h7
        subst this
        exact kidsOK_rd h6 hkids
      have hr : LeavesOK d r := by
        have := deref_ok h9
        subst this
        exact kidsOK_rd h8 hkids
      by_cases hm : d - 1 = l.n ∧ d - 1 = r.n
      · rw [if_pos hm] at h
        obtain ⟨⟨l1, p1⟩, h10, h⟩ := bind_ok h
        exact fin _ (node_merge_ok h10 hl hroot hr).1 h
      · rw [if_neg hm] at h
        exact fin _ hroot h
    · rw [if_neg hc] at h
      exact fin _ hroot h

/-- One call of `insert` or `remove` keeps the overflow blocks of all leaves well formed. -/
theorem applyCall_ok {d : Int} (hd : 0 ≤ d / 2) {fuel : Nat} {tr tr' : BPlusTree} {op : Call}
    (h : applyCall d fuel tr op = .ok tr') (ht : ∀ r, tr.root_ = some r → LeavesOK d r) :
    ∀ r, tr'.root_ = some r → LeavesOK d r := by
  cases op with
  | ins k v => exact insert_ok hd h ht
  | rem k =>
    simp only [applyCall] at h
    obtain ⟨⟨t1, b⟩, h1, h⟩ := bind_ok h
    simp only [Except.pure_eq_ok, Except.ok.injEq] at h
    subst h
    exact remove_ok h1 ht

/-- Every tree reached by a completed history of calls has well-formed overflow blocks in
all of its leaves. -/
theorem runCalls_ok {d : Int} (hd : 0 ≤ d / 2) {fuel : Nat} {tr tr' : BPlusTree}
    {ops : List Call} (h : runCalls d fuel tr ops = .ok tr')
    (ht : ∀ r, tr.root_ = some r → LeavesOK d r) : ∀ r, tr'.root_ = some r → LeavesOK d r :=
  foldlM_keeps (fun t => ∀ r, t.root_ = some r → LeavesOK d r) (applyCall d fuel)
    (fun t op t' hI e => applyCall_ok hd e hI) ops tr tr' ht h

/-- Every leaf below a node whose leaves are well formed is well formed. -/
theorem LeavesOK.leaves_under {d : Int} {r x : BPNode} (hu : Under r x) (hr : LeavesOK d r) :
    LeavesOK d x := by
  induction hu with
  | kid n key c x hm =>
    exact leavesOK_internal.mp hr x (List.mem_of_mem_take hm)
  | deeper n key c y x hm _ ih =>
    exact ih (leavesOK_internal.mp hr y (List.mem_of_mem_take hm))

end BPlusTree

namespace LeafNode

/-- Source `LeafNode::_insert` on a leaf whose overflow block has `d/2` slots and a count within
`[0, d/2]`: when the pair goes to the overflow block and the flush of a full block (if one is
needed) has run, the slot written is `overflow_n_`, it lies in `[0, d/2)`, and both writes take
place. -/
theorem insert_slot_ov (d : Int) (hd : 2 ≤ d) (x x1 : LeafNode) (k v : Int) (hx : x.OvOK d)
    (hbr : ¬ 2 * d - 1 - d / 2 < x.n)
    (hl : (if d / 2 = x.overflow_n then x._load_overflow else pure x) = .ok x1) :
    0 ≤ x1.overflow_n ∧ x1.overflow_n < d / 2 ∧
      (x1.overflow_key.length : Int) = d / 2 ∧ (x1.overflow_val.length : Int) = d / 2 ∧
      x._insert d k v = .ok { x1 with
        overflow_key := x1.overflow_key.set x1.overflow_n.toNat k,
        overflow_val := x1.overflow_val.set x1.overflow_n.toNat v,
        overflow_n := x1.overflow_n + 1 } := by
  have hd2 : 1 ≤ d / 2 := by omega
  have hx1 : x1.OvOK d ∧ x1.overflow_n < d / 2 := by
    by_cases hfull : d / 2 = x.overflow_n
    · rw [if_pos hfull] at hl
      obtain ⟨a, b⟩ := load_ov hl hx
      exact ⟨a, by omega⟩
    · rw [if_neg hfull] at hl
      simp only [Except.pure_eq_ok, Except.ok.injEq] at hl
      subst hl
      have q4 := hx.2.2.2
      exact ⟨hx, by omega⟩
  obtain ⟨⟨q1, q2, q3, q4⟩, hlt⟩ := hx1
  have W1 := wr_ok (a := x1.overflow_key) (i := x1.overflow_n) k (by omega) (by omega)
  have W2 := wr_ok (a := x1.overflow_val) (i := x1.overflow_n) v (by omega) (by omega)
  refine ⟨q3, hlt, q1, q2, ?_⟩
  by_cases hfull : d / 2 = x.overflow_n
  · rw [if_pos hfull] at hl
    simp only [_insert, hbr, if_false, ite_false]
    rw [if_pos hfull]
    simp only [hl, Except.ok_bind, W1, W2, Except.pure_eq_ok]
  · rw [if_neg hfull] at hl
    simp only [Except.pure_eq_ok, Except.ok.injEq] at hl
    subst hl
    simp only [_insert, hbr, if_false, ite_false]
    rw [if_neg hfull]
    simp only [Except.ok_bind, W1, W2, Except.pure_eq_ok]

end LeafNode

namespace LeafNode

theorem new_shape (d : Int) (hd : 2 ≤ d) : (LeafNode.new d).Shape d := by
  unfold Shape
  simp only [LeafNode.new, List.length_replicate]
  omega

theorem new_kvs (d : Int) : (LeafNode.new d).kvs = [] := rfl

theorem new_okvs (d : Int) : (LeafNode.new d).okvs = [] := rfl

theorem okvs_nil (x : LeafNode) (h : x.overflow_n = 0) : x.okvs = [] := by
  unfold okvs view
  rw [h]; rfl

/-- The step of `LeafNode::_insert` that appends to the overflow block: the block is not full
and the main page is not longer than `2d - 1 - d/2`. -/
theorem insert_append (d : Int) (hd : 2 ≤ d) (x : LeafNode) (k v : Int) (hS : x.Shape d)
    (hbr : ¬ 2 * d - 1 - d / 2 < x.n) (hm : x.overflow_n < d / 2) :
    ∃ x', x._insert d k v = .ok x' ∧ x'.Shape d ∧ x'.n = x.n ∧ x'.key = x.key ∧
      x'.val = x.val ∧ x'.overflow_n = x.overflow_n + 1 ∧ x'.okvs = x.okvs ++ [(k, v)] ∧
      x'.kvs = x.kvs := by
  obtain ⟨x1, E1, o1, o2, o3, o4, E⟩ := LeafNode.insert_slot d hd x k v hS hbr
  rw [if_neg (by omega)] at E1
  have hx : x = x1 := Except.ok.inj E1
  subst hx
  obtain ⟨s1, s2, s3, s4, s5, s6, s7, s8⟩ := hS
  refine ⟨_, E, ?_, rfl, rfl, rfl, rfl, LeafNode.okvs_snoc x k v o1 o3 o4, rfl⟩
  unfold Shape
  simp only [List.length_set]
  omega

/-- Inserts into a leaf with an empty main page go to the overflow block as long as it has
room. -/
theorem insertAll_buffer (d : Int) (hd : 2 ≤ d) : ∀ (kvs : List (Int × Int)) (x : LeafNode),
    x.Shape d → x.n = 0 → x.overflow_n + kvs.length ≤ d / 2 →
    ∃ x', insertAll d x kvs = .ok x' ∧ x'.Shape d ∧ x'.n = 0 ∧
      x'.overflow_n = x.overflow_n + kvs.length ∧ x'.okvs = x.okvs ++ kvs ∧ x'.kvs = x.kvs := by
  intro kvs
  induction kvs with
  | nil =>
    intro x hS hn hm
    exact ⟨x, rfl, hS, hn, by simp, by simp, rfl⟩
  | cons p kvs ih =>
    intro x hS hn hm
    simp only [List.length_cons, Nat.cast_add, Nat.cast_one] at hm
    obtain ⟨x1, E1, hS1, n1, _, _, m1, ok1, kv1⟩ :=
      insert_append d hd x p.1 p.2 hS (by omega) (by omega)
    obtain ⟨x2, E2, hS2, n2, m2, ok2, kv2⟩ := ih x1 hS1 (by omega) (by omega)
    refine ⟨x2, ?_, hS2, n2, ?_, ?_, by rw [kv2, kv1]⟩
    · unfold insertAll at E2 ⊢
      rw [List.foldlM_cons, E1]
      exact E2
    · rw [m2, m1]
      simp only [List.length_cons, Nat.cast_add, Nat.cast_one]
      omega
    · rw [ok2, ok1]
      simp

/-- Source `LeafNode::_insert` run `d/2 + 1` times on a new leaf: the first `d/2` pairs
have been flushed into the main page, the last one waits in the overflow block. -/
theorem insertAll_flush_once (d : Int) (hd : 2 ≤ d) (A : List (Int × Int)) (k v : Int)
    (hA : (A.length : Int) = d / 2) (hnd : ((A ++ [(k, v)]).map Prod.fst).Nodup) :
    ∃ x x', insertAll d (LeafNode.new d) (A ++ [(k, v)]) = .ok x ∧ x.n = d / 2 ∧
      x.overflow_n = 1 ∧ StrictKV x.kvs ∧ x.kvs.Perm A ∧ x.okvs = [(k, v)] ∧
      x._load_overflow = .ok x' ∧ x'.n = d / 2 + 1 ∧ x'.overflow_n = 0 ∧ StrictKV x'.kvs ∧
      x'.kvs.Perm (A ++ [(k, v)]) := by
  obtain ⟨xa, Ea, hSa, na, ma, oka, kva⟩ := insertAll_buffer d hd A (LeafNode.new d)
    (new_shape d hd) rfl (by
      have : (LeafNode.new d).overflow_n = 0 := rfl
      rw [this]; omega)
  have hma : xa.overflow_n = d / 2 := by
    rw [ma]
    have : (LeafNode.new d).overflow_n = 0 := rfl
    rw [this]; omega
  rw [new_okvs, List.nil_append] at oka
  rw [new_kvs] at kva
  have hpa : xa.pairs = A := by
    unfold pairs
    rw [kva, oka]; rfl
  have hndA : (A.map Prod.fst).Nodup := by
    rw [List.map_append] at hnd
    exact (List.nodup_append.mp hnd).1
  obtain ⟨x1, E1, hS1, m1, n1, hs1, hp1, ok1⟩ := load_overflow_spec d xa hSa
    (by rw [kva]; exact List.Pairwise.nil) (by rw [hpa]; exact hndA)
  rw [hpa] at hp1
  obtain ⟨x2, E2, hS2, n2, k2, v2, m2, ok2, kv2⟩ :=
    insert_append d hd x1 k v hS1 (by omega) (by omega)
  have EE : xa._insert d k v = .ok x2 := by
    obtain ⟨y, Ey, _, _, _, _, E⟩ := LeafNode.insert_slot d hd xa k v hSa (by omega)
    rw [if_pos hma.symm, E1] at Ey
    have hy : x1 = y := Except.ok.inj Ey
    subst hy
    obtain ⟨z, Ez, _, _, _, _, E'⟩ := LeafNode.insert_slot d hd x1 k v hS1 (by omega)
    rw [if_neg (by omega)] at Ez
    have hz : x1 = z := Except.ok.inj Ez
    subst hz
    rw [E, ← E', E2]
  rw [ok1, List.nil_append] at ok2
  have hp2 : x2.pairs = x1.kvs ++ [(k, v)] := by
    unfold pairs
    rw [kv2, ok2]
  obtain ⟨x3, E3, hS3, m3, n3, hs3, hp3, ok3⟩ := load_overflow_spec d x2 hS2
    (by rw [kv2]; exact hs1) (by
      rw [hp2]
      exact (List.Perm.nodup_iff ((List.Perm.append_right _ hp1).map Prod.fst)).mpr hnd)
  refine ⟨x2, x3, ?_, by omega, by omega, by rw [kv2]; exact hs1, by rw [kv2]; exact hp1, ok2,
    E3, by omega, m3, hs3, ?_⟩
  · unfold insertAll at Ea ⊢
    rw [List.foldlM_append, Ea]
    simp only [Except.ok_bind, List.foldlM_cons, List.foldlM_nil, EE, Except.pure_eq_ok]
  · rw [hp2] at hp3
    exact hp3.trans (List.Perm.append_right _ hp1)

end LeafNode

namespace BPlusTree

/-- Source `BPlusTree::insert` on a tree whose root is a leaf with at most `2d - 1 - d/2` pairs:
the root is flushed and the new pair waits in its overflow block. -/
theorem root_leaf_insert (d : Int) (hd : 2 ≤ d) (fuel : Nat) (hf : 1 ≤ fuel) (y : LeafNode)
    (k v : Int) (hS : y.Shape d) (hs : StrictKV y.kvs) (hnd : (y.pairs.map Prod.fst).Nodup)
    (hsmall : y.n + y.overflow_n ≤ 2 * d - 1 - d / 2) :
    ∃ y', insert d fuel ⟨some (.leaf y)⟩ k v = .ok ⟨some (.leaf y')⟩ ∧ y'.Shape d ∧
      y'.n = y.n + y.overflow_n ∧ y'.overflow_n = 1 ∧ StrictKV y'.kvs ∧
      y'.kvs.Perm y.pairs ∧ y'.okvs = [(k, v)] := by
  obtain ⟨f, rfl⟩ : ∃ g, fuel = g + 1 := ⟨fuel - 1, by omega⟩
  obtain ⟨y1, E1, hS1, m1, n1, hs1, hp1, ok1⟩ := LeafNode.load_overflow_spec d y hS hs hnd
  obtain ⟨y2, E2, hS2, n2, k2, v2, m2, ok2, kv2⟩ :=
    LeafNode.insert_append d hd y1 k v hS1 (by omega) (by omega)
  have hne : ¬ (BPNode.leaf y1).n = 2 * d - 1 := by
    simp only [BPNode.n]; omega
  refine ⟨y2, ?_, hS2, by omega, by omega, by rw [kv2]; exact hs1, by rw [kv2]; exact hp1,
    by rw [ok2, ok1]; rfl⟩
  simp only [insert, BPNode.loadIfLeaf, E1, Except.ok_bind, Except.pure_eq_ok, LeafNode.toNode,
    bind_pure_comp, Functor.map, Except.map, hne, if_false, ite_false, _insert, BPNode.leaf_,
    if_true, ite_true, BPNode.asLeaf, E2]

/-- A run of `BPlusTree::insert` calls that stays within one leaf: after each call the root leaf
holds the earlier pairs in its main page, strictly ascending, and the last pair in its overflow
block. -/
theorem root_leaf_inserts (d : Int) (hd : 2 ≤ d) (fuel : Nat) (hf : 1 ≤ fuel) :
    ∀ (R P : List (Int × Int)) (last : Int × Int) (y : LeafNode), y.Shape d → StrictKV y.kvs →
      y.kvs.Perm P → y.okvs = [last] → y.overflow_n = 1 →
      ((P ++ last :: R).map Prod.fst).Nodup →
      (y.n : Int) + 1 + R.length ≤ 2 * d - 1 - d / 2 + 1 →
      ∃ y' P' last', insertAll d fuel ⟨some (.leaf y)⟩ R = .ok ⟨some (.leaf y')⟩ ∧
        P ++ last :: R = P' ++ [last'] ∧ y'.Shape d ∧ y'.n = y.n + R.length ∧
        y'.overflow_n = 1 ∧ StrictKV y'.kvs ∧ y'.kvs.Perm P' ∧ y'.okvs = [last'] := by
  intro R
  induction R with
  | nil =>
    intro P last y hS hs hp ho hm hnd hlen
    exact ⟨y, P, last, rfl, rfl, hS, by simp, hm, hs, hp, ho⟩
  | cons r R ih =>
    intro P last y hS hs hp ho hm hnd hlen
    simp only [List.length_cons, Nat.cast_add, Nat.cast_one] at hlen
    have hpairs : y.pairs.Perm (P ++ [last]) := by
      unfold LeafNode.pairs
      rw [ho]
      exact List.Perm.append_right _ hp
    have hnd1 : (y.pairs.map Prod.fst).Nodup := by
      apply (List.Perm.nodup_iff (hpairs.map Prod.fst)).mpr
      have e : P ++ last :: r :: R = (P ++ [last]) ++ r :: R := by simp
      rw [e, List.map_append] at hnd
      exact (List.nodup_append.mp hnd).1
    obtain ⟨y1, E1, hS1, n1, m1, hs1, hp1, ok1⟩ :=
      root_leaf_insert d hd fuel hf y r.1 r.2 hS hs hnd1 (by omega)
    obtain ⟨y2, P2, last2, E2, e2, hS2, n2, m2, hs2, hp2, ok2⟩ :=
      ih (P ++ [last]) r y1 hS1 hs1 (hp1.trans hpairs) ok1 m1
        (by simpa using hnd) (by omega)
    refine ⟨y2, P2, last2, ?_, by rw [← e2]; simp, hS2, ?_, m2, hs2, hp2, ok2⟩
    · unfold insertAll at E2 ⊢
      rw [List.foldlM_cons, E1]
      exact E2
    · rw [n2, n1, hm]
      simp only [List.length_cons, Nat.cast_add, Nat.cast_one]
      omega

/-- Source `BPlusTree::insert` run `d/2 + 1` times on the empty tree: the root is a leaf whose
main page holds the first `d/2` pairs, strictly ascending, and whose overflow block holds the
last pair. -/
theorem insertAll_one_leaf (d : Int) (hd : 2 ≤ d) (fuel : Nat) (hf : 1 ≤ fuel)
    (A : List (Int × Int)) (k v : Int) (hA : (A.length : Int) = d / 2)
    (hnd : ((A ++ [(k, v)]).map Prod.fst).Nodup) :
    ∃ y, insertAll d fuel ⟨none⟩ (A ++ [(k, v)]) = .ok ⟨some (.leaf y)⟩ ∧ y.n = d / 2 ∧
      y.overflow_n = 1 ∧ StrictKV y.kvs ∧ y.kvs.Perm A ∧ y.okvs = [(k, v)] := by
  have hd2 : 1 ≤ d / 2 := by omega
  cases A with
  | nil => simp at hA; omega
  | cons a A =>
    simp only [List.length_cons, Nat.cast_add, Nat.cast_one] at hA
    have hS0 := LeafNode.new_shape d hd
    have hn0 : (LeafNode.new d).n = 0 := rfl
    have hm0 : (LeafNode.new d).overflow_n = 0 := rfl
    obtain ⟨y1, E1, hS1, n1, m1, hs1, hp1, ok1⟩ :=
      root_leaf_insert d hd fuel hf (LeafNode.new d) a.1 a.2 hS0
        (by rw [LeafNode.new_kvs]; exact List.Pairwise.nil)
        (by unfold LeafNode.pairs; rw [LeafNode.new_kvs, LeafNode.new_okvs]; exact List.nodup_nil)
        (by rw [hn0, hm0]; omega)
    have hp1' : y1.kvs.Perm [] := by
      unfold LeafNode.pairs at hp1
      rw [LeafNode.new_kvs, LeafNode.new_okvs] at hp1
      exact hp1
    obtain ⟨y2, P2, last2, E2, e2, hS2, n2, m2, hs2, hp2, ok2⟩ :=
      root_leaf_inserts d hd fuel hf (A ++ [(k, v)]) [] a y1 hS1 hs1 hp1' ok1 m1
        (by simpa using hnd) (by
          rw [n1, hn0, hm0]
          simp only [List.length_append, List.length_cons, List.length_nil, Nat.cast_add,
            Nat.cast_one]
          omega)
    have e3 : ([] : List (Int × Int)) ++ a :: (A ++ [(k, v)]) = (a :: A) ++ [(k, v)] := by simp
    rw [e3] at e2
    obtain ⟨eP, eL⟩ := List.append_inj' e2 rfl
    simp only [List.cons.injEq, and_true] at eL
    subst eP eL
    refine ⟨y2, ?_, ?_, m2, hs2, hp2, ok2⟩
    · unfold insertAll at E2 ⊢
      rw [List.cons_append, List.foldlM_cons, insert_none]
      have : (LeafNode.new d).toNode = .leaf (LeafNode.new d) := rfl
      rw [this, E1]
      exact E2
    · rw [n2, n1, hn0, hm0]
      simp only [List.length_append, List.length_cons, List.length_nil, Nat.cast_add,
        Nat.cast_one]
      omega

end BPlusTree

namespace InternalNode

/-- Source `InternalNode::_split` on a node with `2d - 1` keys, by array contents: the node keeps
its arrays with count `d - 1`, the new node gets the keys from index `d` and the children from
index `d`, the key at index `d - 1` goes to the parent. -/
theorem inner_split_run (d : Int) (hd : 2 ≤ d) (skey : List Int) (sc : List (Option BPNode))
    (hsk : (skey.length : Int) = 2 * d - 1) (hsc : (sc.length : Int) = 2 * d) (n : Int)
    (key : List Int) (c : List (Option BPNode)) (K1 K2 : List Int) (S1 S2 : List (Option BPNode))
    (o : Option BPNode) (hkl : (key.length : Int) = 2 * d - 1) (hcl : (c.length : Int) = 2 * d)
    (hn0 : 0 ≤ n) (hn : n < 2 * d - 1) (hK : view key n = K1 ++ K2)
    (hS : view c (n + 1) = S1 ++ o :: S2) (hl : S1.length = K1.length) :
    ∃ rk rc s key' c', InternalNode._split d ⟨2 * d - 1, skey, sc⟩ (.internal n key c)
        (K1.length : Int) = .ok (⟨d - 1, skey, sc⟩, .internal (n + 1) key' c') ∧
      (key'.length : Int) = 2 * d - 1 ∧ (c'.length : Int) = 2 * d ∧
      view key' (n + 1) = K1 ++ s :: K2 ∧
      view c' (n + 1 + 1) = S1 ++ o :: some (.internal (d - 1) rk rc) :: S2 ∧
      rd skey (d - 1) = .ok s ∧
      view rk (d - 1) = (skey.drop d.toNat).take (d - 1).toNat ∧
      view rc (d - 1 + 1) = (sc.drop d.toNat).take d.toNat := by
  obtain ⟨rk, ek, lk, vk⟩ := copyRange_spec (InternalNode.new d).key skey (d - 1) 0 d (by omega)
    (by omega) (by omega) (by rw [inner_new_key_length d hd]; omega) (by omega)
  obtain ⟨rc, ec, lc, vc⟩ := copyRange_spec (InternalNode.new d).c sc d 0 d (by omega)
    (by omega) (by omega) (by rw [new_c_length d hd]; omega) (by omega)
  obtain ⟨sk, esk⟩ := rd_total skey (d - 1) (by omega) (by omega)
  obtain ⟨key', c', E, q1, q2, q3, q4, q5⟩ := parent_insert d n key c K1 K2 S1 S2 o
    hkl hcl hn0 hn hK hS hl sk (.internal (d - 1) rk rc)
  have v0 : ∀ {α : Type} (a : List α), view a 0 = [] := fun a => rfl
  rw [zero_add, v0, List.nil_append] at vk
  rw [zero_add, v0, List.nil_append] at vc
  have ed : d - 1 + 1 = d := by omega
  refine ⟨rk, rc, sk, key', c', ?_, q1, q2, q3, q4, esk, vk, by rw [ed]; exact vc⟩
  simp only [InternalNode._split, Except.ok_bind, ek, ec, BPNode.asInternal, esk, E,
    Except.pure_eq_ok, InternalNode.toNode, bind_pure_comp, Functor.map, Except.map]

end InternalNode

namespace LeafNode

/-- Source `LeafNode::_split` starts with the flush: it does to a leaf what it does to the
flushed leaf. -/
theorem split_after_load (d : Int) (x x1 : LeafNode) (p : BPNode) (i : Int)
    (h : x._load_overflow = .ok x1) : x._split d p i = x1._split d p i := by
  have h0 : x1.overflow_n = 0 := BPlusTree.load_overflow_n h
  simp only [LeafNode._split, h, BPlusTree.load_overflow_empty x1 h0, Except.ok_bind]

/-- Source `LeafNode::_split` on a flushed leaf with `2d - 1` pairs, by array contents: the leaf
keeps its first `d - 1` pairs, the new leaf gets the `d` pairs from index `d - 1`, the key at
index `d - 1` goes to the parent. -/
theorem leaf_split_run (d : Int) (hd : 2 ≤ d) (x : LeafNode) (hSh : x.Shape d)
    (hfull : x.n = 2 * d - 1) (n : Int) (key : List Int)
    (c : List (Option BPNode)) (K1 K2 : List Int) (S1 S2 : List (Option BPNode))
    (o : Option BPNode) (hkl : (key.length : Int) = 2 * d - 1) (hcl : (c.length : Int) = 2 * d)
    (hn0 : 0 ≤ n) (hn : n < 2 * d - 1) (hK : view key n = K1 ++ K2)
    (hS : view c (n + 1) = S1 ++ o :: S2) (hl : S1.length = K1.length) :
    ∃ b s key' c', x._split d (.internal n key c) (K1.length : Int)
        = .ok ({ x with n := d - 1 }, .internal (n + 1) key' c') ∧
      (key'.length : Int) = 2 * d - 1 ∧ (c'.length : Int) = 2 * d ∧
      view key' (n + 1) = K1 ++ s :: K2 ∧ view c' (n + 1 + 1) = S1 ++ o :: some (.leaf b) :: S2 ∧
      rd x.key (d - 1) = .ok s ∧
      ({ x with n := d - 1 } : LeafNode).kvs = x.kvs.take (d - 1).toNat ∧
      b.kvs = x.kvs.drop (d - 1).toNat ∧ b.n = d ∧ b.overflow_n = 0 ∧
      (∃ v R, b.kvs = (s, v) :: R) := by
  obtain ⟨s1, s2, s3, s4, s5, s6, s7, s8⟩ := hSh
  have hov : x.overflow_n = 0 := by omega
  obtain ⟨rk, ek, lk, vk⟩ := copyRange_spec (LeafNode.new d).key x.key d 0 (d - 1) (by omega)
    (by omega) (by omega) (by rw [leaf_new_key_length d hd]; omega) (by omega)
  obtain ⟨rv, ev, lv, vv⟩ := copyRange_spec (LeafNode.new d).val x.val d 0 (d - 1) (by omega)
    (by omega) (by omega) (by rw [new_val_length d hd]; omega) (by omega)
  obtain ⟨sk, esk⟩ := rd_total x.key (d - 1) (by omega) (by omega)
  obtain ⟨b, hbd⟩ : ∃ b : LeafNode, b = { (LeafNode.new d) with n := d, key := rk, val := rv } :=
    ⟨_, rfl⟩
  obtain ⟨key', c', E, q1, q2, q3, q4, q5⟩ := InternalNode.parent_insert d n key c K1 K2 S1 S2 o
    hkl hcl hn0 hn hK hS hl sk (.leaf b)
  have hL : x.kvs.length = (2 * d - 1).toNat := by
    rw [x.kvs_len (by omega) (by omega) (by omega), hfull]
  have ha : ({ x with n := d - 1 } : LeafNode).kvs = x.kvs.take (d - 1).toNat := by
    unfold kvs
    simp only
    rw [view_view x.key (d - 1) x.n (by omega), view_view x.val (d - 1) x.n (by omega), zip_take]
  have hbk : b.kvs = x.kvs.drop (d - 1).toNat := by
    unfold kvs
    simp only [hbd]
    have z := zero_add d
    rw [z] at vk vv
    rw [vk, vv]
    have v0 : ∀ (a : List Int), view a 0 = [] := fun a => rfl
    rw [v0, v0, List.nil_append, List.nil_append]
    rw [view_drop_take x.key (d - 1) d (by omega) (by omega),
      view_drop_take x.val (d - 1) d (by omega) (by omega)]
    have : d - 1 + d = x.n := by omega
    rw [this, zip_drop]
  have hlt : (d - 1).toNat < x.kvs.length := by omega
  have hdrop : ∃ v R, x.kvs.drop (d - 1).toNat = (sk, v) :: R := by
    have hfst := x.kvs_keys (by omega) (by omega) (by omega)
    have hv := view_rd (n := x.n) (by omega) esk
    rw [← hfst, List.getElem?_map, List.getElem?_eq_getElem hlt] at hv
    simp only [Option.map_some', Option.some.injEq] at hv
    refine ⟨(x.kvs[(d - 1).toNat]).2, x.kvs.drop ((d - 1).toNat + 1), ?_⟩
    rw [List.drop_eq_getElem_cons hlt, ← hv]
  refine ⟨b, sk, key', c', ?_, q1, q2, q3, q4, esk, ha, hbk, by rw [hbd], by rw [hbd]; rfl,
    by rw [hbk]; exact hdrop⟩
  rw [hbd] at E
  simp only [LeafNode._split, BPlusTree.load_overflow_empty x hov, Except.ok_bind, ek, ev,
    BPNode.asInternal, esk, E, Except.pure_eq_ok, LeafNode.toNode, InternalNode.toNode, hbd]

end LeafNode

namespace LeafLinks

theorem load_ok {st : List LeafLinks} {a : Nat} (h : a < st.length) :
    load st a = .ok (st.get ⟨a, h⟩) := by
  unfold load
  rw [List.get?_eq_get h]

theorem load_set (st : List LeafLinks) (a b : Nat) (x : LeafLinks) (hb : b < st.length) :
    load (st.set a x) b = if a = b then .ok x else load st b := by
  unfold load
  simp only [List.get?_eq_getElem?, List.getElem?_set]
  by_cases h : a = b
  · subst h
    simp [hb]
  · simp [h]

theorem save_ok {st : List LeafLinks} {a : Nat} (x : LeafLinks) (h : a < st.length) :
    save st a x = .ok (st.set a x) := by
  unfold save
  rw [if_pos h]

theorem load_snoc_old (st : List LeafLinks) (x : LeafLinks) (a : Nat) (h : a < st.length) :
    load (st ++ [x]) a = load st a := by
  unfold load
  simp only [List.get?_eq_getElem?]
  rw [List.getElem?_append_left h]

theorem load_snoc_new (st : List LeafLinks) (x : LeafLinks) :
    load (st ++ [x]) st.length = .ok x := by
  unfold load
  simp

/-- The sibling pointers after `LeafNode::_split`: the new leaf `r` stands between the split
leaf and the leaf that was its right neighbour, in both directions; every other pointer is as
before. -/
theorem split_links (st : List LeafLinks) (self : Nat) (me : LeafLinks)
    (hme : load st self = .ok me) (hr : ∀ tr, me.r_ = some tr → tr < st.length) :
    ∃ st', _split st self = .ok (st', st.length) ∧ st'.length = st.length + 1 ∧
      load st' st.length = .ok ⟨some self, me.r_⟩ ∧
      (∀ x, load st' self = .ok x → x.r_ = some st.length) ∧
      (me.r_ ≠ some self → load st' self = .ok ⟨me.l_, some st.length⟩) ∧
      (∀ tr t, me.r_ = some tr → tr ≠ self → load st tr = .ok t →
        load st' tr = .ok ⟨some st.length, t.r_⟩) ∧
      (∀ a, a < st.length → a ≠ self → me.r_ ≠ some a → load st' a = load st a) := by
  have hself : self < st.length := by
    unfold load at hme
    by_contra hc
    rw [List.get?_eq_none.mpr (by omega)] at hme
    cases hme
  obtain ⟨l0, r0⟩ := me
  cases r0 with
  | none =>
    refine ⟨((st ++ [(⟨none, none⟩ : LeafLinks)]).set self ⟨l0, some st.length⟩).set st.length
      ⟨some self, none⟩, ?_, by simp, ?_, ?_, ?_, ?_, ?_⟩
    · simp only [_split, load_snoc_old st _ self hself, hme, Except.ok_bind, Except.pure_eq_ok]
      rw [save_ok _ (by simp; omega)]
      simp only [Except.ok_bind]
      rw [load_set _ _ _ _ (by simp), if_neg (by omega), load_snoc_new]
      simp only [Except.ok_bind]
      rw [save_ok _ (by simp)]
      rfl
    · rw [load_set _ _ _ _ (by simp), if_pos rfl]
    · intro x hx
      rw [load_set _ _ _ _ (by simp; omega), if_neg (by omega),
        load_set _ _ _ _ (by simp; omega), if_pos rfl] at hx
      cases hx; rfl
    · intro _
      rw [load_set _ _ _ _ (by simp; omega), if_neg (by omega),
        load_set _ _ _ _ (by simp; omega), if_pos rfl]
    · intro tr t h; cases h
    · intro a ha hne _
      rw [load_set _ _ _ _ (by simp; omega), if_neg (by omega),
        load_set _ _ _ _ (by simp; omega), if_neg (fun e => hne e.symm), load_snoc_old _ _ _ ha]
  | some tr =>
    have htr : tr < st.length := hr tr rfl
    obtain ⟨t, ht⟩ : ∃ t, load st tr = .ok t := ⟨_, load_ok htr⟩
    have e0 : load (st ++ [(⟨none, none⟩ : LeafLinks)]) self = .ok ⟨l0, some tr⟩ := by
      rw [load_snoc_old st _ self hself, hme]
    have e1 : load (st ++ [(⟨none, none⟩ : LeafLinks)]) tr = .ok t := by
      rw [load_snoc_old st _ tr htr, ht]
    obtain ⟨st1, hst1⟩ : ∃ s, s = (st ++ [(⟨none, none⟩ : LeafLinks)]).set tr
        { t with l_ := some st.length } := ⟨_, rfl⟩
    have l1 : st1.length = st.length + 1 := by rw [hst1]; simp
    have e2 : load st1 st.length = .ok ⟨none, none⟩ := by
      rw [hst1, load_set _ _ _ _ (by simp), if_neg (by omega), load_snoc_new]
    obtain ⟨st2, hst2⟩ : ∃ s, s = st1.set st.length ⟨none, some tr⟩ := ⟨_, rfl⟩
    have l2 : st2.length = st.length + 1 := by rw [hst2]; simp [l1]
    obtain ⟨x2, e3⟩ : ∃ x2, load st2 self = .ok x2 := ⟨_, load_ok (by omega)⟩
    have e3' : tr ≠ self → x2 = ⟨l0, some tr⟩ := by
      intro hne
      rw [hst2, load_set _ _ _ _ (by omega), if_neg (by omega), hst1,
        load_set _ _ _ _ (by simp; omega), if_neg hne, e0] at e3
      exact (Except.ok.inj e3).symm
    obtain ⟨st3, hst3⟩ : ∃ s, s = st2.set self { x2 with r_ := some st.length } := ⟨_, rfl⟩
    have l3 : st3.length = st.length + 1 := by rw [hst3]; simp [l2]
    have e4 : load st3 st.length = .ok ⟨none, some tr⟩ := by
      rw [hst3, load_set _ _ _ _ (by omega), if_neg (by omega), hst2,
        load_set _ _ _ _ (by omega), if_pos rfl]
    refine ⟨st3.set st.length ⟨some self, some tr⟩, ?_, by simp [l3], ?_, ?_, ?_, ?_, ?_⟩
    · simp only [_split, e0, Except.ok_bind, e1, Except.pure_eq_ok]
      rw [save_ok _ (by simp; omega)]
      simp only [Except.ok_bind]
      rw [← hst1, e2]
      simp only [Except.ok_bind]
      rw [save_ok _ (by omega), ← hst2]
      simp only [Except.ok_bind, e3]
      rw [save_ok _ (by omega), ← hst3]
      simp only [Except.ok_bind, e4]
      rw [save_ok _ (by omega)]
      rfl
    · rw [load_set _ _ _ _ (by omega), if_pos rfl]
    · intro x hx
      rw [load_set _ _ _ _ (by omega), if_neg (by omega), hst3,
        load_set _ _ _ _ (by omega), if_pos rfl] at hx
      cases hx; rfl
    · intro hne
      have hne' : tr ≠ self := fun e => hne (by rw [e])
      rw [load_set _ _ _ _ (by omega), if_neg (by omega), hst3,
        load_set _ _ _ _ (by omega), if_pos rfl, e3' hne']
    · intro tr' t' htr' hne ht'
      simp only [Option.some.injEq] at htr'
      subst htr'
      rw [ht] at ht'
      have : t = t' := Except.ok.inj ht'
      subst this
      rw [load_set _ _ _ _ (by omega), if_neg (by omega), hst3,
        load_set _ _ _ _ (by omega), if_neg (fun e => hne e.symm), hst2,
        load_set _ _ _ _ (by omega), if_neg (by omega), hst1,
        load_set _ _ _ _ (by simp; omega), if_pos rfl]
    · intro a ha hne hne2
      have hat : tr ≠ a := fun e => hne2 (by rw [e])
      rw [load_set _ _ _ _ (by omega), if_neg (by omega), hst3,
        load_set _ _ _ _ (by omega), if_neg (fun e => hne e.symm), hst2,
        load_set _ _ _ _ (by omega), if_neg (by omega), hst1,
        load_set _ _ _ _ (by simp; omega), if_neg hat, load_snoc_old _ _ _ ha]

end LeafLinks

/-- A list cut at an index below its length. -/
theorem cut_at {α : Type} (L : List α) (j : Nat) (h : j < L.length) :
    ∃ o, L = L.take j ++ o :: L.drop (j + 1) ∧ L.take (j + 1) = L.take j ++ [o] := by
  refine ⟨L[j], ?_, ?_⟩
  · rw [← List.drop_eq_getElem_cons h, List.take_append_drop]
  · rw [List.take_succ, List.getElem?_eq_getElem h]; rfl

/-- The slot `i` of a parent with `n` keys, as a cut of its key and child views. -/
theorem parent_cut (d : Int) (n : Int) (key : List Int) (c : List (Option BPNode)) (i : Int)
    (hkl : (key.length : Int) = 2 * d - 1) (hcl : (c.length : Int) = 2 * d) (hn0 : 0 ≤ n)
    (hn : n < 2 * d - 1) (hi0 : 0 ≤ i) (hi : i ≤ n) :
    ∃ o S2, view key n = (view key n).take i.toNat ++ (view key n).drop i.toNat ∧
      view c (n + 1) = (view c (n + 1)).take i.toNat ++ o :: S2 ∧
      S2 = (view c (n + 1)).drop (i + 1).toNat ∧
      (view c (n + 1)).take (i + 1).toNat = (view c (n + 1)).take i.toNat ++ [o] ∧
      ((view c (n + 1)).take i.toNat).length = ((view key n).take i.toNat).length ∧
      ((((view key n).take i.toNat).length : Nat) : Int) = i := by
  have hvk : (view key n).length = n.toNat := view_length _ _ hn0 (by omega)
  have hvc : (view c (n + 1)).length = (n + 1).toNat := view_length _ _ (by omega) (by omega)
  obtain ⟨o, e1, e2⟩ := cut_at (view c (n + 1)) i.toNat (by omega)
  have e3 : (i + 1).toNat = i.toNat + 1 := by omega
  refine ⟨o, (view c (n + 1)).drop (i + 1).toNat, (List.take_append_drop _ _).symm, ?_, rfl, ?_,
    ?_, ?_⟩
  · rw [e3]; exact e1
  · rw [e3]; exact e2
  · rw [List.length_take, List.length_take]; omega
  · rw [List.length_take]; omega

/-- Pairs read from two arrays of which `n` slots are in use: the first `m` and the rest. -/
theorem zip_views_cut (ks vs : List Int) (n m : Int) (k v : Int) (hm0 : 0 ≤ m) (hmn : m < n)
    (hk : n ≤ ks.length) (hv : n ≤ vs.length) (ek : rd ks m = .ok k) (ev : rd vs m = .ok v) :
    (view ks m).zip (view vs m) = ((view ks n).zip (view vs n)).take m.toNat ∧
    ((ks.drop (m + 1).toNat).take (n - (m + 1)).toNat).zip
        ((vs.drop (m + 1).toNat).take (n - (m + 1)).toNat)
      = ((view ks n).zip (view vs n)).drop (m + 1).toNat ∧
    (view ks n).zip (view vs n) = ((view ks n).zip (view vs n)).take m.toNat ++
      (k, v) :: ((view ks n).zip (view vs n)).drop (m + 1).toNat := by
  have hl1 : (view ks n).length = n.toNat := view_length _ _ (by omega) hk
  have hl2 : (view vs n).length = n.toNat := view_length _ _ (by omega) hv
  refine ⟨?_, ?_, ?_⟩
  · rw [view_view ks m n (by omega), view_view vs m n (by omega), zip_take]
  · rw [view_drop_take ks (m + 1) (n - (m + 1)) (by omega) (by omega),
      view_drop_take vs (m + 1) (n - (m + 1)) (by omega) (by omega)]
    have : m + 1 + (n - (m + 1)) = n := by omega
    rw [this, zip_drop]
  · have hlt : m.toNat < ((view ks n).zip (view vs n)).length := by
      rw [List.length_zip, hl1, hl2]; omega
    have h1 := view_rd (n := n) hmn ek
    have h2 := view_rd (n := n) hmn ev
    have hget : ((view ks n).zip (view vs n))[m.toNat] = (k, v) := by
      have : ((view ks n).zip (view vs n))[m.toNat]? = some (k, v) := by
        rw [List.getElem?_zip_eq_some]
        exact ⟨h1, h2⟩
      rw [List.getElem?_eq_getElem hlt] at this
      exact Option.some.inj this
    have e : (m + 1).toNat = m.toNat + 1 := by omega
    rw [e, ← hget, ← List.drop_eq_getElem_cons hlt, List.take_append_drop]

namespace BTree

/-- Source `BTree::_split_child` on a node with room and a full child, by pairs and children:
the child keeps its first `t - 1` pairs, the new node gets the last `t - 1`, the median pair
goes to the parent at index `i` and the new node to child slot `i + 1`. -/
theorem split_child_pairs (t : Int) (ht : 1 ≤ t) (x y : Node) (i : Int)
    (hx : Shape t x) (h0 : 0 ≤ i) (hi : i ≤ x.n) (hfull : x.n < 2 * t - 1)
    (hy : rd x.c i = .ok (some y)) (hyS : Shape t y) (hyn : y.n = 2 * t - 1) :
    ∃ x' z mk mv, _split_child t x i = .ok x' ∧ x'.n = x.n + 1 ∧ x'.leaf = x.leaf ∧
      rd y.key (t - 1) = .ok mk ∧ rd y.val (t - 1) = .ok mv ∧
      x'.kvs = x.kvs.take i.toNat ++ (mk, mv) :: x.kvs.drop i.toNat ∧
      x'.kids = x.kids.take i.toNat ++ some (y.setN (t - 1)) :: some z ::
        x.kids.drop (i.toNat + 1) ∧
      (y.setN (t - 1)).kvs = y.kvs.take (t - 1).toNat ∧ z.kvs = y.kvs.drop t.toNat ∧
      z.n = t - 1 ∧ z.leaf = y.leaf ∧
      y.kvs = y.kvs.take (t - 1).toNat ++ (mk, mv) :: y.kvs.drop t.toNat ∧
      (y.leaf = false → (y.setN (t - 1)).kids = y.kids.take t.toNat ∧
        z.kids = y.kids.drop t.toNat) ∧
      (x'.kvs ++ (y.setN (t - 1)).kvs ++ z.kvs).Perm (x.kvs ++ y.kvs) := by
  obtain ⟨x', z, mk, mv, E, hS', n', l', emk, emv, vk, vv, vc, hSz, nz, lz, zk, zv, zc⟩ :=
    split_child_run t ht x y i hx h0 hi hfull hy hyS hyn
  obtain ⟨hxk, hxv, hxc, hxn0, hxn1⟩ := hx
  obtain ⟨hyk, hyv, hyc, hyn0, hyn1⟩ := hyS
  have e1 : t - 1 + 1 = t := by omega
  obtain ⟨c1, c2, c3⟩ := zip_views_cut y.key y.val y.n (t - 1) mk mv (by omega) (by omega)
    (by omega) (by omega) emk emv
  rw [e1] at c2 c3
  have e2 : y.n - t = t - 1 := by omega
  rw [e2] at c2
  have hxkv : x'.kvs = x.kvs.take i.toNat ++ (mk, mv) :: x.kvs.drop i.toNat := by
    unfold Node.kvs
    rw [n', vk, vv]
    exact zip_insert _ _ _ _ _ (by
      rw [view_length _ _ hxn0 (by omega), view_length _ _ hxn0 (by omega)])
  have hykv : (y.setN (t - 1)).kvs = y.kvs.take (t - 1).toNat := by
    cases y with
    | mk k l n v c => exact c1
  have hzkv : z.kvs = y.kvs.drop t.toNat := by
    unfold Node.kvs
    rw [nz, zk, zv]
    exact c2
  refine ⟨x', z, mk, mv, E, n', l', emk, emv, hxkv, ?_, hykv, hzkv, nz, lz, c3, ?_, ?_⟩
  · unfold Node.kids
    rw [n', vc]
  · intro hl
    constructor
    · cases y with
      | mk k l n v c =>
        show view c (t - 1 + 1) = (view c (n + 1)).take t.toNat
        rw [e1]
        exact view_view _ _ _ (by simp only [Node.n] at hyn; omega)
    · unfold Node.kids
      rw [nz, e1, zc hl, view_drop_take y.c t t (by omega) (by omega)]
      congr 2
      omega
  · have c3' : y.kvs = y.kvs.take (t - 1).toNat ++ (mk, mv) :: y.kvs.drop t.toNat := c3
    rw [hxkv, hykv, hzkv]
    have hy' : (x.kvs ++ y.kvs).Perm
        (x.kvs ++ (y.kvs.take (t - 1).toNat ++ (mk, mv) :: y.kvs.drop t.toNat)) :=
      List.Perm.of_eq (congrArg (fun L => x.kvs ++ L) c3')
    refine List.Perm.trans ?_ hy'.symm
    have hx' : x.kvs = x.kvs.take i.toNat ++ x.kvs.drop i.toNat :=
      (List.take_append_drop _ _).symm
    conv => rhs; rw [hx']
    simp only [List.append_assoc]
    apply List.Perm.append_left
    have g1 : x.kvs.drop i.toNat ++ (y.kvs.take (t - 1).toNat ++ (mk, mv) :: y.kvs.drop t.toNat)
        = (x.kvs.drop i.toNat ++ y.kvs.take (t - 1).toNat) ++ (mk, mv) :: y.kvs.drop t.toNat := by
      simp
    have g2 : (mk, mv) :: x.kvs.drop i.toNat ++ (y.kvs.take (t - 1).toNat ++ y.kvs.drop t.toNat)
        = (mk, mv) :: ((x.kvs.drop i.toNat ++ y.kvs.take (t - 1).toNat) ++ y.kvs.drop t.toNat) := by
      simp
    rw [g1, g2]
    exact List.perm_middle.symm

end BTree

namespace DiskBTree

/-- Source `BTree::_split_child` of the disk-resident tree on a handle with room and the handle of
a full child, by pairs and child positions: the child keeps its first `t - 1` pairs, the new
node `z` is stored at the next free position with the last `t - 1` pairs, the median pair goes
to the parent at index `i` and the position of `z` to child slot `i + 1`; the three records are
written to the file and no other record changes. -/
theorem split_child_disk (t : Int) (ht : 1 ≤ t) (s : DiskBTree) (x y : DNode) (i : Int)
    (hxk : (x.key.length : Int) = 2 * t - 1) (hxv : (x.val.length : Int) = 2 * t - 1)
    (hxc : (x.c.length : Int) = 2 * t) (hxn0 : 0 ≤ x.n) (hfull : x.n < 2 * t - 1)
    (h0 : 0 ≤ i) (hi : i ≤ x.n)
    (hyk : (y.key.length : Int) = 2 * t - 1) (hyv : (y.val.length : Int) = 2 * t - 1)
    (hyc : (y.c.length : Int) = 2 * t) (hyn : y.n = 2 * t - 1)
    (hxp : x.pos ≠ -1) (hyp : y.pos ≠ -1) (hnp : s.next_pos_ ≠ -1) (hd1 : y.pos ≠ x.pos)
    (hd2 : s.next_pos_ ≠ x.pos) (hd3 : y.pos ≠ s.next_pos_) :
    ∃ s' x' z' mk mv, _split_child t s x i y = .ok (s', x', { y with n := t - 1 }) ∧
      x'.pos = x.pos ∧ x'.n = x.n + 1 ∧ x'.leaf = x.leaf ∧
      rd y.key (t - 1) = .ok mk ∧ rd y.val (t - 1) = .ok mv ∧
      x'.kvs = x.kvs.take i.toNat ++ (mk, mv) :: x.kvs.drop i.toNat ∧
      view x'.c (x.n + 1 + 1) = (view x.c (x.n + 1)).take (i + 1).toNat ++ s.next_pos_ ::
        (view x.c (x.n + 1)).drop (i + 1).toNat ∧
      ({ y with n := t - 1 } : DNode).kvs = y.kvs.take (t - 1).toNat ∧
      z'.kvs = y.kvs.drop t.toNat ∧ z'.pos = s.next_pos_ ∧ z'.n = t - 1 ∧ z'.leaf = y.leaf ∧
      y.kvs = y.kvs.take (t - 1).toNat ++ (mk, mv) :: y.kvs.drop t.toNat ∧
      (y.leaf = false → view z'.c t = (y.c.drop t.toNat).take t.toNat) ∧
      (x'.kvs ++ ({ y with n := t - 1 } : DNode).kvs ++ z'.kvs).Perm (x.kvs ++ y.kvs) ∧
      s'.next_pos_ = s.next_pos_ + 1 ∧ s'.root_ = s.root_ ∧
      s'.file x.pos = some x' ∧ s'.file s.next_pos_ = some z' ∧
      s'.file y.pos = some { y with n := t - 1 } ∧
      (∀ q, q ≠ x.pos → q ≠ s.next_pos_ → q ≠ y.pos → s'.file q = s.file q) := by
  obtain ⟨My, hMy⟩ : ∃ M : BTree.Node,
      M = .mk y.key y.leaf y.n y.val (List.replicate y.c.length none) := ⟨_, rfl⟩
  obtain ⟨Mx, hMx⟩ : ∃ M : BTree.Node,
      M = .mk x.key x.leaf x.n x.val (List.replicate x.c.length (some My)) := ⟨_, rfl⟩
  have fx : Flat x Mx := by
    rw [hMx]; exact ⟨rfl, rfl, rfl, rfl, by simp [BTree.Node.c]⟩
  have fy : Flat y My := by
    rw [hMy]; exact ⟨rfl, rfl, rfl, rfl, by simp [BTree.Node.c]⟩
  have sx : BTree.Shape t Mx := by
    rw [hMx]
    refine ⟨hxk, hxv, ?_, hxn0, by simp only [BTree.Node.n]; omega⟩
    simp only [BTree.Node.c, List.length_replicate]; exact hxc
  have sy : BTree.Shape t My := by
    rw [hMy]
    refine ⟨hyk, hyv, ?_, by simp only [BTree.Node.n]; omega, by simp only [BTree.Node.n]; omega⟩
    simp only [BTree.Node.c, List.length_replicate]; exact hyc
  have nx : Mx.n = x.n := by rw [hMx]; rfl
  have ny : My.n = 2 * t - 1 := by rw [hMy]; exact hyn
  have hy : rd Mx.c i = .ok (some My) := by
    rw [hMx]
    apply rd_ok h0
    simp only [BTree.Node.c]
    rw [List.getElem?_replicate, if_pos (by omega)]
  obtain ⟨Mx', Zm, s', x', z', EM, E, fx', px', n', vc, hkids, fz', pz', nz', hzc, np', rt', f1,
    f2, f3, f4⟩ := split_arrays t ht s x y Mx My i sx h0 (by omega) (by omega) hy sy ny fx fy
      hxp hyp hnp hd1 hd2 hd3
  obtain ⟨Mx2, z, mk, mv, EM2, m1, m2, m3, m4, m5, m6, m7, m8, m9, m10, m11, m12, m13⟩ :=
    BTree.split_child_pairs t ht Mx My i sx h0 (by omega) (by omega) hy sy ny
  have eM : Mx2 = Mx' := by
    rw [EM] at EM2
    exact (Except.ok.inj EM2).symm
  subst eM
  have ez : Zm = z := by
    rw [m6] at hkids
    have := List.append_cancel_left hkids
    simp only [List.cons.injEq, Option.some.injEq, true_and] at this
    exact this.1.symm
  subst ez
  obtain ⟨a1, a2, a3, a4, a5⟩ := fx'
  obtain ⟨b1, b2, b3, b4, b5⟩ := fz'
  have kx : x.kvs = Mx.kvs := by rw [hMx]; rfl
  have ky : y.kvs = My.kvs := by rw [hMy]; rfl
  have kx' : x'.kvs = Mx2.kvs := by
    unfold DNode.kvs BTree.Node.kvs
    rw [a1, a2, a3]
  have kz' : z'.kvs = Zm.kvs := by
    unfold DNode.kvs BTree.Node.kvs
    rw [b1, b2, b3]
  have ky' : ({ y with n := t - 1 } : DNode).kvs = (My.setN (t - 1)).kvs := by
    rw [hMy]; rfl
  have hmk : rd y.key (t - 1) = .ok mk := by rw [hMy] at m3; exact m3
  have hmv : rd y.val (t - 1) = .ok mv := by rw [hMy] at m4; exact m4
  have lx : Mx.leaf = x.leaf := by rw [hMx]; rfl
  have ly : My.leaf = y.leaf := by rw [hMy]; rfl
  refine ⟨s', x', z', mk, mv, E, px', n', by rw [a4, m2, lx], hmk, hmv, by rw [kx', kx]; exact m5,
    vc, by rw [ky', ky]; exact m7, by rw [kz', ky]; exact m8, pz', nz', by rw [b4, m10, ly],
    by rw [ky]; exact m11, ?_, by rw [kx', ky', kz', kx, ky]; exact m13, np', rt', f1, f2, f3, f4⟩
  intro hl
  exact (hzc (by rw [ly]; exact hl)).1

end DiskBTree

namespace DiskBTree

/-- The search of the disk-resident tree reads the root position and the records at allocated
positions only: a state with the same root position whose file holds the same records at the
positions below `next_pos_` gives the same results. -/
theorem search_persist (t : Int) (fuel : Nat) (s s2 : DiskBTree) (h : Nat) (M : BTree.Node)
    (k : Int) (hrep : Rep s h M) (hw : BTree.WF t h M) (hroot : s2.root_ = s.root_)
    (hfile : ∀ p, 0 ≤ p → p < s.next_pos_ → s2.file p = s.file p) :
    search t fuel s2 k = search t fuel s k := by
  obtain ⟨r, hrf, hrp, hrr, hnd, hrng⟩ := hrep
  have hr2 : s2.file s2.root_ = some r := by
    rw [hroot, ← hrf]
    have := hrng r.pos (by simp)
    rw [hrp] at this
    exact hfile _ this.1 this.2
  have hrr2 : NodeRel s2.file h r M :=
    (frame s.file s2.file h r (fun q hq => by
      have := hrng q (List.mem_cons_of_mem _ hq)
      exact hfile q this.1 this.2)).2 M hrr
  unfold search
  rw [read_at t s s.root_ false r hrf, read_at t s2 s2.root_ false r hr2,
    sim_search t h fuel s r M k hrr hw, sim_search t h fuel s2 r M k hrr2 hw]

end DiskBTree

namespace BTree

/-- Source `BTree::_insert_non_full` on a well-formed subtree whose root has room: the run with
the record of events returns what the run without it returns, every split is made under a
parent with fewer than `2t - 1` keys and the leaf that receives the pair holds fewer than
`2t - 1`. -/
theorem insert_non_full_log_ok (t : Int) (ht : 1 ≤ t) : ∀ (h : Nat) (fuel : Nat) (x : Node)
    (k v : Int), WF t h x → x.n < 2 * t - 1 → h < fuel →
    ∃ x' log, _insert_non_full_log t fuel x k v = .ok (x', log) ∧
      _insert_non_full t fuel x k v = .ok x' ∧ ∀ e ∈ log, e.count < 2 * t - 1 := by
  intro h
  induction h with
  | zero =>
    intro fuel x k v hx hfull hf
    obtain ⟨f, rfl⟩ : ∃ f, fuel = f + 1 := ⟨fuel - 1, by omega⟩
    obtain ⟨hS, hleaf⟩ := hx
    obtain ⟨h1, h2, h3, h4, h5⟩ := hS
    obtain ⟨key', val', i, E, hi0, hi1, lk, lv, _, _, _, _⟩ :=
      shiftWhile_spec x.key x.val x.n k h4 (by omega) (by omega)
    have w1 := wr_ok (a := key') k (i := i + 1) (by omega) (by omega)
    have w2 := wr_ok (a := val') v (i := i + 1) (by omega) (by omega)
    refine ⟨((x.setKey (key'.set (i + 1).toNat k)).setVal (val'.set (i + 1).toNat v)).setN
      (x.n + 1), [.leaf x.n], ?_, ?_, ?_⟩
    · simp only [_insert_non_full_log, hleaf, if_true, ite_true, E, Except.ok_bind, w1, w2,
        Except.pure_eq_ok]
    · simp only [_insert_non_full, hleaf, if_true, ite_true, E, Except.ok_bind, w1, w2,
        Except.pure_eq_ok]
    · intro e he
      simp only [List.mem_singleton] at he
      subst he
      exact hfull
  | succ h ih =>
    intro fuel x k v hx hfull hf
    obtain ⟨f, rfl⟩ : ∃ f, fuel = f + 1 := ⟨fuel - 1, by omega⟩
    have hS := hx.shape
    have hleaf : x.leaf = false := hx.2.1
    obtain ⟨h1, h2, h3, h4, h5⟩ := hS
    obtain ⟨i, E, hi0, hi1, _, _⟩ := scanDown_spec x.key x.n k h4 (by omega)
    obtain ⟨child, hrd, hkid, hcw, hcn⟩ := hx.kid (i + 1) (by omega) (by omega)
    by_cases hcf : child.n = 2 * t - 1
    · obtain ⟨x1, yl, z, m, E1, W1, n1, kvs1, kids1, ylW, zW, yln, zn, _⟩ :=
        split_child_wf t ht h x child (i + 1) hx (by omega) (by omega) hfull hkid hcf
      have hkl := hx.shape.kids_length
      have hvl := hx.shape.kvs_length
      obtain ⟨g1, g2, g3, g4, g5⟩ := W1.shape
      have lA : (x.kids.take (i + 1).toNat).length = (i + 1).toNat := by
        rw [List.length_take]; omega
      have lK : (x.kvs.take (i + 1).toNat).length = (i + 1).toNat := by
        rw [List.length_take]; omega
      have hm1 : x1.kvs[(i + 1).toNat]? = some m := by
        rw [kvs1, List.getElem?_append_right (by omega), lK]; simp
      have rdm : rd x1.key (i + 1) = .ok m.1 :=
        rd_view (n := x1.n) (by omega) (by omega) (kvs_key_at W1.shape hm1)
      by_cases hk : k > m.1
      · have e2 : (i + 1 + 1).toNat = (i + 1).toNat + 1 := by omega
        have hz : x1.kids[(i + 1 + 1).toNat]? = some (some z) := by
          rw [kids1, e2, List.getElem?_append_right (by omega), lA]; simp
        obtain ⟨z0, hrdz, hkz, _, _⟩ := W1.kid (i + 1 + 1) (by omega) (by omega)
        rw [hz] at hkz
        simp only [Option.some.injEq] at hkz
        subst hkz
        obtain ⟨c', log, Ecl, Ec, hlog⟩ := ih f z k v zW (by omega) (by omega)
        have hw := wr_ok (a := x1.c) (some c') (i := i + 1 + 1) (by omega) (by omega)
        refine ⟨x1.setC (x1.c.set (i + 1 + 1).toNat (some c')), .split x.n :: log, ?_, ?_, ?_⟩
        · simp only [_insert_non_full_log, hleaf, E, Except.ok_bind, hrd, deref, hcf, if_true,
            ite_true, E1, rdm, hk, hrdz, Ecl, hw, Except.pure_eq_ok, Bool.false_eq_true,
            if_false, ite_false]
        · simp only [_insert_non_full, hleaf, E, Except.ok_bind, hrd, deref, hcf, if_true,
            ite_true, E1, rdm, hk, hrdz, Ec, hw, Except.pure_eq_ok, Bool.false_eq_true,
            if_false, ite_false]
        · intro e he
          rcases List.mem_cons.mp he with e1 | e1
          · subst e1; exact hfull
          · exact hlog e e1
      · have hyl : x1.kids[(i + 1).toNat]? = some (some yl) := by
          rw [kids1, List.getElem?_append_right (by omega), lA]; simp
        obtain ⟨y0, hrdy, hky, _, _⟩ := W1.kid (i + 1) (by omega) (by omega)
        rw [hyl] at hky
        simp only [Option.some.injEq] at hky
        subst hky
        obtain ⟨c', log, Ecl, Ec, hlog⟩ := ih f yl k v ylW (by omega) (by omega)
        have hw := wr_ok (a := x1.c) (some c') (i := i + 1) (by omega) (by omega)
        refine ⟨x1.setC (x1.c.set (i + 1).toNat (some c')), .split x.n :: log, ?_, ?_, ?_⟩
        · simp only [_insert_non_full_log, hleaf, E, Except.ok_bind, hrd, deref, hcf, if_true,
            ite_true, E1, rdm, hk, hrdy, Ecl, hw, Except.pure_eq_ok, Bool.false_eq_true,
            if_false, ite_false]
        · simp only [_insert_non_full, hleaf, E, Except.ok_bind, hrd, deref, hcf, if_true,
            ite_true, E1, rdm, hk, hrdy, Ec, hw, Except.pure_eq_ok, Bool.false_eq_true,
            if_false, ite_false]
        · intro e he
          rcases List.mem_cons.mp he with e1 | e1
          · subst e1; exact hfull
          · exact hlog e e1
    · obtain ⟨c', log, Ecl, Ec, hlog⟩ :=
        ih f child k v hcw (by have := hcw.shape.2.2.2.2; omega) (by omega)
      have hw := wr_ok (a := x.c) (some c') (i := i + 1) (by omega) (by omega)
      refine ⟨x.setC (x.c.set (i + 1).toNat (some c')), log, ?_, ?_, hlog⟩
      · simp only [_insert_non_full_log, hleaf, E, Except.ok_bind, hrd, deref, hcf, if_false,
          ite_false, Ecl, hw, Except.pure_eq_ok, Bool.false_eq_true]
      · simp only [_insert_non_full, hleaf, E, Except.ok_bind, hrd, deref, hcf, if_false,
          ite_false, Ec, hw, Except.pure_eq_ok, Bool.false_eq_true]

/-- Source `BTree::insert` on a tree with a well-formed root: the run with the record of events
returns what the run without it returns and no event of it concerns a full node. -/
theorem insert_log_ok (t : Int) (ht : 2 ≤ t) (h fuel : Nat) (tr : BTree) (r : Node) (k v : Int)
    (hr : tr.root_ = some r) (hw : WF t h r) (hf : h + 1 < fuel) :
    ∃ tr' log, insert_log t fuel tr k v = .ok (tr', log) ∧ insert t fuel tr k v = .ok tr' ∧
      ∀ e ∈ log, e.count < 2 * t - 1 := by
  by_cases hn : r.n = 2 * t - 1
  · obtain ⟨ew, sW, sn, skids, skvs⟩ := new_root_wf t (by omega) h r hw hn
    have hkid : (((_allocate_node t).setC ((_allocate_node t).c.set 0 (some r))).setLeaf
        false).kids[(0 : Int).toNat]? = some (some r) := by rw [skids]; rfl
    obtain ⟨x1, yl, z, m, E1, W1, n1, _⟩ :=
      split_child_wf t (by omega) h _ r 0 sW (by omega) (by omega) (by omega) hkid hn
    obtain ⟨x', lg, Lx, Ex, hlg⟩ :=
      insert_non_full_log_ok t (by omega) (h + 1) fuel x1 k v W1 (by omega) hf
    refine ⟨⟨some x'⟩, InsertEvent.split 0 :: lg, ?_, ?_, ?_⟩
    · simp only [insert_log, hr, hn, if_true, ite_true, ew, Except.ok_bind, E1, Lx,
        Except.pure_eq_ok, sn]
    · simp only [insert, hr, hn, if_true, ite_true, ew, Except.ok_bind, E1, Ex,
        Except.pure_eq_ok]
    · intro e he
      rcases List.mem_cons.mp he with he | he
      · subst he; simp only [InsertEvent.count]; omega
      · exact hlg e he
  · obtain ⟨x', lg, Lx, Ex, hlg⟩ :=
      insert_non_full_log_ok t (by omega) h fuel r k v hw (by have := hw.shape.2.2.2.2; omega)
        (by omega)
    refine ⟨⟨some x'⟩, lg, ?_, ?_, hlg⟩
    · simp only [insert_log, hr, hn, if_false, ite_false, Except.ok_bind, Lx, Except.pure_eq_ok]
    · simp only [insert, hr, hn, if_false, ite_false, Except.ok_bind, Ex, Except.pure_eq_ok]

end BTree

namespace BPlusTree

/-- Source `BPlusTree::_insert` on a B+ tree whose root has room: the run with the record of
events returns what the run without it returns, every split is made under a parent with fewer
than `2d - 1` keys and the leaf that receives the pair holds fewer than `2d - 1`. -/
theorem bp_insert_log_ok (d : Int) (hd : 2 ≤ d) (k v : Int) : ∀ (h f : Nat) (lo hi : Option Int)
    (p : BPNode), h + 1 ≤ f → BInv d h lo hi p → p.n < 2 * d - 1 →
    (∀ x, p = .leaf x → x.overflow_n = 0) → InB lo hi k →
    k ∉ (contents h (some p)).map Prod.fst →
    ∃ p' log, _insert_log d f p k v = .ok (p', log) ∧ _insert d f p k v = .ok p' ∧
      ∀ e ∈ log, e.count < 2 * d - 1 := by
  intro h
  induction h with
  | zero =>
    intro f lo hi p hf hI hn ho hb hk
    obtain ⟨f, rfl⟩ : ∃ g, f = g + 1 := ⟨f - 1, by omega⟩
    cases p with
    | internal n key c => simp [BInv] at hI
    | leaf x =>
      rw [BInv_leaf] at hI
      obtain ⟨hS, h1, hs, hnd, hbd⟩ := hI
      have ho' := ho x rfl
      simp only [BPNode.n] at hn
      obtain ⟨x', E, _⟩ := LeafNode.leaf_insert_spec d hd x k v hS hs
        (List.nodup_cons.mpr ⟨hk, hnd⟩) (by omega)
      refine ⟨.leaf x', [.leaf (x.n + x.overflow_n)], ?_, ?_, ?_⟩
      · simp only [_insert_log, BPNode.leaf_, if_true, ite_true, BPNode.asLeaf, Except.ok_bind, E,
          Except.pure_eq_ok, LeafNode.toNode]
      · simp only [_insert, BPNode.leaf_, if_true, ite_true, BPNode.asLeaf, Except.ok_bind, E,
          Except.pure_eq_ok, LeafNode.toNode]
      · intro e he
        simp only [List.mem_singleton] at he
        subst he
        simp only [InsertEvent.count]
        omega
  | succ h ih =>
    intro f lo hi p hf hI hn ho hb hk
    obtain ⟨f, rfl⟩ : ∃ g, f = g + 1 := ⟨f - 1, by omega⟩
    cases p with
    | leaf x => simp [BInv] at hI
    | internal n key c =>
      simp only [BPNode.n] at hn
      obtain ⟨hsort, _⟩ := hI.keys_sorted hd
      have hI0 := hI
      rw [BInv_internal] at hI0
      obtain ⟨k1, k2, k3, k4, hKI⟩ := hI0
      obtain ⟨ki, ci, K1, K2, e1, e2, hK, hci, r1, r2, _, _⟩ :=
        InternalNode.routing n key c k k3 (by omega) hsort
      obtain ⟨S1, ch, S2, hS, hl, hrd, hle, hch, hchn, hpre, hpost⟩ := hI.child hK
      have hkb := route_bounds hb r1 r2
      obtain ⟨ch1, L1, hch1, hperm1, hn1, hfl1⟩ := hch.loadIfLeaf
      obtain ⟨c1, P1, hlen1, hc1, _⟩ := putChild_run key ch1 hS
      have hkch : k ∉ (contents h (some ch1)).map Prod.fst := by
        intro hm
        apply hk
        rw [contents_at hS]
        simp only [List.map_append, List.mem_append]
        exact Or.inr (Or.inl ((hperm1.map Prod.fst).mem_iff.mp hm))
      rw [hl, ← hci] at P1
      rw [← hci] at hrd
      by_cases hfull : ch1.n ≥ 2 * d - 1
      · obtain ⟨a, b, s, key', c', SP, q1, q2, q3, q4, q5, ia, ib, na, nb1, nb2, fa, fb, hcab⟩ :=
          node_split_spec d hd h (lastOr lo K1) (headOr hi K2) ch1 hch1 (by have := hch1.n_le; omega)
            n key c1 K1 K2 S1 S2 (some ch1) k1 (by omega) (by omega) hn hK hc1 hl
        rw [← hci] at SP q5
        obtain ⟨c2, P2, hlen2, hc2, _⟩ := putChild_run (n := n + 1) key' a q4
        rw [hl, ← hci] at P2
        have hka : k ∉ (contents h (some a)).map Prod.fst := by
          intro hm; apply hkch; rw [← hcab]
          simp only [List.map_append, List.mem_append]; exact Or.inl hm
        have hkb' : k ∉ (contents h (some b)).map Prod.fst := by
          intro hm; apply hkch; rw [← hcab]
          simp only [List.map_append, List.mem_append]; exact Or.inr hm
        have hrdk : rd (BPNode.internal (n + 1) key' c2).key ci = .ok s := q5
        have hpn : (BPNode.internal n key c1).n = n := rfl
        by_cases hsk : s ≤ k
        · obtain ⟨b', lg, LB, IB, hlg⟩ := ih f (some s) (headOr hi K2) b (by omega) ib
            (by omega) fb ⟨fun a' ha' => by
              simp only [Option.some.injEq] at ha'; omega, hkb.2⟩ hkb'
          have hrb : rd c2 (ci + 1) = .ok (some b) := by
            rw [hci, ← hl]; exact rd_chain2 hc2
          have hc2' : view c2 (n + 1 + 1) = (S1 ++ [some a]) ++ some b :: S2 := by
            rw [hc2]; simp
          obtain ⟨c3, P3, hlen3, hc3, _⟩ := putChild_run (n := n + 1) key' b' hc2'
          have e3 : ((S1 ++ [some a]).length : Int) = ci + 1 := by
            rw [List.length_append, hl, hci]; simp
          rw [e3] at P3
          refine ⟨.internal (n + 1) key' c3, InsertEvent.split n :: lg, ?_, ?_, ?_⟩
          · simp only [_insert_log, BPNode.leaf_, Bool.false_eq_true, if_false, ite_false,
              BPNode.asInternal, Except.ok_bind, Except.pure_eq_ok, e1, e2, hrd, deref, L1, P1,
              hfull, if_true, ite_true, SP, P2, hrdk, hsk, hrb, LB, P3, hpn]
          · simp only [_insert, BPNode.leaf_, Bool.false_eq_true, if_false, ite_false,
              BPNode.asInternal, Except.ok_bind, Except.pure_eq_ok, e1, e2, hrd, deref, L1, P1,
              hfull, if_true, ite_true, SP, P2, hrdk, hsk, hrb, IB, P3]
          · intro e he
            rcases List.mem_cons.mp he with he | he
            · subst he; exact hn
            · exact hlg e he
        · obtain ⟨a', lg, LA, IA, hlg⟩ := ih f (lastOr lo K1) (some s) a (by omega) ia
            (by omega) fa ⟨hkb.1, fun b' hb' => by
              simp only [Option.some.injEq] at hb'; omega⟩ hka
          obtain ⟨c3, P3, hlen3, hc3, _⟩ := putChild_run (n := n + 1) key' a' hc2
          rw [hl, ← hci] at P3
          refine ⟨.internal (n + 1) key' c3, InsertEvent.split n :: lg, ?_, ?_, ?_⟩
          · simp only [_insert_log, BPNode.leaf_, Bool.false_eq_true, if_false, ite_false,
              BPNode.asInternal, Except.ok_bind, Except.pure_eq_ok, e1, e2, hrd, deref, L1, P1,
              hfull, if_true, ite_true, SP, P2, hrdk, hsk, LA, P3, hpn]
          · simp only [_insert, BPNode.leaf_, Bool.false_eq_true, if_false, ite_false,
              BPNode.asInternal, Except.ok_bind, Except.pure_eq_ok, e1, e2, hrd, deref, L1, P1,
              hfull, if_true, ite_true, SP, P2, hrdk, hsk, IA, P3]
          · intro e he
            rcases List.mem_cons.mp he with he | he
            · subst he; exact hn
            · exact hlg e he
      · have hlt : ch1.n < 2 * d - 1 := by omega
        obtain ⟨ch2, lg, LC, IC, hlg⟩ := ih f (lastOr lo K1) (headOr hi K2) ch1 (by omega) hch1
          hlt hfl1 hkb hkch
        obtain ⟨c3, P3, hlen3, hc3, _⟩ := putChild_run (n := n) key ch2 hc1
        rw [hl, ← hci] at P3
        refine ⟨.internal n key c3, lg, ?_, ?_, hlg⟩
        · simp only [_insert_log, BPNode.leaf_, Bool.false_eq_true, if_false, ite_false,
            BPNode.asInternal, Except.ok_bind, Except.pure_eq_ok, e1, e2, hrd, deref, L1, P1,
            hfull, if_false, ite_false, LC, P3]
        · simp only [_insert, BPNode.leaf_, Bool.false_eq_true, if_false, ite_false,
            BPNode.asInternal, Except.ok_bind, Except.pure_eq_ok, e1, e2, hrd, deref, L1, P1,
            hfull, if_false, ite_false, IC, P3]

/-- Source `BPlusTree::insert` on a tree with a root: the run with the record of events returns
what the run without it returns and no event of it concerns a full node. -/
theorem insert_log_some (d : Int) (hd : 2 ≤ d) (fuel : Nat) (root : BPNode) (h : Nat)
    (M : List (Int × Int)) (k v : Int) (hI : BInv d h none none root)
    (hperm : (contents h (some root)).Perm M) (hk : k ∉ M.map Prod.fst) (hf : h + 2 ≤ fuel) :
    ∃ tr' log, insert_log d fuel ⟨some root⟩ k v = .ok (tr', log) ∧
      insert d fuel ⟨some root⟩ k v = .ok tr' ∧ ∀ e ∈ log, e.count < 2 * d - 1 := by
  obtain ⟨root1, L1, hI1, hperm1, hn1, hfl1⟩ := hI.loadIfLeaf
  have hnn : (InternalNode.new d).n = 0 := rfl
  have hk1 : k ∉ (contents h (some root1)).map Prod.fst := by
    intro hm
    exact hk (((hperm1.trans hperm).map Prod.fst).mem_iff.mp hm)
  by_cases hfull : root1.n = 2 * d - 1
  · have hc0 : wr (InternalNode.new d).c 0 (some root1) =
        .ok ((InternalNode.new d).c.set 0 (some root1)) := by
      have := wr_ok (a := (InternalNode.new d).c) (i := 0) (some root1) (le_refl _)
        (by rw [InternalNode.new_c_length d hd]; omega)
      simpa using this
    have hv0 : view ((InternalNode.new d).c.set 0 (some root1)) (0 + 1) = [] ++ some root1 :: [] := by
      have : (2 * d).toNat = (2 * d).toNat - 1 + 1 := by omega
      simp only [InternalNode.new, view]
      rw [this, List.replicate_succ]
      simp
    obtain ⟨a, b, s, key', c', SP, q1, q2, q3, q4, q5, ia, ib, na, nb1, nb2, fa, fb, hcab⟩ :=
      node_split_spec d hd h none none root1 hI1 hfull 0 (InternalNode.new d).key
        ((InternalNode.new d).c.set 0 (some root1)) [] [] [] [] (some root1)
        (InternalNode.inner_new_key_length d hd)
        (by rw [List.length_set]; exact InternalNode.new_c_length d hd) (le_refl _) (by omega)
        rfl hv0 rfl
    obtain ⟨c2, P2, hlen2, hc2, _⟩ := putChild_run (n := 0 + 1) key' a q4
    simp only [List.length_nil, Nat.cast_zero, List.nil_append] at SP P2 hc2 q3 q4
    have hI2 : BInv d (h + 1) none none (.internal (0 + 1) key' c2) := by
      rw [BInv_internal]
      refine ⟨q1, by omega, by omega, by omega, ?_⟩
      rw [hc2, q3, KI_cons, KI_single]
      exact ⟨⟨a, rfl, ia, by omega⟩, ⟨b, rfl, ib, nb1⟩⟩
    have hcont : contents (h + 1) (some (.internal (0 + 1) key' c2)) = contents h (some root1) := by
      rw [contents_internal, hc2, ← hcab]
      simp
    obtain ⟨p', lg, LN, IN, hlg⟩ := bp_insert_log_ok d hd k v (h + 1) fuel none none _ (by omega)
      hI2 (by simp only [BPNode.n]; omega) (fun x hx => absurd hx (by simp))
      ⟨fun _ h => absurd h (by simp), fun _ h => absurd h (by simp)⟩ (by rw [hcont]; exact hk1)
    refine ⟨⟨some p'⟩, InsertEvent.split 0 :: lg, ?_, ?_, ?_⟩
    · simp only [insert_log, L1, Except.ok_bind, hfull, if_true, ite_true, hc0, hnn, SP, P2, LN,
        Except.pure_eq_ok, InternalNode.toNode, bind_pure_comp, Functor.map, Except.map]
    · simp only [insert, L1, Except.ok_bind, hfull, if_true, ite_true, hc0, hnn, SP, P2, IN,
        Except.pure_eq_ok, InternalNode.toNode, bind_pure_comp, Functor.map, Except.map]
    · intro e he
      rcases List.mem_cons.mp he with he | he
      · subst he; simp only [InsertEvent.count]; omega
      · exact hlg e he
  · obtain ⟨p', lg, LN, IN, hlg⟩ := bp_insert_log_ok d hd k v h fuel none none root1 (by omega)
      hI1 (by have := hI1.n_le; omega) hfl1
      ⟨fun _ h => absurd h (by simp), fun _ h => absurd h (by simp)⟩ hk1
    refine ⟨⟨some p'⟩, lg, ?_, ?_, hlg⟩
    · simp only [insert_log, L1, Except.ok_bind, hfull, if_false, ite_false, LN,
        Except.pure_eq_ok, bind_pure_comp, Functor.map, Except.map]
    · simp only [insert, L1, Except.ok_bind, hfull, if_false, ite_false, IN,
        Except.pure_eq_ok, bind_pure_comp, Functor.map, Except.map]

theorem insert_log_none (d : Int) (fuel : Nat) (k v : Int) :
    insert_log d fuel ⟨none⟩ k v = insert_log d fuel ⟨some (LeafNode.new d).toNode⟩ k v := by
  simp only [insert_log]

end BPlusTree

theorem erase_at {α : Type} {L : List α} {i : Nat} {a : α} (h : L[i]? = some a) :
    L.take i ++ L.drop (i + 1) = L.eraseIdx i := by
  obtain ⟨e, l⟩ := decomp_at h
  generalize L.take i = A at e l ⊢
  generalize L.drop (i + 1) = B at e ⊢
  subst e
  rw [eraseIdx_explicit _ _ _ _ l]

theorem erase_next {α : Type} {L : List α} {i : Nat} {a b : α} (h1 : L[i]? = some a)
    (h2 : L[i + 1]? = some b) : L.take i ++ a :: L.drop (i + 2) = L.eraseIdx (i + 1) := by
  obtain ⟨e, l⟩ := decomp_at2 h1 h2
  generalize L.take i = A at e l ⊢
  generalize L.drop (i + 2) = B at e ⊢
  subst e
  have e2 : A ++ a :: b :: B = (A ++ [a]) ++ b :: B := by simp
  rw [e2, eraseIdx_explicit _ _ _ _ (by rw [List.length_append, l]; rfl)]
  simp

namespace InternalNode

/-- Source `InternalNode::_merge` on the arrays: the left node receives the separator and the
keys and children of the right node behind its own, and the parent loses the separator and the
pointer to the right node. -/
theorem inner_merge_arrays (d : Int) (hd : 1 ≤ d) (s : Int)
    (nx : Int) (kx : List Int) (cx : List (Option BPNode)) (ny : Int) (ky : List Int)
    (cy : List (Option BPNode)) (hkx : (kx.length : Int) = 2 * d - 1)
    (hcx : (cx.length : Int) = 2 * d) (hnx : nx = d - 1) (hny0 : 0 ≤ ny) (hny : ny ≤ d - 1)
    (hky : ny ≤ ky.length) (hcy : ny + 1 ≤ cy.length)
    (n : Int) (key : List Int) (c : List (Option BPNode))
    (J1 J2 : List Int) (T1 T2 : List (Option BPNode)) (oX oY : Option BPNode)
    (hkl : n ≤ key.length) (hcl : n + 1 ≤ c.length) (hK : view key n = J1 ++ s :: J2)
    (hS : view c (n + 1) = T1 ++ oX :: oY :: T2) (hl : T1.length = J1.length) :
    ∃ Z key' c', InternalNode._merge d ⟨nx, kx, cx⟩ (.internal n key c) (J1.length : Int)
        (.internal ny ky cy) = .ok (Z, .internal (n - 1) key' c') ∧
      key'.length = key.length ∧ c'.length = c.length ∧ view key' (n - 1) = J1 ++ J2 ∧
      view c' (n - 1 + 1) = T1 ++ oX :: T2 ∧ Z.n = nx + 1 + ny ∧
      Z.key.length = kx.length ∧ Z.c.length = cx.length ∧
      view Z.key Z.n = view kx nx ++ s :: view ky ny ∧
      view Z.c (Z.n + 1) = view cx (nx + 1) ++ view cy (ny + 1) := by
  have rs := rd_sep hK
  obtain ⟨o0, ro, dc⟩ := view_drop_cons cy (ny + 1) 0 (le_refl _) (by omega) (by omega)
  obtain ⟨Z1, E1, n1, lk1, lc1, vk1, vc1⟩ := push_run ⟨nx, kx, cx⟩ s o0 (by simp only; omega)
    (by simp only; omega) (by simp only; omega)
  simp only at n1 lk1 lc1 vk1 vc1 E1
  obtain ⟨Z, E2, n2, lk2, lc2, vk2, vc2⟩ := inner_merge_loop d ⟨ny, ky, cy⟩ (by simp only; omega)
    (by simp only; omega) ny.toNat 1 Z1 (le_refl _) (by simp only; omega) (by omega) (by omega)
    (by omega) (by omega)
  simp only at E2 vk2 vc2
  obtain ⟨key', c', R, q1, q2, q3, q4⟩ := parent_remove n key c J1 J2 T1 T2 s oX oY
    hkl hcl hK hS hl
  have e1 : d - 1 = nx := by omega
  have e2 : d = nx + 1 := by omega
  have hvk : view Z.key Z.n = view kx nx ++ s :: view ky ny := by
    rw [vk2, vk1]
    simp
  have hvc : view Z.c (Z.n + 1) = view cx (nx + 1) ++ view cy (ny + 1) := by
    rw [vc2, vc1]
    simp only [Int.toNat_zero, List.drop_zero, zero_add, Int.toNat_one] at dc ⊢
    rw [List.append_assoc, List.singleton_append, ← dc]
  refine ⟨Z, key', c', ?_, q1, q2, q3, q4, by omega, by omega, by omega, hvk, hvc⟩
  simp only [InternalNode._merge, BPNode.asInternal, Except.ok_bind, rs, ro, BPNode.key,
    Except.pure_eq_ok, InternalNode.toNode, R]
  rw [e1]
  nth_rewrite 1 [e2]
  rw [E1]
  simp only [Except.ok_bind, E2]

end InternalNode

namespace LeafNode

/-- Source `LeafNode::_borrow_from_left` on flushed leaves: the last pair of the left sibling
becomes the first pair of this leaf and its key is written over the separator. -/
theorem borrow_left_exact (d : Int) (hd : 2 ≤ d) (X Y : LeafNode) (hSX : X.Shape d)
    (hSY : Y.Shape d) (hoX : X.overflow_n = 0) (hoY : Y.overflow_n = 0)
    (hsX : StrictKV X.kvs) (hsY : StrictKV Y.kvs)
    (hXY : ∀ q ∈ X.kvs, ∀ r ∈ Y.kvs, q.1 < r.1) (hXn : 1 ≤ X.n) (hYn : Y.n < 2 * d - 1)
    (n : Int) (key : List Int) (c : List (Option BPNode)) (i : Int) (hi0 : 0 ≤ i)
    (hi1 : i < key.length) :
    ∃ X' Y' km vm, Y._borrow_from_left (.internal n key c) i (.leaf X)
        = .ok (Y', .internal n (key.set i.toNat km) c, .leaf X') ∧
      X.kvs = X'.kvs ++ [(km, vm)] ∧ Y'.kvs = (km, vm) :: Y.kvs ∧
      X'.n = X.n - 1 ∧ Y'.n = Y.n + 1 ∧ X'.overflow_n = 0 ∧ Y'.overflow_n = 0 ∧
      StrictKV X'.kvs ∧ StrictKV Y'.kvs ∧ X'.Shape d ∧ Y'.Shape d := by
  have EX := BPlusTree.load_overflow_empty X hoX
  have EY := BPlusTree.load_overflow_empty Y hoY
  obtain ⟨s1, s2, s3, s4, s5, s6, s7, s8⟩ := hSX
  obtain ⟨t1, t2, t3, t4, t5, t6, t7, t8⟩ := hSY
  obtain ⟨km, vm, rk, rv, hdrop⟩ := pair_at X.key X.val X.n (X.n - 1) (by omega) (by omega)
    (by omega) (by omega)
  have hXl := X.kvs_len (by omega) (by omega) (by omega)
  have hm1 : (X.n - 1 + 1).toNat = X.kvs.length := by omega
  have hXk : X.kvs = X.kvs.take (X.n - 1).toNat ++ [(km, vm)] := by
    have e := (List.take_append_drop (X.n - 1).toNat X.kvs).symm
    unfold kvs at e hm1 ⊢
    rw [hdrop, hm1, List.drop_length] at e
    exact e
  have hkm : ∀ q ∈ Y.kvs, km < q.1 := by
    intro q hq
    exact hXY (km, vm) (by rw [hXk]; simp) q hq
  obtain ⟨Y2, IY, nY2, lk2, lv2, oY2, ok2, ov2, sY2, pY2, A, B, hAB, hAB', hA, hB⟩ :=
    Y.insert_main_sorted km vm (by omega) (by omega) (by omega) hsY (by
      intro hm
      obtain ⟨q, hq, hqk⟩ := List.mem_map.mp hm
      have := hkm q hq
      omega)
  have hAnil : A = [] := by
    cases A with
    | nil => rfl
    | cons q A =>
      have h1 := hA q (by simp)
      have h2 := hkm q (by rw [hAB]; simp)
      omega
  subst hAnil
  simp only [List.nil_append] at hAB hAB'
  subst hAB
  have hpX : X.pairs = X.kvs := pairs_flushed hoX
  obtain ⟨X2, L, RX, hSX2, oX2, nX2, _, _, hL, kX2, _⟩ := leaf_remove_spec d X (X.n - 1)
    ⟨s1, s2, s3, s4, s5, s6, s7, s8⟩ hsX (by rw [hpX]; exact hsX.nodup) (by omega) (by omega)
  have hX2k : X2.kvs = X.kvs.take (X.n - 1).toNat := by
    rw [kX2, hL hoX]
    nth_rewrite 1 [hXk]
    rw [eraseIdx_explicit _ _ _ _ (by rw [List.length_take]; omega)]
    simp
  have hSY2 : Y2.Shape d := ⟨by omega, by omega, by rw [ok2]; exact t3, by rw [ov2]; exact t4,
    by omega, by omega, by omega, by omega⟩
  have hr0 : rd Y2.key 0 = .ok km := rd_key_zero hSY2 hAB'
  have W := wr_ok (a := key) km (i := i) hi0 hi1
  refine ⟨X2, Y2, km, vm, ?_, ?_, hAB', by omega, by omega, oX2, by omega, ?_, sY2, hSX2, hSY2⟩
  · simp only [_borrow_from_left, BPNode.asLeaf, Except.ok_bind, EX, EY, rk, rv, IY, RX, hr0,
      BPNode.key, W, BPNode.setKey, Except.pure_eq_ok, LeafNode.toNode]
  · rw [hX2k]; exact hXk
  · rw [hX2k]
    exact List.Pairwise.sublist (List.take_sublist _ _) hsX

/-- Source `LeafNode::_borrow_from_right` on flushed leaves: the first pair of the right sibling
becomes the last pair of this leaf and the key that follows it in the sibling is written over
the separator. -/
theorem borrow_right_exact (d : Int) (hd : 2 ≤ d) (X Y : LeafNode) (hSX : X.Shape d)
    (hSY : Y.Shape d) (hoX : X.overflow_n = 0) (hoY : Y.overflow_n = 0)
    (hsX : StrictKV X.kvs) (hsY : StrictKV Y.kvs)
    (hXY : ∀ q ∈ X.kvs, ∀ r ∈ Y.kvs, q.1 < r.1) (hYn : 2 ≤ Y.n) (hXn : X.n < 2 * d - 1)
    (n : Int) (key : List Int) (c : List (Option BPNode)) (i : Int) (hi0 : 0 ≤ i)
    (hi1 : i < key.length) :
    ∃ X' Y' k0 v0 k1 v1 R, X._borrow_from_right (.internal n key c) i (.leaf Y)
        = .ok (X', .internal n (key.set i.toNat k1) c, .leaf Y') ∧
      Y.kvs = (k0, v0) :: Y'.kvs ∧ Y'.kvs = (k1, v1) :: R ∧ X'.kvs = X.kvs ++ [(k0, v0)] ∧
      X'.n = X.n + 1 ∧ Y'.n = Y.n - 1 ∧ X'.overflow_n = 0 ∧ Y'.overflow_n = 0 ∧
      StrictKV X'.kvs ∧ StrictKV Y'.kvs ∧ X'.Shape d ∧ Y'.Shape d := by
  have EX := BPlusTree.load_overflow_empty X hoX
  have EY := BPlusTree.load_overflow_empty Y hoY
  obtain ⟨s1, s2, s3, s4, s5, s6, s7, s8⟩ := hSX
  obtain ⟨t1, t2, t3, t4, t5, t6, t7, t8⟩ := hSY
  obtain ⟨k0, v0, rk, rv, hdrop⟩ := pair_at Y.key Y.val Y.n 0 (le_refl _) (by omega)
    (by omega) (by omega)
  obtain ⟨k1, v1, rk1, rv1, hdrop1⟩ := pair_at Y.key Y.val Y.n 1 (by omega) (by omega)
    (by omega) (by omega)
  have hYk : Y.kvs = (k0, v0) :: (k1, v1) :: Y.kvs.drop 2 := by
    have h0 : Y.kvs = (k0, v0) :: Y.kvs.drop 1 := by
      unfold kvs
      simpa using hdrop
    have h1 : Y.kvs.drop 1 = (k1, v1) :: Y.kvs.drop 2 := by
      unfold kvs
      have e2 : ((1 : Int) + 1).toNat = 2 := rfl
      rw [e2] at hdrop1
      simpa using hdrop1
    calc Y.kvs = (k0, v0) :: Y.kvs.drop 1 := h0
      _ = _ := by rw [h1]
  have hk0 : ∀ q ∈ X.kvs, q.1 < k0 := by
    intro q hq
    exact hXY q hq (k0, v0) (by rw [hYk]; simp)
  obtain ⟨X2, IX, nX2, lk2, lv2, oX2, ok2, ov2, sX2, pX2, A, B, hAB, hAB', hA, hB⟩ :=
    X.insert_main_sorted k0 v0 (by omega) (by omega) (by omega) hsX (by
      intro hm
      obtain ⟨q, hq, hqk⟩ := List.mem_map.mp hm
      have := hk0 q hq
      omega)
  have hBnil : B = [] := by
    cases B with
    | nil => rfl
    | cons q B =>
      have h1 := hB q (by simp)
      have h2 := hk0 q (by rw [hAB]; simp)
      omega
  subst hBnil
  simp only [List.append_nil] at hAB
  subst hAB
  have hpY : Y.pairs = Y.kvs := pairs_flushed hoY
  obtain ⟨Y2, L, RY, hSY2, oY2, nY2, _, _, hL, kY2, _⟩ := leaf_remove_spec d Y 0
    ⟨t1, t2, t3, t4, t5, t6, t7, t8⟩ hsY (by rw [hpY]; exact hsY.nodup) (le_refl _) (by omega)
  have hY2k : Y2.kvs = (k1, v1) :: Y.kvs.drop 2 := by
    rw [kY2, hL hoY]
    nth_rewrite 1 [hYk]
    rfl
  have hr0 : rd Y2.key 0 = .ok k1 := rd_key_zero hSY2 hY2k
  have W := wr_ok (a := key) k1 (i := i) hi0 hi1
  have hSX2 : X2.Shape d := ⟨by omega, by omega, by rw [ok2]; exact s3, by rw [ov2]; exact s4,
    by omega, by omega, by omega, by omega⟩
  refine ⟨X2, Y2, k0, v0, k1, v1, Y.kvs.drop 2, ?_, ?_, hY2k, hAB', by omega, by omega,
    by omega, oY2, sX2, ?_, hSX2, hSY2⟩
  · simp only [_borrow_from_right, BPNode.asLeaf, Except.ok_bind, EX, EY, rk, rv, IX, RY, hr0,
      BPNode.key, W, BPNode.setKey, Except.pure_eq_ok, LeafNode.toNode]
  · rw [hY2k]; exact hYk
  · rw [hY2k]
    rw [hYk] at hsY
    exact (List.pairwise_cons.mp hsY).2

end LeafNode

namespace BPlusTree

/-- Source `BPlusTree::_remove` at an Internal node whose flushed child `ci` holds `d - 1` keys:
after the siblings are flushed and stored back, the call is the choice between the two borrows
and the two merges. -/
theorem remove_fill_unfold (d : Int) (f : Nat) (n : Int) (key : List Int)
    (c : List (Option BPNode)) (k ki ci : Int) (c0 ch p1 p2 p3 : BPNode)
    (lo ro l r : Option BPNode)
    (e1 : (BPNode.internal n key c)._get_key_index k = .ok ki)
    (e2 : (⟨n, key, c⟩ : InternalNode)._get_child_index k ki = .ok ci)
    (e3 : rd c ci = .ok (some c0)) (e4 : c0.loadIfLeaf = .ok ch)
    (e5 : (BPNode.internal n key c).putChild ci ch = .ok p1) (e6 : d - 1 = ch.n)
    (e7 : (if ci > 0 then rd c (ci - 1) else pure none) = .ok lo)
    (e8 : (if ci < n then rd c (ci + 1) else pure none) = .ok ro)
    (e9 : loadSibling lo = .ok l) (e10 : loadSibling ro = .ok r)
    (e11 : (match l with
        | some lv => p1.putChild (ci - 1) lv
        | none => pure p1) = .ok p2)
    (e12 : (match r with
        | some rv => p2.putChild (ci + 1) rv
        | none => pure p2) = .ok p3) :
    _remove d (f + 1) (.internal n key c) k =
      (match l, r with
      | some l, r =>
        if l.n > d - 1 then do
          let (c, p, l) ← ch._borrow_from_left p3 (ci - 1) l
          let p ← p.putChild (ci - 1) l
          let c ← _remove d f c k
          p.putChild ci c
        else if (match r with | some r => decide (r.n > d - 1) | none => false) then do
          let r ← deref r
          let (c, p, r) ← ch._borrow_from_right p3 ci r
          let p ← p.putChild (ci + 1) r
          let c ← _remove d f c k
          p.putChild ci c
        else do
          let (l, p) ← l._merge d p3 (ci - 1) ch
          let l ← _remove d f l k
          p.putChild (ci - 1) l
      | none, some r =>
        if r.n > d - 1 then do
          let (c, p, r) ← ch._borrow_from_right p3 ci r
          let p ← p.putChild (ci + 1) r
          let c ← _remove d f c k
          p.putChild ci c
        else do
          let (c, p) ← ch._merge d p3 ci r
          let c ← _remove d f c k
          p.putChild ci c
      | none, none => .error .null) := by
  have e6' : (d - 1 = ch.n) = True := eq_true e6
  have ln : loadSibling none = .ok none := rfl
  by_cases h0 : ci > 0
  · rw [if_pos h0] at e7
    by_cases h1 : ci < n
    · rw [if_pos h1] at e8
      cases l <;> cases r <;>
        simp only [Except.pure_eq_ok, Except.ok.injEq] at e11 e12 <;>
        simp only [_remove, BPNode.leaf_, Bool.false_eq_true, if_false, ite_false,
          BPNode.asInternal, Except.ok_bind, Except.pure_eq_ok, e1, e2, e3, deref, e4, e5, e6',
          if_true, ite_true, h0, h1, e7, e8, e9, e10, e11, e12]
    · rw [if_neg h1] at e8
      simp only [Except.pure_eq_ok, Except.ok.injEq] at e8
      subst e8
      rw [ln] at e10
      simp only [Except.ok.injEq] at e10
      subst e10
      cases l <;>
        simp only [Except.pure_eq_ok, Except.ok.injEq] at e11 e12 <;>
        simp only [_remove, BPNode.leaf_, Bool.false_eq_true, if_false, ite_false,
          BPNode.asInternal, Except.ok_bind, Except.pure_eq_ok, e1, e2, e3, deref, e4, e5, e6',
          if_true, ite_true, h0, h1, e7, ln, e9, e11, e12]
  · rw [if_neg h0] at e7
    simp only [Except.pure_eq_ok, Except.ok.injEq] at e7
    subst e7
    rw [ln] at e9
    simp only [Except.ok.injEq] at e9
    subst e9
    by_cases h1 : ci < n
    · rw [if_pos h1] at e8
      cases r <;>
        simp only [Except.pure_eq_ok, Except.ok.injEq] at e11 e12 <;>
        simp only [_remove, BPNode.leaf_, Bool.false_eq_true, if_false, ite_false,
          BPNode.asInternal, Except.ok_bind, Except.pure_eq_ok, e1, e2, e3, deref, e4, e5, e6',
          if_true, ite_true, h0, h1, e8, ln, e10, e11, e12]
    · rw [if_neg h1] at e8
      simp only [Except.pure_eq_ok, Except.ok.injEq] at e8
      subst e8
      rw [ln] at e10
      simp only [Except.ok.injEq] at e10
      subst e10
      simp only [Except.pure_eq_ok, Except.ok.injEq] at e11 e12
      simp only [_remove, BPNode.leaf_, Bool.false_eq_true, if_false, ite_false,
        BPNode.asInternal, Except.ok_bind, Except.pure_eq_ok, e1, e2, e3, deref, e4, e5, e6',
        if_true, ite_true, h0, h1, ln, e11, e12]

end BPlusTree

namespace BPlusTree

/-- A node under a B+ tree is a B+ tree whose pairs are pairs of the whole. -/
theorem under_contents (d : Int) : ∀ (r x : BPNode), Under r x → ∀ (h : Nat) (lo hi : Option Int),
    BInv d h lo hi r → ∃ h' lo' hi', BInv d h' lo' hi' x ∧
      ∀ p ∈ contents h' (some x), p ∈ contents h (some r) := by
  intro r x hu
  induction hu with
  | kid n key c x hm =>
    intro h lo hi hI
    cases h with
    | zero => simp [BInv] at hI
    | succ h0 =>
      rw [BInv_internal] at hI
      obtain ⟨l, u, ch, hch, hIc, hn⟩ := KI_mem hI.2.2.2.2 _ hm
      simp only [Option.some.injEq] at hch
      subst hch
      refine ⟨h0, l, u, hIc, ?_⟩
      intro p hp
      rw [contents_internal]
      exact List.mem_flatMap.mpr ⟨_, hm, hp⟩
  | deeper n key c y x hm _ ih =>
    intro h lo hi hI
    cases h with
    | zero => simp [BInv] at hI
    | succ h0 =>
      rw [BInv_internal] at hI
      obtain ⟨l, u, ch, hch, hIc, hn⟩ := KI_mem hI.2.2.2.2 _ hm
      simp only [Option.some.injEq] at hch
      subst hch
      obtain ⟨h', lo', hi', hx, hsub⟩ := ih h0 l u hIc
      refine ⟨h', lo', hi', hx, ?_⟩
      intro p hp
      rw [contents_internal]
      exact List.mem_flatMap.mpr ⟨_, hm, hsub p hp⟩

/-- Every key stored in a B+ tree lies within the bounds of the tree. -/
theorem stored_bounds (d : Int) (hd : 2 ≤ d) {h : Nat} {lo hi : Option Int} {y : BPNode}
    (hI : BInv d h lo hi y) {k : Int} (hk : Stored y k) : InB lo hi k := by
  obtain ⟨z, hz, hm⟩ := hk
  obtain ⟨p, hp, rfl⟩ := List.mem_map.mp hm
  have hsub : p ∈ contents h (some y) := by
    rcases hz with rfl | hu
    · cases h with
      | zero => exact hp
      | succ h0 => simp [BInv] at hI
    · obtain ⟨h', lo', hi', hx, hs⟩ := under_contents d y _ hu h lo hi hI
      apply hs
      cases h' with
      | zero => exact hp
      | succ h0 => simp [BInv] at hx
  exact (BInv.facts d hd h lo hi y hI).1 p hsub

/-- The search-tree order at one key of an Internal node of a B+ tree. -/
theorem separator_order (d : Int) (hd : 2 ≤ d) {h : Nat} {lo hi : Option Int} {n : Int}
    {key : List Int} {c : List (Option BPNode)}
    (hI : BInv d (h + 1) lo hi (.internal n key c)) (i : Int) (hi0 : 0 ≤ i) (hi1 : i < n) :
    ∃ a b s, rd key i = .ok s ∧ rd c i = .ok (some a) ∧ rd c (i + 1) = .ok (some b) ∧
      (∀ k, Stored a k → k < s) ∧ (∀ k, Stored b k → s ≤ k) := by
  have hI0 := hI
  rw [BInv_internal] at hI0
  obtain ⟨k1, k2, k3, k4, _⟩ := hI0
  have lk := view_length key n (by omega) (by omega)
  obtain ⟨s, gk⟩ : ∃ s, (view key n)[i.toNat]? = some s :=
    ⟨_, List.getElem?_eq_getElem (by omega)⟩
  obtain ⟨eK, lK⟩ := decomp_at gk
  have eI : (((view key n).take i.toNat).length : Int) = i := by rw [lK]; omega
  obtain ⟨S1, a, S2, _, _, ra, _, ha, _, _, _⟩ := hI.child eK
  have eK2 : view key n = ((view key n).take i.toNat ++ [s]) ++ (view key n).drop (i.toNat + 1) := by
    nth_rewrite 1 [eK]; simp
  obtain ⟨T1, b, T2, _, _, rb, _, hb, _, _, _⟩ := hI.child eK2
  rw [eI] at ra
  have eI2 : ((((view key n).take i.toNat ++ [s]).length : Nat) : Int) = i + 1 := by
    rw [List.length_append, lK]; simp; omega
  rw [eI2] at rb
  rw [lastOr_snoc] at hb
  refine ⟨a, b, s, ?_, ra, rb, ?_, ?_⟩
  · have := InternalNode.rd_sep eK
    rw [eI] at this
    exact this
  · intro k hk
    exact (stored_bounds d hd ha hk).2 s rfl
  · intro k hk
    exact (stored_bounds d hd hb hk).1 s rfl

end BPlusTree

/-- A completed `shiftWhile` keeps the lengths of the arrays, stops at or before its start, and
has moved a pair only if the slot after the start exists. -/
theorem shiftWhile_keeps (k : Int) : ∀ (f : Nat) (key val : List Int) (i : Int)
    (key' val' : List Int) (j : Int), shiftWhile k f key val i = .ok (key', val', j) →
    key'.length = key.length ∧ val'.length = val.length ∧ j ≤ i ∧
      (j < i → i + 1 < key.length) := by
  intro f
  induction f with
  | zero => intro key val i key' val' j h; simp only [shiftWhile] at h; cases h
  | succ f ih =>
    intro key val i key' val' j h
    simp only [shiftWhile] at h
    by_cases h0 : 0 ≤ i
    · rw [if_pos h0] at h
      obtain ⟨ki, _, h⟩ := bind_ok h
      by_cases hk : k < ki
      · rw [if_pos hk] at h
        obtain ⟨key1, w1, h⟩ := bind_ok h
        obtain ⟨vi, _, h⟩ := bind_ok h
        obtain ⟨val1, w2, h⟩ := bind_ok h
        obtain ⟨a, b, c, _⟩ := ih _ _ _ _ _ _ h
        obtain ⟨l1, _, _, r1⟩ := wr_keeps w1
        obtain ⟨l2, _, _, _⟩ := wr_keeps w2
        exact ⟨by rw [a, l1], by rw [b, l2], by omega, fun _ => r1⟩
      · rw [if_neg hk] at h
        simp only [Except.pure_eq_ok, Except.ok.injEq, Prod.mk.injEq] at h
        obtain ⟨e1, e2, e3⟩ := h
        subst e1 e2 e3
        exact ⟨rfl, rfl, le_refl _, fun hh => absurd hh (lt_irrefl _)⟩
    · rw [if_neg h0] at h
      simp only [Except.pure_eq_ok, Except.ok.injEq, Prod.mk.injEq] at h
      obtain ⟨e1, e2, e3⟩ := h
      subst e1 e2 e3
      exact ⟨rfl, rfl, le_refl _, fun hh => absurd hh (lt_irrefl _)⟩

namespace LeafNode

/-- A completed `_insert_main` has found a free slot in the main page: the count was below the
length of the key array, it goes up by one and the arrays keep their lengths. -/
theorem insert_main_count {x x' : LeafNode} {k v : Int} (h : x._insert_main k v = .ok x') :
    x'.n = x.n + 1 ∧ x'.key.length = x.key.length ∧ x'.val.length = x.val.length ∧
      x.n < x.key.length := by
  simp only [_insert_main] at h
  obtain ⟨⟨key, val, j⟩, h1, h⟩ := bind_ok h
  simp only at h
  obtain ⟨key', w1, h⟩ := bind_ok h
  obtain ⟨val', w2, h⟩ := bind_ok h
  simp only [Except.pure_eq_ok, Except.ok.injEq] at h
  subst h
  obtain ⟨a, b, c, e⟩ := shiftWhile_keeps k _ _ _ _ _ _ _ h1
  obtain ⟨l1, _, _, r1⟩ := wr_keeps w1
  obtain ⟨l2, _, _, _⟩ := wr_keeps w2
  refine ⟨rfl, by show key'.length = _; rw [l1, a], by show val'.length = _; rw [l2, b], ?_⟩
  rw [a] at r1
  by_cases hj : j < x.n - 1
  · have := e hj
    omega
  · omega

theorem insert_main_fit {d : Int} {x x' : LeafNode} {k v : Int}
    (h : x._insert_main k v = .ok x') (hx : x.Fit d) :
    x'.Fit d ∧ x'.n = x.n + 1 ∧ x'.overflow_n = x.overflow_n := by
  obtain ⟨e1, e2, e3⟩ := insert_main_ov h
  obtain ⟨c1, c2, c3, c4⟩ := insert_main_count h
  obtain ⟨q1, q2, q3, q4, q5, q6, q7⟩ := hx
  exact ⟨⟨by rw [c2]; exact q1, by rw [c3]; exact q2, by rw [e1]; exact q3, by rw [e2]; exact q4,
    by rw [e3]; exact q5, by rw [e3]; exact q6, by omega⟩, c1, e3⟩

theorem sort_overflow_fit {d : Int} {x x' : LeafNode} (h : x._sort_overflow = .ok x')
    (hx : x.Fit d) : x'.Fit d ∧ x'.n = x.n ∧ x'.overflow_n = x.overflow_n := by
  simp only [_sort_overflow] at h
  obtain ⟨ps, _, h⟩ := bind_ok h
  obtain ⟨⟨ks, vs⟩, hw, h⟩ := bind_ok h
  simp only [Except.pure_eq_ok, Except.ok.injEq] at h
  subst h
  obtain ⟨l1, l2⟩ := writePairs_len hw
  obtain ⟨q1, q2, q3, q4, q5, q6, q7⟩ := hx
  exact ⟨⟨q1, q2, by show (ks.length : Int) = _; rw [l1]; exact q3,
    by show (vs.length : Int) = _; rw [l2]; exact q4, q5, q6, q7⟩, rfl, rfl⟩

/-- A completed flush leaves a leaf that fits, with an empty overflow block. -/
theorem load_fit {d : Int} {x x' : LeafNode} (h : x._load_overflow = .ok x') (hx : x.Fit d) :
    x'.Fit d ∧ x'.overflow_n = 0 := by
  simp only [_load_overflow] at h
  by_cases h0 : x.overflow_n = 0
  · simp only [h0, if_true, ite_true, Except.pure_eq_ok, Except.ok.injEq] at h
    have : x' = x := h.symm
    subst this
    exact ⟨hx, h0⟩
  · simp only [h0, if_false, ite_false, Except.pure_eq_ok, Except.ok_bind] at h
    obtain ⟨x1, hs, h⟩ := bind_ok h
    obtain ⟨x2, hl, h⟩ := bind_ok h
    simp only [Except.ok.injEq] at h
    subst h
    have h1 := (sort_overflow_fit hs hx).1
    have h2 : x2.Fit d := by
      refine foldlM_keeps (fun (y : LeafNode) => y.Fit d) _ ?_ _ x1 x2 h1 hl
      intro b j b' hb hj
      obtain ⟨k1, _, hj⟩ := bind_ok hj
      obtain ⟨v1, _, hj⟩ := bind_ok hj
      exact (insert_main_fit hj hb).1
    obtain ⟨q1, q2, q3, q4, q5, q6, q7⟩ := h2
    exact ⟨⟨q1, q2, q3, q4, le_refl _, by show (0 : Int) ≤ d / 2; omega, q7⟩, rfl⟩

/-- A completed flush leaves a leaf within capacity. -/
theorem load_cap {d : Int} {x x' : LeafNode} (h : x._load_overflow = .ok x') (hx : x.Fit d) :
    x'.Cap d ∧ x'.overflow_n = 0 := by
  obtain ⟨a, b⟩ := load_fit h hx
  exact ⟨⟨a, by rw [b]; have := a.2.2.2.2.2.2; omega⟩, b⟩

/-- A completed `LeafNode::_insert` leaves a leaf that fits. -/
theorem insert_fit {d : Int} {x x' : LeafNode} {k v : Int} (h : x._insert d k v = .ok x')
    (hx : x.Fit d) : x'.Fit d := by
  simp only [_insert] at h
  by_cases hbr : 2 * d - 1 - d / 2 < x.n
  · simp only [hbr, if_true, ite_true, Except.pure_eq_ok] at h
    obtain ⟨x1, h1, h⟩ := bind_ok h
    simp only [Except.ok.injEq] at h
    subst h
    exact (insert_main_fit h1 hx).1
  · have fin : ∀ x1 : LeafNode, x1.Fit d →
        (wr x1.overflow_key x1.overflow_n k >>= fun ok =>
          wr x1.overflow_val x1.overflow_n v >>= fun ov =>
            (Except.ok (⟨x1.n, x1.key, x1.val, x1.overflow_n + 1, ok, ov⟩ : LeafNode)
              : Except Err LeafNode)) = .ok x' → x'.Fit d := by
      intro x1 hx1 h
      obtain ⟨ok, hk, h⟩ := bind_ok h
      obtain ⟨ov, hv, h⟩ := bind_ok h
      simp only [Except.ok.injEq] at h
      subst h
      obtain ⟨l1, _, i0, i1⟩ := wr_keeps hk
      obtain ⟨l2, _, _, _⟩ := wr_keeps hv
      obtain ⟨q1, q2, q3, q4, q5, q6, q7⟩ := hx1
      exact ⟨q1, q2, by show (ok.length : Int) = _; rw [l1]; exact q3,
        by show (ov.length : Int) = _; rw [l2]; exact q4,
        by show 0 ≤ x1.overflow_n + 1; omega, by show x1.overflow_n + 1 ≤ d / 2; omega, q7⟩
    rw [if_neg hbr] at h
    simp only [Except.pure_eq_ok, Except.ok_bind] at h
    by_cases hf : d / 2 = x.overflow_n
    · rw [if_pos hf] at h
      obtain ⟨x1, h1, h⟩ := bind_ok h
      exact fin x1 (load_fit h1 hx).1 h
    · rw [if_neg hf] at h
      exact fin x hx h

/-- A completed `LeafNode::_insert` on a flushed leaf within capacity leaves a leaf within
capacity. -/
theorem insert_cap {d : Int} (hd : 1 ≤ d / 2) {x x' : LeafNode} {k v : Int}
    (h : x._insert d k v = .ok x') (hx : x.Cap d) (ho : x.overflow_n = 0) : x'.Cap d := by
  have hF := insert_fit h hx.1
  refine ⟨hF, ?_⟩
  simp only [_insert] at h
  by_cases hbr : 2 * d - 1 - d / 2 < x.n
  · simp only [hbr, if_true, ite_true, Except.pure_eq_ok] at h
    obtain ⟨x1, h1, h⟩ := bind_ok h
    simp only [Except.ok.injEq] at h
    subst h
    obtain ⟨a, b, c⟩ := insert_main_fit h1 hx.1
    have := a.2.2.2.2.2.2
    omega
  · rw [if_neg hbr] at h
    simp only [Except.pure_eq_ok, Except.ok_bind] at h
    have hf : ¬ d / 2 = x.overflow_n := by omega
    rw [if_neg hf] at h
    obtain ⟨ok, hk, h⟩ := bind_ok h
    obtain ⟨ov, hv, h⟩ := bind_ok h
    simp only [Except.ok.injEq] at h
    subst h
    show x.n + (x.overflow_n + 1) ≤ 2 * d - 1
    omega

/-- A completed `LeafNode::_remove` leaves a flushed leaf within capacity. -/
theorem remove_cap {d : Int} {x x' : LeafNode} {i : Int} (h : x._remove i = .ok x')
    (hx : x.Fit d) : x'.Cap d ∧ x'.overflow_n = 0 := by
  simp only [_remove] at h
  obtain ⟨x1, h1, h⟩ := bind_ok h
  obtain ⟨key, hk, h⟩ := bind_ok h
  obtain ⟨val, hv, h⟩ := bind_ok h
  simp only [Except.pure_eq_ok, Except.ok.injEq] at h
  subst h
  obtain ⟨⟨q1, q2, q3, q4, q5, q6, q7⟩, o1⟩ := load_fit h1 hx
  have lk := (shiftDown_keeps hk).1
  have lv := (shiftDown_keeps hv).1
  refine ⟨⟨⟨by show (key.length : Int) = _; rw [lk]; exact q1,
    by show (val.length : Int) = _; rw [lv]; exact q2, q3, q4, q5, q6,
    by show x1.n - 1 ≤ 2 * d - 1; omega⟩, by show x1.n - 1 + x1.overflow_n ≤ 2 * d - 1; omega⟩, o1⟩

theorem new_cap (d : Int) (hd : 1 ≤ d) : (LeafNode.new d).Cap d := by
  have h2 : 0 ≤ d / 2 := Int.ediv_nonneg (by omega) (by omega)
  refine ⟨⟨?_, ?_, ?_, ?_, le_refl _, h2, ?_⟩, ?_⟩
  · simp only [LeafNode.new, List.length_replicate]; omega
  · simp only [LeafNode.new, List.length_replicate]; omega
  · simp only [LeafNode.new, List.length_replicate]; omega
  · simp only [LeafNode.new, List.length_replicate]; omega
  · show (0 : Int) ≤ 2 * d - 1; omega
  · show (0 : Int) + 0 ≤ 2 * d - 1; omega

end LeafNode

namespace BPlusTree

theorem lev_internal {d : Int} {h : Nat} {n : Int} {key : List Int} {c : List (Option BPNode)} :
    Lev d (h + 1) (.internal n key c) ↔ KidsLev d h c := by
  constructor
  · intro hl
    cases hl with
    | internal _ _ _ _ hc => exact hc
  · intro hl
    exact Lev.internal h n key c hl

theorem lev_leaf {d : Int} {x : LeafNode} : Lev d 0 (.leaf x) ↔ x.Cap d := by
  constructor
  · intro hl
    cases hl with
    | leaf _ hx => exact hx
  · intro hl
    exact Lev.leaf x hl

theorem lev_leaf_zero {d : Int} {h : Nat} {x : LeafNode} (hl : Lev d h (.leaf x)) :
    h = 0 ∧ x.Cap d := by
  cases hl with
  | leaf _ hx => exact ⟨rfl, hx⟩

theorem lev_internal_succ {d : Int} {h : Nat} {n : Int} {key : List Int}
    {c : List (Option BPNode)} (hl : Lev d h (.internal n key c)) :
    ∃ h0, h = h0 + 1 ∧ KidsLev d h0 c := by
  cases hl with
  | internal h0 _ _ _ hc => exact ⟨h0, rfl, hc⟩

theorem kidsLev_replicate (d : Int) (h : Nat) (n : Nat) : KidsLev d h (List.replicate n none) := by
  intro ch hm
  have := List.eq_of_mem_replicate hm
  exact absurd this (by simp)

theorem kidsLev_rd {d : Int} {h : Nat} {c : List (Option BPNode)} {i : Int} {ch : BPNode}
    (hr : rd c i = .ok (some ch)) (hc : KidsLev d h c) : Lev d h ch := hc ch (rd_mem hr)

theorem kidsLev_wr {d : Int} {h : Nat} {c c' : List (Option BPNode)} {i : Int}
    {o : Option BPNode} (hw : wr c i o = .ok c') (hc : KidsLev d h c)
    (ho : ∀ ch, o = some ch → Lev d h ch) : KidsLev d h c' := by
  intro ch hm
  rcases (wr_keeps hw).2.1 _ hm with e | e
  · exact ho ch e.symm
  · exact hc ch e

theorem kidsLev_sub {d : Int} {h : Nat} {c c' : List (Option BPNode)} (hs : ∀ y ∈ c', y ∈ c)
    (hc : KidsLev d h c) : KidsLev d h c' := fun ch hm => hc ch (hs _ hm)

theorem asInternal_lev {d : Int} {h : Nat} {p : BPNode} {tp : InternalNode}
    (ha : p.asInternal = .ok tp) (hp : Lev d h p) : ∃ h0, h = h0 + 1 ∧ KidsLev d h0 tp.c := by
  rw [asInternal_ok ha] at hp
  exact lev_internal_succ hp

theorem asInternal_kidsLev {d : Int} {h : Nat} {p : BPNode} {tp : InternalNode}
    (ha : p.asInternal = .ok tp) (hp : Lev d (h + 1) p) : KidsLev d h tp.c := by
  rw [asInternal_ok ha] at hp
  exact lev_internal.mp hp

theorem toNode_lev {d : Int} {h : Nat} {x : InternalNode} (hk : KidsLev d h x.c) :
    Lev d (h + 1) x.toNode := lev_internal.mpr hk

theorem setKey_lev {d : Int} {h : Nat} {p : BPNode} (key : List Int) (hp : Lev d (h + 1) p) :
    Lev d (h + 1) (p.setKey key) := by
  cases p with
  | leaf x => exact absurd (lev_leaf_zero hp).1 (by simp)
  | internal n k c => exact lev_internal.mpr (lev_internal.mp hp)

theorem wr_rd {α : Type} {a a' : List α} {i : Int} {x : α} (hw : wr a i x = .ok a') :
    rd a' i = .ok x := by
  obtain ⟨l1, _, i0, i1⟩ := wr_keeps hw
  simp only [wr] at hw
  split at hw
  · exact absurd hw (by simp)
  · simp only [Except.ok.injEq] at hw
    subst hw
    apply rd_ok i0
    rw [List.getElem?_set_self (by omega)]

theorem wr_rd_other {α : Type} {a a' : List α} {i j : Int} {x : α} (hw : wr a i x = .ok a')
    (hij : j ≠ i) : rd a' j = rd a j := by
  obtain ⟨l1, _, i0, i1⟩ := wr_keeps hw
  simp only [wr] at hw
  split at hw
  · exact absurd hw (by simp)
  · simp only [Except.ok.injEq] at hw
    subst hw
    exact rd_set_ne a j i x i0 hij

/-- Source `InternalNode::_insert` keeps the children at height `h` and stores the new child in
its slot. -/
theorem inner_insert_lev {d : Int} {h : Nat} {x x' : InternalNode} {k ki ci : Int}
    {o : Option BPNode} (hi : x._insert k ki o ci = .ok x') (hc : KidsLev d h x.c)
    (ho : ∀ ch, o = some ch → Lev d h ch) : KidsLev d h x'.c ∧ rd x'.c ci = .ok o := by
  simp only [InternalNode._insert] at hi
  obtain ⟨k1, _, hi⟩ := bind_ok hi
  obtain ⟨k2, _, hi⟩ := bind_ok hi
  obtain ⟨c1, h1, hi⟩ := bind_ok hi
  obtain ⟨c2, h2, hi⟩ := bind_ok hi
  simp only [Except.pure_eq_ok, Except.ok.injEq] at hi
  subst hi
  exact ⟨kidsLev_wr h2 (kidsLev_sub (shiftUp_keeps h1).2 hc) ho, wr_rd h2⟩

theorem inner_remove_lev {d : Int} {h : Nat} {x x' : InternalNode} {ki ci : Int}
    (hr : x._remove ki ci = .ok x') (hc : KidsLev d h x.c) : KidsLev d h x'.c := by
  simp only [InternalNode._remove] at hr
  obtain ⟨k1, _, hr⟩ := bind_ok hr
  obtain ⟨c1, h1, hr⟩ := bind_ok hr
  simp only [Except.pure_eq_ok, Except.ok.injEq] at hr
  subst hr
  exact kidsLev_sub (shiftDown_keeps h1).2 hc

theorem putChild_lev {d : Int} {h : Nat} {p p' ch : BPNode} {i : Int}
    (hp' : p.putChild i ch = .ok p') (hp : Lev d (h + 1) p) (hch : Lev d h ch) :
    Lev d (h + 1) p' := by
  simp only [BPNode.putChild] at hp'
  obtain ⟨tp, h1, hp'⟩ := bind_ok hp'
  obtain ⟨c1, h2, hp'⟩ := bind_ok hp'
  simp only [Except.pure_eq_ok, Except.ok.injEq] at hp'
  subst hp'
  apply toNode_lev
  exact kidsLev_wr h2 (asInternal_kidsLev h1 hp) (fun x hx => by
    simp only [Option.some.injEq] at hx
    subst hx; exact hch)

/-- Storing a child back in slot `i` leaves the other slots as they were. -/
theorem putChild_other {p p' ch : BPNode} {i j : Int} {tp tp' : InternalNode}
    (hp' : p.putChild i ch = .ok p') (ha : p.asInternal = .ok tp)
    (ha' : p'.asInternal = .ok tp') (hij : j ≠ i) : rd tp'.c j = rd tp.c j := by
  simp only [BPNode.putChild] at hp'
  obtain ⟨tp0, h1, hp'⟩ := bind_ok hp'
  obtain ⟨c1, h2, hp'⟩ := bind_ok hp'
  simp only [Except.pure_eq_ok, Except.ok.injEq] at hp'
  subst hp'
  rw [ha] at h1
  simp only [Except.ok.injEq] at h1
  subst h1
  simp only [InternalNode.toNode, BPNode.asInternal, Except.ok.injEq] at ha'
  subst ha'
  exact wr_rd_other h2 hij

theorem loadIfLeaf_lev {d : Int} {h : Nat} {x x' : BPNode} (hl : x.loadIfLeaf = .ok x')
    (hx : Lev d h x) : Lev d h x' ∧ x'.Flushed := by
  cases x with
  | leaf y =>
    obtain ⟨rfl, hc⟩ := lev_leaf_zero hx
    simp only [BPNode.loadIfLeaf] at hl
    obtain ⟨y1, h1, hl⟩ := bind_ok hl
    simp only [Except.pure_eq_ok, Except.ok.injEq] at hl
    subst hl
    obtain ⟨a, b⟩ := LeafNode.load_cap h1 hc.1
    refine ⟨lev_leaf.mpr a, ?_⟩
    intro z hz
    simp only [LeafNode.toNode, BPNode.leaf.injEq] at hz
    subst hz; exact b
  | internal n key c =>
    simp only [BPNode.loadIfLeaf, Except.pure_eq_ok, Except.ok.injEq] at hl
    subst hl
    exact ⟨hx, fun z hz => by cases hz⟩

theorem loadSibling_lev {d : Int} {h : Nat} {o o' : Option BPNode}
    (hl : loadSibling o = .ok o') (ho : ∀ x, o = some x → Lev d h x) :
    ∀ x, o' = some x → Lev d h x := by
  cases o with
  | none =>
    simp only [loadSibling, Except.pure_eq_ok, Except.ok.injEq] at hl
    subst hl
    intro x hx; exact absurd hx (by simp)
  | some y =>
    simp only [loadSibling] at hl
    obtain ⟨y1, h1, hl⟩ := bind_ok hl
    simp only [Except.pure_eq_ok, Except.ok.injEq] at hl
    subst hl
    intro x hx
    simp only [Option.some.injEq] at hx
    subst hx
    exact (loadIfLeaf_lev h1 (ho y rfl)).1

theorem lev_leaf_flag {d : Int} {h : Nat} {p : BPNode} (hp : Lev d h p) (hl : p.leaf_ = true) :
    h = 0 := by
  cases p with
  | leaf x => exact (lev_leaf_zero hp).1
  | internal n key c => simp [BPNode.leaf_] at hl

end BPlusTree

namespace BPlusTree

/-- Source `LeafNode::_split`: both halves are flushed leaves within capacity and the new leaf is
in slot `i + 1` of the parent. -/
theorem leaf_split_lev {d : Int} (hd : 1 ≤ d) {self s : LeafNode} {p p' : BPNode} {i : Int}
    (h : self._split d p i = .ok (s, p')) (hs : self.Cap d) (hp : Lev d 1 p) :
    s.Cap d ∧ s.overflow_n = 0 ∧ Lev d 1 p' ∧
      ∃ tp' rn, p'.asInternal = .ok tp' ∧ rd tp'.c (i + 1) = .ok (some rn) ∧ rn.Flushed := by
  simp only [LeafNode._split] at h
  obtain ⟨s1, h1, h⟩ := bind_ok h
  obtain ⟨rk, hrk, h⟩ := bind_ok h
  obtain ⟨rv, hrv, h⟩ := bind_ok h
  obtain ⟨tp, h2, h⟩ := bind_ok h
  obtain ⟨sk, _, h⟩ := bind_ok h
  obtain ⟨tp', h3, h⟩ := bind_ok h
  simp only [Except.pure_eq_ok, Except.ok.injEq, Prod.mk.injEq] at h
  obtain ⟨e1, e2⟩ := h
  subst e1 e2
  obtain ⟨⟨q1, q2, q3, q4, q5, q6, q7⟩, o1⟩ := LeafNode.load_fit h1 hs.1
  have lk := (copyRange_keeps hrk).1
  have lv := (copyRange_keeps hrv).1
  obtain ⟨⟨n1, n2, n3, n4, n5, n6, n7⟩, _⟩ := LeafNode.new_cap d hd
  have hr : Lev d 0 (LeafNode.toNode ⟨d, rk, rv, (LeafNode.new d).overflow_n,
      (LeafNode.new d).overflow_key, (LeafNode.new d).overflow_val⟩) := by
    apply lev_leaf.mpr
    refine ⟨⟨by show (rk.length : Int) = _; rw [lk]; exact n1,
      by show (rv.length : Int) = _; rw [lv]; exact n2, n3, n4, n5, n6,
      by show d ≤ 2 * d - 1; omega⟩, ?_⟩
    show d + 0 ≤ 2 * d - 1
    omega
  obtain ⟨a, b⟩ := inner_insert_lev h3 (asInternal_kidsLev h2 hp) (fun ch hch => by
    simp only [Option.some.injEq] at hch
    subst hch
    exact hr)
  refine ⟨⟨⟨q1, q2, q3, q4, q5, q6, by show d - 1 ≤ 2 * d - 1; omega⟩,
    by show d - 1 + s1.overflow_n ≤ 2 * d - 1; omega⟩, o1, toNode_lev a, tp', _, rfl, b, ?_⟩
  intro z hz
  simp only [LeafNode.toNode, BPNode.leaf.injEq] at hz
  subst hz
  rfl

/-- Source `InternalNode::_split` keeps the heights. -/
theorem inner_split_lev {d : Int} {h : Nat} {self s : InternalNode} {p p' : BPNode} {i : Int}
    (hsp : InternalNode._split d self p i = .ok (s, p')) (hs : KidsLev d h self.c)
    (hp : Lev d (h + 1 + 1) p) :
    KidsLev d h s.c ∧ Lev d (h + 1 + 1) p' ∧
      ∃ tp' rn, p'.asInternal = .ok tp' ∧ rd tp'.c (i + 1) = .ok (some rn) ∧ rn.Flushed := by
  simp only [InternalNode._split] at hsp
  obtain ⟨rk, _, hsp⟩ := bind_ok hsp
  obtain ⟨rc, h1, hsp⟩ := bind_ok hsp
  obtain ⟨tp, h2, hsp⟩ := bind_ok hsp
  obtain ⟨sk, _, hsp⟩ := bind_ok hsp
  obtain ⟨tp', h3, hsp⟩ := bind_ok hsp
  simp only [Except.pure_eq_ok, Except.ok.injEq, Prod.mk.injEq] at hsp
  obtain ⟨e1, e2⟩ := hsp
  subst e1 e2
  obtain ⟨a, b⟩ := inner_insert_lev h3 (asInternal_kidsLev h2 hp) (fun ch hch => by
    simp only [Option.some.injEq] at hch
    subst hch
    apply toNode_lev
    intro y hy
    rcases (copyRange_keeps h1).2 _ hy with e | e
    · exact absurd (List.eq_of_mem_replicate e) (by simp)
    · exact hs y e)
  refine ⟨hs, toNode_lev a, tp', _, rfl, b, ?_⟩
  intro z hz
  simp only [InternalNode.toNode] at hz
  cases hz

/-- The virtual call `self->_split(p, i)` keeps the heights and the capacity of the leaves; both
halves are flushed and the new node is in slot `i + 1` of the parent. -/
theorem node_split_lev {d : Int} (hd : 1 ≤ d) {h : Nat} {self s p p' : BPNode} {i : Int}
    (hsp : self._split d p i = .ok (s, p')) (hs : Lev d h self) (hp : Lev d (h + 1) p) :
    Lev d h s ∧ s.Flushed ∧ Lev d (h + 1) p' ∧
      ∃ tp' rn, p'.asInternal = .ok tp' ∧ rd tp'.c (i + 1) = .ok (some rn) ∧ rn.Flushed := by
  cases self with
  | leaf y =>
    obtain ⟨rfl, hc⟩ := lev_leaf_zero hs
    simp only [BPNode._split] at hsp
    obtain ⟨⟨s1, p1⟩, h1, hsp⟩ := bind_ok hsp
    simp only [Except.pure_eq_ok, Except.ok.injEq, Prod.mk.injEq] at hsp
    obtain ⟨e1, e2⟩ := hsp
    subst e1 e2
    obtain ⟨a, b, c, e⟩ := leaf_split_lev hd h1 hc hp
    refine ⟨lev_leaf.mpr a, ?_, c, e⟩
    intro z hz
    simp only [LeafNode.toNode, BPNode.leaf.injEq] at hz
    subst hz; exact b
  | internal n key c =>
    obtain ⟨h0, rfl, hk⟩ := lev_internal_succ hs
    simp only [BPNode._split] at hsp
    obtain ⟨⟨s1, p1⟩, h1, hsp⟩ := bind_ok hsp
    simp only [Except.pure_eq_ok, Except.ok.injEq, Prod.mk.injEq] at hsp
    obtain ⟨e1, e2⟩ := hsp
    subst e1 e2
    obtain ⟨a, b, e⟩ := inner_split_lev h1 hk hp
    refine ⟨toNode_lev a, ?_, b, e⟩
    intro z hz
    simp only [InternalNode.toNode] at hz
    cases hz

/-- Source `LeafNode::_merge`: the merged leaf is within capacity. -/
theorem leaf_merge_lev {d : Int} {self s : LeafNode} {p p' r : BPNode} {i : Int}
    (h : self._merge d p i r = .ok (s, p')) (hs : self.Cap d) (hp : Lev d 1 p) :
    s.Cap d ∧ Lev d 1 p' := by
  simp only [LeafNode._merge] at h
  obtain ⟨tp, h1, h⟩ := bind_ok h
  obtain ⟨tr, _, h⟩ := bind_ok h
  obtain ⟨s1, h2, h⟩ := bind_ok h
  obtain ⟨tr1, _, h⟩ := bind_ok h
  obtain ⟨s2, h3, h⟩ := bind_ok h
  obtain ⟨s3, h4, h⟩ := bind_ok h
  obtain ⟨tp', h5, h⟩ := bind_ok h
  simp only [Except.pure_eq_ok, Except.ok.injEq, Prod.mk.injEq] at h
  obtain ⟨e1, e2⟩ := h
  subst e1 e2
  have hs1 := (LeafNode.load_fit h2 hs.1).1
  have hs2 : s2.Fit d := by
    refine foldlM_keeps (fun (y : LeafNode) => y.Fit d) _ ?_ _ s1 s2 hs1 h3
    intro b j b' hb hj
    obtain ⟨k1, _, hj⟩ := bind_ok hj
    obtain ⟨v1, _, hj⟩ := bind_ok hj
    exact LeafNode.insert_fit hj hb
  exact ⟨(LeafNode.load_cap h4 hs2).1, toNode_lev (inner_remove_lev h5 (asInternal_kidsLev h1 hp))⟩

/-- Source `InternalNode::_merge` keeps the heights. -/
theorem inner_merge_lev {d : Int} {h : Nat} {self s : InternalNode} {p p' r : BPNode} {i : Int}
    (hm : InternalNode._merge d self p i r = .ok (s, p')) (hs : KidsLev d h self.c)
    (hp : Lev d (h + 1 + 1) p) (hr : Lev d (h + 1) r) :
    KidsLev d h s.c ∧ Lev d (h + 1 + 1) p' := by
  simp only [InternalNode._merge] at hm
  obtain ⟨tp, h1, hm⟩ := bind_ok hm
  obtain ⟨tr, h2, hm⟩ := bind_ok hm
  obtain ⟨sk, _, hm⟩ := bind_ok hm
  obtain ⟨o0, h3, hm⟩ := bind_ok hm
  obtain ⟨s1, h4, hm⟩ := bind_ok hm
  obtain ⟨s2, h5, hm⟩ := bind_ok hm
  obtain ⟨tp', h6, hm⟩ := bind_ok hm
  simp only [Except.pure_eq_ok, Except.ok.injEq, Prod.mk.injEq] at hm
  obtain ⟨e1, e2⟩ := hm
  subst e1 e2
  have hrc := asInternal_kidsLev h2 hr
  have hs1 : KidsLev d h s1.c :=
    (inner_insert_lev h4 hs (fun ch hch => hrc ch (hch ▸ rd_mem h3))).1
  have hs2 : KidsLev d h s2.c := by
    unfold InternalNode._merge_loop at h5
    refine foldlM_keeps (fun (y : InternalNode) => KidsLev d h y.c) _ ?_ _ s1 s2 hs1 h5
    intro b j b' hb hj
    obtain ⟨k1, _, hj⟩ := bind_ok hj
    obtain ⟨oj, h7, hj⟩ := bind_ok hj
    exact (inner_insert_lev hj hb (fun ch hch => hrc ch (hch ▸ rd_mem h7))).1
  exact ⟨hs2, toNode_lev (inner_remove_lev h6 (asInternal_kidsLev h1 hp))⟩

/-- The virtual call `self->_merge(p, i, r)` keeps the heights and the capacity of the leaves. -/
theorem node_merge_lev {d : Int} {h : Nat} {self s p p' r : BPNode} {i : Int}
    (hm : self._merge d p i r = .ok (s, p')) (hs : Lev d h self) (hp : Lev d (h + 1) p)
    (hr : Lev d h r) : Lev d h s ∧ Lev d (h + 1) p' := by
  cases self with
  | leaf y =>
    obtain ⟨rfl, hc⟩ := lev_leaf_zero hs
    simp only [BPNode._merge] at hm
    obtain ⟨⟨s1, p1⟩, h1, hm⟩ := bind_ok hm
    simp only [Except.pure_eq_ok, Except.ok.injEq, Prod.mk.injEq] at hm
    obtain ⟨e1, e2⟩ := hm
    subst e1 e2
    obtain ⟨a, b⟩ := leaf_merge_lev h1 hc hp
    exact ⟨lev_leaf.mpr a, b⟩
  | internal n key c =>
    obtain ⟨h0, rfl, hk⟩ := lev_internal_succ hs
    simp only [BPNode._merge] at hm
    obtain ⟨⟨s1, p1⟩, h1, hm⟩ := bind_ok hm
    simp only [Except.pure_eq_ok, Except.ok.injEq, Prod.mk.injEq] at hm
    obtain ⟨e1, e2⟩ := hm
    subst e1 e2
    obtain ⟨a, b⟩ := inner_merge_lev h1 hk hp hr
    exact ⟨toNode_lev a, b⟩

end BPlusTree

namespace BPlusTree

/-- Source `LeafNode::_borrow_from_left` keeps the leaves within capacity. -/
theorem leaf_borrow_left_lev {d : Int} {self s : LeafNode} {p p' l l' : BPNode} {i : Int}
    (h : self._borrow_from_left p i l = .ok (s, p', l')) (hs : self.Cap d)
    (hp : Lev d 1 p) (hl : Lev d 0 l) : s.Cap d ∧ Lev d 1 p' ∧ Lev d 0 l' := by
  simp only [LeafNode._borrow_from_left] at h
  obtain ⟨tl, h1, h⟩ := bind_ok h
  obtain ⟨tl1, h2, h⟩ := bind_ok h
  obtain ⟨s1, h3, h⟩ := bind_ok h
  obtain ⟨k1, _, h⟩ := bind_ok h
  obtain ⟨v1, _, h⟩ := bind_ok h
  obtain ⟨s2, h4, h⟩ := bind_ok h
  obtain ⟨tl2, h5, h⟩ := bind_ok h
  obtain ⟨k2, _, h⟩ := bind_ok h
  obtain ⟨key', _, h⟩ := bind_ok h
  simp only [Except.pure_eq_ok, Except.ok.injEq, Prod.mk.injEq] at h
  obtain ⟨e1, e2, e3⟩ := h
  subst e1 e2 e3
  rw [asLeaf_ok h1] at hl
  have htl1 := (LeafNode.load_fit h2 (lev_leaf.mp hl).1).1
  obtain ⟨f1, o1⟩ := LeafNode.load_fit h3 hs.1
  obtain ⟨f2, _, o2⟩ := LeafNode.insert_main_fit h4 f1
  refine ⟨⟨f2, ?_⟩, setKey_lev _ hp, lev_leaf.mpr (LeafNode.remove_cap h5 htl1).1⟩
  have := f2.2.2.2.2.2.2
  omega

/-- Source `LeafNode::_borrow_from_right` keeps the leaves within capacity. -/
theorem leaf_borrow_right_lev {d : Int} {self s : LeafNode} {p p' l l' : BPNode} {i : Int}
    (h : self._borrow_from_right p i l = .ok (s, p', l')) (hs : self.Cap d)
    (hp : Lev d 1 p) (hl : Lev d 0 l) : s.Cap d ∧ Lev d 1 p' ∧ Lev d 0 l' := by
  simp only [LeafNode._borrow_from_right] at h
  obtain ⟨tl, h1, h⟩ := bind_ok h
  obtain ⟨tl1, h2, h⟩ := bind_ok h
  obtain ⟨s1, h3, h⟩ := bind_ok h
  obtain ⟨k1, _, h⟩ := bind_ok h
  obtain ⟨v1, _, h⟩ := bind_ok h
  obtain ⟨s2, h4, h⟩ := bind_ok h
  obtain ⟨tl2, h5, h⟩ := bind_ok h
  obtain ⟨k2, _, h⟩ := bind_ok h
  obtain ⟨key', _, h⟩ := bind_ok h
  simp only [Except.pure_eq_ok, Except.ok.injEq, Prod.mk.injEq] at h
  obtain ⟨e1, e2, e3⟩ := h
  subst e1 e2 e3
  rw [asLeaf_ok h1] at hl
  have htl1 := (LeafNode.load_fit h2 (lev_leaf.mp hl).1).1
  obtain ⟨f1, o1⟩ := LeafNode.load_fit h3 hs.1
  obtain ⟨f2, _, o2⟩ := LeafNode.insert_main_fit h4 f1
  refine ⟨⟨f2, ?_⟩, setKey_lev _ hp, lev_leaf.mpr (LeafNode.remove_cap h5 htl1).1⟩
  have := f2.2.2.2.2.2.2
  omega

/-- Source `InternalNode::_borrow_from_left` keeps the heights. -/
theorem inner_borrow_left_lev {d : Int} {h : Nat} {self s : InternalNode} {p p' l l' : BPNode}
    {i : Int} (hb : InternalNode._borrow_from_left self p i l = .ok (s, p', l'))
    (hs : KidsLev d h self.c) (hp : Lev d (h + 1 + 1) p) (hl : Lev d (h + 1) l) :
    KidsLev d h s.c ∧ Lev d (h + 1 + 1) p' ∧ Lev d (h + 1) l' := by
  simp only [InternalNode._borrow_from_left] at hb
  obtain ⟨tl, h1, hb⟩ := bind_ok hb
  obtain ⟨o, h2, hb⟩ := bind_ok hb
  obtain ⟨last, h3, hb⟩ := bind_ok hb
  obtain ⟨last1, h4, hb⟩ := bind_ok hb
  obtain ⟨c1, h5, hb⟩ := bind_ok hb
  obtain ⟨sk, _, hb⟩ := bind_ok hb
  obtain ⟨o2, h6, hb⟩ := bind_ok hb
  obtain ⟨s1, h7, hb⟩ := bind_ok hb
  obtain ⟨kk, _, hb⟩ := bind_ok hb
  obtain ⟨key', _, hb⟩ := bind_ok hb
  obtain ⟨tl2, h8, hb⟩ := bind_ok hb
  simp only [Except.pure_eq_ok, Except.ok.injEq, Prod.mk.injEq] at hb
  obtain ⟨e1, e2, e3⟩ := hb
  subst e1 e2 e3
  have hlc := asInternal_kidsLev h1 hl
  have hlast : Lev d h last := by
    have := deref_ok h3
    subst this
    exact kidsLev_rd h2 hlc
  have hc1 : KidsLev d h c1 := kidsLev_wr h5 hlc (fun x hx => by
    simp only [Option.some.injEq] at hx
    subst hx; exact (loadIfLeaf_lev h4 hlast).1)
  refine ⟨(inner_insert_lev h7 hs (fun ch hch => hc1 ch (hch ▸ rd_mem h6))).1, setKey_lev _ hp, ?_⟩
  exact toNode_lev (inner_remove_lev h8 hc1)

/-- Source `InternalNode::_borrow_from_right` keeps the heights. -/
theorem inner_borrow_right_lev {d : Int} {h : Nat} {self s : InternalNode} {p p' l l' : BPNode}
    {i : Int} (hb : InternalNode._borrow_from_right self p i l = .ok (s, p', l'))
    (hs : KidsLev d h self.c) (hp : Lev d (h + 1 + 1) p) (hl : Lev d (h + 1) l) :
    KidsLev d h s.c ∧ Lev d (h + 1 + 1) p' ∧ Lev d (h + 1) l' := by
  simp only [InternalNode._borrow_from_right] at hb
  obtain ⟨tl, h1, hb⟩ := bind_ok hb
  obtain ⟨o, h2, hb⟩ := bind_ok hb
  obtain ⟨last, h3, hb⟩ := bind_ok hb
  obtain ⟨last1, h4, hb⟩ := bind_ok hb
  obtain ⟨c1, h5, hb⟩ := bind_ok hb
  obtain ⟨sk, _, hb⟩ := bind_ok hb
  obtain ⟨o2, h6, hb⟩ := bind_ok hb
  obtain ⟨s1, h7, hb⟩ := bind_ok hb
  obtain ⟨kk, _, hb⟩ := bind_ok hb
  obtain ⟨key', _, hb⟩ := bind_ok hb
  obtain ⟨tl2, h8, hb⟩ := bind_ok hb
  simp only [Except.pure_eq_ok, Except.ok.injEq, Prod.mk.injEq] at hb
  obtain ⟨e1, e2, e3⟩ := hb
  subst e1 e2 e3
  have hlc := asInternal_kidsLev h1 hl
  have hlast : Lev d h last := by
    have := deref_ok h3
    subst this
    exact kidsLev_rd h2 hlc
  have hc1 : KidsLev d h c1 := kidsLev_wr h5 hlc (fun x hx => by
    simp only [Option.some.injEq] at hx
    subst hx; exact (loadIfLeaf_lev h4 hlast).1)
  refine ⟨(inner_insert_lev h7 hs (fun ch hch => hc1 ch (hch ▸ rd_mem h6))).1, setKey_lev _ hp, ?_⟩
  exact toNode_lev (inner_remove_lev h8 hc1)

/-- The virtual call `self->_borrow_from_left(p, i, l)` keeps the heights and the capacity of the
leaves. -/
theorem node_borrow_left_lev {d : Int} {h : Nat} {self s p p' l l' : BPNode} {i : Int}
    (hb : self._borrow_from_left p i l = .ok (s, p', l')) (hs : Lev d h self)
    (hp : Lev d (h + 1) p) (hl : Lev d h l) : Lev d h s ∧ Lev d (h + 1) p' ∧ Lev d h l' := by
  cases self with
  | leaf y =>
    obtain ⟨rfl, hc⟩ := lev_leaf_zero hs
    simp only [BPNode._borrow_from_left] at hb
    obtain ⟨⟨s1, p1, l1⟩, h1, hb⟩ := bind_ok hb
    simp only [Except.pure_eq_ok, Except.ok.injEq, Prod.mk.injEq] at hb
    obtain ⟨e1, e2, e3⟩ := hb
    subst e1 e2 e3
    obtain ⟨a, b, c⟩ := leaf_borrow_left_lev h1 hc hp hl
    exact ⟨lev_leaf.mpr a, b, c⟩
  | internal n key c =>
    obtain ⟨h0, rfl, hk⟩ := lev_internal_succ hs
    simp only [BPNode._borrow_from_left] at hb
    obtain ⟨⟨s1, p1, l1⟩, h1, hb⟩ := bind_ok hb
    simp only [Except.pure_eq_ok, Except.ok.injEq, Prod.mk.injEq] at hb
    obtain ⟨e1, e2, e3⟩ := hb
    subst e1 e2 e3
    obtain ⟨a, b, c⟩ := inner_borrow_left_lev h1 hk hp hl
    exact ⟨toNode_lev a, b, c⟩

/-- The virtual call `self->_borrow_from_right(p, i, l)` keeps the heights and the capacity of the
leaves. -/
theorem node_borrow_right_lev {d : Int} {h : Nat} {self s p p' l l' : BPNode} {i : Int}
    (hb : self._borrow_from_right p i l = .ok (s, p', l')) (hs : Lev d h self)
    (hp : Lev d (h + 1) p) (hl : Lev d h l) : Lev d h s ∧ Lev d (h + 1) p' ∧ Lev d h l' := by
  cases self with
  | leaf y =>
    obtain ⟨rfl, hc⟩ := lev_leaf_zero hs
    simp only [BPNode._borrow_from_right] at hb
    obtain ⟨⟨s1, p1, l1⟩, h1, hb⟩ := bind_ok hb
    simp only [Except.pure_eq_ok, Except.ok.injEq, Prod.mk.injEq] at hb
    obtain ⟨e1, e2, e3⟩ := hb
    subst e1 e2 e3
    obtain ⟨a, b, c⟩ := leaf_borrow_right_lev h1 hc hp hl
    exact ⟨lev_leaf.mpr a, b, c⟩
  | internal n key c =>
    obtain ⟨h0, rfl, hk⟩ := lev_internal_succ hs
    simp only [BPNode._borrow_from_right] at hb
    obtain ⟨⟨s1, p1, l1⟩, h1, hb⟩ := bind_ok hb
    simp only [Except.pure_eq_ok, Except.ok.injEq, Prod.mk.injEq] at hb
    obtain ⟨e1, e2, e3⟩ := hb
    subst e1 e2 e3
    obtain ⟨a, b, c⟩ := inner_borrow_right_lev h1 hk hp hl
    exact ⟨toNode_lev a, b, c⟩

end BPlusTree

namespace BPlusTree

theorem putChild_flushed {p p' ch : BPNode} {i : Int} (hp' : p.putChild i ch = .ok p') :
    p'.Flushed := by
  simp only [BPNode.putChild] at hp'
  obtain ⟨tp, _, hp'⟩ := bind_ok hp'
  obtain ⟨c1, _, hp'⟩ := bind_ok hp'
  simp only [Except.pure_eq_ok, Except.ok.injEq] at hp'
  subst hp'
  intro z hz
  simp only [InternalNode.toNode] at hz
  cases hz

theorem lev_not_leaf {d : Int} {h : Nat} {p : BPNode} (hp : Lev d h p) (hl : ¬ p.leaf_ = true) :
    ∃ h0, h = h0 + 1 := by
  cases p with
  | leaf x => simp [BPNode.leaf_] at hl
  | internal n key c =>
    obtain ⟨h0, e, _⟩ := lev_internal_succ hp
    exact ⟨h0, e⟩

/-- Source `BPlusTree::_insert` keeps the height of the node and the capacity of every leaf, when
the node it is called on is flushed. -/
theorem insert_tree_lev {d : Int} (hd : 1 ≤ d / 2) : ∀ (f : Nat) (h : Nat) (p p' : BPNode)
    (k v : Int), _insert d f p k v = .ok p' → Lev d h p → p.Flushed → Lev d h p' := by
  have hd1 : 1 ≤ d := by omega
  intro f
  induction f with
  | zero => intro h p p' k v hi; simp only [_insert] at hi; cases hi
  | succ f ih =>
    intro h p p' k v hi hp hfl
    simp only [_insert] at hi
    by_cases hl : p.leaf_ = true
    · rw [if_pos hl] at hi
      obtain ⟨tp, h1, hi⟩ := bind_ok hi
      obtain ⟨x, h2, hi⟩ := bind_ok hi
      simp only [Except.pure_eq_ok, Except.ok.injEq] at hi
      subst hi
      have e := asLeaf_ok h1
      rw [e] at hp
      obtain ⟨rfl, hc⟩ := lev_leaf_zero hp
      exact lev_leaf.mpr (LeafNode.insert_cap hd h2 hc (hfl tp e))
    · rw [if_neg hl] at hi
      simp only [pure_bind] at hi
      obtain ⟨h0, rfl⟩ := lev_not_leaf hp hl
      obtain ⟨tp, h1, hi⟩ := bind_ok hi
      obtain ⟨ki, _, hi⟩ := bind_ok hi
      obtain ⟨ci, _, hi⟩ := bind_ok hi
      obtain ⟨o, h2, hi⟩ := bind_ok hi
      obtain ⟨c, h3, hi⟩ := bind_ok hi
      obtain ⟨c1, h4, hi⟩ := bind_ok hi
      obtain ⟨p1, h5, hi⟩ := bind_ok hi
      have hc : Lev d h0 c := by
        have := deref_ok h3
        subst this
        exact kidsLev_rd h2 (asInternal_kidsLev h1 hp)
      obtain ⟨hc1, fc1⟩ := loadIfLeaf_lev h4 hc
      have hp1 := putChild_lev h5 hp hc1
      by_cases hfull : c1.n ≥ 2 * d - 1
      · rw [if_pos hfull] at hi
        obtain ⟨⟨c2, p2⟩, h6, hi⟩ := bind_ok hi
        simp only at hi
        obtain ⟨p3, h7, hi⟩ := bind_ok hi
        obtain ⟨kk, _, hi⟩ := bind_ok hi
        obtain ⟨hc2, fc2, hp2, tp2, rn, a2, r2, frn⟩ := node_split_lev hd1 h6 hc1 hp1
        have hp3 := putChild_lev h7 hp2 hc2
        by_cases hle : kk ≤ k
        · rw [if_pos hle] at hi
          obtain ⟨tp3, h8, hi⟩ := bind_ok hi
          obtain ⟨o3, h9, hi⟩ := bind_ok hi
          obtain ⟨c3, h10, hi⟩ := bind_ok hi
          obtain ⟨c4, h11, hi⟩ := bind_ok hi
          obtain ⟨p4, h12, hi⟩ := bind_ok hi
          simp only [Except.pure_eq_ok, Except.ok.injEq] at hi
          subst hi
          have e3 := deref_ok h10
          subst e3
          have hc3 : Lev d h0 c3 := kidsLev_rd h9 (asInternal_kidsLev h8 hp3)
          have fc3 : c3.Flushed := by
            have e := putChild_other h7 a2 h8 (show ci + 1 ≠ ci by omega)
            rw [h9, r2] at e
            simp only [Except.ok.injEq, Option.some.injEq] at e
            rw [e]; exact frn
          exact putChild_lev h12 hp3 (ih _ _ _ _ _ h11 hc3 fc3)
        · rw [if_neg hle] at hi
          obtain ⟨c4, h11, hi⟩ := bind_ok hi
          obtain ⟨p4, h12, hi⟩ := bind_ok hi
          simp only [Except.pure_eq_ok, Except.ok.injEq] at hi
          subst hi
          exact putChild_lev h12 hp3 (ih _ _ _ _ _ h11 hc2 fc2)
      · rw [if_neg hfull] at hi
        obtain ⟨c4, h11, hi⟩ := bind_ok hi
        exact putChild_lev hi hp1 (ih _ _ _ _ _ h11 hc1 fc1)

/-- Source `BPlusTree::insert` keeps all leaves at one depth and within capacity. -/
theorem insert_lev {d : Int} (hd : 1 ≤ d / 2) {fuel : Nat} {h : Nat} {tr tr' : BPlusTree}
    {k v : Int} (hi : insert d fuel tr k v = .ok tr') (ht : TreeLev d h tr) :
    ∃ h', TreeLev d h' tr' := by
  have hd1 : 1 ≤ d := by omega
  simp only [insert] at hi
  obtain ⟨root, h1, hi⟩ := bind_ok hi
  have hroot : ∃ h1, Lev d h1 root ∧ root.Flushed := by
    cases hr : tr.root_ with
    | none =>
      rw [hr] at h1
      exact ⟨0, loadIfLeaf_lev h1 (lev_leaf.mpr (LeafNode.new_cap d hd1))⟩
    | some r =>
      rw [hr] at h1
      exact ⟨h, loadIfLeaf_lev h1 (ht r hr)⟩
  obtain ⟨hh, hroot, froot⟩ := hroot
  by_cases hfull : root.n = 2 * d - 1
  · rw [if_pos hfull] at hi
    obtain ⟨c0, h2, hi⟩ := bind_ok hi
    obtain ⟨⟨root1, r1⟩, h3, hi⟩ := bind_ok hi
    simp only at hi
    obtain ⟨r2, h4, hi⟩ := bind_ok hi
    obtain ⟨r3, h5, hi⟩ := bind_ok hi
    simp only [Except.pure_eq_ok, Except.ok.injEq] at hi
    subst hi
    refine ⟨hh + 1, ?_⟩
    intro r hr
    simp only [Option.some.injEq] at hr
    subst hr
    have hc0 : KidsLev d hh c0 := kidsLev_wr h2 (kidsLev_replicate d _ _) (fun x hx => by
      simp only [Option.some.injEq] at hx
      subst hx; exact hroot)
    obtain ⟨a, _, b, _⟩ := node_split_lev hd1 h3 hroot (toNode_lev hc0)
    exact insert_tree_lev hd _ _ _ _ _ _ h5 (putChild_lev h4 b a) (putChild_flushed h4)
  · rw [if_neg hfull] at hi
    simp only [pure_bind] at hi
    obtain ⟨r3, h5, hi⟩ := bind_ok hi
    simp only [Except.pure_eq_ok, Except.ok.injEq] at hi
    subst hi
    refine ⟨hh, ?_⟩
    intro r hr
    simp only [Option.some.injEq] at hr
    subst hr
    exact insert_tree_lev hd _ _ _ _ _ _ h5 hroot froot

end BPlusTree

namespace BPlusTree

/-- Source `BPlusTree::_search` keeps the heights and the capacity of all leaves. -/
theorem search_tree_lev {d : Int} : ∀ (f : Nat) (h : Nat) (o o' : Option BPNode) (k : Int)
    (res : Option Int), _search f o k = .ok (o', res) → (∀ x, o = some x → Lev d h x) →
    ∀ x, o' = some x → Lev d h x := by
  intro f
  induction f with
  | zero => intro h o o' k res hs; simp only [_search] at hs; cases hs
  | succ f ih =>
    intro h o o' k res hs ho
    cases o with
    | none =>
      simp only [_search, Except.pure_eq_ok, Except.ok.injEq, Prod.mk.injEq] at hs
      intro x hx
      rw [← hs.1] at hx
      cases hx
    | some p =>
      have hp := ho p rfl
      simp only [_search] at hs
      by_cases hl : p.leaf_ = true
      · rw [if_pos hl] at hs
        obtain ⟨tp, h1, hs⟩ := bind_ok hs
        obtain ⟨tp1, h2, hs⟩ := bind_ok hs
        obtain ⟨i, _, hs⟩ := bind_ok hs
        rw [asLeaf_ok h1] at hp
        obtain ⟨rfl, hc⟩ := lev_leaf_zero hp
        have htp1 : Lev d 0 tp1.toNode := lev_leaf.mpr (LeafNode.load_cap h2 hc.1).1
        have key : o' = some tp1.toNode := by
          by_cases hi : i < tp1.n
          · rw [if_pos hi] at hs
            obtain ⟨kk, _, hs⟩ := bind_ok hs
            by_cases hk : k = kk
            · rw [if_pos hk] at hs
              obtain ⟨vv, _, hs⟩ := bind_ok hs
              simp only [Except.pure_eq_ok, Except.ok.injEq, Prod.mk.injEq] at hs
              exact hs.1.symm
            · rw [if_neg hk] at hs
              simp only [pure_bind, Except.pure_eq_ok, Except.ok_bind, Except.ok.injEq,
                Prod.mk.injEq] at hs
              exact hs.1.symm
          · rw [if_neg hi] at hs
            simp only [pure_bind, Except.pure_eq_ok, Except.ok_bind, Except.ok.injEq,
              Prod.mk.injEq] at hs
            exact hs.1.symm
        intro x hx
        rw [key] at hx
        simp only [Option.some.injEq] at hx
        subst hx
        exact htp1
      · rw [if_neg hl] at hs
        simp only [pure_bind] at hs
        obtain ⟨h0, rfl⟩ := lev_not_leaf hp hl
        obtain ⟨tp, h1, hs⟩ := bind_ok hs
        obtain ⟨i, _, hs⟩ := bind_ok hs
        obtain ⟨ci, _, hs⟩ := bind_ok hs
        obtain ⟨c, h2, hs⟩ := bind_ok hs
        obtain ⟨⟨c1, res1⟩, h3, hs⟩ := bind_ok hs
        simp only at hs
        obtain ⟨cs, h4, hs⟩ := bind_ok hs
        simp only [Except.pure_eq_ok, Except.ok.injEq, Prod.mk.injEq] at hs
        obtain ⟨e1, e2⟩ := hs
        subst e1
        have hkids := asInternal_kidsLev h1 hp
        have hc1 := ih _ _ _ _ _ h3 (fun x hx => hkids x (hx ▸ rd_mem h2))
        intro x hx
        simp only [Option.some.injEq] at hx
        subst hx
        exact toNode_lev (kidsLev_wr h4 hkids hc1)

/-- Source `BPlusTree::search` keeps the heights and the capacity of all leaves. -/
theorem search_lev {d : Int} {fuel : Nat} {h : Nat} {tr tr' : BPlusTree} {k : Int}
    {res : Option Int} (hs : search fuel tr k = .ok (tr', res)) (ht : TreeLev d h tr) :
    TreeLev d h tr' := by
  simp only [search] at hs
  obtain ⟨⟨r1, res1⟩, h1, hs⟩ := bind_ok hs
  simp only [Except.pure_eq_ok, Except.ok.injEq, Prod.mk.injEq] at hs
  obtain ⟨e1, e2⟩ := hs
  subst e1
  exact search_tree_lev _ _ _ _ _ _ h1 ht

theorem sibling_lev {d : Int} {h : Nat} {c : List (Option BPNode)} {j : Int} {cond : Prop}
    [Decidable cond] {o : Option BPNode} (hs : (if cond then rd c j else pure none) = .ok o)
    (hc : KidsLev d h c) : ∀ x, o = some x → Lev d h x := by
  intro x hx
  subst hx
  by_cases hcd : cond
  · rw [if_pos hcd] at hs
    exact kidsLev_rd hs hc
  · rw [if_neg hcd] at hs
    cases hs

theorem putSome_lev {d : Int} {h : Nat} {p p' : BPNode} {j : Int} {o : Option BPNode}
    (hs : (match o with
      | some l => p.putChild j l
      | none => pure p) = .ok p') (hp : Lev d (h + 1) p) (ho : ∀ x, o = some x → Lev d h x) :
    Lev d (h + 1) p' := by
  cases o with
  | none =>
    simp only [Except.pure_eq_ok, Except.ok.injEq] at hs
    subst hs
    exact hp
  | some l =>
    simp only at hs
    exact putChild_lev hs hp (ho l rfl)

end BPlusTree

namespace BPlusTree

/-- Source `BPlusTree::_remove` keeps the height of the node and the capacity of every leaf. -/
theorem remove_tree_lev {d : Int} : ∀ (f : Nat) (hh : Nat) (p p' : BPNode) (k : Int),
    _remove d f p k = .ok p' → Lev d hh p → Lev d hh p' := by
  intro f
  induction f with
  | zero => intro hh p p' k h; simp only [_remove] at h; cases h
  | succ f ih =>
    intro hh p p' k h hp
    simp only [_remove] at h
    by_cases hl : p.leaf_ = true
    · rw [if_pos hl] at h
      obtain ⟨tp, h1, h⟩ := bind_ok h
      obtain ⟨tp1, h2, h⟩ := bind_ok h
      obtain ⟨i, _, h⟩ := bind_ok h
      obtain ⟨tp2, h3, h⟩ := bind_ok h
      simp only [Except.pure_eq_ok, Except.ok.injEq] at h
      subst h
      rw [asLeaf_ok h1] at hp
      obtain ⟨rfl, hc⟩ := lev_leaf_zero hp
      exact lev_leaf.mpr (LeafNode.remove_cap h3 (LeafNode.load_fit h2 hc.1).1).1
    · rw [if_neg hl] at h
      simp only [pure_bind] at h
      obtain ⟨h0, rfl⟩ := lev_not_leaf hp hl
      obtain ⟨tp, h1, h⟩ := bind_ok h
      obtain ⟨i, _, h⟩ := bind_ok h
      obtain ⟨ci, _, h⟩ := bind_ok h
      obtain ⟨o, h2, h⟩ := bind_ok h
      obtain ⟨c, h3, h⟩ := bind_ok h
      obtain ⟨c1, h4, h⟩ := bind_ok h
      obtain ⟨p1, h5, h⟩ := bind_ok h
      have hkids := asInternal_kidsLev h1 hp
      have hc : Lev d h0 c := by
        have := deref_ok h3
        subst this
        exact kidsLev_rd h2 hkids
      have hc1 := (loadIfLeaf_lev h4 hc).1
      have hp1 := putChild_lev h5 hp hc1
      by_cases hmin : d - 1 = c1.n
      · rw [if_pos hmin] at h
        rw [if_bind_back] at h
        obtain ⟨l0, h6, h⟩ := bind_ok h
        rw [if_bind_back] at h
        obtain ⟨r0, h7, h⟩ := bind_ok h
        obtain ⟨l, h8, h⟩ := bind_ok h
        obtain ⟨r, h9, h⟩ := bind_ok h
        have hl' := loadSibling_lev h8 (sibling_lev h6 hkids)
        have hr' := loadSibling_lev h9 (sibling_lev h7 hkids)
        cases l with
        | some lv =>
          simp only at h
          have hlv := hl' lv rfl
          obtain ⟨p2, h10, h⟩ := bind_ok h
          have hp2 := putChild_lev h10 hp1 hlv
          cases r with
          | some rv =>
            simp only at h
            have hrv := hr' rv rfl
            obtain ⟨p3, h11, h⟩ := bind_ok h
            have hp3 := putChild_lev h11 hp2 hrv
            by_cases hb : lv.n > d - 1
            · rw [if_pos hb] at h
              obtain ⟨⟨c2, p4, l2⟩, h12, h⟩ := bind_ok h
              simp only at h
              obtain ⟨p5, h13, h⟩ := bind_ok h
              obtain ⟨c3, h14, h⟩ := bind_ok h
              obtain ⟨a1, a2, a3⟩ := node_borrow_left_lev h12 hc1 hp3 hlv
              exact putChild_lev h (putChild_lev h13 a2 a3) (ih _ _ _ _ h14 a1)
            · rw [if_neg hb] at h
              by_cases hb2 : decide (rv.n > d - 1) = true
              · rw [if_pos hb2] at h
                obtain ⟨rv1, h15, h⟩ := bind_ok h
                have := deref_ok h15
                simp only [Option.some.injEq] at this
                subst this
                obtain ⟨⟨c2, p4, r2⟩, h12, h⟩ := bind_ok h
                simp only at h
                obtain ⟨p5, h13, h⟩ := bind_ok h
                obtain ⟨c3, h14, h⟩ := bind_ok h
                obtain ⟨a1, a2, a3⟩ := node_borrow_right_lev h12 hc1 hp3 hrv
                exact putChild_lev h (putChild_lev h13 a2 a3) (ih _ _ _ _ h14 a1)
              · rw [if_neg hb2] at h
                obtain ⟨⟨l2, p4⟩, h12, h⟩ := bind_ok h
                simp only at h
                obtain ⟨l3, h14, h⟩ := bind_ok h
                obtain ⟨a1, a2⟩ := node_merge_lev h12 hlv hp3 hc1
                exact putChild_lev h a2 (ih _ _ _ _ h14 a1)
          | none =>
            simp only at h
            by_cases hb : lv.n > d - 1
            · rw [if_pos hb] at h
              obtain ⟨⟨c2, p4, l2⟩, h12, h⟩ := bind_ok h
              simp only at h
              obtain ⟨p5, h13, h⟩ := bind_ok h
              obtain ⟨c3, h14, h⟩ := bind_ok h
              obtain ⟨a1, a2, a3⟩ := node_borrow_left_lev h12 hc1 hp2 hlv
              exact putChild_lev h (putChild_lev h13 a2 a3) (ih _ _ _ _ h14 a1)
            · rw [if_neg hb] at h
              simp only [Bool.false_eq_true, if_false] at h
              obtain ⟨⟨l2, p4⟩, h12, h⟩ := bind_ok h
              simp only at h
              obtain ⟨l3, h14, h⟩ := bind_ok h
              obtain ⟨a1, a2⟩ := node_merge_lev h12 hlv hp2 hc1
              exact putChild_lev h a2 (ih _ _ _ _ h14 a1)
        | none =>
          simp only at h
          cases r with
          | some rv =>
            simp only at h
            have hrv := hr' rv rfl
            obtain ⟨p3, h11, h⟩ := bind_ok h
            have hp3 := putChild_lev h11 hp1 hrv
            by_cases hb : rv.n > d - 1
            · rw [if_pos hb] at h
              obtain ⟨⟨c2, p4, r2⟩, h12, h⟩ := bind_ok h
              simp only at h
              obtain ⟨p5, h13, h⟩ := bind_ok h
              obtain ⟨c3, h14, h⟩ := bind_ok h
              obtain ⟨a1, a2, a3⟩ := node_borrow_right_lev h12 hc1 hp3 hrv
              exact putChild_lev h (putChild_lev h13 a2 a3) (ih _ _ _ _ h14 a1)
            · rw [if_neg hb] at h
              obtain ⟨⟨c2, p4⟩, h12, h⟩ := bind_ok h
              simp only at h
              obtain ⟨c3, h14, h⟩ := bind_ok h
              obtain ⟨a1, a2⟩ := node_merge_lev h12 hc1 hp3 hrv
              exact putChild_lev h a2 (ih _ _ _ _ h14 a1)
          | none =>
            simp only at h
            cases h
      · rw [if_neg hmin] at h
        obtain ⟨c4, h11, h⟩ := bind_ok h
        exact putChild_lev h hp1 (ih _ _ _ _ h11 hc1)

end BPlusTree

namespace BPlusTree

/-- Source `BPlusTree::remove` keeps all leaves at one depth and within capacity. -/
theorem remove_lev {d : Int} {fuel : Nat} {hh : Nat} {tr tr' : BPlusTree} {k : Int} {b : Bool}
    (h : remove d fuel tr k = .ok (tr', b)) (ht : TreeLev d hh tr) : ∃ h', TreeLev d h' tr' := by
  simp only [remove] at h
  obtain ⟨⟨t1, found⟩, h1, h⟩ := bind_ok h
  simp only at h
  have ht1 : TreeLev d hh t1 := search_lev h1 ht
  by_cases hf : found.isNone = true
  · rw [if_pos hf] at h
    simp only [Except.pure_eq_ok, Except.ok.injEq, Prod.mk.injEq] at h
    rw [← h.1]
    exact ⟨hh, ht1⟩
  · rw [if_neg hf] at h
    simp only [pure_bind] at h
    obtain ⟨root, h2, h⟩ := bind_ok h
    have hroot : Lev d hh root := ht1 root (deref_ok h2)
    have fin : ∀ (g : Nat) root1, Lev d g root1 →
        (_remove d fuel root1 k >>= fun x => (pure (⟨some x⟩, true) : Except Err (BPlusTree × Bool)))
          = .ok (tr', b) → ∃ h', TreeLev d h' tr' := by
      intro g root1 hroot1 h
      obtain ⟨r2, h4, h⟩ := bind_ok h
      simp only [Except.pure_eq_ok, Except.ok.injEq, Prod.mk.injEq] at h
      obtain ⟨e1, e2⟩ := h
      subst e1
      refine ⟨g, ?_⟩
      intro r hr
      simp only [Option.some.injEq] at hr
      subst hr
      exact remove_tree_lev _ _ _ _ _ h4 hroot1
    by_cases hc : root.n = 1 ∧ (!root.leaf_) = true
    · rw [if_pos hc] at h
      obtain ⟨h0, rfl⟩ := lev_not_leaf hroot (by simpa using hc.2)
      obtain ⟨trn, h5, h⟩ := bind_ok h
      obtain ⟨o1, h6, h⟩ := bind_ok h
      obtain ⟨l, h7, h⟩ := bind_ok h
      obtain ⟨o2, h8, h⟩ := bind_ok h
      obtain ⟨r, h9, h⟩ := bind_ok h
      have hkids := asInternal_kidsLev h5 hroot
      have hl : Lev d h0 l := by
        have := deref_ok h7
        subst this
        exact kidsLev_rd h6 hkids
      have hr : Lev d h0 r := by
        have := deref_ok h9
        subst this
        exact kidsLev_rd h8 hkids
      by_cases hm : d - 1 = l.n ∧ d - 1 = r.n
      · rw [if_pos hm] at h
        obtain ⟨⟨l1, p1⟩, h10, h⟩ := bind_ok h
        exact fin _ _ (node_merge_lev h10 hl hroot hr).1 h
      · rw [if_neg hm] at h
        exact fin _ _ hroot h
    · rw [if_neg hc] at h
      exact fin _ _ hroot h

/-- One call of `insert` or `remove` keeps all leaves at one depth and within capacity. -/
theorem applyCall_lev {d : Int} (hd : 1 ≤ d / 2) {fuel : Nat} {tr tr' : BPlusTree} {op : Call}
    (h : applyCall d fuel tr op = .ok tr') (ht : ∃ g, TreeLev d g tr) : ∃ g, TreeLev d g tr' := by
  obtain ⟨g, ht⟩ := ht
  cases op with
  | ins k v => exact insert_lev hd h ht
  | rem k =>
    simp only [applyCall] at h
    obtain ⟨⟨t1, b⟩, h1, h⟩ := bind_ok h
    simp only [Except.pure_eq_ok, Except.ok.injEq] at h
    subst h
    exact remove_lev h1 ht

/-- In every tree reached by a completed history of calls all leaves are at one depth and
within capacity. -/
theorem runCalls_lev {d : Int} (hd : 1 ≤ d / 2) {fuel : Nat} {tr tr' : BPlusTree}
    {ops : List Call} (h : runCalls d fuel tr ops = .ok tr') (ht : ∃ g, TreeLev d g tr) :
    ∃ g, TreeLev d g tr' :=
  foldlM_keeps (fun t => ∃ g, TreeLev d g t) (applyCall d fuel)
    (fun t op t' hI e => applyCall_lev hd e hI) ops tr tr' ht h

/-- A node under a node of height `h` has a smaller height. -/
theorem lev_under {d : Int} {r x : BPNode} (hu : Under r x) : ∀ {h : Nat}, Lev d h r →
    ∃ g, Lev d g x := by
  induction hu with
  | kid n key c x hm =>
    intro h hr
    obtain ⟨h0, _, hk⟩ := lev_internal_succ hr
    exact ⟨h0, hk x (List.mem_of_mem_take hm)⟩
  | deeper n key c y x hm _ ih =>
    intro h hr
    obtain ⟨h0, _, hk⟩ := lev_internal_succ hr
    exact ih (hk y (List.mem_of_mem_take hm))

/-- A node reached in `j` steps from a node of height `h` has height `h - j`. -/
theorem lev_underAt {d : Int} {r x : BPNode} {j : Nat} (hu : UnderAt r j x) : ∀ {h : Nat},
    Lev d h r → ∃ g, h = g + j ∧ Lev d g x := by
  induction hu with
  | kid n key c x hm =>
    intro h hr
    obtain ⟨h0, e, hk⟩ := lev_internal_succ hr
    exact ⟨h0, e, hk x (List.mem_of_mem_take hm)⟩
  | deeper n key c y j x hm _ ih =>
    intro h hr
    obtain ⟨h0, e, hk⟩ := lev_internal_succ hr
    obtain ⟨g, e2, hx⟩ := ih (hk y (List.mem_of_mem_take hm))
    exact ⟨g, by omega, hx⟩

/-- Under a node of height `h` every leaf is reached in exactly `h` steps. -/
theorem lev_leaf_depth {d : Int} {r : BPNode} {y : LeafNode} {j h : Nat}
    (hu : UnderAt r j (.leaf y)) (hr : Lev d h r) : j = h := by
  obtain ⟨g, e, hx⟩ := lev_underAt hu hr
  have := (lev_leaf_zero hx).1
  omega

/-- Every leaf of a tree with the level invariant is within capacity. -/
theorem lev_leaf_cap {d : Int} {r : BPNode} {y : LeafNode} {h : Nat} (hr : Lev d h r)
    (hy : r = .leaf y ∨ Under r (.leaf y)) : y.Cap d := by
  rcases hy with e | hu
  · rw [e] at hr
    exact (lev_leaf_zero hr).2
  · obtain ⟨g, hx⟩ := lev_under hu hr
    exact (lev_leaf_zero hx).2

end BPlusTree

namespace BTree

/-- A node reached in `j` steps from a well-formed node of height `h` is well formed of height
`h - j`. -/
theorem wf_belowAt {t : Int} {x y : Node} {j : Nat} (hb : BelowAt x j y) :
    ∀ {h : Nat}, WF t h x → ∃ g, h = g + j ∧ WF t g y := by
  induction hb with
  | kid x c hl hm =>
    intro h hw
    cases h with
    | zero =>
      have hl1 : x.leaf = true := hw.2
      rw [hl] at hl1
      exact absurd hl1 (by decide)
    | succ h0 =>
      obtain ⟨ch, e, hcw, _⟩ := hw.2.2 _ hm
      simp only [Option.some.injEq] at e
      subst e
      exact ⟨h0, rfl, hcw⟩
  | deeper x c j y hl hm _ ih =>
    intro h hw
    cases h with
    | zero =>
      have hl1 : x.leaf = true := hw.2
      rw [hl] at hl1
      exact absurd hl1 (by decide)
    | succ h0 =>
      obtain ⟨ch, e, hcw, _⟩ := hw.2.2 _ hm
      simp only [Option.some.injEq] at e
      subst e
      obtain ⟨g, e2, hy⟩ := ih hcw
      exact ⟨g, by omega, hy⟩

/-- A well-formed node with the leaf flag has height zero. -/
theorem wf_leaf_zero {t : Int} {h : Nat} {x : Node} (hw : WF t h x) (hl : x.leaf = true) :
    h = 0 := by
  cases h with
  | zero => rfl
  | succ h0 =>
    have hl1 : x.leaf = false := hw.2.1
    rw [hl] at hl1
    exact absurd hl1 (by decide)

/-- A history with no `remove` on an empty tree runs to completion and keeps the root well
formed; keys may be inserted any number of times. -/
theorem held_inv (t : Int) (ht : 2 ≤ t) : ∀ (ops : List Call) (L : List Int)
    (fuel : Nat) (tr : BTree) (h : Nat) (r : Node), tr.root_ = some r → WF t h r →
    SortedKV (inorder h (some r)) → ((inorder h (some r)).map Prod.fst).Perm L →
    Held L ops → 4 * (h + ops.length) + 2 ≤ fuel →
    ∃ tr' r' h', runCalls t fuel tr ops = .ok tr' ∧ tr'.root_ = some r' ∧ WF t h' r' ∧
      h' ≤ h + ops.length := by
  intro ops
  induction ops with
  | nil =>
    intro L fuel tr h r hr hw _ _ _ _
    exact ⟨tr, r, h, rfl, hr, hw, by simp⟩
  | cons op ops ih =>
    intro L fuel tr h r hr hw hs hp hl hf
    simp only [List.length_cons] at hf
    cases op with
    | ins k v =>
      obtain ⟨tr1, r1, h1, E1, hr1, hw1, hh1, l1, l2, hL, hL', hl1, hl2⟩ :=
        insert_spec t ht h fuel tr r k v hr hw hs (by omega)
      have hs1 : SortedKV (inorder h1 (some r1)) := by
        rw [hL']; rw [hL] at hs
        exact hs.insert_mid hl1 hl2
      have hp1 : ((inorder h1 (some r1)).map Prod.fst).Perm (k :: L) := by
        rw [hL']
        rw [hL] at hp
        simp only [List.map_append, List.map_cons] at hp ⊢
        exact List.perm_middle.trans (List.Perm.cons _ hp)
      obtain ⟨tr2, r2, h2, E2, hr2, hw2, hh2⟩ :=
        ih (k :: L) fuel tr1 h1 r1 hr1 hw1 hs1 hp1 hl (by omega)
      refine ⟨tr2, r2, h2, ?_, hr2, hw2, by simp only [List.length_cons]; omega⟩
      simp only [runCalls, List.foldlM_cons, applyCall, E1, Except.ok_bind] at E2 ⊢
      exact E2
    | rem k =>
      obtain ⟨hne, hl'⟩ := hl
      have hne' : inorder h (some r) ≠ [] := by
        intro h0; rw [h0] at hp
        exact hne (List.Perm.eq_nil hp.symm)
      obtain ⟨tr1, r1, h1, res, E1, hr1, hw1, hh1, hR⟩ :=
        remove_root_spec t ht h fuel tr r k hr hw hs hne' (by omega)
      have hsp : SortedKV (inorder h1 (some r1)) ∧
          ((inorder h1 (some r1)).map Prod.fst).Perm (L.erase k) := by
        rcases hR with ⟨_, e, hno⟩ | ⟨_, hs1, _, hpk⟩
        · rw [e]
          refine ⟨hs, ?_⟩
          have hk : k ∉ L := by
            intro hk
            obtain ⟨p, hp1, hp2⟩ := List.mem_map.mp (hp.mem_iff.mpr hk)
            exact hno p hp1 hp2
          rw [List.erase_of_not_mem hk]
          exact hp
        · refine ⟨hs1, ?_⟩
          have := (hpk.symm.trans hp).erase k
          rw [List.erase_cons_head] at this
          exact this
      obtain ⟨tr2, r2, h2, E2, hr2, hw2, hh2⟩ :=
        ih _ fuel tr1 h1 r1 hr1 hw1 hsp.1 hsp.2 hl' (by omega)
      refine ⟨tr2, r2, h2, ?_, hr2, hw2, by simp only [List.length_cons]; omega⟩
      simp only [runCalls, List.foldlM_cons, applyCall, E1, Except.ok_bind,
        Except.pure_eq_ok] at E2 ⊢
      exact E2

end BTree

/-- C2: for every list of pairs with pairwise distinct keys, inserting the pairs in list order
into a newly constructed in-memory `BTree` (degree `t = 16`) runs to completion whenever the
recursion budget exceeds the number of pairs; afterwards `contains k` is true and `search k`
returns exactly the value inserted with `k` for every key of the list, and `search k'` is empty
(and `contains k'` false) for every key that is not in the list. -/
theorem C2_insert_search_round_trip (kvs : List (Int × Int)) (fuel : Nat)
    (hd : (kvs.map Prod.fst).Nodup) (hf : kvs.length < fuel) :
    ∃ tr, BTree.insertAll BTree.t fuel (BTree.new BTree.t) kvs = .ok tr ∧
      (∀ p ∈ kvs, BTree.search fuel tr p.1 = .ok (some p.2) ∧
        BTree.contains fuel tr p.1 = .ok true) ∧
      (∀ k, k ∉ kvs.map Prod.fst → BTree.search fuel tr k = .ok none ∧
        BTree.contains fuel tr k = .ok false) :=
  BTree.round_trip BTree.t (by decide) kvs fuel hd hf

theorem C2_insert_search_round_trip_witness :
    ([((1 : Int), (7 : Int)), (2, 8)].map Prod.fst).Nodup ∧
    [((1 : Int), (7 : Int)), (2, 8)].length < 3 ∧
    ∃ tr, BTree.insertAll BTree.t 3 (BTree.new BTree.t) [(1, 7), (2, 8)] = .ok tr ∧
      (∀ p ∈ [((1 : Int), (7 : Int)), (2, 8)], BTree.search 3 tr p.1 = .ok (some p.2) ∧
        BTree.contains 3 tr p.1 = .ok true) ∧
      (∀ k, k ∉ [((1 : Int), (7 : Int)), (2, 8)].map Prod.fst → BTree.search 3 tr k = .ok none ∧
        BTree.contains 3 tr k = .ok false) :=
  ⟨by decide, by decide, C2_insert_search_round_trip [(1, 7), (2, 8)] 3 (by decide) (by decide)⟩

/-- C4: let a history of `insert` and `remove` calls be applied to a newly constructed in-memory
`BTree` (degree `t = 16`), every insert being of a key not currently present and every remove
being issued while the tree holds a key, and let the tree hold at least one key at the end. Then
the history runs to completion (given a recursion budget of `4 * length + 2`), and for every key
`k` the call `remove k` on the tree so reached returns true exactly when `contains k` held
before the call; after the call `contains k` is false and `search j` returns the same result as
before for every key `j` different from `k`. -/
theorem C4_remove_is_map_deletion (ops : List Call) (fuel : Nat) (k : Int)
    (hl : Legal [] ops) (hne : contents [] ops ≠ []) (hf : 4 * ops.length + 2 ≤ fuel) :
    ∃ tr b tr', BTree.runCalls BTree.t fuel (BTree.new BTree.t) ops = .ok tr ∧
      BTree.contains fuel tr k = .ok b ∧
      BTree.remove BTree.t fuel tr k = .ok (tr', b) ∧
      BTree.contains fuel tr' k = .ok false ∧
      ∀ j, j ≠ k → BTree.search fuel tr' j = BTree.search fuel tr j :=
  BTree.remove_is_deletion BTree.t (by decide) ops fuel k hl hne hf

theorem C4_remove_is_map_deletion_witness :
    Legal [] [Call.ins 1 7, Call.ins 2 8] ∧ contents [] [Call.ins 1 7, Call.ins 2 8] ≠ [] ∧
    4 * [Call.ins 1 7, Call.ins 2 8].length + 2 ≤ 10 ∧
    ∃ tr b tr', BTree.runCalls BTree.t 10 (BTree.new BTree.t) [Call.ins 1 7, Call.ins 2 8]
        = .ok tr ∧
      BTree.contains 10 tr 1 = .ok b ∧
      BTree.remove BTree.t 10 tr 1 = .ok (tr', b) ∧
      BTree.contains 10 tr' 1 = .ok false ∧
      ∀ j, j ≠ 1 → BTree.search 10 tr' j = BTree.search 10 tr j :=
  ⟨by simp [Legal], by simp [contents, Call.apply], by decide,
    C4_remove_is_map_deletion [Call.ins 1 7, Call.ins 2 8] 10 1 (by simp [Legal])
      (by simp [contents, Call.apply]) (by decide)⟩

/-- C5: for every list of keys (repeats allowed) and every function `f` that makes the value of
a key, inserting each key `k` of the list with the value `f k`, in list order, into a new
disk-resident `BTree` (degree `t = 16`) runs to completion whenever the recursion budget exceeds
the number of keys; afterwards, for every key `k` of the list, `contains k` is true and
`search k` returns `f k`, the value recording `k`. -/
theorem C5_disk_insert_search_round_trip (f : Int → Int) (ks : List Int) (fuel : Nat)
    (hf : ks.length < fuel) :
    ∃ s, DiskBTree.insertAll DiskBTree.t fuel DiskBTree.new (ks.map (fun k => (k, f k))) = .ok s ∧
      ∀ k ∈ ks, DiskBTree.contains DiskBTree.t fuel s k = .ok true ∧
        DiskBTree.search DiskBTree.t fuel s k = .ok (some (f k)) :=
  DiskBTree.disk_round_trip DiskBTree.t (by decide) f ks fuel hf

theorem C5_disk_insert_search_round_trip_witness :
    [(3 : Int), 1, 3].length < 4 ∧
    ∃ s, DiskBTree.insertAll DiskBTree.t 4 DiskBTree.new
        ([(3 : Int), 1, 3].map (fun k => (k, k + 10))) = .ok s ∧
      ∀ k ∈ [(3 : Int), 1, 3], DiskBTree.contains DiskBTree.t 4 s k = .ok true ∧
        DiskBTree.search DiskBTree.t 4 s k = .ok (some (k + 10)) :=
  ⟨by decide, C5_disk_insert_search_round_trip (fun k => k + 10) [3, 1, 3] 4 (by decide)⟩

/-- C6: for every non-empty list of keys (repeats allowed), the keys are inserted in list order
into a new disk-resident `BTree` (degree `t = 16`), each with the value `f` makes of it, and
then `remove` is called on each element of the list in the same order: both runs complete (given
a recursion budget of `4 * length + 2`) and every `remove` returns true. -/
theorem C6_disk_remove_returns_true (f : Int → Int) (ks : List Int) (fuel : Nat)
    (hne : ks ≠ []) (hf : 4 * ks.length + 2 ≤ fuel) :
    ∃ s s', DiskBTree.insertAll DiskBTree.t fuel DiskBTree.new (ks.map (fun k => (k, f k)))
        = .ok s ∧
      DiskBTree.removeAll DiskBTree.t fuel s ks = .ok (s', List.replicate ks.length true) :=
  DiskBTree.disk_remove_all DiskBTree.t (by decide) f ks fuel hne hf

theorem C6_disk_remove_returns_true_witness :
    ([3, 1, 3] : List Int) ≠ [] ∧ 4 * ([3, 1, 3] : List Int).length + 2 ≤ 14 ∧
    ∃ s s', DiskBTree.insertAll DiskBTree.t 14 DiskBTree.new
        (([3, 1, 3] : List Int).map (fun k => (k, k + 10))) = .ok s ∧
      DiskBTree.removeAll DiskBTree.t 14 s [3, 1, 3]
        = .ok (s', List.replicate ([3, 1, 3] : List Int).length true) :=
  ⟨by decide, by decide,
    C6_disk_remove_returns_true (fun k => k + 10) [3, 1, 3] 14 (by decide) (by decide)⟩

namespace BTree

/-- Every node below the top of a well-formed subtree holds between `t - 1` and `2t - 1` keys. -/
theorem wf_below (t : Int) : ∀ (h : Nat) (x y : Node), WF t h x → Below x y →
    t - 1 ≤ y.n ∧ y.n ≤ 2 * t - 1 := by
  intro h
  induction h with
  | zero =>
    intro x y hw hb
    have hl : x.leaf = true := hw.2
    cases hb with
    | kid _ _ h1 _ => rw [hl] at h1; exact absurd h1 (by decide)
    | deeper _ _ _ h1 _ _ => rw [hl] at h1; exact absurd h1 (by decide)
  | succ h ih =>
    intro x y hw hb
    cases hb with
    | kid _ _ _ h2 =>
      obtain ⟨ch, e, hcw, hcn⟩ := hw.2.2 _ h2
      simp only [Option.some.injEq] at e
      subst e
      exact ⟨hcn, hcw.shape.2.2.2.2⟩
    | deeper _ c _ _ h2 h3 =>
      obtain ⟨ch, e, hcw, hcn⟩ := hw.2.2 _ h2
      simp only [Option.some.injEq] at e
      subst e
      exact ih _ _ hcw h3

end BTree

/-- C13: let a history of `insert` and `remove` calls be applied to a newly constructed in-memory
`BTree` (degree `t = 16`), every insert being of a key not currently present and every remove
being issued while the tree holds a key. Then the history runs to completion (given a recursion
budget of `4 * length + 2`) and in the tree so reached the root holds at most `2t - 1` keys and
every node reachable from the root holds at least `t - 1` and at most `2t - 1` keys. -/
theorem C13_btree_occupancy (ops : List Call) (fuel : Nat) (hl : Legal [] ops)
    (hf : 4 * ops.length + 2 ≤ fuel) :
    ∃ tr r, BTree.runCalls BTree.t fuel (BTree.new BTree.t) ops = .ok tr ∧ tr.root_ = some r ∧
      0 ≤ r.n ∧ r.n ≤ 2 * BTree.t - 1 ∧
      ∀ y, BTree.Below r y → BTree.t - 1 ≤ y.n ∧ y.n ≤ 2 * BTree.t - 1 := by
  obtain ⟨hw0, hi0⟩ := BTree.new_wf BTree.t (by decide)
  obtain ⟨tr, r, h, E, hr, hw, _, _, _, _⟩ :=
    BTree.calls_inv BTree.t (by decide) ops [] fuel (BTree.new BTree.t) 0 _ rfl hw0
      (by rw [hi0]; exact List.Pairwise.nil) (by rw [hi0]) (by simp) hl (by omega)
  exact ⟨tr, r, E, hr, hw.shape.2.2.2.1, hw.shape.2.2.2.2,
    fun y hy => BTree.wf_below BTree.t h r y hw hy⟩

theorem C13_btree_occupancy_witness :
    Legal [] [Call.ins 1 7, Call.ins 2 8, Call.rem 1] ∧
    4 * [Call.ins 1 7, Call.ins 2 8, Call.rem 1].length + 2 ≤ 14 ∧
    ∃ tr r, BTree.runCalls BTree.t 14 (BTree.new BTree.t)
        [Call.ins 1 7, Call.ins 2 8, Call.rem 1] = .ok tr ∧ tr.root_ = some r ∧
      0 ≤ r.n ∧ r.n ≤ 2 * BTree.t - 1 ∧
      ∀ y, BTree.Below r y → BTree.t - 1 ≤ y.n ∧ y.n ≤ 2 * BTree.t - 1 :=
  ⟨by simp [Legal], by decide,
    C13_btree_occupancy [Call.ins 1 7, Call.ins 2 8, Call.rem 1] 14 (by simp [Legal])
      (by decide)⟩

/-- C20 (counterexample): with minimum degree 3, after the inserts 10, 20, 5, 6, 12 into a new
in-memory tree the root has not split: it is a leaf holding five keys, not a node with one key and
two children of two keys each. -/
theorem C20_fifth_insert_does_not_split :
    (BTree.insertAll 3 2 (BTree.new 3) [(10, 0), (20, 0), (5, 0), (6, 0), (12, 0)]).map
        BTree.rootShape = .ok (some (true, 5, [])) ∧
    (BTree.insertAll 3 2 (BTree.new 3) [(10, 0), (20, 0), (5, 0), (6, 0), (12, 0)]).map
        BTree.rootShape ≠ .ok (some (false, 1, [some 2, some 2])) := by
  constructor
  · rfl
  · decide

/-- C20 (amended): with minimum degree 3, the root of a new in-memory tree is a full leaf of five
keys after the inserts 10, 20, 5, 6, 12; it splits during the sixth insert (30), after which the
root has exactly one key and two children, the left with the two keys below the median and the
right with three keys (the two above the median and 30). -/
theorem C20_root_splits_on_sixth_insert :
    (BTree.insertAll 3 2 (BTree.new 3) [(10, 0), (20, 0), (5, 0), (6, 0), (12, 0)]).map
        BTree.rootShape = .ok (some (true, 5, [])) ∧
    (BTree.insertAll 3 2 (BTree.new 3) [(10, 0), (20, 0), (5, 0), (6, 0), (12, 0), (30, 0)]).map
        BTree.rootShape = .ok (some (false, 1, [some 2, some 3])) := by
  constructor <;> rfl

/-- C17 (code_bug): the keys 1 .. 32 are inserted into a new tree of degree 16 and 32 is removed:
the root holds the key 16 and two children of 15 keys each. The call `remove(1)` then merges the
two children (the key is not in the root, so the merge is done by `_fill`) and returns with the
root reference unchanged: the root is an Internal node with zero keys whose slot 0 designates the
merged child of 30 keys. In-memory tree and disk-resident tree alike. -/
theorem C17_zero_key_root_after_fill_merge :
    (BTree.runCalls BTree.t 3 (BTree.new BTree.t)
        ((List.range 32).map (fun i => Call.ins ((i : Int) + 1) 0) ++ [Call.rem 32])).map
        BTree.rootShape = .ok (some (false, 1, [some 15, some 15])) ∧
    (BTree.runCalls BTree.t 3 (BTree.new BTree.t)
        ((List.range 32).map (fun i => Call.ins ((i : Int) + 1) 0) ++
          [Call.rem 32, Call.rem 1])).map
        BTree.rootShape = .ok (some (false, 0, [some 30])) ∧
    (DiskBTree.runCalls DiskBTree.t 3 DiskBTree.new
        ((List.range 32).map (fun i => Call.ins ((i : Int) + 1) 0) ++ [Call.rem 32])).map
        DiskBTree.rootShape = .ok (some (false, 1, [some 15, some 15])) ∧
    (DiskBTree.runCalls DiskBTree.t 3 DiskBTree.new
        ((List.range 32).map (fun i => Call.ins ((i : Int) + 1) 0) ++
          [Call.rem 32, Call.rem 1])).map
        DiskBTree.rootShape = .ok (some (false, 0, [some 30])) := by
  refine ⟨?_, ?_, ?_, ?_⟩ <;> rfl

/-- C19 (counterexample): `search` changes the tree. After `insert(1, 7)` into an empty B+ tree the
root leaf has key count 0 and overflow count 1; `search(1)` finds the value 7 and leaves the root
leaf with key count 1 and overflow count 0. -/
theorem C19_search_flushes_the_overflow_block :
    (BPlusTree.insert BPlusTree.d 1 ⟨none⟩ 1 7).map BPlusTree.rootCounts = .ok (some (0, 1)) ∧
    (do let tr ← BPlusTree.insert BPlusTree.d 1 ⟨none⟩ 1 7
        let (tr, res) ← BPlusTree.search 1 tr 1
        pure (res, BPlusTree.rootCounts tr) : Except Err _) = .ok (some 7, some (1, 0)) := by
  constructor <;> rfl

/-- C19 (amended): a completed `search(k)` changes the tree only by flushing the leaf it reaches:
a null root stays null; otherwise the new root `q` is the old root `p` with the leaf at the end
of the search path of `k` replaced by the result of `_load_overflow` on it (`Flushed k p q`: at
every Internal node the path takes the child slot that `_get_key_index(k)` and
`_get_child_index(k, i)` choose, the node keeps its key count and keys, and no other child slot
is written), and `q` is the only node that stands in this relation to `p`. The flushed leaf has
overflow count 0, and a leaf whose overflow count already was 0 is not changed by the flush; on
a leaf with the capacities of the header, a strictly ascending main page of `n` pairs and `m`
pairs waiting, all keys distinct and `n + m ≤ 2d - 1`, the flush returns a strictly ascending
main page of `n + m` pairs that holds exactly the pairs of the old main page and of the overflow
block. `contains(k)` makes the same change and returns whether `search` found a value. -/
theorem C19_search_only_flushes_one_leaf (fuel : Nat) (tr tr' : BPlusTree) (k : Int)
    (res : Option Int) (h : BPlusTree.search fuel tr k = .ok (tr', res)) :
    ((tr.root_ = none ∧ tr'.root_ = none) ∨
      ∃ p q, tr.root_ = some p ∧ tr'.root_ = some q ∧ BPlusTree.Flushed k p q ∧
        ∀ q', BPlusTree.Flushed k p q' → q' = q) ∧
    BPlusTree.contains fuel tr k = .ok (tr', res.isSome) ∧
    (∀ x y : LeafNode, x._load_overflow = .ok y → y.overflow_n = 0) ∧
    (∀ x : LeafNode, x.overflow_n = 0 → x._load_overflow = .ok x) ∧
    (∀ x : LeafNode, x.Shape BPlusTree.d → StrictKV x.kvs →
      ((x.kvs ++ x.okvs).map Prod.fst).Nodup →
      ∃ y, x._load_overflow = .ok y ∧ y.overflow_n = 0 ∧ y.n = x.n + x.overflow_n ∧
        StrictKV y.kvs ∧ y.kvs.Perm (x.kvs ++ x.okvs)) := by
  refine ⟨?_, ?_, fun x y hxy => BPlusTree.load_overflow_n hxy,
    fun x hx => BPlusTree.load_overflow_empty x hx, ?_⟩
  rotate_left 2
  · intro x hS hs hnd
    obtain ⟨y, E, _, m, n, hs1, hp, _⟩ := LeafNode.load_overflow_spec BPlusTree.d x hS hs hnd
    exact ⟨y, E, m, n, hs1, hp⟩
  · simp only [BPlusTree.search] at h
    obtain ⟨⟨r, res'⟩, hr, h⟩ := bind_ok h
    simp only [Except.pure_eq_ok, Except.ok.injEq, Prod.mk.injEq] at h
    obtain ⟨e1, e2⟩ := h
    subst e1 e2
    cases hroot : tr.root_ with
    | none =>
      left
      rw [hroot] at hr
      cases fuel with
      | zero => exact absurd hr (by simp [BPlusTree._search])
      | succ f =>
        simp only [BPlusTree._search, Except.pure_eq_ok, Except.ok.injEq, Prod.mk.injEq] at hr
        exact ⟨rfl, hr.1.symm⟩
    | some p =>
      right
      rw [hroot] at hr
      obtain ⟨q, e, hF⟩ := BPlusTree.search_flushes fuel p k r res' hr
      exact ⟨p, q, rfl, e, hF, BPlusTree.flushed_unique hF⟩
  · simp only [BPlusTree.contains, h, Except.ok_bind, Except.pure_eq_ok]

theorem C19_search_only_flushes_one_leaf_witness :
    BPlusTree.search 2 (BPlusTree.twoPending BPlusTree.d) 15
      = .ok (BPlusTree.rightFlushed BPlusTree.d, some 150) ∧
    (((BPlusTree.twoPending BPlusTree.d).root_ = none ∧
        (BPlusTree.rightFlushed BPlusTree.d).root_ = none) ∨
      ∃ p q, (BPlusTree.twoPending BPlusTree.d).root_ = some p ∧
        (BPlusTree.rightFlushed BPlusTree.d).root_ = some q ∧ BPlusTree.Flushed 15 p q ∧
        ∀ q', BPlusTree.Flushed 15 p q' → q' = q) :=
  ⟨rfl, (C19_search_only_flushes_one_leaf 2 (BPlusTree.twoPending BPlusTree.d)
    (BPlusTree.rightFlushed BPlusTree.d) 15 (some 150) rfl).1⟩

/-- C1: round trip on the B+ tree. The pairs of a list with pairwise distinct keys are inserted in
list order into an empty tree (the recursion budget is at least the length of the list plus
one). Then every insert returns, and in the tree so reached `search(k)` returns exactly the value
inserted with `k` and `contains(k)` is true for every pair of the list, and `search` is empty
(and `contains` false) for every key that is not in the list. -/
theorem C1_bplus_round_trip (kvs : List (Int × Int)) (fuel : Nat)
    (hnd : (kvs.map Prod.fst).Nodup) (hf : kvs.length + 1 ≤ fuel) :
    ∃ t, BPlusTree.insertAll BPlusTree.d fuel ⟨none⟩ kvs = .ok t ∧
      (∀ k v, (k, v) ∈ kvs →
        (∃ t', BPlusTree.search fuel t k = .ok (t', some v)) ∧
        (∃ t', BPlusTree.contains fuel t k = .ok (t', true))) ∧
      (∀ k, k ∉ kvs.map Prod.fst →
        (∃ t', BPlusTree.search fuel t k = .ok (t', none)) ∧
        (∃ t', BPlusTree.contains fuel t k = .ok (t', false))) := by
  obtain ⟨t, h, E, hG, hh, hnone⟩ := bp_insertAll_good BPlusTree.d (by decide) kvs fuel hnd hf
  have hndr : (kvs.reverse.map Prod.fst).Nodup := by
    rw [List.map_reverse]; exact List.nodup_reverse.mpr hnd
  have hne : kvs.reverse ≠ [] ∨ t.root_ = none := by
    by_cases he : kvs = []
    · exact Or.inr (hnone he)
    · exact Or.inl (by simpa using he)
  refine ⟨t, E, ?_, ?_⟩
  · intro k v hkv
    obtain ⟨t', S, _, C⟩ := bp_search_model BPlusTree.d (by decide) fuel t h kvs.reverse k hG hndr
      hne (by omega)
    rw [lookup_of_mem hndr (List.mem_reverse.mpr hkv)] at S C
    exact ⟨⟨t', S⟩, ⟨t', C⟩⟩
  · intro k hk
    obtain ⟨t', S, _, C⟩ := bp_search_model BPlusTree.d (by decide) fuel t h kvs.reverse k hG hndr
      hne (by omega)
    rw [lookup_of_not_mem (by rw [List.map_reverse]; simpa using hk)] at S C
    exact ⟨⟨t', S⟩, ⟨t', C⟩⟩

theorem C1_bplus_round_trip_witness :
    (([(3, 30), (1, 10), (2, 20)] : List (Int × Int)).map Prod.fst).Nodup ∧
    ([(3, 30), (1, 10), (2, 20)] : List (Int × Int)).length + 1 ≤ 4 ∧
    ∃ t, BPlusTree.insertAll BPlusTree.d 4 ⟨none⟩ [(3, 30), (1, 10), (2, 20)] = .ok t ∧
      (∀ k v, (k, v) ∈ ([(3, 30), (1, 10), (2, 20)] : List (Int × Int)) →
        (∃ t', BPlusTree.search 4 t k = .ok (t', some v)) ∧
        (∃ t', BPlusTree.contains 4 t k = .ok (t', true))) ∧
      (∀ k, k ∉ ([(3, 30), (1, 10), (2, 20)] : List (Int × Int)).map Prod.fst →
        (∃ t', BPlusTree.search 4 t k = .ok (t', none)) ∧
        (∃ t', BPlusTree.contains 4 t k = .ok (t', false))) :=
  ⟨by decide, by decide, C1_bplus_round_trip [(3, 30), (1, 10), (2, 20)] 4 (by decide) (by decide)⟩

/-- C11: remove then re-insert is an update. A B+ tree is built by inserting the pairs of a list
with pairwise distinct keys that holds the key `k` (recursion budget at least the length of the
list plus two). Then `remove(k)` returns true, `insert(k, v')` returns, and afterwards
`search(k)` returns `v'` while for every other key `j` the result of `search(j)` is the one it
had before the remove: the value the list gives `j`, or empty. -/
theorem C11_remove_then_insert_updates (kvs : List (Int × Int)) (k v' : Int) (fuel : Nat)
    (hnd : (kvs.map Prod.fst).Nodup) (hk : k ∈ kvs.map Prod.fst) (hf : kvs.length + 2 ≤ fuel) :
    ∃ t0 t1 t2, BPlusTree.insertAll BPlusTree.d fuel ⟨none⟩ kvs = .ok t0 ∧
      BPlusTree.remove BPlusTree.d fuel t0 k = .ok (t1, true) ∧
      BPlusTree.insert BPlusTree.d fuel t1 k v' = .ok t2 ∧
      (∃ t3, BPlusTree.search fuel t2 k = .ok (t3, some v')) ∧
      ∀ j, j ≠ k → ∃ ta tb, BPlusTree.search fuel t0 j = .ok (ta, kvs.lookup j) ∧
        BPlusTree.search fuel t2 j = .ok (tb, kvs.lookup j) := by
  have hd : (2 : Int) ≤ BPlusTree.d := by decide
  obtain ⟨t0, h0, E0, hG0, hh0, _⟩ := bp_insertAll_good BPlusTree.d hd kvs fuel hnd (by omega)
  have hndr : (kvs.reverse.map Prod.fst).Nodup := by
    rw [List.map_reverse]; exact List.nodup_reverse.mpr hnd
  have hkr : k ∈ kvs.reverse.map Prod.fst := by rw [List.map_reverse]; simpa using hk
  have hne0 : kvs.reverse ≠ [] := by
    intro e; rw [e] at hkr; simp at hkr
  obtain ⟨t1, h1, res, E1, hG1, hh1, hres⟩ := BPlusTree.remove_good BPlusTree.d hd fuel t0 h0
    kvs.reverse k hG0 hndr (Or.inl hne0) (by omega)
  have hrt : res = true := hres.mpr hkr
  subst hrt
  have hnd1 := BPlusTree.nodup_filter_key k hndr
  have hk1 : k ∉ (kvs.reverse.filter (fun p => decide (p.1 ≠ k))).map Prod.fst := by
    intro hm
    obtain ⟨p, hp, hpk⟩ := List.mem_map.mp hm
    have := (List.mem_filter.mp hp).2
    simp only [ne_eq, decide_not, Bool.not_eq_eq_eq_not, Bool.not_true,
      decide_eq_false_iff_not] at this
    exact this hpk
  obtain ⟨t2, h2, E2, hG2, hh2, _, hr2⟩ := BPlusTree.insert_good BPlusTree.d hd fuel t1 h1 _ k v'
    hG1 hk1 (by omega)
  have hnd2 : (((k, v') :: kvs.reverse.filter (fun p => decide (p.1 ≠ k))).map Prod.fst).Nodup := by
    simp only [List.map_cons]
    exact List.nodup_cons.mpr ⟨hk1, hnd1⟩
  refine ⟨t0, t1, t2, E0, E1, E2, ?_, ?_⟩
  · obtain ⟨t3, S, _, _⟩ := bp_search_model BPlusTree.d hd fuel t2 h2 _ k hG2 hnd2
      (Or.inl (by simp)) (by omega)
    refine ⟨t3, ?_⟩
    rw [S]
    simp [List.lookup]
  · intro j hj
    obtain ⟨ta, Sa, _, _⟩ := bp_search_model BPlusTree.d hd fuel t0 h0 _ j hG0 hndr
      (Or.inl hne0) (by omega)
    obtain ⟨tb, Sb, _, _⟩ := bp_search_model BPlusTree.d hd fuel t2 h2 _ j hG2 hnd2
      (Or.inl (by simp)) (by omega)
    have e1 : kvs.reverse.lookup j = kvs.lookup j :=
      lookup_perm hndr (List.reverse_perm kvs) j
    have e2 : ((k, v') :: kvs.reverse.filter (fun p => decide (p.1 ≠ k))).lookup j
        = kvs.lookup j := by
      rw [List.lookup_cons]
      have : (j == k) = false := by simpa using hj
      rw [this]
      simp only
      rw [lookup_filter_ne _ _ _ hj, e1]
    rw [e1] at Sa
    rw [e2] at Sb
    exact ⟨ta, tb, Sa, Sb⟩

theorem C11_remove_then_insert_updates_witness :
    (([(3, 30), (1, 10), (2, 20)] : List (Int × Int)).map Prod.fst).Nodup ∧
    (1 : Int) ∈ ([(3, 30), (1, 10), (2, 20)] : List (Int × Int)).map Prod.fst ∧
    ([(3, 30), (1, 10), (2, 20)] : List (Int × Int)).length + 2 ≤ 5 ∧
    ∃ t0 t1 t2, BPlusTree.insertAll BPlusTree.d 5 ⟨none⟩ [(3, 30), (1, 10), (2, 20)] = .ok t0 ∧
      BPlusTree.remove BPlusTree.d 5 t0 1 = .ok (t1, true) ∧
      BPlusTree.insert BPlusTree.d 5 t1 1 11 = .ok t2 ∧
      (∃ t3, BPlusTree.search 5 t2 1 = .ok (t3, some 11)) ∧
      ∀ j, j ≠ 1 → ∃ ta tb,
        BPlusTree.search 5 t0 j = .ok (ta, ([(3, 30), (1, 10), (2, 20)] : List (Int × Int)).lookup j) ∧
        BPlusTree.search 5 t2 j = .ok (tb, ([(3, 30), (1, 10), (2, 20)] : List (Int × Int)).lookup j) :=
  ⟨by decide, by decide, by decide,
    C11_remove_then_insert_updates [(3, 30), (1, 10), (2, 20)] 1 11 5 (by decide) (by decide)
      (by decide)⟩

/-- C12: occupancy of the B+ tree. A history of `insert` and `remove` calls starts from the empty
tree, every insert being of a key that is absent at the time (the recursion budget is at least
the length of the history plus one). If the history runs to completion, then in the tree it
reaches the root holds at most `2d - 1` keys in its key array and every node under the root
holds at least `d - 1` and at most `2d - 1`. A history in which, moreover, every remove is issued
while the tree holds a key does run to completion. -/
theorem C12_bplus_occupancy (ops : List Call) (fuel : Nat) (hF : Fresh [] ops)
    (hf : ops.length + 1 ≤ fuel) :
    (∀ tr r, BPlusTree.runCalls BPlusTree.d fuel ⟨none⟩ ops = .ok tr → tr.root_ = some r →
      0 ≤ r.n ∧ r.n ≤ 2 * BPlusTree.d - 1 ∧
      ∀ x, BPlusTree.Under r x → BPlusTree.d - 1 ≤ x.n ∧ x.n ≤ 2 * BPlusTree.d - 1) ∧
    (Legal [] ops → ∃ tr, BPlusTree.runCalls BPlusTree.d fuel ⟨none⟩ ops = .ok tr) := by
  have hd : (2 : Int) ≤ BPlusTree.d := by decide
  constructor
  · intro tr r hrun hr
    obtain ⟨h, hG, _⟩ := bp_calls_partial BPlusTree.d hd ops [] fuel ⟨none⟩ 0
      (bp_good_new _) (by simp) hF (by omega) tr hrun
    unfold BPlusTree.Good at hG
    rw [hr] at hG
    simp only at hG
    refine ⟨(hG.1.node BPlusTree.d hd).1, (hG.1.node BPlusTree.d hd).2.1, ?_⟩
    intro x hx
    obtain ⟨h', lo', hi', hI', hn'⟩ := BPlusTree.BInv.under BPlusTree.d r x hx h none none hG.1
    exact ⟨hn', (hI'.node BPlusTree.d hd).2.1⟩
  · intro hL
    obtain ⟨tr, _, E, _⟩ := bp_calls_total BPlusTree.d hd ops [] fuel ⟨none⟩ 0
      (bp_good_new _) (by simp) hL (by omega)
    exact ⟨tr, E⟩

theorem C12_bplus_occupancy_witness :
    Fresh [] [Call.ins 1 7, Call.ins 2 8, Call.rem 1] ∧
    [Call.ins 1 7, Call.ins 2 8, Call.rem 1].length + 1 ≤ 4 ∧
    ((∀ tr r, BPlusTree.runCalls BPlusTree.d 4 ⟨none⟩ [Call.ins 1 7, Call.ins 2 8, Call.rem 1]
        = .ok tr → tr.root_ = some r →
      0 ≤ r.n ∧ r.n ≤ 2 * BPlusTree.d - 1 ∧
      ∀ x, BPlusTree.Under r x → BPlusTree.d - 1 ≤ x.n ∧ x.n ≤ 2 * BPlusTree.d - 1) ∧
    (Legal [] [Call.ins 1 7, Call.ins 2 8, Call.rem 1] →
      ∃ tr, BPlusTree.runCalls BPlusTree.d 4 ⟨none⟩ [Call.ins 1 7, Call.ins 2 8, Call.rem 1]
        = .ok tr)) :=
  ⟨by simp [Fresh], by decide,
    C12_bplus_occupancy [Call.ins 1 7, Call.ins 2 8, Call.rem 1] 4 (by simp [Fresh])
      (by decide)⟩

/-- C14: sortedness in the B+ tree. A history of `insert` and `remove` calls starts from the
empty tree, every insert being of a key that is absent at the time (the recursion budget is at
least the length of the history plus one). If the history runs to completion, then in the tree
it reaches the first `n` keys of the key array of the root and of every node under the root,
Internal node or main page of a leaf, are strictly ascending. A history in which, moreover, every
remove is issued while the tree holds a key does run to completion. -/
theorem C14_bplus_keys_ascending (ops : List Call) (fuel : Nat) (hF : Fresh [] ops)
    (hf : ops.length + 1 ≤ fuel) :
    (∀ tr r, BPlusTree.runCalls BPlusTree.d fuel ⟨none⟩ ops = .ok tr → tr.root_ = some r →
      (view r.key r.n).Pairwise (· < ·) ∧
      ∀ x, BPlusTree.Under r x → (view x.key x.n).Pairwise (· < ·)) ∧
    (Legal [] ops → ∃ tr, BPlusTree.runCalls BPlusTree.d fuel ⟨none⟩ ops = .ok tr) := by
  have hd : (2 : Int) ≤ BPlusTree.d := by decide
  constructor
  · intro tr r hrun hr
    obtain ⟨h, hG, _⟩ := bp_calls_partial BPlusTree.d hd ops [] fuel ⟨none⟩ 0
      (bp_good_new _) (by simp) hF (by omega) tr hrun
    unfold BPlusTree.Good at hG
    rw [hr] at hG
    simp only at hG
    refine ⟨(hG.1.node BPlusTree.d hd).2.2.1, ?_⟩
    intro x hx
    obtain ⟨h', lo', hi', hI', hn'⟩ := BPlusTree.BInv.under BPlusTree.d r x hx h none none hG.1
    exact (hI'.node BPlusTree.d hd).2.2.1
  · intro hL
    obtain ⟨tr, _, E, _⟩ := bp_calls_total BPlusTree.d hd ops [] fuel ⟨none⟩ 0
      (bp_good_new _) (by simp) hL (by omega)
    exact ⟨tr, E⟩

theorem C14_bplus_keys_ascending_witness :
    Fresh [] [Call.ins 2 8, Call.ins 1 7, Call.rem 2, Call.ins 3 9] ∧
    [Call.ins 2 8, Call.ins 1 7, Call.rem 2, Call.ins 3 9].length + 1 ≤ 5 ∧
    ((∀ tr r, BPlusTree.runCalls BPlusTree.d 5 ⟨none⟩
        [Call.ins 2 8, Call.ins 1 7, Call.rem 2, Call.ins 3 9] = .ok tr → tr.root_ = some r →
      (view r.key r.n).Pairwise (· < ·) ∧
      ∀ x, BPlusTree.Under r x → (view x.key x.n).Pairwise (· < ·)) ∧
    (Legal [] [Call.ins 2 8, Call.ins 1 7, Call.rem 2, Call.ins 3 9] →
      ∃ tr, BPlusTree.runCalls BPlusTree.d 5 ⟨none⟩
        [Call.ins 2 8, Call.ins 1 7, Call.rem 2, Call.ins 3 9] = .ok tr)) :=
  ⟨by simp [Fresh], by decide,
    C14_bplus_keys_ascending [Call.ins 2 8, Call.ins 1 7, Call.rem 2, Call.ins 3 9] 5
      (by simp [Fresh]) (by decide)⟩

/-- C16: overflow-buffer bound of the B+ tree. A history of `insert` and `remove` calls starts
from the empty tree; no condition is put on the keys. If the history runs to completion, then
every leaf of the tree it reaches (the root if it is a leaf, and every leaf under the root) has
`0 ≤ overflow_n ≤ d/2` and overflow arrays of `d/2` slots; a history in which every insert is of
an absent key and every remove is issued while a key is held does run to completion when the
recursion budget is at least its length plus one. On a leaf with such an overflow block
`LeafNode::_insert` either takes the main-page branch, which is `_insert_main` and leaves the
overflow block as it was, or, once the flush of a full block has run, writes the pair at the
index `overflow_n` of the flushed leaf, with `0 ≤ overflow_n < d/2`, and both writes take place;
on a leaf with the capacities of the header the flush does run. -/
theorem C16_overflow_bound (ops : List Call) (fuel : Nat) :
    (∀ tr r, BPlusTree.runCalls BPlusTree.d fuel ⟨none⟩ ops = .ok tr → tr.root_ = some r →
      ∀ y, (r = .leaf y ∨ BPlusTree.Under r (.leaf y)) →
        0 ≤ y.overflow_n ∧ y.overflow_n ≤ BPlusTree.d / 2 ∧
        (y.overflow_key.length : Int) = BPlusTree.d / 2 ∧
        (y.overflow_val.length : Int) = BPlusTree.d / 2) ∧
    (Legal [] ops → ops.length + 1 ≤ fuel →
      ∃ tr, BPlusTree.runCalls BPlusTree.d fuel ⟨none⟩ ops = .ok tr) ∧
    (∀ (x : LeafNode) (k v : Int), x.OvOK BPlusTree.d →
      (2 * BPlusTree.d - 1 - BPlusTree.d / 2 < x.n →
        x._insert BPlusTree.d k v = x._insert_main k v ∧
        ∀ x', x._insert_main k v = .ok x' →
          x'.overflow_key = x.overflow_key ∧ x'.overflow_val = x.overflow_val ∧
          x'.overflow_n = x.overflow_n) ∧
      (¬ 2 * BPlusTree.d - 1 - BPlusTree.d / 2 < x.n →
        ∀ x1, (if BPlusTree.d / 2 = x.overflow_n then x._load_overflow else pure x) = .ok x1 →
          0 ≤ x1.overflow_n ∧ x1.overflow_n < BPlusTree.d / 2 ∧
          x._insert BPlusTree.d k v = .ok { x1 with
            overflow_key := x1.overflow_key.set x1.overflow_n.toNat k,
            overflow_val := x1.overflow_val.set x1.overflow_n.toNat v,
            overflow_n := x1.overflow_n + 1 })) ∧
    (∀ (x : LeafNode), x.Shape BPlusTree.d → ¬ 2 * BPlusTree.d - 1 - BPlusTree.d / 2 < x.n →
      ∃ x1, (if BPlusTree.d / 2 = x.overflow_n then x._load_overflow else pure x) = .ok x1) := by
  have hd : (2 : Int) ≤ BPlusTree.d := by decide
  have hd2 : (0 : Int) ≤ BPlusTree.d / 2 := by decide
  refine ⟨?_, ?_, ?_, ?_⟩
  · intro tr r hrun hr y hy
    have hroot : BPlusTree.LeavesOK BPlusTree.d r :=
      BPlusTree.runCalls_ok hd2 hrun (fun r0 h0 => by cases h0) r hr
    have hleaf : BPlusTree.LeavesOK BPlusTree.d (.leaf y) := by
      rcases hy with e | hu
      · rw [← e]; exact hroot
      · exact BPlusTree.LeavesOK.leaves_under hu hroot
    obtain ⟨q1, q2, q3, q4⟩ := BPlusTree.leavesOK_leaf.mp hleaf
    exact ⟨q3, q4, q1, q2⟩
  · intro hL hf
    obtain ⟨tr, _, E, _⟩ := bp_calls_total BPlusTree.d hd ops [] fuel ⟨none⟩ 0
      (bp_good_new _) (by simp) hL (by omega)
    exact ⟨tr, E⟩
  · intro x k v hx
    constructor
    · intro hbr
      exact ⟨LeafNode.insert_main_branch _ x k v hbr, fun x' h => LeafNode.insert_main_ov h⟩
    · intro hbr x1 hl
      obtain ⟨a, b, _, _, e⟩ := LeafNode.insert_slot_ov BPlusTree.d hd x x1 k v hx hbr hl
      exact ⟨a, b, e⟩
  · intro x hS hbr
    obtain ⟨x1, E, _⟩ := LeafNode.insert_slot BPlusTree.d hd x 0 0 hS hbr
    exact ⟨x1, E⟩

theorem C16_overflow_bound_witness :
    ∃ tr, BPlusTree.runCalls BPlusTree.d 4 ⟨none⟩ [Call.ins 1 7, Call.ins 2 8, Call.rem 1]
        = .ok tr ∧
      ∀ r, tr.root_ = some r → ∀ y, (r = .leaf y ∨ BPlusTree.Under r (.leaf y)) →
        0 ≤ y.overflow_n ∧ y.overflow_n ≤ BPlusTree.d / 2 ∧
        (y.overflow_key.length : Int) = BPlusTree.d / 2 ∧
        (y.overflow_val.length : Int) = BPlusTree.d / 2 :=
  match (C16_overflow_bound [Call.ins 1 7, Call.ins 2 8, Call.rem 1] 4).2.1
      (by simp [Legal]) (by decide) with
  | ⟨tr, E⟩ => ⟨tr, E, fun r hr =>
      (C16_overflow_bound [Call.ins 1 7, Call.ins 2 8, Call.rem 1] 4).1 tr r E hr⟩

/-- C22: the minimum of the Fibonacci heap, refuted on the code. With the comparator
`std::less`, the calls push(4), push(2), push(11), push(10), pop(), push(8), push(7), push(1),
push(9), pop() on a new heap all return; the two calls of `pop` delete the nodes with the keys 2
and 1, so the heap holds the keys 4, 11, 10, 8, 7, 9 and `n` is 6; `top()` returns 7, the key of
the node `topNode()` designates, although the key 4 is in the heap. -/
theorem C22_top_is_not_the_minimum :
    (FibonacciHeap.runCalls (fun a b => decide (a < b)) 20
      [.push 4, .push 2, .push 11, .push 10, .pop, .push 8, .push 7, .push 1, .push 9, .pop]).map
      (fun h => (h.n, h.keys, h.topNode, h.top)) = .ok (6, [4, 11, 10, 8, 7, 9], some 5, .ok 7) := by
  rfl

/-- C23: misuse of decrease-key. When `x` designates a node of the heap and the new key `k` is
greater than the key of `x` under the comparator (`comp_(x->key, k)` holds),
`FibHeapDecreaseKey(x, k)` returns and the heap is as before: the store of nodes (keys, marks
and the parent, child and sibling links), the `min` pointer and the count `n`. -/
theorem C23_decrease_key_misuse (comp : Int → Int → Bool) (fuel : Nat) (h : FibonacciHeap)
    (x : Option Nat) (k : Int) (node : FibonacciNode)
    (hx : FibonacciHeap.load h.store x = .ok node) (hk : comp node.key k = true) :
    FibonacciHeap.FibHeapDecreaseKey comp fuel h x k = .ok h := by
  simp only [FibonacciHeap.FibHeapDecreaseKey, hx, Except.ok_bind, hk, if_true, ite_true,
    Except.pure_eq_ok]

theorem C23_decrease_key_misuse_witness :
    FibonacciHeap.load
      (⟨1, some 0, [some ⟨5, false, none, some 0, some 0, none, 0⟩]⟩ : FibonacciHeap).store (some 0)
      = .ok ⟨5, false, none, some 0, some 0, none, 0⟩ ∧
    (fun (a b : Int) => decide (a < b)) (⟨5, false, none, some 0, some 0, none, 0⟩ : FibonacciNode).key 9
      = true ∧
    FibonacciHeap.FibHeapDecreaseKey (fun a b => decide (a < b)) 3
      ⟨1, some 0, [some ⟨5, false, none, some 0, some 0, none, 0⟩]⟩ (some 0) 9
      = .ok ⟨1, some 0, [some ⟨5, false, none, some 0, some 0, none, 0⟩]⟩ :=
  ⟨rfl, by decide, C23_decrease_key_misuse (fun a b => decide (a < b)) 3
    ⟨1, some 0, [some ⟨5, false, none, some 0, some 0, none, 0⟩]⟩ (some 0) 9
    ⟨5, false, none, some 0, some 0, none, 0⟩ rfl (by decide)⟩

/-- C25: flush correctness. A leaf has the capacities of the header, a main page of `n` strictly
ascending keys and an overflow block of `m` pairs (`0 ≤ m ≤ d/2`), all `n + m` keys pairwise
distinct and `n + m ≤ 2d - 1`. Then `LeafNode::_load_overflow` returns, the overflow count is 0,
the main-page count is `n + m`, the main page is strictly ascending and holds exactly the pairs
of the old main page and of the overflow block, every key with the value it was stored with. -/
theorem C25_flush_correct (x : LeafNode) (hS : x.Shape BPlusTree.d) (hs : StrictKV x.kvs)
    (hnd : ((x.kvs ++ x.okvs).map Prod.fst).Nodup) :
    ∃ x', x._load_overflow = .ok x' ∧ x'.overflow_n = 0 ∧ x'.n = x.n + x.overflow_n ∧
      StrictKV x'.kvs ∧ x'.kvs.Perm (x.kvs ++ x.okvs) := by
  obtain ⟨x', E, _, m, n, hs', hp, _⟩ := LeafNode.load_overflow_spec BPlusTree.d x hS hs hnd
  exact ⟨x', E, m, n, hs', hp⟩

theorem C25_flush_correct_witness :
    ∃ x', LeafNode.pendingTwo._load_overflow = .ok x' ∧
      x'.overflow_n = 0 ∧ x'.n = LeafNode.pendingTwo.n + LeafNode.pendingTwo.overflow_n ∧
      StrictKV x'.kvs ∧ x'.kvs.Perm (LeafNode.pendingTwo.kvs ++ LeafNode.pendingTwo.okvs) :=
  C25_flush_correct LeafNode.pendingTwo (by unfold LeafNode.Shape; decide)
    (by unfold StrictKV; decide) (by decide)

/-- C26 (counterexample): the keys 1, ..., 17 (`d/2 + 1` keys for `d = 32`) are inserted, in
this order, into a new leaf by `LeafNode::_insert`, and into an empty tree by
`BPlusTree::insert`. Both ways the leaf ends with 16 keys in its main page, the keys 1, ..., 16,
and with the key 17 in its overflow block (overflow count 1): the main page does not contain
the `d/2 + 1` keys. -/
theorem C26_last_key_waits_in_the_overflow_block :
    (LeafNode.insertAll BPlusTree.d (LeafNode.new BPlusTree.d)
        ((List.range 17).map (fun i => ((i : Int) + 1, 0)))).map
        (fun x => (x.n, x.overflow_n, x.kvs.map Prod.fst, x.okvs.map Prod.fst))
      = .ok (16, 1, [1, 2, 3, 4, 5, 6, 7, 8, 9, 10, 11, 12, 13, 14, 15, 16], [17]) ∧
    (BPlusTree.insertAll BPlusTree.d 1 ⟨none⟩
        ((List.range 17).map (fun i => ((i : Int) + 1, 0)))).map BPlusTree.rootCounts
      = .ok (some (16, 1)) := by
  constructor <;> rfl

/-- C26 (amended): `d/2 + 1` pairs with pairwise distinct keys, the list `A` of the first `d/2`
and then `(k, v)`, are inserted into a new leaf by `LeafNode::_insert`. All calls return and the
leaf ends with the `d/2` pairs of `A` in its main page, strictly ascending, and the pair
`(k, v)` alone in its overflow block; the flush `_load_overflow` then gives a main page that
is strictly ascending and holds exactly the `d/2 + 1` pairs. Inserted into the empty tree by
`BPlusTree::insert` (recursion budget at least 1), the pairs leave a root leaf in the same
state: `A` in the main page, strictly ascending, and `(k, v)` in the overflow block. -/
theorem C26_main_page_after_the_flush (A : List (Int × Int)) (k v : Int) (fuel : Nat)
    (hA : (A.length : Int) = BPlusTree.d / 2)
    (hnd : ((A ++ [(k, v)]).map Prod.fst).Nodup) (hf : 1 ≤ fuel) :
    (∃ x x', LeafNode.insertAll BPlusTree.d (LeafNode.new BPlusTree.d) (A ++ [(k, v)]) = .ok x ∧
      x.n = BPlusTree.d / 2 ∧ x.overflow_n = 1 ∧ StrictKV x.kvs ∧ x.kvs.Perm A ∧
      x.okvs = [(k, v)] ∧
      x._load_overflow = .ok x' ∧ x'.n = BPlusTree.d / 2 + 1 ∧ x'.overflow_n = 0 ∧
      StrictKV x'.kvs ∧ x'.kvs.Perm (A ++ [(k, v)])) ∧
    (∃ y, BPlusTree.insertAll BPlusTree.d fuel ⟨none⟩ (A ++ [(k, v)]) = .ok ⟨some (.leaf y)⟩ ∧
      y.n = BPlusTree.d / 2 ∧ y.overflow_n = 1 ∧ StrictKV y.kvs ∧ y.kvs.Perm A ∧
      y.okvs = [(k, v)]) :=
  ⟨LeafNode.insertAll_flush_once BPlusTree.d (by decide) A k v hA hnd,
    BPlusTree.insertAll_one_leaf BPlusTree.d (by decide) fuel hf A k v hA hnd⟩

theorem C26_main_page_after_the_flush_witness :
    ((((List.range 16).map (fun i => ((i : Int) + 1, (0 : Int)))).length : Int)
      = BPlusTree.d / 2) ∧
    (∃ y, BPlusTree.insertAll BPlusTree.d 1 ⟨none⟩
        ((List.range 16).map (fun i => ((i : Int) + 1, (0 : Int))) ++ [(17, 0)])
        = .ok ⟨some (.leaf y)⟩ ∧
      y.n = BPlusTree.d / 2 ∧ y.overflow_n = 1 ∧ StrictKV y.kvs ∧
      y.kvs.Perm ((List.range 16).map (fun i => ((i : Int) + 1, (0 : Int)))) ∧
      y.okvs = [(17, 0)]) :=
  ⟨by decide, (C26_main_page_after_the_flush
    ((List.range 16).map (fun i => ((i : Int) + 1, (0 : Int)))) 17 0 1 (by decide) (by decide)
    (by decide)).2⟩

/-- C27: split of a B+ leaf. The leaf has the capacities of the header, a strictly ascending main
page, pairwise distinct keys and `2d - 1` pairs in main page and overflow block together; the
parent is an Internal node with `n < 2d - 1` keys and `i` is a child slot of it (`0 ≤ i ≤ n`).
`LeafNode::_split(parent, i)` flushes the leaf, which then holds its `2d - 1` pairs strictly
ascending (`x1`), and returns: the leaf keeps the first `d - 1` pairs; the new leaf `b` holds the
last `d` pairs, from index `d - 1`, with their values; the parent has `n + 1` keys, the key
`k_{d-1}` (the first key of `b`) at index `i` and `b` at child slot `i + 1`, its other keys and
children in their order. On the sibling pointers (the split leaf at address `self`, the new
leaf at the next free address `r`): `r.l_` is the split leaf and `r.r_` its former right
neighbour, the `r_` of the split leaf is `r`, the `l_` of the former right neighbour is `r`, and
no other pointer changes. -/
theorem C27_leaf_split (x : LeafNode) (n : Int) (key : List Int) (c : List (Option BPNode))
    (i : Int) (st : List LeafLinks) (self : Nat) (me : LeafLinks)
    (hS : x.Shape BPlusTree.d) (hs : StrictKV x.kvs) (hnd : (x.pairs.map Prod.fst).Nodup)
    (hfull : x.n + x.overflow_n = 2 * BPlusTree.d - 1)
    (hkl : (key.length : Int) = 2 * BPlusTree.d - 1)
    (hcl : (c.length : Int) = 2 * BPlusTree.d) (hn0 : 0 ≤ n) (hn : n < 2 * BPlusTree.d - 1)
    (hi0 : 0 ≤ i) (hi : i ≤ n) (hme : LeafLinks.load st self = .ok me)
    (hr : ∀ tr, me.r_ = some tr → tr < st.length ∧ tr ≠ self) :
    ∃ x1 b s key' c' st',
      x._load_overflow = .ok x1 ∧ StrictKV x1.kvs ∧ x1.kvs.Perm x.pairs ∧
      x1.n = 2 * BPlusTree.d - 1 ∧
      x._split BPlusTree.d (.internal n key c) i
        = .ok ({ x1 with n := BPlusTree.d - 1 }, .internal (n + 1) key' c') ∧
      ({ x1 with n := BPlusTree.d - 1 } : LeafNode).kvs = x1.kvs.take (BPlusTree.d - 1).toNat ∧
      b.kvs = x1.kvs.drop (BPlusTree.d - 1).toNat ∧ b.n = BPlusTree.d ∧ b.overflow_n = 0 ∧
      (∃ v R, b.kvs = (s, v) :: R) ∧
      view key' (n + 1) = (view key n).take i.toNat ++ s :: (view key n).drop i.toNat ∧
      view c' (n + 1 + 1) = (view c (n + 1)).take (i + 1).toNat ++ some (.leaf b) ::
        (view c (n + 1)).drop (i + 1).toNat ∧
      LeafLinks._split st self = .ok (st', st.length) ∧
      LeafLinks.load st' st.length = .ok ⟨some self, me.r_⟩ ∧
      LeafLinks.load st' self = .ok ⟨me.l_, some st.length⟩ ∧
      (∀ tr t, me.r_ = some tr → LeafLinks.load st tr = .ok t →
        LeafLinks.load st' tr = .ok ⟨some st.length, t.r_⟩) ∧
      (∀ a, a < st.length → a ≠ self → me.r_ ≠ some a →
        LeafLinks.load st' a = LeafLinks.load st a) := by
  have hd : (2 : Int) ≤ BPlusTree.d := by decide
  obtain ⟨x1, E1, hS1, m1, n1, hs1, hp1, _⟩ := LeafNode.load_overflow_spec BPlusTree.d x hS hs hnd
  obtain ⟨o, S2, cK, cS, eS2, cT, cl, ci⟩ :=
    parent_cut BPlusTree.d n key c i hkl hcl hn0 hn hi0 hi
  obtain ⟨b, s, key', c', E, _, _, q3, q4, q5, ha, hb, nb, ob, hfirst⟩ :=
    LeafNode.leaf_split_run BPlusTree.d hd x1 hS1 (by omega) n key c _ _ _ S2 o hkl hcl hn0 hn
      cK cS cl
  rw [ci] at E
  obtain ⟨st', L1, _, L2, _, L3, L4, L5⟩ := LeafLinks.split_links st self me hme
    (fun tr h => (hr tr h).1)
  refine ⟨x1, b, s, key', c', st', E1, hs1, hp1, by omega, ?_, ha, hb, nb, ob, hfirst, q3, ?_,
    L1, L2, ?_, ?_, L5⟩
  · rw [LeafNode.split_after_load _ x x1 _ _ E1]; exact E
  · rw [q4, cT, eS2]; simp
  · apply L3
    intro h
    exact (hr self h).2 rfl
  · intro tr t h1 h2
    exact L4 tr t h1 (hr tr h1).2 h2

theorem C27_leaf_split_witness :
    ∃ x1 b s key' c' st',
      (LeafNode.fullLeaf BPlusTree.d)._load_overflow = .ok x1 ∧ StrictKV x1.kvs ∧
      x1.kvs.Perm (LeafNode.fullLeaf BPlusTree.d).pairs ∧
      x1.n = 2 * BPlusTree.d - 1 ∧
      (LeafNode.fullLeaf BPlusTree.d)._split BPlusTree.d
          (.internal 0 (InternalNode.new BPlusTree.d).key (InternalNode.new BPlusTree.d).c) 0
        = .ok ({ x1 with n := BPlusTree.d - 1 }, .internal (0 + 1) key' c') ∧
      ({ x1 with n := BPlusTree.d - 1 } : LeafNode).kvs = x1.kvs.take (BPlusTree.d - 1).toNat ∧
      b.kvs = x1.kvs.drop (BPlusTree.d - 1).toNat ∧ b.n = BPlusTree.d ∧ b.overflow_n = 0 ∧
      (∃ v R, b.kvs = (s, v) :: R) ∧
      view key' (0 + 1) = (view (InternalNode.new BPlusTree.d).key 0).take (0 : Int).toNat ++
        s :: (view (InternalNode.new BPlusTree.d).key 0).drop (0 : Int).toNat ∧
      view c' (0 + 1 + 1) = (view (InternalNode.new BPlusTree.d).c (0 + 1)).take (0 + 1 : Int).toNat
        ++ some (.leaf b) :: (view (InternalNode.new BPlusTree.d).c (0 + 1)).drop (0 + 1 : Int).toNat ∧
      LeafLinks._split [⟨none, none⟩] 0 = .ok (st', [(⟨none, none⟩ : LeafLinks)].length) ∧
      LeafLinks.load st' [(⟨none, none⟩ : LeafLinks)].length
        = .ok ⟨some 0, (⟨none, none⟩ : LeafLinks).r_⟩ ∧
      LeafLinks.load st' 0
        = .ok ⟨(⟨none, none⟩ : LeafLinks).l_, some [(⟨none, none⟩ : LeafLinks)].length⟩ ∧
      (∀ tr t, (⟨none, none⟩ : LeafLinks).r_ = some tr →
        LeafLinks.load [⟨none, none⟩] tr = .ok t →
        LeafLinks.load st' tr = .ok ⟨some [(⟨none, none⟩ : LeafLinks)].length, t.r_⟩) ∧
      (∀ a, a < [(⟨none, none⟩ : LeafLinks)].length → a ≠ 0 →
        (⟨none, none⟩ : LeafLinks).r_ ≠ some a →
        LeafLinks.load st' a = LeafLinks.load [⟨none, none⟩] a) :=
  C27_leaf_split (LeafNode.fullLeaf BPlusTree.d) 0 (InternalNode.new BPlusTree.d).key
    (InternalNode.new BPlusTree.d).c 0 [⟨none, none⟩] 0 ⟨none, none⟩
    (by unfold LeafNode.Shape; decide) (by unfold StrictKV; decide) (by decide) (by decide)
    (by decide) (by decide) (by decide) (by decide) (by decide) (by decide) rfl
    (fun tr h => by cases h)

/-- C28: split of a B+ Internal node. The node has arrays of the capacities of the header,
`2d - 1` keys `k_0 .. k_{2d-2}` and `2d` children `c_0 .. c_{2d-1}`; the parent is an Internal
node with `n < 2d - 1` keys and `i` is a child slot of it (`0 ≤ i ≤ n`). `InternalNode::_split`
returns: the node keeps its arrays with key count `d - 1`, so its keys are `k_0 .. k_{d-2}` and
its children `c_0 .. c_{d-1}`; the new node has key count `d - 1`, the keys `k_d .. k_{2d-2}` and
the children `c_d .. c_{2d-1}`; the parent has `n + 1` keys, the median `k_{d-1}` at index `i`
and the new node at child slot `i + 1`, its other keys and children in their order. -/
theorem C28_internal_split (skey : List Int) (sc : List (Option BPNode)) (n : Int)
    (key : List Int) (c : List (Option BPNode)) (i : Int)
    (hsk : (skey.length : Int) = 2 * BPlusTree.d - 1)
    (hsc : (sc.length : Int) = 2 * BPlusTree.d)
    (hkl : (key.length : Int) = 2 * BPlusTree.d - 1)
    (hcl : (c.length : Int) = 2 * BPlusTree.d) (hn0 : 0 ≤ n) (hn : n < 2 * BPlusTree.d - 1)
    (hi0 : 0 ≤ i) (hi : i ≤ n) :
    ∃ rk rc s key' c',
      InternalNode._split BPlusTree.d ⟨2 * BPlusTree.d - 1, skey, sc⟩ (.internal n key c) i
        = .ok (⟨BPlusTree.d - 1, skey, sc⟩, .internal (n + 1) key' c') ∧
      rd skey (BPlusTree.d - 1) = .ok s ∧
      view rk (BPlusTree.d - 1) = (skey.drop BPlusTree.d.toNat).take (BPlusTree.d - 1).toNat ∧
      view rc (BPlusTree.d - 1 + 1) = (sc.drop BPlusTree.d.toNat).take BPlusTree.d.toNat ∧
      view key' (n + 1) = (view key n).take i.toNat ++ s :: (view key n).drop i.toNat ∧
      view c' (n + 1 + 1) = (view c (n + 1)).take (i + 1).toNat ++
        some (.internal (BPlusTree.d - 1) rk rc) :: (view c (n + 1)).drop (i + 1).toNat := by
  have hd : (2 : Int) ≤ BPlusTree.d := by decide
  obtain ⟨o, S2, cK, cS, eS2, cT, cl, ci⟩ :=
    parent_cut BPlusTree.d n key c i hkl hcl hn0 hn hi0 hi
  obtain ⟨rk, rc, s, key', c', E, _, _, q3, q4, q5, vk, vc⟩ :=
    InternalNode.inner_split_run BPlusTree.d hd skey sc hsk hsc n key c _ _ _ S2 o hkl hcl hn0 hn
      cK cS cl
  rw [ci] at E
  refine ⟨rk, rc, s, key', c', E, q5, vk, vc, q3, ?_⟩
  rw [q4, cT, eS2]; simp

theorem C28_internal_split_witness :
    ∃ rk rc s key' c',
      InternalNode._split BPlusTree.d
          ⟨2 * BPlusTree.d - 1, (List.range 63).map (fun (j : Nat) => (j : Int)),
            List.replicate 64 none⟩
          (.internal 0 (InternalNode.new BPlusTree.d).key (InternalNode.new BPlusTree.d).c) 0
        = .ok (⟨BPlusTree.d - 1, (List.range 63).map (fun (j : Nat) => (j : Int)),
            List.replicate 64 none⟩, .internal (0 + 1) key' c') ∧
      rd ((List.range 63).map (fun (j : Nat) => (j : Int))) (BPlusTree.d - 1) = .ok s ∧
      view rk (BPlusTree.d - 1) = (((List.range 63).map (fun (j : Nat) => (j : Int))).drop
        BPlusTree.d.toNat).take (BPlusTree.d - 1).toNat ∧
      view rc (BPlusTree.d - 1 + 1)
        = ((List.replicate 64 (none : Option BPNode)).drop BPlusTree.d.toNat).take
          BPlusTree.d.toNat ∧
      view key' (0 + 1) = (view (InternalNode.new BPlusTree.d).key 0).take (0 : Int).toNat ++
        s :: (view (InternalNode.new BPlusTree.d).key 0).drop (0 : Int).toNat ∧
      view c' (0 + 1 + 1) = (view (InternalNode.new BPlusTree.d).c (0 + 1)).take (0 + 1 : Int).toNat
        ++ some (.internal (BPlusTree.d - 1) rk rc) ::
          (view (InternalNode.new BPlusTree.d).c (0 + 1)).drop (0 + 1 : Int).toNat :=
  C28_internal_split ((List.range 63).map (fun (j : Nat) => (j : Int))) (List.replicate 64 none) 0
    (InternalNode.new BPlusTree.d).key (InternalNode.new BPlusTree.d).c 0
    (by decide) (by decide) (by decide) (by decide) (by decide) (by decide) (by decide)
    (by decide)

/-- C29: the classic split. In-memory tree (`src/BTree.cpp`): a node `x` with the capacities of
the header holds `n < 2t - 1` keys and its child slot `i` (`0 ≤ i ≤ n`) designates a node `y` with
`2t - 1` pairs. `_split_child(x, i)` returns; `y` keeps its first `t - 1` pairs (and, when it is
not a leaf, its first `t` children); the new node `z` is a leaf exactly when `y` is, and holds
the last `t - 1` pairs of `y` (and its last `t` children); the median pair of `y`, at index
`t - 1`, is in `x` at index `i` and `z` is child `i + 1` of `x`, the other pairs and children
of `x` in their order; the pairs of `x`, `y` and `z` together are those of `x` and `y` before.
Disk-resident tree (`src/extra/BTree.cpp`): the same for the handles `x` and `y` (stored at
different positions, none of them the next free position), `z` being stored at the next free
position, whose number is child `i + 1` of `x`; the three records are written to the file, the
allocation counter grows by one and no other record changes. -/
theorem C29_classic_split :
    (∀ (x y : BTree.Node) (i : Int), BTree.Shape BTree.t x → 0 ≤ i → i ≤ x.n →
      x.n < 2 * BTree.t - 1 → rd x.c i = .ok (some y) → BTree.Shape BTree.t y →
      y.n = 2 * BTree.t - 1 →
      ∃ x' z mk mv, BTree._split_child BTree.t x i = .ok x' ∧ x'.n = x.n + 1 ∧
        x'.leaf = x.leaf ∧ rd y.key (BTree.t - 1) = .ok mk ∧ rd y.val (BTree.t - 1) = .ok mv ∧
        x'.kvs = x.kvs.take i.toNat ++ (mk, mv) :: x.kvs.drop i.toNat ∧
        x'.kids = x.kids.take i.toNat ++ some (y.setN (BTree.t - 1)) :: some z ::
          x.kids.drop (i.toNat + 1) ∧
        (y.setN (BTree.t - 1)).kvs = y.kvs.take (BTree.t - 1).toNat ∧
        z.kvs = y.kvs.drop BTree.t.toNat ∧ z.n = BTree.t - 1 ∧ z.leaf = y.leaf ∧
        y.kvs = y.kvs.take (BTree.t - 1).toNat ++ (mk, mv) :: y.kvs.drop BTree.t.toNat ∧
        (y.leaf = false → (y.setN (BTree.t - 1)).kids = y.kids.take BTree.t.toNat ∧
          z.kids = y.kids.drop BTree.t.toNat) ∧
        (x'.kvs ++ (y.setN (BTree.t - 1)).kvs ++ z.kvs).Perm (x.kvs ++ y.kvs)) ∧
    (∀ (s : DiskBTree) (x y : DNode) (i : Int),
      (x.key.length : Int) = 2 * DiskBTree.t - 1 → (x.val.length : Int) = 2 * DiskBTree.t - 1 →
      (x.c.length : Int) = 2 * DiskBTree.t → 0 ≤ x.n → x.n < 2 * DiskBTree.t - 1 →
      0 ≤ i → i ≤ x.n →
      (y.key.length : Int) = 2 * DiskBTree.t - 1 → (y.val.length : Int) = 2 * DiskBTree.t - 1 →
      (y.c.length : Int) = 2 * DiskBTree.t → y.n = 2 * DiskBTree.t - 1 →
      x.pos ≠ -1 → y.pos ≠ -1 → s.next_pos_ ≠ -1 → y.pos ≠ x.pos → s.next_pos_ ≠ x.pos →
      y.pos ≠ s.next_pos_ →
      ∃ s' x' z' mk mv,
        DiskBTree._split_child DiskBTree.t s x i y
          = .ok (s', x', { y with n := DiskBTree.t - 1 }) ∧
        x'.pos = x.pos ∧ x'.n = x.n + 1 ∧ x'.leaf = x.leaf ∧
        rd y.key (DiskBTree.t - 1) = .ok mk ∧ rd y.val (DiskBTree.t - 1) = .ok mv ∧
        x'.kvs = x.kvs.take i.toNat ++ (mk, mv) :: x.kvs.drop i.toNat ∧
        view x'.c (x.n + 1 + 1) = (view x.c (x.n + 1)).take (i + 1).toNat ++ s.next_pos_ ::
          (view x.c (x.n + 1)).drop (i + 1).toNat ∧
        ({ y with n := DiskBTree.t - 1 } : DNode).kvs = y.kvs.take (DiskBTree.t - 1).toNat ∧
        z'.kvs = y.kvs.drop DiskBTree.t.toNat ∧ z'.pos = s.next_pos_ ∧
        z'.n = DiskBTree.t - 1 ∧ z'.leaf = y.leaf ∧
        y.kvs = y.kvs.take (DiskBTree.t - 1).toNat ++ (mk, mv) :: y.kvs.drop DiskBTree.t.toNat ∧
        (y.leaf = false →
          view z'.c DiskBTree.t = (y.c.drop DiskBTree.t.toNat).take DiskBTree.t.toNat) ∧
        (x'.kvs ++ ({ y with n := DiskBTree.t - 1 } : DNode).kvs ++ z'.kvs).Perm
          (x.kvs ++ y.kvs) ∧
        s'.next_pos_ = s.next_pos_ + 1 ∧ s'.root_ = s.root_ ∧
        s'.file x.pos = some x' ∧ s'.file s.next_pos_ = some z' ∧
        s'.file y.pos = some { y with n := DiskBTree.t - 1 } ∧
        (∀ q, q ≠ x.pos → q ≠ s.next_pos_ → q ≠ y.pos → s'.file q = s.file q)) :=
  ⟨fun x y i hx h0 hi hfull hy hyS hyn =>
      BTree.split_child_pairs BTree.t (by decide) x y i hx h0 hi hfull hy hyS hyn,
    fun s x y i a1 a2 a3 a4 a5 a6 a7 a8 a9 a10 a11 a12 a13 a14 a15 a16 a17 =>
      DiskBTree.split_child_disk DiskBTree.t (by decide) s x y i a1 a2 a3 a4 a5 a6 a7 a8 a9 a10
        a11 a12 a13 a14 a15 a16 a17⟩

theorem C29_classic_split_witness :
    ∃ x' z mk mv,
      BTree._split_child BTree.t (BTree.parentOf BTree.t (BTree.fullLeafNode BTree.t)) 0
        = .ok x' ∧ x'.n = (BTree.parentOf BTree.t (BTree.fullLeafNode BTree.t)).n + 1 ∧
      x'.leaf = (BTree.parentOf BTree.t (BTree.fullLeafNode BTree.t)).leaf ∧
      rd (BTree.fullLeafNode BTree.t).key (BTree.t - 1) = .ok mk ∧
      rd (BTree.fullLeafNode BTree.t).val (BTree.t - 1) = .ok mv ∧
      x'.kvs = (BTree.parentOf BTree.t (BTree.fullLeafNode BTree.t)).kvs.take (0 : Int).toNat ++
        (mk, mv) :: (BTree.parentOf BTree.t (BTree.fullLeafNode BTree.t)).kvs.drop (0 : Int).toNat ∧
      x'.kids = (BTree.parentOf BTree.t (BTree.fullLeafNode BTree.t)).kids.take (0 : Int).toNat ++
        some ((BTree.fullLeafNode BTree.t).setN (BTree.t - 1)) :: some z ::
          (BTree.parentOf BTree.t (BTree.fullLeafNode BTree.t)).kids.drop ((0 : Int).toNat + 1) ∧
      ((BTree.fullLeafNode BTree.t).setN (BTree.t - 1)).kvs
        = (BTree.fullLeafNode BTree.t).kvs.take (BTree.t - 1).toNat ∧
      z.kvs = (BTree.fullLeafNode BTree.t).kvs.drop BTree.t.toNat ∧ z.n = BTree.t - 1 ∧
      z.leaf = (BTree.fullLeafNode BTree.t).leaf ∧
      (BTree.fullLeafNode BTree.t).kvs = (BTree.fullLeafNode BTree.t).kvs.take (BTree.t - 1).toNat
        ++ (mk, mv) :: (BTree.fullLeafNode BTree.t).kvs.drop BTree.t.toNat ∧
      ((BTree.fullLeafNode BTree.t).leaf = false →
        ((BTree.fullLeafNode BTree.t).setN (BTree.t - 1)).kids
          = (BTree.fullLeafNode BTree.t).kids.take BTree.t.toNat ∧
        z.kids = (BTree.fullLeafNode BTree.t).kids.drop BTree.t.toNat) ∧
      (x'.kvs ++ ((BTree.fullLeafNode BTree.t).setN (BTree.t - 1)).kvs ++ z.kvs).Perm
        ((BTree.parentOf BTree.t (BTree.fullLeafNode BTree.t)).kvs ++
          (BTree.fullLeafNode BTree.t).kvs) :=
  C29_classic_split.1 (BTree.parentOf BTree.t (BTree.fullLeafNode BTree.t))
    (BTree.fullLeafNode BTree.t) 0 (by unfold BTree.Shape; decide) (by decide) (by decide)
    (by decide) rfl (by unfold BTree.Shape; decide) rfl

/-- C21: persistence of the disk-resident tree. The keys of a non-empty list (repeats allowed)
are inserted, each with the value `f` makes of it, into a new disk-resident `BTree` (degree
`t = 16`); the run completes when the recursion budget exceeds the number of keys. Let `s2` be
a tree over the same backing file with the same bookkeeping: the same root position, the same
next-allocation position, and a file that holds the same record at every allocated position
(the positions from 0 up to the next-allocation position). Then `search` on `s2` returns for
every key the result it returns on the original tree, and for every inserted key `k` this is
the value `f k`. (The constructor of the class starts from an empty file; the second tree is
given as a state, not made by it.) -/
theorem C21_disk_persistence (f : Int → Int) (ks : List Int) (fuel : Nat)
    (hne : ks ≠ []) (hf : ks.length < fuel) :
    ∃ s, DiskBTree.insertAll DiskBTree.t fuel DiskBTree.new (ks.map (fun k => (k, f k))) = .ok s ∧
      ∀ s2 : DiskBTree, s2.root_ = s.root_ → s2.next_pos_ = s.next_pos_ →
        (∀ p, 0 ≤ p → p < s.next_pos_ → s2.file p = s.file p) →
        (∀ k, DiskBTree.search DiskBTree.t fuel s2 k = DiskBTree.search DiskBTree.t fuel s k) ∧
        ∀ k ∈ ks, DiskBTree.search DiskBTree.t fuel s2 k = .ok (some (f k)) := by
  obtain ⟨s, E, H⟩ := DiskBTree.insertAll_holds DiskBTree.t (by decide)
    (ks.map (fun k => (k, f k))) fuel DiskBTree.new [] (Or.inl ⟨rfl, rfl⟩) (by simpa using hf)
  obtain ⟨s', E', hall⟩ := DiskBTree.disk_round_trip DiskBTree.t (by decide) f ks fuel hf
  have es : s' = s := by
    rw [E] at E'
    exact (Except.ok.inj E').symm
  subst es
  refine ⟨s', E, ?_⟩
  intro s2 hroot _ hfile
  rcases H with ⟨_, hL⟩ | ⟨h, M, hrep, hw, _, _, _⟩
  · exfalso
    apply hne
    have := congrArg List.length hL
    simpa using this
  · have key : ∀ k, DiskBTree.search DiskBTree.t fuel s2 k
        = DiskBTree.search DiskBTree.t fuel s' k :=
      fun k => DiskBTree.search_persist DiskBTree.t fuel s' s2 h M k hrep hw hroot hfile
    exact ⟨key, fun k hk => by rw [key k]; exact (hall k hk).2⟩

theorem C21_disk_persistence_witness :
    ([3, 1, 3] : List Int) ≠ [] ∧ ([3, 1, 3] : List Int).length < 4 ∧
    ∃ s, DiskBTree.insertAll DiskBTree.t 4 DiskBTree.new
        (([3, 1, 3] : List Int).map (fun k => (k, k + 10))) = .ok s ∧
      ∀ k ∈ ([3, 1, 3] : List Int),
        DiskBTree.search DiskBTree.t 4
          ⟨s.root_, s.next_pos_, fun p => if 0 ≤ p ∧ p < s.next_pos_ then s.file p else none⟩ k
          = .ok (some (k + 10)) :=
  ⟨by decide, by decide,
    match C21_disk_persistence (fun k => k + 10) [3, 1, 3] 4 (by decide) (by decide) with
    | ⟨s, E, H⟩ => ⟨s, E,
        (H ⟨s.root_, s.next_pos_, fun p => if 0 ≤ p ∧ p < s.next_pos_ then s.file p else none⟩
          rfl rfl (fun p h0 h1 => by simp only [h0, h1, and_self, if_true])).2⟩⟩

/-- C30: insert never overflows a node, in the B+ tree (`d = 32`) and in the in-memory classic
tree (`t = 16`). Let a history of `insert` and `remove` calls be applied to a new tree, every
insert being of a key not currently present and every remove being issued while a key is held
(recursion budget `4 * length + 6`), and let `insert(k, v)` then be called (for the B+ tree with
a key `k` that is not present). Then the history and the insert run to completion, so no array
is written out of its range, and in the record of the insert every split, the root split and
each child split on the way down, is made while the parent that receives the promoted key holds
fewer than `2d - 1` (resp. `2t - 1`) keys, and the leaf that finally receives the pair holds
fewer than `2d - 1` (resp. `2t - 1`) pairs at that moment. -/
theorem C30_insert_never_overflows (ops : List Call) (k v : Int) (fuel : Nat)
    (hl : Legal [] ops) (hf : 4 * ops.length + 6 ≤ fuel) :
    (k ∉ (contents [] ops).map Prod.fst →
      ∃ tr tr' log, BPlusTree.runCalls BPlusTree.d fuel ⟨none⟩ ops = .ok tr ∧
        BPlusTree.insert_log BPlusTree.d fuel tr k v = .ok (tr', log) ∧
        BPlusTree.insert BPlusTree.d fuel tr k v = .ok tr' ∧
        ∀ e ∈ log, e.count < 2 * BPlusTree.d - 1) ∧
    ∃ tr tr' log, BTree.runCalls BTree.t fuel (BTree.new BTree.t) ops = .ok tr ∧
      BTree.insert_log BTree.t fuel tr k v = .ok (tr', log) ∧
      BTree.insert BTree.t fuel tr k v = .ok tr' ∧
      ∀ e ∈ log, e.count < 2 * BTree.t - 1 := by
  constructor
  · intro hk
    have hd : (2 : Int) ≤ BPlusTree.d := by decide
    obtain ⟨tr, h, E, hG, hnd, hh⟩ := bp_calls_total BPlusTree.d hd ops [] fuel ⟨none⟩ 0
      (by unfold BPlusTree.Good; simp) (by simp) hl (by omega)
    obtain ⟨r⟩ := tr
    unfold BPlusTree.Good at hG
    cases r with
    | none =>
      simp only at hG
      obtain ⟨hM, rfl⟩ := hG
      obtain ⟨tr', log, L, I, hlog⟩ := BPlusTree.insert_log_some BPlusTree.d hd fuel
        (LeafNode.new BPlusTree.d).toNode 0 [] k v
        (BPlusTree.BInv_leaf.mpr (BPlusTree.new_leaf_inv BPlusTree.d hd))
        (by simp only [LeafNode.toNode, BPlusTree.contents, BPlusTree.new_leaf_pairs]
            exact List.Perm.refl _) (by simp) (by omega)
      refine ⟨⟨none⟩, tr', log, E, ?_, ?_, hlog⟩
      · rw [BPlusTree.insert_log_none]; exact L
      · rw [BPlusTree.insert_none]; exact I
    | some r =>
      simp only at hG
      obtain ⟨tr', log, L, I, hlog⟩ := BPlusTree.insert_log_some BPlusTree.d hd fuel r h
        (contents [] ops) k v hG.1 hG.2 hk (by omega)
      exact ⟨⟨some r⟩, tr', log, E, L, I, hlog⟩
  · obtain ⟨hw0, hi0⟩ := BTree.new_wf BTree.t (by decide)
    obtain ⟨tr, r, h, E, hr, hw, hh, _⟩ :=
      BTree.calls_inv BTree.t (by decide) ops [] fuel (BTree.new BTree.t) 0 _ rfl hw0
        (by rw [hi0]; exact List.Pairwise.nil) (by rw [hi0]) (by simp) hl (by omega)
    obtain ⟨tr', log, L, I, hlog⟩ := BTree.insert_log_ok BTree.t (by decide) h fuel tr r k v hr
      hw (by omega)
    exact ⟨tr, tr', log, E, L, I, hlog⟩

theorem C30_insert_never_overflows_witness :
    Legal [] [Call.ins 1 7, Call.ins 2 8, Call.rem 1] ∧
    4 * [Call.ins 1 7, Call.ins 2 8, Call.rem 1].length + 6 ≤ 18 ∧
    ((3 : Int) ∉ (contents [] [Call.ins 1 7, Call.ins 2 8, Call.rem 1]).map Prod.fst →
      ∃ tr tr' log, BPlusTree.runCalls BPlusTree.d 18 ⟨none⟩
          [Call.ins 1 7, Call.ins 2 8, Call.rem 1] = .ok tr ∧
        BPlusTree.insert_log BPlusTree.d 18 tr 3 9 = .ok (tr', log) ∧
        BPlusTree.insert BPlusTree.d 18 tr 3 9 = .ok tr' ∧
        ∀ e ∈ log, e.count < 2 * BPlusTree.d - 1) ∧
    ∃ tr tr' log, BTree.runCalls BTree.t 18 (BTree.new BTree.t)
        [Call.ins 1 7, Call.ins 2 8, Call.rem 1] = .ok tr ∧
      BTree.insert_log BTree.t 18 tr 3 9 = .ok (tr', log) ∧
      BTree.insert BTree.t 18 tr 3 9 = .ok tr' ∧
      ∀ e ∈ log, e.count < 2 * BTree.t - 1 :=
  ⟨by simp [Legal], by decide,
    C30_insert_never_overflows [Call.ins 1 7, Call.ins 2 8, Call.rem 1] 3 9 18
      (by simp [Legal]) (by decide)⟩

/-- C32: B+ routing. For every node whose first `n ≥ 1` keys are strictly ascending and every key
`k`, `_get_key_index(k)` returns an index `i` in `[0, n - 1]`; when some key of the node is at
least `k` it is the smallest index whose key is at least `k` (the key at `i` is at least `k` and
every key before it is smaller), and when every key is smaller than `k` it is `n - 1`. For an
Internal node the child index that `_get_child_index(k, i)` then returns is the number of keys of
the node that are at most `k`, so a key equal to a separator goes to the child on the right of
the separator. -/
theorem C32_bplus_routing (x : BPNode) (k : Int) (h0 : 1 ≤ x.n) (h1 : x.n ≤ x.key.length)
    (hs : (view x.key x.n).Pairwise (· < ·)) :
    ∃ i, x._get_key_index k = .ok i ∧ 0 ≤ i ∧ i ≤ x.n - 1 ∧
      ((∃ y ∈ view x.key x.n, k ≤ y) →
        (∃ y, (view x.key x.n)[i.toNat]? = some y ∧ k ≤ y) ∧
          ∀ z ∈ (view x.key x.n).take i.toNat, z < k) ∧
      ((∀ y ∈ view x.key x.n, y < k) → i = x.n - 1) ∧
      ∀ n key c, x = .internal n key c →
        (⟨n, key, c⟩ : InternalNode)._get_child_index k i =
          .ok (((view key n).countP (fun y => decide (y ≤ k)) : Nat) : Int) := by
  obtain ⟨ii, E, hi0, hi1, hlt, hge⟩ := get_key_index_run x k (by omega) h1
  have hlen := view_length x.key x.n (by omega) h1
  refine ⟨_, E, ?_, ?_, ?_, ?_, ?_⟩
  · split <;> omega
  · split <;> omega
  · rintro ⟨y, hy, hky⟩
    by_cases hc : ii ≤ x.n - 1
    · rw [if_pos hc]
      have hlt' : ii.toNat < (view x.key x.n).length := by omega
      refine ⟨⟨(view x.key x.n)[ii.toNat], List.getElem?_eq_getElem hlt', ?_⟩, hlt⟩
      exact hge _ (List.getElem?_eq_getElem hlt')
    · exfalso
      have hii : ii = x.n := by omega
      have htake : (view x.key x.n).take ii.toNat = view x.key x.n := by
        apply List.take_of_length_le; omega
      rw [htake] at hlt
      have := hlt y hy
      omega
  · intro hall
    by_cases hc : ii ≤ x.n - 1
    · exfalso
      have hlt' : ii.toNat < (view x.key x.n).length := by omega
      have h2 := hge _ (List.getElem?_eq_getElem hlt')
      have h3 := hall _ (List.getElem_mem hlt')
      omega
    · rw [if_neg hc]
  · intro n key c hx
    subst hx
    obtain ⟨ki, ci, K1, K2, e1, e2, hK, hci, r1, r2, _, _⟩ :=
      InternalNode.routing n key c k h0 h1 hs
    rw [E] at e1
    simp only [Except.ok.injEq] at e1
    rw [e1, e2, hci, hK, List.countP_append]
    have c1 : K1.countP (fun y => decide (y ≤ k)) = K1.length := by
      rw [List.countP_eq_length]
      intro y hy
      simpa using r1 y hy
    have c2 : K2.countP (fun y => decide (y ≤ k)) = 0 := by
      rw [List.countP_eq_zero]
      intro y hy
      have := r2 y hy
      simp only [decide_eq_true_eq]
      omega
    rw [c1, c2]
    simp

theorem C32_bplus_routing_witness :
    ∃ i, (BPNode.internal 3 [10, 20, 30, 0, 0] [none, none, none, none, none, none])._get_key_index
        20 = .ok i ∧ 0 ≤ i ∧
      i ≤ (BPNode.internal 3 [10, 20, 30, 0, 0] [none, none, none, none, none, none]).n - 1 ∧
      ((∃ y ∈ view (BPNode.internal 3 [10, 20, 30, 0, 0] [none, none, none, none, none, none]).key
          (BPNode.internal 3 [10, 20, 30, 0, 0] [none, none, none, none, none, none]).n, 20 ≤ y) →
        (∃ y, (view (BPNode.internal 3 [10, 20, 30, 0, 0] [none, none, none, none, none, none]).key
            (BPNode.internal 3 [10, 20, 30, 0, 0] [none, none, none, none, none, none]).n)[i.toNat]?
              = some y ∧ 20 ≤ y) ∧
          ∀ z ∈ (view (BPNode.internal 3 [10, 20, 30, 0, 0] [none, none, none, none, none, none]).key
            (BPNode.internal 3 [10, 20, 30, 0, 0] [none, none, none, none, none, none]).n).take
              i.toNat, z < 20) ∧
      ((∀ y ∈ view (BPNode.internal 3 [10, 20, 30, 0, 0] [none, none, none, none, none, none]).key
          (BPNode.internal 3 [10, 20, 30, 0, 0] [none, none, none, none, none, none]).n, y < 20) →
        i = (BPNode.internal 3 [10, 20, 30, 0, 0] [none, none, none, none, none, none]).n - 1) ∧
      ∀ n key c, BPNode.internal 3 [10, 20, 30, 0, 0] [none, none, none, none, none, none]
          = .internal n key c →
        (⟨n, key, c⟩ : InternalNode)._get_child_index 20 i =
          .ok (((view key n).countP (fun y => decide (y ≤ 20)) : Nat) : Int) :=
  C32_bplus_routing (.internal 3 [10, 20, 30, 0, 0] [none, none, none, none, none, none]) 20
    (by decide) (by decide) (by decide)

/-- C33: merge of B+ Internal nodes. The arrays have the capacities of the header; `left` and
`right` hold `d - 1` keys each and are the children `i` and `i + 1` of the parent (`0 ≤ i < n`).
Then `left._merge(p, i, right)` returns; `left` then holds `2d - 1` keys, its old keys, then the
old key `i` of the parent, then the keys of `right`, and `2d` children, its old children followed
by those of `right`; the parent holds `n - 1` keys, its old keys without the key at index `i`
and its old children without the child at index `i + 1`, in their order. -/
theorem C33_internal_merge (kx ky : List Int) (cx cy : List (Option BPNode)) (n : Int)
    (key : List Int) (c : List (Option BPNode)) (i : Int)
    (hkx : (kx.length : Int) = 2 * BPlusTree.d - 1) (hcx : (cx.length : Int) = 2 * BPlusTree.d)
    (hky : (ky.length : Int) = 2 * BPlusTree.d - 1) (hcy : (cy.length : Int) = 2 * BPlusTree.d)
    (hkl : (key.length : Int) = 2 * BPlusTree.d - 1) (hcl : (c.length : Int) = 2 * BPlusTree.d)
    (hn : n ≤ 2 * BPlusTree.d - 1) (hi0 : 0 ≤ i) (hi : i < n)
    (hL : rd c i = .ok (some (.internal (BPlusTree.d - 1) kx cx)))
    (hR : rd c (i + 1) = .ok (some (.internal (BPlusTree.d - 1) ky cy))) :
    ∃ Z s key' c',
      InternalNode._merge BPlusTree.d ⟨BPlusTree.d - 1, kx, cx⟩ (.internal n key c) i
        (.internal (BPlusTree.d - 1) ky cy) = .ok (Z, .internal (n - 1) key' c') ∧
      rd key i = .ok s ∧ Z.n = 2 * BPlusTree.d - 1 ∧
      view Z.key Z.n = view kx (BPlusTree.d - 1) ++ s :: view ky (BPlusTree.d - 1) ∧
      view Z.c (Z.n + 1) = view cx BPlusTree.d ++ view cy BPlusTree.d ∧
      (view Z.c (Z.n + 1)).length = (2 * BPlusTree.d).toNat ∧
      view key' (n - 1) = (view key n).eraseIdx i.toNat ∧
      view c' (n - 1 + 1) = (view c (n + 1)).eraseIdx (i.toNat + 1) := by
  have hd : (1 : Int) ≤ BPlusTree.d := by decide
  have dv : BPlusTree.d = 32 := rfl
  have lk := view_length key n (by omega) (by omega)
  have lc := view_length c (n + 1) (by omega) (by omega)
  obtain ⟨s, gk⟩ : ∃ s, (view key n)[i.toNat]? = some s :=
    ⟨_, List.getElem?_eq_getElem (by omega)⟩
  obtain ⟨oX, gc1⟩ : ∃ o, (view c (n + 1))[i.toNat]? = some o :=
    ⟨_, List.getElem?_eq_getElem (by omega)⟩
  obtain ⟨oY, gc2⟩ : ∃ o, (view c (n + 1))[i.toNat + 1]? = some o :=
    ⟨_, List.getElem?_eq_getElem (by omega)⟩
  obtain ⟨eK, lK⟩ := decomp_at gk
  obtain ⟨eC, lC⟩ := decomp_at2 gc1 gc2
  have eI : (((view key n).take i.toNat).length : Int) = i := by rw [lK]; omega
  obtain ⟨Z, key', c', E, _, _, q3, q4, zn, _, _, vk, vc⟩ :=
    InternalNode.inner_merge_arrays BPlusTree.d hd _ (BPlusTree.d - 1) kx cx (BPlusTree.d - 1)
      ky cy hkx hcx rfl (by decide) (le_refl _) (by omega) (by omega) n key c _ _ _ _ _ _
      (by omega) (by omega) eK eC (by rw [lK, lC])
  rw [eI] at E
  refine ⟨Z, s, key', c', E, ?_, by omega, vk, ?_, ?_, ?_, ?_⟩
  · have := InternalNode.rd_sep eK
    rw [eI] at this
    exact this
  · rw [vc]; rfl
  · rw [vc, List.length_append, view_length cx _ (by decide) (by omega),
      view_length cy _ (by decide) (by omega)]
    rfl
  · rw [q3]; exact erase_at gk
  · rw [q4]; exact erase_next gc1 gc2

theorem C33_internal_merge_witness :
    ∃ Z s key' c',
      InternalNode._merge BPlusTree.d
        ⟨BPlusTree.d - 1, (InternalNode.ofKeys BPlusTree.d (List.replicate 31 1)).key,
          (InternalNode.ofKeys BPlusTree.d []).c⟩
        (.internal 1
          (InternalNode.ofTwo BPlusTree.d
            (.internal (BPlusTree.d - 1) (InternalNode.ofKeys BPlusTree.d (List.replicate 31 1)).key
              (InternalNode.ofKeys BPlusTree.d []).c)
            (.internal (BPlusTree.d - 1) (InternalNode.ofKeys BPlusTree.d (List.replicate 31 9)).key
              (InternalNode.ofKeys BPlusTree.d []).c) 5).key
          (InternalNode.ofTwo BPlusTree.d
            (.internal (BPlusTree.d - 1) (InternalNode.ofKeys BPlusTree.d (List.replicate 31 1)).key
              (InternalNode.ofKeys BPlusTree.d []).c)
            (.internal (BPlusTree.d - 1) (InternalNode.ofKeys BPlusTree.d (List.replicate 31 9)).key
              (InternalNode.ofKeys BPlusTree.d []).c) 5).c) 0
        (.internal (BPlusTree.d - 1) (InternalNode.ofKeys BPlusTree.d (List.replicate 31 9)).key
          (InternalNode.ofKeys BPlusTree.d []).c) = .ok (Z, .internal (1 - 1) key' c') ∧
      Z.n = 2 * BPlusTree.d - 1 ∧
      view Z.key Z.n = view (InternalNode.ofKeys BPlusTree.d (List.replicate 31 1)).key
        (BPlusTree.d - 1) ++ s ::
          view (InternalNode.ofKeys BPlusTree.d (List.replicate 31 9)).key (BPlusTree.d - 1) :=
  match C33_internal_merge (InternalNode.ofKeys BPlusTree.d (List.replicate 31 1)).key
      (InternalNode.ofKeys BPlusTree.d (List.replicate 31 9)).key
      (InternalNode.ofKeys BPlusTree.d []).c (InternalNode.ofKeys BPlusTree.d []).c 1
      (InternalNode.ofTwo BPlusTree.d
        (.internal (BPlusTree.d - 1) (InternalNode.ofKeys BPlusTree.d (List.replicate 31 1)).key
          (InternalNode.ofKeys BPlusTree.d []).c)
        (.internal (BPlusTree.d - 1) (InternalNode.ofKeys BPlusTree.d (List.replicate 31 9)).key
          (InternalNode.ofKeys BPlusTree.d []).c) 5).key
      (InternalNode.ofTwo BPlusTree.d
        (.internal (BPlusTree.d - 1) (InternalNode.ofKeys BPlusTree.d (List.replicate 31 1)).key
          (InternalNode.ofKeys BPlusTree.d []).c)
        (.internal (BPlusTree.d - 1) (InternalNode.ofKeys BPlusTree.d (List.replicate 31 9)).key
          (InternalNode.ofKeys BPlusTree.d []).c) 5).c 0
      (by decide) (by decide) (by decide) (by decide) (by decide) (by decide) (by decide)
      (by decide) (by decide) rfl rfl with
  | ⟨Z, s, key', c', E, _, zn, vk, _⟩ => ⟨Z, s, key', c', E, zn, vk⟩

/-- C34: borrow between B+ leaves. Let `X` (left) and `Y` (right) be flushed leaves with arrays of
the capacities of the header whose main pages, read one after the other, are strictly ascending,
and let `i` be the index of a key slot of their parent. If `X` holds a pair and `Y` has room,
`Y._borrow_from_left(p, i, X)` returns: the last (largest) pair of `X` has become the first pair
of `Y` and nothing else has moved, `X` holds one pair less and `Y` one more, both main pages are
strictly ascending, the parent keeps its key count and its children, and its key `i` is the
first key of `Y`. If `Y` holds at least two pairs and `X` has room,
`X._borrow_from_right(p, i, Y)` returns: the first (smallest) pair of `Y` has become the last
pair of `X` and nothing else has moved, `Y` holds one pair less and `X` one more, both main pages
are strictly ascending, the parent keeps its key count and its children, and its key `i` is the
first key of `Y` after the move. -/
theorem C34_leaf_borrow (X Y : LeafNode) (n : Int) (key : List Int) (c : List (Option BPNode))
    (i : Int) (hSX : X.Shape BPlusTree.d) (hSY : Y.Shape BPlusTree.d) (hoX : X.overflow_n = 0)
    (hoY : Y.overflow_n = 0) (hs : StrictKV (X.kvs ++ Y.kvs)) (hi0 : 0 ≤ i)
    (hi1 : i < key.length) :
    (1 ≤ X.n → Y.n < 2 * BPlusTree.d - 1 →
      ∃ X' Y' km vm, Y._borrow_from_left (.internal n key c) i (.leaf X)
          = .ok (Y', .internal n (key.set i.toNat km) c, .leaf X') ∧
        X.kvs = X'.kvs ++ [(km, vm)] ∧ Y'.kvs = (km, vm) :: Y.kvs ∧
        X'.n = X.n - 1 ∧ Y'.n = Y.n + 1 ∧ X'.overflow_n = 0 ∧ Y'.overflow_n = 0 ∧
        StrictKV X'.kvs ∧ StrictKV Y'.kvs ∧ (∀ q ∈ X'.kvs, q.1 < km) ∧
        rd (key.set i.toNat km) i = .ok km) ∧
    (2 ≤ Y.n → X.n < 2 * BPlusTree.d - 1 →
      ∃ X' Y' k0 v0 k1 v1 R, X._borrow_from_right (.internal n key c) i (.leaf Y)
          = .ok (X', .internal n (key.set i.toNat k1) c, .leaf Y') ∧
        Y.kvs = (k0, v0) :: Y'.kvs ∧ Y'.kvs = (k1, v1) :: R ∧ X'.kvs = X.kvs ++ [(k0, v0)] ∧
        X'.n = X.n + 1 ∧ Y'.n = Y.n - 1 ∧ X'.overflow_n = 0 ∧ Y'.overflow_n = 0 ∧
        StrictKV X'.kvs ∧ StrictKV Y'.kvs ∧ (∀ q ∈ Y'.kvs, k0 < q.1) ∧
        rd (key.set i.toNat k1) i = .ok k1) := by
  have hd : (2 : Int) ≤ BPlusTree.d := by decide
  obtain ⟨hsX, hsY, hXY⟩ := List.pairwise_append.mp hs
  have hrd : ∀ km : Int, rd (key.set i.toNat km) i = .ok km := by
    intro km
    apply rd_ok (by omega)
    rw [List.getElem?_set_self (by omega)]
  constructor
  · intro hXn hYn
    obtain ⟨X', Y', km, vm, E, e1, e2, n1, n2, o1, o2, s1, s2, _, _⟩ :=
      LeafNode.borrow_left_exact BPlusTree.d hd X Y hSX hSY hoX hoY hsX hsY hXY hXn hYn n key c i
        hi0 hi1
    refine ⟨X', Y', km, vm, E, e1, e2, n1, n2, o1, o2, s1, s2, ?_, hrd km⟩
    intro q hq
    rw [e1] at hsX
    exact (List.pairwise_append.mp hsX).2.2 q hq (km, vm) (by simp)
  · intro hYn hXn
    obtain ⟨X', Y', k0, v0, k1, v1, R, E, e1, e2, e3, n1, n2, o1, o2, s1, s2, _, _⟩ :=
      LeafNode.borrow_right_exact BPlusTree.d hd X Y hSX hSY hoX hoY hsX hsY hXY hYn hXn n key c
        i hi0 hi1
    refine ⟨X', Y', k0, v0, k1, v1, R, E, e1, e2, e3, n1, n2, o1, o2, s1, s2, ?_, hrd k1⟩
    intro q hq
    rw [e1] at hsY
    exact (List.pairwise_cons.mp hsY).1 q hq

theorem C34_leaf_borrow_witness :
    ∃ X' Y' km vm, (LeafNode.ofKeys BPlusTree.d [5, 6, 7])._borrow_from_left
        (.internal 1 (InternalNode.ofKeys BPlusTree.d [5]).key
          (InternalNode.ofKeys BPlusTree.d [5]).c) 0 (.leaf (LeafNode.ofKeys BPlusTree.d [1, 2, 3]))
          = .ok (Y', .internal 1 ((InternalNode.ofKeys BPlusTree.d [5]).key.set (0 : Int).toNat km)
            (InternalNode.ofKeys BPlusTree.d [5]).c, .leaf X') ∧
      (LeafNode.ofKeys BPlusTree.d [1, 2, 3]).kvs = X'.kvs ++ [(km, vm)] ∧
      Y'.kvs = (km, vm) :: (LeafNode.ofKeys BPlusTree.d [5, 6, 7]).kvs :=
  match (C34_leaf_borrow (LeafNode.ofKeys BPlusTree.d [1, 2, 3])
      (LeafNode.ofKeys BPlusTree.d [5, 6, 7]) 1 (InternalNode.ofKeys BPlusTree.d [5]).key
      (InternalNode.ofKeys BPlusTree.d [5]).c 0 (by unfold LeafNode.Shape; decide)
      (by unfold LeafNode.Shape; decide) rfl rfl (by unfold StrictKV; decide)
      (by decide) (by decide)).1 (by decide) (by decide) with
  | ⟨X', Y', km, vm, E, e1, e2, _⟩ => ⟨X', Y', km, vm, E, e1, e2⟩

/-- C35: predecessor and successor in the in-memory classic tree (`t = 16`). Let `p` be a
well-formed Internal node (all leaves at one depth, every node shaped, every node below `p`
with at least `t - 1` keys) whose in-order reading is ascending, and `0 ≤ i < p.n`. Then
`_get_pred(p, i)` returns the last pair of the in-order reading of the subtree under child `i`,
whose key is the largest of that subtree, and `_get_succ(p, i)` returns the first pair of the
reading of the subtree under child `i + 1`, whose key is the smallest of that subtree. And
`_remove_from_non_leaf(p, i)` replaces pair `i` by the predecessor and removes the predecessor
key from child `i` when child `i` holds more than `t - 1` keys; else it replaces pair `i` by
the successor and removes the successor key from child `i + 1` when that child holds more than
`t - 1` keys; else it merges the two children and removes the key from the merged node. -/
theorem C35_pred_succ (p : BTree.Node) (h : Nat) (i : Int) (fuel : Nat)
    (hw : BTree.WF BTree.t (h + 1) p) (hs : SortedKV (BTree.inorder (h + 1) (some p)))
    (hi0 : 0 ≤ i) (hi : i < p.n) (hf : h < fuel) :
    ∃ l r k, rd p.c i = .ok (some l) ∧ rd p.c (i + 1) = .ok (some r) ∧ rd p.key i = .ok k ∧
      (∃ pr L0, BTree._get_pred fuel p i = .ok pr ∧ BTree.inorder h (some l) = L0 ++ [pr] ∧
        ∀ q ∈ BTree.inorder h (some l), q.1 ≤ pr.1) ∧
      (∃ su L0, BTree._get_succ fuel p i = .ok su ∧ BTree.inorder h (some r) = su :: L0 ∧
        ∀ q ∈ BTree.inorder h (some r), su.1 ≤ q.1) ∧
      ∀ f : Nat,
        (l.n > BTree.t - 1 → BTree._remove_from_non_leaf BTree.t (f + 1) p i = (do
          let pr ← BTree._get_pred f p i
          let x := p.setKey (← wr p.key i pr.1)
          let x := x.setVal (← wr x.val i pr.2)
          let (l', res) ← BTree._remove_node BTree.t f (some l) pr.1
          return (some (x.setC (← wr x.c i l')), res))) ∧
        (¬ l.n > BTree.t - 1 → r.n > BTree.t - 1 →
          BTree._remove_from_non_leaf BTree.t (f + 1) p i = (do
            let su ← BTree._get_succ f p i
            let x := p.setKey (← wr p.key i su.1)
            let x := x.setVal (← wr x.val i su.2)
            let (r', res) ← BTree._remove_node BTree.t f (some r) su.1
            return (some (x.setC (← wr x.c (i + 1) r')), res))) ∧
        (¬ l.n > BTree.t - 1 → ¬ r.n > BTree.t - 1 →
          BTree._remove_from_non_leaf BTree.t (f + 1) p i = (do
            let x ← BTree._merge p i
            let xs ← if x.n = 0 then rd x.c 0 else pure (some x)
            BTree._remove_node BTree.t f xs k)) := by
  have hS := hw.shape
  obtain ⟨h1, h2, h3, h4, h5⟩ := hS
  have hlen := BTree.Shape.kvs_length hw.shape
  obtain ⟨m, gm⟩ : ∃ m, p.kvs[i.toNat]? = some m := ⟨_, List.getElem?_eq_getElem (by omega)⟩
  obtain ⟨eK, lK⟩ := decomp_at gm
  obtain ⟨S1, l, r, S2, hk, hl⟩ := BTree.kids_decomp2 hw eK
  have eI : ((S1.length : Nat) : Int) = i := by rw [hl, lK]; omega
  obtain ⟨rl, wl, nl, _⟩ := BTree.WF.kid_at hw hk
  have hk2 : p.kids = (S1 ++ [some l]) ++ some r :: S2 := by rw [hk]; simp
  obtain ⟨rr, wr', nr, _⟩ := BTree.WF.kid_at hw hk2
  rw [eI] at rl
  have eI2 : (((S1 ++ [some l]).length : Nat) : Int) = i + 1 := by
    rw [List.length_append]; simp; omega
  rw [eI2] at rr
  obtain ⟨k, rk⟩ := rd_total p.key i hi0 (by omega)
  have tv : BTree.t = 16 := rfl
  obtain ⟨pr, L0, Ep, hp⟩ := BTree.get_pred_loop_spec BTree.t (by decide) h fuel l wl (by omega) hf
  obtain ⟨su, L1, Es, hsu⟩ := BTree.get_succ_loop_spec BTree.t (by decide) h fuel r wr' (by omega)
    hf
  have gl : p.kids[S1.length]? = some (some l) := by
    rw [hk, List.getElem?_append_right (le_refl _)]; simp
  have gr : p.kids[(S1 ++ [some l]).length]? = some (some r) := by
    rw [hk2, List.getElem?_append_right (le_refl _)]; simp
  have sl := BTree.WF.kid_sorted hw gl hs
  have sr := BTree.WF.kid_sorted hw gr hs
  refine ⟨l, r, k, rl, rr, rk, ⟨pr, L0, ?_, hp, ?_⟩, ⟨su, L1, ?_, hsu, ?_⟩, ?_⟩
  · simp only [BTree._get_pred, rl, Except.ok_bind, deref, Ep]
  · intro q hq
    rw [hp] at hq sl
    rcases List.mem_append.mp hq with hq | hq
    · exact (List.pairwise_append.mp sl).2.2 q hq pr (by simp)
    · simp only [List.mem_singleton] at hq
      rw [hq]
  · simp only [BTree._get_succ, rr, Except.ok_bind, deref, Es]
  · intro q hq
    rw [hsu] at hq sr
    rcases List.mem_cons.mp hq with hq | hq
    · rw [hq]
    · exact (List.pairwise_cons.mp sr).1 q hq
  · intro f
    refine ⟨?_, ?_, ?_⟩
    · intro hln
      simp only [BTree._remove_from_non_leaf, rk, rl, rr, Except.ok_bind, deref, hln, if_true,
        ite_true]
    · intro hln hrn
      simp only [BTree._remove_from_non_leaf, rk, rl, rr, Except.ok_bind, deref, hln, hrn,
        if_true, ite_true, if_false, ite_false, pure_bind]
    · intro hln hrn
      simp only [BTree._remove_from_non_leaf, rk, rl, rr, Except.ok_bind, deref, hln, hrn,
        if_false, ite_false, pure_bind]

theorem C35_pred_succ_witness :
    ∃ pr su, BTree._get_pred 1 BTree.twoLeafNode 0 = .ok pr ∧
      BTree._get_succ 1 BTree.twoLeafNode 0 = .ok su ∧
      (∀ q ∈ BTree.inorder 0 (some (BTree.leafOf BTree.t (BTree.keysFrom 1 15))), q.1 ≤ pr.1) ∧
      (∀ q ∈ BTree.inorder 0 (some (BTree.leafOf BTree.t (BTree.keysFrom 17 15))),
        su.1 ≤ q.1) := by
  have hW : BTree.WF BTree.t (0 + 1) BTree.twoLeafNode := by
    refine ⟨by unfold BTree.Shape; decide, rfl, ?_⟩
    intro o ho
    have hk : BTree.twoLeafNode.kids = [some (BTree.leafOf BTree.t (BTree.keysFrom 1 15)),
        some (BTree.leafOf BTree.t (BTree.keysFrom 17 15))] := by rfl
    rw [hk] at ho
    simp only [List.mem_cons, List.mem_singleton, List.not_mem_nil, or_false] at ho
    rcases ho with rfl | rfl
    · exact ⟨_, rfl, ⟨by unfold BTree.Shape; decide, rfl⟩, by decide⟩
    · exact ⟨_, rfl, ⟨by unfold BTree.Shape; decide, rfl⟩, by decide⟩
  have hS : SortedKV (BTree.inorder (0 + 1) (some BTree.twoLeafNode)) := by
    unfold SortedKV; decide
  obtain ⟨l, r, k, rl, rr, _, ⟨pr, L0, Ep, _, hp⟩, ⟨su, L1, Es, _, hsu⟩, _⟩ :=
    C35_pred_succ BTree.twoLeafNode 0 0 1 hW hS (by decide) (by decide) (by decide)
  have el : l = BTree.leafOf BTree.t (BTree.keysFrom 1 15) := by
    have h1 : rd BTree.twoLeafNode.c 0
        = .ok (some (BTree.leafOf BTree.t (BTree.keysFrom 1 15))) := rfl
    rw [h1] at rl
    simp only [Except.ok.injEq, Option.some.injEq] at rl
    exact rl.symm
  have er : r = BTree.leafOf BTree.t (BTree.keysFrom 17 15) := by
    have h1 : rd BTree.twoLeafNode.c (0 + 1)
        = .ok (some (BTree.leafOf BTree.t (BTree.keysFrom 17 15))) := rfl
    rw [h1] at rr
    simp only [Except.ok.injEq, Option.some.injEq] at rr
    exact rr.symm
  subst el er
  exact ⟨pr, su, Ep, Es, hp, hsu⟩

/-- C38: search-tree ordering of the B+ tree (`d = 32`). Let a history of `insert` and `remove`
calls in which every insert is of a key not currently present be applied to the empty tree
(recursion budget at least the length of the history plus one), and let it run to completion.
Then in the tree reached, for every Internal node reachable from the root, the root included,
and every index `i` below its key count, the children `i` and `i + 1` exist, every key stored
in the subtree under child `i`, in a main page or in an overflow block, is smaller than `key[i]`,
and every key stored in the subtree under child `i + 1` is at least `key[i]`. A history in which
moreover every remove is issued while a key is held does run to completion. -/
theorem C38_bplus_ordering (ops : List Call) (fuel : Nat) (hF : Fresh [] ops)
    (hf : ops.length + 1 ≤ fuel) :
    (∀ tr, BPlusTree.runCalls BPlusTree.d fuel ⟨none⟩ ops = .ok tr → ∀ r, tr.root_ = some r →
      ∀ n key c, (r = .internal n key c ∨ BPlusTree.Under r (.internal n key c)) →
        ∀ i, 0 ≤ i → i < n →
          ∃ a b s, rd key i = .ok s ∧ rd c i = .ok (some a) ∧ rd c (i + 1) = .ok (some b) ∧
            (∀ k, BPlusTree.Stored a k → k < s) ∧ (∀ k, BPlusTree.Stored b k → s ≤ k)) ∧
    (Legal [] ops → ∃ tr, BPlusTree.runCalls BPlusTree.d fuel ⟨none⟩ ops = .ok tr) := by
  have hd : (2 : Int) ≤ BPlusTree.d := by decide
  constructor
  · intro tr E r hr n key c hx i hi0 hi1
    obtain ⟨h, hG, _⟩ := bp_calls_partial BPlusTree.d hd ops [] fuel ⟨none⟩ 0
      (bp_good_new BPlusTree.d) (by simp) hF (by omega) tr E
    unfold BPlusTree.Good at hG
    rw [hr] at hG
    simp only at hG
    have hnode : ∃ h' lo hi, BPlusTree.BInv BPlusTree.d h' lo hi (.internal n key c) := by
      rcases hx with rfl | hu
      · exact ⟨h, none, none, hG.1⟩
      · obtain ⟨h', lo, hi, hI, _⟩ := BPlusTree.BInv.under BPlusTree.d r _ hu h none none hG.1
        exact ⟨h', lo, hi, hI⟩
    obtain ⟨h', lo, hi, hI⟩ := hnode
    cases h' with
    | zero => simp [BPlusTree.BInv] at hI
    | succ h0 => exact BPlusTree.separator_order BPlusTree.d hd hI i hi0 hi1
  · intro hL
    obtain ⟨tr, _, E, _⟩ := bp_calls_total BPlusTree.d hd ops [] fuel ⟨none⟩ 0
      (bp_good_new BPlusTree.d) (by simp) hL (by omega)
    exact ⟨tr, E⟩

theorem C38_bplus_ordering_witness :
    ∃ tr, BPlusTree.runCalls BPlusTree.d 4 ⟨none⟩ [Call.ins 1 7, Call.ins 2 8, Call.rem 1]
        = .ok tr ∧
      ∀ r, tr.root_ = some r →
        ∀ n key c, (r = .internal n key c ∨ BPlusTree.Under r (.internal n key c)) →
          ∀ i, 0 ≤ i → i < n →
            ∃ a b s, rd key i = .ok s ∧ rd c i = .ok (some a) ∧ rd c (i + 1) = .ok (some b) ∧
              (∀ k, BPlusTree.Stored a k → k < s) ∧ (∀ k, BPlusTree.Stored b k → s ≤ k) :=
  match (C38_bplus_ordering [Call.ins 1 7, Call.ins 2 8, Call.rem 1] 4 (by simp [Fresh])
      (by decide)).2 (by simp [Legal]) with
  | ⟨tr, E⟩ => ⟨tr, E, (C38_bplus_ordering [Call.ins 1 7, Call.ins 2 8, Call.rem 1] 4
      (by simp [Fresh]) (by decide)).1 tr E⟩

/-- C36: leaf capacity of the B+ tree (`d = 32`). A history of `insert` and `remove` calls starts
from the empty tree; no condition is put on the keys. If the history runs to completion, then
every leaf of the tree it reaches (the root if it is a leaf, and every leaf under the root) has
main pages of `2d - 1` slots and `n + overflow_n ≤ 2d - 1`; a history in which every insert is of
an absent key and every remove is issued while a key is held does run to completion when the
recursion budget is at least its length plus one, so none of its flushes writes outside the main
page (a write outside an array is an error of the model). On a leaf whose counts are within the
capacities `_load_overflow` runs and moves all waiting pairs to the main page; a completed flush
of a leaf with main pages of `2d - 1` slots ends with at most `2d - 1` pairs there and none
waiting, a completed `_insert_main` was called with fewer than `2d - 1` pairs on the main page,
and a completed `LeafNode::_merge` of a leaf within capacity leaves the merged leaf within
capacity. -/
theorem C36_leaf_capacity (ops : List Call) (fuel : Nat) :
    (∀ tr r, BPlusTree.runCalls BPlusTree.d fuel ⟨none⟩ ops = .ok tr → tr.root_ = some r →
      ∀ y, (r = .leaf y ∨ BPlusTree.Under r (.leaf y)) →
        y.n + y.overflow_n ≤ 2 * BPlusTree.d - 1 ∧ 0 ≤ y.overflow_n ∧
        (y.key.length : Int) = 2 * BPlusTree.d - 1 ∧
        (y.val.length : Int) = 2 * BPlusTree.d - 1) ∧
    (Legal [] ops → ops.length + 1 ≤ fuel →
      ∃ tr, BPlusTree.runCalls BPlusTree.d fuel ⟨none⟩ ops = .ok tr) ∧
    (∀ (x : LeafNode), x.Shape BPlusTree.d →
      ∃ x1, x._load_overflow = .ok x1 ∧ x1.overflow_n = 0 ∧ x1.n = x.n + x.overflow_n ∧
        x1.n ≤ 2 * BPlusTree.d - 1) ∧
    (∀ (x x1 : LeafNode), x.Fit BPlusTree.d → x._load_overflow = .ok x1 →
      x1.n ≤ 2 * BPlusTree.d - 1 ∧ x1.overflow_n = 0 ∧
        (x1.key.length : Int) = 2 * BPlusTree.d - 1 ∧
        (x1.val.length : Int) = 2 * BPlusTree.d - 1) ∧
    (∀ (x x1 : LeafNode) (k v : Int), x.Fit BPlusTree.d → x._insert_main k v = .ok x1 →
      x.n < 2 * BPlusTree.d - 1 ∧ x1.n = x.n + 1 ∧
        (x1.key.length : Int) = 2 * BPlusTree.d - 1 ∧
        (x1.val.length : Int) = 2 * BPlusTree.d - 1) ∧
    (∀ (x s : LeafNode) (p q r : BPNode) (i : Int), x.Cap BPlusTree.d →
      BPlusTree.Lev BPlusTree.d 1 p → x._merge BPlusTree.d p i r = .ok (s, q) →
      s.n + s.overflow_n ≤ 2 * BPlusTree.d - 1 ∧
        (s.key.length : Int) = 2 * BPlusTree.d - 1) := by
  have hd : (2 : Int) ≤ BPlusTree.d := by decide
  have hd2 : (1 : Int) ≤ BPlusTree.d / 2 := by decide
  refine ⟨?_, ?_, ?_, ?_, ?_, ?_⟩
  · intro tr r hrun hr y hy
    obtain ⟨g, hT⟩ := BPlusTree.runCalls_lev hd2 hrun ⟨0, fun r0 h0 => by cases h0⟩
    obtain ⟨⟨q1, q2, _, _, q5, _, _⟩, hc⟩ := BPlusTree.lev_leaf_cap (hT r hr) hy
    exact ⟨hc, q5, q1, q2⟩
  · intro hL hf
    obtain ⟨tr, _, E, _⟩ := bp_calls_total BPlusTree.d hd ops [] fuel ⟨none⟩ 0
      (bp_good_new _) (by simp) hL (by omega)
    exact ⟨tr, E⟩
  · intro x hS
    obtain ⟨x1, E, o1, n1, _, _⟩ := LeafNode.load_total BPlusTree.d x hS
    exact ⟨x1, E, o1, n1, by rw [n1]; exact hS.2.2.2.2.2.2.2⟩
  · intro x x1 hx hl
    obtain ⟨⟨q1, q2, _, _, _, _, q7⟩, o1⟩ := LeafNode.load_fit hl hx
    exact ⟨q7, o1, q1, q2⟩
  · intro x x1 k v hx hi
    obtain ⟨⟨q1, q2, _, _, _, _, q7⟩, n1, _⟩ := LeafNode.insert_main_fit hi hx
    exact ⟨by omega, n1, q1, q2⟩
  · intro x s p q r i hx hp hm
    obtain ⟨⟨⟨q1, _⟩, hc⟩, _⟩ := BPlusTree.leaf_merge_lev hm hx hp
    exact ⟨hc, q1⟩

theorem C36_leaf_capacity_witness :
    ∃ tr, BPlusTree.runCalls BPlusTree.d 4 ⟨none⟩ [Call.ins 5 1, Call.ins 3 2, Call.rem 5]
        = .ok tr ∧
      ∀ r, tr.root_ = some r → ∀ y, (r = .leaf y ∨ BPlusTree.Under r (.leaf y)) →
        y.n + y.overflow_n ≤ 2 * BPlusTree.d - 1 ∧ 0 ≤ y.overflow_n ∧
        (y.key.length : Int) = 2 * BPlusTree.d - 1 ∧
        (y.val.length : Int) = 2 * BPlusTree.d - 1 :=
  match (C36_leaf_capacity [Call.ins 5 1, Call.ins 3 2, Call.rem 5] 4).2.1
      (by simp [Legal]) (by decide) with
  | ⟨tr, E⟩ => ⟨tr, E, fun r hr =>
      (C36_leaf_capacity [Call.ins 5 1, Call.ins 3 2, Call.rem 5] 4).1 tr r E hr⟩

/-- C37: balance of the B+ tree (`d = 32`) and of the in-memory classic tree (`t = 16`). A
history of `insert` and `remove` calls starts from the empty tree. B+ tree: whatever the keys, if
the history runs to completion then there is a depth `h` such that every leaf reached from the
root is reached in exactly `h` steps (`h = 0` when the root is a leaf); a history in which every
insert is of an absent key and every remove is issued while a key is held does run to completion
when the recursion budget is at least its length plus one. Classic tree: every history in which
no remove is issued on an empty tree, keys inserted any number of times, runs to completion when
the recursion budget is at least four times its length plus two, and in the tree it reaches
every node with the leaf flag is reached from the root in exactly `h` steps (`h = 0` when the
root is a leaf). -/
theorem C37_balance (ops : List Call) (fuel : Nat) :
    (∀ tr r, BPlusTree.runCalls BPlusTree.d fuel ⟨none⟩ ops = .ok tr → tr.root_ = some r →
      ∃ h : Nat, (r.leaf_ = true → h = 0) ∧
        ∀ j y, BPlusTree.UnderAt r j (.leaf y) → j = h) ∧
    (Legal [] ops → ops.length + 1 ≤ fuel →
      ∃ tr, BPlusTree.runCalls BPlusTree.d fuel ⟨none⟩ ops = .ok tr) ∧
    (Held [] ops → 4 * ops.length + 2 ≤ fuel →
      ∃ tr r, ∃ h : Nat, BTree.runCalls BTree.t fuel (BTree.new BTree.t) ops = .ok tr ∧
        tr.root_ = some r ∧ (r.leaf = true → h = 0) ∧
        ∀ j y, BTree.BelowAt r j y → y.leaf = true → j = h) := by
  have hd : (2 : Int) ≤ BPlusTree.d := by decide
  have hd2 : (1 : Int) ≤ BPlusTree.d / 2 := by decide
  refine ⟨?_, ?_, ?_⟩
  · intro tr r hrun hr
    obtain ⟨g, hT⟩ := BPlusTree.runCalls_lev hd2 hrun ⟨0, fun r0 h0 => by cases h0⟩
    exact ⟨g, BPlusTree.lev_leaf_flag (hT r hr),
      fun j y hu => BPlusTree.lev_leaf_depth hu (hT r hr)⟩
  · intro hL hf
    obtain ⟨tr, _, E, _⟩ := bp_calls_total BPlusTree.d hd ops [] fuel ⟨none⟩ 0
      (bp_good_new _) (by simp) hL (by omega)
    exact ⟨tr, E⟩
  · intro hH hf
    obtain ⟨hw0, hi0⟩ := BTree.new_wf BTree.t (by decide)
    obtain ⟨tr, r, h, E, hr, hw, _⟩ :=
      BTree.held_inv BTree.t (by decide) ops [] fuel (BTree.new BTree.t) 0 _ rfl hw0
        (by rw [hi0]; exact List.Pairwise.nil) (by rw [hi0]; exact List.Perm.refl _) hH
        (by omega)
    refine ⟨tr, r, h, E, hr, BTree.wf_leaf_zero hw, ?_⟩
    intro j y hb hl
    obtain ⟨g, e, hy⟩ := BTree.wf_belowAt hb hw
    have := BTree.wf_leaf_zero hy hl
    omega

theorem C37_balance_witness :
    ∃ tr r, ∃ h : Nat, BTree.runCalls BTree.t 14 (BTree.new BTree.t)
        [Call.ins 4 1, Call.ins 4 2, Call.rem 4] = .ok tr ∧
      tr.root_ = some r ∧ (r.leaf = true → h = 0) ∧
      ∀ j y, BTree.BelowAt r j y → y.leaf = true → j = h :=
  (C37_balance [Call.ins 4 1, Call.ins 4 2, Call.rem 4] 14).2.2 (by simp [Held]) (by decide)

set_option maxRecDepth 100000

/-- C31 (counterexample): in the in-memory classic tree (`t = 16`) the keys 1 .. 48 are inserted
and 48 is removed; the root then holds two keys over three leaves of 15 keys each. The call
`remove(20)` descends into the middle leaf, which holds the minimum `t - 1 = 15` and has a left
and a right sibling, neither above the minimum: `_fill` merges it with its right sibling, not
with its left one. Afterwards the root holds one key, its first child is the untouched left leaf
with 15 keys and its second child holds the 30 remaining keys of the middle and right leaves. -/
theorem C31_classic_fill_merges_with_the_right_sibling :
    (do
      let tr ← BTree.runCalls BTree.t 9 (BTree.new BTree.t) BTree.fillHistory
      let (tr2, _) ← BTree.remove BTree.t 9 tr 20
      pure (BTree.rootShape tr, BTree.rootShape tr2) : Except Err _)
      = .ok (some (false, 2, [some 15, some 15, some 15]), some (false, 1, [some 15, some 30])) := by
  rfl

/-- C31 (amended): the fill policy of the three variants. In `_fill(p, i)` of the in-memory
classic tree and of the disk-resident tree: if `i > 0` and child `i - 1` holds more than `t - 1`
keys the call is `_borrow_from_prev(p, i)`; otherwise, if `i < n` and child `i + 1` holds more
than `t - 1` keys, it is `_borrow_from_next(p, i)`; otherwise, if `i < n` (a right sibling
exists), it is `_merge(p, i)`, the merge of child `i` with child `i + 1`; and only when there is
no right sibling it is `_merge(p, i - 1)`, the merge with the left sibling. In the fill step of
`BPlusTree::_remove`, reached when the flushed child `ci` holds `d - 1` keys, with `l` and `r`
the flushed siblings at `ci - 1` and `ci + 1` (null when there is none): if `l` exists and holds
more than `d - 1` keys the child borrows from `l`; otherwise, if `r` exists and holds more than
`d - 1` keys, it borrows from `r`; otherwise, if `l` exists, `l` is merged with the child; and
only when there is no left sibling the child is merged with `r`. -/
theorem C31_fill_policy :
    (∀ (p : BTree.Node) (i : Int),
      (∀ l, 0 < i → rd p.c (i - 1) = .ok (some l) → l.n > BTree.t - 1 →
        BTree._fill BTree.t p i = BTree._borrow_from_prev p i) ∧
      (∀ r, (0 < i → ∃ l, rd p.c (i - 1) = .ok (some l) ∧ ¬ l.n > BTree.t - 1) → i < p.n →
        rd p.c (i + 1) = .ok (some r) → r.n > BTree.t - 1 →
        BTree._fill BTree.t p i = BTree._borrow_from_next p i) ∧
      (∀ r, (0 < i → ∃ l, rd p.c (i - 1) = .ok (some l) ∧ ¬ l.n > BTree.t - 1) → i < p.n →
        rd p.c (i + 1) = .ok (some r) → ¬ r.n > BTree.t - 1 →
        BTree._fill BTree.t p i = BTree._merge p i) ∧
      ((0 < i → ∃ l, rd p.c (i - 1) = .ok (some l) ∧ ¬ l.n > BTree.t - 1) → ¬ i < p.n →
        BTree._fill BTree.t p i = BTree._merge p (i - 1))) ∧
    (∀ (s : DiskBTree) (x : DNode) (i : Int),
      (∀ pl, 0 < i → rd x.c (i - 1) = .ok pl →
        (DiskBTree._disk_read s (DiskBTree._allocate_node DiskBTree.t pl false)).n
          > DiskBTree.t - 1 →
        DiskBTree._fill DiskBTree.t s x i = DiskBTree._borrow_from_prev DiskBTree.t s x i) ∧
      (∀ pr, (0 < i → ∃ pl, rd x.c (i - 1) = .ok pl ∧
          ¬ (DiskBTree._disk_read s (DiskBTree._allocate_node DiskBTree.t pl false)).n
            > DiskBTree.t - 1) → i < x.n → rd x.c (i + 1) = .ok pr →
        (DiskBTree._disk_read s (DiskBTree._allocate_node DiskBTree.t pr false)).n
          > DiskBTree.t - 1 →
        DiskBTree._fill DiskBTree.t s x i = DiskBTree._borrow_from_next DiskBTree.t s x i) ∧
      (∀ pr, (0 < i → ∃ pl, rd x.c (i - 1) = .ok pl ∧
          ¬ (DiskBTree._disk_read s (DiskBTree._allocate_node DiskBTree.t pl false)).n
            > DiskBTree.t - 1) → i < x.n → rd x.c (i + 1) = .ok pr →
        ¬ (DiskBTree._disk_read s (DiskBTree._allocate_node DiskBTree.t pr false)).n
          > DiskBTree.t - 1 →
        DiskBTree._fill DiskBTree.t s x i = DiskBTree._merge DiskBTree.t s x i) ∧
      ((0 < i → ∃ pl, rd x.c (i - 1) = .ok pl ∧
          ¬ (DiskBTree._disk_read s (DiskBTree._allocate_node DiskBTree.t pl false)).n
            > DiskBTree.t - 1) → ¬ i < x.n →
        DiskBTree._fill DiskBTree.t s x i = DiskBTree._merge DiskBTree.t s x (i - 1))) ∧
    (∀ (f : Nat) (n : Int) (key : List Int) (c : List (Option BPNode)) (k ki ci : Int)
      (c0 ch p1 p2 p3 : BPNode) (lo ro l r : Option BPNode),
      (BPNode.internal n key c)._get_key_index k = .ok ki →
      (⟨n, key, c⟩ : InternalNode)._get_child_index k ki = .ok ci →
      rd c ci = .ok (some c0) → c0.loadIfLeaf = .ok ch →
      (BPNode.internal n key c).putChild ci ch = .ok p1 → BPlusTree.d - 1 = ch.n →
      (if ci > 0 then rd c (ci - 1) else pure none) = .ok lo →
      (if ci < n then rd c (ci + 1) else pure none) = .ok ro →
      BPlusTree.loadSibling lo = .ok l → BPlusTree.loadSibling ro = .ok r →
      (match l with
        | some lv => p1.putChild (ci - 1) lv
        | none => pure p1) = .ok p2 →
      (match r with
        | some rv => p2.putChild (ci + 1) rv
        | none => pure p2) = .ok p3 →
      (∀ lv, l = some lv → lv.n > BPlusTree.d - 1 →
        BPlusTree._remove BPlusTree.d (f + 1) (.internal n key c) k = (do
          let (c, p, l) ← ch._borrow_from_left p3 (ci - 1) lv
          let p ← p.putChild (ci - 1) l
          let c ← BPlusTree._remove BPlusTree.d f c k
          p.putChild ci c)) ∧
      (∀ rv, (∀ lv, l = some lv → ¬ lv.n > BPlusTree.d - 1) → r = some rv →
        rv.n > BPlusTree.d - 1 →
        BPlusTree._remove BPlusTree.d (f + 1) (.internal n key c) k = (do
          let (c, p, r) ← ch._borrow_from_right p3 ci rv
          let p ← p.putChild (ci + 1) r
          let c ← BPlusTree._remove BPlusTree.d f c k
          p.putChild ci c)) ∧
      (∀ lv, l = some lv → ¬ lv.n > BPlusTree.d - 1 →
        (∀ rv, r = some rv → ¬ rv.n > BPlusTree.d - 1) →
        BPlusTree._remove BPlusTree.d (f + 1) (.internal n key c) k = (do
          let (l, p) ← lv._merge BPlusTree.d p3 (ci - 1) ch
          let l ← BPlusTree._remove BPlusTree.d f l k
          p.putChild (ci - 1) l)) ∧
      (∀ rv, l = none → r = some rv → ¬ rv.n > BPlusTree.d - 1 →
        BPlusTree._remove BPlusTree.d (f + 1) (.internal n key c) k = (do
          let (c, p) ← ch._merge BPlusTree.d p3 ci rv
          let c ← BPlusTree._remove BPlusTree.d f c k
          p.putChild ci c))) := by
  refine ⟨?_, ?_, ?_⟩
  · intro p i
    refine ⟨?_, ?_, ?_, ?_⟩
    · intro l h0 hl hn
      simp only [BTree._fill, h0, if_true, ite_true, hl, Except.ok_bind, deref,
        Except.pure_eq_ok, hn, decide_True]
    · intro r hp hi hr hn
      by_cases h0 : 0 < i
      · obtain ⟨l, hl, hln⟩ := hp h0
        simp only [BTree._fill, h0, if_true, ite_true, hl, Except.ok_bind, deref,
          Except.pure_eq_ok, hln, decide_False, Bool.false_eq_true, if_false, ite_false, hi, hr,
          hn, decide_True]
      · simp only [BTree._fill, h0, if_false, ite_false, Except.ok_bind, deref,
          Except.pure_eq_ok, Bool.false_eq_true, hi, hr, hn, decide_True, if_true, ite_true]
    · intro r hp hi hr hn
      by_cases h0 : 0 < i
      · obtain ⟨l, hl, hln⟩ := hp h0
        simp only [BTree._fill, h0, if_true, ite_true, hl, Except.ok_bind, deref,
          Except.pure_eq_ok, hln, decide_False, Bool.false_eq_true, if_false, ite_false, hi, hr,
          hn]
      · simp only [BTree._fill, h0, if_false, ite_false, Except.ok_bind, deref,
          Except.pure_eq_ok, Bool.false_eq_true, hi, hr, hn, decide_False, if_true, ite_true]
    · intro hp hi
      by_cases h0 : 0 < i
      · obtain ⟨l, hl, hln⟩ := hp h0
        simp only [BTree._fill, h0, if_true, ite_true, hl, Except.ok_bind, deref,
          Except.pure_eq_ok, hln, decide_False, Bool.false_eq_true, if_false, ite_false, hi]
      · simp only [BTree._fill, h0, if_false, ite_false, Except.ok_bind,
          Except.pure_eq_ok, Bool.false_eq_true, hi]
  · intro s x i
    refine ⟨?_, ?_, ?_, ?_⟩
    · intro l h0 hl hn
      simp only [DiskBTree._fill, h0, if_true, ite_true, hl, Except.ok_bind,
        Except.pure_eq_ok, hn, decide_True]
    · intro r hp hi hr hn
      by_cases h0 : 0 < i
      · obtain ⟨l, hl, hln⟩ := hp h0
        simp only [DiskBTree._fill, h0, if_true, ite_true, hl, Except.ok_bind,
          Except.pure_eq_ok, hln, decide_False, Bool.false_eq_true, if_false, ite_false, hi, hr,
          hn, decide_True]
      · simp only [DiskBTree._fill, h0, if_false, ite_false, Except.ok_bind,
          Except.pure_eq_ok, Bool.false_eq_true, hi, hr, hn, decide_True, if_true, ite_true]
    · intro r hp hi hr hn
      by_cases h0 : 0 < i
      · obtain ⟨l, hl, hln⟩ := hp h0
        simp only [DiskBTree._fill, h0, if_true, ite_true, hl, Except.ok_bind,
          Except.pure_eq_ok, hln, decide_False, Bool.false_eq_true, if_false, ite_false, hi, hr,
          hn]
      · simp only [DiskBTree._fill, h0, if_false, ite_false, Except.ok_bind,
          Except.pure_eq_ok, Bool.false_eq_true, hi, hr, hn, decide_False, if_true, ite_true]
    · intro hp hi
      by_cases h0 : 0 < i
      · obtain ⟨l, hl, hln⟩ := hp h0
        simp only [DiskBTree._fill, h0, if_true, ite_true, hl, Except.ok_bind,
          Except.pure_eq_ok, hln, decide_False, Bool.false_eq_true, if_false, ite_false, hi]
      · simp only [DiskBTree._fill, h0, if_false, ite_false, Except.ok_bind,
          Except.pure_eq_ok, Bool.false_eq_true, hi]
  · intro f n key c k ki ci c0 ch p1 p2 p3 lo ro l r e1 e2 e3 e4 e5 e6 e7 e8 e9 e10 e11 e12
    have U := BPlusTree.remove_fill_unfold BPlusTree.d f n key c k ki ci c0 ch p1 p2 p3 lo ro l r
      e1 e2 e3 e4 e5 e6 e7 e8 e9 e10 e11 e12
    refine ⟨?_, ?_, ?_, ?_⟩
    · intro lv hl hn
      subst hl
      rw [U]
      simp only [hn, if_true, ite_true]
    · intro rv hl hr hn
      subst hr
      rw [U]
      cases l with
      | none => simp only [hn, if_true, ite_true]
      | some lv =>
        simp only [hl lv rfl, if_false, ite_false, hn, decide_True, if_true, ite_true, deref,
          Except.ok_bind]
    · intro lv hl hln hr
      subst hl
      rw [U]
      cases r with
      | none => simp only [hln, if_false, ite_false, Bool.false_eq_true]
      | some rv =>
        simp only [hln, if_false, ite_false, hr rv rfl, decide_False, Bool.false_eq_true]
    · intro rv hl hr hn
      subst hl hr
      rw [U]
      simp only [hn, if_false, ite_false]

theorem C31_fill_policy_witness :
    BTree._fill BTree.t
      (BTree.nodeOf BTree.t [16, 32] [BTree.leafOf BTree.t (BTree.keysFrom 1 15),
        BTree.leafOf BTree.t (BTree.keysFrom 17 15), BTree.leafOf BTree.t (BTree.keysFrom 33 15)]) 1
      = BTree._merge
        (BTree.nodeOf BTree.t [16, 32] [BTree.leafOf BTree.t (BTree.keysFrom 1 15),
          BTree.leafOf BTree.t (BTree.keysFrom 17 15),
          BTree.leafOf BTree.t (BTree.keysFrom 33 15)]) 1 :=
  (C31_fill_policy.1
    (BTree.nodeOf BTree.t [16, 32] [BTree.leafOf BTree.t (BTree.keysFrom 1 15),
      BTree.leafOf BTree.t (BTree.keysFrom 17 15), BTree.leafOf BTree.t (BTree.keysFrom 33 15)])
    1).2.2.1 (BTree.leafOf BTree.t (BTree.keysFrom 33 15))
    (fun _ => ⟨BTree.leafOf BTree.t (BTree.keysFrom 1 15), rfl, by decide⟩) (by decide) rfl
    (by decide)

set_option maxRecDepth 100000

/-- C39: a twice-inserted key of the B+ tree (`d = 32`) can become unreachable. The keys 1 .. 31
are inserted, then 31 a second time, then 32 .. 63. The 64th insert splits the full root leaf
between its two entries with key 31: the left leaf holds 1 .. 31, the right leaf starts with the
second 31, and the separator in the root is 31. The first `remove(31)` returns true and removes
the entry of the right leaf; after it `contains(31)` returns false and the second `remove(31)`
returns false, although the left leaf still holds an entry with key 31. -/
theorem C39_duplicate_key_becomes_unreachable :
    (do
      let t0 ← BPlusTree.insertAll BPlusTree.d 5 ⟨none⟩ BPlusTree.dupHistory
      let (t1, r1) ← BPlusTree.remove BPlusTree.d 5 t0 31
      let (t2, c1) ← BPlusTree.contains 5 t1 31
      let (t3, r2) ← BPlusTree.remove BPlusTree.d 5 t2 31
      pure (BPlusTree.leafReport 31 t0, r1, c1, r2, BPlusTree.leafReport 31 t3) : Except Err _)
      = .ok (some ([31], [(31, true), (33, true)]), true, false, false,
          some ([31], [(31, true), (32, false)])) := by
  rfl

